import Mathlib

/-!
# Residual networks and maximum-flow solvers

A shallow embedding of the solvers under `src/algorithms`.

Conventions of the embedding.

* `std::vector<T>` is a `List T`; `v[i]` is `List.getD`, `v[i] = x` is `List.set`,
  `v.push_back x` is `++ [x]`.
* Node identifiers, positions in adjacency lists and heights are natural numbers.
  Capacities, flow amounts and excesses are integers (`Int`); the arithmetic on them is
  exact, and the capacity bounds proved below show that every value stays inside the
  machine range it is stored in.
* Loops whose termination is not structural carry a fuel argument and return `none`
  when the fuel runs out.
* The field `hist` of a solver state is a ghost log: the residual network after every
  paired capacity update, newest first.
-/

set_option autoImplicit false

namespace Residual

/-- One arc of a residual network: `struct Edge { int to, rev, cap; }`; the field `to` is
named `dst` here. -/
structure Edge where
  dst : Nat
  rev : Nat
  cap : Int
deriving DecidableEq, Repr, Inhabited

/-- Adjacency lists: `std::vector<std::vector<Edge>> adj`. -/
abbrev Adj := List (List Edge)

/-- An input edge `from to cap` (0-indexed endpoints). -/
abbrev InEdge := Nat × Nat × Int

/-- The arc list `adj[u]`. -/
def arcs (adj : Adj) (u : Nat) : List Edge := adj.getD u []

/-- The arc `adj[u][i]`. -/
def arc (adj : Adj) (u i : Nat) : Edge := (arcs adj u).getD i default

/-- The statement `adj[u].push_back(e)`. -/
def pushBack (adj : Adj) (u : Nat) (e : Edge) : Adj := adj.set u (arcs adj u ++ [e])

/-- The statement `adj[u][i].cap += d`. -/
def addCap (adj : Adj) (u i : Nat) (d : Int) : Adj :=
  adj.set u ((arcs adj u).set i { arc adj u i with cap := (arc adj u i).cap + d })

/-- The body shared by the `addEdge` of the four augmenting-path solvers. -/
def addEdge (adj : Adj) (u v : Nat) (cap : Int) : Adj :=
  if u ≠ v ∧ cap ≥ 1 then
    let adj1 := pushBack adj u ⟨v, (arcs adj v).length, cap⟩
    pushBack adj1 v ⟨u, (arcs adj1 u).length - 1, 0⟩
  else adj

/-- The body shared by `add_edge` / `addEdge` of the three preflow-push solvers. -/
def addEdgePreflow (s t : Nat) (adj : Adj) (u v : Nat) (cap : Int) : Adj :=
  if u ≠ v ∧ u ≠ t ∧ v ≠ s ∧ cap ≥ 1 then
    let adj1 := pushBack adj u ⟨v, (arcs adj v).length, cap⟩
    pushBack adj1 v ⟨u, (arcs adj1 u).length - 1, 0⟩
  else adj

/-- The constructor followed by the `addEdge` loop of `main` (augmenting-path solvers). -/
def build (n : Nat) (edges : List InEdge) : Adj :=
  edges.foldl (fun adj e => addEdge adj e.1 e.2.1 e.2.2) (List.replicate n [])

/-- The constructor followed by the `add_edge` loop of `main` (preflow-push solvers). -/
def buildPreflow (n s t : Nat) (edges : List InEdge) : Adj :=
  edges.foldl (fun adj e => addEdgePreflow s t adj e.1 e.2.1 e.2.2) (List.replicate n [])

end Residual

open Residual

namespace FordFulkersonDFS

/-- `FordFulkersonDFS::addEdge` (dfs.cpp). -/
abbrev addEdge := @Residual.addEdge

end FordFulkersonDFS

namespace EdmondsKarp

/-- `EdmondsKarp::addEdge` (edmonds_karp.cpp). -/
abbrev addEdge := @Residual.addEdge

end EdmondsKarp

namespace Dinic

/-- `Dinic::addEdge` (dinic.cpp). -/
abbrev addEdge := @Residual.addEdge

end Dinic

namespace MostImprovingAugmentingPaths

/-- `MostImprovingAugmentingPaths::addEdge` (most_improving.cpp). -/
abbrev addEdge := @Residual.addEdge

end MostImprovingAugmentingPaths

namespace FIFOPP

/-- `FIFOPP::add_edge` (fifopp.cpp); `s` and `t` are the fields of the object. -/
abbrev add_edge := @Residual.addEdgePreflow

end FIFOPP

namespace HLPP

/-- `HLPP::add_edge` (hlpp.cpp); `s` and `t` are the fields of the object. -/
abbrev add_edge := @Residual.addEdgePreflow

end HLPP

namespace HLPPHeuristic

/-- `HLPP::addEdge` (hlpp_heuristic.cpp); `s` and `t` are the fields of the object. -/
abbrev addEdge := @Residual.addEdgePreflow

end HLPPHeuristic

namespace FordFulkersonRandomDFS

/-- The arc record of random_dfs.cpp: `struct Edge { int to, cap; }`; the field `to` is
named `dst` here. -/
structure REdge where
  dst : Nat
  cap : Int
deriving DecidableEq, Repr, Inhabited

/-- The network of random_dfs.cpp: `adj[v]` lists positions in `edges`. -/
structure Net where
  adj : List (List Nat)
  edges : List REdge
deriving DecidableEq, Repr

/-- `FordFulkersonRandomDFS::addEdge` (random_dfs.cpp). -/
def addEdge (g : Net) (u v : Nat) (cap : Int) : Net :=
  if u ≠ v ∧ cap ≥ 1 then
    let adj1 := g.adj.set u (g.adj.getD u [] ++ [g.edges.length])
    let adj2 := adj1.set v (adj1.getD v [] ++ [g.edges.length + 1])
    { adj := adj2, edges := (g.edges ++ [⟨v, cap⟩]) ++ [⟨u, 0⟩] }
  else g

/-- The constructor followed by the `addEdge` loop of `main`. -/
def build (n : Nat) (edges : List InEdge) : Net :=
  edges.foldl (fun g e => addEdge g e.1 e.2.1 e.2.2) ⟨List.replicate n [], []⟩

end FordFulkersonRandomDFS

/-! ## Predicates on the constructed network -/

namespace Residual

/-- The two `push_back` statements of `addEdge`, executed unconditionally. -/
def addPair (adj : Adj) (u v : Nat) (cap : Int) : Adj :=
  pushBack (pushBack adj u ⟨v, (arcs adj v).length, cap⟩) v
    ⟨u, (arcs (pushBack adj u ⟨v, (arcs adj v).length, cap⟩) u).length - 1, 0⟩

/-- Every arc points at a node of the network other than its tail, and the arc stored at
its `rev` position in the head's list points back at it. -/
def Paired (adj : Adj) : Prop :=
  ∀ u i, i < (arcs adj u).length →
    (arc adj u i).dst < adj.length ∧ (arc adj u i).dst ≠ u ∧
    (arc adj u i).rev < (arcs adj (arc adj u i).dst).length ∧
    (arc adj (arc adj u i).dst (arc adj u i).rev).dst = u ∧
    (arc adj (arc adj u i).dst (arc adj u i).rev).rev = i

/-- The edges kept by `addEdge` of the augmenting-path solvers. -/
def kept (e : InEdge) : Bool := decide (e.1 ≠ e.2.1 ∧ e.2.2 ≥ 1)

/-- The edges kept by `add_edge` of the preflow-push solvers. -/
def keptPreflow (s t : Nat) (e : InEdge) : Bool :=
  decide (e.1 ≠ e.2.1 ∧ e.1 ≠ t ∧ e.2.1 ≠ s ∧ e.2.2 ≥ 1)

/-- The arcs of node `w`, as (head, initial capacity), in the order of the input lines:
a kept edge `u v c` gives `(v, c)` at `u` and `(u, 0)` at `v`. -/
def arcsInOrder (keep : InEdge → Bool) (edges : List InEdge) (w : Nat) : List (Nat × Int) :=
  edges.filterMap (fun e =>
    if keep e then
      (if e.1 = w then some (e.2.1, e.2.2) else if e.2.1 = w then some (e.1, 0) else none)
    else none)

/-- The network `r` is `adj` with one arc `(v, cap)` appended to the list of `u` and one arc
`(u, 0)` appended to the list of `v`, the two new arcs storing each other's position, and
nothing else changed. -/
def AppendsPair (adj r : Adj) (u v : Nat) (cap : Int) : Prop :=
  r.length = adj.length ∧
  arcs r u = arcs adj u ++ [⟨v, (arcs adj v).length, cap⟩] ∧
  arcs r v = arcs adj v ++ [⟨u, (arcs adj u).length, 0⟩] ∧
  (∀ w, w ≠ u → w ≠ v → arcs r w = arcs adj w) ∧
  (∀ w i, i < (arcs adj w).length → arc r w i = arc adj w i) ∧
  arc r v (arc r u (arcs adj u).length).rev = ⟨u, (arcs adj u).length, 0⟩ ∧
  arc r u (arc r v (arcs adj v).length).rev = ⟨v, (arcs adj v).length, cap⟩

/-- The construction loop with the guard of `addEdge` abstracted to `keep`. -/
def buildWith (keep : InEdge → Bool) (n : Nat) (edges : List InEdge) : Adj :=
  edges.foldl (fun adj e => if keep e then addPair adj e.1 e.2.1 e.2.2 else adj)
    (List.replicate n [])

/-- All endpoints of the input edges are nodes. -/
def InRange (n : Nat) (edges : List InEdge) : Prop :=
  ∀ e ∈ edges, e.1 < n ∧ e.2.1 < n

end Residual

/-! ## Machine constants -/

namespace Residual

/-- `std::numeric_limits<int>::max()`. -/
def INT_MAX : Int := 2147483647

/-- `std::numeric_limits<long long>::max()`. -/
def LLONG_MAX : Int := 9223372036854775807

/-- The initial excess of the source in the preflow-push solvers: `(1LL << 60) + 5`. -/
def SOURCE_EXCESS : Int := 1152921504606846981

end Residual

/-! ## dfs.cpp -/

namespace FordFulkersonDFS

/-- The mutable fields of `FordFulkersonDFS`, and the ghost log `hist`. -/
structure State where
  adj : Adj
  visited : List Bool
  hist : List Adj

/-- The constructor: `adj.resize(n); visited.resize(n);` followed by the `addEdge` loop. -/
def init (n : Nat) (edges : List InEdge) : State :=
  { adj := build n edges, visited := List.replicate n false, hist := [build n edges] }

/-- The `for (Edge& e : adj[v])` loop of `dfs`, over the remaining positions `is`; `rec` is
the recursive call `dfs`. -/
def dfsFor (rec : Nat → Int → State → Option (Int × State)) (v : Nat) (flow : Int) :
    List Nat → State → Option (Int × State)
  | [], st => some (0, st)
  | i :: is, st =>
    if (st.visited.getD (arc st.adj v i).dst false = false) ∧ (arc st.adj v i).cap ≠ 0 then
      match rec (arc st.adj v i).dst (min flow (arc st.adj v i).cap) st with
      | none => none
      | some (d, st1) =>
        if d ≥ 1 then
          let adj1 := addCap st1.adj v i (-d)
          let adj2 := addCap adj1 (arc adj1 v i).dst (arc adj1 v i).rev d
          some (d, { st1 with adj := adj2, hist := adj2 :: st1.hist })
        else dfsFor rec v flow is st1
    else dfsFor rec v flow is st

/-- `FordFulkersonDFS::dfs`; the first argument bounds the recursion depth. -/
def dfs (t : Nat) : Nat → Nat → Int → State → Option (Int × State)
  | 0, _, _, _ => none
  | fuel + 1, v, flow, st =>
    if v = t then some (flow, st)
    else
      dfsFor (dfs t fuel) v flow (List.range (arcs st.adj v).length)
        { st with visited := st.visited.set v true }

/-- The `while (true)` loop of `FordFulkersonDFS::flow`; `F` is the fuel handed to `dfs`. -/
def flowLoop (s t F : Nat) : Nat → State → Int → Option (Int × State)
  | 0, _, _ => none
  | k + 1, st, acc =>
    match dfs t F s INT_MAX { st with visited := List.replicate st.visited.length false } with
    | none => none
    | some (d, st1) => if d = 0 then some (acc, st1) else flowLoop s t F k st1 (acc + d)

/-- `FordFulkersonDFS::flow`. -/
def flow (s t fuel : Nat) (st : State) : Option (Int × State) :=
  flowLoop s t fuel fuel st 0

/-- The program of dfs.cpp: the number printed for `n` nodes and the given edge lines. -/
def run (fuel n : Nat) (edges : List InEdge) : Option Int :=
  (flow 0 (n - 1) fuel (init n edges)).map Prod.fst

end FordFulkersonDFS

/-! ## edmonds_karp.cpp -/

namespace EdmondsKarp

/-- The mutable fields of `EdmondsKarp`, and the ghost log `hist`. -/
structure State where
  adj : Adj
  que : List Nat
  parent : List Int
  path_cap : List Int
  hist : List Adj

/-- The constructor followed by the `addEdge` loop. -/
def init (n : Nat) (edges : List InEdge) : State :=
  { adj := build n edges, que := List.replicate n 0, parent := List.replicate n 0,
    path_cap := List.replicate n 0, hist := [build n edges] }

/-- The `for (const Edge& e : adj[v])` loop of `bfs`; the result is `(returned true, state,
queEnd)`. -/
def bfsFor (t v : Nat) : List Edge → State → Nat → Bool × State × Nat
  | [], st, queEnd => (false, st, queEnd)
  | e :: es, st, queEnd =>
    if e.cap = 0 ∨ st.parent.getD e.dst 0 ≠ -1 then bfsFor t v es st queEnd
    else
      let st1 := { st with
        parent := st.parent.set e.dst (e.rev : Int),
        path_cap := st.path_cap.set e.dst (min (st.path_cap.getD v 0) e.cap) }
      if e.dst = t then (true, st1, queEnd)
      else bfsFor t v es { st1 with que := st1.que.set queEnd e.dst } (queEnd + 1)

/-- The `while (queBegin < queEnd)` loop of `bfs`. -/
def bfsWhile (t : Nat) : Nat → State → Nat → Nat → Option (Bool × State)
  | 0, _, _, _ => none
  | k + 1, st, queBegin, queEnd =>
    if queBegin < queEnd then
      match bfsFor t (st.que.getD queBegin 0) (arcs st.adj (st.que.getD queBegin 0)) st queEnd with
      | (true, st1, _) => some (true, st1)
      | (false, st1, queEnd1) => bfsWhile t k st1 (queBegin + 1) queEnd1
    else some (false, st)

/-- `EdmondsKarp::bfs`. -/
def bfs (s t fuel : Nat) (st : State) : Option (Bool × State) :=
  bfsWhile t fuel
    { st with
      parent := (List.replicate st.parent.length (-1)).set s (-2),
      path_cap := st.path_cap.set s INT_MAX,
      que := st.que.set 0 s } 0 1

/-- The `while (v != s)` loop of `flow`, pushing `d = path_cap[t]` along the parent arcs. -/
def augment (s : Nat) (d : Int) : Nat → State → Nat → Option State
  | 0, _, _ => none
  | k + 1, st, v =>
    if v ≠ s then
      let i := (st.parent.getD v 0).toNat
      let adj1 := addCap st.adj v i d
      let adj2 := addCap adj1 (arc adj1 v i).dst (arc adj1 v i).rev (-d)
      augment s d k { st with adj := adj2, hist := adj2 :: st.hist } (arc adj2 v i).dst
    else some st

/-- The `while (bfs())` loop of `flow`; `F` is the fuel handed to the inner loops. -/
def flowLoop (s t F : Nat) : Nat → State → Int → Option (Int × State)
  | 0, _, _ => none
  | k + 1, st, ans =>
    match bfs s t F st with
    | none => none
    | some (false, st1) => some (ans, st1)
    | some (true, st1) =>
      match augment s (st1.path_cap.getD t 0) F st1 t with
      | none => none
      | some st2 => flowLoop s t F k st2 (ans + st1.path_cap.getD t 0)

/-- `EdmondsKarp::flow`. -/
def flow (s t fuel : Nat) (st : State) : Option (Int × State) :=
  flowLoop s t fuel fuel st 0

/-- The program of edmonds_karp.cpp. -/
def run (fuel n : Nat) (edges : List InEdge) : Option Int :=
  (flow 0 (n - 1) fuel (init n edges)).map Prod.fst

end EdmondsKarp

/-! ## dinic.cpp -/

namespace Dinic

/-- The mutable fields of `Dinic`, and the ghost log `hist`. -/
structure State where
  adj : Adj
  label : List Nat
  que : List Nat
  iter : List Nat
  hist : List Adj

/-- The constructor followed by the `addEdge` loop. -/
def init (n : Nat) (edges : List InEdge) : State :=
  { adj := build n edges, label := List.replicate n 0, que := List.replicate n 0,
    iter := List.replicate n 0, hist := [build n edges] }

/-- The `for (const Edge& e : adj[v])` loop of `bfs`; the result is `(returned true, state,
queEnd)`. -/
def bfsFor (n t v : Nat) : List Edge → State → Nat → Bool × State × Nat
  | [], st, queEnd => (false, st, queEnd)
  | e :: es, st, queEnd =>
    if e.cap = 0 ∨ st.label.getD e.dst 0 < n then bfsFor n t v es st queEnd
    else
      let st1 := { st with label := st.label.set e.dst (st.label.getD v 0 + 1) }
      if e.dst = t then (true, st1, queEnd)
      else bfsFor n t v es { st1 with que := st1.que.set queEnd e.dst } (queEnd + 1)

/-- The `while (queBegin < queEnd)` loop of `bfs`. -/
def bfsWhile (n t : Nat) : Nat → State → Nat → Nat → Option (Bool × State)
  | 0, _, _, _ => none
  | k + 1, st, queBegin, queEnd =>
    if queBegin < queEnd then
      match bfsFor n t (st.que.getD queBegin 0) (arcs st.adj (st.que.getD queBegin 0)) st
          queEnd with
      | (true, st1, _) => some (true, st1)
      | (false, st1, queEnd1) => bfsWhile n t k st1 (queBegin + 1) queEnd1
    else some (false, st)

/-- `Dinic::bfs`. -/
def bfs (n s t fuel : Nat) (st : State) : Option (Bool × State) :=
  bfsWhile n t fuel
    { st with
      label := (List.replicate st.label.length n).set s 0,
      que := st.que.set 0 s } 0 1

/-- The `for (; iter[v] < adj[v].size(); ++iter[v])` loop of `dfs`; `rec` is the recursive
call, `res` the local accumulator. -/
def dfsFor (n : Nat) (rec : Nat → Int → State → Option (Int × State)) (v : Nat) (up : Int) :
    Nat → Int → State → Option (Int × State)
  | 0, _, _ => none
  | k + 1, res, st =>
    if st.iter.getD v 0 < (arcs st.adj v).length then
      let i := st.iter.getD v 0
      let e := arc st.adj v i
      if (arc st.adj e.dst e.rev).cap = 0 ∨ st.label.getD v 0 ≤ st.label.getD e.dst 0 then
        dfsFor n rec v up k res { st with iter := st.iter.set v (i + 1) }
      else
        match rec e.dst (min (arc st.adj e.dst e.rev).cap (up - res)) st with
        | none => none
        | some (d, st1) =>
          let adj1 := addCap st1.adj v i d
          let adj2 := addCap adj1 (arc adj1 v i).dst (arc adj1 v i).rev (-d)
          let st2 := { st1 with adj := adj2, hist := adj2 :: st1.hist }
          if res + d = up then some (res + d, st2)
          else dfsFor n rec v up k (res + d)
            { st2 with iter := st2.iter.set v (st2.iter.getD v 0 + 1) }
    else some (res, { st with label := st.label.set v n })

/-- `Dinic::dfs`; the argument `F` is the fuel of the inner loop, the next one bounds the
recursion depth. -/
def dfs (n s F : Nat) : Nat → Nat → Int → State → Option (Int × State)
  | 0, _, _, _ => none
  | fuel + 1, v, up, st =>
    if v = s then some (up, st)
    else dfsFor n (dfs n s F fuel) v up F 0 st

/-- The `while (bfs())` loop of `flow`. -/
def flowLoop (n s t F : Nat) : Nat → State → Int → Option (Int × State)
  | 0, _, _ => none
  | k + 1, st, ans =>
    match bfs n s t F st with
    | none => none
    | some (false, st1) => some (ans, st1)
    | some (true, st1) =>
      match dfs n s F F t LLONG_MAX { st1 with iter := List.replicate st1.iter.length 0 } with
      | none => none
      | some (d, st2) => flowLoop n s t F k st2 (ans + d)

/-- `Dinic::flow`. -/
def flow (n s t fuel : Nat) (st : State) : Option (Int × State) :=
  flowLoop n s t fuel fuel st 0

/-- The program of dinic.cpp. -/
def run (fuel n : Nat) (edges : List InEdge) : Option Int :=
  (flow n 0 (n - 1) fuel (init n edges)).map Prod.fst

end Dinic

/-! ## most_improving.cpp -/

namespace MostImprovingAugmentingPaths

/-- The order of `std::pair<int, int>`: lexicographic. -/
def pairLe (a b : Int × Nat) : Bool := decide (a.1 < b.1 ∨ (a.1 = b.1 ∧ a.2 ≤ b.2))

/-- `pq.top()` of `std::priority_queue<std::pair<int, int>>`: a largest element; the queue
is kept as the list of its elements. -/
def pqTop : List (Int × Nat) → Int × Nat
  | [] => (0, 0)
  | a :: l => l.foldl (fun m b => if pairLe m b then b else m) a

/-- `pq.pop()`: removes one copy of the largest element. -/
def pqPop (pq : List (Int × Nat)) : List (Int × Nat) := pq.erase (pqTop pq)

/-- The mutable fields of `MostImprovingAugmentingPaths`, and the ghost log `hist`. -/
structure State where
  adj : Adj
  parent : List Int
  path_cap : List Int
  hist : List Adj

/-- The constructor followed by the `addEdge` loop. -/
def init (n : Nat) (edges : List InEdge) : State :=
  { adj := build n edges, parent := List.replicate n 0, path_cap := List.replicate n 0,
    hist := [build n edges] }

/-- The `for (const Edge& e : adj[v])` loop of `dijkstra`; the result is the state and the
priority queue. -/
def dijkstraFor (flow : Int) : List Edge → State → List (Int × Nat) → State × List (Int × Nat)
  | [], st, pq => (st, pq)
  | e :: es, st, pq =>
    if min flow e.cap > st.path_cap.getD e.dst 0 then
      dijkstraFor flow es
        { st with
          path_cap := st.path_cap.set e.dst (min flow e.cap),
          parent := st.parent.set e.dst (e.rev : Int) }
        (pq ++ [(min flow e.cap, e.dst)])
    else dijkstraFor flow es st pq

/-- The `while (!pq.empty())` loop of `dijkstra`. -/
def dijkstraWhile (t : Nat) : Nat → State → List (Int × Nat) → Option (Bool × State)
  | 0, _, _ => none
  | k + 1, st, pq =>
    if pq ≠ [] then
      let top := pqTop pq
      let pq1 := pqPop pq
      if top.2 = t then some (true, st)
      else if top.1 < st.path_cap.getD top.2 0 then dijkstraWhile t k st pq1
      else
        match dijkstraFor top.1 (arcs st.adj top.2) st pq1 with
        | (st1, pq2) => dijkstraWhile t k st1 pq2
    else some (false, st)

/-- `MostImprovingAugmentingPaths::dijkstra`. -/
def dijkstra (s t fuel : Nat) (st : State) : Option (Bool × State) :=
  dijkstraWhile t fuel
    { st with
      path_cap := (List.replicate st.path_cap.length 0).set s INT_MAX,
      parent := st.parent.set s (-2) }
    [(INT_MAX, s)]

/-- The `while (v != s)` loop of `flow`. -/
def augment (s : Nat) (d : Int) : Nat → State → Nat → Option State
  | 0, _, _ => none
  | k + 1, st, v =>
    if v ≠ s then
      let i := (st.parent.getD v 0).toNat
      let adj1 := addCap st.adj v i d
      let adj2 := addCap adj1 (arc adj1 v i).dst (arc adj1 v i).rev (-d)
      augment s d k { st with adj := adj2, hist := adj2 :: st.hist } (arc adj2 v i).dst
    else some st

/-- The `while (dijkstra())` loop of `flow`. -/
def flowLoop (s t F : Nat) : Nat → State → Int → Option (Int × State)
  | 0, _, _ => none
  | k + 1, st, ans =>
    match dijkstra s t F st with
    | none => none
    | some (false, st1) => some (ans, st1)
    | some (true, st1) =>
      match augment s (st1.path_cap.getD t 0) F st1 t with
      | none => none
      | some st2 => flowLoop s t F k st2 (ans + st1.path_cap.getD t 0)

/-- `MostImprovingAugmentingPaths::flow`. -/
def flow (s t fuel : Nat) (st : State) : Option (Int × State) :=
  flowLoop s t fuel fuel st 0

/-- The program of most_improving.cpp. -/
def run (fuel n : Nat) (edges : List InEdge) : Option Int :=
  (flow 0 (n - 1) fuel (init n edges)).map Prod.fst

end MostImprovingAugmentingPaths

/-! ## fifopp.cpp -/

namespace FIFOPP

/-- The mutable fields of `FIFOPP`, and the ghost log `hist`; `active` is the
`std::queue<int>`, front first. -/
structure State where
  adj : Adj
  height : List Nat
  iter : List Nat
  excess : List Int
  active : List Nat
  hist : List Adj

/-- The constructor followed by the `add_edge` loop. -/
def init (n s t : Nat) (edges : List InEdge) : State :=
  { adj := buildPreflow n s t edges, height := List.replicate n 0,
    iter := List.replicate n 0, excess := List.replicate n 0, active := [],
    hist := [buildPreflow n s t edges] }

/-- `FIFOPP::push(v, e)` with `e = adj[v][i]`. -/
def push (s t : Nat) (st : State) (v i : Nat) : State :=
  let e := arc st.adj v i
  let d := min (st.excess.getD v 0) e.cap
  if d ≤ 0 ∨ st.height.getD v 0 ≤ st.height.getD e.dst 0 then st
  else
    let active1 :=
      if st.excess.getD e.dst 0 = 0 ∧ e.dst ≠ s ∧ e.dst ≠ t then st.active ++ [e.dst]
      else st.active
    let excess1 := st.excess.set v (st.excess.getD v 0 - d)
    let excess2 := excess1.set e.dst (excess1.getD e.dst 0 + d)
    let adj1 := addCap st.adj v i (-d)
    let adj2 := addCap adj1 (arc adj1 v i).dst (arc adj1 v i).rev d
    { st with active := active1, excess := excess2, adj := adj2, hist := adj2 :: st.hist }

/-- `FIFOPP::relabel(v)`. -/
def relabel (n : Nat) (st : State) (v : Nat) : State :=
  (arcs st.adj v).foldl
    (fun st1 e =>
      if e.cap > 0 then
        { st1 with
          height := st1.height.set v (min (st1.height.getD v 0) (st1.height.getD e.dst 0 + 1)) }
      else st1)
    { st with height := st.height.set v (2 * n) }

/-- The inner `while (iter[v] < adj[v].size())` loop of `discharge`; the flag tells whether
the loop left through `return`. -/
def dischargeScan (s t : Nat) : Nat → State → Nat → Option (Bool × State)
  | 0, _, _ => none
  | k + 1, st, v =>
    if st.iter.getD v 0 < (arcs st.adj v).length then
      let st1 := push s t st v (st.iter.getD v 0)
      if st1.excess.getD v 0 ≤ 0 then some (true, st1)
      else dischargeScan s t k { st1 with iter := st1.iter.set v (st1.iter.getD v 0 + 1) } v
    else some (false, st)

/-- `FIFOPP::discharge(v)`: the outer `while (excess[v] > 0)` loop. -/
def discharge (n s t F : Nat) : Nat → State → Nat → Option State
  | 0, _, _ => none
  | k + 1, st, v =>
    if st.excess.getD v 0 > 0 then
      match dischargeScan s t F st v with
      | none => none
      | some (true, st1) => some st1
      | some (false, st1) =>
        discharge n s t F k { relabel n st1 v with iter := (relabel n st1 v).iter.set v 0 } v
    else some st

/-- The `for (const Edge& e : adj[v])` loop of the search in `preprocess`; `q` is the local
`std::queue<int>`. -/
def preprocessFor (n v : Nat) : List Edge → State → List Nat → State × List Nat
  | [], st, q => (st, q)
  | e :: es, st, q =>
    if st.height.getD e.dst 0 = n ∧ (arc st.adj e.dst e.rev).cap > 0 then
      preprocessFor n v es { st with height := st.height.set e.dst (st.height.getD v 0 + 1) }
        (q ++ [e.dst])
    else preprocessFor n v es st q

/-- The `while (!q.empty())` loop of `preprocess`. -/
def preprocessWhile (n : Nat) : Nat → State → List Nat → Option State
  | 0, _, _ => none
  | k + 1, st, q =>
    match q with
    | [] => some st
    | v :: q1 =>
      match preprocessFor n v (arcs st.adj v) st q1 with
      | (st1, q2) => preprocessWhile n k st1 q2

/-- The final `for (Edge& e : adj[s]) push(s, e)` loop of `preprocess`. -/
def pushAll (s t : Nat) (st : State) : State :=
  (List.range (arcs st.adj s).length).foldl (fun st1 i => push s t st1 s i) st

/-- `FIFOPP::preprocess`. -/
def preprocess (n s t fuel : Nat) (st : State) : Option State :=
  match preprocessWhile n fuel
      { st with height := (List.replicate st.height.length n).set t 0 } [t] with
  | none => none
  | some st1 =>
    some (pushAll s t
      { st1 with height := st1.height.set s n, excess := st1.excess.set s SOURCE_EXCESS })

/-- The `while (!active.empty())` loop of `flow`. -/
def flowLoop (n s t F : Nat) : Nat → State → Option State
  | 0, _ => none
  | k + 1, st =>
    match st.active with
    | [] => some st
    | v :: rest =>
      match discharge n s t F F { st with active := rest } v with
      | none => none
      | some st1 => flowLoop n s t F k st1

/-- `FIFOPP::flow`. -/
def flow (n s t fuel : Nat) (st : State) : Option (Int × State) :=
  match preprocess n s t fuel st with
  | none => none
  | some st1 =>
    match flowLoop n s t fuel fuel st1 with
    | none => none
    | some st2 => some (st2.excess.getD t 0, st2)

/-- The program of fifopp.cpp. -/
def run (fuel n : Nat) (edges : List InEdge) : Option Int :=
  (flow n 0 (n - 1) fuel (init n 0 (n - 1) edges)).map Prod.fst

end FIFOPP

/-! ## hlpp.cpp -/

namespace HLPP

/-- The mutable fields of `HLPP` (hlpp.cpp), and the ghost log `hist`. -/
structure State where
  adj : Adj
  height : List Nat
  iter : List Nat
  excess : List Int
  buckets : List (List Nat)
  max_height : Nat
  hist : List Adj

/-- The constructor followed by the `add_edge` loop. -/
def init (n s t : Nat) (edges : List InEdge) : State :=
  { adj := buildPreflow n s t edges, height := List.replicate n 0,
    iter := List.replicate n 0, excess := List.replicate n 0,
    buckets := List.replicate (2 * n) [], max_height := 0,
    hist := [buildPreflow n s t edges] }

/-- `HLPP::push(v, e)` with `e = adj[v][i]`. -/
def push (s t : Nat) (st : State) (v i : Nat) : State :=
  let e := arc st.adj v i
  let d := min (st.excess.getD v 0) e.cap
  if d ≤ 0 ∨ st.height.getD v 0 ≤ st.height.getD e.dst 0 then st
  else
    let st1 : State :=
      if st.excess.getD e.dst 0 = 0 ∧ e.dst ≠ s ∧ e.dst ≠ t then
        { st with
          buckets := st.buckets.set (st.height.getD e.dst 0)
            (st.buckets.getD (st.height.getD e.dst 0) [] ++ [e.dst]),
          max_height := max st.max_height (st.height.getD e.dst 0) }
      else st
    let excess1 := st1.excess.set v (st1.excess.getD v 0 - d)
    let excess2 := excess1.set e.dst (excess1.getD e.dst 0 + d)
    let adj1 := addCap st1.adj v i (-d)
    let adj2 := addCap adj1 (arc adj1 v i).dst (arc adj1 v i).rev d
    { st1 with excess := excess2, adj := adj2, hist := adj2 :: st1.hist }

/-- `HLPP::relabel(v)`. -/
def relabel (n : Nat) (st : State) (v : Nat) : State :=
  (arcs st.adj v).foldl
    (fun st1 e =>
      if e.cap > 0 then
        { st1 with
          height := st1.height.set v (min (st1.height.getD v 0) (st1.height.getD e.dst 0 + 1)) }
      else st1)
    { st with height := st.height.set v (2 * n) }

/-- The inner `while (iter[v] < adj[v].size())` loop of `discharge`; the flag tells whether
the loop left through `return`. -/
def dischargeScan (s t : Nat) : Nat → State → Nat → Option (Bool × State)
  | 0, _, _ => none
  | k + 1, st, v =>
    if st.iter.getD v 0 < (arcs st.adj v).length then
      let st1 := push s t st v (st.iter.getD v 0)
      if st1.excess.getD v 0 ≤ 0 then some (true, st1)
      else dischargeScan s t k { st1 with iter := st1.iter.set v (st1.iter.getD v 0 + 1) } v
    else some (false, st)

/-- `HLPP::discharge(v)`: the outer `while (excess[v] > 0)` loop. -/
def discharge (n s t F : Nat) : Nat → State → Nat → Option State
  | 0, _, _ => none
  | k + 1, st, v =>
    if st.excess.getD v 0 > 0 then
      match dischargeScan s t F st v with
      | none => none
      | some (true, st1) => some st1
      | some (false, st1) =>
        discharge n s t F k { relabel n st1 v with iter := (relabel n st1 v).iter.set v 0 } v
    else some st

/-- The `for (const Edge& e : adj[v])` loop of the search in `preprocess`. -/
def preprocessFor (n v : Nat) : List Edge → State → List Nat → State × List Nat
  | [], st, q => (st, q)
  | e :: es, st, q =>
    if st.height.getD e.dst 0 = n ∧ (arc st.adj e.dst e.rev).cap > 0 then
      preprocessFor n v es { st with height := st.height.set e.dst (st.height.getD v 0 + 1) }
        (q ++ [e.dst])
    else preprocessFor n v es st q

/-- The `while (!q.empty())` loop of `preprocess`. -/
def preprocessWhile (n : Nat) : Nat → State → List Nat → Option State
  | 0, _, _ => none
  | k + 1, st, q =>
    match q with
    | [] => some st
    | v :: q1 =>
      match preprocessFor n v (arcs st.adj v) st q1 with
      | (st1, q2) => preprocessWhile n k st1 q2

/-- The final `for (Edge& e : adj[s]) push(s, e)` loop of `preprocess`. -/
def pushAll (s t : Nat) (st : State) : State :=
  (List.range (arcs st.adj s).length).foldl (fun st1 i => push s t st1 s i) st

/-- `HLPP::preprocess`. -/
def preprocess (n s t fuel : Nat) (st : State) : Option State :=
  match preprocessWhile n fuel
      { st with height := (List.replicate st.height.length n).set t 0 } [t] with
  | none => none
  | some st1 =>
    some (pushAll s t
      { st1 with height := st1.height.set s n, excess := st1.excess.set s SOURCE_EXCESS })

/-- The `while (max_height >= 1)` loop of `flow`. -/
def flowLoop (n s t F : Nat) : Nat → State → Option State
  | 0, _ => none
  | k + 1, st =>
    if st.max_height ≥ 1 then
      if st.buckets.getD st.max_height [] = [] then
        flowLoop n s t F k { st with max_height := st.max_height - 1 }
      else
        match discharge n s t F F
            { st with
              buckets := st.buckets.set st.max_height
                (st.buckets.getD st.max_height []).dropLast }
            ((st.buckets.getD st.max_height []).getLastD 0) with
        | none => none
        | some st1 => flowLoop n s t F k st1
    else some st

/-- `HLPP::flow`. -/
def flow (n s t fuel : Nat) (st : State) : Option (Int × State) :=
  match preprocess n s t fuel st with
  | none => none
  | some st1 =>
    match flowLoop n s t fuel fuel st1 with
    | none => none
    | some st2 => some (st2.excess.getD t 0, st2)

/-- The program of hlpp.cpp. -/
def run (fuel n : Nat) (edges : List InEdge) : Option Int :=
  (flow n 0 (n - 1) fuel (init n 0 (n - 1) edges)).map Prod.fst

end HLPP

/-! ## hlpp_heuristic.cpp -/

namespace HLPPHeuristic

/-- The mutable fields of `HLPP` (hlpp_heuristic.cpp), and the ghost log `hist`. -/
structure State where
  adj : Adj
  height : List Nat
  que : List Nat
  count : List Int
  iter : List Nat
  excess : List Int
  buckets : List (List Nat)
  max_height : Int
  work : Int
  hist : List Adj

/-- The constructor followed by the `addEdge` loop; `max_height` and `work` are left
uninitialised by the constructor and are assigned by `globalRelabel` before their first
use. -/
def init (n s t : Nat) (edges : List InEdge) : State :=
  { adj := buildPreflow n s t edges, height := List.replicate n 0, que := List.replicate n 0,
    count := List.replicate n 0, iter := List.replicate n 0, excess := List.replicate n 0,
    buckets := List.replicate n [], max_height := 0, work := 0,
    hist := [buildPreflow n s t edges] }

/-- `HLPP::push(v, e)` with `e = adj[v][i]`. -/
def push (st : State) (v i : Nat) : State :=
  let e := arc st.adj v i
  let buckets1 :=
    if st.excess.getD e.dst 0 = 0 then
      st.buckets.set (st.height.getD e.dst 0) (st.buckets.getD (st.height.getD e.dst 0) [] ++ [e.dst])
    else st.buckets
  let d := min (st.excess.getD v 0) e.cap
  let adj1 := addCap st.adj v i (-d)
  let adj2 := addCap adj1 (arc adj1 v i).dst (arc adj1 v i).rev d
  let excess1 := st.excess.set v (st.excess.getD v 0 - d)
  let excess2 := excess1.set e.dst (excess1.getD e.dst 0 + d)
  { st with buckets := buckets1, adj := adj2, excess := excess2, hist := adj2 :: st.hist }

/-- The `for (const Edge& e : adj[v])` loop of `globalRelabel`; the result is the state and
`queEnd`. -/
def globalRelabelFor (n v : Nat) : List Edge → State → Nat → State × Nat
  | [], st, queEnd => (st, queEnd)
  | e :: es, st, queEnd =>
    if (arc st.adj e.dst e.rev).cap = 0 ∨ st.height.getD e.dst 0 < n then
      globalRelabelFor n v es st queEnd
    else
      globalRelabelFor n v es
        { st with
          height := st.height.set e.dst (st.height.getD v 0 + 1),
          que := st.que.set queEnd e.dst }
        (queEnd + 1)

/-- The `while (queBegin < queEnd)` loop of `globalRelabel`. -/
def globalRelabelWhile (n s t : Nat) : Nat → State → Nat → Nat → Option State
  | 0, _, _, _ => none
  | k + 1, st, queBegin, queEnd =>
    if queBegin < queEnd then
      let v := st.que.getD queBegin 0
      let st1 : State :=
        if st.height.getD v 0 < n ∧ v ≠ s ∧ v ≠ t then
          let st0 : State := { st with
            count := st.count.set (st.height.getD v 0) (st.count.getD (st.height.getD v 0) 0 + 1) }
          if st0.excess.getD v 0 > 0 then
            { st0 with
              buckets := st0.buckets.set (st0.height.getD v 0)
                (st0.buckets.getD (st0.height.getD v 0) [] ++ [v]),
              max_height := (st0.height.getD v 0 : Int) }
          else st0
        else st
      match globalRelabelFor n v (arcs st1.adj v) st1 queEnd with
      | (st2, queEnd2) => globalRelabelWhile n s t k st2 (queBegin + 1) queEnd2
    else some st

/-- `HLPP::globalRelabel`. -/
def globalRelabel (n s t fuel : Nat) (st : State) : Option State :=
  match globalRelabelWhile n s t fuel
      { st with
        height := (List.replicate st.height.length n).set t 0,
        count := List.replicate st.count.length 0,
        iter := List.replicate st.iter.length 0,
        buckets := (List.range n).foldl (fun b i => b.set i []) st.buckets,
        max_height := 0,
        work := 0,
        que := st.que.set 0 t } 0 1 with
  | none => none
  | some st1 => some { st1 with height := st1.height.set s n }

/-- `HLPP::relabel(v)`. -/
def relabel (n : Nat) (st : State) (v : Nat) : State :=
  let st1 : State := { st with
    work := st.work + 1,
    count := st.count.set (st.height.getD v 0) (st.count.getD (st.height.getD v 0) 0 - 1) }
  let st2 : State := (arcs st1.adj v).foldl
    (fun st3 e =>
      if e.cap > 0 then
        { st3 with
          height := st3.height.set v (min (st3.height.getD v 0) (st3.height.getD e.dst 0 + 1)) }
      else st3)
    { st1 with height := st1.height.set v n }
  if st2.height.getD v 0 < n then
    let st4 : State := { st2 with
      count := st2.count.set (st2.height.getD v 0) (st2.count.getD (st2.height.getD v 0) 0 + 1) }
    if st4.excess.getD v 0 > 0 then
      { st4 with
        buckets := st4.buckets.set (st4.height.getD v 0)
          (st4.buckets.getD (st4.height.getD v 0) [] ++ [v]),
        max_height := (st4.height.getD v 0 : Int) }
    else st4
  else st2

/-- The `while (iter[v] < adj[v].size())` loop of `discharge`; the flag tells whether the
loop left through `return`. -/
def dischargeScan : Nat → State → Nat → Option (Bool × State)
  | 0, _, _ => none
  | k + 1, st, v =>
    if st.iter.getD v 0 < (arcs st.adj v).length then
      let e := arc st.adj v (st.iter.getD v 0)
      if e.cap > 0 ∧ st.height.getD v 0 > st.height.getD e.dst 0 then
        let st1 := push st v (st.iter.getD v 0)
        if st1.excess.getD v 0 = 0 then some (true, st1)
        else dischargeScan k { st1 with iter := st1.iter.set v (st1.iter.getD v 0 + 1) } v
      else dischargeScan k { st with iter := st.iter.set v (st.iter.getD v 0 + 1) } v
    else some (false, st)

/-- The gap branch of `discharge`: the loop `for (int i = 0; i < n; ++i)`. -/
def gapLoop (n gap : Nat) (st : State) : State :=
  (List.range n).foldl
    (fun st1 i =>
      if gap ≤ st1.height.getD i 0 ∧ st1.height.getD i 0 < n then
        { st1 with
          count := st1.count.set (st1.height.getD i 0) 0,
          height := st1.height.set i n }
      else st1)
    st

/-- `HLPP::discharge(v)`. -/
def discharge (n fuel : Nat) (st : State) (v : Nat) : Option State :=
  match dischargeScan fuel st v with
  | none => none
  | some (true, st1) => some st1
  | some (false, st1) =>
    if st1.count.getD (st1.height.getD v 0) 0 > 1 then
      some { relabel n st1 v with iter := (relabel n st1 v).iter.set v 0 }
    else some (gapLoop n (st1.height.getD v 0) st1)

/-- The loop `for (Edge& e : adj[s])` of `flow`. -/
def pushSource (n s : Nat) (st : State) : State :=
  (List.range (arcs st.adj s).length).foldl
    (fun st1 i =>
      if st1.height.getD (arc st1.adj s i).dst 0 < n then
        let st2 := push st1 s i
        { st2 with
          max_height := max st2.max_height (st2.height.getD (arc st2.adj s i).dst 0 : Int) }
      else st1)
    st

/-- The loops `for (; max_height > 0; --max_height) while (!buckets[max_height].empty())` of
`flow`, entered at the test of the inner `while`: a non-empty bucket runs the body and
returns to that test; an empty one runs `--max_height` and the test of the `for`. -/
def flowWhile (n s t F : Nat) : Nat → State → Option State
  | 0, _ => none
  | k + 1, st =>
    if st.buckets.getD st.max_height.toNat [] ≠ [] then
      match discharge n F
          { st with
            buckets := st.buckets.set st.max_height.toNat
              (st.buckets.getD st.max_height.toNat []).dropLast }
          ((st.buckets.getD st.max_height.toNat []).getLastD 0) with
      | none => none
      | some st1 =>
        if st1.work > 5 * (n : Int) then
          match globalRelabel n s t F st1 with
          | none => none
          | some st2 => flowWhile n s t F k st2
        else flowWhile n s t F k st1
    else
      if st.max_height - 1 > 0 then flowWhile n s t F k { st with max_height := st.max_height - 1 }
      else some { st with max_height := st.max_height - 1 }

/-- The loops of `flow`, entered at the first test of the `for`. -/
def flowLoop (n s t F : Nat) (st : State) : Option State :=
  if st.max_height > 0 then flowWhile n s t F F st else some st

/-- `HLPP::flow` (hlpp_heuristic.cpp). -/
def flow (n s t fuel : Nat) (st : State) : Option (Int × State) :=
  match globalRelabel n s t fuel
      { st with excess := (List.replicate st.excess.length 0).set s SOURCE_EXCESS } with
  | none => none
  | some st1 =>
    match flowLoop n s t fuel (pushSource n s st1) with
    | none => none
    | some st2 => some (st2.excess.getD t 0, st2)

/-- The program of hlpp_heuristic.cpp. -/
def run (fuel n : Nat) (edges : List InEdge) : Option Int :=
  (flow n 0 (n - 1) fuel (init n 0 (n - 1) edges)).map Prod.fst

end HLPPHeuristic

/-! ## random_dfs.cpp -/

namespace FordFulkersonRandomDFS

/-- The mutable fields of `FordFulkersonRandomDFS`, and the ghost log `hist` of the arc
array. -/
structure State where
  adj : List (List Nat)
  edges : List REdge
  visited : List Bool
  hist : List (List REdge)

/-- The constructor followed by the `addEdge` loop. -/
def init (n : Nat) (es : List InEdge) : State :=
  { adj := (build n es).adj, edges := (build n es).edges,
    visited := List.replicate n false, hist := [(build n es).edges] }

/-- The statement `edges[i].cap += d`. -/
def addCapAt (edges : List REdge) (i : Nat) (d : Int) : List REdge :=
  edges.set i { edges.getD i default with cap := (edges.getD i default).cap + d }

/-- The `for (int eid : adj[v])` loop of `dfs`; `rec` is the recursive call. -/
def dfsFor (rec : Nat → Int → State → Option (Int × State)) (flow : Int) :
    List Nat → State → Option (Int × State)
  | [], st => some (0, st)
  | eid :: eids, st =>
    if (st.visited.getD (st.edges.getD eid default).dst false = false) ∧
        (st.edges.getD eid default).cap ≥ 1 then
      match rec (st.edges.getD eid default).dst (min flow (st.edges.getD eid default).cap) st with
      | none => none
      | some (d, st1) =>
        if d ≥ 1 then
          let edges1 := addCapAt st1.edges eid (-d)
          let edges2 := addCapAt edges1 (eid ^^^ 1) d
          some (d, { st1 with edges := edges2, hist := edges2 :: st1.hist })
        else dfsFor rec flow eids st1
    else dfsFor rec flow eids st

/-- `FordFulkersonRandomDFS::dfs`; the first argument bounds the recursion depth. -/
def dfs (t : Nat) : Nat → Nat → Int → State → Option (Int × State)
  | 0, _, _, _ => none
  | fuel + 1, v, flow, st =>
    if v = t then some (flow, st)
    else dfsFor (dfs t fuel) flow (st.adj.getD v []) { st with visited := st.visited.set v true }

/-- The `while (true)` loop of `flow`. -/
def flowLoop (s t F : Nat) : Nat → State → Int → Option (Int × State)
  | 0, _, _ => none
  | k + 1, st, ans =>
    match dfs t F s INT_MAX { st with visited := List.replicate st.visited.length false } with
    | none => none
    | some (d, st1) => if d = 0 then some (ans, st1) else flowLoop s t F k st1 (ans + d)

/-- `FordFulkersonRandomDFS::flow`; `shuffled` is the content of `adj` after the loop of
`std::shuffle` calls, a rearrangement of each list that the random generator chooses. -/
def flow (s t fuel : Nat) (shuffled : List (List Nat)) (st : State) : Option (Int × State) :=
  flowLoop s t fuel fuel { st with adj := shuffled } 0

/-- The program of random_dfs.cpp. -/
def run (fuel n : Nat) (shuffled : List (List Nat)) (es : List InEdge) : Option Int :=
  (flow 0 (n - 1) fuel shuffled (init n es)).map Prod.fst

end FordFulkersonRandomDFS

/-! ## The residual-network invariants -/

namespace Residual

/-- The sum of the residual capacities of a list of arcs. -/
def capSum (l : List Edge) : Int := (l.map (fun e => e.cap)).sum

/-- The net inflow of node `v` in the residual network `adj`, the network having started as
`adj0`: the total increase of the capacities of the arcs of `v` (each unit of flow into `v`
raises a backward arc at `v` by one, each unit out of `v` lowers a forward arc by one). -/
def excessOf (adj0 adj : Adj) (v : Nat) : Int := capSum (arcs adj v) - capSum (arcs adj0 v)

/-- The networks `adj0` and `adj` have the same arcs up to residual capacity. -/
def SameShape (adj0 adj : Adj) : Prop :=
  adj.length = adj0.length ∧
  ∀ u, (arcs adj u).length = (arcs adj0 u).length ∧
    ∀ i, (arc adj u i).dst = (arc adj0 u i).dst ∧ (arc adj u i).rev = (arc adj0 u i).rev

/-- The residual capacity of the arc paired with `adj[u][i]`. -/
def pairCap (adj : Adj) (u i : Nat) : Int := (arc adj (arc adj u i).dst (arc adj u i).rev).cap

/-- The capacity passed to `addEdge` for the pair of `adj0[u][i]` (the backward arc of a
fresh pair has capacity 0). -/
def origCap (adj0 : Adj) (u i : Nat) : Int := (arc adj0 u i).cap + pairCap adj0 u i

/-- The invariant of a residual network `adj` that started as `adj0`: same arcs, no negative
residual capacity, and the two capacities of every pair add up as they did in `adj0`. -/
structure NetInv (adj0 adj : Adj) : Prop where
  shape : SameShape adj0 adj
  nonneg : ∀ u i, i < (arcs adj u).length → 0 ≤ (arc adj u i).cap
  pairSum : ∀ u i, i < (arcs adj u).length →
    (arc adj u i).cap + pairCap adj u i = origCap adj0 u i

/-- The paired update `adj[u][i].cap -= d; adj[e.to][e.rev].cap += d` with `e = adj[u][i]`. -/
def pushFlow (adj : Adj) (u i : Nat) (d : Int) : Adj :=
  addCap (addCap adj u i (-d)) (arc (addCap adj u i (-d)) u i).dst
    (arc (addCap adj u i (-d)) u i).rev d

/-- Node `v` can be reached from node `u` along arcs of positive residual capacity. -/
inductive Reach (adj : Adj) (u : Nat) : Nat → Prop
  | refl : Reach adj u u
  | step (v i : Nat) : Reach adj u v → i < (arcs adj v).length → 0 < (arc adj v i).cap →
      Reach adj u (arc adj v i).dst

/-- Node `v` can be reached from node `u` along exactly `k` arcs of positive residual
capacity. -/
inductive ReachIn (adj : Adj) (u : Nat) : Nat → Nat → Prop
  | refl : ReachIn adj u u 0
  | step (v i k : Nat) : ReachIn adj u v k → i < (arcs adj v).length →
      0 < (arc adj v i).cap → ReachIn adj u (arc adj v i).dst (k + 1)

end Residual

/-! ## Augmentation along parent pointers -/

namespace Residual

/-- The loop `while (v != s) { Edge& e = adj[v][parent[v]]; e.cap += d;
adj[e.to][e.rev].cap -= d; v = e.to; }` shared by edmonds_karp.cpp and most_improving.cpp,
on the network and its ghost log. -/
def walk (parent : List Int) (s : Nat) (d : Int) : Nat → Adj → List Adj → Nat →
    Option (Adj × List Adj)
  | 0, _, _, _ => none
  | k + 1, adj, hist, v =>
    if v ≠ s then
      let i := (parent.getD v 0).toNat
      let adj1 := addCap adj v i d
      let adj2 := addCap adj1 (arc adj1 v i).dst (arc adj1 v i).rev (-d)
      walk parent s d k adj2 (adj2 :: hist) (arc adj2 v i).dst
    else some (adj, hist)

/-- The parent pointers form a tree rooted at `s` on the node set `V`: the parent arc of a
node `x` is an arc of `x` whose paired arc (from the predecessor to `x`) has residual
capacity at least `pc[x]`, the predecessor is in the tree with a smaller rank, and `pc` does
not increase away from the root. -/
structure TreeInv (A : Adj) (parent pc : List Int) (s : Nat) (V : Nat → Prop)
    (rk : Nat → Nat) : Prop where
  src : V s
  node : ∀ x, V x → x ≠ s →
    0 ≤ parent.getD x 0 ∧ (parent.getD x 0).toNat < (arcs A x).length ∧
    V (arc A x (parent.getD x 0).toNat).dst ∧
    rk (arc A x (parent.getD x 0).toNat).dst < rk x ∧
    pc.getD x 0 ≤ pairCap A x (parent.getD x 0).toNat ∧
    pc.getD x 0 ≤ pc.getD (arc A x (parent.getD x 0).toNat).dst 0

end Residual

/-! ## Invariants of the breadth-first search of edmonds_karp.cpp -/

namespace EdmondsKarp

/-- Node `x` has been reached by the search: `parent[x] != -1`. -/
def Seen (n : Nat) (st : State) (x : Nat) : Prop := x < n ∧ st.parent.getD x 0 ≠ -1

/-- The part of the search invariant about `parent` and `path_cap`. -/
structure Core (A : Adj) (n s : Nat) (st : State) (rk : Nat → Nat) : Prop where
  adj_eq : st.adj = A
  len_parent : st.parent.length = n
  len_pc : st.path_cap.length = n
  pc_pos : ∀ x, Seen n st x → 1 ≤ st.path_cap.getD x 0
  tree : TreeInv A st.parent st.path_cap s (Seen n st) rk

/-- The part of the search invariant about the queue: `que[0..queEnd)` lists the reached
nodes without repetition, and the sink has not been reached. -/
structure Queue (n t : Nat) (st : State) (queEnd : Nat) : Prop where
  len_que : st.que.length = n
  qe_le : queEnd ≤ n
  nodup : (st.que.take queEnd).Nodup
  mem_iff : ∀ x, x ∈ st.que.take queEnd ↔ Seen n st x
  t_unseen : st.parent.getD t 0 = -1

/-- Every arc of positive residual capacity out of `que[0..k)` leads to a reached node. -/
def Closed (A : Adj) (n : Nat) (st : State) (k : Nat) : Prop :=
  ∀ j, j < k → ∀ e ∈ arcs A (st.que.getD j 0), e.cap ≠ 0 → Seen n st e.dst

end EdmondsKarp

namespace EdmondsKarp

/-- The invariant of the `while (bfs())` loop of `flow`, for a network that started as `A0`
with `n` nodes: the residual-network invariant holds now and held after every update, and the
work arrays have length `n`. -/
structure FlowInv (A0 : Adj) (n : Nat) (st : State) : Prop where
  net : NetInv A0 st.adj
  len_que : st.que.length = n
  len_parent : st.parent.length = n
  len_pc : st.path_cap.length = n
  histInv : ∀ a ∈ st.hist, NetInv A0 a

end EdmondsKarp

namespace Residual

/-- Flow is conserved at every node other than `s` and `t`. -/
def Conserved (A0 adj : Adj) (s t : Nat) : Prop :=
  ∀ v, v ≠ s → v ≠ t → excessOf A0 adj v = 0

/-- No augmenting path: some set of nodes contains `s`, not `t`, and is closed under arcs of
non-zero residual capacity. -/
def Separated (adj : Adj) (s t : Nat) : Prop :=
  ∃ V : Nat → Prop, V s ∧ ¬ V t ∧
    ∀ x, V x → ∀ i, i < (arcs adj x).length → (arc adj x i).cap ≠ 0 → V (arc adj x i).dst

end Residual

/-! ## Flows and cuts of a network given as a list of edges -/

namespace Residual

/-- The network that `addEdge` builds from the input lines: the lines with distinct endpoints
and capacity at least 1. -/
def network (edges : List InEdge) : List InEdge := edges.filter kept

/-- The network that `add_edge` of the preflow-push solvers builds: in addition, the lines
that leave the sink or enter the source are absent. -/
def networkPreflow (s t : Nat) (edges : List InEdge) : List InEdge :=
  edges.filter (keptPreflow s t)

/-- The contribution of one edge carrying `p.2` units to the net flow out of node `v`. -/
def flowTerm (v : Nat) (p : InEdge × Int) : Int :=
  (if p.1.1 = v then p.2 else 0) - (if p.1.2.1 = v then p.2 else 0)

/-- The net flow out of node `v` when the `k`-th edge of `net` carries `f[k]` units. -/
def netOut (net : List InEdge) (f : List Int) (v : Nat) : Int :=
  ((net.zip f).map (flowTerm v)).sum

/-- The list `f` is a feasible flow from `s` to `t` on `net`: one value per edge, between 0
and the capacity, with zero net flow at every node other than `s` and `t`. -/
structure IsFlow (s t : Nat) (net : List InEdge) (f : List Int) : Prop where
  length : f.length = net.length
  bounds : ∀ p ∈ net.zip f, 0 ≤ p.2 ∧ p.2 ≤ p.1.2.2
  conserve : ∀ v, v ≠ s → v ≠ t → netOut net f v = 0

/-- The number `F` is the value of a maximum flow from `s` to `t` on `net`. -/
def IsMaxFlowValue (s t : Nat) (net : List InEdge) (F : Int) : Prop :=
  (∃ f, IsFlow s t net f ∧ netOut net f s = F) ∧ ∀ f, IsFlow s t net f → netOut net f s ≤ F

/-- The capacity of the cut `S`: the sum of the capacities of the edges of `net` that go from
a node in `S` to a node outside `S`. -/
def cutCap (net : List InEdge) (S : Nat → Bool) : Int :=
  (net.map (fun e => if S e.1 = true ∧ S e.2.1 = false then e.2.2 else 0)).sum

/-- The capacity of the cut `S` read off the initial adjacency lists. -/
def cutCapAdj (n : Nat) (adj0 : Adj) (S : Nat → Bool) : Int :=
  ∑ v in Finset.range n,
    if S v = true then
      ((arcs adj0 v).map (fun e => if S e.dst = true then 0 else e.cap)).sum
    else 0

end Residual

namespace Residual

/-- The part of the excess of `v` that is due to its first `k` arcs. -/
def prefixExcess (k : Nat) (A0 A : Adj) (v : Nat) : Int :=
  capSum ((arcs A v).take k) - capSum ((arcs A0 v).take k)

/-- One step of the construction loop with the guard abstracted. -/
def buildStep (keep : InEdge → Bool) (adj : Adj) (e : InEdge) : Adj :=
  if keep e then addPair adj e.1 e.2.1 e.2.2 else adj

end Residual

/-! ## Invariants of the depth-first search of dfs.cpp -/

namespace FordFulkersonDFS

/-- Node `x` is marked in `visited`. -/
def Vis (st : State) (x : Nat) : Prop := st.visited.getD x false = true

/-- The number of unmarked nodes. -/
def unvisited (n : Nat) (st : State) : Nat :=
  ((Finset.range n).filter (fun x => st.visited.getD x false = false)).card

/-- What a call `dfs(v, flow)` started in state `st` guarantees about its result `r`, for a
network that started as `A0` with `n` nodes. -/
structure DfsPost (A0 : Adj) (n t v : Nat) (flow : Int) (st : State) (r : Int × State) :
    Prop where
  range : 0 ≤ r.1 ∧ r.1 ≤ flow
  len : r.2.visited.length = n
  mono : ∀ x, Vis st x → Vis r.2 x
  sink : ¬ Vis r.2 t
  at_sink : v = t → r.1 = flow
  fail : r.1 = 0 → r.2.adj = st.adj ∧ r.2.hist = st.hist ∧ (v ≠ t → Vis r.2 v) ∧
    ∀ x, Vis r.2 x → ¬ Vis st x → ∀ i, i < (arcs st.adj x).length →
      (arc st.adj x i).cap ≠ 0 → Vis r.2 (arc st.adj x i).dst
  found : 1 ≤ r.1 → NetInv A0 r.2.adj ∧
    (∀ x, excessOf A0 r.2.adj x =
      excessOf A0 st.adj x - (if x = v then r.1 else 0) + (if x = t then r.1 else 0)) ∧
    (∀ u, Vis st u → ∀ i, arc r.2.adj u i = arc st.adj u i) ∧
    ∃ new, r.2.hist = new ++ st.hist ∧ ∀ a ∈ new, NetInv A0 a

/-- The invariant of the `while (true)` loop of `flow`. -/
structure FlowInv (A0 : Adj) (n : Nat) (st : State) : Prop where
  net : NetInv A0 st.adj
  len : st.visited.length = n
  histInv : ∀ a ∈ st.hist, NetInv A0 a

end FordFulkersonDFS

/-! ## Invariants of the priority search of most_improving.cpp -/

namespace MostImprovingAugmentingPaths

/-- Node `x` has been labelled by the search: `path_cap[x] > 0`. -/
def InTree (n : Nat) (st : State) (x : Nat) : Prop := x < n ∧ 0 < st.path_cap.getD x 0

/-- Node `x` is settled: it is labelled and its current label is not waiting in the queue. -/
def Done (n : Nat) (st : State) (pq : List (Int × Nat)) (x : Nat) : Prop :=
  x < n ∧ 0 < st.path_cap.getD x 0 ∧ (st.path_cap.getD x 0, x) ∉ pq

instance (n : Nat) (st : State) (pq : List (Int × Nat)) (x : Nat) :
    Decidable (Done n st pq x) := by
  unfold Done
  infer_instance

/-- The predecessor stored for node `x`: the head of the arc `adj[x][parent[x]]`. -/
def pred (A : Adj) (st : State) (x : Nat) : Nat := (arc A x (st.parent.getD x 0).toNat).dst

/-- The invariant of the `while (!pq.empty())` loop, without the statement that settled
nodes have been relaxed. `M` bounds the keys in the queue, `rk` orders the settled nodes,
`idx` counts the rounds. -/
structure DijCore (A : Adj) (n s t : Nat) (st : State) (pq : List (Int × Nat)) (M : Int)
    (rk : Nat → Nat) (idx : Nat) : Prop where
  adj_eq : st.adj = A
  len_parent : st.parent.length = n
  len_pc : st.path_cap.length = n
  src : st.path_cap.getD s 0 = INT_MAX
  M_le : M ≤ INT_MAX
  nonneg : ∀ x, 0 ≤ st.path_cap.getD x 0
  entries : ∀ p ∈ pq, p.2 < n ∧ 1 ≤ p.1 ∧ p.1 ≤ st.path_cap.getD p.2 0 ∧ p.1 ≤ M
  nodup : pq.Nodup
  sink : ¬ Done n st pq t
  done_ge : ∀ x, Done n st pq x → M ≤ st.path_cap.getD x 0
  tree : ∀ x, InTree n st x → x ≠ s →
    0 ≤ st.parent.getD x 0 ∧ (st.parent.getD x 0).toNat < (arcs A x).length ∧
    Done n st pq (pred A st x) ∧
    st.path_cap.getD x 0 ≤ pairCap A x (st.parent.getD x 0).toNat ∧
    st.path_cap.getD x 0 ≤ st.path_cap.getD (pred A st x) 0
  rank : ∀ x, Done n st pq x → rk x < idx ∧ (x ≠ s → rk (pred A st x) < rk x)

/-- Every arc of a settled node other than `v` has been relaxed; of the arcs of `v`, those
at the first `k` positions. -/
def Relaxed (A : Adj) (n : Nat) (st : State) (pq : List (Int × Nat)) (v k : Nat) : Prop :=
  ∀ x, Done n st pq x → ∀ i, i < (arcs A x).length → (x = v → i < k) →
    min (st.path_cap.getD x 0) (arc A x i).cap ≤ st.path_cap.getD (arc A x i).dst 0

/-- The termination measure of the loop: the queue length plus the number of arcs of the
nodes that are not settled. -/
def potential (A : Adj) (n : Nat) (st : State) (pq : List (Int × Nat)) : Nat :=
  pq.length + ∑ x in Finset.range n, if Done n st pq x then 0 else (arcs A x).length

/-- The invariant of the `while (dijkstra())` loop of `flow`. -/
structure FlowInv (A0 : Adj) (n : Nat) (st : State) : Prop where
  net : NetInv A0 st.adj
  len_parent : st.parent.length = n
  len_pc : st.path_cap.length = n
  histInv : ∀ a ∈ st.hist, NetInv A0 a

end MostImprovingAugmentingPaths

namespace Residual

/-- The number of arcs of the network: twice the number of kept edges. -/
def totalArcs (n : Nat) (adj : Adj) : Nat := ∑ x in Finset.range n, (arcs adj x).length

end Residual

/-! ## Invariants of dinic.cpp -/

namespace Dinic

/-- Node `x` has been labelled by the search: `label[x] < n`. -/
def Seen (n : Nat) (st : State) (x : Nat) : Prop := x < n ∧ st.label.getD x 0 < n

/-- Node `x` still has a usable arc for `dfs`: a position `a` not before `it x` whose arc
leads to a node of `G` with a smaller label, the paired arc (from that node to `x`) having
residual capacity. -/
def Live (A : Adj) (lab it : Nat → Nat) (G : Nat → Prop) (x : Nat) : Prop :=
  ∃ a, it x ≤ a ∧ a < (arcs A x).length ∧ G (arc A x a).dst ∧
    lab (arc A x a).dst < lab x ∧ pairCap A x a ≠ 0

/-- The set `G` certifies that `dfs` can still pull flow from `s` to each of its nodes. -/
structure Cert (A : Adj) (lab it : Nat → Nat) (s : Nat) (G : Nat → Prop) : Prop where
  src : G s
  node : ∀ x, G x → x ≠ s → Live A lab it G x

/-- The part of the search invariant about `label`; every label given so far is below
`r`. -/
structure Core (A : Adj) (n s : Nat) (st : State) (r : Nat) : Prop where
  adj_eq : st.adj = A
  len_label : st.label.length = n
  lab_lt : ∀ x, Seen n st x → st.label.getD x 0 < r
  cert : Cert A (fun x => st.label.getD x 0) (fun _ => 0) s (Seen n st)

/-- The part of the search invariant about the queue: `que[0..queEnd)` lists the labelled
nodes without repetition, and the sink has not been labelled. -/
structure Queue (n t : Nat) (st : State) (queEnd : Nat) : Prop where
  len_que : st.que.length = n
  qe_le : queEnd ≤ n
  nodup : (st.que.take queEnd).Nodup
  mem_iff : ∀ x, x ∈ st.que.take queEnd ↔ Seen n st x
  t_unseen : ¬ st.label.getD t 0 < n

/-- Every arc of positive residual capacity out of `que[0..k)` leads to a labelled node. -/
def Closed (A : Adj) (n : Nat) (st : State) (k : Nat) : Prop :=
  ∀ j, j < k → ∀ e ∈ arcs A (st.que.getD j 0), e.cap ≠ 0 → Seen n st e.dst

/-- The invariant of the `while (bfs())` loop of `flow`. -/
structure FlowInv (A0 : Adj) (n : Nat) (st : State) : Prop where
  net : NetInv A0 st.adj
  len_label : st.label.length = n
  len_que : st.que.length = n
  len_iter : st.iter.length = n
  histInv : ∀ a ∈ st.hist, NetInv A0 a

/-- What a call `dfs(v, up)` started in state `st` guarantees about its result `r`, for a
network that started as `A0` with `n` nodes. -/
structure DfsPost (A0 : Adj) (n s v : Nat) (up : Int) (st : State) (r : Int × State) :
    Prop where
  range : 0 ≤ r.1 ∧ r.1 ≤ up
  len : r.2.label.length = n ∧ r.2.iter.length = n ∧ r.2.que = st.que
  net : NetInv A0 r.2.adj
  excess : ∀ x, excessOf A0 r.2.adj x =
    excessOf A0 st.adj x + (if x = v then r.1 else 0) - (if x = s then r.1 else 0)
  frame : ∀ x, st.label.getD v 0 < st.label.getD x 0 →
    (∀ i, arc r.2.adj x i = arc st.adj x i) ∧ r.2.label.getD x 0 = st.label.getD x 0 ∧
    r.2.iter.getD x 0 = st.iter.getD x 0
  hist : ∃ new, r.2.hist = new ++ st.hist ∧ ∀ a ∈ new, NetInv A0 a
  live : ∀ G : Nat → Prop, 1 ≤ up →
    Cert st.adj (fun x => st.label.getD x 0) (fun x => st.iter.getD x 0) s G →
    (G v → 1 ≤ r.1) ∧
    (r.1 = 0 → Cert r.2.adj (fun x => r.2.label.getD x 0) (fun x => r.2.iter.getD x 0) s G)

end Dinic

/-! ## Notions used in the statements about complete runs -/

namespace Residual

/-- A fuel that suffices for each of the four augmenting-path solvers on the network built
from `edges`: the number of nodes plus the number of arcs plus the capacity out of the
source. -/
def augFuel (n : Nat) (edges : List InEdge) : Nat :=
  n + totalArcs n (build n edges) + 1 + (capSum (arcs (build n edges) 0)).toNat

/-- Max-flow min-cut duality for the value `F` and the final residual network `A`, with
respect to the edge list `net`: the sink is not reachable from the source through arcs of
positive residual capacity, and `F` is the sum of the capacities of the edges of `net` that
go from a reachable node to a node that is not reachable. -/
def CutDuality (net : List InEdge) (A : Adj) (s t : Nat) (F : Int) : Prop :=
  ¬ Reach A s t ∧ ∀ S : Nat → Bool, (∀ x, S x = true ↔ Reach A s x) → F = cutCap net S

end Residual

/-! ## Invariants of the preflow-push solvers -/

namespace Residual

/-- The value that `relabel` leaves in `height[v]`: `top`, lowered to `height[e.to] + 1` for
every arc `e` of positive residual capacity. -/
def relabelValue (top : Nat) (height : List Nat) (es : List Edge) : Nat :=
  es.foldl (fun m e => if e.cap > 0 then min m (height.getD e.dst 0 + 1) else m) top

/-- The excess vector after `excess[v] -= d; excess[w] += d`. -/
def moveExcess (excess : List Int) (v w : Nat) (d : Int) : List Int :=
  (excess.set v (excess.getD v 0 - d)).set w ((excess.set v (excess.getD v 0 - d)).getD w 0 + d)

/-- The invariant of a preflow: the residual network is well formed, `excess` records the
net inflow of every node (the source starting at `SOURCE_EXCESS`), no excess is negative,
and the heights are a valid labelling below `top` on the arcs that do not leave the source,
with `height[s] = n` and `height[t] = 0`. -/
structure PreInv (A0 : Adj) (n s t top : Nat) (adj : Adj) (height : List Nat)
    (excess : List Int) : Prop where
  paired0 : Paired A0
  len0 : A0.length = n
  net0 : NetInv A0 A0
  net : NetInv A0 adj
  len_h : height.length = n
  len_ex : excess.length = n
  exc_eq : ∀ v, excess.getD v 0 =
    excessOf A0 adj v + (if v = s then SOURCE_EXCESS else 0)
  exc_nonneg : ∀ v, 0 ≤ excess.getD v 0
  hs : height.getD s 0 = n
  ht : height.getD t 0 = 0
  h_pos : ∀ v, v < n → v ≠ t → 1 ≤ height.getD v 0
  h_le : ∀ v, height.getD v 0 ≤ top
  valid : ∀ v i, v ≠ s → i < (arcs adj v).length → 0 < (arc adj v i).cap →
    height.getD v 0 ≤ height.getD (arc adj v i).dst 0 + 1

/-- The labelling is also valid on the arcs that leave the source: each of them with residual
capacity leads to a node of height at least `height[s] - 1`. -/
def SrcValid (adj : Adj) (height : List Nat) (s : Nat) : Prop :=
  ∀ i, i < (arcs adj s).length → 0 < (arc adj s i).cap →
    height.getD s 0 ≤ height.getD (arc adj s i).dst 0 + 1

/-- The current-arc invariant: no arc before `iter[v]` is admissible. -/
def CurInv (adj : Adj) (height iter : List Nat) : Prop :=
  ∀ v i, i < iter.getD v 0 → i < (arcs adj v).length →
    (arc adj v i).cap = 0 ∨ height.getD v 0 ≤ height.getD (arc adj v i).dst 0

/-- The room left for relabelling: the sum over the nodes of `top - height[v]`. -/
def heightRoom (n top : Nat) (height : List Nat) : Nat :=
  ∑ v in Finset.range n, (top - height.getD v 0)

/-- The potential that every push lowers: the sum over the nodes other than the source of
`excess[v] * height[v]`. -/
def excessPot (n s : Nat) (height : List Nat) (excess : List Int) : Int :=
  ∑ v in Finset.range n, if v = s then 0 else excess.getD v 0 * (height.getD v 0 : Int)

/-- A bound on `excessPot`. -/
def potBound (A0 : Adj) (s top : Nat) : Nat := top * (capSum (arcs A0 s)).toNat

/-- The termination measure of the main loop of a preflow-push solver. -/
def preflowMeasure (A0 : Adj) (n s top : Nat) (height : List Nat) (excess : List Int) : Nat :=
  heightRoom n top height * (potBound A0 s top + 1) + (excessPot n s height excess).toNat

end Residual

/-! ## The backward search of `preprocess` -/

namespace Residual

/-- The `for (const Edge& e : adj[v])` loop of the search in `preprocess` of fifopp.cpp and
hlpp.cpp, on the height vector and the queue. -/
def revBfsFor (n : Nat) (adj : Adj) (v : Nat) : List Edge → List Nat → List Nat →
    List Nat × List Nat
  | [], H, q => (H, q)
  | e :: es, H, q =>
    if H.getD e.dst 0 = n ∧ (arc adj e.dst e.rev).cap > 0 then
      revBfsFor n adj v es (H.set e.dst (H.getD v 0 + 1)) (q ++ [e.dst])
    else revBfsFor n adj v es H q

/-- The `while (!q.empty())` loop of `preprocess`, on the height vector and the queue. -/
def revBfsWhile (n : Nat) (adj : Adj) : Nat → List Nat → List Nat → Option (List Nat)
  | 0, _, _ => none
  | k + 1, H, q =>
    match q with
    | [] => some H
    | v :: q1 =>
      match revBfsFor n adj v (arcs adj v) H q1 with
      | (H1, q2) => revBfsWhile n adj k H1 q2

/-- All arcs into `x` that have residual capacity come from labelled nodes at most one
level higher. -/
def RevDone (adj : Adj) (H : List Nat) (seen : List Nat) (x : Nat) : Prop :=
  ∀ i, i < (arcs adj x).length → 0 < pairCap adj x i →
    (arc adj x i).dst ∈ seen ∧ H.getD (arc adj x i).dst 0 ≤ H.getD x 0 + 1

/-- The part of the invariant of the backward search about the heights; `seen` lists the
labelled nodes. -/
structure RevCore (adj : Adj) (n t : Nat) (H : List Nat) (seen : List Nat) : Prop where
  len : H.length = n
  ht : H.getD t 0 = 0
  seen_iff : ∀ x, x ∈ seen ↔ (x < n ∧ H.getD x 0 < n)
  nodup : seen.Nodup
  lt_card : ∀ x ∈ seen, H.getD x 0 < seen.length
  h_le : ∀ x, H.getD x 0 ≤ n
  pos : ∀ x, x < n → x ≠ t → 1 ≤ H.getD x 0
  sound : ∀ x ∈ seen, Reach adj x t
  dist : ∀ x ∈ seen, ReachIn adj x t (H.getD x 0)

/-- The part of the invariant about the queue, between two iterations of the `while`
loop. -/
structure RevQueue (adj : Adj) (H : List Nat) (q seen : List Nat) : Prop where
  q_sub : ∀ y ∈ q, y ∈ seen
  q_nodup : q.Nodup
  sorted : q.Pairwise (fun a b => H.getD a 0 ≤ H.getD b 0)
  near : ∀ x ∈ seen, ∀ y ∈ q, H.getD x 0 ≤ H.getD y 0 + 1
  done : ∀ x ∈ seen, x ∉ q → RevDone adj H seen x

/-- The invariant while the arcs of `v` are scanned, `pre` being the arcs already seen. -/
structure RevInner (adj : Adj) (v : Nat) (pre : List Edge) (H : List Nat) (q seen : List Nat) :
    Prop where
  v_seen : v ∈ seen
  v_notin : v ∉ q
  q_sub : ∀ y ∈ q, y ∈ seen
  q_nodup : q.Nodup
  sorted : q.Pairwise (fun a b => H.getD a 0 ≤ H.getD b 0)
  above : ∀ y ∈ q, H.getD v 0 ≤ H.getD y 0
  near : ∀ x ∈ seen, H.getD x 0 ≤ H.getD v 0 + 1
  done : ∀ x ∈ seen, x ∉ q → x ≠ v → RevDone adj H seen x
  scanned : ∀ e ∈ pre, 0 < (arc adj e.dst e.rev).cap →
    e.dst ∈ seen ∧ H.getD e.dst 0 ≤ H.getD v 0 + 1

end Residual

namespace Residual

/-- A fuel that suffices for the FIFO and the plain highest-label preflow-push solver on a
network that started as `A0`. -/
def preflowFuel (A0 : Adj) (n s : Nat) : Nat :=
  (2 * n * n + 1) * (potBound A0 s (2 * n) + 1) + totalArcs n A0 + 2 * n

end Residual

/-! ## Invariants of fifopp.cpp -/

namespace FIFOPP

/-- The invariant of the main loop of `flow`; `w` is the node that `discharge` is working
on, or `n` outside `discharge`. The queue lists, without repetition, the nodes other than
`s`, `t` and `w` that hold excess. -/
structure Inv (A0 : Adj) (n s t w : Nat) (st : State) : Prop where
  pre : PreInv A0 n s t (2 * n) st.adj st.height st.excess
  len_iter : st.iter.length = n
  cur : CurInv st.adj st.height st.iter
  histInv : ∀ a ∈ st.hist, NetInv A0 a
  act_mem : ∀ v ∈ st.active, v < n ∧ v ≠ s ∧ v ≠ t ∧ 0 < st.excess.getD v 0
  nodup : st.active.Nodup
  notin : w ∉ st.active
  act_all : ∀ v, v < n → v ≠ s → v ≠ t → 0 < st.excess.getD v 0 → v ∈ st.active ∨ v = w

/-- The termination measure of the main loop. -/
def measure (A0 : Adj) (n s : Nat) (st : State) : Nat :=
  preflowMeasure A0 n s (2 * n) st.height st.excess

end FIFOPP

/-! ## Invariants of hlpp.cpp -/

namespace HLPP

/-- The invariant of the main loop of `flow`; `w` is the node that `discharge` is working
on, or `n` outside `discharge`. Bucket `h` lists, without repetition, nodes of height `h`
other than `s`, `t` and `w` that hold excess; every such node is in its bucket, and the
buckets above `max_height` are empty. -/
structure Inv (A0 : Adj) (n s t w : Nat) (st : State) : Prop where
  pre : PreInv A0 n s t (2 * n) st.adj st.height st.excess
  len_iter : st.iter.length = n
  cur : CurInv st.adj st.height st.iter
  histInv : ∀ a ∈ st.hist, NetInv A0 a
  len_b : st.buckets.length = 2 * n
  bk_mem : ∀ h v, v ∈ st.buckets.getD h [] →
    v < n ∧ v ≠ s ∧ v ≠ t ∧ 0 < st.excess.getD v 0 ∧ st.height.getD v 0 = h
  bk_nodup : ∀ h, (st.buckets.getD h []).Nodup
  notin : ∀ h, w ∉ st.buckets.getD h []
  act_all : ∀ v, v < n → v ≠ s → v ≠ t → 0 < st.excess.getD v 0 →
    v ∈ st.buckets.getD (st.height.getD v 0) [] ∨ v = w
  mh_empty : ∀ h, st.max_height < h → st.buckets.getD h [] = []
  mh_le : st.max_height ≤ 2 * n

/-- The termination measure of `discharge`. -/
def measure (A0 : Adj) (n s : Nat) (st : State) : Nat :=
  preflowMeasure A0 n s (2 * n) st.height st.excess

end HLPP

/-! ## Instrumented loops -/

namespace FordFulkersonDFS

/-- The `while (true)` loop of `FordFulkersonDFS::flow` once more, returning instead of the sum
the list of the values `d` that its iterations add to the result, in order; the last
iteration finds `d == 0` and adds nothing, so the loop runs one iteration more than the
length of the list. -/
def flowLoopTrace (s t F : Nat) : Nat → State → Option (List Int × State)
  | 0, _ => none
  | k + 1, st =>
    match dfs t F s INT_MAX { st with visited := List.replicate st.visited.length false } with
    | none => none
    | some (d, st1) =>
      if d = 0 then some ([], st1)
      else
        match flowLoopTrace s t F k st1 with
        | none => none
        | some (ds, st2) => some (d :: ds, st2)

end FordFulkersonDFS

namespace FIFOPP

/-- The states in which the `while (!active.empty())` loop of `FIFOPP::flow` evaluates its
condition, when `flow` runs with fuel `F` on the network built from `edges`: the state left
by `preprocess`, and the state left by each `discharge(v)` of the loop body. -/
inductive AtLoopHead (n s t F : Nat) (edges : List InEdge) : State → Prop
  | first (st1 : State) : preprocess n s t F (init n s t edges) = some st1 →
      AtLoopHead n s t F edges st1
  | next (st : State) (v : Nat) (rest : List Nat) (st1 : State) :
      AtLoopHead n s t F edges st → st.active = v :: rest →
      discharge n s t F F { st with active := rest } v = some st1 →
      AtLoopHead n s t F edges st1

end FIFOPP

/-! ## Net flow through a node, in the words of the specification -/

namespace Residual

/-- The total decrease of residual capacity over the forward arcs leaving `v`: the arcs of
`adj0[v]` that were inserted with a capacity, which is at least 1 (a backward arc starts
at 0). -/
def outDecrease (adj0 adj : Adj) (v : Nat) : Int :=
  ∑ i in Finset.range (arcs adj0 v).length,
    if (arc adj0 v i).cap ≠ 0 then (arc adj0 v i).cap - (arc adj v i).cap else 0

/-- The total decrease of residual capacity over the forward arcs entering `v`: the arcs
paired with the backward arcs stored in `adj0[v]`. -/
def inDecrease (adj0 adj : Adj) (v : Nat) : Int :=
  ∑ i in Finset.range (arcs adj0 v).length,
    if (arc adj0 v i).cap ≠ 0 then 0 else pairCap adj0 v i - pairCap adj v i

end Residual

/-! ## The flat arc array of random_dfs.cpp read as per-node arc lists -/

namespace FordFulkersonRandomDFS

/-- The id lists are well formed for the arc array: every listed id is an arc of the array
that leads to another node, in whose list its partner is found; no list repeats an id and no
two lists share one; every arc of the array is listed; arcs come in pairs. -/
structure WF (adj : List (List Nat)) (edges : List REdge) : Prop where
  mem : ∀ u, ∀ eid ∈ adj.getD u [], eid < edges.length ∧
    (edges.getD eid default).dst < adj.length ∧ (edges.getD eid default).dst ≠ u ∧
    (eid ^^^ 1) ∈ adj.getD (edges.getD eid default).dst []
  nodup : ∀ u, (adj.getD u []).Nodup
  disj : ∀ u w eid, eid ∈ adj.getD u [] → eid ∈ adj.getD w [] → u = w
  listed : ∀ eid, eid < edges.length → ∃ u, eid ∈ adj.getD u []
  even : edges.length % 2 = 0

/-- Every node marked in `st` is marked in `st1`, and the arcs listed at the nodes marked in
`st` are the same in both states. -/
def Frame (adj : List (List Nat)) (st st1 : State) : Prop :=
  (∀ x, st.visited.getD x false = true → st1.visited.getD x false = true) ∧
  ∀ u, st.visited.getD u false = true → ∀ eid ∈ adj.getD u [],
    st1.edges.getD eid default = st.edges.getD eid default

end FordFulkersonRandomDFS

/-! ## Minimum cuts -/

namespace Residual

/-- The number `F` is the least capacity of a cut of `net` that has `s` on its source side
and `t` on the other side. -/
def IsMinCutValue (s t : Nat) (net : List InEdge) (F : Int) : Prop :=
  (∃ S : Nat → Bool, S s = true ∧ S t = false ∧ F = cutCap net S) ∧
  ∀ S : Nat → Bool, S s = true → S t = false → F ≤ cutCap net S

end Residual

/-! ## Invariants of hlpp_heuristic.cpp -/

namespace HLPPHeuristic

/-- The number of nodes other than `s` and `t` that have height `h`. -/
def levelCount (n s t : Nat) (height : List Nat) (h : Nat) : Nat :=
  ((Finset.range n).filter (fun x => x ≠ s ∧ x ≠ t ∧ height.getD x 0 = h)).card

/-- The invariant of the main loop of `flow`; `w` is the node that `discharge` is working
on, or `n` outside `discharge`. Heights are at most `n`; `count[h]` is the number of nodes of
height `h < n` other than `s` and `t`; bucket `h >= 1` lists, without repetition, nodes of
height `h` other than `s`, `t` and `w` that hold excess; every such node of height below `n`
is in its bucket, and the buckets above `max_height` are empty. -/
structure Inv (A0 : Adj) (n s t w : Nat) (st : State) : Prop where
  pre : PreInv A0 n s t n st.adj st.height st.excess
  len_iter : st.iter.length = n
  len_count : st.count.length = n
  len_b : st.buckets.length = n
  len_que : st.que.length = n
  cur : CurInv st.adj st.height st.iter
  histInv : ∀ a ∈ st.hist, NetInv A0 a
  cnt : ∀ h, h < n → st.count.getD h 0 = (levelCount n s t st.height h : Int)
  bk_mem : ∀ h v, 1 ≤ h → v ∈ st.buckets.getD h [] →
    v < n ∧ v ≠ s ∧ v ≠ t ∧ 0 < st.excess.getD v 0 ∧ st.height.getD v 0 = h
  bk_nodup : ∀ h, 1 ≤ h → (st.buckets.getD h []).Nodup
  notin : ∀ h, 1 ≤ h → w ∉ st.buckets.getD h []
  act_all : ∀ v, v < n → v ≠ s → v ≠ t → 0 < st.excess.getD v 0 → st.height.getD v 0 < n →
    v ∈ st.buckets.getD (st.height.getD v 0) [] ∨ v = w
  mh_empty : ∀ h : Nat, st.max_height < (h : Int) → st.buckets.getD h [] = []
  mh_nonneg : 0 ≤ st.max_height
  mh_lt : st.max_height < (n : Int)

/-- The termination measure of the main loop. -/
def measure (A0 : Adj) (n s : Nat) (st : State) : Nat :=
  preflowMeasure A0 n s n st.height st.excess

/-- The bookkeeping of `globalRelabel` after the nodes `dq` have been taken from its queue:
`count` and `buckets` record exactly these nodes, in the order in which they were taken. -/
structure Booked (n s t : Nat) (st : State) (dq : List Nat) : Prop where
  len_count : st.count.length = n
  len_b : st.buckets.length = n
  cnt : ∀ h, h < n → st.count.getD h 0 =
    ((dq.filter (fun x => decide (x ≠ s ∧ x ≠ t ∧ st.height.getD x 0 = h))).length : Int)
  bk : ∀ h, h < n → st.buckets.getD h [] =
    dq.filter (fun x => decide (x ≠ s ∧ x ≠ t ∧ 0 < st.excess.getD x 0 ∧
      st.height.getD x 0 = h))
  mh_empty : ∀ h : Nat, st.max_height < (h : Int) → st.buckets.getD h [] = []
  mh_nonneg : 0 ≤ st.max_height
  mh_lt : st.max_height < (n : Int)

/-- The array queue of `globalRelabel`: the first `seen.length` entries of `que` are the
labelled nodes `seen`, in the order in which they were labelled. -/
def QueueIs (que seen : List Nat) : Prop :=
  seen.length ≤ que.length ∧ que.take seen.length = seen

/-- A fuel that suffices for hlpp_heuristic.cpp. -/
def heurFuel (A0 : Adj) (n s : Nat) : Nat :=
  ((n * n + 1) * (potBound A0 s n + 1) + 1) * (n + 2) + totalArcs n A0 + 2 * n + 2

end HLPPHeuristic

/-! ## Invariants of `globalRelabel` (hlpp_heuristic.cpp) -/

namespace Residual

/-- The facts about a preflow that do not involve the heights: the residual network is well
formed, `excess` records the net inflow of every node (the source starting at
`SOURCE_EXCESS`), and no excess is negative. -/
structure PreBase (A0 : Adj) (n s : Nat) (adj : Adj) (excess : List Int) : Prop where
  paired0 : Paired A0
  len0 : A0.length = n
  net0 : NetInv A0 A0
  net : NetInv A0 adj
  len_ex : excess.length = n
  exc_eq : ∀ v, excess.getD v 0 =
    excessOf A0 adj v + (if v = s then SOURCE_EXCESS else 0)
  exc_nonneg : ∀ v, 0 ≤ excess.getD v 0

/-- The labelling `H` is valid on every arc of positive residual capacity. -/
def ValidAll (adj : Adj) (H : List Nat) : Prop :=
  ∀ v i, i < (arcs adj v).length → 0 < (arc adj v i).cap →
    H.getD v 0 ≤ H.getD (arc adj v i).dst 0 + 1

/-- The number `d` is the number of arcs of a shortest path from `v` to `t` along arcs of
positive residual capacity. -/
def IsDist (adj : Adj) (v t d : Nat) : Prop :=
  ReachIn adj v t d ∧ ∀ k, ReachIn adj v t k → d ≤ k

end Residual

namespace HLPPHeuristic

/-- The statement `if (height[v] < n && v != s && v != t) { ... }` of `globalRelabel`, which
books the node `v` taken from the queue. -/
def bookNode (n s t : Nat) (st : State) (v : Nat) : State :=
  if st.height.getD v 0 < n ∧ v ≠ s ∧ v ≠ t then
    let st0 : State := { st with
      count := st.count.set (st.height.getD v 0) (st.count.getD (st.height.getD v 0) 0 + 1) }
    if st0.excess.getD v 0 > 0 then
      { st0 with
        buckets := st0.buckets.set (st0.height.getD v 0)
          (st0.buckets.getD (st0.height.getD v 0) [] ++ [v]),
        max_height := (st0.height.getD v 0 : Int) }
    else st0
  else st

/-- The invariant of the `while` loop of `globalRelabel` at its test: `seen` lists the
labelled nodes in the order in which they were labelled, which is the content of `que` below
`queEnd`; the nodes before `queBegin` have been taken from the queue and booked. -/
structure GRLoop (adj : Adj) (n s t : Nat) (st : State) (queBegin : Nat) (seen : List Nat) :
    Prop where
  adj_eq : st.adj = adj
  core : RevCore adj n t st.height seen
  queue : RevQueue adj st.height (seen.drop queBegin) seen
  qis : QueueIs st.que seen
  len_que : st.que.length = n
  sorted : seen.Pairwise (fun a b => st.height.getD a 0 ≤ st.height.getD b 0)
  booked : Booked n s t st (seen.take queBegin)
  qb_le : queBegin ≤ seen.length

end HLPPHeuristic

namespace HLPPHeuristic

/-- The body of the loop `for (Edge& e : adj[s])` of `flow`, for the arc `adj[s][i]`. -/
def pushSourceStep (n s : Nat) (st1 : State) (i : Nat) : State :=
  if st1.height.getD (arc st1.adj s i).dst 0 < n then
    let st2 := push st1 s i
    { st2 with
      max_height := max st2.max_height (st2.height.getD (arc st2.adj s i).dst 0 : Int) }
  else st1

end HLPPHeuristic

/-! ## Notions used in the statements about the preflow-push solvers -/

namespace Residual

/-- Duality for the value `F` and the final residual network `A` of a preflow, with respect
to the edge list `net`: the source has no path to the sink along arcs of positive residual
capacity, and `F` is the sum of the capacities of the edges of `net` that go from a node
without such a path to the sink to a node with one. -/
def SinkCutDuality (net : List InEdge) (A : Adj) (s t : Nat) (F : Int) : Prop :=
  ¬ Reach A s t ∧ ∀ S : Nat → Bool, (∀ x, S x = false ↔ Reach A x t) → F = cutCap net S

end Residual

/-! ## gen_anti_shortest_paths.cpp -/

namespace GenAntiShortestPaths

/-- `num_vertices(k, l)`. -/
def num_vertices (k l : Int) : Int := 4 * l + 2 + 2 * k

/-- `num_edges(k, l)`. -/
def num_edges (k l : Int) : Int := 6 * l - 4 + 4 * k + 1 * k * k

/-- `max_capacity(k, l)`. -/
def max_capacity (k l : Int) : Int := 1 * k * k * l

/-- `num_augmenting_paths(k, l)`. -/
def num_augmenting_paths (k l : Int) : Int := 1 * k * k * l

/-- The lambda `ok` of `best_parameters`. -/
def ok (max_n max_m max_cap k l : Int) : Bool :=
  if num_vertices k l > max_n then false
  else if num_edges k l > max_m then false
  else if max_capacity k l > max_cap then false
  else true

/-- The loop `while (ok(k, l + 1)) l += 1;`. -/
def growL (max_n max_m max_cap k : Int) : Nat → Int → Option Int
  | 0, _ => none
  | f + 1, l =>
    if ok max_n max_m max_cap k (l + 1) = true then growL max_n max_m max_cap k f (l + 1)
    else some l

/-- The loop `while (l >= 1 && !ok(k, l)) l -= 1;`. -/
def shrinkL (max_n max_m max_cap k : Int) : Nat → Int → Option Int
  | 0, _ => none
  | f + 1, l =>
    if l ≥ 1 ∧ ok max_n max_m max_cap k l = false then shrinkL max_n max_m max_cap k f (l - 1)
    else some l

/-- The loop `for (int k = 1, l = 1; k <= max_n; ++k)` of `best_parameters`; `F` is the fuel
handed to the inner loops. -/
def forLoop (max_n max_m max_cap : Int) (F : Nat) : Nat → Int → Int → Int → Int →
    Option (Int × Int)
  | 0, _, _, _, _ => none
  | f + 1, k, l, best_k, best_l =>
    if k ≤ max_n then
      match growL max_n max_m max_cap k F l with
      | none => none
      | some l1 =>
        match shrinkL max_n max_m max_cap k F l1 with
        | none => none
        | some l2 =>
          if l2 ≤ 0 then some (best_k, best_l)
          else if num_augmenting_paths k l2 > num_augmenting_paths best_k best_l then
            forLoop max_n max_m max_cap F f (k + 1) l2 k l2
          else forLoop max_n max_m max_cap F f (k + 1) l2 best_k best_l
    else some (best_k, best_l)

/-- `best_parameters(max_n, max_m, max_cap)`. -/
def best_parameters (fuel : Nat) (max_n max_m max_cap : Int) : Option (Int × Int) :=
  forLoop max_n max_m max_cap fuel fuel 1 1 1 1

/-- The value of `max_cap` in `main`. -/
def MAX_CAP : Int := 1000000000

/-- The assertions at the entry of `main`. -/
def accepted (max_n max_m : Int) : Prop :=
  max_n ≥ 7 ∧ max_m ≥ 5 ∧ MAX_CAP ≥ 1 ∧ 1 * max_n * max_m ≤ 2000000000

end GenAntiShortestPaths

/-! ## The main loop of hlpp_heuristic.cpp, state by state -/

namespace HLPPHeuristic

/-- The node `buckets[max_height].back()` that the body of the inner loop of `flow` takes. -/
def topNode (st : State) : Nat := (st.buckets.getD st.max_height.toNat []).getLastD 0

/-- The state after `buckets[max_height].pop_back()`. -/
def popped (st : State) : State :=
  { st with
    buckets := st.buckets.set st.max_height.toNat
      (st.buckets.getD st.max_height.toNat []).dropLast }

/-- The state in which `flow` starts `globalRelabel` for the first time: after
`std::fill(excess.begin(), excess.end(), 0); excess[s] = (1LL << 60) + 5;`. -/
def start (n s t : Nat) (edges : List InEdge) : State :=
  { init n s t edges with
    excess := (List.replicate (init n s t edges).excess.length 0).set s SOURCE_EXCESS }

/-- The states in which the loop `while (!buckets[max_height].empty())` of `flow` evaluates
its condition, when `flow` runs with fuel `F` on the network built from `edges`: the state
after the loop over the arcs of the source (if `max_height > 0`), the state left by the body
of the loop (by `discharge(v)`, or by `globalRelabel` when `work > 5 * n`), and the state
after `--max_height` (if `max_height > 0` still). -/
inductive AtLoopHead (n s t F : Nat) (edges : List InEdge) : State → Prop
  | first (st1 : State) : globalRelabel n s t F (start n s t edges) = some st1 →
      (pushSource n s st1).max_height > 0 → AtLoopHead n s t F edges (pushSource n s st1)
  | discharged (st st1 : State) : AtLoopHead n s t F edges st →
      st.buckets.getD st.max_height.toNat [] ≠ [] →
      discharge n F (popped st) (topNode st) = some st1 → ¬ st1.work > 5 * (n : Int) →
      AtLoopHead n s t F edges st1
  | relabeled (st st1 st2 : State) : AtLoopHead n s t F edges st →
      st.buckets.getD st.max_height.toNat [] ≠ [] →
      discharge n F (popped st) (topNode st) = some st1 → st1.work > 5 * (n : Int) →
      globalRelabel n s t F st1 = some st2 → AtLoopHead n s t F edges st2
  | lowered (st : State) : AtLoopHead n s t F edges st →
      st.buckets.getD st.max_height.toNat [] = [] → st.max_height - 1 > 0 →
      AtLoopHead n s t F edges { st with max_height := st.max_height - 1 }

end HLPPHeuristic

namespace HLPPHeuristic

/-- The test `e.cap > 0 && height[v] > height[e.to]` of `discharge(v)` for the arc at the
cursor `iter[v]`. -/
def admissible (st : State) (v : Nat) : Prop :=
  (arc st.adj v (st.iter.getD v 0)).cap > 0 ∧
    st.height.getD v 0 > st.height.getD (arc st.adj v (st.iter.getD v 0)).dst 0

/-- The state after `iter[v] += 1`. -/
def advance (st : State) (v : Nat) : State :=
  { st with iter := st.iter.set v (st.iter.getD v 0 + 1) }

/-- The pairs of a state and a node `v` in which the loop
`while (iter[v] < (int) adj[v].size())` of `discharge(v)` evaluates its condition, when
`flow` runs with fuel `F` on the network built from `edges`: the state in which `discharge(v)`
is entered, and the state after `iter[v] += 1`, which follows a push that leaves excess at
`v` or an arc that is not admissible. -/
inductive InScan (n s t F : Nat) (edges : List InEdge) : State → Nat → Prop
  | enter (st : State) : AtLoopHead n s t F edges st →
      st.buckets.getD st.max_height.toNat [] ≠ [] →
      InScan n s t F edges (popped st) (topNode st)
  | pushed (st : State) (v : Nat) : InScan n s t F edges st v →
      st.iter.getD v 0 < (arcs st.adj v).length → admissible st v →
      (push st v (st.iter.getD v 0)).excess.getD v 0 ≠ 0 →
      InScan n s t F edges (advance (push st v (st.iter.getD v 0)) v) v
  | skipped (st : State) (v : Nat) : InScan n s t F edges st v →
      st.iter.getD v 0 < (arcs st.adj v).length → ¬ admissible st v →
      InScan n s t F edges (advance st v) v

end HLPPHeuristic

namespace HLPPHeuristic

/-- The state `st'` is reached at the head of the inner loop of `flow` at the same time as
`st` or later in the run: zero or more turns of the loop lead from `st` to it. -/
inductive LaterHead (n s t F : Nat) (st : State) : State → Prop
  | refl : LaterHead n s t F st st
  | discharged (st1 st2 : State) : LaterHead n s t F st st1 →
      st1.buckets.getD st1.max_height.toNat [] ≠ [] →
      discharge n F (popped st1) (topNode st1) = some st2 → ¬ st2.work > 5 * (n : Int) →
      LaterHead n s t F st st2
  | relabeled (st1 st2 st3 : State) : LaterHead n s t F st st1 →
      st1.buckets.getD st1.max_height.toNat [] ≠ [] →
      discharge n F (popped st1) (topNode st1) = some st2 → st2.work > 5 * (n : Int) →
      globalRelabel n s t F st2 = some st3 → LaterHead n s t F st st3
  | lowered (st1 : State) : LaterHead n s t F st st1 →
      st1.buckets.getD st1.max_height.toNat [] = [] → st1.max_height - 1 > 0 →
      LaterHead n s t F st { st1 with max_height := st1.max_height - 1 }

end HLPPHeuristic

/-! ## The runs of fifopp.cpp and hlpp.cpp, state by state -/

namespace FIFOPP

/-- The state after `iter[v] += 1`. -/
def advance (st : State) (v : Nat) : State :=
  { st with iter := st.iter.set v (st.iter.getD v 0 + 1) }

/-- The state after `relabel(v); iter[v] = 0;`. -/
def relabelStep (n : Nat) (st : State) (v : Nat) : State :=
  { relabel n st v with iter := (relabel n st v).iter.set v 0 }

/-- The states in which the inner loop `while (iter[v] < (int) adj[v].size())` of
`discharge(v)` evaluates its condition, when `flow` runs with fuel `F` on the network built
from `edges`; `st0` is the state at the head of the main loop from which `v` was taken. The
loop is reached when `discharge(v)` is entered, after `iter[v] += 1` (which follows a call of
`push` that leaves excess at `v`), and after `relabel(v); iter[v] = 0;` (which follows the
exit of the inner loop at `iter[v] == adj[v].size()`). -/
inductive InDischarge (n s t F : Nat) (edges : List InEdge) (st0 : State) :
    State → Nat → Prop
  | enter (v : Nat) (rest : List Nat) : AtLoopHead n s t F edges st0 →
      st0.active = v :: rest → InDischarge n s t F edges st0 { st0 with active := rest } v
  | pushed (st : State) (v : Nat) : InDischarge n s t F edges st0 st v →
      st.iter.getD v 0 < (arcs st.adj v).length →
      ¬ (push s t st v (st.iter.getD v 0)).excess.getD v 0 ≤ 0 →
      InDischarge n s t F edges st0 (advance (push s t st v (st.iter.getD v 0)) v) v
  | relabeled (st : State) (v : Nat) : InDischarge n s t F edges st0 st v →
      ¬ st.iter.getD v 0 < (arcs st.adj v).length →
      InDischarge n s t F edges st0 (relabelStep n st v) v

end FIFOPP

namespace HLPP

/-- The state after `iter[v] += 1`. -/
def advance (st : State) (v : Nat) : State :=
  { st with iter := st.iter.set v (st.iter.getD v 0 + 1) }

/-- The state after `relabel(v); iter[v] = 0;`. -/
def relabelStep (n : Nat) (st : State) (v : Nat) : State :=
  { relabel n st v with iter := (relabel n st v).iter.set v 0 }

/-- The node `buckets[max_height].back()` that the body of the loop of `flow` takes. -/
def topNode (st : State) : Nat := (st.buckets.getD st.max_height []).getLastD 0

/-- The state after `buckets[max_height].pop_back()`. -/
def popped (st : State) : State :=
  { st with
    buckets := st.buckets.set st.max_height (st.buckets.getD st.max_height []).dropLast }

/-- The states in which the loop `while (max_height >= 1)` of `HLPP::flow` (hlpp.cpp)
evaluates its condition, when `flow` runs with fuel `F` on the network built from `edges`:
the state left by `preprocess`, the state after `max_height -= 1; continue;`, and the state
left by `discharge(v)`. -/
inductive AtLoopHead (n s t F : Nat) (edges : List InEdge) : State → Prop
  | first (st1 : State) : preprocess n s t F (init n s t edges) = some st1 →
      AtLoopHead n s t F edges st1
  | lowered (st : State) : AtLoopHead n s t F edges st → st.max_height ≥ 1 →
      st.buckets.getD st.max_height [] = [] →
      AtLoopHead n s t F edges { st with max_height := st.max_height - 1 }
  | discharged (st st1 : State) : AtLoopHead n s t F edges st → st.max_height ≥ 1 →
      st.buckets.getD st.max_height [] ≠ [] →
      discharge n s t F F (popped st) (topNode st) = some st1 →
      AtLoopHead n s t F edges st1

/-- The states in which the inner loop `while (iter[v] < (int) adj[v].size())` of
`discharge(v)` evaluates its condition; `st0` is the state at the head of the main loop from
which `v` was taken. -/
inductive InDischarge (n s t F : Nat) (edges : List InEdge) (st0 : State) :
    State → Nat → Prop
  | enter : AtLoopHead n s t F edges st0 → st0.max_height ≥ 1 →
      st0.buckets.getD st0.max_height [] ≠ [] →
      InDischarge n s t F edges st0 (popped st0) (topNode st0)
  | pushed (st : State) (v : Nat) : InDischarge n s t F edges st0 st v →
      st.iter.getD v 0 < (arcs st.adj v).length →
      ¬ (push s t st v (st.iter.getD v 0)).excess.getD v 0 ≤ 0 →
      InDischarge n s t F edges st0 (advance (push s t st v (st.iter.getD v 0)) v) v
  | relabeled (st : State) (v : Nat) : InDischarge n s t F edges st0 st v →
      ¬ st.iter.getD v 0 < (arcs st.adj v).length →
      InDischarge n s t F edges st0 (relabelStep n st v) v

end HLPP

namespace Residual

end Residual

namespace Residual

end Residual

/-! ## The labelling after initialisation, and the part of the invariant of
hlpp_heuristic.cpp that does not depend on the heights -/

namespace Residual

end Residual

namespace HLPPHeuristic

end HLPPHeuristic

namespace Residual

/-- The effect of the pushes from the source `s` on a network that started as `A0`: every
arc of the source towards a node of height below `n` is saturated, and the excess of every
other node is the total capacity of the arcs of the source that lead to it, if its height
is below `n`, and zero otherwise. -/
def SourcePushed (A0 : Adj) (n s : Nat) (adj : Adj) (height : List Nat)
    (excess : List Int) : Prop :=
  (∀ i, i < (arcs A0 s).length → height.getD (arc A0 s i).dst 0 < n →
    (arc adj s i).cap = 0) ∧
  (∀ x, x ≠ s → excess.getD x 0 =
    ((List.range (arcs A0 s).length).map (fun i =>
      if (arc A0 s i).dst = x ∧ height.getD x 0 < n then (arc A0 s i).cap else 0)).sum)

end Residual

/-! ## The ghost log as a record of paired updates -/

namespace Residual

/-- The network `adj'` with the log `hist'` arises from the network `adj` with the log
`hist` by zero or more paired updates of an existing arc `adj[u][i]`, each of them entered in
the log: `pushFlow adj u i d` lowers the capacity of `adj[u][i]` by `d` and raises the
capacity of its paired arc by `d` (for a negative `d` it is the paired arc that is lowered
by `-d`). -/
inductive Steps (adj : Adj) (hist : List Adj) : Adj → List Adj → Prop
  | refl : Steps adj hist adj hist
  | step (adj1 : Adj) (hist1 : List Adj) (u i : Nat) (d : Int) : Steps adj hist adj1 hist1 →
      i < (arcs adj1 u).length →
      Steps adj hist (pushFlow adj1 u i d) (pushFlow adj1 u i d :: hist1)

end Residual

/-! ## Paths of arcs, and the augmentation that `dfs` of dfs.cpp performs -/

namespace Residual

/-- The list `p` of arcs, each given by its tail and its position in `adj[tail]`, is a path
of `adj` from `u` to `v`: the first arc leaves `u`, every further arc leaves the head of the
arc before it, and the last arc enters `v`. -/
def IsPath (adj : Adj) : Nat → List (Nat × Nat) → Nat → Prop
  | u, [], v => u = v
  | u, a :: p, v =>
    a.1 = u ∧ a.2 < (arcs adj a.1).length ∧ IsPath adj (arc adj a.1 a.2).dst p v

/-- The nodes that the path `p` from `u` passes, in order. -/
def pathNodes (adj : Adj) (u : Nat) (p : List (Nat × Nat)) : List Nat :=
  u :: p.map (fun a => (arc adj a.1 a.2).dst)

/-- The arcs paired with the arcs of `p`: `adj[e.to][e.rev]` for every arc `e` of `p`. -/
def pairedArcs (adj : Adj) (p : List (Nat × Nat)) : List (Nat × Nat) :=
  p.map (fun a => ((arc adj a.1 a.2).dst, (arc adj a.1 a.2).rev))

/-- The value that the nested calls `dfs(e.to, min(flow, e.cap))` hand down along the arcs
of `p`, starting from `bound`: the minimum of `bound` and of the capacities on `p`. -/
def bottleneck (adj : Adj) : Int → List (Nat × Nat) → Int
  | bound, [] => bound
  | bound, a :: p => bottleneck adj (min bound (arc adj a.1 a.2).cap) p

/-- The paired updates `e.cap -= d; adj[e.to][e.rev].cap += d` for the arcs of `p`, the last
arc of the path first, as the returning calls of `dfs` perform them. -/
def applyPath (adj : Adj) (p : List (Nat × Nat)) (d : Int) : Adj :=
  p.foldr (fun a A => pushFlow A a.1 a.2 d) adj

end Residual

namespace FordFulkersonDFS

/-- What a call `dfs(v, flow)` started in state `st`, whose network is `adj0`, guarantees
about the path it augments. -/
structure PathPost (adj0 : Adj) (t v : Nat) (flow : Int) (st : State) (r : Int × State) :
    Prop where
  len : r.2.visited.length = st.visited.length
  mono : ∀ x, Vis st x → Vis r.2 x
  fail : r.1 < 1 → r.2.adj = adj0
  found : 1 ≤ r.1 → ∃ p, IsPath adj0 v p t ∧ (pathNodes adj0 v p).Nodup ∧
    (∀ x ∈ pathNodes adj0 v p, ¬ Vis st x) ∧ (∀ a ∈ p, (arc adj0 a.1 a.2).cap ≠ 0) ∧
    r.1 = bottleneck adj0 flow p ∧ r.2.adj = applyPath adj0 p r.1

end FordFulkersonDFS

/-! ## gen_anti_hipr.cpp -/

namespace GenAntiHipr

/-- `num_edges(K, W, L)`. -/
def num_edges (K W L : Int) : Int := 2 * (18 * L + 2 * W * (2 * K + 5) + 1 * W * W + 5)

/-- `max_capacity(K, W, L)`. -/
def max_capacity (_K W L : Int) : Int := 2 * L * W * W + 4 * L + 1

/-- `estimated_work(K, W, L)`. -/
def estimated_work (K W L : Int) : Int := 2 * L * W * W * K

/-- The lambda `ok` of `best_parameters`. -/
def ok (max_m max_cap K W L : Int) : Bool :=
  if num_edges K W L > max_m then false
  else if max_capacity K W L > max_cap then false
  else true

/-- The loop `while (ok(K, W, L)) L += 1;`. -/
def growL (max_m max_cap K W : Int) : Nat → Int → Option Int
  | 0, _ => none
  | f + 1, L =>
    if ok max_m max_cap K W L = true then growL max_m max_cap K W f (L + 1)
    else some L

/-- The loop `while (L >= 1 && !ok(K, W, L)) L -= 1;`. -/
def shrinkL (max_m max_cap K W : Int) : Nat → Int → Option Int
  | 0, _ => none
  | f + 1, L =>
    if L ≥ 1 ∧ ok max_m max_cap K W L = false then shrinkL max_m max_cap K W f (L - 1)
    else some L

/-- The loop `for (int W = 1, L = 1; num_edges(K, W, 1) <= max_m; ++W)` of
`best_parameters`, from the values `W`, `L` and the best triple so far; `F` is the fuel
handed to the two `while` loops. -/
def forW (max_m max_cap : Int) (F : Nat) (K : Int) : Nat → Int → Int → Int × Int × Int →
    Option (Int × Int × Int)
  | 0, _, _, _ => none
  | f + 1, W, L, best =>
    if num_edges K W 1 ≤ max_m then
      match growL max_m max_cap K W F L with
      | none => none
      | some L1 =>
        match shrinkL max_m max_cap K W F L1 with
        | none => none
        | some L2 =>
          if L2 = 0 then some best
          else if estimated_work K W L2 > estimated_work best.1 best.2.1 best.2.2 then
            forW max_m max_cap F K f (W + 1) L2 (K, W, L2)
          else forW max_m max_cap F K f (W + 1) L2 best
    else some best

/-- The loop `for (int K = 1; num_edges(K, 1, 1) <= max_m; ++K)` of `best_parameters`. -/
def forK (max_m max_cap : Int) (F : Nat) : Nat → Int → Int × Int × Int →
    Option (Int × Int × Int)
  | 0, _, _ => none
  | f + 1, K, best =>
    if num_edges K 1 1 ≤ max_m then
      if num_edges K 1 1 > max_m then some best
      else if max_capacity K 1 1 > max_cap then some best
      else
        match forW max_m max_cap F K F 1 1 best with
        | none => none
        | some best1 => forK max_m max_cap F f (K + 1) best1
    else some best

/-- `best_parameters(max_m, max_cap)`: the triple `(best_K, best_W, best_L)`. -/
def best_parameters (fuel : Nat) (max_m max_cap : Int) : Option (Int × Int × Int) :=
  forK max_m max_cap fuel fuel 1 (1, 1, 1)

/-- The value of `max_cap` in `main`. -/
def MAX_CAP : Int := 1000000000

/-- `struct Edge` of the generator: `src` is the field `from`, `dst` is the field `to`. -/
structure GEdge where
  src : Nat
  dst : Nat
  cap : Int

instance : Inhabited GEdge := ⟨⟨0, 0, 0⟩⟩

/-! ### The numbers that `++n` hands out in `main`

The nodes are numbered in the order of the statements `++n`: `s2`, `s`, `a1`, the
`(K + 3) * W` cells of `v1` row by row, `b1`, `a2`, the cells of `v2`, `b2`, `p1`, the
`K * W` cells of `v3`, `q1`, `p2`, the cells of `v4`, `q2`, the `2 * L` cells of `c`, the
`6 * L + 1` cells of `line` from `line[6 * L]` down to `line[0]`, and `t`. -/

/-- Node `s2`. -/
def s2 : Nat := 1

/-- Node `s`. -/
def s : Nat := 2

/-- Node `a1`. -/
def a1 : Nat := 3

/-- Node `v1[i][j]`. -/
def v1 (W i j : Nat) : Nat := a1 + i * W + j + 1

/-- Node `b1`. -/
def b1 (K W : Nat) : Nat := a1 + (K + 3) * W + 1

/-- Node `a2`. -/
def a2 (K W : Nat) : Nat := b1 K W + 1

/-- Node `v2[i][j]`. -/
def v2 (K W i j : Nat) : Nat := a2 K W + i * W + j + 1

/-- Node `b2`. -/
def b2 (K W : Nat) : Nat := a2 K W + (K + 3) * W + 1

/-- Node `p1`. -/
def p1 (K W : Nat) : Nat := b2 K W + 1

/-- Node `v3[i][j]`. -/
def v3 (K W i j : Nat) : Nat := p1 K W + i * W + j + 1

/-- Node `q1`. -/
def q1 (K W : Nat) : Nat := p1 K W + K * W + 1

/-- Node `p2`. -/
def p2 (K W : Nat) : Nat := q1 K W + 1

/-- Node `v4[i][j]`. -/
def v4 (K W i j : Nat) : Nat := p2 K W + i * W + j + 1

/-- Node `q2`. -/
def q2 (K W : Nat) : Nat := p2 K W + K * W + 1

/-- Node `c[i]`. -/
def c (K W i : Nat) : Nat := q2 K W + i + 1

/-- Node `line[i]`: the loop `for (int i = 6 * L; i >= 0; --i) line[i] = ++n;` numbers the
cells from the last one down. -/
def line (K W L i : Nat) : Nat := q2 K W + 2 * L + (6 * L - i) + 1

/-- Node `t`, which is also the final value of `n`. -/
def t (K W L : Nat) : Nat := q2 K W + 2 * L + (6 * L + 1) + 1

/-- The vector `edges` of `main` before it is sorted, for the parameters `K`, `W`, `L` and
`inf = max_capacity(K, W, L)`; one line per loop or statement of the source. -/
def edges (K W L : Nat) (inf : Int) : List GEdge :=
  [⟨s2, s, inf⟩, ⟨s, t K W L, 1⟩, ⟨line K W L 0, t K W L, inf⟩]
  ++ (List.range (2 * L)).flatMap (fun i =>
      [⟨s, c K W i, (W : Int) * W + 2⟩, ⟨c K W i, line K W L 0, 1⟩,
       ⟨c K W i, if i % 2 = 0 then a2 K W else a1, (W : Int) * W⟩,
       ⟨c K W i, if i % 2 = 0 then b2 K W else b1 K W, 1⟩])
  ++ (List.range W).flatMap (fun j => [⟨a1, v1 W 0 j, W⟩, ⟨a2 K W, v2 K W 0 j, W⟩])
  ++ (List.range (K + 2)).flatMap (fun i => (List.range W).flatMap (fun j =>
      [⟨v1 W i j, v1 W (i + 1) j, W⟩, ⟨v2 K W i j, v2 K W (i + 1) j, W⟩]))
  ++ (List.range W).flatMap (fun j =>
      [⟨v1 W (K + 2) j, b1 K W, W⟩, ⟨v2 K W (K + 2) j, b2 K W, W⟩])
  ++ (List.range L).flatMap (fun i =>
      [⟨b1 K W, line K W L (6 * i), 1⟩, ⟨b2 K W, line K W L (6 * i + 3), 1⟩])
  ++ [⟨a1, p1 K W, inf⟩, ⟨a2 K W, p2 K W, inf⟩]
  ++ (List.range W).flatMap (fun j =>
      [⟨p1 K W, v3 K W 0 j, inf⟩, ⟨p2 K W, v4 K W 0 j, inf⟩])
  ++ (List.range (K - 1)).flatMap (fun i => (List.range W).flatMap (fun j =>
      [⟨v3 K W i j, v3 K W (i + 1) j, inf⟩, ⟨v4 K W i j, v4 K W (i + 1) j, inf⟩]))
  ++ (List.range W).flatMap (fun j =>
      [⟨v3 K W (K - 1) j, q1 K W, inf⟩, ⟨v4 K W (K - 1) j, q2 K W, inf⟩])
  ++ (List.range W).flatMap (fun i => (List.range W).map (fun j =>
      (⟨v3 K W 0 i, v4 K W 0 j, 1⟩ : GEdge)))
  ++ (List.range L).flatMap (fun i =>
      [⟨q1 K W, line K W L (6 + 6 * i), (W : Int) * W⟩,
       ⟨q2 K W, line K W L (3 + 6 * i), (W : Int) * W⟩])
  ++ (List.range (6 * L)).reverse.map (fun i =>
      (⟨line K W L (i + 1), line K W L i, inf⟩ : GEdge))

/-- The comparison handed to `std::sort`. -/
def edgeLess (e1 e2 : GEdge) : Bool :=
  if e1.src < e2.src then true
  else if e1.src > e2.src then false
  else decide (e1.dst < e2.dst)

/-- The call `std::sort(edges.begin(), edges.end(), ...)`, as a stable insertion sort: an
edge goes in front of the first edge that is not less than it. -/
def sortEdges (es : List GEdge) : List GEdge :=
  List.insertionSort (fun e1 e2 => edgeLess e2 e1 = false) es

/-- The statement `ve[u].push_back(x)`. -/
def pushVe (ve : List (List Nat)) (u x : Nat) : List (List Nat) :=
  ve.set u (ve.getD u [] ++ [x])

/-- The loop `for (int i = 0; i < (int) edges.size(); ++i)` that fills `ve`, from index `i`
on, over the remaining edges. -/
def fillVe (ve : List (List Nat)) : Nat → List GEdge → List (List Nat)
  | _, [] => ve
  | i, e :: es => fillVe (pushVe (pushVe ve e.src i) e.dst i) (i + 1) es

/-- The vector `order`: the lists `ve[1]`, ..., `ve[n]` one after the other. -/
def order (n : Nat) (ve : List (List Nat)) : List Nat :=
  (List.range n).flatMap (fun k => ve.getD (k + 1) [])

/-- The variables of the loop that pairs up the entries of `order`; `have_` is the vector
`have` and `open_` the vector `open` of the source. -/
structure PairState where
  ve : List (List Nat)
  have_ : List Int
  open_ : List Nat
  final_edges : List GEdge

/-- One half of the body of the pairing loop, for the entry `x = order[i]`: the node that
it yields (`u` or `v` of the source) and the state after it. -/
def place (st : PairState) (x : Nat) : Nat × PairState :=
  if st.have_.getD x (-1) = -1 then
    let st1 : PairState :=
      if st.open_ = [] then
        { st with open_ := st.open_ ++ [st.ve.length], ve := st.ve ++ [[]] }
      else st
    let u := st1.open_.getLastD 0
    (u, { st1 with
      open_ := st1.open_.dropLast
      have_ := st1.have_.set x (u : Int)
      ve := pushVe st1.ve u x })
  else
    let u := (st.have_.getD x (-1)).toNat
    (u, { st with open_ := st.open_ ++ [u] })

/-- The loop `for (int i = 0; i < (int) order.size(); ++i)`, which takes two entries of
`order` in each turn, over the remaining entries. -/
def pairLoop : List Nat → PairState → PairState
  | x :: y :: rest, st =>
    pairLoop rest
      { (place (place st x).2 y).2 with
        final_edges := (place (place st x).2 y).2.final_edges ++
          [⟨(place st x).1, (place (place st x).2 y).1, 1⟩] }
  | _, st => st

/-- The edges that the loop `for (int i = n + 1; i < (int) ve.size(); ++i)` appends to
`final_edges`. -/
def tailEdges (n : Nat) (ve : List (List Nat)) (es : List GEdge) : List GEdge :=
  ((ve.drop (n + 1)).flatten).map (fun x => es.getD x default)

/-- What `main` has computed when it reaches the two closing assertions. -/
structure Closing where
  ve : List (List Nat)
  final_edges : List GEdge
  t : Nat

/-- The part of `main` from the sorted vector `es` of edges on `n` nodes up to the closing
assertions; `none` if `assert(order.size() % 2 == 0)` fails. -/
def finish (n : Nat) (es : List GEdge) : Option Closing :=
  if (order n (fillVe (List.replicate (n + 1) []) 0 es)).length % 2 = 0 then
    let st := pairLoop (order n (fillVe (List.replicate (n + 1) []) 0 es))
      { ve := fillVe (List.replicate (n + 1) []) 0 es
        have_ := List.replicate es.length (-1)
        open_ := []
        final_edges := [] }
    some { ve := st.ve, final_edges := st.final_edges ++ tailEdges n st.ve es, t := n }
  else none

/-- The run of `main` on the input `max_m` up to the closing assertions; `none` if an
earlier assertion fails or the fuel of `best_parameters` runs out. -/
def atClosing (fuel : Nat) (max_m : Int) : Option Closing :=
  if max_m ≥ 74 ∧ MAX_CAP ≥ 4 then
    match best_parameters fuel max_m MAX_CAP with
    | none => none
    | some (K, W, L) =>
      finish (t K.toNat W.toNat L.toNat)
        (sortEdges (edges K.toNat W.toNat L.toNat (max_capacity K W L)))
  else none

/-- The numbers of the header line `p max [ve.size() - 1] [final_edges.size()]` that `main`
prints; `none` if an assertion fails (or the fuel runs out). -/
def header (fuel : Nat) (max_m : Int) : Option (Nat × Nat) :=
  match atClosing fuel max_m with
  | none => none
  | some cl =>
    if (cl.ve.length : Int) ≤ max_m ∧ (cl.final_edges.length : Int) ≤ max_m then
      some (cl.ve.length - 1, cl.final_edges.length)
    else none

/-! ### Invariants of gen_anti_hipr.cpp -/

/-- The triples that `best_parameters` may hold in `best_K`, `best_W`, `best_L`: positive
entries that pass `ok`. -/
def GoodBest (max_m max_cap : Int) (b : Int × Int × Int) : Prop :=
  1 ≤ b.1 ∧ 1 ≤ b.2.1 ∧ 1 ≤ b.2.2 ∧ ok max_m max_cap b.1 b.2.1 b.2.2 = true

/-- The edge `e` joins two of the nodes `1`, ..., `n`. -/
structure NodeOK (n : Nat) (e : GEdge) : Prop where
  src_pos : 1 ≤ e.src
  src_le : e.src ≤ n
  dst_pos : 1 ≤ e.dst
  dst_le : e.dst ≤ n

/-- The number of entries of `have` other than `-1`: the edges that have been placed. -/
def placed (hv : List Int) : Nat := hv.countP (fun h => decide (h ≠ -1))

/-- The invariant of the pairing loop, for `E` edges and `N0 = n + 1` entries of `ve` before
the loop: the placed edges sit at nodes that the loop has added to `ve`, the nodes in `open`
are such nodes, the lists of the added nodes hold one entry for every placed edge, and at
most one node has been added for every placed edge. -/
structure PairInv (N0 E : Nat) (st : PairState) : Prop where
  len_have : st.have_.length = E
  ve_ge : N0 ≤ st.ve.length
  have_ok : ∀ x, x < E → st.have_.getD x (-1) = -1 ∨
    ((N0 : Int) ≤ st.have_.getD x (-1) ∧ st.have_.getD x (-1) < (st.ve.length : Int))
  open_ok : ∀ u ∈ st.open_, N0 ≤ u ∧ u < st.ve.length
  count : ((st.ve.drop N0).flatten).length = placed st.have_
  created : st.ve.length ≤ N0 + placed st.have_

end GenAntiHipr

/-! ## The search tree of `bfs` in edmonds_karp.cpp, level by level -/

namespace Residual

/-- The node that the parent pointer of `x` leads to: `adj[x][parent[x]].to`. -/
def pred (A : Adj) (parent : List Int) (x : Nat) : Nat :=
  (arc A x (parent.getD x 0).toNat).dst

/-- The arc by which the search reached `x`, given by its tail and its position: the arc
paired with `adj[x][parent[x]]`. -/
def parentArc (A : Adj) (parent : List Int) (x : Nat) : Nat × Nat :=
  ((arc A x (parent.getD x 0).toNat).dst, (arc A x (parent.getD x 0).toNat).rev)

/-- The arcs met when `parent[]` is followed from `v` back to `s` (for at most `k` steps),
listed from the side of `s`. -/
def parentPath (A : Adj) (parent : List Int) (s : Nat) : Nat → Nat → List (Nat × Nat)
  | 0, _ => []
  | k + 1, v =>
    if v = s then []
    else parentPath A parent s k (pred A parent v) ++ [parentArc A parent v]

end Residual

namespace EdmondsKarp

/-- The search tree with its levels: `dist` gives the number of arcs on the way from `s` to
a reached node along the parent pointers, and `path_cap` the least capacity on that way
(starting from `INT_MAX` at `s`). -/
structure Tree (A : Adj) (n s : Nat) (st : State) (dist : Nat → Nat) : Prop where
  adj_eq : st.adj = A
  len_parent : st.parent.length = n
  len_pc : st.path_cap.length = n
  src_seen : Seen n st s
  dist_src : dist s = 0
  pc_src : st.path_cap.getD s 0 = INT_MAX
  dist_lt : ∀ x, Seen n st x → dist x < n
  node : ∀ x, Seen n st x → x ≠ s →
    0 ≤ st.parent.getD x 0 ∧ (st.parent.getD x 0).toNat < (arcs A x).length ∧
    Seen n st (pred A st.parent x) ∧ dist x = dist (pred A st.parent x) + 1 ∧
    st.path_cap.getD x 0 = min (st.path_cap.getD (pred A st.parent x) 0)
      (pairCap A x (st.parent.getD x 0).toNat) ∧
    pairCap A x (st.parent.getD x 0).toNat ≠ 0

/-- The invariant of the search about the levels: the queue `que[0..queEnd)` is sorted by
level, spans at most two levels from `que[queBegin]` on, and every arc of non-zero capacity
out of a node in `que[0..queBegin)` leads to a reached node at most one level further. -/
structure Level (A : Adj) (n s t : Nat) (st : State) (qb qe : Nat) (dist : Nat → Nat) :
    Prop where
  tree : Tree A n s st dist
  queue : Queue n t st qe
  dist_le : ∀ j, j < qe → dist (st.que.getD j 0) ≤ j
  mono : ∀ i j, i ≤ j → j < qe → dist (st.que.getD i 0) ≤ dist (st.que.getD j 0)
  near : ∀ j, qb < qe → j < qe → dist (st.que.getD j 0) ≤ dist (st.que.getD qb 0) + 1
  closed : ∀ j, j < qb → ∀ i, i < (arcs A (st.que.getD j 0)).length →
    (arc A (st.que.getD j 0) i).cap ≠ 0 →
    Seen n st (arc A (st.que.getD j 0) i).dst ∧
      dist (arc A (st.que.getD j 0) i).dst ≤ dist (st.que.getD j 0) + 1

end EdmondsKarp

/-! ## The labels of `bfs` in dinic.cpp as levels, and the arcs that `dfs` uses -/

namespace Dinic

/-- The invariant of the search about the levels: every labelled node can be reached from
`s` in as many steps as its label says, the queue `que[0..queEnd)` is sorted by label and
spans at most two labels from `que[queBegin]` on, and every arc of non-zero capacity out of
a node in `que[0..queBegin)` leads to a labelled node whose label is at most one larger. -/
structure Level (A : Adj) (n s t : Nat) (st : State) (qb qe : Nat) : Prop where
  adj_eq : st.adj = A
  len_label : st.label.length = n
  queue : Queue n t st qe
  src_seen : Seen n st s
  lab_src : st.label.getD s 0 = 0
  reach : ∀ x, Seen n st x → ReachIn A s x (st.label.getD x 0)
  dist_le : ∀ j, j < qe → st.label.getD (st.que.getD j 0) 0 ≤ j
  mono : ∀ i j, i ≤ j → j < qe →
    st.label.getD (st.que.getD i 0) 0 ≤ st.label.getD (st.que.getD j 0) 0
  near : ∀ j, qb < qe → j < qe →
    st.label.getD (st.que.getD j 0) 0 ≤ st.label.getD (st.que.getD qb 0) 0 + 1
  closed : ∀ j, j < qb → ∀ i, i < (arcs A (st.que.getD j 0)).length →
    (arc A (st.que.getD j 0) i).cap ≠ 0 →
    Seen n st (arc A (st.que.getD j 0) i).dst ∧
      st.label.getD (arc A (st.que.getD j 0) i).dst 0 ≤
        st.label.getD (st.que.getD j 0) 0 + 1

/-- Every node with `label < n` has as its label the number of arcs of a shortest path from
`s` along arcs of positive residual capacity. -/
def Exact (A : Adj) (n s : Nat) (st : State) : Prop :=
  ∀ x, Seen n st x → IsDist A s x (st.label.getD x 0)

/-- The log of networks grows from `hist` to the later log by updates of `dfs` that respect
the levels `lab`: each update `e.cap += d; adj[e.to][e.rev].cap -= d` with `e = adj[v][i]`
has `d ≥ 0`, so that the only capacity it can decrease is that of the arc from `u = e.to` to
`v`, and `lab v = lab u + 1`. -/
inductive LevelSteps (lab : Nat → Nat) (adj : Adj) (hist : List Adj) :
    Adj → List Adj → Prop
  | refl : LevelSteps lab adj hist adj hist
  | step (adj1 : Adj) (hist1 : List Adj) (v i : Nat) (d : Int) :
      LevelSteps lab adj hist adj1 hist1 → i < (arcs adj1 v).length → 0 ≤ d →
      lab v = lab (arc adj1 v i).dst + 1 →
      LevelSteps lab adj hist (pushFlow adj1 v i (-d)) (pushFlow adj1 v i (-d) :: hist1)

/-- The invariant of `dfs` within one phase, for the labels `lab` that `bfs` has left: a
label is the one of `bfs` or has been set to `n`, and every arc of non-zero capacity between
two nodes labelled by `bfs` rises by at most one level. -/
structure Phase (A0 : Adj) (n : Nat) (lab : Nat → Nat) (st : State) : Prop where
  net : NetInv A0 st.adj
  len_label : st.label.length = n
  len_iter : st.iter.length = n
  lab_eq : ∀ x, st.label.getD x 0 = lab x ∨ st.label.getD x 0 = n
  lvl : ∀ x i, i < (arcs st.adj x).length → (arc st.adj x i).cap ≠ 0 → lab x < n →
    lab (arc st.adj x i).dst < n → lab (arc st.adj x i).dst ≤ lab x + 1

end Dinic

/-! ## The labels of `dijkstra` in most_improving.cpp as bottleneck capacities -/

namespace MostImprovingAugmentingPaths

/-- The label of every labelled node other than `s` is the smaller of the label of its
predecessor and the capacity of the arc from the predecessor to the node. -/
def Tight (A : Adj) (n s : Nat) (st : State) : Prop :=
  ∀ x, InTree n st x → x ≠ s →
    st.path_cap.getD x 0 =
      min (st.path_cap.getD (pred A st x) 0) (pairCap A x (st.parent.getD x 0).toNat)

end MostImprovingAugmentingPaths

/-! ## The part of the loop invariant of hlpp_heuristic.cpp that holds on every input -/

namespace HLPPHeuristic

end HLPPHeuristic

/-! ## An input on which the source of hlpp_heuristic.cpp runs out of excess -/

namespace HLPPHeuristic

/-- The input lines, for `n = 5`: `1 3 5`, then `k` lines `1 2 2147483647`, then `1 4 5`,
`3 4 3`, `4 2 1`, `2 5 1` (in the numbering of the code: `0 -> 2`, `k` parallel edges
`0 -> 1`, `0 -> 3`, `2 -> 3`, `3 -> 1`, `1 -> 4`). -/
def drainInput (k : Nat) : List InEdge :=
  (0, 2, 5) :: (List.replicate k ((0 : Nat), (1 : Nat), (2147483647 : Int)) ++
    [(0, 3, 5), (2, 3, 3), (3, 1, 1), (1, 4, 1)])

/-- The arcs of node 0 in the network built from `drainInput k`. -/
def drainArcs0 (k : Nat) : List Edge :=
  (⟨2, 0, 5⟩ :: (List.range k).map (fun i => (⟨1, i, 2147483647⟩ : Edge))) ++ [⟨3, 0, 5⟩]

/-- The arcs of node 1 in the network built from `drainInput k`. -/
def drainArcs1 (k : Nat) : List Edge :=
  (List.range k).map (fun i => (⟨0, i + 1, 0⟩ : Edge)) ++ [⟨3, 2, 0⟩, ⟨4, 0, 1⟩]

/-- The network built from `drainInput k`. -/
def drainNet (k : Nat) : Adj :=
  [drainArcs0 k, drainArcs1 k, [⟨0, 0, 0⟩, ⟨3, 1, 3⟩],
    [⟨0, k + 1, 0⟩, ⟨2, 1, 0⟩, ⟨1, k, 1⟩], [⟨1, k + 1, 0⟩]]

end HLPPHeuristic

namespace HLPPHeuristic

/-- The states of the loop `for (Edge& e : adj[s])` of `flow` on the network built from
`drainInput k`, before the arc of index `j` of the source is handled (`1 ≤ j ≤ k + 1`): the
arcs of index `j` and more are untouched, and the source holds what the `j - 1` parallel
arcs before them have left of `SOURCE_EXCESS - 5`. -/
def DrainFill (k j : Nat) (st : State) : Prop :=
  ∃ X Y e0,
    st.adj = [X, Y, [⟨0, 0, 5⟩, ⟨3, 1, 3⟩], [⟨0, k + 1, 0⟩, ⟨2, 1, 0⟩, ⟨1, k, 1⟩],
      [⟨1, k + 1, 0⟩]] ∧
    st.height = [5, 1, 3, 2, 0] ∧ st.count = [0, 1, 1, 1, 0] ∧ st.iter = [0, 0, 0, 0, 0] ∧
    st.excess = [e0, SOURCE_EXCESS - 5 - e0, 5, 0, 0] ∧
    st.buckets = [[], if j = 1 then [] else [1], [], [2], []] ∧
    3 ≤ st.max_height ∧ st.max_height < 5 ∧ st.work = 0 ∧
    X.length = k + 2 ∧ Y.length = k + 2 ∧
    (∀ i, j ≤ i → X.getD i default = (drainArcs0 k).getD i default) ∧
    Y.getD (k + 1) default = ⟨4, 0, 1⟩ ∧
    e0 = max (SOURCE_EXCESS - 5 - ((j : Int) - 1) * 2147483647) 0

/-- The state in which the loop over the arcs of the source ends on the network built from
`drainInput k`, when the parallel arcs take all of `SOURCE_EXCESS - 5`: the source is empty,
node 3 is filed in `buckets[2]` although it has received nothing, and the arc from the
source to node 3 keeps its capacity. -/
def DrainFilled (k : Nat) (st : State) : Prop :=
  ∃ X Y,
    st.adj = [X, Y, [⟨0, 0, 5⟩, ⟨3, 1, 3⟩], [⟨0, k + 1, 0⟩, ⟨2, 1, 0⟩, ⟨1, k, 1⟩],
      [⟨1, k + 1, 0⟩]] ∧
    st.height = [5, 1, 3, 2, 0] ∧ st.count = [0, 1, 1, 1, 0] ∧ st.iter = [0, 0, 0, 0, 0] ∧
    st.excess = [0, SOURCE_EXCESS - 5, 5, 0, 0] ∧
    st.buckets = [[], [1], [3], [2], []] ∧
    3 ≤ st.max_height ∧ st.max_height < 5 ∧ st.work = 0 ∧
    X.length = k + 2 ∧ Y.length = k + 2 ∧
    X.getD (k + 1) default = ⟨3, 0, 5⟩ ∧ Y.getD (k + 1) default = ⟨4, 0, 1⟩

end HLPPHeuristic

namespace HLPPHeuristic

/-- A state of `flow` on the network built from `drainInput k`, given by the arc lists of the
nodes 2 and 3 and by the vectors of the solver: the arc lists of the nodes 0 and 1 are known
by their length and their last arc only, which leads from the source to node 3 with
capacity 5 and from node 1 to the sink with capacity 1. -/
def DrainAt (k : Nat) (N2 N3 : List Edge) (height : List Nat) (count : List Int)
    (iter : List Nat) (excess : List Int) (buckets : List (List Nat)) (mh : Int)
    (st : State) : Prop :=
  ∃ X Y,
    st.adj = [X, Y, N2, N3, [⟨1, k + 1, 0⟩]] ∧
    st.height = height ∧ st.count = count ∧ st.iter = iter ∧ st.excess = excess ∧
    st.buckets = buckets ∧ st.max_height = mh ∧ st.work = 0 ∧
    X.length = k + 2 ∧ Y.length = k + 2 ∧
    X.getD (k + 1) default = ⟨3, 0, 5⟩ ∧ Y.getD (k + 1) default = ⟨4, 0, 1⟩

end HLPPHeuristic

/-! ## Construction of the network -/

namespace Residual

theorem arcs_of_le {adj : Adj} {u : Nat} (h : adj.length ≤ u) : arcs adj u = [] := by
  unfold arcs
  rw [List.getD_eq_getElem?_getD, List.getElem?_eq_none h]
  rfl

theorem arcs_set (adj : Adj) (u w : Nat) (l : List Edge) :
    arcs (adj.set u l) w = if w = u ∧ u < adj.length then l else arcs adj w := by
  unfold arcs
  simp only [List.getD_eq_getElem?_getD, List.getElem?_set]
  by_cases h : u = w
  · subst h
    by_cases h2 : u < adj.length
    · simp [h2]
    · simp [h2, List.getElem?_eq_none (not_lt.mp h2)]
  · have h' : ¬ w = u := fun e => h e.symm
    simp [h, h']

theorem length_pushBack (adj : Adj) (u : Nat) (e : Edge) :
    (pushBack adj u e).length = adj.length := by
  simp [pushBack]

theorem arcs_pushBack (adj : Adj) (u w : Nat) (e : Edge) (hu : u < adj.length) :
    arcs (pushBack adj u e) w = if w = u then arcs adj u ++ [e] else arcs adj w := by
  unfold pushBack
  rw [arcs_set]
  simp [hu]

theorem length_addPair (adj : Adj) (u v : Nat) (c : Int) :
    (addPair adj u v c).length = adj.length := by
  simp [addPair, length_pushBack]

theorem arcs_addPair (adj : Adj) (u v : Nat) (c : Int) (hu : u < adj.length)
    (hv : v < adj.length) (huv : u ≠ v) (w : Nat) :
    arcs (addPair adj u v c) w =
      if w = u then arcs adj u ++ [⟨v, (arcs adj v).length, c⟩]
      else if w = v then arcs adj v ++ [⟨u, (arcs adj u).length, 0⟩]
      else arcs adj w := by
  unfold addPair
  rw [arcs_pushBack _ _ _ _ (by simpa [length_pushBack] using hv)]
  rw [arcs_pushBack _ _ _ _ hu, arcs_pushBack _ _ _ _ hu, arcs_pushBack _ _ _ _ hu]
  have hvu : ¬ v = u := fun e => huv e.symm
  by_cases h1 : w = u
  · subst h1
    simp [huv]
  · by_cases h2 : w = v
    · subst h2
      simp [h1]
    · simp [h1, h2]

theorem addEdge_eq_addPair (adj : Adj) (u v : Nat) (c : Int) (h : u ≠ v ∧ c ≥ 1) :
    addEdge adj u v c = addPair adj u v c := by
  simp only [addEdge, addPair, if_pos h]

theorem addEdge_eq_self (adj : Adj) (u v : Nat) (c : Int) (h : ¬ (u ≠ v ∧ c ≥ 1)) :
    addEdge adj u v c = adj := by
  simp only [addEdge, if_neg h]

theorem addEdgePreflow_eq_addPair (s t : Nat) (adj : Adj) (u v : Nat) (c : Int)
    (h : u ≠ v ∧ u ≠ t ∧ v ≠ s ∧ c ≥ 1) :
    addEdgePreflow s t adj u v c = addPair adj u v c := by
  simp only [addEdgePreflow, addPair, if_pos h]

theorem addEdgePreflow_eq_self (s t : Nat) (adj : Adj) (u v : Nat) (c : Int)
    (h : ¬ (u ≠ v ∧ u ≠ t ∧ v ≠ s ∧ c ≥ 1)) :
    addEdgePreflow s t adj u v c = adj := by
  simp only [addEdgePreflow, if_neg h]

theorem arc_append_left (l : List Edge) (e : Edge) (i : Nat) (h : i < l.length) :
    (l ++ [e]).getD i default = l.getD i default :=
  List.getD_append l [e] default i h

theorem arc_append_last (l : List Edge) (e : Edge) :
    (l ++ [e]).getD l.length default = e := by
  rw [List.getD_append_right l [e] default l.length (le_refl _)]
  simp

theorem length_arcs_addPair (adj : Adj) (u v : Nat) (c : Int) (hu : u < adj.length)
    (hv : v < adj.length) (huv : u ≠ v) (w : Nat) :
    (arcs (addPair adj u v c) w).length =
      (arcs adj w).length + (if w = u ∨ w = v then 1 else 0) := by
  rw [arcs_addPair adj u v c hu hv huv]
  by_cases h1 : w = u
  · simp [h1]
  · by_cases h2 : w = v
    · subst h2
      simp [h1]
    · simp [h1, h2]

theorem arc_addPair_old (adj : Adj) (u v : Nat) (c : Int) (hu : u < adj.length)
    (hv : v < adj.length) (huv : u ≠ v) (w i : Nat) (hi : i < (arcs adj w).length) :
    arc (addPair adj u v c) w i = arc adj w i := by
  unfold arc
  rw [arcs_addPair adj u v c hu hv huv]
  by_cases h1 : w = u
  · rw [if_pos h1]
    subst h1
    exact arc_append_left _ _ _ hi
  · rw [if_neg h1]
    by_cases h2 : w = v
    · rw [if_pos h2]
      subst h2
      exact arc_append_left _ _ _ hi
    · rw [if_neg h2]

theorem arc_addPair_new_left (adj : Adj) (u v : Nat) (c : Int) (hu : u < adj.length)
    (hv : v < adj.length) (huv : u ≠ v) :
    arc (addPair adj u v c) u (arcs adj u).length = ⟨v, (arcs adj v).length, c⟩ := by
  unfold arc
  rw [arcs_addPair adj u v c hu hv huv, if_pos rfl]
  exact arc_append_last _ _

theorem arc_addPair_new_right (adj : Adj) (u v : Nat) (c : Int) (hu : u < adj.length)
    (hv : v < adj.length) (huv : u ≠ v) :
    arc (addPair adj u v c) v (arcs adj v).length = ⟨u, (arcs adj u).length, 0⟩ := by
  unfold arc
  rw [arcs_addPair adj u v c hu hv huv, if_neg (fun e => huv e.symm), if_pos rfl]
  exact arc_append_last _ _

theorem Paired.addPair {adj : Adj} (hp : Paired adj) (u v : Nat) (c : Int)
    (hu : u < adj.length) (hv : v < adj.length) (huv : u ≠ v) :
    Paired (addPair adj u v c) := by
  have hlen := length_arcs_addPair adj u v c hu hv huv
  have hold := arc_addPair_old adj u v c hu hv huv
  have hnl := arc_addPair_new_left adj u v c hu hv huv
  have hnr := arc_addPair_new_right adj u v c hu hv huv
  intro w i hi
  rw [length_addPair]
  by_cases hi' : i < (arcs adj w).length
  · obtain ⟨h1, h2, h3, h4, h5⟩ := hp w i hi'
    rw [hold w i hi']
    refine ⟨h1, h2, ?_, ?_, ?_⟩
    · rw [hlen]; omega
    · rw [hold _ _ h3]; exact h4
    · rw [hold _ _ h3]; exact h5
  · rw [hlen] at hi
    by_cases h1 : w = u
    · subst h1
      have hi2 : i = (arcs adj w).length := by
        simp at hi; omega
      subst hi2
      rw [hnl]
      refine ⟨hv, fun e => huv e.symm, ?_, ?_, ?_⟩
      · show (arcs adj v).length < _
        rw [hlen]; simp
      · show (arc _ v (arcs adj v).length).dst = w
        rw [hnr]
      · show (arc _ v (arcs adj v).length).rev = _
        rw [hnr]
    · by_cases h2 : w = v
      · subst h2
        have hi2 : i = (arcs adj w).length := by
          simp at hi; omega
        subst hi2
        rw [hnr]
        refine ⟨hu, huv, ?_, ?_, ?_⟩
        · show (arcs adj u).length < _
          rw [hlen]; simp
        · show (arc _ u (arcs adj u).length).dst = w
          rw [hnl]
        · show (arc _ u (arcs adj u).length).rev = _
          rw [hnl]
      · simp [h1, h2] at hi
        omega

theorem Paired.replicate (n : Nat) : Paired (List.replicate n ([] : List Edge)) := by
  intro u i hi
  exfalso
  have : arcs (List.replicate n ([] : List Edge)) u = [] := by
    unfold arcs
    rw [List.getD_eq_getElem?_getD, List.getElem?_replicate]
    by_cases h : u < n <;> simp [h]
  rw [this] at hi
  simp at hi

theorem build_eq_buildWith (n : Nat) (edges : List InEdge) :
    build n edges = buildWith kept n edges := by
  unfold build buildWith
  congr 1
  funext adj e
  by_cases h : e.1 ≠ e.2.1 ∧ e.2.2 ≥ 1
  · rw [addEdge_eq_addPair _ _ _ _ h]
    simp [kept, h]
  · rw [addEdge_eq_self _ _ _ _ h]
    simp [kept, h]

theorem buildPreflow_eq_buildWith (n s t : Nat) (edges : List InEdge) :
    buildPreflow n s t edges = buildWith (keptPreflow s t) n edges := by
  unfold buildPreflow buildWith
  congr 1
  funext adj e
  by_cases h : e.1 ≠ e.2.1 ∧ e.1 ≠ t ∧ e.2.1 ≠ s ∧ e.2.2 ≥ 1
  · rw [addEdgePreflow_eq_addPair _ _ _ _ _ _ h]
    simp [keptPreflow, h]
  · rw [addEdgePreflow_eq_self _ _ _ _ _ _ h]
    simp [keptPreflow, h]

/-- The fold of the construction loop from an arbitrary start. -/
theorem foldl_addPair_inv (keep : InEdge → Bool) (hk : ∀ e, keep e = true → e.1 ≠ e.2.1)
    (n : Nat) (edges : List InEdge) (hr : InRange n edges) (adj : Adj)
    (hn : adj.length = n) (hp : Paired adj) (w : Nat) :
    let r := edges.foldl (fun adj e => if keep e then addPair adj e.1 e.2.1 e.2.2 else adj) adj
    r.length = n ∧ Paired r ∧
      (arcs r w).map (fun e => (e.dst, e.cap)) =
        (arcs adj w).map (fun e => (e.dst, e.cap)) ++ arcsInOrder keep edges w := by
  induction edges generalizing adj with
  | nil => simp [arcsInOrder, hn, hp]
  | cons e es ih =>
    have hr' : InRange n es := fun x hx => hr x (List.mem_cons_of_mem _ hx)
    obtain ⟨he1, he2⟩ := hr e (List.mem_cons_self _ _)
    simp only [List.foldl_cons]
    by_cases hke : keep e = true
    · have huv := hk e hke
      rw [← hn] at he1 he2
      have hl := length_addPair adj e.1 e.2.1 e.2.2
      have hp' := hp.addPair e.1 e.2.1 e.2.2 he1 he2 huv
      obtain ⟨h1, h2, h3⟩ := ih hr' (addPair adj e.1 e.2.1 e.2.2) (hl.trans hn) hp'
      rw [if_pos hke]
      refine ⟨h1, h2, ?_⟩
      rw [h3, arcs_addPair adj _ _ _ he1 he2 huv]
      simp only [arcsInOrder, List.filterMap_cons, hke, if_true]
      by_cases c1 : w = e.1
      · subst c1
        simp
      · have c1' : ¬ e.1 = w := fun x => c1 x.symm
        by_cases c2 : w = e.2.1
        · subst c2
          simp [c1, c1']
        · have c2' : ¬ e.2.1 = w := fun x => c2 x.symm
          simp [c1, c2, c1', c2']
    · obtain ⟨h1, h2, h3⟩ := ih hr' adj hn hp
      rw [if_neg hke]
      refine ⟨h1, h2, ?_⟩
      rw [h3]
      simp [arcsInOrder, List.filterMap_cons, hke]

theorem arcs_replicate (n w : Nat) : arcs (List.replicate n ([] : List Edge)) w = [] := by
  unfold arcs
  rw [List.getD_eq_getElem?_getD, List.getElem?_replicate]
  by_cases h : w < n <;> simp [h]

theorem buildWith_inv (keep : InEdge → Bool) (hk : ∀ e, keep e = true → e.1 ≠ e.2.1)
    (n : Nat) (edges : List InEdge) (hr : InRange n edges) (w : Nat) :
    (buildWith keep n edges).length = n ∧ Paired (buildWith keep n edges) ∧
      (arcs (buildWith keep n edges) w).map (fun e => (e.dst, e.cap)) =
        arcsInOrder keep edges w := by
  have h := foldl_addPair_inv keep hk n edges hr (List.replicate n []) (by simp)
    (Paired.replicate n) w
  simpa [arcs_replicate] using h

theorem kept_ne (e : InEdge) (h : kept e = true) : e.1 ≠ e.2.1 := by
  simp [kept] at h
  exact h.1

theorem keptPreflow_ne (s t : Nat) (e : InEdge) (h : keptPreflow s t e = true) :
    e.1 ≠ e.2.1 := by
  simp [keptPreflow] at h
  exact h.1

end Residual

/-! ## Claims about `addEdge` -/

namespace Residual

theorem appendsPair_addPair (adj : Adj) (u v : Nat) (c : Int) (hu : u < adj.length)
    (hv : v < adj.length) (huv : u ≠ v) : AppendsPair adj (addPair adj u v c) u v c := by
  have hA := arcs_addPair adj u v c hu hv huv
  have hnl := arc_addPair_new_left adj u v c hu hv huv
  have hnr := arc_addPair_new_right adj u v c hu hv huv
  refine ⟨length_addPair adj u v c, ?_, ?_, ?_, ?_, ?_, ?_⟩
  · rw [hA, if_pos rfl]
  · rw [hA, if_neg (fun e => huv e.symm), if_pos rfl]
  · intro w h1 h2
    rw [hA, if_neg h1, if_neg h2]
  · intro w i hi
    exact arc_addPair_old adj u v c hu hv huv w i hi
  · rw [hnl]; exact hnr
  · rw [hnr]; exact hnl

end Residual

/-- C9: in every solver, `addEdge(from, to, cap)` with `from == to` or `cap < 1` returns the
network it was given, unchanged in every adjacency list (content and length); the function is
total, so no error is signalled. -/
theorem addEdge_dropped_edge_unchanged (u v : Nat) (cap : Int) (h : u = v ∨ cap < 1) :
    (∀ adj, FordFulkersonDFS.addEdge adj u v cap = adj) ∧
    (∀ g, FordFulkersonRandomDFS.addEdge g u v cap = g) ∧
    (∀ adj, EdmondsKarp.addEdge adj u v cap = adj) ∧
    (∀ adj, Dinic.addEdge adj u v cap = adj) ∧
    (∀ adj, MostImprovingAugmentingPaths.addEdge adj u v cap = adj) ∧
    (∀ s t adj, FIFOPP.add_edge s t adj u v cap = adj) ∧
    (∀ s t adj, HLPP.add_edge s t adj u v cap = adj) ∧
    (∀ s t adj, HLPPHeuristic.addEdge s t adj u v cap = adj) := by
  have h1 : ¬ (u ≠ v ∧ cap ≥ 1) := by
    rintro ⟨a, b⟩
    rcases h with h | h
    · exact a h
    · omega
  have h2 : ∀ s t, ¬ (u ≠ v ∧ u ≠ t ∧ v ≠ s ∧ cap ≥ 1) := by
    rintro s t ⟨a, _, _, b⟩
    exact h1 ⟨a, b⟩
  refine ⟨?_, ?_, ?_, ?_, ?_, ?_, ?_, ?_⟩
  · intro adj; exact Residual.addEdge_eq_self adj u v cap h1
  · intro g; simp only [FordFulkersonRandomDFS.addEdge, if_neg h1]
  · intro adj; exact Residual.addEdge_eq_self adj u v cap h1
  · intro adj; exact Residual.addEdge_eq_self adj u v cap h1
  · intro adj; exact Residual.addEdge_eq_self adj u v cap h1
  · intro s t adj; exact Residual.addEdgePreflow_eq_self s t adj u v cap (h2 s t)
  · intro s t adj; exact Residual.addEdgePreflow_eq_self s t adj u v cap (h2 s t)
  · intro s t adj; exact Residual.addEdgePreflow_eq_self s t adj u v cap (h2 s t)

/-- A self-loop `2 -> 2` of capacity 7 is dropped by every solver. -/
theorem addEdge_dropped_edge_unchanged_witness :
    ((2 : Nat) = 2 ∨ (7 : Int) < 1) ∧
    (∀ adj, FordFulkersonDFS.addEdge adj 2 2 7 = adj) ∧
    (∀ g, FordFulkersonRandomDFS.addEdge g 2 2 7 = g) ∧
    (∀ adj, EdmondsKarp.addEdge adj 2 2 7 = adj) ∧
    (∀ adj, Dinic.addEdge adj 2 2 7 = adj) ∧
    (∀ adj, MostImprovingAugmentingPaths.addEdge adj 2 2 7 = adj) ∧
    (∀ s t adj, FIFOPP.add_edge s t adj 2 2 7 = adj) ∧
    (∀ s t adj, HLPP.add_edge s t adj 2 2 7 = adj) ∧
    (∀ s t adj, HLPPHeuristic.addEdge s t adj 2 2 7 = adj) :=
  ⟨Or.inl rfl, addEdge_dropped_edge_unchanged 2 2 7 (Or.inl rfl)⟩

/-- C10: in every solver with per-node arc lists, `addEdge(from, to, cap)` on a kept edge
(`from != to`, `cap >= 1`, and for the preflow-push solvers `from != t`, `to != s`) appends
exactly one arc `(to, cap)` to `adj[from]` and one arc `(from, 0)` to `adj[to]`, changes no
earlier arc, and the two new arcs store each other's position; hence in a network built by
the `addEdge` loop every arc `e` at position `i` of `adj[u]` has `adj[e.to][e.rev].to == u`
and `adj[e.to][e.rev].rev == i`, and the arcs of each node are in input order. -/
theorem addEdge_appends_pair_and_keeps_order :
    (∀ (adj : Adj) (u v : Nat) (cap : Int), u < adj.length → v < adj.length → u ≠ v →
      1 ≤ cap →
        AppendsPair adj (FordFulkersonDFS.addEdge adj u v cap) u v cap ∧
        AppendsPair adj (EdmondsKarp.addEdge adj u v cap) u v cap ∧
        AppendsPair adj (Dinic.addEdge adj u v cap) u v cap ∧
        AppendsPair adj (MostImprovingAugmentingPaths.addEdge adj u v cap) u v cap) ∧
    (∀ (s t : Nat) (adj : Adj) (u v : Nat) (cap : Int), u < adj.length → v < adj.length →
      u ≠ v → 1 ≤ cap → u ≠ t → v ≠ s →
        AppendsPair adj (FIFOPP.add_edge s t adj u v cap) u v cap ∧
        AppendsPair adj (HLPP.add_edge s t adj u v cap) u v cap ∧
        AppendsPair adj (HLPPHeuristic.addEdge s t adj u v cap) u v cap) ∧
    (∀ (n : Nat) (edges : List InEdge), InRange n edges →
      Paired (build n edges) ∧
      ∀ w, (arcs (build n edges) w).map (fun e => (e.dst, e.cap)) = arcsInOrder kept edges w) ∧
    (∀ (n s t : Nat) (edges : List InEdge), InRange n edges →
      Paired (buildPreflow n s t edges) ∧
      ∀ w, (arcs (buildPreflow n s t edges) w).map (fun e => (e.dst, e.cap)) =
        arcsInOrder (keptPreflow s t) edges w) := by
  refine ⟨?_, ?_, ?_, ?_⟩
  · intro adj u v cap hu hv huv hc
    have h : AppendsPair adj (Residual.addEdge adj u v cap) u v cap := by
      rw [addEdge_eq_addPair adj u v cap ⟨huv, hc⟩]
      exact appendsPair_addPair adj u v cap hu hv huv
    exact ⟨h, h, h, h⟩
  · intro s t adj u v cap hu hv huv hc hut hvs
    have h : AppendsPair adj (Residual.addEdgePreflow s t adj u v cap) u v cap := by
      rw [addEdgePreflow_eq_addPair s t adj u v cap ⟨huv, hut, hvs, hc⟩]
      exact appendsPair_addPair adj u v cap hu hv huv
    exact ⟨h, h, h⟩
  · intro n edges hr
    rw [build_eq_buildWith]
    exact ⟨(buildWith_inv kept kept_ne n edges hr 0).2.1,
      fun w => (buildWith_inv kept kept_ne n edges hr w).2.2⟩
  · intro n s t edges hr
    rw [buildPreflow_eq_buildWith]
    exact ⟨(buildWith_inv _ (keptPreflow_ne s t) n edges hr 0).2.1,
      fun w => (buildWith_inv _ (keptPreflow_ne s t) n edges hr w).2.2⟩

/-- The diamond network of the specification, built by the augmenting-path `addEdge`. -/
theorem addEdge_appends_pair_and_keeps_order_witness :
    Paired (build 4 [(0, 1, 3), (0, 2, 2), (1, 3, 2), (2, 3, 3)]) ∧
    ∀ w, (arcs (build 4 [(0, 1, 3), (0, 2, 2), (1, 3, 2), (2, 3, 3)]) w).map
        (fun e => (e.dst, e.cap)) =
      arcsInOrder kept [(0, 1, 3), (0, 2, 2), (1, 3, 2), (2, 3, 3)] w :=
  addEdge_appends_pair_and_keeps_order.2.2.1 4 [(0, 1, 3), (0, 2, 2), (1, 3, 2), (2, 3, 3)]
    (by intro e he; simp at he; rcases he with h | h | h | h <;> subst h <;> decide)

/-! ## Paired updates of residual capacities -/

namespace Residual

theorem length_addCap (adj : Adj) (u i : Nat) (d : Int) :
    (addCap adj u i d).length = adj.length := by
  simp [addCap]

theorem getD_set_eq {α : Type} (l : List α) (i j : Nat) (x a : α) :
    (l.set i x).getD j a = if j = i ∧ i < l.length then x else l.getD j a := by
  simp only [List.getD_eq_getElem?_getD, List.getElem?_set]
  by_cases h : i = j
  · subst h
    by_cases h2 : i < l.length
    · simp [h2]
    · simp [h2, List.getElem?_eq_none (not_lt.mp h2)]
  · have h' : ¬ j = i := fun e => h e.symm
    simp [h, h']

theorem arcs_addCap (adj : Adj) (u i : Nat) (d : Int) (w : Nat) :
    arcs (addCap adj u i d) w =
      if w = u then (arcs adj u).set i { arc adj u i with cap := (arc adj u i).cap + d }
      else arcs adj w := by
  unfold addCap
  rw [arcs_set]
  by_cases h1 : w = u
  · subst h1
    by_cases h2 : w < adj.length
    · simp [h2]
    · simp [h2, arcs_of_le (not_lt.mp h2)]
  · simp [h1]

theorem length_arcs_addCap (adj : Adj) (u i : Nat) (d : Int) (w : Nat) :
    (arcs (addCap adj u i d) w).length = (arcs adj w).length := by
  rw [arcs_addCap]
  by_cases h1 : w = u
  · subst h1; simp
  · simp [h1]

theorem arc_addCap (adj : Adj) (u i : Nat) (d : Int) (w j : Nat) :
    arc (addCap adj u i d) w j =
      if w = u ∧ j = i ∧ i < (arcs adj u).length then
        { arc adj u i with cap := (arc adj u i).cap + d }
      else arc adj w j := by
  have h := arcs_addCap adj u i d w
  show (arcs (addCap adj u i d) w).getD j default = _
  rw [h]
  by_cases h1 : w = u
  · subst h1
    rw [if_pos rfl, getD_set_eq]
    by_cases h2 : j = i ∧ i < (arcs adj w).length
    · rw [if_pos h2, if_pos ⟨rfl, h2⟩]
    · rw [if_neg h2, if_neg (by tauto)]
      rfl
  · rw [if_neg h1, if_neg (by tauto)]
    rfl

theorem arc_addCap_dst (adj : Adj) (u i : Nat) (d : Int) (w j : Nat) :
    (arc (addCap adj u i d) w j).dst = (arc adj w j).dst := by
  rw [arc_addCap]
  split
  · next h => obtain ⟨rfl, rfl, _⟩ := h; rfl
  · rfl

theorem arc_addCap_rev (adj : Adj) (u i : Nat) (d : Int) (w j : Nat) :
    (arc (addCap adj u i d) w j).rev = (arc adj w j).rev := by
  rw [arc_addCap]
  split
  · next h => obtain ⟨rfl, rfl, _⟩ := h; rfl
  · rfl

theorem arc_addCap_cap (adj : Adj) (u i : Nat) (d : Int) (w j : Nat) :
    (arc (addCap adj u i d) w j).cap =
      (arc adj w j).cap + (if w = u ∧ j = i ∧ i < (arcs adj u).length then d else 0) := by
  rw [arc_addCap]
  split
  · next h => obtain ⟨rfl, rfl, _⟩ := h; rfl
  · simp

theorem SameShape.refl (adj : Adj) : SameShape adj adj :=
  ⟨rfl, fun _ => ⟨rfl, fun _ => ⟨rfl, rfl⟩⟩⟩

theorem SameShape.trans {a b c : Adj} (h1 : SameShape a b) (h2 : SameShape b c) :
    SameShape a c :=
  ⟨h2.1.trans h1.1, fun u => ⟨((h2.2 u).1).trans (h1.2 u).1, fun i =>
    ⟨(((h2.2 u).2 i).1).trans ((h1.2 u).2 i).1, (((h2.2 u).2 i).2).trans ((h1.2 u).2 i).2⟩⟩⟩

theorem SameShape.addCap (adj : Adj) (u i : Nat) (d : Int) :
    SameShape adj (addCap adj u i d) :=
  ⟨length_addCap adj u i d, fun w => ⟨length_arcs_addCap adj u i d w, fun j =>
    ⟨arc_addCap_dst adj u i d w j, arc_addCap_rev adj u i d w j⟩⟩⟩

theorem SameShape.pushFlow (adj : Adj) (u i : Nat) (d : Int) :
    SameShape adj (pushFlow adj u i d) :=
  (SameShape.addCap adj u i (-d)).trans (SameShape.addCap _ _ _ d)

theorem Paired.of_sameShape {adj0 adj : Adj} (hp : Paired adj0) (hs : SameShape adj0 adj) :
    Paired adj := by
  intro u i hi
  rw [(hs.2 u).1] at hi
  obtain ⟨h1, h2, h3, h4, h5⟩ := hp u i hi
  rw [((hs.2 u).2 i).1, ((hs.2 u).2 i).2, hs.1, (hs.2 _).1, ((hs.2 _).2 _).1, ((hs.2 _).2 _).2]
  exact ⟨h1, h2, h3, h4, h5⟩

/-- The residual capacities after a paired update. -/
theorem cap_pushFlow {adj : Adj} (hp : Paired adj) (u i : Nat) (d : Int)
    (hi : i < (arcs adj u).length) (w j : Nat) :
    (arc (pushFlow adj u i d) w j).cap =
      (arc adj w j).cap - (if w = u ∧ j = i then d else 0)
        + (if w = (arc adj u i).dst ∧ j = (arc adj u i).rev then d else 0) := by
  obtain ⟨_, h2, h3, _, _⟩ := hp u i hi
  unfold pushFlow
  rw [arc_addCap_cap, arc_addCap_cap, arc_addCap_dst, arc_addCap_rev, length_arcs_addCap]
  by_cases c1 : w = u ∧ j = i
  · have c2 : ¬ (w = (arc adj u i).dst ∧ j = (arc adj u i).rev) := by
      rintro ⟨a, _⟩
      exact h2 (a.symm.trans c1.1)
    have c3 : w = u ∧ j = i ∧ i < (arcs adj u).length := ⟨c1.1, c1.2, hi⟩
    have c4 : ¬ (w = (arc adj u i).dst ∧ j = (arc adj u i).rev ∧
        (arc adj u i).rev < (arcs adj (arc adj u i).dst).length) := fun h => c2 ⟨h.1, h.2.1⟩
    rw [if_pos c1, if_neg c2, if_pos c3, if_neg c4]
    ring
  · have c3 : ¬ (w = u ∧ j = i ∧ i < (arcs adj u).length) := fun h => c1 ⟨h.1, h.2.1⟩
    rw [if_neg c1, if_neg c3]
    by_cases c2 : w = (arc adj u i).dst ∧ j = (arc adj u i).rev
    · have c4 : w = (arc adj u i).dst ∧ j = (arc adj u i).rev ∧
          (arc adj u i).rev < (arcs adj (arc adj u i).dst).length := ⟨c2.1, c2.2, h3⟩
      rw [if_pos c2, if_pos c4]
      ring
    · have c4 : ¬ (w = (arc adj u i).dst ∧ j = (arc adj u i).rev ∧
          (arc adj u i).rev < (arcs adj (arc adj u i).dst).length) := fun h => c2 ⟨h.1, h.2.1⟩
      rw [if_neg c2, if_neg c4]
      ring

theorem capSum_set (l : List Edge) (i : Nat) (x : Edge) (hi : i < l.length) :
    capSum (l.set i x) = capSum l - (l.getD i default).cap + x.cap := by
  induction l generalizing i with
  | nil => simp at hi
  | cons a l ih =>
    cases i with
    | zero =>
      simp [capSum]
      ring
    | succ i =>
      have hi' : i < l.length := by simpa using hi
      have := ih i hi'
      simp only [capSum, List.set_cons_succ, List.map_cons, List.sum_cons, List.getD_cons_succ] at this ⊢
      rw [this]
      ring

theorem capSum_arcs_addCap (adj : Adj) (u i : Nat) (d : Int) (w : Nat) :
    capSum (arcs (addCap adj u i d) w) =
      capSum (arcs adj w) + (if w = u ∧ i < (arcs adj u).length then d else 0) := by
  rw [arcs_addCap]
  by_cases h1 : w = u
  · subst h1
    rw [if_pos rfl]
    by_cases h2 : i < (arcs adj w).length
    · rw [capSum_set _ _ _ h2, if_pos ⟨rfl, h2⟩]
      show _ - (arc adj w i).cap + ((arc adj w i).cap + d) = _
      ring
    · rw [List.set_eq_of_length_le (not_lt.mp h2), if_neg (fun h => h2 h.2)]
      simp
  · rw [if_neg h1, if_neg (fun h => h1 h.1)]
    simp

theorem excessOf_pushFlow {adj : Adj} (adj0 : Adj) (hp : Paired adj) (u i : Nat) (d : Int)
    (hi : i < (arcs adj u).length) (v : Nat) :
    excessOf adj0 (pushFlow adj u i d) v =
      excessOf adj0 adj v - (if v = u then d else 0)
        + (if v = (arc adj u i).dst then d else 0) := by
  obtain ⟨_, _, h3, _, _⟩ := hp u i hi
  unfold excessOf pushFlow
  rw [capSum_arcs_addCap, capSum_arcs_addCap, arc_addCap_dst, arc_addCap_rev,
    length_arcs_addCap]
  have e1 : (v = u ∧ i < (arcs adj u).length) ↔ v = u := ⟨fun h => h.1, fun h => ⟨h, hi⟩⟩
  have e2 : (v = (arc adj u i).dst ∧ (arc adj u i).rev < (arcs adj (arc adj u i).dst).length)
      ↔ v = (arc adj u i).dst := ⟨fun h => h.1, fun h => ⟨h, h3⟩⟩
  simp only [e1, e2]
  split_ifs <;> ring

theorem pair_eq_iff {adj : Adj} (hp : Paired adj) (u i w j : Nat)
    (hi : i < (arcs adj u).length) (hj : j < (arcs adj w).length) :
    ((arc adj w j).dst = u ∧ (arc adj w j).rev = i) ↔
      (w = (arc adj u i).dst ∧ j = (arc adj u i).rev) := by
  obtain ⟨_, _, _, h4, h5⟩ := hp u i hi
  obtain ⟨_, _, _, g4, g5⟩ := hp w j hj
  constructor
  · rintro ⟨a, b⟩
    rw [← a, ← b]
    exact ⟨g4.symm, g5.symm⟩
  · rintro ⟨a, b⟩
    rw [a, b]
    exact ⟨h4, h5⟩

theorem pair_inj {adj : Adj} (hp : Paired adj) (u i w j : Nat)
    (hi : i < (arcs adj u).length) (hj : j < (arcs adj w).length) :
    ((arc adj w j).dst = (arc adj u i).dst ∧ (arc adj w j).rev = (arc adj u i).rev) ↔
      (w = u ∧ j = i) := by
  obtain ⟨_, _, _, h4, h5⟩ := hp u i hi
  obtain ⟨_, _, _, g4, g5⟩ := hp w j hj
  constructor
  · rintro ⟨a, b⟩
    rw [a, b, h4] at g4
    rw [a, b, h5] at g5
    exact ⟨g4.symm, g5.symm⟩
  · rintro ⟨a, b⟩
    rw [a, b]
    exact ⟨rfl, rfl⟩

theorem pairCap_pushFlow {adj : Adj} (hp : Paired adj) (u i : Nat) (d : Int)
    (hi : i < (arcs adj u).length) (w j : Nat) (hj : j < (arcs adj w).length) :
    pairCap (pushFlow adj u i d) w j =
      pairCap adj w j + (if w = u ∧ j = i then d else 0)
        - (if w = (arc adj u i).dst ∧ j = (arc adj u i).rev then d else 0) := by
  have hs := SameShape.pushFlow adj u i d
  unfold pairCap
  rw [((hs.2 w).2 j).1, ((hs.2 w).2 j).2, cap_pushFlow hp u i d hi]
  simp only [pair_eq_iff hp u i w j hi hj, pair_inj hp u i w j hi hj]
  split_ifs <;> ring

theorem NetInv.paired {adj0 adj : Adj} (h : NetInv adj0 adj) (hp : Paired adj0) : Paired adj :=
  hp.of_sameShape h.shape

theorem NetInv.of_nonneg (adj : Adj) (h : ∀ u i, i < (arcs adj u).length → 0 ≤ (arc adj u i).cap) :
    NetInv adj adj :=
  ⟨SameShape.refl adj, h, fun _ _ _ => rfl⟩

theorem NetInv.push {adj0 adj : Adj} (h : NetInv adj0 adj) (hp : Paired adj0) (u i : Nat)
    (d : Int) (hi : i < (arcs adj u).length) (h1 : d ≤ (arc adj u i).cap)
    (h2 : 0 ≤ pairCap adj u i + d) : NetInv adj0 (pushFlow adj u i d) := by
  have hpa := h.paired hp
  have hs := SameShape.pushFlow adj u i d
  refine ⟨h.shape.trans hs, ?_, ?_⟩
  · intro w j hj
    rw [(hs.2 w).1] at hj
    rw [cap_pushFlow hpa u i d hi]
    have hn := h.nonneg w j hj
    have hne := (hpa u i hi).2.1
    unfold pairCap at h2
    by_cases c1 : w = u ∧ j = i
    · have c2 : ¬ (w = (arc adj u i).dst ∧ j = (arc adj u i).rev) := by
        rintro ⟨a, _⟩
        exact hne (a.symm.trans c1.1)
      rw [if_pos c1, if_neg c2]
      obtain ⟨rfl, rfl⟩ := c1
      omega
    · rw [if_neg c1]
      by_cases c2 : w = (arc adj u i).dst ∧ j = (arc adj u i).rev
      · rw [if_pos c2]
        obtain ⟨rfl, rfl⟩ := c2
        omega
      · rw [if_neg c2]
        omega
  · intro w j hj
    rw [(hs.2 w).1] at hj
    rw [cap_pushFlow hpa u i d hi, pairCap_pushFlow hpa u i d hi w j hj, ← h.pairSum w j hj]
    ring

end Residual

namespace Residual

theorem NetInv.length_arcs {A0 A : Adj} (h : NetInv A0 A) (u : Nat) :
    (arcs A u).length = (arcs A0 u).length := (h.shape.2 u).1

theorem NetInv.dst_eq {A0 A : Adj} (h : NetInv A0 A) (u i : Nat) :
    (arc A u i).dst = (arc A0 u i).dst := ((h.shape.2 u).2 i).1

theorem NetInv.rev_eq {A0 A : Adj} (h : NetInv A0 A) (u i : Nat) :
    (arc A u i).rev = (arc A0 u i).rev := ((h.shape.2 u).2 i).2

theorem NetInv.length_eq {A0 A : Adj} (h : NetInv A0 A) : A.length = A0.length := h.shape.1

/-- The two statements of the augmentation loop are a paired update by `-d`. -/
theorem walk_step_eq (adj : Adj) (v i : Nat) (d : Int) :
    addCap (addCap adj v i d) (arc (addCap adj v i d) v i).dst (arc (addCap adj v i d) v i).rev
      (-d) = pushFlow adj v i (-d) := by
  simp [pushFlow]

theorem walk_spec {A0 A : Adj} {parent pc : List Int} {s : Nat} {V : Nat → Prop}
    {rk : Nat → Nat} (hp : Paired A0) (hA : NetInv A0 A) (ht : TreeInv A parent pc s V rk)
    (d : Int) (hd : 0 ≤ d) :
    ∀ (fuel : Nat) (A' : Adj) (hist : List Adj) (v : Nat),
      rk v < fuel → V v → d ≤ pc.getD v 0 → NetInv A0 A' →
      (∀ x, V x → x ≠ s → rk x ≤ rk v →
        pairCap A' x (parent.getD x 0).toNat = pairCap A x (parent.getD x 0).toNat) →
      ∃ A'' new, walk parent s d fuel A' hist v = some (A'', new ++ hist) ∧
        NetInv A0 A'' ∧ (∀ a ∈ new, NetInv A0 a) ∧
        ∀ x, excessOf A0 A'' x =
          excessOf A0 A' x + (if x = v then d else 0) - (if x = s then d else 0) := by
  intro fuel
  induction fuel with
  | zero => intro A' hist v h; omega
  | succ k ih =>
    intro A' hist v hrk hV hdv hA' hframe
    by_cases hvs : v = s
    · refine ⟨A', [], ?_, hA', by simp, ?_⟩
      · simp [walk, hvs]
      · intro x; rw [hvs]; ring
    · obtain ⟨h0, hj, hVp, hrkp, hcap, hmono⟩ := ht.node v hV hvs
      have hpA' := hA'.paired hp
      have hj' : (parent.getD v 0).toNat < (arcs A' v).length := by
        rw [hA'.length_arcs, ← hA.length_arcs]; exact hj
      have hdst : ∀ u i, (arc A' u i).dst = (arc A u i).dst := fun u i => by
        rw [hA'.dst_eq, hA.dst_eq]
      have hrev : ∀ u i, (arc A' u i).rev = (arc A u i).rev := fun u i => by
        rw [hA'.rev_eq, hA.rev_eq]
      have hlen : ∀ u, (arcs A' u).length = (arcs A u).length := fun u => by
        rw [hA'.length_arcs, hA.length_arcs]
      have hnew : NetInv A0 (pushFlow A' v (parent.getD v 0).toNat (-d)) := by
        apply hA'.push hp _ _ _ hj'
        · have := hA'.nonneg v _ hj'
          omega
        · rw [hframe v hV hvs (le_refl _)]
          omega
      have hstep : walk parent s d (k + 1) A' hist v =
          walk parent s d k (pushFlow A' v (parent.getD v 0).toNat (-d))
            (pushFlow A' v (parent.getD v 0).toNat (-d) :: hist)
            (arc A v (parent.getD v 0).toNat).dst := by
        rw [walk, if_pos hvs]
        simp only [walk_step_eq]
        rw [hnew.dst_eq, ← hA.dst_eq]
      obtain ⟨A'', new, hw, hI, hall, hex⟩ := ih (pushFlow A' v (parent.getD v 0).toNat (-d))
        (pushFlow A' v (parent.getD v 0).toNat (-d) :: hist)
        (arc A v (parent.getD v 0).toNat).dst (by omega) hVp (by omega) hnew (by
          intro x hx hxs hrx
          obtain ⟨_, hjx, _, hrkx, _, _⟩ := ht.node x hx hxs
          rw [pairCap_pushFlow hpA' v _ (-d) hj' x _ (by rw [hlen]; exact hjx),
            hframe x hx hxs (by omega)]
          have c1 : ¬ (x = v ∧ (parent.getD x 0).toNat = (parent.getD v 0).toNat) := by
            rintro ⟨a, _⟩
            rw [a] at hrx
            omega
          have c2 : ¬ (x = (arc A' v (parent.getD v 0).toNat).dst ∧
              (parent.getD x 0).toNat = (arc A' v (parent.getD v 0).toNat).rev) := by
            intro c
            have := (pair_eq_iff hpA' v (parent.getD v 0).toNat x (parent.getD x 0).toNat hj'
              (by rw [hlen]; exact hjx)).mpr c
            rw [hdst] at this
            rw [this.1] at hrkx
            omega
          rw [if_neg c1, if_neg c2]
          ring)
      refine ⟨A'', new ++ [pushFlow A' v (parent.getD v 0).toNat (-d)], ?_, hI, ?_, ?_⟩
      · rw [hstep, hw]
        simp
      · intro a ha
        rcases List.mem_append.mp ha with h | h
        · exact hall a h
        · rw [List.mem_singleton] at h
          rw [h]; exact hnew
      · intro x
        rw [hex x, excessOf_pushFlow A0 hpA' v _ (-d) hj' x, hdst]
        have hne : (arc A v (parent.getD v 0).toNat).dst ≠ v := by
          intro e
          rw [e] at hrkp
          omega
        split_ifs <;> ring

end Residual

namespace EdmondsKarp

theorem core_visit {A : Adj} {n s : Nat} {st : State} {rk : Nat → Nat}
    (hc : Core A n s st rk) (hp : Paired A) (hlen : A.length = n)
    (hnn : ∀ u i, i < (arcs A u).length → 0 ≤ (arc A u i).cap)
    (v i : Nat) (hv : Seen n st v) (hi : i < (arcs A v).length)
    (hun : st.parent.getD (arc A v i).dst 0 = -1) (hcap : (arc A v i).cap ≠ 0)
    (r : Nat) (hr : rk v < r) :
    Core A n s
      { st with
        parent := st.parent.set (arc A v i).dst ((arc A v i).rev : Int),
        path_cap := st.path_cap.set (arc A v i).dst
          (min (st.path_cap.getD v 0) (arc A v i).cap) }
      (fun y => if y = (arc A v i).dst then r else rk y) ∧
    (∀ y, Seen n { st with
        parent := st.parent.set (arc A v i).dst ((arc A v i).rev : Int),
        path_cap := st.path_cap.set (arc A v i).dst
          (min (st.path_cap.getD v 0) (arc A v i).cap) } y ↔
      (Seen n st y ∨ y = (arc A v i).dst)) := by
  obtain ⟨p1, p2, p3, p4, p5⟩ := hp v i hi
  rw [hlen] at p1
  have hxv : (arc A v i).dst ≠ v := p2
  have hvx : v ≠ (arc A v i).dst := fun e => p2 e.symm
  have hseen : ∀ y, Seen n { st with
        parent := st.parent.set (arc A v i).dst ((arc A v i).rev : Int),
        path_cap := st.path_cap.set (arc A v i).dst
          (min (st.path_cap.getD v 0) (arc A v i).cap) } y ↔
      (Seen n st y ∨ y = (arc A v i).dst) := by
    intro y
    unfold Seen
    simp only [getD_set_eq, hc.len_parent]
    by_cases hy : y = (arc A v i).dst
    · subst hy
      simp only [true_and, p1, if_true, or_true, iff_true]
      omega
    · simp [hy]
  have hcv := hnn v i hi
  have hcap1 : 1 ≤ (arc A v i).cap := by omega
  have hpcv := hc.pc_pos v hv
  refine ⟨⟨hc.adj_eq, ?_, ?_, ?_, ?_⟩, hseen⟩
  · simp [hc.len_parent]
  · simp [hc.len_pc]
  · intro y hy
    simp only [getD_set_eq, hc.len_pc]
    rcases (hseen y).mp hy with h | h
    · by_cases hyx : y = (arc A v i).dst
      · rw [if_pos ⟨hyx, p1⟩]
        exact le_min hpcv hcap1
      · rw [if_neg (fun c => hyx c.1)]
        exact hc.pc_pos y h
    · rw [if_pos ⟨h, p1⟩]
      exact le_min hpcv hcap1
  · refine ⟨(hseen s).mpr (Or.inl hc.tree.src), ?_⟩
    intro y hy hys
    beta_reduce
    simp only [getD_set_eq, hc.len_pc, hc.len_parent]
    by_cases hyx : y = (arc A v i).dst
    · rw [hyx]
      simp only [true_and, p1, if_true, Int.toNat_ofNat, p4, hvx, false_and, if_false]
      refine ⟨Int.natCast_nonneg _, p3, (hseen v).mpr (Or.inl hv), hr, ?_,
        min_le_left _ _⟩
      unfold pairCap
      rw [p4, p5]
      exact min_le_right _ _
    · have hy' : Seen n st y := by
        rcases (hseen y).mp hy with h | h
        · exact h
        · exact absurd h hyx
      obtain ⟨q1, q2, q3, q4, q5, q6⟩ := hc.tree.node y hy' hys
      have hpx : (arc A y (st.parent.getD y 0).toNat).dst ≠ (arc A v i).dst := by
        intro c
        rw [c] at q3
        exact q3.2 hun
      simp only [hyx, false_and, if_false, hpx]
      exact ⟨q1, q2, (hseen _).mpr (Or.inl q3), q4, q5, q6⟩

end EdmondsKarp

namespace Residual

theorem take_set_succ {α : Type} (l : List α) (k : Nat) (x : α) (h : k < l.length) :
    (l.set k x).take (k + 1) = l.take k ++ [x] := by
  induction l generalizing k with
  | nil => simp at h
  | cons a l ih =>
    cases k with
    | zero => simp
    | succ k =>
      have h' : k < l.length := by simpa using h
      simp [ih k h']

theorem nodup_length_lt (l : List Nat) (n x : Nat) (hnd : l.Nodup) (hl : ∀ y ∈ l, y < n)
    (hx : x < n) (hxl : x ∉ l) : l.length < n := by
  have h1 : (x :: l).Nodup := List.nodup_cons.mpr ⟨hxl, hnd⟩
  have h2 : (x :: l) ⊆ List.range n := by
    intro y hy
    rw [List.mem_range]
    rcases List.mem_cons.mp hy with h | h
    · rw [h]; exact hx
    · exact hl y h
  have h3 := (List.subperm_of_subset h1 h2).length_le
  simp at h3
  omega

end Residual

namespace EdmondsKarp

theorem Core.congr {A : Adj} {n s : Nat} {st st' : State} {rk : Nat → Nat}
    (hc : Core A n s st rk) (h1 : st'.adj = st.adj) (h2 : st'.parent = st.parent)
    (h3 : st'.path_cap = st.path_cap) : Core A n s st' rk := by
  have hS : Seen n st' = Seen n st := by
    funext x
    simp [Seen, h2]
  exact ⟨h1.trans hc.adj_eq, h2 ▸ hc.len_parent, h3 ▸ hc.len_pc,
    by rw [hS, h3]; exact hc.pc_pos, by rw [hS, h2, h3]; exact hc.tree⟩

/-- The result of the scan of the arcs of `v`. -/
theorem bfsFor_spec {A : Adj} {n s t : Nat} (hp : Paired A) (hlen : A.length = n)
    (hnn : ∀ u i, i < (arcs A u).length → 0 ≤ (arc A u i).cap) (v : Nat) :
    ∀ (es done : List Edge) (st : State) (qe : Nat) (rk : Nat → Nat),
      Core A n s st rk → Queue n t st qe → Seen n st v → arcs A v = done ++ es →
      (∀ e ∈ done, e.cap ≠ 0 → Seen n st e.dst) → (∀ x, Seen n st x → rk x < qe) →
      ∃ rk', Core A n s (bfsFor t v es st qe).2.1 rk' ∧
        (∀ x, Seen n (bfsFor t v es st qe).2.1 x → rk' x < n) ∧
        ((bfsFor t v es st qe).1 = false →
          ∀ x, Seen n (bfsFor t v es st qe).2.1 x → rk' x < (bfsFor t v es st qe).2.2) ∧
        (bfsFor t v es st qe).2.1.hist = st.hist ∧
        (∀ y, Seen n st y → Seen n (bfsFor t v es st qe).2.1 y) ∧
        ((bfsFor t v es st qe).1 = false →
          Queue n t (bfsFor t v es st qe).2.1 (bfsFor t v es st qe).2.2 ∧
          qe ≤ (bfsFor t v es st qe).2.2 ∧
          (∀ k, k < qe → (bfsFor t v es st qe).2.1.que.getD k 0 = st.que.getD k 0) ∧
          ∀ e ∈ arcs A v, e.cap ≠ 0 → Seen n (bfsFor t v es st qe).2.1 e.dst) ∧
        ((bfsFor t v es st qe).1 = true → Seen n (bfsFor t v es st qe).2.1 t) := by
  intro es
  induction es with
  | nil =>
    intro done st qe rk hc hq hv hs hdone hrk
    refine ⟨rk, hc, fun x hx => lt_of_lt_of_le (hrk x hx) hq.qe_le, fun _ => hrk, rfl,
      fun y h => h, ?_, ?_⟩
    · intro _
      refine ⟨hq, le_refl _, fun k _ => rfl, ?_⟩
      rw [hs, List.append_nil]
      exact hdone
    · intro h
      simp [bfsFor] at h
  | cons e es ih =>
    intro done st qe rk hc hq hv hs hdone hrk
    have hi : done.length < (arcs A v).length := by
      rw [hs]; simp
    have he : arc A v done.length = e := by
      unfold arc
      rw [hs, List.getD_append_right _ _ _ _ (le_refl _)]
      simp
    have hs' : arcs A v = (done ++ [e]) ++ es := by
      rw [hs]; simp
    obtain ⟨p1, p2, p3, p4, p5⟩ := hp v done.length hi
    rw [he, hlen] at p1
    by_cases hskip : e.cap = 0 ∨ st.parent.getD e.dst 0 ≠ -1
    · have hb : bfsFor t v (e :: es) st qe = bfsFor t v es st qe := by
        rw [bfsFor, if_pos hskip]
      rw [hb]
      refine ih (done ++ [e]) st qe rk hc hq hv hs' ?_ hrk
      intro e' he' hcap
      rcases List.mem_append.mp he' with h | h
      · exact hdone e' h hcap
      · rw [List.mem_singleton] at h
        rw [h] at hcap ⊢
        rcases hskip with h0 | h0
        · exact absurd h0 hcap
        · exact ⟨p1, h0⟩
    · have hcap : e.cap ≠ 0 := fun h => hskip (Or.inl h)
      have hun : st.parent.getD e.dst 0 = -1 := by
        by_contra h
        exact hskip (Or.inr h)
      have hvis := core_visit hc hp hlen hnn v done.length hv hi (by rw [he]; exact hun)
        (by rw [he]; exact hcap) qe (hrk v hv)
      rw [he] at hvis
      obtain ⟨hc1, hseen1⟩ := hvis
      have hxQ : e.dst ∉ st.que.take qe := by
        intro h
        exact ((hq.mem_iff _).mp h).2 hun
      have hqlen : (st.que.take qe).length = qe := by
        rw [List.length_take, hq.len_que]
        exact min_eq_left hq.qe_le
      have hqe : qe < n := by
        have := nodup_length_lt (st.que.take qe) n e.dst hq.nodup
          (fun y hy => ((hq.mem_iff y).mp hy).1) p1 hxQ
        omega
      have hrk1 : ∀ x, (Seen n st x ∨ x = e.dst) →
          (fun y => if y = e.dst then qe else rk y) x < qe + 1 := by
        intro x hx
        beta_reduce
        by_cases hxe : x = e.dst
        · rw [if_pos hxe]; omega
        · rw [if_neg hxe]
          rcases hx with h | h
          · have := hrk x h; omega
          · exact absurd h hxe
      by_cases het : e.dst = t
      · have hb : bfsFor t v (e :: es) st qe = (true,
            { st with
              parent := st.parent.set e.dst (e.rev : Int),
              path_cap := st.path_cap.set e.dst (min (st.path_cap.getD v 0) e.cap) }, qe) := by
          rw [bfsFor, if_neg hskip]
          simp only [het, if_true]
        rw [hb]
        refine ⟨_, hc1, ?_, ?_, rfl, fun y h => (hseen1 y).mpr (Or.inl h), ?_, ?_⟩
        · intro x hx
          have := hrk1 x ((hseen1 x).mp hx)
          beta_reduce at this ⊢
          omega
        · intro h; simp at h
        · intro h; simp at h
        · intro _
          exact (hseen1 t).mpr (Or.inr het.symm)
      · have hb : bfsFor t v (e :: es) st qe = bfsFor t v es
            { st with
              parent := st.parent.set e.dst (e.rev : Int),
              path_cap := st.path_cap.set e.dst (min (st.path_cap.getD v 0) e.cap),
              que := st.que.set qe e.dst } (qe + 1) := by
          rw [bfsFor, if_neg hskip]
          simp only [het, if_false]
        rw [hb]
        have hc2 : Core A n s
            { st with
              parent := st.parent.set e.dst (e.rev : Int),
              path_cap := st.path_cap.set e.dst (min (st.path_cap.getD v 0) e.cap),
              que := st.que.set qe e.dst }
            (fun y => if y = e.dst then qe else rk y) := hc1.congr rfl rfl rfl
        have hS2 : ∀ y, Seen n
            { st with
              parent := st.parent.set e.dst (e.rev : Int),
              path_cap := st.path_cap.set e.dst (min (st.path_cap.getD v 0) e.cap),
              que := st.que.set qe e.dst } y ↔ (Seen n st y ∨ y = e.dst) := hseen1
        have hq2 : Queue n t
            { st with
              parent := st.parent.set e.dst (e.rev : Int),
              path_cap := st.path_cap.set e.dst (min (st.path_cap.getD v 0) e.cap),
              que := st.que.set qe e.dst } (qe + 1) := by
          have htake : (st.que.set qe e.dst).take (qe + 1) = st.que.take qe ++ [e.dst] :=
            take_set_succ _ _ _ (by rw [hq.len_que]; exact hqe)
          refine ⟨by simp [hq.len_que], hqe, ?_, ?_, ?_⟩
          · show ((st.que.set qe e.dst).take (qe + 1)).Nodup
            rw [htake]
            apply List.Nodup.append hq.nodup (List.nodup_singleton _)
            intro a ha hb
            rw [List.mem_singleton] at hb
            rw [hb] at ha
            exact hxQ ha
          · intro x
            show x ∈ (st.que.set qe e.dst).take (qe + 1) ↔ _
            rw [htake, hS2, List.mem_append, List.mem_singleton, hq.mem_iff]
          · show (st.parent.set e.dst (e.rev : Int)).getD t 0 = -1
            rw [getD_set_eq, if_neg (fun c => het c.1.symm)]
            exact hq.t_unseen
        obtain ⟨rk', r1, rb1, rb2, r2, r3, r4, r5⟩ := ih (done ++ [e]) _ (qe + 1) _ hc2 hq2
          ((hS2 v).mpr (Or.inl hv)) hs' (by
            intro e' he' hcap'
            rcases List.mem_append.mp he' with h | h
            · exact (hS2 _).mpr (Or.inl (hdone e' h hcap'))
            · rw [List.mem_singleton] at h
              rw [h]
              exact (hS2 _).mpr (Or.inr rfl))
          (fun x hx => hrk1 x ((hS2 x).mp hx))
        refine ⟨rk', r1, rb1, rb2, r2, fun y h => r3 y ((hS2 y).mpr (Or.inl h)), ?_, r5⟩
        intro hf
        obtain ⟨a1, a2, a3, a4⟩ := r4 hf
        refine ⟨a1, by omega, ?_, a4⟩
        intro k hk
        rw [a3 k (by omega)]
        show (st.que.set qe e.dst).getD k 0 = _
        rw [getD_set_eq, if_neg (fun c => by omega)]

end EdmondsKarp

namespace Residual

theorem getD_mem_take (l : List Nat) (j k : Nat) (hj : j < k) (hk : k ≤ l.length) :
    l.getD j 0 ∈ l.take k := by
  have h1 : j < (l.take k).length := by
    rw [List.length_take]; omega
  have h2 : (l.take k)[j] = l.getD j 0 := by
    rw [List.getD_eq_getElem?_getD, List.getElem?_eq_getElem (by omega)]
    simp [List.getElem_take]
  rw [← h2]
  exact List.getElem_mem _

theorem exists_of_mem_take (l : List Nat) (k x : Nat) (h : x ∈ l.take k) :
    ∃ j, j < k ∧ l.getD j 0 = x := by
  obtain ⟨j, hj, hx⟩ := List.mem_iff_getElem.mp h
  have hj' := hj
  rw [List.length_take] at hj'
  refine ⟨j, by omega, ?_⟩
  rw [← hx, List.getD_eq_getElem?_getD, List.getElem?_eq_getElem (by omega)]
  simp [List.getElem_take]

end Residual

namespace EdmondsKarp

theorem bfsWhile_spec {A : Adj} {n s t : Nat} (hp : Paired A) (hlen : A.length = n)
    (hnn : ∀ u i, i < (arcs A u).length → 0 ≤ (arc A u i).cap) :
    ∀ (fuel : Nat) (st : State) (qb qe : Nat) (rk : Nat → Nat),
      Core A n s st rk → Queue n t st qe → Closed A n st qb → qb ≤ qe → n < fuel + qb →
      (∀ x, Seen n st x → rk x < qe) →
      ∃ found st' rk', bfsWhile t fuel st qb qe = some (found, st') ∧ Core A n s st' rk' ∧
        (∀ x, Seen n st' x → rk' x < n) ∧ st'.hist = st.hist ∧ (found = true → Seen n st' t) ∧
        (found = false → ¬ Seen n st' t ∧
          ∀ x, Seen n st' x → ∀ e ∈ arcs A x, e.cap ≠ 0 → Seen n st' e.dst) := by
  intro fuel
  induction fuel with
  | zero =>
    intro st qb qe rk _ hq _ h1 h2 _
    have := hq.qe_le
    omega
  | succ k ih =>
    intro st qb qe rk hc hq hcl hle hfuel hrk
    by_cases hlt : qb < qe
    · have hv : Seen n st (st.que.getD qb 0) :=
        (hq.mem_iff _).mp (getD_mem_take _ _ _ hlt (by rw [hq.len_que]; exact hq.qe_le))
      obtain ⟨rk1, r1, rb1, rb2, r2, r3, r4, r5⟩ := bfsFor_spec (s := s) (t := t) hp hlen hnn
        (st.que.getD qb 0) (arcs A (st.que.getD qb 0)) [] st qe rk hc hq hv (by simp)
        (by simp) hrk
      rcases hres : bfsFor t (st.que.getD qb 0) (arcs A (st.que.getD qb 0)) st qe with
        ⟨found, st1, qe1⟩
      rw [hres] at r1 rb1 rb2 r2 r3 r4 r5
      simp only at r1 rb1 rb2 r2 r3 r4 r5
      cases found with
      | true =>
        refine ⟨true, st1, rk1, ?_, r1, rb1, r2, fun _ => r5 rfl, fun h => by simp at h⟩
        rw [bfsWhile, if_pos hlt, hc.adj_eq, hres]
      | false =>
        obtain ⟨a1, a2, a3, a4⟩ := r4 rfl
        have hcl1 : Closed A n st1 (qb + 1) := by
          intro j hj e he hcap
          by_cases hjq : j < qb
          · apply r3
            have := hcl j hjq e (by rw [← a3 j (by omega)]; exact he) hcap
            exact this
          · have hjq' : j = qb := by omega
            rw [hjq', a3 qb hlt] at he
            exact a4 e he hcap
        obtain ⟨found, st', rk', b1, b2, bb, b3, b4, b5⟩ := ih st1 (qb + 1) qe1 rk1 r1 a1 hcl1
          (by omega) (by omega) (rb2 rfl)
        refine ⟨found, st', rk', ?_, b2, bb, b3.trans r2, b4, b5⟩
        rw [bfsWhile, if_pos hlt, hc.adj_eq, hres]
        exact b1
    · refine ⟨false, st, rk, ?_, hc, fun x hx => lt_of_lt_of_le (hrk x hx) hq.qe_le, rfl,
        fun h => by simp at h, fun _ => ⟨?_, ?_⟩⟩
      · rw [bfsWhile, if_neg hlt]
      · intro h
        exact h.2 hq.t_unseen
      · intro x hx e he hcap
        obtain ⟨j, hj, hjx⟩ := exists_of_mem_take _ _ _ ((hq.mem_iff x).mpr hx)
        rw [← hjx] at he
        exact hcl j (by omega) e he hcap

end EdmondsKarp

namespace Residual

theorem getD_replicate_eq {α : Type} (n k : Nat) (a d : α) :
    (List.replicate n a).getD k d = if k < n then a else d := by
  rw [List.getD_eq_getElem?_getD, List.getElem?_replicate]
  split <;> rfl

theorem mem_arcs_iff (A : Adj) (x : Nat) (e : Edge) :
    e ∈ arcs A x ↔ ∃ i, i < (arcs A x).length ∧ arc A x i = e := by
  constructor
  · intro h
    obtain ⟨i, hi, he⟩ := List.mem_iff_getElem.mp h
    refine ⟨i, hi, ?_⟩
    unfold arc
    rw [List.getD_eq_getElem?_getD, List.getElem?_eq_getElem hi]
    exact he
  · rintro ⟨i, hi, he⟩
    rw [← he]
    unfold arc
    rw [List.getD_eq_getElem?_getD, List.getElem?_eq_getElem hi]
    exact List.getElem_mem _

end Residual

namespace EdmondsKarp

theorem bfsFor_len (t v : Nat) (es : List Edge) (st : State) (qe : Nat) :
    (bfsFor t v es st qe).2.1.que.length = st.que.length ∧
    (bfsFor t v es st qe).2.1.adj = st.adj := by
  induction es generalizing st qe with
  | nil => exact ⟨rfl, rfl⟩
  | cons e es ih =>
    rw [bfsFor]
    split
    · exact ih st qe
    · split
      · exact ⟨rfl, rfl⟩
      · have := ih { st with
          parent := st.parent.set e.dst (e.rev : Int),
          path_cap := st.path_cap.set e.dst (min (st.path_cap.getD v 0) e.cap),
          que := st.que.set qe e.dst } (qe + 1)
        simpa using this

theorem bfsWhile_len (t : Nat) (fuel : Nat) (st : State) (qb qe : Nat) (r : Bool × State)
    (h : bfsWhile t fuel st qb qe = some r) :
    r.2.que.length = st.que.length ∧ r.2.adj = st.adj := by
  induction fuel generalizing st qb qe with
  | zero => simp [bfsWhile] at h
  | succ k ih =>
    rw [bfsWhile] at h
    split at h
    · have hl := bfsFor_len t (st.que.getD qb 0) (arcs st.adj (st.que.getD qb 0)) st qe
      split at h
      · next st1 _ heq =>
        rw [heq] at hl
        simp only [Option.some.injEq] at h
        rw [← h]
        exact hl
      · next st1 qe1 heq =>
        rw [heq] at hl
        have := ih st1 (qb + 1) qe1 h
        exact ⟨this.1.trans hl.1, this.2.trans hl.2⟩
    · simp only [Option.some.injEq] at h
      rw [← h]
      exact ⟨rfl, rfl⟩

/-- The search terminates; `true` comes with a tree of parent pointers that reaches the sink,
`false` with a set that separates the source from the sink. -/
theorem bfs_spec {A0 : Adj} {n s t : Nat} (hp : Paired A0) (hlen : A0.length = n)
    (hs : s < n) (ht : t < n) (hst : s ≠ t) (st : State) (hI : FlowInv A0 n st)
    (fuel : Nat) (hfuel : n < fuel) :
    ∃ found st' rk, bfs s t fuel st = some (found, st') ∧ Core st.adj n s st' rk ∧
      (∀ x, Seen n st' x → rk x < n) ∧ st'.hist = st.hist ∧ st'.que.length = n ∧
      (found = true → Seen n st' t) ∧
      (found = false → Separated st.adj s t) := by
  have hpa := hI.net.paired hp
  have hla : st.adj.length = n := hI.net.length_eq.trans hlen
  have hpar : ∀ x, ((List.replicate st.parent.length (-1 : Int)).set s (-2)).getD x 0 =
      if x = s then -2 else if x < n then -1 else 0 := by
    intro x
    rw [getD_set_eq, getD_replicate_eq, hI.len_parent]
    simp only [List.length_replicate, hI.len_parent, hs, and_true]
  have hseen : ∀ x, Seen n
      { st with
        parent := (List.replicate st.parent.length (-1)).set s (-2),
        path_cap := st.path_cap.set s INT_MAX,
        que := st.que.set 0 s } x ↔ x = s := by
    intro x
    unfold Seen
    simp only [hpar]
    constructor
    · rintro ⟨h1, h2⟩
      by_contra hx
      rw [if_neg hx, if_pos h1] at h2
      exact h2 rfl
    · intro h
      rw [h, if_pos rfl]
      exact ⟨hs, by decide⟩
  have hc0 : Core st.adj n s
      { st with
        parent := (List.replicate st.parent.length (-1)).set s (-2),
        path_cap := st.path_cap.set s INT_MAX,
        que := st.que.set 0 s } (fun _ => 0) := by
    refine ⟨rfl, by simp [hI.len_parent], by simp [hI.len_pc], ?_, ?_, ?_⟩
    · intro x hx
      rw [(hseen x).mp hx]
      show 1 ≤ (st.path_cap.set s INT_MAX).getD s 0
      rw [getD_set_eq, if_pos ⟨rfl, by rw [hI.len_pc]; exact hs⟩]
      decide
    · exact (hseen s).mpr rfl
    · intro x hx hxs
      exact absurd ((hseen x).mp hx) hxs
  have hn1 : 1 ≤ n := by omega
  have htake : (st.que.set 0 s).take 1 = [s] := by
    have := take_set_succ st.que 0 s (by rw [hI.len_que]; omega)
    simpa using this
  have hq0 : Queue n t
      { st with
        parent := (List.replicate st.parent.length (-1)).set s (-2),
        path_cap := st.path_cap.set s INT_MAX,
        que := st.que.set 0 s } 1 := by
    refine ⟨by simp [hI.len_que], hn1, ?_, ?_, ?_⟩
    · show ((st.que.set 0 s).take 1).Nodup
      rw [htake]; simp
    · intro x
      show x ∈ (st.que.set 0 s).take 1 ↔ _
      rw [htake, hseen]; simp
    · show ((List.replicate st.parent.length (-1 : Int)).set s (-2)).getD t 0 = -1
      rw [hpar, if_neg (fun c => hst c.symm), if_pos ht]
  obtain ⟨found, st', rk', b1, b2, bb, b3, b4, b5⟩ := bfsWhile_spec (s := s) (t := t) hpa hla
    hI.net.nonneg fuel _ 0 1 (fun _ => 0) hc0 hq0 (fun j hj => by omega) (by omega)
    (by omega) (fun x _ => by simp)
  have hl := bfsWhile_len t fuel _ 0 1 (found, st') b1
  refine ⟨found, st', rk', b1, b2, bb, b3, ?_, b4, ?_⟩
  · rw [hl.1]
    simp [hI.len_que]
  · intro hf
    obtain ⟨c1, c2⟩ := b5 hf
    refine ⟨Seen n st', b2.tree.src, c1, ?_⟩
    intro x hx i hi hcap
    exact c2 x hx (arc st.adj x i) ((mem_arcs_iff _ _ _).mpr ⟨i, hi, rfl⟩) hcap

end EdmondsKarp

namespace Residual

theorem capSum_nonneg (l : List Edge) (h : ∀ e ∈ l, 0 ≤ e.cap) : 0 ≤ capSum l := by
  unfold capSum
  apply List.sum_nonneg
  intro x hx
  obtain ⟨e, he, rfl⟩ := List.mem_map.mp hx
  exact h e he

theorem NetInv.capSum_arcs_nonneg {A0 A : Adj} (h : NetInv A0 A) (u : Nat) :
    0 ≤ capSum (arcs A u) := by
  apply Residual.capSum_nonneg
  intro e he
  obtain ⟨i, hi, rfl⟩ := (mem_arcs_iff _ _ _).mp he
  exact h.nonneg u i hi

end Residual

namespace EdmondsKarp

theorem augment_eq_walk (s : Nat) (d : Int) (k : Nat) (st : State) (v : Nat) :
    augment s d k st v =
      (walk st.parent s d k st.adj st.hist v).map
        (fun r => { st with adj := r.1, hist := r.2 }) := by
  induction k generalizing st v with
  | zero => rfl
  | succ k ih =>
    rw [augment, walk]
    by_cases h : v ≠ s
    · rw [if_pos h, if_pos h]
      simp only
      rw [ih]
    · rw [if_neg h, if_neg h]
      rfl

/-- The `while (bfs())` loop terminates with a conserved flow and no augmenting path. -/
theorem ek_flowLoop_spec {A0 : Adj} {n s t : Nat} (hp : Paired A0) (hlen : A0.length = n)
    (hs : s < n) (ht : t < n) (hst : s ≠ t) (F : Nat) (hF : n < F) :
    ∀ (k : Nat) (st : State) (ans : Int), FlowInv A0 n st → Conserved A0 st.adj s t →
      excessOf A0 st.adj t = ans → excessOf A0 st.adj s = -ans →
      capSum (arcs st.adj s) < k →
      ∃ r st', flowLoop s t F k st ans = some (r, st') ∧ FlowInv A0 n st' ∧
        Conserved A0 st'.adj s t ∧ excessOf A0 st'.adj t = r ∧ excessOf A0 st'.adj s = -r ∧
        Separated st'.adj s t ∧ ((r = ans ∧ st'.adj = st.adj) ∨ ans + 1 ≤ r) ∧
        ∃ new, st'.hist = new ++ st.hist := by
  intro k
  induction k with
  | zero =>
    intro st ans hI _ _ _ hk
    have := hI.net.capSum_arcs_nonneg s
    omega
  | succ k ih =>
    intro st ans hI hcons het hes hk
    obtain ⟨found, st1, rk, b1, b2, bb, b3, b4, b5, b6⟩ :=
      bfs_spec hp hlen hs ht hst st hI F hF
    cases found with
    | false =>
      refine ⟨ans, st1, ?_, ?_, ?_, ?_, ?_, ?_, Or.inl ⟨rfl, b2.adj_eq⟩, [], ?_⟩
      · rw [flowLoop, b1]
      · exact ⟨b2.adj_eq ▸ hI.net, b4, b2.len_parent, b2.len_pc, b3 ▸ hI.histInv⟩
      · rw [b2.adj_eq]; exact hcons
      · rw [b2.adj_eq]; exact het
      · rw [b2.adj_eq]; exact hes
      · rw [b2.adj_eq]; exact b6 rfl
      · simp [b3]
    | true =>
      have hseen := b5 rfl
      have hd := b2.pc_pos t hseen
      obtain ⟨A2, new, w1, w2, w3, w4⟩ := walk_spec hp hI.net b2.tree
        (st1.path_cap.getD t 0) (by omega) F st.adj st1.hist t
        (lt_trans (bb t hseen) hF) hseen (le_refl _) hI.net (fun _ _ _ _ => rfl)
      have haug : augment s (st1.path_cap.getD t 0) F st1 t =
          some { st1 with adj := A2, hist := new ++ st1.hist } := by
        rw [augment_eq_walk, b2.adj_eq, w1]
        rfl
      have hI2 : FlowInv A0 n { st1 with adj := A2, hist := new ++ st1.hist } := by
        refine ⟨w2, b4, b2.len_parent, b2.len_pc, ?_⟩
        intro a ha
        rcases List.mem_append.mp ha with h | h
        · exact w3 a h
        · rw [b3] at h
          exact hI.histInv a h
      have hex : ∀ x, excessOf A0 A2 x = excessOf A0 st.adj x +
          (if x = t then st1.path_cap.getD t 0 else 0) -
          (if x = s then st1.path_cap.getD t 0 else 0) := w4
      obtain ⟨r, st', c1, c2, c3, c4, c5, c6, c8, new', c7⟩ := ih
        { st1 with adj := A2, hist := new ++ st1.hist } (ans + st1.path_cap.getD t 0) hI2
        (by
          intro v hvs hvt
          show excessOf A0 A2 v = 0
          rw [hex v, if_neg hvt, if_neg hvs, hcons v hvs hvt]
          ring)
        (by
          show excessOf A0 A2 t = _
          rw [hex t, if_pos rfl, if_neg (fun c => hst c.symm), het]
          ring)
        (by
          show excessOf A0 A2 s = _
          rw [hex s, if_pos rfl, if_neg hst, hes]
          ring)
        (by
          show capSum (arcs A2 s) < (k : Int)
          have e1 : excessOf A0 A2 s = excessOf A0 st.adj s - st1.path_cap.getD t 0 := by
            rw [hex s, if_pos rfl, if_neg hst]
            ring
          unfold excessOf at e1
          omega)
      refine ⟨r, st', ?_, c2, c3, c4, c5, c6,
        Or.inr (by rcases c8 with ⟨h, _⟩ | h <;> omega), new' ++ new, ?_⟩
      · rw [flowLoop, b1]
        simp only
        rw [haug]
        exact c1
      · rw [c7]
        show new' ++ (new ++ st1.hist) = _
        rw [b3, List.append_assoc]

end EdmondsKarp

namespace Residual

/-- The contribution of one edge to the net flow out of the node set `S`. -/
theorem sum_flowTerm (n : Nat) (S : Nat → Bool) (p : InEdge × Int) (h1 : p.1.1 < n)
    (h2 : p.1.2.1 < n) :
    (∑ v in Finset.range n, if S v = true then flowTerm v p else 0) =
      (if S p.1.1 = true then p.2 else 0) - (if S p.1.2.1 = true then p.2 else 0) := by
  have e : ∀ v, (if S v = true then flowTerm v p else 0) =
      (if p.1.1 = v then (if S v = true then p.2 else 0) else 0) -
      (if p.1.2.1 = v then (if S v = true then p.2 else 0) else 0) := by
    intro v
    unfold flowTerm
    split_ifs <;> ring
  simp only [e, Finset.sum_sub_distrib, Finset.sum_ite_eq, Finset.mem_range, h1, h2, if_true]

theorem sum_netOut (n : Nat) (S : Nat → Bool) (l : List (InEdge × Int))
    (hl : ∀ p ∈ l, p.1.1 < n ∧ p.1.2.1 < n) :
    (∑ v in Finset.range n, if S v = true then (l.map (flowTerm v)).sum else 0) =
      (l.map (fun p => (if S p.1.1 = true then p.2 else 0) -
        (if S p.1.2.1 = true then p.2 else 0))).sum := by
  induction l with
  | nil => simp
  | cons p l ih =>
    have hp := hl p (List.mem_cons_self _ _)
    have e : ∀ v, (if S v = true then ((p :: l).map (flowTerm v)).sum else 0) =
        (if S v = true then flowTerm v p else 0) +
        (if S v = true then (l.map (flowTerm v)).sum else 0) := by
      intro v
      simp only [List.map_cons, List.sum_cons]
      split_ifs <;> ring
    simp only [e, Finset.sum_add_distrib]
    rw [sum_flowTerm n S p hp.1 hp.2, ih (fun q hq => hl q (List.mem_cons_of_mem _ hq))]
    simp

theorem mem_zip_fst {α β : Type} (l : List α) (f : List β) (p : α × β) (h : p ∈ l.zip f) :
    p.1 ∈ l := (List.of_mem_zip h).1

/-- Weak duality: the value of a feasible flow is at most the capacity of any cut. -/
theorem netOut_le_cutCap {n s t : Nat} {net : List InEdge} {f : List Int}
    (hf : IsFlow s t net f) (hr : InRange n net) (hs : s < n) (S : Nat → Bool)
    (hSs : S s = true) (hSt : S t = false) : netOut net f s ≤ cutCap net S := by
  have h1 : (∑ v in Finset.range n, if S v = true then netOut net f v else 0) =
      netOut net f s := by
    rw [Finset.sum_eq_single s]
    · rw [if_pos hSs]
    · intro v _ hvs
      by_cases hSv : S v = true
      · rw [if_pos hSv]
        apply hf.conserve v hvs
        intro hvt
        rw [hvt, hSt] at hSv
        exact Bool.noConfusion hSv
      · rw [if_neg hSv]
    · intro h
      exact absurd (Finset.mem_range.mpr hs) h
  have h2 := sum_netOut n S (net.zip f) (fun p hp => hr p.1 (mem_zip_fst _ _ _ hp))
  rw [← h1]
  unfold netOut
  rw [h2]
  have h3 : cutCap net S = ((net.zip f).map (fun p =>
      if S p.1.1 = true ∧ S p.1.2.1 = false then p.1.2.2 else 0)).sum := by
    unfold cutCap
    have : (net.zip f).map (fun p => if S p.1.1 = true ∧ S p.1.2.1 = false then p.1.2.2 else 0)
        = ((net.zip f).map Prod.fst).map
          (fun e => if S e.1 = true ∧ S e.2.1 = false then e.2.2 else 0) := by
      rw [List.map_map]
      rfl
    rw [this, List.map_fst_zip]
    rw [hf.length]
  rw [h3]
  apply List.sum_le_sum
  intro p hp
  obtain ⟨b1, b2⟩ := hf.bounds p hp
  by_cases c1 : S p.1.1 = true <;> by_cases c2 : S p.1.2.1 = true
  · simp [c1, c2]
  · have c2' : S p.1.2.1 = false := by simpa using c2
    simp [c1, c2']
    exact b2
  · have c1' : S p.1.1 = false := by simpa using c1
    simp [c1', c2]
    exact b1
  · have c1' : S p.1.1 = false := by simpa using c1
    have c2' : S p.1.2.1 = false := by simpa using c2
    simp [c1', c2']

end Residual

namespace Residual

theorem sum_map_eq_sum_range {α : Type} [Inhabited α] (l : List α) (g : α → Int) :
    (l.map g).sum = ∑ i in Finset.range l.length, g (l.getD i default) := by
  induction l with
  | nil => simp
  | cons a l ih =>
    rw [List.length_cons, Finset.sum_range_succ', List.map_cons, List.sum_cons, ih]
    simp only [List.getD_cons_succ, List.getD_cons_zero]
    ring

theorem neg_excessOf_eq {A0 A : Adj} (hI : NetInv A0 A) (v : Nat) :
    -excessOf A0 A v =
      ∑ i in Finset.range (arcs A0 v).length, ((arc A0 v i).cap - (arc A v i).cap) := by
  unfold excessOf capSum
  rw [sum_map_eq_sum_range, sum_map_eq_sum_range, hI.length_arcs, Finset.sum_sub_distrib]
  unfold arc
  ring

/-- The flow change on an arc is the opposite of the change on its paired arc. -/
theorem NetInv.change_pair {A0 A : Adj} (hI : NetInv A0 A) (u i : Nat)
    (hi : i < (arcs A0 u).length) :
    ((arc A0 u i).cap - (arc A u i).cap) +
      ((arc A0 (arc A0 u i).dst (arc A0 u i).rev).cap -
        (arc A (arc A0 u i).dst (arc A0 u i).rev).cap) = 0 := by
  have h := hI.pairSum u i (by rw [hI.length_arcs]; exact hi)
  unfold origCap pairCap at h
  rw [hI.dst_eq, hI.rev_eq] at h
  omega

theorem internal_sum_zero {A0 A : Adj} {n : Nat} (hI : NetInv A0 A) (hp : Paired A0)
    (hlen : A0.length = n) (S : Nat → Bool) :
    (∑ v in Finset.range n, ∑ i in Finset.range (arcs A0 v).length,
      if S v = true ∧ S (arc A0 v i).dst = true then (arc A0 v i).cap - (arc A v i).cap
      else 0) = 0 := by
  rw [← Finset.sum_sigma (Finset.range n) (fun v => Finset.range (arcs A0 v).length)
    (fun x => if S x.1 = true ∧ S (arc A0 x.1 x.2).dst = true then
      (arc A0 x.1 x.2).cap - (arc A x.1 x.2).cap else 0)]
  apply Finset.sum_involution (fun x _ => ⟨(arc A0 x.1 x.2).dst, (arc A0 x.1 x.2).rev⟩)
  · intro x hx
    rw [Finset.mem_sigma, Finset.mem_range, Finset.mem_range] at hx
    obtain ⟨_, _, _, p4, _⟩ := hp x.1 x.2 hx.2
    have hc := hI.change_pair x.1 x.2 hx.2
    simp only [p4]
    by_cases c : S x.1 = true ∧ S (arc A0 x.1 x.2).dst = true
    · rw [if_pos c, if_pos ⟨c.2, c.1⟩]
      exact hc
    · rw [if_neg c, if_neg (fun h => c ⟨h.2, h.1⟩)]
      simp
  · intro x hx _ heq
    rw [Finset.mem_sigma, Finset.mem_range, Finset.mem_range] at hx
    obtain ⟨_, p2, _, _, _⟩ := hp x.1 x.2 hx.2
    apply p2
    exact congrArg Sigma.fst heq
  · intro x hx
    obtain ⟨v, i⟩ := x
    rw [Finset.mem_sigma, Finset.mem_range, Finset.mem_range] at hx
    obtain ⟨_, _, _, p4, p5⟩ := hp v i hx.2
    show (⟨(arc A0 (arc A0 v i).dst (arc A0 v i).rev).dst,
      (arc A0 (arc A0 v i).dst (arc A0 v i).rev).rev⟩ : (_ : ℕ) × ℕ) = ⟨v, i⟩
    rw [p4, p5]
  · intro x hx
    rw [Finset.mem_sigma, Finset.mem_range, Finset.mem_range] at hx ⊢
    obtain ⟨p1, _, p3, _, _⟩ := hp x.1 x.2 hx.2
    rw [hlen] at p1
    exact ⟨p1, p3⟩

/-- The net flow out of a set closed under residual arcs is the capacity of its cut. -/
theorem cut_excess {A0 A : Adj} {n : Nat} (hI : NetInv A0 A) (hp : Paired A0)
    (hlen : A0.length = n) (S : Nat → Bool)
    (hcl : ∀ x, S x = true → ∀ i, i < (arcs A x).length → (arc A x i).cap ≠ 0 →
      S (arc A x i).dst = true) :
    (∑ v in Finset.range n, if S v = true then -excessOf A0 A v else 0) =
      cutCapAdj n A0 S := by
  have h0 := internal_sum_zero hI hp hlen S
  unfold cutCapAdj
  have key : ∀ v, (if S v = true then -excessOf A0 A v else 0) =
      (∑ i in Finset.range (arcs A0 v).length,
        if S v = true ∧ S (arc A0 v i).dst = true then (arc A0 v i).cap - (arc A v i).cap
        else 0) +
      (if S v = true then
        ((arcs A0 v).map (fun e => if S e.dst = true then 0 else e.cap)).sum else 0) := by
    intro v
    by_cases hv : S v = true
    · rw [if_pos hv, if_pos hv, neg_excessOf_eq hI, sum_map_eq_sum_range,
        ← Finset.sum_add_distrib]
      apply Finset.sum_congr rfl
      intro i hi
      rw [Finset.mem_range] at hi
      by_cases hd : S (arc A0 v i).dst = true
      · rw [if_pos ⟨hv, hd⟩]
        show _ = _ + (if S (arc A0 v i).dst = true then 0 else (arc A0 v i).cap)
        rw [if_pos hd]
        ring
      · rw [if_neg (fun h => hd h.2)]
        show _ = _ + (if S (arc A0 v i).dst = true then 0 else (arc A0 v i).cap)
        rw [if_neg hd]
        have hz : (arc A v i).cap = 0 := by
          by_contra hne
          apply hd
          rw [← hI.dst_eq]
          exact hcl v hv i (by rw [hI.length_arcs]; exact hi) hne
        rw [hz]
        ring
    · rw [if_neg hv, if_neg hv]
      simp [hv]
  simp only [key, Finset.sum_add_distrib]
  rw [h0, zero_add]

end Residual

namespace Residual

theorem buildWith_eq_foldl (keep : InEdge → Bool) (n : Nat) (es : List InEdge) :
    buildWith keep n es = es.foldl (buildStep keep) (List.replicate n []) := rfl

theorem cutCapAdj_addPair (n : Nat) (adj : Adj) (u w : Nat) (c : Int) (S : Nat → Bool)
    (hlen : adj.length = n) (hu : u < n) (hw : w < n) (huw : u ≠ w) :
    cutCapAdj n (addPair adj u w c) S =
      cutCapAdj n adj S + (if S u = true ∧ S w = false then c else 0) := by
  unfold cutCapAdj
  have hA := arcs_addPair adj u w c (by omega) (by omega) huw
  have key : ∀ v, (if S v = true then
      ((arcs (addPair adj u w c) v).map (fun e => if S e.dst = true then 0 else e.cap)).sum
      else 0) =
      (if S v = true then
        ((arcs adj v).map (fun e => if S e.dst = true then 0 else e.cap)).sum else 0) +
      (if u = v then (if S v = true ∧ S w = false then c else 0) else 0) := by
    intro v
    by_cases h1 : v = u
    · subst h1
      have e1 : arcs (addPair adj v w c) v =
          arcs adj v ++ [⟨w, (arcs adj w).length, c⟩] := by rw [hA, if_pos rfl]
      rw [e1, if_pos rfl]
      by_cases hS : S v = true
      · by_cases hSw : S w = true
        · simp [hS, hSw]
        · have hSw' : S w = false := by simpa using hSw
          simp [hS, hSw']
      · simp [hS]
    · have h1' : ¬ u = v := fun c => h1 c.symm
      by_cases h2 : v = w
      · subst h2
        have e1 : arcs (addPair adj u v c) v =
            arcs adj v ++ [⟨u, (arcs adj u).length, 0⟩] := by rw [hA, if_neg h1, if_pos rfl]
        rw [e1, if_neg h1', add_zero]
        by_cases hS : S v = true
        · simp [hS]
        · simp [hS]
      · have e1 : arcs (addPair adj u w c) v = arcs adj v := by
          rw [hA, if_neg h1, if_neg h2]
        rw [e1, if_neg h1', add_zero]
  simp only [key, Finset.sum_add_distrib, Finset.sum_ite_eq, Finset.mem_range, hu, if_true]

theorem length_foldl_buildStep (keep : InEdge → Bool) (es : List InEdge) (adj : Adj) :
    (es.foldl (buildStep keep) adj).length = adj.length := by
  induction es generalizing adj with
  | nil => rfl
  | cons e es ih =>
    rw [List.foldl_cons, ih]
    unfold buildStep
    split
    · exact length_addPair _ _ _ _
    · rfl

theorem cutCapAdj_foldl (keep : InEdge → Bool) (hk : ∀ e, keep e = true → e.1 ≠ e.2.1)
    (n : Nat) (S : Nat → Bool) (es : List InEdge) (hr : InRange n es) (adj : Adj)
    (hlen : adj.length = n) :
    cutCapAdj n (es.foldl (buildStep keep) adj) S =
      cutCapAdj n adj S + cutCap (es.filter keep) S := by
  induction es generalizing adj with
  | nil => simp [cutCap]
  | cons e es ih =>
    have hr' : InRange n es := fun x hx => hr x (List.mem_cons_of_mem _ hx)
    obtain ⟨he1, he2⟩ := hr e (List.mem_cons_self _ _)
    rw [List.foldl_cons]
    by_cases hke : keep e = true
    · have hstep : buildStep keep adj e = addPair adj e.1 e.2.1 e.2.2 := by
        simp [buildStep, hke]
      rw [hstep, ih hr' _ ((length_addPair _ _ _ _).trans hlen),
        cutCapAdj_addPair n adj _ _ _ S hlen he1 he2 (hk e hke)]
      simp only [List.filter_cons, hke, if_true, cutCap, List.map_cons, List.sum_cons]
      ring
    · have hstep : buildStep keep adj e = adj := by
        simp [buildStep, hke]
      rw [hstep, ih hr' _ hlen]
      simp [List.filter_cons, hke]

theorem cutCapAdj_replicate (n : Nat) (S : Nat → Bool) :
    cutCapAdj n (List.replicate n []) S = 0 := by
  unfold cutCapAdj
  apply Finset.sum_eq_zero
  intro v _
  rw [arcs_replicate]
  simp

/-- The cut capacity read off the adjacency lists is the cut capacity of the edge list. -/
theorem cutCapAdj_buildWith (keep : InEdge → Bool) (hk : ∀ e, keep e = true → e.1 ≠ e.2.1)
    (n : Nat) (S : Nat → Bool) (es : List InEdge) (hr : InRange n es) :
    cutCapAdj n (buildWith keep n es) S = cutCap (es.filter keep) S := by
  rw [buildWith_eq_foldl, cutCapAdj_foldl keep hk n S es hr _ (by simp),
    cutCapAdj_replicate, zero_add]

end Residual

namespace Residual

theorem foldl_buildStep_old (keep : InEdge → Bool) (hk : ∀ e, keep e = true → e.1 ≠ e.2.1)
    (n : Nat) (es : List InEdge) (hr : InRange n es) (adj : Adj) (hlen : adj.length = n)
    (v : Nat) :
    (arcs adj v).length ≤ (arcs (es.foldl (buildStep keep) adj) v).length ∧
    ∀ i, i < (arcs adj v).length → arc (es.foldl (buildStep keep) adj) v i = arc adj v i := by
  induction es generalizing adj with
  | nil => exact ⟨le_refl _, fun _ _ => rfl⟩
  | cons e es ih =>
    have hr' : InRange n es := fun x hx => hr x (List.mem_cons_of_mem _ hx)
    obtain ⟨he1, he2⟩ := hr e (List.mem_cons_self _ _)
    rw [List.foldl_cons]
    by_cases hke : keep e = true
    · have hstep : buildStep keep adj e = addPair adj e.1 e.2.1 e.2.2 := by
        simp [buildStep, hke]
      rw [hstep]
      obtain ⟨h1, h2⟩ := ih hr' (addPair adj e.1 e.2.1 e.2.2)
        ((length_addPair _ _ _ _).trans hlen)
      have hl := length_arcs_addPair adj e.1 e.2.1 e.2.2 (by omega) (by omega) (hk e hke) v
      have hl' : (arcs adj v).length ≤ (arcs (addPair adj e.1 e.2.1 e.2.2) v).length := by
        rw [hl]; omega
      refine ⟨by omega, fun i hi => ?_⟩
      rw [h2 i (by omega)]
      exact arc_addPair_old adj _ _ _ (by omega) (by omega) (hk e hke) v i hi
    · have hstep : buildStep keep adj e = adj := by
        simp [buildStep, hke]
      rw [hstep]
      exact ih hr' _ hlen

theorem capSum_take_succ (l : List Edge) (d : Nat) (h : d < l.length) :
    capSum (l.take (d + 1)) = capSum (l.take d) + (l.getD d default).cap := by
  induction l generalizing d with
  | nil => simp at h
  | cons a l ih =>
    cases d with
    | zero => simp [capSum]
    | succ d =>
      have h' : d < l.length := by simpa using h
      have := ih d h'
      simp only [capSum, List.take_succ_cons, List.map_cons, List.sum_cons,
        List.getD_cons_succ] at this ⊢
      rw [this]
      ring

theorem netOut_cons (e : InEdge) (net : List InEdge) (x : Int) (f : List Int) (v : Nat) :
    netOut (e :: net) (x :: f) v = flowTerm v (e, x) + netOut net f v := by
  simp [netOut]

/-- A residual network determines a feasible assignment of flow values to the kept edges,
whose net outflow at every node is the decrease of the capacities of the arcs of the node. -/
theorem exists_flow_of_netInv (keep : InEdge → Bool)
    (hk : ∀ e, keep e = true → e.1 ≠ e.2.1) (n : Nat) (es : List InEdge)
    (hr : InRange n es) :
    ∀ (adj : Adj), adj.length = n → ∀ A, NetInv (es.foldl (buildStep keep) adj) A →
      ∃ f : List Int, f.length = (es.filter keep).length ∧
        (∀ p ∈ (es.filter keep).zip f, 0 ≤ p.2 ∧ p.2 ≤ p.1.2.2) ∧
        ∀ v, excessOf (es.foldl (buildStep keep) adj) A v =
          prefixExcess (arcs adj v).length (es.foldl (buildStep keep) adj) A v -
            netOut (es.filter keep) f v := by
  induction es with
  | nil =>
    intro adj _ A hI
    refine ⟨[], rfl, by simp, ?_⟩
    intro v
    simp only [List.foldl_nil] at hI ⊢
    unfold prefixExcess excessOf
    rw [List.take_of_length_le (by rw [hI.length_arcs]), List.take_of_length_le (le_refl _)]
    simp [netOut]
  | cons e es ih =>
    intro adj hlen A hI
    have hr' : InRange n es := fun x hx => hr x (List.mem_cons_of_mem _ hx)
    obtain ⟨he1, he2⟩ := hr e (List.mem_cons_self _ _)
    rw [List.foldl_cons] at hI ⊢
    by_cases hke : keep e = true
    · have hstep : buildStep keep adj e = addPair adj e.1 e.2.1 e.2.2 := by
        simp [buildStep, hke]
      have huw := hk e hke
      rw [hstep] at hI ⊢
      have hl1 := (length_addPair adj e.1 e.2.1 e.2.2).trans hlen
      obtain ⟨f, hf1, hf2, hf3⟩ := ih hr' _ hl1 A hI
      have hdeg := length_arcs_addPair adj e.1 e.2.1 e.2.2 (by omega) (by omega) huw
      have hold := fun v => foldl_buildStep_old keep hk n es hr' _ hl1 v
      -- the two new arcs in the initial network
      have hnl : arc (es.foldl (buildStep keep) (addPair adj e.1 e.2.1 e.2.2)) e.1
          (arcs adj e.1).length = ⟨e.2.1, (arcs adj e.2.1).length, e.2.2⟩ := by
        rw [(hold e.1).2 _ (by rw [hdeg]; simp)]
        exact arc_addPair_new_left adj _ _ _ (by omega) (by omega) huw
      have hnr : arc (es.foldl (buildStep keep) (addPair adj e.1 e.2.1 e.2.2)) e.2.1
          (arcs adj e.2.1).length = ⟨e.1, (arcs adj e.1).length, 0⟩ := by
        rw [(hold e.2.1).2 _ (by rw [hdeg]; simp)]
        exact arc_addPair_new_right adj _ _ _ (by omega) (by omega) huw
      have hdu : (arcs adj e.1).length < (arcs A e.1).length := by
        rw [hI.length_arcs]
        have := (hold e.1).1
        rw [hdeg] at this
        simp at this
        omega
      have hdw : (arcs adj e.2.1).length < (arcs A e.2.1).length := by
        rw [hI.length_arcs]
        have := (hold e.2.1).1
        rw [hdeg] at this
        simp at this
        omega
      have hps := hI.pairSum e.1 _ hdu
      unfold origCap pairCap at hps
      rw [hI.dst_eq, hI.rev_eq, hnl] at hps
      simp only at hps
      rw [hnr] at hps
      simp only at hps
      have hx := hI.nonneg e.1 _ hdu
      have hy := hI.nonneg e.2.1 _ hdw
      refine ⟨(arc A e.2.1 (arcs adj e.2.1).length).cap :: f, ?_, ?_, ?_⟩
      · simp [List.filter_cons, hke, hf1]
      · intro p hp
        simp only [List.filter_cons, hke, if_true, List.zip_cons_cons, List.mem_cons] at hp
        rcases hp with h | h
        · rw [h]
          simp only
          omega
        · exact hf2 p h
      · intro v
        rw [hf3 v]
        simp only [List.filter_cons, hke, if_true]
        rw [netOut_cons]
        unfold prefixExcess flowTerm
        rw [hdeg]
        simp only
        by_cases h1 : v = e.1
        · subst h1
          have hne : ¬ e.2.1 = e.1 := fun c => huw c.symm
          simp only [true_or, if_true, hne, if_false]
          rw [capSum_take_succ _ _ hdu, capSum_take_succ _ _ (by rw [← hI.length_arcs]; exact hdu)]
          have e1 : ((arcs (es.foldl (buildStep keep) (addPair adj e.1 e.2.1 e.2.2)) e.1).getD
              (arcs adj e.1).length default).cap = e.2.2 := by
            show (arc _ e.1 (arcs adj e.1).length).cap = _
            rw [hnl]
          rw [e1]
          show _ + (arc A e.1 (arcs adj e.1).length).cap - _ - _ = _
          omega
        · by_cases h2 : v = e.2.1
          · subst h2
            simp only [or_true, if_true, h1, if_false]
            have h1' : ¬ e.1 = e.2.1 := huw
            simp only [h1', if_false]
            rw [capSum_take_succ _ _ hdw,
              capSum_take_succ _ _ (by rw [← hI.length_arcs]; exact hdw)]
            have e1 : ((arcs (es.foldl (buildStep keep) (addPair adj e.1 e.2.1 e.2.2))
                e.2.1).getD (arcs adj e.2.1).length default).cap = 0 := by
              show (arc _ e.2.1 (arcs adj e.2.1).length).cap = _
              rw [hnr]
            rw [e1]
            show _ + (arc A e.2.1 (arcs adj e.2.1).length).cap - _ - _ = _
            omega
          · have c1 : ¬ e.1 = v := fun c => h1 c.symm
            have c2 : ¬ e.2.1 = v := fun c => h2 c.symm
            simp only [h1, h2, or_self, if_false, c1, c2, add_zero]
            omega
    · have hstep : buildStep keep adj e = adj := by
        simp [buildStep, hke]
      rw [hstep] at hI ⊢
      obtain ⟨f, hf1, hf2, hf3⟩ := ih hr' _ hlen A hI
      refine ⟨f, ?_, ?_, ?_⟩
      · simp [List.filter_cons, hke, hf1]
      · simpa [List.filter_cons, hke] using hf2
      · simpa [List.filter_cons, hke] using hf3

end Residual

namespace Residual

theorem arcsInOrder_cap_nonneg (keep : InEdge → Bool) (hk : ∀ e, keep e = true → 0 ≤ e.2.2)
    (es : List InEdge) (w : Nat) : ∀ p ∈ arcsInOrder keep es w, 0 ≤ p.2 := by
  intro p hp
  unfold arcsInOrder at hp
  rw [List.mem_filterMap] at hp
  obtain ⟨e, _, he⟩ := hp
  by_cases hke : keep e = true
  · rw [if_pos hke] at he
    have := hk e hke
    split at he
    · simp only [Option.some.injEq] at he
      rw [← he]; exact this
    · split at he
      · simp only [Option.some.injEq] at he
        rw [← he]
      · simp at he
  · rw [if_neg hke] at he
    simp at he

theorem buildWith_cap_nonneg (keep : InEdge → Bool) (hk : ∀ e, keep e = true → e.1 ≠ e.2.1)
    (hk2 : ∀ e, keep e = true → 0 ≤ e.2.2) (n : Nat) (es : List InEdge) (hr : InRange n es)
    (u i : Nat) (hi : i < (arcs (buildWith keep n es) u).length) :
    0 ≤ (arc (buildWith keep n es) u i).cap := by
  have h := (buildWith_inv keep hk n es hr u).2.2
  have hm : ((arc (buildWith keep n es) u i).dst, (arc (buildWith keep n es) u i).cap) ∈
      arcsInOrder keep es u := by
    rw [← h]
    apply List.mem_map.mpr
    exact ⟨_, (mem_arcs_iff _ _ _).mpr ⟨i, hi, rfl⟩, rfl⟩
  exact arcsInOrder_cap_nonneg keep hk2 es u _ hm

theorem kept_cap (e : InEdge) (h : kept e = true) : 0 ≤ e.2.2 := by
  simp [kept] at h
  omega

theorem keptPreflow_cap (s t : Nat) (e : InEdge) (h : keptPreflow s t e = true) :
    0 ≤ e.2.2 := by
  simp [keptPreflow] at h
  omega

theorem netInv_buildWith (keep : InEdge → Bool) (hk : ∀ e, keep e = true → e.1 ≠ e.2.1)
    (hk2 : ∀ e, keep e = true → 0 ≤ e.2.2) (n : Nat) (es : List InEdge) (hr : InRange n es) :
    NetInv (buildWith keep n es) (buildWith keep n es) :=
  NetInv.of_nonneg _ (buildWith_cap_nonneg keep hk hk2 n es hr)

theorem excessOf_self (A : Adj) (v : Nat) : excessOf A A v = 0 := by
  simp [excessOf]

/-- Reachable nodes stay inside any set closed under arcs of non-zero capacity. -/
theorem Reach.mem_closed {A : Adj} {s : Nat} (V : Nat → Prop) (hs : V s)
    (hcl : ∀ x, V x → ∀ i, i < (arcs A x).length → (arc A x i).cap ≠ 0 → V (arc A x i).dst)
    {v : Nat} (h : Reach A s v) : V v := by
  induction h with
  | refl => exact hs
  | step x i _ hi hc ih => exact hcl x ih i hi (by omega)

/-- With flow conserved and `S` closed under residual arcs, the flow value is the capacity of
the cut `S`. -/
theorem value_eq_cutCap (keep : InEdge → Bool) (hk : ∀ e, keep e = true → e.1 ≠ e.2.1)
    {n s t : Nat} {es : List InEdge} (hr : InRange n es) (hs : s < n)
    {A : Adj} (hI : NetInv (buildWith keep n es) A) (hcons : Conserved (buildWith keep n es) A s t)
    {F : Int} (hes : excessOf (buildWith keep n es) A s = -F) (S : Nat → Bool)
    (hSs : S s = true) (hSt : S t = false)
    (hcl : ∀ x, S x = true → ∀ i, i < (arcs A x).length → (arc A x i).cap ≠ 0 →
      S (arc A x i).dst = true) :
    F = cutCap (es.filter keep) S := by
  have hinv := buildWith_inv keep hk n es hr 0
  rw [← cutCapAdj_buildWith keep hk n S es hr, ← cut_excess hI hinv.2.1 hinv.1 S hcl]
  rw [Finset.sum_eq_single s]
  · rw [if_pos hSs, hes]; ring
  · intro v _ hvs
    by_cases hSv : S v = true
    · rw [if_pos hSv, hcons v hvs (by
        intro hvt
        rw [hvt, hSt] at hSv
        exact Bool.noConfusion hSv)]
      rfl
    · rw [if_neg hSv]
  · intro h
    exact absurd (Finset.mem_range.mpr hs) h

/-- A conserved residual network without augmenting path carries a maximum flow. -/
theorem isMaxFlowValue_of_separated (keep : InEdge → Bool)
    (hk : ∀ e, keep e = true → e.1 ≠ e.2.1) {n s t : Nat} {es : List InEdge}
    (hr : InRange n es) (hs : s < n)
    {A : Adj} (hI : NetInv (buildWith keep n es) A) (hcons : Conserved (buildWith keep n es) A s t)
    {F : Int} (hes : excessOf (buildWith keep n es) A s = -F) (hsep : Separated A s t) :
    IsMaxFlowValue s t (es.filter keep) F := by
  obtain ⟨V, hVs, hVt, hVcl⟩ := hsep
  constructor
  · obtain ⟨f, hf1, hf2, hf3⟩ := exists_flow_of_netInv keep hk n es hr
      (List.replicate n []) (by simp) A hI
    have hnet : ∀ v, netOut (es.filter keep) f v = -excessOf (buildWith keep n es) A v := by
      intro v
      have := hf3 v
      rw [arcs_replicate] at this
      simp only [List.length_nil, prefixExcess, List.take_zero, capSum, List.map_nil,
        List.sum_nil, sub_self, zero_sub] at this
      rw [buildWith_eq_foldl, this]
      ring
    refine ⟨f, ⟨hf1, hf2, ?_⟩, ?_⟩
    · intro v hvs hvt
      rw [hnet, hcons v hvs hvt]
      rfl
    · rw [hnet, hes]
      ring
  · intro g hg
    classical
    have hfr : InRange n (es.filter keep) := fun e he => hr e (List.mem_of_mem_filter he)
    have hle := netOut_le_cutCap hg hfr hs (fun x => decide (V x)) (by simpa using hVs)
      (by simpa using hVt)
    rw [← value_eq_cutCap keep hk hr hs hI hcons hes (fun x => decide (V x))
      (by simpa using hVs) (by simpa using hVt) (by
        intro x hx i hi hc
        simp only [decide_eq_true_eq] at hx ⊢
        exact hVcl x hx i hi hc)] at hle
    exact hle

end Residual

namespace Residual

theorem network_eq (edges : List InEdge) : network edges = edges.filter kept := rfl

/-- The value of a flow is at most the number of edges times the largest capacity. -/
theorem netOut_le_length_mul {s t : Nat} {net : List InEdge} {f : List Int}
    (hf : IsFlow s t net f) (M : Int) (hM : ∀ e ∈ net, e.2.2 ≤ M) (v : Nat) :
    netOut net f v ≤ net.length * M := by
  unfold netOut
  have h1 : ((net.zip f).map (flowTerm v)).sum ≤ ((net.zip f).map (fun _ => M)).sum := by
    apply List.sum_le_sum
    intro p hp
    obtain ⟨b1, b2⟩ := hf.bounds p hp
    have := hM p.1 (mem_zip_fst _ _ _ hp)
    unfold flowTerm
    split_ifs <;> omega
  have h2 : ((net.zip f).map (fun _ => M)).sum = net.length * M := by
    simp [List.map_const', hf.length]
  omega

end Residual

namespace EdmondsKarp

theorem ek_flowInv_init (n : Nat) (edges : List InEdge) (hr : InRange n edges) :
    FlowInv (build n edges) n (init n edges) := by
  have hnet : NetInv (build n edges) (build n edges) := by
    rw [build_eq_buildWith]
    exact netInv_buildWith kept kept_ne kept_cap n edges hr
  refine ⟨hnet, by simp [init], by simp [init], by simp [init], ?_⟩
  intro a ha
  simp only [init, List.mem_singleton] at ha
  rw [ha]
  exact hnet

/-- The run of edmonds_karp.cpp: it terminates, and its final residual network is conserved,
has the returned value as net flow into `t` and out of `s`, and has no augmenting path. -/
theorem ek_flow_spec (n s t : Nat) (edges : List InEdge) (hr : InRange n edges) (hs : s < n)
    (ht : t < n) (hst : s ≠ t) (fuel : Nat)
    (hfuel : n + (capSum (arcs (build n edges) s)).toNat < fuel) :
    ∃ F st', flow s t fuel (init n edges) = some (F, st') ∧ FlowInv (build n edges) n st' ∧
      Conserved (build n edges) st'.adj s t ∧ excessOf (build n edges) st'.adj t = F ∧
      excessOf (build n edges) st'.adj s = -F ∧ Separated st'.adj s t := by
  have hinv := buildWith_inv kept kept_ne n edges hr 0
  rw [← build_eq_buildWith] at hinv
  have hI := ek_flowInv_init n edges hr
  obtain ⟨F, st', h1, h2, h3, h4, h5, h6, _⟩ := ek_flowLoop_spec hinv.2.1 hinv.1 hs ht hst fuel
    (by omega) fuel (init n edges) 0 hI (fun v _ _ => excessOf_self _ v)
    (excessOf_self _ t) (by
      show excessOf (build n edges) (build n edges) s = -0
      rw [excessOf_self]; rfl) (by
      show capSum (arcs (build n edges) s) < (fuel : Int)
      omega)
  exact ⟨F, st', h1, h2, h3, h4, h5, h6⟩

end EdmondsKarp

/-- C1: for every network with `n >= 2` nodes (source 0, sink `n-1`), edge endpoints in
`[0,n)` and capacities that fit 32 bits, `EdmondsKarp::flow()` on the network built by
`addEdge` in input order terminates and returns the value of a maximum flow of that network:
some feasible flow has that net flow out of the source and no feasible flow has more. The
value also fits the 64-bit accumulator whenever the number of edges fits an `int`. -/
theorem edmondsKarp_returns_max_flow (n : Nat) (edges : List InEdge) (hn : 2 ≤ n)
    (hr : InRange n edges) (h32 : ∀ e ∈ edges, e.2.2 ≤ INT_MAX) :
    ∃ F : Int, IsMaxFlowValue 0 (n - 1) (network edges) F ∧
      F ≤ edges.length * INT_MAX ∧
      ∀ fuel, n + (capSum (arcs (build n edges) 0)).toNat < fuel →
        EdmondsKarp.run fuel n edges = some F := by
  obtain ⟨F, st', h1, h2, h3, h4, h5, h6⟩ := EdmondsKarp.ek_flow_spec n 0 (n - 1) edges hr
    (by omega) (by omega) (by omega) (n + (capSum (arcs (build n edges) 0)).toNat + 1)
    (by omega)
  have hmax : IsMaxFlowValue 0 (n - 1) (network edges) F := by
    rw [build_eq_buildWith] at h2 h3 h5
    exact isMaxFlowValue_of_separated kept kept_ne hr (by omega) h2.net h3 h5 h6
  refine ⟨F, hmax, ?_, ?_⟩
  · obtain ⟨⟨f, hf, hv⟩, _⟩ := hmax
    rw [← hv]
    have := netOut_le_length_mul hf INT_MAX
      (fun e he => h32 e (List.mem_of_mem_filter he)) 0
    have hl : ((network edges).length : Int) ≤ edges.length := by
      exact_mod_cast List.length_filter_le _ _
    have hpos : (0 : Int) ≤ INT_MAX := by decide
    calc netOut (network edges) f 0 ≤ (network edges).length * INT_MAX := this
      _ ≤ edges.length * INT_MAX := mul_le_mul_of_nonneg_right hl hpos
  · intro fuel hfuel
    obtain ⟨F', st'', g1, g2, g3, g4, g5, g6⟩ := EdmondsKarp.ek_flow_spec n 0 (n - 1) edges hr
      (by omega) (by omega) (by omega) fuel hfuel
    have hmax' : IsMaxFlowValue 0 (n - 1) (network edges) F' := by
      rw [build_eq_buildWith] at g2 g3 g5
      exact isMaxFlowValue_of_separated kept kept_ne hr (by omega) g2.net g3 g5 g6
    have hFF : F' = F := by
      obtain ⟨⟨f, hf, hv⟩, hub⟩ := hmax
      obtain ⟨⟨f', hf', hv'⟩, hub'⟩ := hmax'
      have a := hub f' hf'
      have b := hub' f hf
      omega
    unfold EdmondsKarp.run
    rw [g1, ← hFF]
    rfl

/-- The diamond network of the specification: the maximum flow is returned. -/
theorem edmondsKarp_returns_max_flow_witness :
    ∃ F : Int, IsMaxFlowValue 0 (4 - 1) (network [(0, 1, 3), (0, 2, 2), (1, 3, 2), (2, 3, 3)]) F ∧
      F ≤ ([(0, 1, 3), (0, 2, 2), (1, 3, 2), (2, 3, 3)] : List InEdge).length * INT_MAX ∧
      ∀ fuel, 4 + (capSum (arcs (build 4 [(0, 1, 3), (0, 2, 2), (1, 3, 2), (2, 3, 3)]) 0)).toNat
          < fuel →
        EdmondsKarp.run fuel 4 [(0, 1, 3), (0, 2, 2), (1, 3, 2), (2, 3, 3)] = some F :=
  edmondsKarp_returns_max_flow 4 [(0, 1, 3), (0, 2, 2), (1, 3, 2), (2, 3, 3)] (by decide)
    (by intro e he; simp at he; rcases he with h | h | h | h <;> subst h <;> decide)
    (by intro e he; simp at he; rcases he with h | h | h | h <;> subst h <;> decide)

namespace Residual

theorem arc_pushFlow_other (adj : Adj) (u i : Nat) (d : Int) (w j : Nat) (h1 : w ≠ u)
    (h2 : w ≠ (arc adj u i).dst) : arc (pushFlow adj u i d) w j = arc adj w j := by
  unfold pushFlow
  rw [arc_addCap, if_neg, arc_addCap, if_neg]
  · intro c; exact h1 c.1
  · intro c
    rw [arc_addCap_dst] at c
    exact h2 c.1

theorem NetInv.pairCap_nonneg {A0 A : Adj} (h : NetInv A0 A) (hp : Paired A0) (u i : Nat)
    (hi : i < (arcs A u).length) : 0 ≤ pairCap A u i := by
  obtain ⟨_, _, p3, _, _⟩ := (h.paired hp) u i hi
  exact h.nonneg _ _ p3

end Residual

namespace FordFulkersonDFS

theorem vis_mark (st : State) (v x : Nat) (hv : v < st.visited.length) :
    Vis { st with visited := st.visited.set v true } x ↔ (Vis st x ∨ x = v) := by
  unfold Vis
  simp only [getD_set_eq]
  by_cases h : x = v
  · simp [h, hv]
  · simp [h]

theorem unvisited_mono (n : Nat) (st st' : State) (h : ∀ x, Vis st x → Vis st' x) :
    unvisited n st' ≤ unvisited n st := by
  unfold unvisited
  apply Finset.card_le_card
  intro x hx
  rw [Finset.mem_filter] at hx ⊢
  refine ⟨hx.1, ?_⟩
  by_contra hc
  have hv : Vis st x := by
    unfold Vis
    cases hb : st.visited.getD x false
    · exact absurd hb hc
    · rfl
  have := h x hv
  unfold Vis at this
  rw [hx.2] at this
  exact Bool.noConfusion this

theorem unvisited_mark_lt (n : Nat) (st : State) (v : Nat) (hv : v < n)
    (hlen : st.visited.length = n) (hnv : ¬ Vis st v) :
    unvisited n { st with visited := st.visited.set v true } < unvisited n st := by
  unfold unvisited
  apply Finset.card_lt_card
  rw [Finset.ssubset_iff_of_subset]
  · refine ⟨v, ?_, ?_⟩
    · rw [Finset.mem_filter, Finset.mem_range]
      refine ⟨hv, ?_⟩
      unfold Vis at hnv
      cases hb : st.visited.getD v false
      · rfl
      · exact absurd hb hnv
    · rw [Finset.mem_filter]
      intro hc
      have := hc.2
      simp only [getD_set_eq, hlen, hv, and_self, if_true] at this
      exact Bool.noConfusion this
  · intro x hx
    rw [Finset.mem_filter] at hx ⊢
    refine ⟨hx.1, ?_⟩
    have := hx.2
    simp only [getD_set_eq] at this
    by_cases hxv : x = v ∧ v < st.visited.length
    · rw [if_pos hxv] at this
      exact Bool.noConfusion this
    · rw [if_neg hxv] at this
      exact this

end FordFulkersonDFS

namespace FordFulkersonDFS

/-- The loop over the arcs of `v`, given that the recursive calls meet their contract. -/
theorem dfsFor_spec {A0 : Adj} {n t : Nat} (hp : Paired A0) (hlen : A0.length = n)
    (fuel : Nat)
    (hrec : ∀ x fl st, NetInv A0 st.adj → st.visited.length = n → x < n → ¬ Vis st x →
      ¬ Vis st t → 1 ≤ fl → unvisited n st < fuel →
      ∃ r, dfs t fuel x fl st = some r ∧ DfsPost A0 n t x fl st r)
    (v : Nat) (flow : Int) (hflow : 1 ≤ flow) (st0 : State) :
    ∀ (is : List Nat) (st : State), st.adj = st0.adj → st.hist = st0.hist →
      NetInv A0 st.adj → st.visited.length = n → Vis st v → ¬ Vis st t →
      (∀ x, Vis st0 x → Vis st x) → unvisited n st < fuel →
      (∀ i ∈ is, i < (arcs st.adj v).length) →
      (∀ x, Vis st x → ¬ Vis st0 x → ∀ i, i < (arcs st.adj x).length →
        (arc st.adj x i).cap ≠ 0 → Vis st (arc st.adj x i).dst) →
      (∀ i, i < (arcs st.adj v).length → i ∉ is → (arc st.adj v i).cap ≠ 0 →
        Vis st (arc st.adj v i).dst) →
      ∃ r, dfsFor (dfs t fuel) v flow is st = some r ∧
        (0 ≤ r.1 ∧ r.1 ≤ flow) ∧ r.2.visited.length = n ∧ (∀ x, Vis st x → Vis r.2 x) ∧
        ¬ Vis r.2 t ∧
        (r.1 = 0 → r.2.adj = st.adj ∧ r.2.hist = st.hist ∧
          (∀ x, Vis r.2 x → ¬ Vis st0 x → ∀ i, i < (arcs st.adj x).length →
            (arc st.adj x i).cap ≠ 0 → Vis r.2 (arc st.adj x i).dst) ∧
          (∀ i, i < (arcs st.adj v).length → (arc st.adj v i).cap ≠ 0 →
            Vis r.2 (arc st.adj v i).dst)) ∧
        (1 ≤ r.1 → NetInv A0 r.2.adj ∧
          (∀ x, excessOf A0 r.2.adj x =
            excessOf A0 st.adj x - (if x = v then r.1 else 0) + (if x = t then r.1 else 0)) ∧
          (∀ u, Vis st u → u ≠ v → ∀ i, arc r.2.adj u i = arc st.adj u i) ∧
          ∃ new, r.2.hist = new ++ st.hist ∧ ∀ a ∈ new, NetInv A0 a) := by
  intro is
  induction is with
  | nil =>
    intro st _ _ hI hl hv hst hm0 _ _ hcl hsc
    refine ⟨(0, st), rfl, ⟨le_refl _, by omega⟩, hl, fun _ h => h, hst, ?_, ?_⟩
    · intro _
      exact ⟨rfl, rfl, hcl, fun i hi hc => hsc i hi (List.not_mem_nil _) hc⟩
    · intro h
      simp at h
  | cons i is ih =>
    intro st ha hh hI hl hv hst hm0 hU his hcl hsc
    have hi : i < (arcs st.adj v).length := his i (List.mem_cons_self _ _)
    have his' : ∀ j ∈ is, j < (arcs st.adj v).length :=
      fun j hj => his j (List.mem_cons_of_mem _ hj)
    have hpa := hI.paired hp
    obtain ⟨p1, p2, p3, p4, p5⟩ := hpa v i hi
    rw [hI.length_eq, hlen] at p1
    by_cases hcall : (st.visited.getD (arc st.adj v i).dst false = false) ∧
        (arc st.adj v i).cap ≠ 0
    · have hnv : ¬ Vis st (arc st.adj v i).dst := by
        unfold Vis
        rw [hcall.1]
        exact Bool.noConfusion
      have hcap : 1 ≤ (arc st.adj v i).cap := by
        have := hI.nonneg v i hi
        have := hcall.2
        omega
      obtain ⟨r1, hr1, hpost⟩ := hrec (arc st.adj v i).dst (min flow (arc st.adj v i).cap) st
        hI hl p1 hnv hst (le_min hflow hcap) hU
      obtain ⟨d, st1⟩ := r1
      by_cases hd : d ≥ 1
      · -- the recursive call found a path
        obtain ⟨f1, f2, f3, new, f4, f5⟩ := hpost.found hd
        have hframe : arc st1.adj v i = arc st.adj v i := f3 v hv i
        have hi1 : i < (arcs st1.adj v).length := by
          rw [f1.length_arcs, ← hI.length_arcs]; exact hi
        have hdle : d ≤ (arc st1.adj v i).cap := by
          rw [hframe]
          have := hpost.range.2
          exact le_trans this (min_le_right _ _)
        have hnew : NetInv A0 (pushFlow st1.adj v i d) := by
          apply f1.push hp v i d hi1 hdle
          have := f1.pairCap_nonneg hp v i hi1
          omega
        have hres : dfsFor (dfs t fuel) v flow (i :: is) st =
            some (d, State.mk (pushFlow st1.adj v i d) st1.visited
              (pushFlow st1.adj v i d :: st1.hist)) := by
          rw [dfsFor, if_pos hcall, hr1]
          simp only [hd, if_true]
          rfl
        refine ⟨_, hres, ?_, hpost.len, hpost.mono, hpost.sink, ?_, ?_⟩
        · have := hpost.range.2
          exact ⟨by omega, le_trans this (min_le_left _ _)⟩
        · intro h0
          simp only at h0
          omega
        · intro _
          refine ⟨hnew, ?_, ?_, pushFlow st1.adj v i d :: new, ?_, ?_⟩
          · intro x
            show excessOf A0 (pushFlow st1.adj v i d) x = _
            rw [excessOf_pushFlow A0 (f1.paired hp) v i d hi1 x, f2 x, hframe]
            simp only
            have hne : (arc st.adj v i).dst ≠ v := p2
            split_ifs <;> ring
          · intro u hu huv j
            show arc (pushFlow st1.adj v i d) u j = _
            rw [arc_pushFlow_other _ _ _ _ _ _ huv (by
              rw [hframe]
              intro c
              rw [c] at hu
              exact hnv hu)]
            exact f3 u hu j
          · show pushFlow st1.adj v i d :: st1.hist = _
            rw [f4]
            rfl
          · intro a ha'
            rcases List.mem_cons.mp ha' with h | h
            · rw [h]; exact hnew
            · exact f5 a h
      · -- the recursive call failed
        have hd0 : d = 0 := by
          have := hpost.range.1
          simp only at this
          omega
        obtain ⟨g1, g2, g3, g4⟩ := hpost.fail hd0
        simp only at g1 g2 g3 g4
        have hxt : (arc st.adj v i).dst ≠ t := by
          intro c
          have := hpost.at_sink c
          simp only at this
          have := le_min hflow hcap
          omega
        have hmono1 : ∀ x, Vis st x → Vis st1 x := hpost.mono
        obtain ⟨r, q1, q2, q3, q4, q5, q6, q7⟩ := ih st1 (g1.trans ha) (g2.trans hh)
          (g1 ▸ hI) hpost.len (hmono1 v hv) hpost.sink (fun x hx => hmono1 x (hm0 x hx))
          (lt_of_le_of_lt (unvisited_mono n st st1 hmono1) hU)
          (by rw [g1]; exact his')
          (by
            rw [g1]
            intro x hx hx0 j hj hc
            by_cases hxs : Vis st x
            · exact hmono1 _ (hcl x hxs hx0 j hj hc)
            · exact g4 x hx hxs j hj hc)
          (by
            rw [g1]
            intro j hj hjn hc
            by_cases hji : j = i
            · rw [hji]
              exact g3 hxt
            · exact hmono1 _ (hsc j hj (by
                intro c
                rcases List.mem_cons.mp c with h | h
                · exact hji h
                · exact hjn h) hc))
        rw [g1] at q6 q7
        rw [g2] at q6 q7
        refine ⟨r, ?_, q2, q3, fun x hx => q4 x (hmono1 x hx), q5, q6, ?_⟩
        · rw [dfsFor, if_pos hcall, hr1]
          simp only [hd, if_false]
          exact q1
        · intro h1
          obtain ⟨a1, a2, a3, a4⟩ := q7 h1
          exact ⟨a1, a2, fun u hu huv j => a3 u (hmono1 u hu) huv j, a4⟩
    · -- the arc is skipped
      obtain ⟨r, q1, q2, q3, q4, q5, q6, q7⟩ := ih st ha hh hI hl hv hst hm0 hU his' hcl
        (by
          intro j hj hjn hc
          by_cases hji : j = i
          · rw [hji] at hc ⊢
            unfold Vis
            by_contra hcon
            apply hcall
            refine ⟨?_, hc⟩
            cases hb : st.visited.getD (arc st.adj v i).dst false
            · rfl
            · exact absurd hb hcon
          · exact hsc j hj (by
              intro c
              rcases List.mem_cons.mp c with h | h
              · exact hji h
              · exact hjn h) hc)
      refine ⟨r, ?_, q2, q3, q4, q5, q6, q7⟩
      rw [dfsFor, if_neg hcall]
      exact q1

end FordFulkersonDFS

namespace FordFulkersonDFS

/-- The contract of `dfs`: it returns, and its result satisfies `DfsPost`. -/
theorem dfs_spec {A0 : Adj} {n t : Nat} (hp : Paired A0) (hlen : A0.length = n) :
    ∀ (fuel : Nat) (x : Nat) (fl : Int) (st : State), NetInv A0 st.adj →
      st.visited.length = n → x < n → ¬ Vis st x → ¬ Vis st t → 1 ≤ fl →
      unvisited n st < fuel →
      ∃ r, dfs t fuel x fl st = some r ∧ DfsPost A0 n t x fl st r := by
  intro fuel
  induction fuel with
  | zero => intro x fl st _ _ _ _ _ _ h; omega
  | succ k ih =>
    intro x fl st hI hl hx hnx hnt hfl hU
    by_cases hxt : x = t
    · refine ⟨(fl, st), ?_, ⟨le_trans (by omega) hfl, le_refl _⟩, hl, fun _ h => h, hnt,
        fun _ => rfl, ?_, ?_⟩
      · rw [dfs, if_pos hxt]
      · intro h; simp only at h; omega
      · intro _
        refine ⟨hI, ?_, fun _ _ _ => rfl, [], rfl, by simp⟩
        intro y
        rw [hxt]
        ring
    · have hxl : x < st.visited.length := by rw [hl]; exact hx
      have hvm := vis_mark st x
      obtain ⟨r, q1, q2, q3, q4, q5, q6, q7⟩ := dfsFor_spec hp hlen k ih x fl hfl
        { st with visited := st.visited.set x true }
        (List.range (arcs st.adj x).length)
        { st with visited := st.visited.set x true } rfl rfl hI (by simp [hl])
        ((hvm x hxl).mpr (Or.inr rfl))
        (by
          intro c
          rcases (hvm t hxl).mp c with h | h
          · exact hnt h
          · exact hxt h.symm)
        (fun _ h => h)
        (by
          have := unvisited_mark_lt n st x hx hl hnx
          omega)
        (fun i hi => List.mem_range.mp hi)
        (fun y hy hny => absurd hy hny)
        (fun i hi hni => absurd (List.mem_range.mpr hi) hni)
      refine ⟨r, ?_, q2, q3, fun y hy => q4 y ((hvm y hxl).mpr (Or.inl hy)), q5,
        fun h => absurd h hxt, ?_, ?_⟩
      · rw [dfs, if_neg hxt]
        exact q1
      · intro h0
        obtain ⟨a1, a2, a3, a4⟩ := q6 h0
        refine ⟨a1, a2, fun _ => q4 x ((hvm x hxl).mpr (Or.inr rfl)), ?_⟩
        intro y hy hny i hi hc
        by_cases hyx : y = x
        · rw [hyx] at hi hc ⊢
          exact a4 i hi hc
        · apply a3 y hy _ i hi hc
          intro c
          rcases (hvm y hxl).mp c with h | h
          · exact hny h
          · exact hyx h
      · intro h1
        obtain ⟨a1, a2, a3, a4⟩ := q7 h1
        refine ⟨a1, a2, ?_, a4⟩
        intro u hu i
        apply a3 u ((hvm u hxl).mpr (Or.inl hu))
        intro c
        rw [c] at hu
        exact hnx hu

end FordFulkersonDFS

namespace FordFulkersonDFS

theorem not_vis_reset (st : State) (x : Nat) :
    ¬ Vis { st with visited := List.replicate st.visited.length false } x := by
  unfold Vis
  simp only [getD_replicate_eq]
  split <;> exact Bool.noConfusion

theorem unvisited_le (n : Nat) (st : State) : unvisited n st ≤ n := by
  unfold unvisited
  calc _ ≤ (Finset.range n).card := Finset.card_filter_le _ _
    _ = n := Finset.card_range n

/-- The `while (true)` loop terminates with a conserved flow and no augmenting path. -/
theorem dfs_flowLoop_spec {A0 : Adj} {n s t : Nat} (hp : Paired A0) (hlen : A0.length = n)
    (hs : s < n) (hst : s ≠ t) (F : Nat) (hF : n < F) :
    ∀ (k : Nat) (st : State) (acc : Int), FlowInv A0 n st → Conserved A0 st.adj s t →
      excessOf A0 st.adj t = acc → excessOf A0 st.adj s = -acc →
      capSum (arcs st.adj s) < k →
      ∃ r st', flowLoop s t F k st acc = some (r, st') ∧ FlowInv A0 n st' ∧
        Conserved A0 st'.adj s t ∧ excessOf A0 st'.adj t = r ∧ excessOf A0 st'.adj s = -r ∧
        Separated st'.adj s t ∧ ((r = acc ∧ st'.adj = st.adj) ∨ acc + 1 ≤ r) ∧
        ∃ new, st'.hist = new ++ st.hist := by
  intro k
  induction k with
  | zero =>
    intro st acc hI _ _ _ hk
    have := hI.net.capSum_arcs_nonneg s
    omega
  | succ k ih =>
    intro st acc hI hcons het hes hk
    have hnv := not_vis_reset st
    obtain ⟨r1, hr1, hpost⟩ := dfs_spec hp hlen F s INT_MAX
      { st with visited := List.replicate st.visited.length false } hI.net
      (by simp [hI.len]) hs (hnv s) (hnv t) (by decide)
      (lt_of_le_of_lt (unvisited_le n _) hF)
    obtain ⟨d, st1⟩ := r1
    by_cases hd : d = 0
    · obtain ⟨g1, g2, g3, g4⟩ := hpost.fail hd
      simp only at g1 g2 g3 g4
      refine ⟨acc, st1, ?_, ⟨g1 ▸ hI.net, hpost.len, g2 ▸ hI.histInv⟩, ?_, ?_, ?_, ?_, Or.inl ⟨rfl, g1⟩, [], ?_⟩
      · rw [flowLoop, hr1]
        simp only [hd, if_true]
      · rw [g1]; exact hcons
      · rw [g1]; exact het
      · rw [g1]; exact hes
      · refine ⟨Vis st1, g3 hst, hpost.sink, ?_⟩
        rw [g1]
        intro x hx i hi hc
        exact g4 x hx (hnv x) i hi hc
      · simp [g2]
    · have hd1 : 1 ≤ d := by
        have := hpost.range.1
        simp only at this
        omega
      obtain ⟨f1, f2, f3, new, f4, f5⟩ := hpost.found hd1
      simp only at f1 f2 f3 f4 f5
      have hI1 : FlowInv A0 n st1 := by
        refine ⟨f1, hpost.len, ?_⟩
        intro a ha
        rw [f4] at ha
        rcases List.mem_append.mp ha with h | h
        · exact f5 a h
        · exact hI.histInv a h
      have hex : ∀ x, excessOf A0 st1.adj x =
          excessOf A0 st.adj x - (if x = s then d else 0) + (if x = t then d else 0) := f2
      obtain ⟨r, st', c1, c2, c3, c4, c5, c6, c8, new', c7⟩ := ih st1 (acc + d) hI1
        (by
          intro v hvs hvt
          rw [hex v, if_neg hvt, if_neg hvs, hcons v hvs hvt]
          ring)
        (by
          rw [hex t, if_pos rfl, if_neg (fun c => hst c.symm), het]
          ring)
        (by
          rw [hex s, if_pos rfl, if_neg hst, hes]
          ring)
        (by
          have e1 : excessOf A0 st1.adj s = excessOf A0 st.adj s - d := by
            rw [hex s, if_pos rfl, if_neg hst]
            ring
          unfold excessOf at e1
          have hk' : capSum (arcs st.adj s) < ((k + 1 : Nat) : Int) := hk
          push_cast at hk'
          omega)
      refine ⟨r, st', ?_, c2, c3, c4, c5, c6,
        Or.inr (by rcases c8 with ⟨h, _⟩ | h <;> omega), new' ++ new, ?_⟩
      · rw [flowLoop, hr1]
        simp only [hd, if_false]
        exact c1
      · rw [c7, f4, List.append_assoc]

theorem dfs_flowInv_init (n : Nat) (edges : List InEdge) (hr : InRange n edges) :
    FlowInv (build n edges) n (init n edges) := by
  have hnet : NetInv (build n edges) (build n edges) := by
    rw [build_eq_buildWith]
    exact netInv_buildWith kept kept_ne kept_cap n edges hr
  refine ⟨hnet, by simp [init], ?_⟩
  intro a ha
  simp only [init, List.mem_singleton] at ha
  rw [ha]
  exact hnet

/-- The run of dfs.cpp: it terminates, and its final residual network is conserved, has the
returned value as net flow into `t` and out of `s`, and has no augmenting path. -/
theorem dfs_flow_spec (n s t : Nat) (edges : List InEdge) (hr : InRange n edges) (hs : s < n)
    (hst : s ≠ t) (fuel : Nat)
    (hfuel : n + (capSum (arcs (build n edges) s)).toNat < fuel) :
    ∃ F st', flow s t fuel (init n edges) = some (F, st') ∧ FlowInv (build n edges) n st' ∧
      Conserved (build n edges) st'.adj s t ∧ excessOf (build n edges) st'.adj t = F ∧
      excessOf (build n edges) st'.adj s = -F ∧ Separated st'.adj s t := by
  have hinv := buildWith_inv kept kept_ne n edges hr 0
  rw [← build_eq_buildWith] at hinv
  have hI := dfs_flowInv_init n edges hr
  obtain ⟨F, st', h1, h2, h3, h4, h5, h6, _⟩ := dfs_flowLoop_spec hinv.2.1 hinv.1 hs hst fuel
    (by omega) fuel (init n edges) 0 hI (fun v _ _ => excessOf_self _ v)
    (excessOf_self _ t) (by
      show excessOf (build n edges) (build n edges) s = -0
      rw [excessOf_self]; rfl) (by
      show capSum (arcs (build n edges) s) < (fuel : Int)
      omega)
  exact ⟨F, st', h1, h2, h3, h4, h5, h6⟩

end FordFulkersonDFS

namespace MostImprovingAugmentingPaths

theorem foldl_max_spec (l : List (Int × Nat)) (a : Int × Nat) :
    l.foldl (fun m b => if pairLe m b then b else m) a ∈ a :: l ∧
    ∀ p ∈ a :: l, p.1 ≤ (l.foldl (fun m b => if pairLe m b then b else m) a).1 := by
  induction l generalizing a with
  | nil => simp
  | cons b l ih =>
    rw [List.foldl_cons]
    obtain ⟨h1, h2⟩ := ih (if pairLe a b then b else a)
    have hab : a.1 ≤ (if pairLe a b then b else a).1 ∧ b.1 ≤ (if pairLe a b then b else a).1 := by
      by_cases h : pairLe a b = true
      · rw [if_pos h]
        simp only [pairLe, decide_eq_true_eq] at h
        constructor
        · rcases h with h | h <;> omega
        · exact le_refl _
      · rw [if_neg h]
        simp only [pairLe, decide_eq_true_eq] at h
        constructor
        · exact le_refl _
        · by_contra hc
          exact h (Or.inl (by omega))
    have hm := h2 _ (List.mem_cons_self _ _)
    constructor
    · rcases List.mem_cons.mp h1 with h | h
      · rw [h]
        by_cases hc : pairLe a b = true
        · rw [if_pos hc]; simp
        · rw [if_neg hc]; simp
      · simp [h]
    · intro p hp
      rcases List.mem_cons.mp hp with h | h
      · rw [h]; omega
      · rcases List.mem_cons.mp h with h' | h'
        · rw [h']; omega
        · exact h2 p (List.mem_cons_of_mem _ h')

theorem pqTop_mem (pq : List (Int × Nat)) (h : pq ≠ []) : pqTop pq ∈ pq := by
  cases pq with
  | nil => exact absurd rfl h
  | cons a l => exact (foldl_max_spec l a).1

theorem pqTop_max (pq : List (Int × Nat)) (p : Int × Nat) (hp : p ∈ pq) :
    p.1 ≤ (pqTop pq).1 := by
  cases pq with
  | nil => simp at hp
  | cons a l => exact (foldl_max_spec l a).2 p hp

theorem mem_pqPop (pq : List (Int × Nat)) (hnd : pq.Nodup) (p : Int × Nat) :
    p ∈ pqPop pq ↔ (p ≠ pqTop pq ∧ p ∈ pq) := by
  unfold pqPop
  exact hnd.mem_erase_iff

theorem done_inTree {n : Nat} {st : State} {pq : List (Int × Nat)} {x : Nat}
    (h : Done n st pq x) : InTree n st x := ⟨h.1, h.2.1⟩

theorem potential_eq (A : Adj) (n : Nat) (st : State) (pq : List (Int × Nat)) :
    potential A n st pq = pq.length +
      ∑ x in Finset.range n, if Done n st pq x then 0 else (arcs A x).length := rfl

/-- The settled part of the measure does not grow when the settled set grows. -/
theorem potential_le (A : Adj) (n : Nat) (st st' : State) (pq pq' : List (Int × Nat))
    (k : Nat) (hlen : pq'.length ≤ pq.length + k)
    (hmono : ∀ x, Done n st pq x → Done n st' pq' x) :
    potential A n st' pq' ≤ potential A n st pq + k := by

  rw [potential_eq, potential_eq]
  have : (∑ x in Finset.range n, if Done n st' pq' x then 0 else (arcs A x).length) ≤
      ∑ x in Finset.range n, if Done n st pq x then 0 else (arcs A x).length := by
    apply Finset.sum_le_sum
    intro x _
    by_cases h : Done n st pq x
    · rw [if_pos h, if_pos (hmono x h)]
    · rw [if_neg h]
      split <;> omega
  omega

/-- Settling `v` pays for the arcs of `v`. -/
theorem potential_settle (A : Adj) (n : Nat) (st st' : State) (pq pq' : List (Int × Nat))
    (v : Nat) (hv : v < n) (hnv : ¬ Done n st pq v) (hv' : Done n st' pq' v)
    (hlen : pq'.length + 1 ≤ pq.length + (arcs A v).length)
    (hmono : ∀ x, Done n st pq x → Done n st' pq' x) :
    potential A n st' pq' + 1 ≤ potential A n st pq := by

  rw [potential_eq, potential_eq]
  have h1 : (∑ x in Finset.range n, if Done n st' pq' x then 0 else (arcs A x).length) +
      (arcs A v).length ≤
      ∑ x in Finset.range n, if Done n st pq x then 0 else (arcs A x).length := by
    have e1 : ∀ (f : Nat → Nat), (∑ x in Finset.range n, f x) =
        f v + ∑ x in (Finset.range n).erase v, f x := by
      intro f
      rw [Finset.add_sum_erase _ _ (Finset.mem_range.mpr hv)]
    rw [e1, e1 (fun x => if Done n st pq x then 0 else (arcs A x).length)]
    simp only [if_pos hv', if_neg hnv]
    have : (∑ x in (Finset.range n).erase v,
        if Done n st' pq' x then 0 else (arcs A x).length) ≤
        ∑ x in (Finset.range n).erase v, if Done n st pq x then 0 else (arcs A x).length := by
      apply Finset.sum_le_sum
      intro x _
      by_cases h : Done n st pq x
      · rw [if_pos h, if_pos (hmono x h)]
      · rw [if_neg h]
        split <;> omega
    omega
  omega

end MostImprovingAugmentingPaths

namespace MostImprovingAugmentingPaths

/-- Relaxing the arc `adj[v][i]` of the node `v` being settled, when it improves the label of
its head. -/
theorem core_relax {A : Adj} {n s t : Nat} {st : State} {pq : List (Int × Nat)} {M : Int}
    {rk : Nat → Nat} {idx : Nat} (hc : DijCore A n s t st pq M rk idx) (hp : Paired A)
    (hlen : A.length = n) (v i : Nat) (hv : Done n st pq v) (hM : st.path_cap.getD v 0 ≤ M)
    (hi : i < (arcs A v).length)
    (himp : min (st.path_cap.getD v 0) (arc A v i).cap > st.path_cap.getD (arc A v i).dst 0) :
    DijCore A n s t
      { st with
        path_cap := st.path_cap.set (arc A v i).dst (min (st.path_cap.getD v 0) (arc A v i).cap),
        parent := st.parent.set (arc A v i).dst ((arc A v i).rev : Int) }
      (pq ++ [(min (st.path_cap.getD v 0) (arc A v i).cap, (arc A v i).dst)]) M rk idx ∧
    (∀ x, Done n
      { st with
        path_cap := st.path_cap.set (arc A v i).dst (min (st.path_cap.getD v 0) (arc A v i).cap),
        parent := st.parent.set (arc A v i).dst ((arc A v i).rev : Int) }
      (pq ++ [(min (st.path_cap.getD v 0) (arc A v i).cap, (arc A v i).dst)]) x ↔
      Done n st pq x) := by
  obtain ⟨p1, p2, p3, p4, p5⟩ := hp v i hi
  rw [hlen] at p1
  -- abbreviations
  generalize hy : (arc A v i).dst = y at *
  generalize hcdef : min (st.path_cap.getD v 0) (arc A v i).cap = c at *
  have hcM : c ≤ M := by
    rw [← hcdef]
    exact le_trans (min_le_left _ _) hM
  have hpcy := hc.nonneg y
  have hc1 : 1 ≤ c := by omega
  have hpc : ∀ x, (st.path_cap.set y c).getD x 0 = if x = y then c else st.path_cap.getD x 0 := by
    intro x
    rw [getD_set_eq, hc.len_pc]
    by_cases h : x = y
    · rw [if_pos ⟨h, p1⟩, if_pos h]
    · rw [if_neg (fun q => h q.1), if_neg h]
  have hpar : ∀ x, (st.parent.set y ((arc A v i).rev : Int)).getD x 0 =
      if x = y then ((arc A v i).rev : Int) else st.parent.getD x 0 := by
    intro x
    rw [getD_set_eq, hc.len_parent]
    by_cases h : x = y
    · rw [if_pos ⟨h, p1⟩, if_pos h]
    · rw [if_neg (fun q => h q.1), if_neg h]
  have hys : y ≠ s := by
    intro h
    rw [h, hc.src] at himp
    have := hc.M_le
    omega
  have hynd : ¬ Done n st pq y := by
    intro h
    have := hc.done_ge y h
    omega
  have hvy : v ≠ y := fun h => p2 h.symm
  have hnotin : (c, y) ∉ pq := by
    intro h
    have := (hc.entries _ h).2.2.1
    simp only at this
    omega
  have hdone : ∀ x, Done n
      { st with path_cap := st.path_cap.set y c,
                parent := st.parent.set y ((arc A v i).rev : Int) }
      (pq ++ [(c, y)]) x ↔ Done n st pq x := by
    intro x
    unfold Done
    simp only [hpc]
    by_cases h : x = y
    · rw [if_pos h, h]
      constructor
      · intro q
        exact absurd (List.mem_append_right _ (List.mem_singleton.mpr rfl)) q.2.2
      · intro q
        exact absurd q hynd
    · rw [if_neg h]
      constructor
      · rintro ⟨a, b, d⟩
        exact ⟨a, b, fun q => d (List.mem_append_left _ q)⟩
      · rintro ⟨a, b, d⟩
        refine ⟨a, b, ?_⟩
        intro q
        rcases List.mem_append.mp q with q | q
        · exact d q
        · rw [List.mem_singleton] at q
          exact h (congrArg Prod.snd q)
  have hpred : ∀ x, x ≠ y → pred A
      { st with path_cap := st.path_cap.set y c,
                parent := st.parent.set y ((arc A v i).rev : Int) } x = pred A st x := by
    intro x hx
    unfold pred
    simp only [hpar, if_neg hx]
  refine ⟨⟨hc.adj_eq, by simp [hc.len_parent], by simp [hc.len_pc], ?_, hc.M_le, ?_, ?_, ?_, ?_,
    ?_, ?_, ?_⟩, hdone⟩
  · show (st.path_cap.set y c).getD s 0 = INT_MAX
    rw [hpc, if_neg (fun h => hys h.symm)]
    exact hc.src
  · intro x
    show 0 ≤ (st.path_cap.set y c).getD x 0
    rw [hpc]
    split
    · omega
    · exact hc.nonneg x
  · intro p hp'
    show p.2 < n ∧ 1 ≤ p.1 ∧ p.1 ≤ (st.path_cap.set y c).getD p.2 0 ∧ p.1 ≤ M
    rw [hpc]
    rcases List.mem_append.mp hp' with q | q
    · obtain ⟨a, b, d, e⟩ := hc.entries p q
      refine ⟨a, b, ?_, e⟩
      split
      · next h => rw [h] at d; omega
      · exact d
    · rw [List.mem_singleton] at q
      rw [q]
      simp only [if_true]
      exact ⟨p1, hc1, le_refl _, hcM⟩
  · apply List.Nodup.append hc.nodup (List.nodup_singleton _)
    intro a ha hb
    rw [List.mem_singleton] at hb
    rw [hb] at ha
    exact hnotin ha
  · intro h
    exact hc.sink ((hdone t).mp h)
  · intro x hx
    have hx' := (hdone x).mp hx
    show M ≤ (st.path_cap.set y c).getD x 0
    have hxy : x ≠ y := fun h => hynd (by rw [← h]; exact hx')
    rw [hpc, if_neg hxy]
    exact hc.done_ge x hx'
  · intro x hx hxs
    by_cases hxy : x = y
    · subst hxy
      have e1 : pred A
          { st with path_cap := st.path_cap.set x c,
                    parent := st.parent.set x ((arc A v i).rev : Int) } x = v := by
        unfold pred
        simp only [hpar, if_true, Int.toNat_ofNat]
        exact p4
      rw [e1]
      show 0 ≤ (st.parent.set x ((arc A v i).rev : Int)).getD x 0 ∧
        ((st.parent.set x ((arc A v i).rev : Int)).getD x 0).toNat < (arcs A x).length ∧ _ ∧
        (st.path_cap.set x c).getD x 0 ≤
          pairCap A x ((st.parent.set x ((arc A v i).rev : Int)).getD x 0).toNat ∧
        (st.path_cap.set x c).getD x 0 ≤ (st.path_cap.set x c).getD v 0
      simp only [hpar, hpc, if_true, Int.toNat_ofNat, if_neg hvy]
      refine ⟨Int.natCast_nonneg _, p3, (hdone v).mpr hv, ?_, ?_⟩
      · unfold pairCap
        rw [p4, p5, ← hcdef]
        exact min_le_right _ _
      · rw [← hcdef]
        exact min_le_left _ _
    · have hx' : InTree n st x := by
        obtain ⟨a, b⟩ := hx
        have b' : 0 < (st.path_cap.set y c).getD x 0 := b
        rw [hpc, if_neg hxy] at b'
        exact ⟨a, b'⟩
      obtain ⟨q1, q2, q3, q4, q5⟩ := hc.tree x hx' hxs
      rw [hpred x hxy]
      have hpy : pred A st x ≠ y := fun h => hynd (by rw [← h]; exact q3)
      show 0 ≤ (st.parent.set y ((arc A v i).rev : Int)).getD x 0 ∧
        ((st.parent.set y ((arc A v i).rev : Int)).getD x 0).toNat < (arcs A x).length ∧ _ ∧
        (st.path_cap.set y c).getD x 0 ≤
          pairCap A x ((st.parent.set y ((arc A v i).rev : Int)).getD x 0).toNat ∧
        (st.path_cap.set y c).getD x 0 ≤ (st.path_cap.set y c).getD (pred A st x) 0
      simp only [hpar, hpc, if_neg hxy, if_neg hpy]
      exact ⟨q1, q2, (hdone _).mpr q3, q4, q5⟩
  · intro x hx
    have hx' := (hdone x).mp hx
    have hxy : x ≠ y := fun h => hynd (by rw [← h]; exact hx')
    rw [hpred x hxy]
    exact hc.rank x hx'

end MostImprovingAugmentingPaths

namespace MostImprovingAugmentingPaths

/-- The relaxation loop over the arcs of the node `v` being settled. -/
theorem dijkstraFor_spec {A : Adj} {n s t : Nat} (hp : Paired A) (hlen : A.length = n)
    (v : Nat) (flow : Int) :
    ∀ (es done : List Edge) (st : State) (pq : List (Int × Nat)) (M : Int) (rk : Nat → Nat)
      (idx : Nat),
      DijCore A n s t st pq M rk idx → Done n st pq v → st.path_cap.getD v 0 = flow →
      flow ≤ M → arcs A v = done ++ es → Relaxed A n st pq v done.length →
      DijCore A n s t (dijkstraFor flow es st pq).1 (dijkstraFor flow es st pq).2 M rk idx ∧
      Relaxed A n (dijkstraFor flow es st pq).1 (dijkstraFor flow es st pq).2 v
        (arcs A v).length ∧
      (∀ x, Done n st pq x →
        Done n (dijkstraFor flow es st pq).1 (dijkstraFor flow es st pq).2 x) ∧
      (dijkstraFor flow es st pq).2.length ≤ pq.length + es.length ∧
      (dijkstraFor flow es st pq).1.hist = st.hist := by
  intro es
  induction es with
  | nil =>
    intro done st pq M rk idx hc _ _ _ hs hrel
    refine ⟨hc, ?_, fun _ h => h, by simp [dijkstraFor], rfl⟩
    rw [hs, List.append_nil]
    exact hrel
  | cons e es ih =>
    intro done st pq M rk idx hc hv hflow hM hs hrel
    have hi : done.length < (arcs A v).length := by
      rw [hs]; simp
    have he : arc A v done.length = e := by
      unfold arc
      rw [hs, List.getD_append_right _ _ _ _ (le_refl _)]
      simp
    have hs' : arcs A v = (done ++ [e]) ++ es := by
      rw [hs]; simp
    have hdl : (done ++ [e]).length = done.length + 1 := by simp
    by_cases himp : min flow e.cap > st.path_cap.getD e.dst 0
    · have hb : dijkstraFor flow (e :: es) st pq = dijkstraFor flow es
          { st with
            path_cap := st.path_cap.set e.dst (min flow e.cap),
            parent := st.parent.set e.dst (e.rev : Int) }
          (pq ++ [(min flow e.cap, e.dst)]) := by
        rw [dijkstraFor, if_pos himp]
      rw [hb]
      have hcr := core_relax hc hp hlen v done.length hv (by rw [hflow]; exact hM) hi
        (by rw [he, hflow]; exact himp)
      rw [he, hflow] at hcr
      obtain ⟨hc1, hd1⟩ := hcr
      obtain ⟨p1, p2, _, _, _⟩ := hp v done.length hi
      rw [he, hlen] at p1
      rw [he] at p2
      have hpc : ∀ x, (st.path_cap.set e.dst (min flow e.cap)).getD x 0 =
          if x = e.dst then min flow e.cap else st.path_cap.getD x 0 := by
        intro x
        rw [getD_set_eq, hc.len_pc]
        by_cases h : x = e.dst
        · rw [if_pos ⟨h, p1⟩, if_pos h]
        · rw [if_neg (fun q => h q.1), if_neg h]
      have hynd : ¬ Done n st pq e.dst := by
        intro h
        have := hc.done_ge _ h
        have := min_le_left flow e.cap
        omega
      obtain ⟨r1, r2, r3, r4, r5⟩ := ih (done ++ [e]) _ _ M rk idx hc1 ((hd1 v).mpr hv)
        (by
          show (st.path_cap.set e.dst (min flow e.cap)).getD v 0 = flow
          rw [hpc, if_neg (fun h => p2 h.symm)]
          exact hflow)
        hM hs' (by
          rw [hdl]
          intro x hx j hj hxv
          have hx' := (hd1 x).mp hx
          have hxy : x ≠ e.dst := fun h => hynd (by rw [← h]; exact hx')
          show min ((st.path_cap.set e.dst (min flow e.cap)).getD x 0) (arc A x j).cap ≤
            (st.path_cap.set e.dst (min flow e.cap)).getD (arc A x j).dst 0
          rw [hpc x, if_neg hxy, hpc]
          by_cases hnew : x = v ∧ j = done.length
          · obtain ⟨rfl, rfl⟩ := hnew
            rw [he, if_pos rfl, hflow]
          · have hold := hrel x hx' j hj (by
              intro h
              have := hxv h
              by_contra hcon
              exact hnew ⟨h, by omega⟩)
            split
            · have := hc.nonneg (arc A x j).dst
              next h => rw [h] at hold; omega
            · exact hold)
      refine ⟨r1, r2, fun x hx => r3 x ((hd1 x).mpr hx), ?_, r5⟩
      simp only [List.length_append, List.length_singleton, List.length_cons, List.length_nil] at r4 ⊢
      omega
    · have hb : dijkstraFor flow (e :: es) st pq = dijkstraFor flow es st pq := by
        rw [dijkstraFor, if_neg himp]
      rw [hb]
      obtain ⟨r1, r2, r3, r4, r5⟩ := ih (done ++ [e]) st pq M rk idx hc hv hflow hM hs' (by
        rw [hdl]
        intro x hx j hj hxv
        by_cases hnew : x = v ∧ j = done.length
        · obtain ⟨rfl, rfl⟩ := hnew
          rw [he, hflow]
          omega
        · exact hrel x hx j hj (by
            intro h
            have := hxv h
            by_contra hcon
            exact hnew ⟨h, by omega⟩))
      refine ⟨r1, r2, r3, ?_, r5⟩
      simp only [List.length_cons]
      omega

end MostImprovingAugmentingPaths

namespace MostImprovingAugmentingPaths

theorem done_pop_iff {n : Nat} {st : State} {pq : List (Int × Nat)} (hnd : pq.Nodup)
    (x : Nat) :
    Done n st (pqPop pq) x ↔
      (Done n st pq x ∨ (x < n ∧ 0 < st.path_cap.getD x 0 ∧
        (st.path_cap.getD x 0, x) = pqTop pq)) := by
  unfold Done
  rw [mem_pqPop pq hnd]
  constructor
  · rintro ⟨a, b, c⟩
    by_cases h : (st.path_cap.getD x 0, x) = pqTop pq
    · exact Or.inr ⟨a, b, h⟩
    · left
      exact ⟨a, b, fun q => c ⟨h, q⟩⟩
  · rintro (⟨a, b, c⟩ | ⟨a, b, c⟩)
    · exact ⟨a, b, fun q => c q.2⟩
    · exact ⟨a, b, fun q => q.1 c⟩

theorem length_pqPop (pq : List (Int × Nat)) (hne : pq ≠ []) :
    (pqPop pq).length + 1 = pq.length := by
  unfold pqPop
  rw [List.length_erase_of_mem (pqTop_mem pq hne)]
  have : 0 < pq.length := List.length_pos.mpr hne
  omega

/-- The `while (!pq.empty())` loop terminates; `true` comes with a tree of parent pointers
that reaches the sink, `false` with labels closed under relaxation that miss the sink. -/
theorem dijkstraWhile_spec {A : Adj} {n s t : Nat} (hp : Paired A) (hlen : A.length = n)
    (hs : s < n) (F : Nat) :
    ∀ (k : Nat) (st : State) (pq : List (Int × Nat)) (M : Int) (rk : Nat → Nat) (idx : Nat),
      DijCore A n s t st pq M rk idx → Relaxed A n st pq n 0 → potential A n st pq < k →
      idx + k ≤ F →
      ∃ found st', dijkstraWhile t k st pq = some (found, st') ∧ st'.adj = A ∧
        st'.hist = st.hist ∧ st'.parent.length = n ∧ st'.path_cap.length = n ∧
        InTree n st' s ∧
        (found = true → ∃ rk', TreeInv A st'.parent st'.path_cap s (InTree n st') rk' ∧
          InTree n st' t ∧ rk' t < F) ∧
        (found = false → ¬ InTree n st' t ∧
          ∀ x, InTree n st' x → ∀ i, i < (arcs A x).length →
            min (st'.path_cap.getD x 0) (arc A x i).cap ≤ st'.path_cap.getD (arc A x i).dst 0) := by
  intro k
  induction k with
  | zero => intro st pq M rk idx _ _ h; omega
  | succ k ih =>
    intro st pq M rk idx hc hrel hpot hidx
    by_cases hne : pq ≠ []
    · have htm := pqTop_mem pq hne
      obtain ⟨e1, e2, e3, e4⟩ := hc.entries _ htm
      by_cases htt : (pqTop pq).2 = t
      · -- the sink is popped
        refine ⟨true, st, ?_, hc.adj_eq, rfl, hc.len_parent, hc.len_pc,
          ⟨hs, by rw [hc.src]; decide⟩, ?_, fun h => by simp at h⟩
        · rw [dijkstraWhile, if_pos hne]
          simp only [htt, if_true]
        · intro _
          have hit : InTree n st t := by
            rw [← htt]
            exact ⟨e1, by omega⟩
          refine ⟨fun x => if Done n st pq x then rk x else idx, ⟨?_, ?_⟩, hit, ?_⟩
          · refine ⟨hs, ?_⟩
            rw [hc.src]
            decide
          · intro x hx hxs
            obtain ⟨q1, q2, q3, q4, q5⟩ := hc.tree x hx hxs
            refine ⟨q1, q2, done_inTree q3, ?_, q4, q5⟩
            show (if Done n st pq (pred A st x) then rk (pred A st x) else idx) <
              (if Done n st pq x then rk x else idx)
            rw [if_pos q3]
            by_cases hdx : Done n st pq x
            · rw [if_pos hdx]
              exact (hc.rank x hdx).2 hxs
            · rw [if_neg hdx]
              exact (hc.rank _ q3).1
          · show (if Done n st pq t then rk t else idx) < F
            rw [if_neg hc.sink]
            omega
      · by_cases hstale : (pqTop pq).1 < st.path_cap.getD (pqTop pq).2 0
        · -- a stale entry is dropped
          have hdone : ∀ x, Done n st (pqPop pq) x ↔ Done n st pq x := by
            intro x
            rw [done_pop_iff hc.nodup]
            constructor
            · rintro (h | ⟨_, _, h⟩)
              · exact h
              · exfalso
                rw [← h] at hstale
                simp only at hstale
                omega
            · exact Or.inl
          have hc1 : DijCore A n s t st (pqPop pq) M rk (idx + 1) := by
            refine ⟨hc.adj_eq, hc.len_parent, hc.len_pc, hc.src, hc.M_le, hc.nonneg, ?_, ?_, ?_,
              ?_, ?_, ?_⟩
            · intro p hp'
              exact hc.entries p ((mem_pqPop pq hc.nodup p).mp hp').2
            · exact hc.nodup.erase _
            · intro h
              exact hc.sink ((hdone t).mp h)
            · intro x hx
              exact hc.done_ge x ((hdone x).mp hx)
            · intro x hx hxs
              obtain ⟨q1, q2, q3, q4, q5⟩ := hc.tree x hx hxs
              exact ⟨q1, q2, (hdone _).mpr q3, q4, q5⟩
            · intro x hx
              have := hc.rank x ((hdone x).mp hx)
              exact ⟨by omega, this.2⟩
          obtain ⟨found, st', r1, r2, r3, r4, r5, rs, r6, r7⟩ := ih st (pqPop pq) M rk (idx + 1) hc1
            (fun x hx i hi hxv => hrel x ((hdone x).mp hx) i hi hxv)
            (by
              have := potential_le A n st st (pqPop pq) (pqPop pq) 0 (le_refl _)
                (fun _ h => h)
              have h2 : potential A n st (pqPop pq) + 1 = potential A n st pq := by
                rw [potential_eq, potential_eq]
                have := length_pqPop pq hne
                have e : (∑ x in Finset.range n,
                    if Done n st (pqPop pq) x then 0 else (arcs A x).length) =
                    ∑ x in Finset.range n, if Done n st pq x then 0 else (arcs A x).length := by
                  apply Finset.sum_congr rfl
                  intro x _
                  by_cases h : Done n st pq x
                  · rw [if_pos h, if_pos ((hdone x).mpr h)]
                  · rw [if_neg h, if_neg (fun q => h ((hdone x).mp q))]
                omega
              omega)
            (by omega)
          refine ⟨found, st', ?_, r2, r3, r4, r5, rs, r6, r7⟩
          rw [dijkstraWhile, if_pos hne]
          simp only [htt, if_false, hstale, if_true]
          exact r1
        · -- the node is settled and its arcs are relaxed
          have hflow : st.path_cap.getD (pqTop pq).2 0 = (pqTop pq).1 := by omega
          have htop : (st.path_cap.getD (pqTop pq).2 0, (pqTop pq).2) = pqTop pq := by
            rw [hflow]
          have hvnd : ¬ Done n st pq (pqTop pq).2 := by
            intro h
            apply h.2.2
            rw [htop]
            exact htm
          have hdone : ∀ x, Done n st (pqPop pq) x ↔ (Done n st pq x ∨ x = (pqTop pq).2) := by
            intro x
            rw [done_pop_iff hc.nodup]
            constructor
            · rintro (h | ⟨_, _, h⟩)
              · exact Or.inl h
              · right
                exact congrArg Prod.snd h
            · rintro (h | h)
              · exact Or.inl h
              · right
                rw [h]
                exact ⟨e1, by omega, htop⟩
          have hc1 : DijCore A n s t st (pqPop pq) (pqTop pq).1
              (fun x => if x = (pqTop pq).2 then idx else rk x) (idx + 1) := by
            refine ⟨hc.adj_eq, hc.len_parent, hc.len_pc, hc.src, le_trans e4 hc.M_le, hc.nonneg,
              ?_, ?_, ?_, ?_, ?_, ?_⟩
            · intro p hp'
              have hp'' := ((mem_pqPop pq hc.nodup p).mp hp').2
              obtain ⟨a, b, c, _⟩ := hc.entries p hp''
              exact ⟨a, b, c, pqTop_max pq p hp''⟩
            · exact hc.nodup.erase _
            · intro h
              rcases (hdone t).mp h with h | h
              · exact hc.sink h
              · exact htt h.symm
            · intro x hx
              rcases (hdone x).mp hx with h | h
              · exact le_trans e4 (hc.done_ge x h)
              · rw [h, hflow]
            · intro x hx hxs
              obtain ⟨q1, q2, q3, q4, q5⟩ := hc.tree x hx hxs
              exact ⟨q1, q2, (hdone _).mpr (Or.inl q3), q4, q5⟩
            · intro x hx
              beta_reduce
              rcases (hdone x).mp hx with h | h
              · have hxv : x ≠ (pqTop pq).2 := fun q => hvnd (by rw [← q]; exact h)
                rw [if_neg hxv]
                refine ⟨by have := (hc.rank x h).1; omega, fun hxs => ?_⟩
                have hpd := (hc.tree x (done_inTree h) hxs).2.2.1
                have hpv : pred A st x ≠ (pqTop pq).2 :=
                  fun q => hvnd (by rw [← q]; exact hpd)
                rw [if_neg hpv]
                exact (hc.rank x h).2 hxs
              · rw [if_pos h]
                refine ⟨by omega, fun hxs => ?_⟩
                have hit : InTree n st x := by
                  rw [h]
                  exact ⟨e1, by omega⟩
                have hpd := (hc.tree x hit hxs).2.2.1
                have hpv : pred A st x ≠ (pqTop pq).2 :=
                  fun q => hvnd (by rw [← q]; exact hpd)
                rw [if_neg hpv]
                exact (hc.rank _ hpd).1
          have hvd : Done n st (pqPop pq) (pqTop pq).2 := (hdone _).mpr (Or.inr rfl)
          obtain ⟨d1, d2, d3, d4, d5⟩ := dijkstraFor_spec hp hlen (pqTop pq).2 (pqTop pq).1
            (arcs A (pqTop pq).2) [] st (pqPop pq) (pqTop pq).1 _ (idx + 1) hc1 hvd hflow
            (le_refl _) (by simp) (by
              intro x hx i hi hxv
              rcases (hdone x).mp hx with h | h
              · exact hrel x h i hi (fun q => absurd q (by have := h.1; omega))
              · have := hxv h
                simp at this)
          rw [← hc.adj_eq] at d1 d2 d3 d4 d5
          rcases hres : dijkstraFor (pqTop pq).1 (arcs st.adj (pqTop pq).2) st (pqPop pq) with
            ⟨st2, pq2⟩
          rw [hres] at d1 d2 d3 d4 d5
          simp only at d1 d2 d3 d4 d5
          rw [hc.adj_eq] at d1 d2 d4
          obtain ⟨found, st', r1, r2, r3, r4, r5, rs, r6, r7⟩ := ih st2 pq2 (pqTop pq).1 _ (idx + 1) d1
            (fun x hx i hi _ => d2 x hx i hi (fun q => by rw [q] at hi; exact hi))
            (by
              have := potential_settle A n st st2 pq pq2 (pqTop pq).2 e1 hvnd (d3 _ hvd)
                (by
                  have := length_pqPop pq hne
                  omega)
                (fun x hx => d3 x ((hdone x).mpr (Or.inl hx)))
              omega)
            (by omega)
          refine ⟨found, st', ?_, r2, r3.trans d5, r4, r5, rs, r6, r7⟩
          rw [dijkstraWhile, if_pos hne]
          simp only [htt, if_false, hstale, hres]
          exact r1
    · -- the queue is empty
      have hnil : pq = [] := by
        by_contra h
        exact hne h
      refine ⟨false, st, ?_, hc.adj_eq, rfl, hc.len_parent, hc.len_pc,
        ⟨hs, by rw [hc.src]; decide⟩, fun h => by simp at h, fun _ => ⟨?_, ?_⟩⟩
      · rw [dijkstraWhile, if_neg hne]
      · intro h
        apply hc.sink
        refine ⟨h.1, h.2, ?_⟩
        rw [hnil]
        simp
      · intro x hx i hi
        apply hrel x ⟨hx.1, hx.2, by rw [hnil]; simp⟩ i hi
        intro q
        have := hx.1
        omega

end MostImprovingAugmentingPaths

namespace MostImprovingAugmentingPaths

/-- The search terminates; `true` comes with a tree of parent pointers that reaches the sink,
`false` with a set that separates the source from the sink. -/
theorem dijkstra_spec {A0 : Adj} {n s t : Nat} (hp : Paired A0) (hlen : A0.length = n)
    (hs : s < n) (st : State) (hI : FlowInv A0 n st)
    (fuel : Nat) (hfuel : totalArcs n A0 + 1 < fuel) :
    ∃ found st', dijkstra s t fuel st = some (found, st') ∧ st'.adj = st.adj ∧
      st'.hist = st.hist ∧ st'.parent.length = n ∧ st'.path_cap.length = n ∧
      (found = true → ∃ rk, TreeInv st.adj st'.parent st'.path_cap s (InTree n st') rk ∧
        InTree n st' t ∧ rk t < fuel) ∧
      (found = false → Separated st.adj s t) := by
  have hpa := hI.net.paired hp
  have hla : st.adj.length = n := hI.net.length_eq.trans hlen
  have hpc : ∀ x, ((List.replicate st.path_cap.length (0 : Int)).set s INT_MAX).getD x 0 =
      if x = s then INT_MAX else 0 := by
    intro x
    rw [getD_set_eq, getD_replicate_eq, hI.len_pc]
    simp only [List.length_replicate, hI.len_pc, hs, and_true]
    by_cases h : x = s
    · rw [if_pos h, if_pos h]
    · rw [if_neg h, if_neg h]
      split <;> rfl
  have hnd : ∀ x, ¬ Done n
      { st with
        path_cap := (List.replicate st.path_cap.length 0).set s INT_MAX,
        parent := st.parent.set s (-2) } [(INT_MAX, s)] x := by
    intro x hx
    obtain ⟨_, b, c⟩ := hx
    have b' : 0 < ((List.replicate st.path_cap.length (0 : Int)).set s INT_MAX).getD x 0 := b
    have c' : (((List.replicate st.path_cap.length (0 : Int)).set s INT_MAX).getD x 0, x) ∉
        [(INT_MAX, s)] := c
    rw [hpc] at b' c'
    by_cases h : x = s
    · rw [if_pos h, h] at c'
      simp at c'
    · rw [if_neg h] at b'
      omega
  have hc0 : DijCore st.adj n s t
      { st with
        path_cap := (List.replicate st.path_cap.length 0).set s INT_MAX,
        parent := st.parent.set s (-2) } [(INT_MAX, s)] INT_MAX (fun _ => 0) 0 := by
    refine ⟨rfl, by simp [hI.len_parent], by simp [hI.len_pc], ?_, le_refl _, ?_, ?_, by simp,
      hnd t, fun x hx => absurd hx (hnd x), ?_, fun x hx => absurd hx (hnd x)⟩
    · show ((List.replicate st.path_cap.length (0 : Int)).set s INT_MAX).getD s 0 = INT_MAX
      rw [hpc, if_pos rfl]
    · intro x
      show 0 ≤ ((List.replicate st.path_cap.length (0 : Int)).set s INT_MAX).getD x 0
      rw [hpc]
      split
      · decide
      · exact le_refl _
    · intro p hp'
      rw [List.mem_singleton] at hp'
      rw [hp']
      show s < n ∧ (1 : Int) ≤ INT_MAX ∧
        INT_MAX ≤ ((List.replicate st.path_cap.length (0 : Int)).set s INT_MAX).getD s 0 ∧
        INT_MAX ≤ INT_MAX
      rw [hpc, if_pos rfl]
      exact ⟨hs, by decide, le_refl _, le_refl _⟩
    · intro x hx hxs
      exfalso
      have b' : 0 < ((List.replicate st.path_cap.length (0 : Int)).set s INT_MAX).getD x 0 :=
        hx.2
      rw [hpc, if_neg hxs] at b'
      omega
  have hpot : potential st.adj n
      { st with
        path_cap := (List.replicate st.path_cap.length 0).set s INT_MAX,
        parent := st.parent.set s (-2) } [(INT_MAX, s)] < fuel := by
    rw [potential_eq]
    have e : (∑ x in Finset.range n, if Done n
        { st with
          path_cap := (List.replicate st.path_cap.length 0).set s INT_MAX,
          parent := st.parent.set s (-2) } [(INT_MAX, s)] x then 0 else (arcs st.adj x).length)
        = totalArcs n A0 := by
      unfold totalArcs
      apply Finset.sum_congr rfl
      intro x _
      rw [if_neg (hnd x), hI.net.length_arcs]
    rw [e]
    simp only [List.length_singleton]
    omega
  obtain ⟨found, st', r1, r2, r3, r4, r5, rs, r6, r7⟩ := dijkstraWhile_spec (t := t) hpa hla hs
    fuel fuel _ _ _ _ 0 hc0 (fun x hx => absurd hx (hnd x)) hpot (by omega)
  refine ⟨found, st', r1, r2, r3, r4, r5, r6, ?_⟩
  intro hf
  obtain ⟨c1, c2⟩ := r7 hf
  refine ⟨InTree n st', rs, c1, ?_⟩
  intro x hx i hi hcap
  obtain ⟨p1, _, _, _, _⟩ := hpa x i hi
  rw [hla] at p1
  refine ⟨p1, ?_⟩
  have h1 := c2 x hx i hi
  have h2 := hI.net.nonneg x i hi
  have h3 := hx.2
  have h4 : 1 ≤ min (st'.path_cap.getD x 0) (arc st.adj x i).cap := by
    apply le_min <;> omega
  omega

theorem mi_augment_eq_walk (s : Nat) (d : Int) (k : Nat) (st : State) (v : Nat) :
    augment s d k st v =
      (walk st.parent s d k st.adj st.hist v).map
        (fun r => { st with adj := r.1, hist := r.2 }) := by
  induction k generalizing st v with
  | zero => rfl
  | succ k ih =>
    rw [augment, walk]
    by_cases h : v ≠ s
    · rw [if_pos h, if_pos h]
      simp only
      rw [ih]
    · rw [if_neg h, if_neg h]
      rfl

/-- The `while (dijkstra())` loop terminates with a conserved flow and no augmenting path. -/
theorem mi_flowLoop_spec {A0 : Adj} {n s t : Nat} (hp : Paired A0) (hlen : A0.length = n)
    (hs : s < n) (hst : s ≠ t) (F : Nat) (hF : totalArcs n A0 + 1 < F) :
    ∀ (k : Nat) (st : State) (ans : Int), FlowInv A0 n st → Conserved A0 st.adj s t →
      excessOf A0 st.adj t = ans → excessOf A0 st.adj s = -ans →
      capSum (arcs st.adj s) < k →
      ∃ r st', flowLoop s t F k st ans = some (r, st') ∧ FlowInv A0 n st' ∧
        Conserved A0 st'.adj s t ∧ excessOf A0 st'.adj t = r ∧ excessOf A0 st'.adj s = -r ∧
        Separated st'.adj s t ∧ ((r = ans ∧ st'.adj = st.adj) ∨ ans + 1 ≤ r) ∧
        ∃ new, st'.hist = new ++ st.hist := by
  intro k
  induction k with
  | zero =>
    intro st ans hI _ _ _ hk
    have := hI.net.capSum_arcs_nonneg s
    omega
  | succ k ih =>
    intro st ans hI hcons het hes hk
    obtain ⟨found, st1, b1, b2, b3, b4, b5, b6, b7⟩ := dijkstra_spec hp hlen hs st hI F hF
    cases found with
    | false =>
      refine ⟨ans, st1, ?_, ?_, ?_, ?_, ?_, ?_, Or.inl ⟨rfl, b2⟩, [], ?_⟩
      · rw [flowLoop, b1]
      · exact ⟨b2 ▸ hI.net, b4, b5, b3 ▸ hI.histInv⟩
      · rw [b2]; exact hcons
      · rw [b2]; exact het
      · rw [b2]; exact hes
      · rw [b2]; exact b7 rfl
      · simp [b3]
    | true =>
      obtain ⟨rk, htree, hseen, hrk⟩ := b6 rfl
      have hd := hseen.2
      obtain ⟨A2, new, w1, w2, w3, w4⟩ := walk_spec hp hI.net htree
        (st1.path_cap.getD t 0) (by omega) F st.adj st1.hist t hrk hseen (le_refl _) hI.net
        (fun _ _ _ _ => rfl)
      have haug : augment s (st1.path_cap.getD t 0) F st1 t =
          some { st1 with adj := A2, hist := new ++ st1.hist } := by
        rw [mi_augment_eq_walk, b2, w1]
        rfl
      have hI2 : FlowInv A0 n { st1 with adj := A2, hist := new ++ st1.hist } := by
        refine ⟨w2, b4, b5, ?_⟩
        intro a ha
        rcases List.mem_append.mp ha with h | h
        · exact w3 a h
        · rw [b3] at h
          exact hI.histInv a h
      have hex : ∀ x, excessOf A0 A2 x = excessOf A0 st.adj x +
          (if x = t then st1.path_cap.getD t 0 else 0) -
          (if x = s then st1.path_cap.getD t 0 else 0) := w4
      obtain ⟨r, st', c1, c2, c3, c4, c5, c6, c8, new', c7⟩ := ih
        { st1 with adj := A2, hist := new ++ st1.hist } (ans + st1.path_cap.getD t 0) hI2
        (by
          intro v hvs hvt
          show excessOf A0 A2 v = 0
          rw [hex v, if_neg hvt, if_neg hvs, hcons v hvs hvt]
          ring)
        (by
          show excessOf A0 A2 t = _
          rw [hex t, if_pos rfl, if_neg (fun c => hst c.symm), het]
          ring)
        (by
          show excessOf A0 A2 s = _
          rw [hex s, if_pos rfl, if_neg hst, hes]
          ring)
        (by
          show capSum (arcs A2 s) < (k : Int)
          have e1 : excessOf A0 A2 s = excessOf A0 st.adj s - st1.path_cap.getD t 0 := by
            rw [hex s, if_pos rfl, if_neg hst]
            ring
          unfold excessOf at e1
          omega)
      refine ⟨r, st', ?_, c2, c3, c4, c5, c6,
        Or.inr (by rcases c8 with ⟨h, _⟩ | h <;> omega), new' ++ new, ?_⟩
      · rw [flowLoop, b1]
        simp only
        rw [haug]
        exact c1
      · rw [c7]
        show new' ++ (new ++ st1.hist) = _
        rw [b3, List.append_assoc]

theorem mi_flowInv_init (n : Nat) (edges : List InEdge) (hr : InRange n edges) :
    FlowInv (build n edges) n (init n edges) := by
  have hnet : NetInv (build n edges) (build n edges) := by
    rw [build_eq_buildWith]
    exact netInv_buildWith kept kept_ne kept_cap n edges hr
  refine ⟨hnet, by simp [init], by simp [init], ?_⟩
  intro a ha
  simp only [init, List.mem_singleton] at ha
  rw [ha]
  exact hnet

/-- The run of most_improving.cpp: it terminates, and its final residual network is
conserved, has the returned value as net flow into `t` and out of `s`, and has no augmenting
path. -/
theorem mi_flow_spec (n s t : Nat) (edges : List InEdge) (hr : InRange n edges) (hs : s < n)
    (hst : s ≠ t) (fuel : Nat)
    (hfuel : totalArcs n (build n edges) + 1 + (capSum (arcs (build n edges) s)).toNat < fuel) :
    ∃ F st', flow s t fuel (init n edges) = some (F, st') ∧ FlowInv (build n edges) n st' ∧
      Conserved (build n edges) st'.adj s t ∧ excessOf (build n edges) st'.adj t = F ∧
      excessOf (build n edges) st'.adj s = -F ∧ Separated st'.adj s t := by
  have hinv := buildWith_inv kept kept_ne n edges hr 0
  rw [← build_eq_buildWith] at hinv
  have hI := mi_flowInv_init n edges hr
  obtain ⟨F, st', h1, h2, h3, h4, h5, h6, _⟩ := mi_flowLoop_spec hinv.2.1 hinv.1 hs hst fuel
    (by omega) fuel (init n edges) 0 hI (fun v _ _ => excessOf_self _ v)
    (excessOf_self _ t) (by
      show excessOf (build n edges) (build n edges) s = -0
      rw [excessOf_self]; rfl) (by
      show capSum (arcs (build n edges) s) < (fuel : Int)
      omega)
  exact ⟨F, st', h1, h2, h3, h4, h5, h6⟩

end MostImprovingAugmentingPaths

namespace Dinic

theorem Core.dinic_mono {A : Adj} {n s : Nat} {st : State} {r r' : Nat}
    (hc : Core A n s st r) (h : r ≤ r') : Core A n s st r' :=
  ⟨hc.adj_eq, hc.len_label, fun x hx => lt_of_lt_of_le (hc.lab_lt x hx) h, hc.cert⟩

theorem Core.dinic_congr {A : Adj} {n s : Nat} {st st' : State} {r : Nat}
    (hc : Core A n s st r) (h1 : st'.adj = st.adj) (h2 : st'.label = st.label) :
    Core A n s st' r := by
  have hS : Seen n st' = Seen n st := by
    funext x
    simp [Seen, h2]
  exact ⟨h1.trans hc.adj_eq, h2 ▸ hc.len_label, by rw [hS, h2]; exact hc.lab_lt,
    by rw [hS, h2]; exact hc.cert⟩

theorem dinic_core_visit {A : Adj} {n s : Nat} {st : State} {r : Nat}
    (hc : Core A n s st r) (hp : Paired A) (hlen : A.length = n)
    (v i : Nat) (hv : Seen n st v) (hi : i < (arcs A v).length)
    (hun : ¬ st.label.getD (arc A v i).dst 0 < n) (hcap : (arc A v i).cap ≠ 0)
    (hr : r < n) :
    Core A n s { st with label := st.label.set (arc A v i).dst (st.label.getD v 0 + 1) }
      (r + 1) ∧
    (∀ y, Seen n { st with label := st.label.set (arc A v i).dst (st.label.getD v 0 + 1) } y ↔
      (Seen n st y ∨ y = (arc A v i).dst)) := by
  obtain ⟨p1, p2, p3, p4, p5⟩ := hp v i hi
  rw [hlen] at p1
  have hvx : v ≠ (arc A v i).dst := fun e => p2 e.symm
  have hlv := hc.lab_lt v hv
  have hlab : ∀ y, (st.label.set (arc A v i).dst (st.label.getD v 0 + 1)).getD y 0 =
      if y = (arc A v i).dst then st.label.getD v 0 + 1 else st.label.getD y 0 := by
    intro y
    rw [getD_set_eq]
    by_cases hy : y = (arc A v i).dst
    · rw [if_pos ⟨hy, by rw [hc.len_label]; exact p1⟩, if_pos hy]
    · rw [if_neg (fun c => hy c.1), if_neg hy]
  have hseen : ∀ y, Seen n
      { st with label := st.label.set (arc A v i).dst (st.label.getD v 0 + 1) } y ↔
      (Seen n st y ∨ y = (arc A v i).dst) := by
    intro y
    unfold Seen
    simp only [hlab]
    by_cases hy : y = (arc A v i).dst
    · subst hy
      simp only [if_true, or_true, iff_true]
      exact ⟨p1, by omega⟩
    · simp [hy]
  refine ⟨⟨hc.adj_eq, by simp [hc.len_label], ?_, ?_, ?_⟩, hseen⟩
  · intro y hy
    show (st.label.set (arc A v i).dst (st.label.getD v 0 + 1)).getD y 0 < r + 1
    rw [hlab]
    by_cases hyx : y = (arc A v i).dst
    · rw [if_pos hyx]; omega
    · rw [if_neg hyx]
      rcases (hseen y).mp hy with h | h
      · have := hc.lab_lt y h; omega
      · exact absurd h hyx
  · exact (hseen s).mpr (Or.inl hc.cert.src)
  · intro y hy hys
    show Live A (fun x => (st.label.set (arc A v i).dst (st.label.getD v 0 + 1)).getD x 0)
      (fun _ => 0) _ y
    by_cases hyx : y = (arc A v i).dst
    · refine ⟨(arc A v i).rev, Nat.zero_le _, by rw [hyx]; exact p3, ?_, ?_, ?_⟩
      · rw [hyx, p4]
        exact (hseen v).mpr (Or.inl hv)
      · beta_reduce
        rw [hyx, p4, hlab, hlab, if_neg hvx, if_pos rfl]
        omega
      · unfold pairCap
        rw [hyx, p4, p5]
        exact hcap
    · have hy' : Seen n st y := by
        rcases (hseen y).mp hy with h | h
        · exact h
        · exact absurd h hyx
      obtain ⟨a, q1, q2, q3, q4, q5⟩ := hc.cert.node y hy' hys
      have hpx : (arc A y a).dst ≠ (arc A v i).dst := by
        intro c
        rw [c] at q3
        exact hun q3.2
      refine ⟨a, q1, q2, (hseen _).mpr (Or.inl q3), ?_, q5⟩
      beta_reduce at q4 ⊢
      rw [hlab, hlab, if_neg hpx, if_neg hyx]
      exact q4

/-- The result of the scan of the arcs of `v`. -/
theorem dinic_bfsFor_spec {A : Adj} {n s t : Nat} (hp : Paired A) (hlen : A.length = n) (v : Nat) :
    ∀ (es done : List Edge) (st : State) (qe : Nat),
      Core A n s st qe → Queue n t st qe → Seen n st v → arcs A v = done ++ es →
      (∀ e ∈ done, e.cap ≠ 0 → Seen n st e.dst) →
      Core A n s (bfsFor n t v es st qe).2.1 n ∧
        ((bfsFor n t v es st qe).1 = false →
          Core A n s (bfsFor n t v es st qe).2.1 (bfsFor n t v es st qe).2.2) ∧
        (bfsFor n t v es st qe).2.1.hist = st.hist ∧
        (bfsFor n t v es st qe).2.1.iter = st.iter ∧
        (∀ y, Seen n st y → Seen n (bfsFor n t v es st qe).2.1 y) ∧
        ((bfsFor n t v es st qe).1 = false →
          Queue n t (bfsFor n t v es st qe).2.1 (bfsFor n t v es st qe).2.2 ∧
          qe ≤ (bfsFor n t v es st qe).2.2 ∧
          (∀ k, k < qe → (bfsFor n t v es st qe).2.1.que.getD k 0 = st.que.getD k 0) ∧
          ∀ e ∈ arcs A v, e.cap ≠ 0 → Seen n (bfsFor n t v es st qe).2.1 e.dst) ∧
        ((bfsFor n t v es st qe).1 = true → Seen n (bfsFor n t v es st qe).2.1 t) := by
  intro es
  induction es with
  | nil =>
    intro done st qe hc hq hv hs hdone
    refine ⟨hc.dinic_mono hq.qe_le, fun _ => hc, rfl, rfl, fun y h => h, ?_, ?_⟩
    · intro _
      refine ⟨hq, le_refl _, fun k _ => rfl, ?_⟩
      rw [hs, List.append_nil]
      exact hdone
    · intro h
      simp [bfsFor] at h
  | cons e es ih =>
    intro done st qe hc hq hv hs hdone
    have hi : done.length < (arcs A v).length := by
      rw [hs]; simp
    have he : arc A v done.length = e := by
      unfold arc
      rw [hs, List.getD_append_right _ _ _ _ (le_refl _)]
      simp
    have hs' : arcs A v = (done ++ [e]) ++ es := by
      rw [hs]; simp
    obtain ⟨p1, p2, p3, p4, p5⟩ := hp v done.length hi
    rw [he, hlen] at p1
    by_cases hskip : e.cap = 0 ∨ st.label.getD e.dst 0 < n
    · have hb : bfsFor n t v (e :: es) st qe = bfsFor n t v es st qe := by
        rw [bfsFor, if_pos hskip]
      rw [hb]
      refine ih (done ++ [e]) st qe hc hq hv hs' ?_
      intro e' he' hcap
      rcases List.mem_append.mp he' with h | h
      · exact hdone e' h hcap
      · rw [List.mem_singleton] at h
        rw [h] at hcap ⊢
        rcases hskip with h0 | h0
        · exact absurd h0 hcap
        · exact ⟨p1, h0⟩
    · have hcap : e.cap ≠ 0 := fun h => hskip (Or.inl h)
      have hun : ¬ st.label.getD e.dst 0 < n := fun h => hskip (Or.inr h)
      have hxQ : e.dst ∉ st.que.take qe := by
        intro h
        exact hun ((hq.mem_iff _).mp h).2
      have hqlen : (st.que.take qe).length = qe := by
        rw [List.length_take, hq.len_que]
        exact min_eq_left hq.qe_le
      have hqe : qe < n := by
        have := nodup_length_lt (st.que.take qe) n e.dst hq.nodup
          (fun y hy => ((hq.mem_iff y).mp hy).1) p1 hxQ
        omega
      have hvis := dinic_core_visit hc hp hlen v done.length hv hi (by rw [he]; exact hun)
        (by rw [he]; exact hcap) hqe
      rw [he] at hvis
      obtain ⟨hc1, hseen1⟩ := hvis
      by_cases het : e.dst = t
      · have hb : bfsFor n t v (e :: es) st qe = (true,
            { st with label := st.label.set e.dst (st.label.getD v 0 + 1) }, qe) := by
          rw [bfsFor, if_neg hskip]
          simp only [het, if_true]
        rw [hb]
        refine ⟨hc1.dinic_mono (by omega), ?_, rfl, rfl, fun y h => (hseen1 y).mpr (Or.inl h), ?_, ?_⟩
        · intro h; simp at h
        · intro h; simp at h
        · intro _
          exact (hseen1 t).mpr (Or.inr het.symm)
      · have hb : bfsFor n t v (e :: es) st qe = bfsFor n t v es
            { st with
              label := st.label.set e.dst (st.label.getD v 0 + 1),
              que := st.que.set qe e.dst } (qe + 1) := by
          rw [bfsFor, if_neg hskip]
          simp only [het, if_false]
        rw [hb]
        have hc2 : Core A n s
            { st with
              label := st.label.set e.dst (st.label.getD v 0 + 1),
              que := st.que.set qe e.dst } (qe + 1) := hc1.dinic_congr rfl rfl
        have hS2 : ∀ y, Seen n
            { st with
              label := st.label.set e.dst (st.label.getD v 0 + 1),
              que := st.que.set qe e.dst } y ↔ (Seen n st y ∨ y = e.dst) := hseen1
        have hq2 : Queue n t
            { st with
              label := st.label.set e.dst (st.label.getD v 0 + 1),
              que := st.que.set qe e.dst } (qe + 1) := by
          have htake : (st.que.set qe e.dst).take (qe + 1) = st.que.take qe ++ [e.dst] :=
            take_set_succ _ _ _ (by rw [hq.len_que]; exact hqe)
          refine ⟨by simp [hq.len_que], hqe, ?_, ?_, ?_⟩
          · show ((st.que.set qe e.dst).take (qe + 1)).Nodup
            rw [htake]
            apply List.Nodup.append hq.nodup (List.nodup_singleton _)
            intro a ha hb
            rw [List.mem_singleton] at hb
            rw [hb] at ha
            exact hxQ ha
          · intro x
            show x ∈ (st.que.set qe e.dst).take (qe + 1) ↔ _
            rw [htake, hS2, List.mem_append, List.mem_singleton, hq.mem_iff]
          · show ¬ (st.label.set e.dst (st.label.getD v 0 + 1)).getD t 0 < n
            rw [getD_set_eq, if_neg (fun c => het c.1.symm)]
            exact hq.t_unseen
        obtain ⟨r1, rb2, r2, r2', r3, r4, r5⟩ := ih (done ++ [e]) _ (qe + 1) hc2 hq2
          ((hS2 v).mpr (Or.inl hv)) hs' (by
            intro e' he' hcap'
            rcases List.mem_append.mp he' with h | h
            · exact (hS2 _).mpr (Or.inl (hdone e' h hcap'))
            · rw [List.mem_singleton] at h
              rw [h]
              exact (hS2 _).mpr (Or.inr rfl))
        refine ⟨r1, rb2, r2, r2', fun y h => r3 y ((hS2 y).mpr (Or.inl h)), ?_, r5⟩
        intro hf
        obtain ⟨a1, a2, a3, a4⟩ := r4 hf
        refine ⟨a1, by omega, ?_, a4⟩
        intro k hk
        rw [a3 k (by omega)]
        show (st.que.set qe e.dst).getD k 0 = _
        rw [getD_set_eq, if_neg (fun c => by omega)]

theorem dinic_bfsWhile_spec {A : Adj} {n s t : Nat} (hp : Paired A) (hlen : A.length = n) :
    ∀ (fuel : Nat) (st : State) (qb qe : Nat),
      Core A n s st qe → Queue n t st qe → Closed A n st qb → qb ≤ qe → n < fuel + qb →
      ∃ found st', bfsWhile n t fuel st qb qe = some (found, st') ∧ Core A n s st' n ∧
        st'.hist = st.hist ∧ st'.iter = st.iter ∧ (found = true → Seen n st' t) ∧
        (found = false → ¬ Seen n st' t ∧
          ∀ x, Seen n st' x → ∀ e ∈ arcs A x, e.cap ≠ 0 → Seen n st' e.dst) := by
  intro fuel
  induction fuel with
  | zero =>
    intro st qb qe _ hq _ h1 h2
    have := hq.qe_le
    omega
  | succ k ih =>
    intro st qb qe hc hq hcl hle hfuel
    by_cases hlt : qb < qe
    · have hv : Seen n st (st.que.getD qb 0) :=
        (hq.mem_iff _).mp (getD_mem_take _ _ _ hlt (by rw [hq.len_que]; exact hq.qe_le))
      obtain ⟨r1, rb2, r2, r2', r3, r4, r5⟩ := dinic_bfsFor_spec (s := s) (t := t) hp hlen
        (st.que.getD qb 0) (arcs A (st.que.getD qb 0)) [] st qe hc hq hv (by simp)
        (by simp)
      rcases hres : bfsFor n t (st.que.getD qb 0) (arcs A (st.que.getD qb 0)) st qe with
        ⟨found, st1, qe1⟩
      rw [hres] at r1 rb2 r2 r2' r3 r4 r5
      simp only at r1 rb2 r2 r2' r3 r4 r5
      cases found with
      | true =>
        refine ⟨true, st1, ?_, r1, r2, r2', fun _ => r5 rfl, fun h => by simp at h⟩
        rw [bfsWhile, if_pos hlt, hc.adj_eq, hres]
      | false =>
        obtain ⟨a1, a2, a3, a4⟩ := r4 rfl
        have hcl1 : Closed A n st1 (qb + 1) := by
          intro j hj e he hcap
          by_cases hjq : j < qb
          · apply r3
            have := hcl j hjq e (by rw [← a3 j (by omega)]; exact he) hcap
            exact this
          · have hjq' : j = qb := by omega
            rw [hjq', a3 qb hlt] at he
            exact a4 e he hcap
        obtain ⟨found, st', b1, b2, b3, b3', b4, b5⟩ := ih st1 (qb + 1) qe1 (rb2 rfl) a1 hcl1
          (by omega) (by omega)
        refine ⟨found, st', ?_, b2, b3.trans r2, b3'.trans r2', b4, b5⟩
        rw [bfsWhile, if_pos hlt, hc.adj_eq, hres]
        exact b1
    · refine ⟨false, st, ?_, hc.dinic_mono hq.qe_le, rfl, rfl,
        fun h => by simp at h, fun _ => ⟨?_, ?_⟩⟩
      · rw [bfsWhile, if_neg hlt]
      · intro h
        exact hq.t_unseen h.2
      · intro x hx e he hcap
        obtain ⟨j, hj, hjx⟩ := exists_of_mem_take _ _ _ ((hq.mem_iff x).mpr hx)
        rw [← hjx] at he
        exact hcl j (by omega) e he hcap

theorem dinic_bfsFor_len (n t v : Nat) (es : List Edge) (st : State) (qe : Nat) :
    (bfsFor n t v es st qe).2.1.que.length = st.que.length ∧
    (bfsFor n t v es st qe).2.1.adj = st.adj := by
  induction es generalizing st qe with
  | nil => exact ⟨rfl, rfl⟩
  | cons e es ih =>
    rw [bfsFor]
    split
    · exact ih st qe
    · split
      · exact ⟨rfl, rfl⟩
      · have := ih { st with
          label := st.label.set e.dst (st.label.getD v 0 + 1),
          que := st.que.set qe e.dst } (qe + 1)
        simpa using this

theorem dinic_bfsWhile_len (n t : Nat) (fuel : Nat) (st : State) (qb qe : Nat) (r : Bool × State)
    (h : bfsWhile n t fuel st qb qe = some r) :
    r.2.que.length = st.que.length ∧ r.2.adj = st.adj := by
  induction fuel generalizing st qb qe with
  | zero => simp [bfsWhile] at h
  | succ k ih =>
    rw [bfsWhile] at h
    split at h
    · have hl := dinic_bfsFor_len n t (st.que.getD qb 0) (arcs st.adj (st.que.getD qb 0)) st qe
      split at h
      · next st1 _ heq =>
        rw [heq] at hl
        simp only [Option.some.injEq] at h
        rw [← h]
        exact hl
      · next st1 qe1 heq =>
        rw [heq] at hl
        have := ih st1 (qb + 1) qe1 h
        exact ⟨this.1.trans hl.1, this.2.trans hl.2⟩
    · simp only [Option.some.injEq] at h
      rw [← h]
      exact ⟨rfl, rfl⟩

/-- The search terminates; `true` comes with labels that certify a path to the sink,
`false` with a set that separates the source from the sink. -/
theorem dinic_bfs_spec {A0 : Adj} {n s t : Nat} (hp : Paired A0) (hlen : A0.length = n)
    (hs : s < n) (ht : t < n) (hst : s ≠ t) (st : State) (hI : FlowInv A0 n st)
    (fuel : Nat) (hfuel : n < fuel) :
    ∃ found st', bfs n s t fuel st = some (found, st') ∧ Core st.adj n s st' n ∧
      st'.hist = st.hist ∧ st'.iter = st.iter ∧ st'.que.length = n ∧
      (found = true → Seen n st' t) ∧
      (found = false → Separated st.adj s t) := by
  have hpa := hI.net.paired hp
  have hla : st.adj.length = n := hI.net.length_eq.trans hlen
  have hlab : ∀ x, ((List.replicate st.label.length n).set s 0).getD x 0 =
      if x = s then 0 else if x < n then n else 0 := by
    intro x
    rw [getD_set_eq, getD_replicate_eq, hI.len_label]
    simp only [List.length_replicate, hI.len_label, hs, and_true]
  have hseen : ∀ x, Seen n
      { st with
        label := (List.replicate st.label.length n).set s 0,
        que := st.que.set 0 s } x ↔ x = s := by
    intro x
    unfold Seen
    simp only [hlab]
    constructor
    · rintro ⟨h1, h2⟩
      by_contra hx
      rw [if_neg hx, if_pos h1] at h2
      omega
    · intro h
      rw [h, if_pos rfl]
      exact ⟨hs, by omega⟩
  have hc0 : Core st.adj n s
      { st with
        label := (List.replicate st.label.length n).set s 0,
        que := st.que.set 0 s } 1 := by
    refine ⟨rfl, by simp [hI.len_label], ?_, ?_, ?_⟩
    · intro x hx
      rw [(hseen x).mp hx]
      show ((List.replicate st.label.length n).set s 0).getD s 0 < 1
      rw [hlab, if_pos rfl]
      omega
    · exact (hseen s).mpr rfl
    · intro x hx hxs
      exact absurd ((hseen x).mp hx) hxs
  have hn1 : 1 ≤ n := by omega
  have htake : (st.que.set 0 s).take 1 = [s] := by
    have := take_set_succ st.que 0 s (by rw [hI.len_que]; omega)
    simpa using this
  have hq0 : Queue n t
      { st with
        label := (List.replicate st.label.length n).set s 0,
        que := st.que.set 0 s } 1 := by
    refine ⟨by simp [hI.len_que], hn1, ?_, ?_, ?_⟩
    · show ((st.que.set 0 s).take 1).Nodup
      rw [htake]; simp
    · intro x
      show x ∈ (st.que.set 0 s).take 1 ↔ _
      rw [htake, hseen]; simp
    · show ¬ ((List.replicate st.label.length n).set s 0).getD t 0 < n
      rw [hlab, if_neg (fun c => hst c.symm), if_pos ht]
      omega
  obtain ⟨found, st', b1, b2, b3, b3', b4, b5⟩ := dinic_bfsWhile_spec (s := s) (t := t) hpa hla
    fuel _ 0 1 hc0 hq0 (fun j hj => by omega) (by omega) (by omega)
  have hl := dinic_bfsWhile_len n t fuel _ 0 1 (found, st') b1
  refine ⟨found, st', b1, b2, b3, b3', ?_, b4, ?_⟩
  · rw [hl.1]
    simp [hI.len_que]
  · intro hf
    obtain ⟨c1, c2⟩ := b5 hf
    refine ⟨Seen n st', b2.cert.src, c1, ?_⟩
    intro x hx i hi hcap
    exact c2 x hx (arc st.adj x i) ((mem_arcs_iff _ _ _).mpr ⟨i, hi, rfl⟩) hcap

end Dinic

namespace Residual

theorem set_getElem_self {α : Type} (l : List α) (i : Nat) (h : i < l.length) :
    l.set i l[i] = l := by
  apply List.ext_getElem
  · simp
  · intro j h1 h2
    rw [List.getElem_set]
    split
    · next h => subst h; rfl
    · rfl

theorem addCap_zero (adj : Adj) (u i : Nat) : addCap adj u i 0 = adj := by
  unfold addCap
  have h1 : ({ arc adj u i with cap := (arc adj u i).cap + 0 } : Edge) = arc adj u i := by
    simp
  rw [h1]
  have h2 : (arcs adj u).set i (arc adj u i) = arcs adj u := by
    by_cases hi : i < (arcs adj u).length
    · unfold arc
      rw [List.getD_eq_getElem?_getD, List.getElem?_eq_getElem hi]
      exact set_getElem_self _ _ hi
    · exact List.set_eq_of_length_le (not_lt.mp hi)
  rw [h2]
  by_cases hu : u < adj.length
  · unfold arcs
    rw [List.getD_eq_getElem?_getD, List.getElem?_eq_getElem hu]
    exact set_getElem_self _ _ hu
  · exact List.set_eq_of_length_le (not_lt.mp hu)

theorem pushFlow_zero (adj : Adj) (u i : Nat) : pushFlow adj u i 0 = adj := by
  unfold pushFlow
  rw [neg_zero, addCap_zero, addCap_zero]

end Residual

namespace Dinic

theorem cert_step {A : Adj} {lab it lab' it' : Nat → Nat} {s : Nat} {G : Nat → Prop}
    (hc : Cert A lab it s G)
    (h : ∀ x, G x → x ≠ s → ∀ a, it x ≤ a → a < (arcs A x).length → G (arc A x a).dst →
      lab (arc A x a).dst < lab x → pairCap A x a ≠ 0 →
      it' x ≤ a ∧ lab' (arc A x a).dst < lab' x) : Cert A lab' it' s G := by
  refine ⟨hc.src, ?_⟩
  intro x hx hxs
  obtain ⟨a, q1, q2, q3, q4, q5⟩ := hc.node x hx hxs
  obtain ⟨r1, r2⟩ := h x hx hxs a q1 q2 q3 q4 q5
  exact ⟨a, r1, q2, q3, r2, q5⟩

end Dinic

namespace Dinic

/-- The loop over the arcs of `v`, given that the recursive calls meet their contract. -/
theorem dinic_dfsFor_spec {A0 : Adj} {n s : Nat} (hp : Paired A0) (hlen : A0.length = n)
    (rec : Nat → Int → State → Option (Int × State)) (L : Nat) (v : Nat) (up : Int)
    (hv : v < n) (hvs : v ≠ s)
    (hrec : ∀ u up' st, NetInv A0 st.adj → st.label.length = n → st.iter.length = n →
      u < n → 0 ≤ up' → st.label.getD u 0 < L →
      ∃ r, rec u up' st = some r ∧ DfsPost A0 n s u up' st r) :
    ∀ (k : Nat) (res : Int) (st : State),
      NetInv A0 st.adj → st.label.length = n → st.iter.length = n →
      st.label.getD v 0 = L → 0 ≤ res → res ≤ up →
      (arcs st.adj v).length - st.iter.getD v 0 < k →
      ∃ r, dfsFor n rec v up k res st = some r ∧
        (res ≤ r.1 ∧ r.1 ≤ up) ∧
        (r.2.label.length = n ∧ r.2.iter.length = n ∧ r.2.que = st.que) ∧
        NetInv A0 r.2.adj ∧
        (∀ x, excessOf A0 r.2.adj x =
          excessOf A0 st.adj x + (if x = v then r.1 - res else 0)
            - (if x = s then r.1 - res else 0)) ∧
        (∀ x, L < st.label.getD x 0 →
          (∀ i, arc r.2.adj x i = arc st.adj x i) ∧
          r.2.label.getD x 0 = st.label.getD x 0 ∧ r.2.iter.getD x 0 = st.iter.getD x 0) ∧
        (∃ new, r.2.hist = new ++ st.hist ∧ ∀ a ∈ new, NetInv A0 a) ∧
        (∀ G : Nat → Prop, res = 0 → 1 ≤ up →
          Cert st.adj (fun x => st.label.getD x 0) (fun x => st.iter.getD x 0) s G →
          (G v → 1 ≤ r.1) ∧
          (r.1 = 0 →
            Cert r.2.adj (fun x => r.2.label.getD x 0) (fun x => r.2.iter.getD x 0) s G)) := by
  intro k
  induction k with
  | zero =>
    intro res st hI _ _ _ _ _ hk
    omega
  | succ k ih =>
    intro res st hI hll hil hL hres0 hresup hk
    have hiterset : ∀ (it : List Nat) (c : Nat), it.length = n → ∀ x,
        (it.set v c).getD x 0 = if x = v then c else it.getD x 0 := by
      intro it c hitl x
      rw [getD_set_eq]
      by_cases hx : x = v
      · rw [if_pos ⟨hx, by rw [hitl]; exact hv⟩, if_pos hx]
      · rw [if_neg (fun c => hx c.1), if_neg hx]
    by_cases hlt : st.iter.getD v 0 < (arcs st.adj v).length
    · have hpa := hI.paired hp
      obtain ⟨p1, p2, p3, p4, p5⟩ := hpa v (st.iter.getD v 0) hlt
      rw [hI.length_eq, hlen] at p1
      by_cases hskip : (arc st.adj (arc st.adj v (st.iter.getD v 0)).dst
          (arc st.adj v (st.iter.getD v 0)).rev).cap = 0 ∨
          st.label.getD v 0 ≤ st.label.getD (arc st.adj v (st.iter.getD v 0)).dst 0
      · -- the arc is skipped
        have hstep : dfsFor n rec v up (k + 1) res st = dfsFor n rec v up k res
            { st with iter := st.iter.set v (st.iter.getD v 0 + 1) } := by
          rw [dfsFor, if_pos hlt]
          dsimp only
          rw [if_pos hskip]
        obtain ⟨r, q1, q2, q3, q4, q5, q6, q7, q8⟩ := ih res
          { st with iter := st.iter.set v (st.iter.getD v 0 + 1) } hI hll
          (by simp [hil]) hL hres0 hresup (by
            show (arcs st.adj v).length - (st.iter.set v (st.iter.getD v 0 + 1)).getD v 0 < k
            rw [hiterset _ _ hil, if_pos rfl]
            omega)
        refine ⟨r, hstep.trans q1, q2, q3, q4, q5, ?_, q7, ?_⟩
        · intro x hx
          obtain ⟨a1, a2, a3⟩ := q6 x hx
          refine ⟨a1, a2, ?_⟩
          rw [a3]
          show (st.iter.set v (st.iter.getD v 0 + 1)).getD x 0 = _
          rw [hiterset _ _ hil, if_neg (by intro c; rw [c, hL] at hx; omega)]
        · intro G hr0 hup hG
          apply q8 G hr0 hup
          apply cert_step hG
          intro x hx hxs a b1 b2 b3 b4 b5
          refine ⟨?_, b4⟩
          show (st.iter.set v (st.iter.getD v 0 + 1)).getD x 0 ≤ a
          rw [hiterset _ _ hil]
          by_cases hxv : x = v
          · rw [if_pos hxv]
            rw [hxv] at b1 b4 b5
            have hne : a ≠ st.iter.getD v 0 := by
              intro c
              rw [c] at b4 b5
              rcases hskip with h | h
              · exact b5 h
              · omega
            omega
          · rw [if_neg hxv]
            exact b1
      · -- the recursive call
        have hpc : (arc st.adj (arc st.adj v (st.iter.getD v 0)).dst
            (arc st.adj v (st.iter.getD v 0)).rev).cap ≠ 0 := fun h => hskip (Or.inl h)
        have hlu : st.label.getD (arc st.adj v (st.iter.getD v 0)).dst 0 < L := by
          have : ¬ st.label.getD v 0 ≤ st.label.getD (arc st.adj v (st.iter.getD v 0)).dst 0 :=
            fun h => hskip (Or.inr h)
          omega
        have hpc0 := hI.pairCap_nonneg hp v (st.iter.getD v 0) hlt
        unfold pairCap at hpc0
        have hup' : 0 ≤ min (arc st.adj (arc st.adj v (st.iter.getD v 0)).dst
            (arc st.adj v (st.iter.getD v 0)).rev).cap (up - res) := le_min hpc0 (by omega)
        obtain ⟨r1, hr1, hpost⟩ := hrec (arc st.adj v (st.iter.getD v 0)).dst _ st hI hll hil
          p1 hup' hlu
        obtain ⟨d, st1⟩ := r1
        obtain ⟨hd0, hdup⟩ := hpost.range
        obtain ⟨hl1, hl2, hl3⟩ := hpost.len
        simp only at hd0 hdup hl1 hl2 hl3
        have hdpc := le_trans hdup (min_le_left _ _)
        have hdur := le_trans hdup (min_le_right _ _)
        obtain ⟨f1, f2, f3⟩ := hpost.frame v (by rw [hL]; exact hlu)
        simp only at f1 f2 f3
        have hI1 : NetInv A0 st1.adj := hpost.net
        have hi1 : st.iter.getD v 0 < (arcs st1.adj v).length := by
          rw [hI1.length_arcs, ← hI.length_arcs]; exact hlt
        have hpc1 : pairCap st1.adj v (st.iter.getD v 0) =
            (arc st.adj (arc st.adj v (st.iter.getD v 0)).dst
              (arc st.adj v (st.iter.getD v 0)).rev).cap := by
          have e1 := hI1.pairSum v _ hi1
          have e2 := hI.pairSum v _ hlt
          rw [f1] at e1
          unfold pairCap at e2
          omega
        have hnew : NetInv A0 (pushFlow st1.adj v (st.iter.getD v 0) (-d)) := by
          apply hI1.push hp v _ (-d) hi1
          · have := hI1.nonneg v _ hi1
            omega
          · rw [hpc1]; omega
        have hadj2 : addCap (addCap st1.adj v (st.iter.getD v 0) d)
            (arc (addCap st1.adj v (st.iter.getD v 0) d) v (st.iter.getD v 0)).dst
            (arc (addCap st1.adj v (st.iter.getD v 0) d) v (st.iter.getD v 0)).rev (-d) =
            pushFlow st1.adj v (st.iter.getD v 0) (-d) := walk_step_eq _ _ _ _
        have hexc : ∀ x, excessOf A0 (pushFlow st1.adj v (st.iter.getD v 0) (-d)) x =
            excessOf A0 st.adj x + (if x = v then d else 0) - (if x = s then d else 0) := by
          intro x
          rw [excessOf_pushFlow A0 (hI1.paired hp) v _ (-d) hi1 x, hpost.excess x, f1]
          simp only
          split_ifs <;> ring
        have hframe : ∀ x, L < st.label.getD x 0 →
            (∀ j, arc (pushFlow st1.adj v (st.iter.getD v 0) (-d)) x j = arc st.adj x j) ∧
            st1.label.getD x 0 = st.label.getD x 0 ∧ st1.iter.getD x 0 = st.iter.getD x 0 := by
          intro x hx
          obtain ⟨a1, a2, a3⟩ := hpost.frame x (lt_trans hlu hx)
          refine ⟨?_, a2, a3⟩
          intro j
          rw [arc_pushFlow_other _ _ _ _ _ _ (by intro c; rw [c, hL] at hx; omega) (by
            rw [f1]
            intro c
            rw [c] at hx
            omega)]
          exact a1 j
        obtain ⟨new1, hh1, hh2⟩ := hpost.hist
        simp only at hh1
        by_cases hfull : res + d = up
        · have hstep : dfsFor n rec v up (k + 1) res st = some (res + d,
              State.mk (pushFlow st1.adj v (st.iter.getD v 0) (-d)) st1.label st1.que st1.iter
                (pushFlow st1.adj v (st.iter.getD v 0) (-d) :: st1.hist)) := by
            rw [dfsFor, if_pos hlt]
            dsimp only
            rw [if_neg hskip, hr1]
            dsimp only
            rw [if_pos hfull, hadj2]
          refine ⟨_, hstep, ⟨by omega, by omega⟩, ⟨hl1, hl2, hl3⟩, hnew, ?_, hframe,
            ⟨pushFlow st1.adj v (st.iter.getD v 0) (-d) :: new1, ?_, ?_⟩, ?_⟩
          · intro x
            rw [hexc x]
            simp only [add_sub_cancel_left]
          · show pushFlow st1.adj v (st.iter.getD v 0) (-d) :: st1.hist = _
            rw [hh1]; rfl
          · intro a ha
            rcases List.mem_cons.mp ha with h | h
            · rw [h]; exact hnew
            · exact hh2 a h
          · intro G hr0 hup hG
            simp only
            constructor
            · intro _; omega
            · intro h; omega
        · have hstep : dfsFor n rec v up (k + 1) res st = dfsFor n rec v up k (res + d)
              (State.mk (pushFlow st1.adj v (st.iter.getD v 0) (-d)) st1.label st1.que
                (st1.iter.set v (st.iter.getD v 0 + 1))
                (pushFlow st1.adj v (st.iter.getD v 0) (-d) :: st1.hist)) := by
            rw [dfsFor, if_pos hlt]
            dsimp only
            rw [if_neg hskip, hr1]
            dsimp only
            rw [if_neg hfull, hadj2, f3]
          obtain ⟨r, q1, q2, q3, q4, q5, q6, q7, q8⟩ := ih (res + d)
            (State.mk (pushFlow st1.adj v (st.iter.getD v 0) (-d)) st1.label st1.que
                (st1.iter.set v (st.iter.getD v 0 + 1))
                (pushFlow st1.adj v (st.iter.getD v 0) (-d) :: st1.hist))
            hnew hl1 (by simp [hl2]) (f2.trans hL) (by omega) (by omega) (by
              show (arcs (pushFlow st1.adj v (st.iter.getD v 0) (-d)) v).length -
                (st1.iter.set v (st.iter.getD v 0 + 1)).getD v 0 < k
              rw [hiterset _ _ hl2, if_pos rfl, hnew.length_arcs, ← hI.length_arcs]
              omega)
          simp only at q3 q5 q6 q7 q8
          refine ⟨r, hstep.trans q1, ⟨by omega, q2.2⟩, ⟨q3.1, q3.2.1, q3.2.2.trans hl3⟩, q4,
            ?_, ?_, ?_, ?_⟩
          · intro x
            rw [q5 x, hexc x]
            split_ifs <;> ring
          · intro x hx
            obtain ⟨a1, a2, a3⟩ := hframe x hx
            obtain ⟨b1, b2, b3⟩ := q6 x (by rw [a2]; exact hx)
            refine ⟨fun j => (b1 j).trans (a1 j), b2.trans a2, ?_⟩
            rw [b3, hiterset _ _ hl2, if_neg (by intro c; rw [c, hL] at hx; omega)]
            exact a3
          · obtain ⟨new2, g1, g2⟩ := q7
            refine ⟨new2 ++ (pushFlow st1.adj v (st.iter.getD v 0) (-d) :: new1), ?_, ?_⟩
            · rw [g1, hh1]; simp
            · intro a ha
              rcases List.mem_append.mp ha with h | h
              · exact g2 a h
              · rcases List.mem_cons.mp h with h' | h'
                · rw [h']; exact hnew
                · exact hh2 a h'
          · intro G hr0 hup hG
            have hpc1' : 1 ≤ (arc st.adj (arc st.adj v (st.iter.getD v 0)).dst
                (arc st.adj v (st.iter.getD v 0)).rev).cap := by omega
            obtain ⟨c1, c2⟩ := hpost.live G (le_min hpc1' (by omega)) hG
            simp only at c1 c2
            by_cases hdz : d = 0
            · have hGu : ¬ G (arc st.adj v (st.iter.getD v 0)).dst := by
                intro c
                have := c1 c
                omega
              have hc1 := c2 hdz
              apply q8 G (by omega) hup
              rw [hdz, neg_zero, pushFlow_zero]
              apply cert_step hc1
              intro x hx hxs a b1 b2 b3 b4 b5
              refine ⟨?_, b4⟩
              show (st1.iter.set v (st.iter.getD v 0 + 1)).getD x 0 ≤ a
              rw [hiterset _ _ hl2]
              by_cases hxv : x = v
              · rw [if_pos hxv]
                rw [hxv] at b1 b3
                have hne : a ≠ st.iter.getD v 0 := by
                  intro c
                  rw [c, f1] at b3
                  exact hGu b3
                rw [f3] at b1
                omega
              · rw [if_neg hxv]
                exact b1
            · constructor
              · intro _; omega
              · intro h; omega
    · -- the loop is over
      have hstep : dfsFor n rec v up (k + 1) res st =
          some (res, { st with label := st.label.set v n }) := by
        rw [dfsFor, if_neg hlt]
      have hlabset : ∀ x, (st.label.set v n).getD x 0 =
          if x = v then n else st.label.getD x 0 := by
        intro x
        rw [getD_set_eq]
        by_cases hx : x = v
        · rw [if_pos ⟨hx, by rw [hll]; exact hv⟩, if_pos hx]
        · rw [if_neg (fun c => hx c.1), if_neg hx]
      refine ⟨_, hstep, ⟨le_refl _, hresup⟩, ⟨by simp [hll], hil, rfl⟩, hI, ?_, ?_,
        ⟨[], rfl, by simp⟩, ?_⟩
      · intro x
        simp
      · intro x hx
        refine ⟨fun _ => rfl, ?_, rfl⟩
        show (st.label.set v n).getD x 0 = _
        rw [hlabset, if_neg (by intro c; rw [c, hL] at hx; omega)]
      · intro G hr0 hup hG
        have hGv : ¬ G v := by
          intro c
          obtain ⟨a, b1, b2, _⟩ := hG.node v c hvs
          beta_reduce at b1
          omega
        refine ⟨fun c => absurd c hGv, fun _ => ?_⟩
        apply cert_step hG
        intro x hx hxs a b1 b2 b3 b4 b5
        refine ⟨b1, ?_⟩
        show (st.label.set v n).getD _ 0 < (st.label.set v n).getD x 0
        rw [hlabset, hlabset, if_neg (by intro c; rw [c] at b3; exact hGv b3),
          if_neg (by intro c; rw [c] at hx; exact hGv hx)]
        exact b4

/-- The contract of `dfs`: with enough fuel it returns, and its result satisfies
`DfsPost`. -/
theorem dinic_dfs_spec {A0 : Adj} {n s F : Nat} (hp : Paired A0) (hlen : A0.length = n)
    (hF : ∀ x, (arcs A0 x).length < F) :
    ∀ (fuel : Nat) (v : Nat) (up : Int) (st : State), NetInv A0 st.adj →
      st.label.length = n → st.iter.length = n → v < n → 0 ≤ up →
      st.label.getD v 0 < fuel →
      ∃ r, dfs n s F fuel v up st = some r ∧ DfsPost A0 n s v up st r := by
  intro fuel
  induction fuel with
  | zero => intro v up st _ _ _ _ _ h; omega
  | succ k ih =>
    intro v up st hI hll hil hv hup hfuel
    by_cases hvs : v = s
    · refine ⟨(up, st), ?_, ⟨hup, le_refl _⟩, ⟨hll, hil, rfl⟩, hI, ?_, fun _ _ => ⟨fun _ => rfl, rfl, rfl⟩,
        ⟨[], rfl, by simp⟩, ?_⟩
      · rw [dfs, if_pos hvs]
      · intro x
        rw [hvs]
        ring
      · intro G h1 hG
        simp only
        exact ⟨fun _ => h1, fun _ => hG⟩
    · obtain ⟨r, q1, q2, q3, q4, q5, q6, q7, q8⟩ := dinic_dfsFor_spec hp hlen (dfs n s F k)
        (st.label.getD v 0) v up hv hvs
        (fun u up' st' h1 h2 h3 h4 h5 h6 => ih u up' st' h1 h2 h3 h4 h5 (by omega))
        F 0 st hI hll hil rfl (le_refl _) hup (by
          have := hF v
          rw [← hI.length_arcs] at this
          omega)
      refine ⟨r, ?_, ⟨by omega, q2.2⟩, q3, q4, ?_, q6, q7, fun G h1 hG => q8 G rfl h1 hG⟩
      · rw [dfs, if_neg hvs]
        exact q1
      · intro x
        rw [q5 x]
        simp

end Dinic

namespace Residual

theorem length_arcs_le_totalArcs (A : Adj) (n : Nat) (hlen : A.length = n) (x : Nat) :
    (arcs A x).length ≤ totalArcs n A := by
  by_cases hx : x < n
  · unfold totalArcs
    exact Finset.single_le_sum (f := fun y => (arcs A y).length) (fun _ _ => Nat.zero_le _)
      (Finset.mem_range.mpr hx)
  · rw [arcs_of_le (by omega)]
    exact Nat.zero_le _

end Residual

namespace Dinic

/-- The `while (bfs())` loop terminates with a conserved flow and no augmenting path. -/
theorem dinic_flowLoop_spec {A0 : Adj} {n s t : Nat} (hp : Paired A0) (hlen : A0.length = n)
    (hs : s < n) (ht : t < n) (hst : s ≠ t) (F : Nat) (hF : n + totalArcs n A0 < F) :
    ∀ (k : Nat) (st : State) (ans : Int), FlowInv A0 n st → Conserved A0 st.adj s t →
      excessOf A0 st.adj t = ans → excessOf A0 st.adj s = -ans →
      capSum (arcs st.adj s) < k →
      ∃ r st', flowLoop n s t F k st ans = some (r, st') ∧ FlowInv A0 n st' ∧
        Conserved A0 st'.adj s t ∧ excessOf A0 st'.adj t = r ∧ excessOf A0 st'.adj s = -r ∧
        Separated st'.adj s t ∧ ((r = ans ∧ st'.adj = st.adj) ∨ ans + 1 ≤ r) ∧
        ∃ new, st'.hist = new ++ st.hist := by
  intro k
  induction k with
  | zero =>
    intro st ans hI _ _ _ hk
    have := hI.net.capSum_arcs_nonneg s
    omega
  | succ k ih =>
    intro st ans hI hcons het hes hk
    obtain ⟨found, st1, b1, b2, b3, b3', b4, b5, b6⟩ :=
      dinic_bfs_spec hp hlen hs ht hst st hI F (by omega)
    cases found with
    | false =>
      refine ⟨ans, st1, ?_, ?_, ?_, ?_, ?_, ?_, Or.inl ⟨rfl, b2.adj_eq⟩, [], ?_⟩
      · rw [flowLoop, b1]
      · exact ⟨b2.adj_eq ▸ hI.net, b2.len_label, b4, b3' ▸ hI.len_iter, b3 ▸ hI.histInv⟩
      · rw [b2.adj_eq]; exact hcons
      · rw [b2.adj_eq]; exact het
      · rw [b2.adj_eq]; exact hes
      · rw [b2.adj_eq]; exact b6 rfl
      · simp [b3]
    | true =>
      have hseen := b5 rfl
      have hI1 : NetInv A0 st1.adj := b2.adj_eq ▸ hI.net
      have hil : st1.iter.length = n := b3' ▸ hI.len_iter
      obtain ⟨r2, d1, hpost⟩ := dinic_dfs_spec (s := s) (F := F) hp hlen
        (fun x => lt_of_le_of_lt (length_arcs_le_totalArcs A0 n hlen x) (by omega)) F t
        LLONG_MAX { st1 with iter := List.replicate st1.iter.length 0 } hI1 b2.len_label
        (by simp [hil]) ht (by decide) (by
          have := hseen.2
          show st1.label.getD t 0 < F
          omega)
      obtain ⟨d, st2⟩ := r2
      obtain ⟨hl1, hl2, hl3⟩ := hpost.len
      obtain ⟨new, hh1, hh2⟩ := hpost.hist
      simp only at hl1 hl2 hl3 hh1
      have hcert : Cert st1.adj (fun x => st1.label.getD x 0)
          (fun x => (List.replicate st1.iter.length 0).getD x 0) s (Seen n st1) := by
        rw [b2.adj_eq]
        apply cert_step b2.cert
        intro x _ _ a _ _ _ h4 _
        refine ⟨?_, h4⟩
        rw [getD_replicate_eq]
        split <;> omega
      have hd : 1 ≤ d := (hpost.live (Seen n st1) (by decide) hcert).1 hseen
      have hI2 : FlowInv A0 n st2 := by
        refine ⟨hpost.net, hl1, by rw [hl3]; exact b4, hl2, ?_⟩
        intro a ha
        rw [hh1] at ha
        rcases List.mem_append.mp ha with h | h
        · exact hh2 a h
        · exact hI.histInv a (b3 ▸ h)
      have hex : ∀ x, excessOf A0 st2.adj x = excessOf A0 st.adj x +
          (if x = t then d else 0) - (if x = s then d else 0) := by
        intro x
        have := hpost.excess x
        rw [← b2.adj_eq]
        exact this
      obtain ⟨r, st', c1, c2, c3, c4, c5, c6, c8, new', c7⟩ := ih st2 (ans + d) hI2
        (by
          intro v hvs hvt
          rw [hex v, if_neg hvt, if_neg hvs, hcons v hvs hvt]
          ring)
        (by
          rw [hex t, if_pos rfl, if_neg (fun c => hst c.symm), het]
          ring)
        (by
          rw [hex s, if_pos rfl, if_neg hst, hes]
          ring)
        (by
          have e1 : excessOf A0 st2.adj s = excessOf A0 st.adj s - d := by
            rw [hex s, if_pos rfl, if_neg hst]
            ring
          unfold excessOf at e1
          omega)
      refine ⟨r, st', ?_, c2, c3, c4, c5, c6,
        Or.inr (by rcases c8 with ⟨h, _⟩ | h <;> omega), new' ++ new, ?_⟩
      · rw [flowLoop, b1]
        simp only
        rw [d1]
        exact c1
      · rw [c7, hh1]
        show new' ++ (new ++ st1.hist) = _
        rw [b3, List.append_assoc]

theorem dinic_flowInv_init (n : Nat) (edges : List InEdge) (hr : InRange n edges) :
    FlowInv (build n edges) n (init n edges) := by
  have hnet : NetInv (build n edges) (build n edges) := by
    rw [build_eq_buildWith]
    exact netInv_buildWith kept kept_ne kept_cap n edges hr
  refine ⟨hnet, by simp [init], by simp [init], by simp [init], ?_⟩
  intro a ha
  simp only [init, List.mem_singleton] at ha
  rw [ha]
  exact hnet

/-- The run of dinic.cpp: it terminates, and its final residual network is conserved, has
the returned value as net flow into `t` and out of `s`, and has no augmenting path. -/
theorem dinic_flow_spec (n s t : Nat) (edges : List InEdge) (hr : InRange n edges) (hs : s < n)
    (ht : t < n) (hst : s ≠ t) (fuel : Nat)
    (hfuel : n + totalArcs n (build n edges) + (capSum (arcs (build n edges) s)).toNat
      < fuel) :
    ∃ F st', flow n s t fuel (init n edges) = some (F, st') ∧ FlowInv (build n edges) n st' ∧
      Conserved (build n edges) st'.adj s t ∧ excessOf (build n edges) st'.adj t = F ∧
      excessOf (build n edges) st'.adj s = -F ∧ Separated st'.adj s t := by
  have hinv := buildWith_inv kept kept_ne n edges hr 0
  rw [← build_eq_buildWith] at hinv
  have hI := dinic_flowInv_init n edges hr
  obtain ⟨F, st', h1, h2, h3, h4, h5, h6, _⟩ := dinic_flowLoop_spec hinv.2.1 hinv.1 hs ht hst
    fuel (by omega) fuel (init n edges) 0 hI (fun v _ _ => excessOf_self _ v)
    (excessOf_self _ t) (by
      show excessOf (build n edges) (build n edges) s = -0
      rw [excessOf_self]; rfl) (by
      show capSum (arcs (build n edges) s) < (fuel : Int)
      omega)
  exact ⟨F, st', h1, h2, h3, h4, h5, h6⟩

end Dinic

namespace Residual

/-- A conserved residual network without augmenting path satisfies max-flow min-cut
duality with respect to the kept edges. -/
theorem cutDuality_of_separated {n s t : Nat} {edges : List InEdge} (hr : InRange n edges)
    (hs : s < n) {A : Adj} (hI : NetInv (build n edges) A)
    (hcons : Conserved (build n edges) A s t) {F : Int}
    (hes : excessOf (build n edges) A s = -F) (hsep : Separated A s t) :
    CutDuality (network edges) A s t F := by
  obtain ⟨V, hVs, hVt, hVcl⟩ := hsep
  have hnt : ¬ Reach A s t := fun h => hVt (Reach.mem_closed V hVs hVcl h)
  refine ⟨hnt, ?_⟩
  intro S hS
  rw [build_eq_buildWith] at hI hcons hes
  apply value_eq_cutCap kept kept_ne hr hs hI hcons hes S ((hS s).mpr Reach.refl)
  · cases h : S t
    · rfl
    · exact absurd ((hS t).mp h) hnt
  · intro x hx i hi hcap
    rw [hS] at hx ⊢
    apply Reach.step x i hx hi
    have := hI.nonneg x i hi
    omega

end Residual

/-- C3 (amended): for each augmenting-path solver and every network with `n >= 2` and edge
endpoints in `[0,n)`, `flow()` returns some `F`, and in the final residual network the sink
is not reachable from the source through arcs of positive residual capacity while `F` is the
sum of the capacities of the kept edges (from != to, cap >= 1) that go from a reachable node
to an unreachable one. -/
theorem augmenting_flow_eq_residual_cut (n : Nat) (edges : List InEdge) (hn : 2 ≤ n)
    (hr : InRange n edges) (fuel : Nat) (hfuel : augFuel n edges < fuel) :
    (∃ F st, FordFulkersonDFS.flow 0 (n - 1) fuel (FordFulkersonDFS.init n edges) = some (F, st) ∧
      CutDuality (network edges) st.adj 0 (n - 1) F) ∧
    (∃ F st, EdmondsKarp.flow 0 (n - 1) fuel (EdmondsKarp.init n edges) = some (F, st) ∧
      CutDuality (network edges) st.adj 0 (n - 1) F) ∧
    (∃ F st, Dinic.flow n 0 (n - 1) fuel (Dinic.init n edges) = some (F, st) ∧
      CutDuality (network edges) st.adj 0 (n - 1) F) ∧
    (∃ F st, MostImprovingAugmentingPaths.flow 0 (n - 1) fuel
        (MostImprovingAugmentingPaths.init n edges) = some (F, st) ∧
      CutDuality (network edges) st.adj 0 (n - 1) F) := by
  unfold augFuel at hfuel
  refine ⟨?_, ?_, ?_, ?_⟩
  · obtain ⟨F, st, h1, h2, h3, _, h5, h6⟩ := FordFulkersonDFS.dfs_flow_spec n 0 (n - 1) edges hr
      (by omega) (by omega) fuel (by omega)
    exact ⟨F, st, h1, cutDuality_of_separated hr (by omega) h2.net h3 h5 h6⟩
  · obtain ⟨F, st, h1, h2, h3, _, h5, h6⟩ := EdmondsKarp.ek_flow_spec n 0 (n - 1) edges hr
      (by omega) (by omega) (by omega) fuel (by omega)
    exact ⟨F, st, h1, cutDuality_of_separated hr (by omega) h2.net h3 h5 h6⟩
  · obtain ⟨F, st, h1, h2, h3, _, h5, h6⟩ := Dinic.dinic_flow_spec n 0 (n - 1) edges hr
      (by omega) (by omega) (by omega) fuel (by omega)
    exact ⟨F, st, h1, cutDuality_of_separated hr (by omega) h2.net h3 h5 h6⟩
  · obtain ⟨F, st, h1, h2, h3, _, h5, h6⟩ := MostImprovingAugmentingPaths.mi_flow_spec n 0
      (n - 1) edges hr (by omega) (by omega) fuel (by omega)
    exact ⟨F, st, h1, cutDuality_of_separated hr (by omega) h2.net h3 h5 h6⟩

/-- The diamond network: each augmenting-path solver returns a value that is the capacity of
the cut around the residually reachable set. -/
theorem augmenting_flow_eq_residual_cut_witness :
    (∃ F st, FordFulkersonDFS.flow 0 (4 - 1) 19
        (FordFulkersonDFS.init 4 [(0, 1, 3), (0, 2, 2), (1, 3, 2), (2, 3, 3)]) = some (F, st) ∧
      CutDuality (network [(0, 1, 3), (0, 2, 2), (1, 3, 2), (2, 3, 3)]) st.adj 0 (4 - 1) F) ∧
    (∃ F st, EdmondsKarp.flow 0 (4 - 1) 19
        (EdmondsKarp.init 4 [(0, 1, 3), (0, 2, 2), (1, 3, 2), (2, 3, 3)]) = some (F, st) ∧
      CutDuality (network [(0, 1, 3), (0, 2, 2), (1, 3, 2), (2, 3, 3)]) st.adj 0 (4 - 1) F) ∧
    (∃ F st, Dinic.flow 4 0 (4 - 1) 19
        (Dinic.init 4 [(0, 1, 3), (0, 2, 2), (1, 3, 2), (2, 3, 3)]) = some (F, st) ∧
      CutDuality (network [(0, 1, 3), (0, 2, 2), (1, 3, 2), (2, 3, 3)]) st.adj 0 (4 - 1) F) ∧
    (∃ F st, MostImprovingAugmentingPaths.flow 0 (4 - 1) 19
        (MostImprovingAugmentingPaths.init 4 [(0, 1, 3), (0, 2, 2), (1, 3, 2), (2, 3, 3)]) =
          some (F, st) ∧
      CutDuality (network [(0, 1, 3), (0, 2, 2), (1, 3, 2), (2, 3, 3)]) st.adj 0 (4 - 1) F) :=
  augmenting_flow_eq_residual_cut 4 [(0, 1, 3), (0, 2, 2), (1, 3, 2), (2, 3, 3)] (by decide)
    (by intro e he; simp at he; rcases he with h | h | h | h <;> subst h <;> decide)
    19 (by decide)

namespace Residual

/-- With the dropped line `0 1 -3` counted, the cut around the source of the saturated
two-node network has capacity 2, not 5. -/
theorem not_cutDuality_with_dropped_edge :
    ¬ CutDuality [(0, 1, 5), (0, 1, -3)] [[⟨1, 0, 0⟩], [⟨0, 0, 5⟩]] 0 (2 - 1) 5 := by
  rintro ⟨_, h⟩
  have hS : ∀ x, (fun x => decide (x = 0)) x = true ↔
      Reach [[⟨1, 0, 0⟩], [⟨0, 0, 5⟩]] 0 x := by
    intro x
    constructor
    · intro hx
      have hx0 : x = 0 := by simpa using hx
      rw [hx0]
      exact Reach.refl
    · intro hx
      have : x = 0 := by
        apply Reach.mem_closed (fun y => y = 0) rfl _ hx
        intro y hy i hi hcap
        subst hy
        have hi0 : i = 0 := by
          simp [arcs] at hi
          exact hi
        subst hi0
        exact absurd rfl hcap
      simpa using this
  have := h (fun x => decide (x = 0)) hS
  revert this
  decide

end Residual

/-- C3 as stated fails: on the input `n = 2` with the lines `0 1 5` and `0 1 -3`, each
augmenting-path solver returns 5 and leaves only the source reachable, but the capacities of
all input edges from the source side to the other side add up to `5 + (-3) = 2`. -/
theorem all_input_edges_cut_counterexample :
    (∃ st, FordFulkersonDFS.flow 0 (2 - 1) 11
        (FordFulkersonDFS.init 2 [(0, 1, 5), (0, 1, -3)]) = some (5, st) ∧
      ¬ CutDuality [(0, 1, 5), (0, 1, -3)] st.adj 0 (2 - 1) 5) ∧
    (∃ st, EdmondsKarp.flow 0 (2 - 1) 11
        (EdmondsKarp.init 2 [(0, 1, 5), (0, 1, -3)]) = some (5, st) ∧
      ¬ CutDuality [(0, 1, 5), (0, 1, -3)] st.adj 0 (2 - 1) 5) ∧
    (∃ st, Dinic.flow 2 0 (2 - 1) 11
        (Dinic.init 2 [(0, 1, 5), (0, 1, -3)]) = some (5, st) ∧
      ¬ CutDuality [(0, 1, 5), (0, 1, -3)] st.adj 0 (2 - 1) 5) ∧
    (∃ st, MostImprovingAugmentingPaths.flow 0 (2 - 1) 11
        (MostImprovingAugmentingPaths.init 2 [(0, 1, 5), (0, 1, -3)]) = some (5, st) ∧
      ¬ CutDuality [(0, 1, 5), (0, 1, -3)] st.adj 0 (2 - 1) 5) :=
  ⟨⟨_, rfl, not_cutDuality_with_dropped_edge⟩, ⟨_, rfl, not_cutDuality_with_dropped_edge⟩,
    ⟨_, rfl, not_cutDuality_with_dropped_edge⟩, ⟨_, rfl, not_cutDuality_with_dropped_edge⟩⟩

namespace Residual

/-- The net flow out of any set of nodes is at most the capacity of its cut. -/
theorem cut_excess_le {A0 A : Adj} {n : Nat} (hI : NetInv A0 A) (hp : Paired A0)
    (hlen : A0.length = n) (S : Nat → Bool) :
    (∑ v in Finset.range n, if S v = true then -excessOf A0 A v else 0) ≤
      cutCapAdj n A0 S := by
  have h0 := internal_sum_zero hI hp hlen S
  unfold cutCapAdj
  have key : ∀ v, (if S v = true then -excessOf A0 A v else 0) ≤
      (∑ i in Finset.range (arcs A0 v).length,
        if S v = true ∧ S (arc A0 v i).dst = true then (arc A0 v i).cap - (arc A v i).cap
        else 0) +
      (if S v = true then
        ((arcs A0 v).map (fun e => if S e.dst = true then 0 else e.cap)).sum else 0) := by
    intro v
    by_cases hv : S v = true
    · rw [if_pos hv, if_pos hv, neg_excessOf_eq hI, sum_map_eq_sum_range,
        ← Finset.sum_add_distrib]
      apply Finset.sum_le_sum
      intro i hi
      rw [Finset.mem_range] at hi
      by_cases hd : S (arc A0 v i).dst = true
      · rw [if_pos ⟨hv, hd⟩]
        show _ ≤ _ + (if S (arc A0 v i).dst = true then 0 else (arc A0 v i).cap)
        rw [if_pos hd]
        omega
      · rw [if_neg (fun h => hd h.2)]
        show _ ≤ _ + (if S (arc A0 v i).dst = true then 0 else (arc A0 v i).cap)
        rw [if_neg hd]
        have := hI.nonneg v i (by rw [hI.length_arcs]; exact hi)
        omega
    · rw [if_neg hv, if_neg hv]
      simp [hv]
  calc (∑ v in Finset.range n, if S v = true then -excessOf A0 A v else 0)
      ≤ ∑ v in Finset.range n, ((∑ i in Finset.range (arcs A0 v).length,
        if S v = true ∧ S (arc A0 v i).dst = true then (arc A0 v i).cap - (arc A v i).cap
        else 0) +
      (if S v = true then
        ((arcs A0 v).map (fun e => if S e.dst = true then 0 else e.cap)).sum else 0)) :=
        Finset.sum_le_sum (fun v _ => key v)
    _ = _ := by rw [Finset.sum_add_distrib, h0, zero_add]

/-- The excesses of all nodes add up to zero. -/
theorem sum_excessOf_zero {A0 A : Adj} {n : Nat} (hI : NetInv A0 A) (hp : Paired A0)
    (hlen : A0.length = n) : (∑ v in Finset.range n, excessOf A0 A v) = 0 := by
  have h := cut_excess hI hp hlen (fun _ => true) (fun _ _ _ _ _ => rfl)
  have h2 : cutCapAdj n A0 (fun _ => true) = 0 := by
    unfold cutCapAdj
    apply Finset.sum_eq_zero
    intro v _
    simp
  rw [h2] at h
  simp only [if_true, Finset.sum_neg_distrib, neg_eq_zero] at h
  exact h

/-- Among `n` nodes, one at height at most `lo` and one at height at least `lo + n`, some
height strictly between `lo` and `lo + n` is not taken. -/
theorem exists_gap (n lo : Nat) (H : Nat → Nat) (a b : Nat) (ha : a < n) (hb : b < n)
    (hHa : H a ≤ lo) (hHb : lo + n ≤ H b) :
    ∃ k, lo < k ∧ k < lo + n ∧ ∀ x, x < n → H x ≠ k := by
  by_contra hcon
  push_neg at hcon
  have hab : a ≠ b := by
    intro c
    rw [c] at hHa
    omega
  have hsub : Finset.Ioo lo (lo + n) ⊆ (((Finset.range n).erase a).erase b).image H := by
    intro k hk
    rw [Finset.mem_Ioo] at hk
    obtain ⟨x, hx, hxk⟩ := hcon k hk.1 hk.2
    rw [Finset.mem_image]
    refine ⟨x, ?_, hxk⟩
    rw [Finset.mem_erase, Finset.mem_erase, Finset.mem_range]
    refine ⟨?_, ?_, hx⟩
    · intro c; rw [c] at hxk; omega
    · intro c; rw [c] at hxk; omega
  have h1 := Finset.card_le_card hsub
  have h2 := Finset.card_image_le (s := ((Finset.range n).erase a).erase b) (f := H)
  have h3 : (((Finset.range n).erase a).erase b).card = n - 2 := by
    rw [Finset.card_erase_of_mem, Finset.card_erase_of_mem, Finset.card_range]
    · rfl
    · exact Finset.mem_range.mpr ha
    · rw [Finset.mem_erase]
      exact ⟨fun c => hab c.symm, Finset.mem_range.mpr hb⟩
  rw [Nat.card_Ioo] at h1
  omega

end Residual

namespace Residual

theorem cutCapAdj_nonneg {A0 : Adj} (n : Nat) (h0 : NetInv A0 A0) (S : Nat → Bool) :
    0 ≤ cutCapAdj n A0 S := by
  unfold cutCapAdj
  apply Finset.sum_nonneg
  intro v _
  split
  · apply List.sum_nonneg
    intro x hx
    rw [List.mem_map] at hx
    obtain ⟨e, he, hxe⟩ := hx
    rw [← hxe]
    split
    · exact le_refl _
    · obtain ⟨i, hi, hie⟩ := (mem_arcs_iff _ _ _).mp he
      rw [← hie]
      exact h0.nonneg v i hi
  · exact le_refl _

/-- With valid heights and no node at height `k`, the nodes above `k` are closed under
arcs of non-zero residual capacity. -/
theorem closed_above_gap {A0 : Adj} {n s t top : Nat} {adj : Adj} {height : List Nat}
    {excess : List Int} (h : PreInv A0 n s t top adj height excess) (k : Nat)
    (hgap : ∀ x, x < n → height.getD x 0 ≠ k)
    (hsrc : height.getD s 0 ≤ k ∨ SrcValid adj height s) :
    ∀ x, k < height.getD x 0 → ∀ i, i < (arcs adj x).length → (arc adj x i).cap ≠ 0 →
      k < height.getD (arc adj x i).dst 0 := by
  intro x hx i hi hcap
  have hc := h.net.nonneg x i hi
  have hv : height.getD x 0 ≤ height.getD (arc adj x i).dst 0 + 1 := by
    by_cases hxs : x = s
    · rcases hsrc with h1 | h1
      · rw [hxs] at hx
        omega
      · rw [hxs] at hi hcap hc ⊢
        exact h1 i hi (by omega)
    · exact h.valid x i hxs hi (by omega)
  obtain ⟨p1, _⟩ := h.net.paired h.paired0 x i hi
  rw [h.net.length_eq, h.len0] at p1
  have := hgap _ p1
  omega

/-- A node other than the source that holds excess is below height `2n`. -/
theorem PreInv.active_height_lt {A0 : Adj} {n s t top : Nat} {adj : Adj} {height : List Nat}
    {excess : List Int} (h : PreInv A0 n s t top adj height excess) (hs : s < n)
    (v : Nat) (hv : v < n) (hvs : v ≠ s) (hex : 0 < excess.getD v 0) :
    height.getD v 0 < n + n := by
  by_contra hcon
  obtain ⟨k, k1, k2, k3⟩ := exists_gap n n (fun x => height.getD x 0) s v hs hv
    (le_of_eq h.hs) (by simp only; omega)
  have hcl := closed_above_gap h k k3 (Or.inl (by rw [h.hs]; omega))
  have hcut := cut_excess h.net h.paired0 h.len0 (fun x => decide (k < height.getD x 0))
    (by
      intro x hx i hi hcap
      simp only [decide_eq_true_eq] at hx ⊢
      exact hcl x hx i hi hcap)
  have hnn := cutCapAdj_nonneg n h.net0 (fun x => decide (k < height.getD x 0))
  have hlt : (∑ x in Finset.range n,
      if (fun x => decide (k < height.getD x 0)) x = true then -excessOf A0 adj x else 0) <
      ∑ _x in Finset.range n, (0 : Int) := by
    apply Finset.sum_lt_sum
    · intro x _
      simp only [decide_eq_true_eq]
      split
      · next hx =>
        have hxs : x ≠ s := by
          intro c
          rw [c, h.hs] at hx
          omega
        have e1 := h.exc_eq x
        rw [if_neg hxs] at e1
        have e2 := h.exc_nonneg x
        omega
      · exact le_refl _
    · refine ⟨v, Finset.mem_range.mpr hv, ?_⟩
      simp only [decide_eq_true_eq]
      rw [if_pos (by omega)]
      have e1 := h.exc_eq v
      rw [if_neg hvs] at e1
      omega
  rw [hcut, Finset.sum_const_zero] at hlt
  omega

end Residual

namespace Residual

theorem getD_moveExcess (excess : List Int) (v w : Nat) (d : Int) (hvw : v ≠ w)
    (hv : v < excess.length) (hw : w < excess.length) (x : Nat) :
    (moveExcess excess v w d).getD x 0 =
      excess.getD x 0 - (if x = v then d else 0) + (if x = w then d else 0) := by
  unfold moveExcess
  rw [getD_set_eq, getD_set_eq, getD_set_eq]
  simp only [List.length_set, hv, hw, and_true]
  have hwv : ¬ w = v := fun c => hvw c.symm
  by_cases h1 : x = w
  · subst h1
    simp [hwv]
  · by_cases h2 : x = v
    · subst h2
      simp [h1]
    · simp [h1, h2]

theorem length_moveExcess (excess : List Int) (v w : Nat) (d : Int) :
    (moveExcess excess v w d).length = excess.length := by
  simp [moveExcess]

/-- A push of `d` units along an admissible arc keeps the preflow invariant. -/
theorem PreInv.push_pre {A0 : Adj} {n s t top : Nat} {adj : Adj} {height : List Nat}
    {excess : List Int} (h : PreInv A0 n s t top adj height excess) (v i : Nat) (d : Int)
    (hv : v < n) (hi : i < (arcs adj v).length) (hd0 : 0 < d) (hd1 : d ≤ excess.getD v 0)
    (hd2 : d ≤ (arc adj v i).cap)
    (hh : height.getD (arc adj v i).dst 0 < height.getD v 0) :
    PreInv A0 n s t top (pushFlow adj v i d) height
      (moveExcess excess v (arc adj v i).dst d) := by
  have hpa := h.net.paired h.paired0
  obtain ⟨p1, p2, p3, p4, p5⟩ := hpa v i hi
  rw [h.net.length_eq, h.len0] at p1
  have hnew : NetInv A0 (pushFlow adj v i d) := by
    apply h.net.push h.paired0 v i d hi hd2
    have := h.net.pairCap_nonneg h.paired0 v i hi
    omega
  have hex : ∀ x, (moveExcess excess v (arc adj v i).dst d).getD x 0 =
      excess.getD x 0 - (if x = v then d else 0) + (if x = (arc adj v i).dst then d else 0) :=
    getD_moveExcess excess v _ d (fun c => p2 c.symm) (by rw [h.len_ex]; exact hv)
      (by rw [h.len_ex]; exact p1)
  refine ⟨h.paired0, h.len0, h.net0, hnew, h.len_h, by rw [length_moveExcess]; exact h.len_ex,
    ?_, ?_, h.hs, h.ht, h.h_pos, h.h_le, ?_⟩
  · intro x
    rw [hex, excessOf_pushFlow A0 hpa v i d hi x, h.exc_eq x]
    ring
  · intro x
    rw [hex]
    have := h.exc_nonneg x
    by_cases h1 : x = v
    · rw [h1] at this ⊢
      rw [if_pos rfl, if_neg (fun c => p2 c.symm)]
      omega
    · rw [if_neg h1]
      split_ifs <;> omega
  · intro x j hxs hj hcap
    have hj' : j < (arcs adj x).length := by
      rw [hnew.length_arcs, ← h.net.length_arcs] at hj; exact hj
    rw [cap_pushFlow hpa v i d hi x j] at hcap
    have hdst : (arc (pushFlow adj v i d) x j).dst = (arc adj x j).dst := by
      rw [hnew.dst_eq, ← h.net.dst_eq]
    rw [hdst]
    by_cases hc : x = (arc adj v i).dst ∧ j = (arc adj v i).rev
    · rw [hc.1, hc.2, p4]
      omega
    · rw [if_neg hc] at hcap
      apply h.valid x j hxs hj'
      split_ifs at hcap <;> omega

/-- A push along an admissible arc keeps the current-arc invariant. -/
theorem CurInv.push_cur {A0 : Adj} {n s t top : Nat} {adj : Adj} {height iter : List Nat}
    {excess : List Int} (h : PreInv A0 n s t top adj height excess)
    (hc : CurInv adj height iter) (v i : Nat) (d : Int)
    (hi : i < (arcs adj v).length) (hd0 : 0 < d) (hd2 : d ≤ (arc adj v i).cap)
    (hh : height.getD (arc adj v i).dst 0 < height.getD v 0) :
    CurInv (pushFlow adj v i d) height iter := by
  have hpa := h.net.paired h.paired0
  obtain ⟨p1, p2, p3, p4, p5⟩ := hpa v i hi
  intro x j hj hjl
  have hjl' : j < (arcs adj x).length := by
    have := (SameShape.pushFlow adj v i d).2 x
    rw [this.1] at hjl
    exact hjl
  have hdst : (arc (pushFlow adj v i d) x j).dst = (arc adj x j).dst :=
    (((SameShape.pushFlow adj v i d).2 x).2 j).1
  rw [hdst, cap_pushFlow hpa v i d hi x j]
  by_cases hc1 : x = (arc adj v i).dst ∧ j = (arc adj v i).rev
  · right
    rw [hc1.1, hc1.2, p4]
    omega
  · rw [if_neg hc1]
    rcases hc x j hj hjl' with h0 | h0
    · by_cases hc2 : x = v ∧ j = i
      · rw [hc2.1, hc2.2] at h0
        omega
      · left
        rw [if_neg hc2, h0]
        ring
    · right
      exact h0

theorem excessPot_nonneg {A0 : Adj} {n s t top : Nat} {adj : Adj} {height : List Nat}
    {excess : List Int} (h : PreInv A0 n s t top adj height excess) :
    0 ≤ excessPot n s height excess := by
  unfold excessPot
  apply Finset.sum_nonneg
  intro x _
  split
  · exact le_refl _
  · exact mul_nonneg (h.exc_nonneg x) (Int.natCast_nonneg _)

/-- The potential after moving `d` units of excess from `v` to `w`. -/
theorem excessPot_moveExcess (n s : Nat) (height : List Nat) (excess : List Int) (v w : Nat)
    (d : Int) (hvw : v ≠ w) (hv : v < n) (hw : w < n) (hl : excess.length = n) :
    excessPot n s height (moveExcess excess v w d) =
      excessPot n s height excess - (if v = s then 0 else d * (height.getD v 0 : Int))
        + (if w = s then 0 else d * (height.getD w 0 : Int)) := by
  unfold excessPot
  have key : ∀ x, (if x = s then (0 : Int) else
      (moveExcess excess v w d).getD x 0 * (height.getD x 0 : Int)) =
      (if x = s then 0 else excess.getD x 0 * (height.getD x 0 : Int))
        - (if x = v then (if v = s then 0 else d * (height.getD v 0 : Int)) else 0)
        + (if x = w then (if w = s then 0 else d * (height.getD w 0 : Int)) else 0) := by
    intro x
    rw [getD_moveExcess excess v w d hvw (by rw [hl]; exact hv) (by rw [hl]; exact hw)]
    have hwv : ¬ w = v := fun c => hvw c.symm
    by_cases h2 : x = v
    · subst h2
      by_cases h1 : x = s
      · simp only [h1, if_true, hvw, if_false]
        split_ifs <;> first | ring1 | simp_all
      · simp only [h1, if_true, hvw, if_false]
        ring
    · by_cases h3 : x = w
      · subst h3
        by_cases h1 : x = s
        · simp only [h1, if_true, h2, if_false]
          split_ifs <;> first | ring1 | simp_all
        · simp only [h1, if_true, h2, if_false]
          ring
      · simp only [h2, h3, if_false]
        ring_nf
  simp only [key, Finset.sum_add_distrib, Finset.sum_sub_distrib]
  rw [Finset.sum_ite_eq', Finset.sum_ite_eq', if_pos (Finset.mem_range.mpr hv),
    if_pos (Finset.mem_range.mpr hw)]

/-- The potential never exceeds `top` times the capacity out of the source. -/
theorem excessPot_le_potBound {A0 : Adj} {n s t top : Nat} {adj : Adj} {height : List Nat}
    {excess : List Int} (h : PreInv A0 n s t top adj height excess) (hs : s < n) :
    excessPot n s height excess ≤ (potBound A0 s top : Int) := by
  have h1 : excessPot n s height excess ≤
      ∑ x in Finset.range n, (if x = s then 0 else excessOf A0 adj x * (top : Int)) := by
    unfold excessPot
    apply Finset.sum_le_sum
    intro x _
    by_cases hx : x = s
    · rw [if_pos hx, if_pos hx]
    · rw [if_neg hx, if_neg hx]
      have e1 := h.exc_eq x
      rw [if_neg hx, add_zero] at e1
      rw [← e1]
      apply mul_le_mul_of_nonneg_left _ (h.exc_nonneg x)
      exact_mod_cast h.h_le x
  have h2 : (∑ x in Finset.range n, (if x = s then 0 else excessOf A0 adj x * (top : Int))) =
      (-excessOf A0 adj s) * (top : Int) := by
    have e := sum_excessOf_zero h.net h.paired0 h.len0
    have key : ∀ x, (if x = s then 0 else excessOf A0 adj x * (top : Int)) =
        excessOf A0 adj x * (top : Int) - (if x = s then excessOf A0 adj s * (top : Int)
          else 0) := by
      intro x
      by_cases hx : x = s
      · subst hx; simp
      · simp [hx]
    simp only [key, Finset.sum_sub_distrib]
    rw [← Finset.sum_mul, e, Finset.sum_ite_eq', if_pos (Finset.mem_range.mpr hs)]
    ring
  have h3 : -excessOf A0 adj s ≤ capSum (arcs A0 s) := by
    unfold excessOf
    have := h.net.capSum_arcs_nonneg s
    omega
  have h4 : 0 ≤ capSum (arcs A0 s) := h.net0.capSum_arcs_nonneg s
  rw [h2] at h1
  refine le_trans h1 ?_
  unfold potBound
  push_cast
  rw [Int.toNat_of_nonneg h4, mul_comm]
  exact mul_le_mul_of_nonneg_left h3 (Int.natCast_nonneg _)

end Residual

namespace Residual

theorem foldl_relabel_le (H : List Nat) (es : List Edge) (a : Nat) :
    es.foldl (fun m e => if e.cap > 0 then min m (H.getD e.dst 0 + 1) else m) a ≤ a := by
  induction es generalizing a with
  | nil => exact le_refl _
  | cons e es ih =>
    rw [List.foldl_cons]
    refine le_trans (ih _) ?_
    split
    · exact min_le_left _ _
    · exact le_refl _

theorem foldl_relabel_le_arc (H : List Nat) (es : List Edge) (a : Nat) (e : Edge)
    (he : e ∈ es) (hc : e.cap > 0) :
    es.foldl (fun m e => if e.cap > 0 then min m (H.getD e.dst 0 + 1) else m) a ≤
      H.getD e.dst 0 + 1 := by
  induction es generalizing a with
  | nil => simp at he
  | cons e' es ih =>
    rw [List.foldl_cons]
    rcases List.mem_cons.mp he with h | h
    · refine le_trans (foldl_relabel_le H es _) ?_
      rw [← h, if_pos hc]
      exact min_le_right _ _
    · exact ih _ h

theorem le_foldl_relabel (H : List Nat) (es : List Edge) (a m : Nat) (hm : m ≤ a)
    (h : ∀ e ∈ es, e.cap > 0 → m ≤ H.getD e.dst 0 + 1) :
    m ≤ es.foldl (fun m e => if e.cap > 0 then min m (H.getD e.dst 0 + 1) else m) a := by
  induction es generalizing a with
  | nil => exact hm
  | cons e es ih =>
    rw [List.foldl_cons]
    apply ih
    · split
      · next hc => exact le_min hm (h e (List.mem_cons_self _ _) hc)
      · exact hm
    · intro e' he' hc'
      exact h e' (List.mem_cons_of_mem _ he') hc'

theorem relabelValue_le_top (top : Nat) (H : List Nat) (es : List Edge) :
    relabelValue top H es ≤ top := foldl_relabel_le H es top

theorem relabelValue_le_arc (top : Nat) (H : List Nat) (es : List Edge) (e : Edge)
    (he : e ∈ es) (hc : e.cap > 0) : relabelValue top H es ≤ H.getD e.dst 0 + 1 :=
  foldl_relabel_le_arc H es top e he hc

theorem le_relabelValue (top : Nat) (H : List Nat) (es : List Edge) (m : Nat) (hm : m ≤ top)
    (h : ∀ e ∈ es, e.cap > 0 → m ≤ H.getD e.dst 0 + 1) : m ≤ relabelValue top H es :=
  le_foldl_relabel H es top m hm h

/-- The loop of `relabel` on the height vector alone. -/
theorem foldl_relabel_height (H : List Nat) (v : Nat) (hv : v < H.length) (es : List Edge)
    (hne : ∀ e ∈ es, e.dst ≠ v) (m : Nat) :
    es.foldl (fun (h : List Nat) e =>
        if e.cap > 0 then h.set v (min (h.getD v 0) (h.getD e.dst 0 + 1)) else h)
      (H.set v m) =
    H.set v (es.foldl (fun m e => if e.cap > 0 then min m (H.getD e.dst 0 + 1) else m) m) := by
  induction es generalizing m with
  | nil => rfl
  | cons e es ih =>
    rw [List.foldl_cons, List.foldl_cons]
    have hne' : ∀ e ∈ es, e.dst ≠ v := fun e' he' => hne e' (List.mem_cons_of_mem _ he')
    have hd : e.dst ≠ v := hne e (List.mem_cons_self _ _)
    by_cases hc : e.cap > 0
    · rw [if_pos hc, if_pos hc, getD_set_eq, getD_set_eq, if_pos ⟨rfl, hv⟩,
        if_neg (fun c => hd c.1), List.set_set]
      exact ih hne' _
    · rw [if_neg hc, if_neg hc]
      exact ih hne' _

theorem getD_set_height (H : List Nat) (v R : Nat) (hv : v < H.length) (x : Nat) :
    (H.set v R).getD x 0 = if x = v then R else H.getD x 0 := by
  rw [getD_set_eq]
  by_cases hx : x = v
  · rw [if_pos ⟨hx, hv⟩, if_pos hx]
  · rw [if_neg (fun c => hx c.1), if_neg hx]

/-- Raising the height of `v` to a value that respects its residual arcs keeps the preflow
invariant. -/
theorem PreInv.relabel_pre {A0 : Adj} {n s t top : Nat} {adj : Adj} {height : List Nat}
    {excess : List Int} (h : PreInv A0 n s t top adj height excess) (v : Nat) (hv : v < n)
    (hvs : v ≠ s) (hvt : v ≠ t) (R : Nat) (hR1 : height.getD v 0 ≤ R) (hR2 : R ≤ top)
    (hR3 : ∀ i, i < (arcs adj v).length → 0 < (arc adj v i).cap →
      R ≤ height.getD (arc adj v i).dst 0 + 1) :
    PreInv A0 n s t top adj (height.set v R) excess := by
  have hg := getD_set_height height v R (by rw [h.len_h]; exact hv)
  refine ⟨h.paired0, h.len0, h.net0, h.net, by simp [h.len_h], h.len_ex, h.exc_eq,
    h.exc_nonneg, ?_, ?_, ?_, ?_, ?_⟩
  · rw [hg, if_neg (fun c => hvs c.symm)]
    exact h.hs
  · rw [hg, if_neg (fun c => hvt c.symm)]
    exact h.ht
  · intro x hxn hx
    rw [hg]
    have := h.h_pos x hxn hx
    split
    · next hxv =>
      rw [hxv] at this
      omega
    · exact this
  · intro x
    rw [hg]
    split
    · exact hR2
    · exact h.h_le x
  · intro x i hxs hi hcap
    rw [hg, hg]
    have hval := h.valid x i hxs hi hcap
    by_cases hxv : x = v
    · rw [if_pos hxv]
      rw [hxv] at hi hcap ⊢
      obtain ⟨_, p2, _⟩ := h.net.paired h.paired0 v i hi
      rw [if_neg p2]
      exact hR3 i hi hcap
    · rw [if_neg hxv]
      split
      · next hd =>
        rw [hd] at hval
        omega
      · exact hval

/-- After `relabel(v); iter[v] = 0` the current-arc invariant holds again. -/
theorem CurInv.relabel_cur {adj : Adj} {height iter : List Nat} (hc : CurInv adj height iter)
    (v : Nat) (hv1 : v < height.length) (hv2 : v < iter.length) (R : Nat)
    (hR1 : height.getD v 0 ≤ R) : CurInv adj (height.set v R) (iter.set v 0) := by
  have hg := getD_set_height height v R hv1
  intro x i hi hil
  rw [getD_set_eq] at hi
  by_cases hxv : x = v
  · rw [if_pos ⟨hxv, hv2⟩] at hi
    omega
  · rw [if_neg (fun c => hxv c.1)] at hi
    rw [hg, hg, if_neg hxv]
    rcases hc x i hi hil with h0 | h0
    · exact Or.inl h0
    · right
      split
      · next hd =>
        rw [hd] at h0
        omega
      · exact h0

theorem heightRoom_set (n top : Nat) (height : List Nat) (v R : Nat) (hv : v < n)
    (hl : height.length = n) (hR1 : height.getD v 0 ≤ R) (hR2 : R ≤ top) :
    heightRoom n top (height.set v R) + (R - height.getD v 0) = heightRoom n top height := by
  have hg := getD_set_height height v R (by rw [hl]; exact hv)
  unfold heightRoom
  have hmem : v ∈ Finset.range n := Finset.mem_range.mpr hv
  rw [← Finset.add_sum_erase _ _ hmem, ← Finset.add_sum_erase _ (fun x => top - height.getD x 0)
    hmem]
  have hrest : (∑ x in (Finset.range n).erase v, (top - (height.set v R).getD x 0)) =
      ∑ x in (Finset.range n).erase v, (top - height.getD x 0) := by
    apply Finset.sum_congr rfl
    intro x hx
    rw [hg, if_neg (Finset.ne_of_mem_erase hx)]
  rw [hrest, hg, if_pos rfl]
  omega

end Residual

namespace Residual

/-- A push along an admissible arc keeps the labelling valid on the arcs out of the
source. -/
theorem SrcValid.push_src {A0 : Adj} {n s t top : Nat} {adj : Adj} {height : List Nat}
    {excess : List Int} (h : PreInv A0 n s t top adj height excess)
    (hsv : SrcValid adj height s) (v i : Nat) (d : Int)
    (hi : i < (arcs adj v).length) (hd0 : 0 < d)
    (hh : height.getD (arc adj v i).dst 0 < height.getD v 0) :
    SrcValid (pushFlow adj v i d) height s := by
  have hpa := h.net.paired h.paired0
  obtain ⟨p1, p2, p3, p4, p5⟩ := hpa v i hi
  intro j hj hcap
  have hj' : j < (arcs adj s).length := by
    rw [((SameShape.pushFlow adj v i d).2 s).1] at hj
    exact hj
  have hdst : (arc (pushFlow adj v i d) s j).dst = (arc adj s j).dst :=
    (((SameShape.pushFlow adj v i d).2 s).2 j).1
  rw [hdst]
  rw [cap_pushFlow hpa v i d hi s j] at hcap
  by_cases hc : s = (arc adj v i).dst ∧ j = (arc adj v i).rev
  · rw [hc.2]
    have e : (arc adj s (arc adj v i).rev).dst = v := by
      have := p4
      rw [← hc.1] at this
      exact this
    rw [e]
    have := hc.1
    rw [← this] at hh
    omega
  · rw [if_neg hc] at hcap
    apply hsv j hj'
    split_ifs at hcap <;> omega

/-- Raising the height of a node keeps the labelling valid on the arcs out of the
source. -/
theorem SrcValid.relabel_src {adj : Adj} {height : List Nat} {s : Nat}
    (hsv : SrcValid adj height s) (v : Nat) (hv : v < height.length) (hvs : v ≠ s) (R : Nat)
    (hR1 : height.getD v 0 ≤ R) : SrcValid adj (height.set v R) s := by
  have hg := getD_set_height height v R hv
  intro j hj hcap
  rw [hg, hg, if_neg (fun c => hvs c.symm)]
  have := hsv j hj hcap
  split
  · next hd =>
    rw [hd] at this
    omega
  · exact this

/-- A push out of a node other than the source lowers the termination measure. -/
theorem preflowMeasure_push {A0 : Adj} {n s t top : Nat} {adj : Adj} {height : List Nat}
    {excess : List Int} (h : PreInv A0 n s t top adj height excess) (v i : Nat) (d : Int)
    (hv : v < n) (hvs : v ≠ s) (hi : i < (arcs adj v).length) (hd0 : 0 < d)
    (hd1 : d ≤ excess.getD v 0) (hd2 : d ≤ (arc adj v i).cap)
    (hh : height.getD (arc adj v i).dst 0 < height.getD v 0) :
    preflowMeasure A0 n s top height (moveExcess excess v (arc adj v i).dst d) + 1 ≤
      preflowMeasure A0 n s top height excess := by
  have hpa := h.net.paired h.paired0
  obtain ⟨p1, p2, p3, p4, p5⟩ := hpa v i hi
  rw [h.net.length_eq, h.len0] at p1
  have h' := h.push_pre v i d hv hi hd0 hd1 hd2 hh
  have e := excessPot_moveExcess n s height excess v (arc adj v i).dst d (fun c => p2 c.symm)
    hv p1 h.len_ex
  rw [if_neg hvs] at e
  have n1 := excessPot_nonneg h
  have n2 := excessPot_nonneg h'
  have hle : excessPot n s height (moveExcess excess v (arc adj v i).dst d) + 1 ≤
      excessPot n s height excess := by
    rw [e]
    have hH : (height.getD (arc adj v i).dst 0 : Int) + 1 ≤ (height.getD v 0 : Int) := by
      exact_mod_cast hh
    have hm : d * ((height.getD (arc adj v i).dst 0 : Int) + 1) ≤ d * (height.getD v 0 : Int) :=
      mul_le_mul_of_nonneg_left hH (le_of_lt hd0)
    have hz : 0 ≤ d * (height.getD (arc adj v i).dst 0 : Int) :=
      mul_nonneg (le_of_lt hd0) (Int.natCast_nonneg _)
    have hexp : d * ((height.getD (arc adj v i).dst 0 : Int) + 1) =
        d * (height.getD (arc adj v i).dst 0 : Int) + d := by ring
    split_ifs <;> omega
  unfold preflowMeasure
  omega

/-- A relabel that raises a height lowers the termination measure. -/
theorem preflowMeasure_relabel {A0 : Adj} {n s t top : Nat} {adj : Adj} {height : List Nat}
    {excess : List Int} (h : PreInv A0 n s t top adj height excess) (hs : s < n) (v : Nat)
    (hv : v < n) (R : Nat) (h' : PreInv A0 n s t top adj (height.set v R) excess)
    (hR1 : height.getD v 0 < R) (hR2 : R ≤ top) :
    preflowMeasure A0 n s top (height.set v R) excess + 1 ≤
      preflowMeasure A0 n s top height excess := by
  have hroom := heightRoom_set n top height v R hv h.len_h (le_of_lt hR1) hR2
  have hb := excessPot_le_potBound h' hs
  have n1 := excessPot_nonneg h
  have n2 := excessPot_nonneg h'
  unfold preflowMeasure
  have hr : heightRoom n top (height.set v R) + 1 ≤ heightRoom n top height := by omega
  have hb' : (excessPot n s (height.set v R) excess).toNat ≤ potBound A0 s top := by omega
  calc heightRoom n top (height.set v R) * (potBound A0 s top + 1) +
        (excessPot n s (height.set v R) excess).toNat + 1
      ≤ heightRoom n top (height.set v R) * (potBound A0 s top + 1) +
        (potBound A0 s top + 1) := by omega
    _ = (heightRoom n top (height.set v R) + 1) * (potBound A0 s top + 1) := by ring
    _ ≤ heightRoom n top height * (potBound A0 s top + 1) :=
        Nat.mul_le_mul_right _ hr
    _ ≤ _ := Nat.le_add_right _ _

end Residual

namespace Residual

theorem Reach.chain {A : Adj} {a b c : Nat} (h1 : Reach A a b) (h2 : Reach A b c) :
    Reach A a c := by
  induction h2 with
  | refl => exact h1
  | step v i _ hi hc ih => exact Reach.step v i ih hi hc

theorem ReachIn.chainIn {A : Adj} {a b c k m : Nat} (h1 : ReachIn A a b k)
    (h2 : ReachIn A b c m) : ReachIn A a c (k + m) := by
  induction h2 with
  | refl => exact h1
  | step v i j _ hi hc ih => exact ReachIn.step v i (k + j) ih hi hc

theorem Reach.toReachIn {A : Adj} {a b : Nat} (h : Reach A a b) : ∃ k, ReachIn A a b k := by
  induction h with
  | refl => exact ⟨0, ReachIn.refl⟩
  | step v i _ hi hc ih =>
    obtain ⟨k, hk⟩ := ih
    exact ⟨k + 1, ReachIn.step v i k hk hi hc⟩

/-- One step of the scan of the arcs of `v` in the backward search: the head of the arc `e`
is unlabelled and its paired arc has residual capacity, so the head is labelled and
queued. -/
theorem revBfs_label {adj : Adj} {n t : Nat} (hp : Paired adj) (hlen : adj.length = n)
    (v : Nat) (pre : List Edge) (e : Edge) (H q seen : List Nat)
    (hi : pre.length < (arcs adj v).length) (he : arc adj v pre.length = e)
    (hc : RevCore adj n t H seen) (hin : RevInner adj v pre H q seen)
    (hcond : H.getD e.dst 0 = n ∧ (arc adj e.dst e.rev).cap > 0) :
    RevCore adj n t (H.set e.dst (H.getD v 0 + 1)) (seen ++ [e.dst]) ∧
    RevInner adj v (pre ++ [e]) (H.set e.dst (H.getD v 0 + 1)) (q ++ [e.dst])
      (seen ++ [e.dst]) ∧
    seen.length < n ∧ e.dst ∉ seen ∧ e.dst < n ∧ e.dst ≠ t ∧ e.dst ≠ v := by
  obtain ⟨p1, p2, p3, p4, p5⟩ := hp v pre.length hi
  rw [he, hlen] at p1
  rw [he] at p2 p3 p4 p5
  have hun : e.dst ∉ seen := by
    intro c
    have := ((hc.seen_iff _).mp c).2
    omega
  have hcard : seen.length < n :=
    nodup_length_lt seen n e.dst hc.nodup (fun y hy => ((hc.seen_iff y).mp hy).1) p1 hun
  have hvlt := hc.lt_card v hin.v_seen
  have hg := getD_set_height H e.dst (H.getD v 0 + 1) (by rw [hc.len]; exact p1)
  have hdt : e.dst ≠ t := by
    intro c
    apply hun
    rw [c]
    exact (hc.seen_iff t).mpr ⟨by rw [← c]; exact p1, by rw [hc.ht]; omega⟩
  have hold : ∀ x, x ∈ seen → (H.set e.dst (H.getD v 0 + 1)).getD x 0 = H.getD x 0 := by
    intro x hx
    rw [hg, if_neg (fun c => hun (by rw [← c]; exact hx))]
  have hvv : (H.set e.dst (H.getD v 0 + 1)).getD v 0 = H.getD v 0 := hold v hin.v_seen
  have hnew : (H.set e.dst (H.getD v 0 + 1)).getD e.dst 0 = H.getD v 0 + 1 := by
    rw [hg, if_pos rfl]
  have hc2 : RevCore adj n t (H.set e.dst (H.getD v 0 + 1)) (seen ++ [e.dst]) := by
    refine ⟨by simp [hc.len], ?_, ?_, ?_, ?_, ?_, ?_, ?_, ?_⟩
    · rw [hg, if_neg (fun c => hdt c.symm)]
      exact hc.ht
    · intro x
      rw [List.mem_append, List.mem_singleton, hg]
      by_cases hx : x = e.dst
      · rw [if_pos hx]
        constructor
        · intro _
          exact ⟨by rw [hx]; exact p1, by omega⟩
        · intro _
          exact Or.inr hx
      · rw [if_neg hx, hc.seen_iff]
        constructor
        · rintro (h | h)
          · exact h
          · exact absurd h hx
        · intro h
          exact Or.inl h
    · apply List.Nodup.append hc.nodup (List.nodup_singleton _)
      intro a ha hb'
      rw [List.mem_singleton] at hb'
      exact hun (hb' ▸ ha)
    · intro x hx
      rw [List.length_append, List.length_singleton]
      rcases List.mem_append.mp hx with h | h
      · rw [hold x h]
        have := hc.lt_card x h
        omega
      · rw [List.mem_singleton] at h
        rw [h, hnew]
        omega
    · intro x
      rw [hg]
      split
      · omega
      · exact hc.h_le x
    · intro x hxn hxt
      rw [hg]
      split
      · omega
      · exact hc.pos x hxn hxt
    · intro x hx
      rcases List.mem_append.mp hx with h | h
      · exact hc.sound x h
      · rw [List.mem_singleton] at h
        rw [h]
        have h1 : Reach adj e.dst (arc adj e.dst e.rev).dst :=
          Reach.step e.dst e.rev Reach.refl p3 hcond.2
        rw [p4] at h1
        exact h1.chain (hc.sound v hin.v_seen)
    · intro x hx
      rcases List.mem_append.mp hx with h | h
      · rw [hold x h]
        exact hc.dist x h
      · rw [List.mem_singleton] at h
        rw [h, hnew]
        have h1 : ReachIn adj e.dst (arc adj e.dst e.rev).dst (0 + 1) :=
          ReachIn.step e.dst e.rev 0 ReachIn.refl p3 hcond.2
        rw [p4] at h1
        have h2 := h1.chainIn (hc.dist v hin.v_seen)
        rw [Nat.add_comm] at h2
        exact h2
  have hin2 : RevInner adj v (pre ++ [e]) (H.set e.dst (H.getD v 0 + 1)) (q ++ [e.dst])
      (seen ++ [e.dst]) := by
    refine ⟨List.mem_append_left _ hin.v_seen, ?_, ?_, ?_, ?_, ?_, ?_, ?_, ?_⟩
    · intro c
      rcases List.mem_append.mp c with h | h
      · exact hin.v_notin h
      · rw [List.mem_singleton] at h
        exact p2 h.symm
    · intro y hy
      rcases List.mem_append.mp hy with h | h
      · exact List.mem_append_left _ (hin.q_sub y h)
      · exact List.mem_append_right _ h
    · apply List.Nodup.append hin.q_nodup (List.nodup_singleton _)
      intro a ha hb'
      rw [List.mem_singleton] at hb'
      exact hun (hin.q_sub _ (hb' ▸ ha))
    · rw [List.pairwise_append]
      refine ⟨?_, List.pairwise_singleton _ _, ?_⟩
      · apply hin.sorted.imp_of_mem
        intro a b ha hb' hab
        rw [hold a (hin.q_sub a ha), hold b (hin.q_sub b hb')]
        exact hab
      · intro a ha b hb'
        rw [List.mem_singleton] at hb'
        rw [hb', hnew, hold a (hin.q_sub a ha)]
        exact hin.near a (hin.q_sub a ha)
    · intro y hy
      rw [hvv]
      rcases List.mem_append.mp hy with h | h
      · rw [hold y (hin.q_sub y h)]
        exact hin.above y h
      · rw [List.mem_singleton] at h
        rw [h, hnew]
        omega
    · intro x hx
      rw [hvv]
      rcases List.mem_append.mp hx with h | h
      · rw [hold x h]
        exact hin.near x h
      · rw [List.mem_singleton] at h
        rw [h, hnew]
    · intro x hx hxq hxv
      have hxq' : x ∉ q := fun c => hxq (List.mem_append_left _ c)
      have hxd : x ≠ e.dst := fun c =>
        hxq (List.mem_append_right _ (List.mem_singleton.mpr c))
      have hxs : x ∈ seen := by
        rcases List.mem_append.mp hx with h | h
        · exact h
        · exact absurd (List.mem_singleton.mp h) hxd
      intro i hi' hpc
      obtain ⟨d1, d2⟩ := hin.done x hxs hxq' hxv i hi' hpc
      refine ⟨List.mem_append_left _ d1, ?_⟩
      rw [hold _ d1, hold x hxs]
      exact d2
    · intro e' he' hc'
      rcases List.mem_append.mp he' with h | h
      · obtain ⟨d1, d2⟩ := hin.scanned e' h hc'
        refine ⟨List.mem_append_left _ d1, ?_⟩
        rw [hold _ d1, hvv]
        exact d2
      · rw [List.mem_singleton] at h
        rw [h]
        refine ⟨List.mem_append_right _ (List.mem_singleton.mpr rfl), ?_⟩
        rw [hnew, hvv]
  exact ⟨hc2, hin2, hcard, hun, p1, hdt, p2⟩

/-- One step of the scan of the arcs of `v` in the backward search: the arc `e` is
skipped. -/
theorem revBfs_skip {adj : Adj} {n t : Nat} (hp : Paired adj) (hlen : adj.length = n)
    (v : Nat) (pre : List Edge) (e : Edge) (H q seen : List Nat)
    (hi : pre.length < (arcs adj v).length) (he : arc adj v pre.length = e)
    (hc : RevCore adj n t H seen) (hin : RevInner adj v pre H q seen)
    (hcond : ¬ (H.getD e.dst 0 = n ∧ (arc adj e.dst e.rev).cap > 0)) :
    RevInner adj v (pre ++ [e]) H q seen := by
  obtain ⟨p1, p2, p3, p4, p5⟩ := hp v pre.length hi
  rw [he, hlen] at p1
  rw [he] at p2 p3 p4 p5
  refine ⟨hin.v_seen, hin.v_notin, hin.q_sub, hin.q_nodup, hin.sorted, hin.above,
    hin.near, hin.done, ?_⟩
  intro e' he' hc'
  rcases List.mem_append.mp he' with h | h
  · exact hin.scanned e' h hc'
  · rw [List.mem_singleton] at h
    rw [h] at hc' ⊢
    have hne : H.getD e.dst 0 ≠ n := fun c => hcond ⟨c, hc'⟩
    have hle := hc.h_le e.dst
    have hsn : e.dst ∈ seen := (hc.seen_iff _).mpr ⟨p1, by omega⟩
    exact ⟨hsn, hin.near _ hsn⟩

/-- The scan of the arcs of `v` in the backward search. -/
theorem revBfsFor_spec {adj : Adj} {n t : Nat} (hp : Paired adj) (hlen : adj.length = n)
    (v : Nat) :
    ∀ (es pre : List Edge) (H q seen : List Nat), arcs adj v = pre ++ es →
      RevCore adj n t H seen → RevInner adj v pre H q seen →
      ∃ seen', RevCore adj n t (revBfsFor n adj v es H q).1 seen' ∧
        RevInner adj v (arcs adj v) (revBfsFor n adj v es H q).1 (revBfsFor n adj v es H q).2
          seen' ∧
        2 * (n - seen'.length) + (revBfsFor n adj v es H q).2.length ≤
          2 * (n - seen.length) + q.length := by
  intro es
  induction es with
  | nil =>
    intro pre H q seen hs hc hin
    refine ⟨seen, hc, ?_, le_refl _⟩
    rw [hs, List.append_nil]
    exact hin
  | cons e es ih =>
    intro pre H q seen hs hc hin
    have hi : pre.length < (arcs adj v).length := by
      rw [hs]; simp
    have he : arc adj v pre.length = e := by
      unfold arc
      rw [hs, List.getD_append_right _ _ _ _ (le_refl _)]
      simp
    have hs' : arcs adj v = (pre ++ [e]) ++ es := by
      rw [hs]; simp
    by_cases hcond : H.getD e.dst 0 = n ∧ (arc adj e.dst e.rev).cap > 0
    · have hb : revBfsFor n adj v (e :: es) H q =
          revBfsFor n adj v es (H.set e.dst (H.getD v 0 + 1)) (q ++ [e.dst]) := by
        rw [revBfsFor, if_pos hcond]
      rw [hb]
      obtain ⟨hc2, hin2, hcard, _⟩ := revBfs_label hp hlen v pre e H q seen hi he hc hin hcond
      obtain ⟨seen', r1, r2, r3⟩ := ih (pre ++ [e]) _ _ _ hs' hc2 hin2
      refine ⟨seen', r1, r2, le_trans r3 ?_⟩
      simp only [List.length_append, List.length_singleton]
      omega
    · have hb : revBfsFor n adj v (e :: es) H q = revBfsFor n adj v es H q := by
        rw [revBfsFor, if_neg hcond]
      rw [hb]
      exact ih (pre ++ [e]) H q seen hs' hc
        (revBfs_skip hp hlen v pre e H q seen hi he hc hin hcond)

/-- The backward search terminates with every labelled node scanned. -/
theorem revBfsWhile_spec {adj : Adj} {n t : Nat} (hp : Paired adj) (hlen : adj.length = n) :
    ∀ (fuel : Nat) (H q seen : List Nat), RevCore adj n t H seen → RevQueue adj H q seen →
      2 * (n - seen.length) + q.length < fuel →
      ∃ H' seen', revBfsWhile n adj fuel H q = some H' ∧ RevCore adj n t H' seen' ∧
        RevQueue adj H' [] seen' := by
  intro fuel
  induction fuel with
  | zero => intro H q seen _ _ hf; omega
  | succ k ih =>
    intro H q seen hc hq hf
    cases q with
    | nil => exact ⟨H, seen, rfl, hc, hq⟩
    | cons v q1 =>
      have hnd := hq.q_nodup
      rw [List.nodup_cons] at hnd
      have hso := hq.sorted
      rw [List.pairwise_cons] at hso
      have hvs : v ∈ seen := hq.q_sub v (List.mem_cons_self _ _)
      have hin : RevInner adj v [] H q1 seen := by
        refine ⟨hvs, hnd.1, fun y hy => hq.q_sub y (List.mem_cons_of_mem _ hy), hnd.2, hso.2,
          hso.1, fun x hx => hq.near x hx v (List.mem_cons_self _ _), ?_, ?_⟩
        · intro x hx hxq hxv
          apply hq.done x hx
          intro c
          rcases List.mem_cons.mp c with h | h
          · exact hxv h
          · exact hxq h
        · intro e he
          simp at he
      obtain ⟨seen', r1, r2, r3⟩ := revBfsFor_spec (t := t) hp hlen v (arcs adj v) [] H q1
        seen (by simp) hc hin
      rcases hres : revBfsFor n adj v (arcs adj v) H q1 with ⟨H1, q2⟩
      rw [hres] at r1 r2 r3
      simp only at r1 r2 r3
      have hq2 : RevQueue adj H1 q2 seen' := by
        refine ⟨r2.q_sub, r2.q_nodup, r2.sorted, ?_, ?_⟩
        · intro x hx y hy
          have a := r2.near x hx
          have b := r2.above y hy
          omega
        · intro x hx hxq
          by_cases hxv : x = v
          · rw [hxv]
            intro i hi hpc
            exact r2.scanned (arc adj v i) ((mem_arcs_iff _ _ _).mpr ⟨i, hi, rfl⟩) hpc
          · exact r2.done x hx hxq hxv
      obtain ⟨H', seen'', e1, e2, e3⟩ := ih H1 q2 seen' r1 hq2 (by
        rw [List.length_cons] at hf
        omega)
      refine ⟨H', seen'', ?_, e2, e3⟩
      rw [revBfsWhile]
      simp only
      rw [hres]
      exact e1

end Residual

namespace Residual

/-- The heights computed by the backward search from the sink: a valid labelling with
`height[t] = 0`, in which every node below `n` reaches the sink along arcs of positive
residual capacity. -/
theorem revBfs_heights {adj : Adj} {n t : Nat} (hp : Paired adj) (hlen : adj.length = n)
    (ht : t < n) (fuel : Nat) (hfuel : 2 * n < fuel) :
    ∃ H, revBfsWhile n adj fuel ((List.replicate n n).set t 0) [t] = some H ∧
      H.length = n ∧ H.getD t 0 = 0 ∧ (∀ x, H.getD x 0 ≤ n) ∧
      (∀ x, x < n → x ≠ t → 1 ≤ H.getD x 0) ∧
      (∀ v i, i < (arcs adj v).length → 0 < (arc adj v i).cap →
        H.getD v 0 ≤ H.getD (arc adj v i).dst 0 + 1) ∧
      (∀ x, x < n → H.getD x 0 < n → Reach adj x t) := by
  have hg : ∀ x, ((List.replicate n n).set t 0).getD x 0 =
      if x = t then 0 else if x < n then n else 0 := by
    intro x
    rw [getD_set_height _ _ _ (by simp; exact ht), getD_replicate_eq]
  have hc0 : RevCore adj n t ((List.replicate n n).set t 0) [t] := by
    refine ⟨by simp, by rw [hg, if_pos rfl], ?_, List.nodup_singleton _, ?_, ?_, ?_, ?_, ?_⟩
    · intro x
      rw [List.mem_singleton, hg]
      constructor
      · intro h
        rw [h, if_pos rfl]
        exact ⟨ht, by omega⟩
      · rintro ⟨h1, h2⟩
        by_contra hx
        rw [if_neg hx, if_pos h1] at h2
        omega
    · intro x hx
      rw [List.mem_singleton] at hx
      rw [hx, hg, if_pos rfl]
      simp
    · intro x
      rw [hg]
      split_ifs <;> omega
    · intro x hxn hxt
      rw [hg, if_neg hxt, if_pos hxn]
      omega
    · intro x hx
      rw [List.mem_singleton] at hx
      rw [hx]
      exact Reach.refl
    · intro x hx
      rw [List.mem_singleton] at hx
      rw [hx, hg, if_pos rfl]
      exact ReachIn.refl
  have hq0 : RevQueue adj ((List.replicate n n).set t 0) [t] [t] := by
    refine ⟨fun y hy => hy, List.nodup_singleton _, List.pairwise_singleton _ _, ?_, ?_⟩
    · intro x hx y hy
      rw [List.mem_singleton] at hx hy
      rw [hx, hy]
      omega
    · intro x hx hxq
      exact absurd hx hxq
  obtain ⟨H, seen, e1, e2, e3⟩ := revBfsWhile_spec hp hlen fuel _ [t] [t] hc0 hq0 (by
    simp only [List.length_singleton]
    omega)
  refine ⟨H, e1, e2.len, e2.ht, e2.h_le, e2.pos, ?_, ?_⟩
  · intro x j hj hcap
    obtain ⟨p1, p2, p3, p4, p5⟩ := hp x j hj
    rw [hlen] at p1
    by_cases hv : (arc adj x j).dst ∈ seen
    · have hd := e3.done _ hv (List.not_mem_nil _) (arc adj x j).rev p3 (by
        unfold pairCap
        rw [p4, p5]
        exact hcap)
      rw [p4] at hd
      exact hd.2
    · have h1 : ¬ H.getD (arc adj x j).dst 0 < n := fun c => hv ((e2.seen_iff _).mpr ⟨p1, c⟩)
      have := e2.h_le x
      omega
  · intro x hx hxl
    exact e2.sound x ((e2.seen_iff x).mpr ⟨hx, hxl⟩)

end Residual

namespace FIFOPP

theorem push_eq (s t : Nat) (st : State) (v i : Nat) :
    push s t st v i =
      if min (st.excess.getD v 0) (arc st.adj v i).cap ≤ 0 ∨
          st.height.getD v 0 ≤ st.height.getD (arc st.adj v i).dst 0 then st
      else
        { st with
          active :=
            if st.excess.getD (arc st.adj v i).dst 0 = 0 ∧ (arc st.adj v i).dst ≠ s ∧
                (arc st.adj v i).dst ≠ t then st.active ++ [(arc st.adj v i).dst]
            else st.active,
          excess := moveExcess st.excess v (arc st.adj v i).dst
            (min (st.excess.getD v 0) (arc st.adj v i).cap),
          adj := pushFlow st.adj v i (min (st.excess.getD v 0) (arc st.adj v i).cap),
          hist := pushFlow st.adj v i (min (st.excess.getD v 0) (arc st.adj v i).cap) ::
            st.hist } := rfl

/-- One call of `push` from the node `v`, which is the node under discharge or the
source. -/
theorem fifopp_push_spec {A0 : Adj} {n s t w : Nat} {st : State} (hI : Inv A0 n s t w st)
    (v : Nat) (hv : v < n) (hvw : v = w ∨ (v = s ∧ n ≤ w)) (i : Nat) (hi : i < (arcs st.adj v).length) :
    Inv A0 n s t w (push s t st v i) ∧
    (push s t st v i).iter = st.iter ∧ (push s t st v i).height = st.height ∧
    (∃ new, (push s t st v i).hist = new ++ st.hist) ∧
    (push s t st v i = st ∨
      (v ≠ s → measure A0 n s (push s t st v i) + 1 ≤ measure A0 n s st)) ∧
    (0 < (push s t st v i).excess.getD v 0 →
      (arc (push s t st v i).adj v i).cap = 0 ∨
      st.height.getD v 0 ≤ st.height.getD (arc (push s t st v i).adj v i).dst 0) ∧
    (SrcValid st.adj st.height s → SrcValid (push s t st v i).adj (push s t st v i).height s) ∧
    (∀ j, j ≠ i → arc (push s t st v i).adj v j = arc st.adj v j) ∧
    ((arc st.adj v i).cap ≤ st.excess.getD v 0 →
      st.height.getD (arc st.adj v i).dst 0 < st.height.getD v 0 →
      (arc (push s t st v i).adj v i).cap = 0) := by
  have hnotin : v ∉ st.active := by
    rcases hvw with h | h
    · rw [h]; exact hI.notin
    · intro c
      exact (hI.act_mem v c).2.1 h.1
  rw [push_eq]
  by_cases hg : min (st.excess.getD v 0) (arc st.adj v i).cap ≤ 0 ∨
      st.height.getD v 0 ≤ st.height.getD (arc st.adj v i).dst 0
  · rw [if_pos hg]
    have hcn := hI.pre.net.nonneg v i hi
    refine ⟨hI, rfl, rfl, ⟨[], rfl⟩, Or.inl rfl, ?_, fun h => h, fun _ _ => rfl, ?_⟩
    · intro hex
      rcases hg with h1 | h1
      · left
        rcases min_le_iff.mp h1 with h2 | h2
        · omega
        · omega
      · exact Or.inr h1
    · intro h1 h2
      rcases hg with h3 | h3
      · rw [min_eq_right h1] at h3
        omega
      · omega
  · rw [if_neg hg]
    have hd0 : 0 < min (st.excess.getD v 0) (arc st.adj v i).cap := by
      by_contra c
      exact hg (Or.inl (by omega))
    have hh : st.height.getD (arc st.adj v i).dst 0 < st.height.getD v 0 := by
      by_contra c
      exact hg (Or.inr (by omega))
    have hd1 := min_le_left (st.excess.getD v 0) (arc st.adj v i).cap
    have hd2 := min_le_right (st.excess.getD v 0) (arc st.adj v i).cap
    have hpa := hI.pre.net.paired hI.pre.paired0
    obtain ⟨p1, p2, p3, p4, p5⟩ := hpa v i hi
    rw [hI.pre.net.length_eq, hI.pre.len0] at p1
    have hpre := hI.pre.push_pre v i _ hv hi hd0 hd1 hd2 hh
    have hex : ∀ x, (moveExcess st.excess v (arc st.adj v i).dst
        (min (st.excess.getD v 0) (arc st.adj v i).cap)).getD x 0 =
        st.excess.getD x 0 - (if x = v then min (st.excess.getD v 0) (arc st.adj v i).cap else 0)
          + (if x = (arc st.adj v i).dst then
              min (st.excess.getD v 0) (arc st.adj v i).cap else 0) :=
      getD_moveExcess st.excess v _ _ (fun c => p2 c.symm) (by rw [hI.pre.len_ex]; exact hv)
        (by rw [hI.pre.len_ex]; exact p1)
    refine ⟨⟨hpre, hI.len_iter, hI.cur.push_cur hI.pre v i _ hi hd0 hd2 hh, ?_, ?_, ?_, ?_, ?_⟩,
      rfl, rfl, ⟨[_], rfl⟩, Or.inr ?_, ?_, ?_, ?_, ?_⟩
    · intro a ha
      rcases List.mem_cons.mp ha with h | h
      · rw [h]; exact hpre.net
      · exact hI.histInv a h
    · -- act_mem
      intro x hx
      simp only at hx ⊢
      rw [hex]
      have hxa : x ∈ st.active ∨ (x = (arc st.adj v i).dst ∧ (arc st.adj v i).dst ≠ s ∧
          (arc st.adj v i).dst ≠ t) := by
        split at hx
        · next hc =>
          rcases List.mem_append.mp hx with h | h
          · exact Or.inl h
          · rw [List.mem_singleton] at h
            exact Or.inr ⟨h, hc.2.1, hc.2.2⟩
        · exact Or.inl hx
      rcases hxa with h | h
      · obtain ⟨a1, a2, a3, a4⟩ := hI.act_mem x h
        have hxw : x ≠ v := fun c => hnotin (c ▸ h)
        rw [if_neg hxw]
        refine ⟨a1, a2, a3, ?_⟩
        split <;> omega
      · have hxw : x ≠ v := by rw [h.1]; exact p2
        rw [if_neg hxw, if_pos h.1]
        refine ⟨by rw [h.1]; exact p1, by rw [h.1]; exact h.2.1, by rw [h.1]; exact h.2.2, ?_⟩
        have := hI.pre.exc_nonneg x
        omega
    · -- nodup
      show (if _ then _ else _ : List Nat).Nodup
      split
      · next hc =>
        apply List.Nodup.append hI.nodup (List.nodup_singleton _)
        intro a ha hb
        rw [List.mem_singleton] at hb
        rw [hb] at ha
        have := (hI.act_mem _ ha).2.2.2
        omega
      · exact hI.nodup
    · -- notin
      show w ∉ (if _ then _ else _ : List Nat)
      split
      · next hc =>
        intro c
        rcases List.mem_append.mp c with h | h
        · exact hI.notin h
        · rw [List.mem_singleton] at h
          rcases hvw with h' | h'
          · rw [← h'] at h
            exact p2 h.symm
          · omega
      · exact hI.notin
    · -- act_all
      intro x hx hxs hxt hpos
      simp only at hpos ⊢
      rw [hex] at hpos
      by_cases hxw : x = w
      · exact Or.inr hxw
      · left
        have hxv : x ≠ v := by
          rcases hvw with h' | h'
          · rw [h']; exact hxw
          · rw [h'.1]; exact hxs
        rw [if_neg hxv] at hpos
        by_cases hxd : x = (arc st.adj v i).dst
        · by_cases hz : st.excess.getD (arc st.adj v i).dst 0 = 0
          · rw [if_pos ⟨hz, by rw [← hxd]; exact hxs, by rw [← hxd]; exact hxt⟩]
            rw [hxd]
            exact List.mem_append_right _ (List.mem_singleton.mpr rfl)
          · have hpos' : 0 < st.excess.getD x 0 := by
              have := hI.pre.exc_nonneg x
              rw [hxd] at this ⊢
              omega
            rcases hI.act_all x hx hxs hxt hpos' with h | h
            · split
              · exact List.mem_append_left _ h
              · exact h
            · exact absurd h hxw
        · rw [if_neg hxd] at hpos
          rcases hI.act_all x hx hxs hxt (by omega) with h | h
          · split
            · exact List.mem_append_left _ h
            · exact h
          · exact absurd h hxw
    · intro hvs
      exact preflowMeasure_push hI.pre v i _ hv hvs hi hd0 hd1 hd2 hh
    · intro hpos
      simp only at hpos ⊢
      rw [hex, if_pos rfl, if_neg (fun c => p2 c.symm)] at hpos
      left
      rw [cap_pushFlow hpa v i _ hi v i, if_pos ⟨rfl, rfl⟩,
        if_neg (fun c => p2 c.1.symm)]
      have : min (st.excess.getD v 0) (arc st.adj v i).cap = (arc st.adj v i).cap := by
        rcases min_choice (st.excess.getD v 0) (arc st.adj v i).cap with h | h
        · omega
        · exact h
      omega
    · intro hsv
      exact hsv.push_src hI.pre v i _ hi hd0 hh
    · intro j hji
      show arc (pushFlow st.adj v i _) v j = _
      unfold pushFlow
      rw [arc_addCap, if_neg (fun c => p2 (by
        have := c.1
        rw [arc_addCap_dst] at this
        exact this.symm)), arc_addCap, if_neg (fun c => hji c.2.1)]
    · intro h1 _
      show (arc (pushFlow st.adj v i _) v i).cap = 0
      rw [cap_pushFlow hpa v i _ hi v i, if_pos ⟨rfl, rfl⟩,
        if_neg (fun c => p2 c.1.symm), min_eq_right h1]
      omega

end FIFOPP

namespace FIFOPP

theorem relabel_fold (v : Nat) (es : List Edge) (st : State) :
    es.foldl
      (fun st1 e =>
        if e.cap > 0 then
          { st1 with
            height := st1.height.set v (min (st1.height.getD v 0) (st1.height.getD e.dst 0 + 1)) }
        else st1) st =
    { st with height := es.foldl (fun (h : List Nat) e =>
        if e.cap > 0 then h.set v (min (h.getD v 0) (h.getD e.dst 0 + 1)) else h) st.height } := by
  induction es generalizing st with
  | nil => rfl
  | cons e es ih =>
    rw [List.foldl_cons, List.foldl_cons, ih]
    split <;> rfl

/-- The effect of `relabel(v)`: only `height[v]` changes, to `relabelValue`. -/
theorem fifopp_relabel_eq {A0 : Adj} (n : Nat) (st : State) (v : Nat) (hp : Paired A0)
    (hI : NetInv A0 st.adj) (hv : v < st.height.length) :
    relabel n st v =
      { st with height := st.height.set v (relabelValue (2 * n) st.height (arcs st.adj v)) } := by
  unfold relabel
  rw [relabel_fold]
  have hne : ∀ e ∈ arcs st.adj v, e.dst ≠ v := by
    intro e he
    obtain ⟨i, hi, hie⟩ := (mem_arcs_iff _ _ _).mp he
    rw [← hie]
    exact (hI.paired hp v i hi).2.1
  show State.mk _ _ _ _ _ _ = State.mk _ _ _ _ _ _
  congr 1
  exact foldl_relabel_height st.height v hv (arcs st.adj v) hne (2 * n)

/-- The inner loop of `discharge`. -/
theorem fifopp_dischargeScan_spec {A0 : Adj} {n s t w : Nat} (hw : w < n) (hws : w ≠ s) :
    ∀ (k : Nat) (st : State), Inv A0 n s t w st →
      (arcs st.adj w).length - st.iter.getD w 0 < k → 0 < st.excess.getD w 0 →
      ∃ b st', dischargeScan s t k st w = some (b, st') ∧ Inv A0 n s t w st' ∧
        st'.height = st.height ∧ measure A0 n s st' ≤ measure A0 n s st ∧
        (∃ new, st'.hist = new ++ st.hist) ∧
        (b = true → st'.excess.getD w 0 = 0 ∧ measure A0 n s st' + 1 ≤ measure A0 n s st) ∧
        (b = false → 0 < st'.excess.getD w 0 ∧
          (arcs st'.adj w).length ≤ st'.iter.getD w 0) ∧
        (SrcValid st.adj st.height s → SrcValid st'.adj st'.height s) := by
  intro k
  induction k with
  | zero => intro st _ hk _; omega
  | succ k ih =>
    intro st hI hk hpos
    by_cases hlt : st.iter.getD w 0 < (arcs st.adj w).length
    · obtain ⟨q1, q2, q3, q4, q5, q6, q7, _, _⟩ := fifopp_push_spec hI w hw (Or.inl rfl)
        (st.iter.getD w 0) hlt
      have hmle : measure A0 n s (push s t st w (st.iter.getD w 0)) ≤ measure A0 n s st := by
        rcases q5 with h | h
        · rw [h]
        · have := h hws
          omega
      by_cases hz : (push s t st w (st.iter.getD w 0)).excess.getD w 0 ≤ 0
      · refine ⟨true, _, ?_, q1, q3, hmle, q4, ?_, fun c => by simp at c, q7⟩
        · rw [dischargeScan, if_pos hlt]
          simp only [hz, if_true]
        · intro _
          have hnn := q1.pre.exc_nonneg w
          refine ⟨by omega, ?_⟩
          rcases q5 with h | h
          · rw [h] at hz
            omega
          · exact h hws
      · have hpos1 : 0 < (push s t st w (st.iter.getD w 0)).excess.getD w 0 := by omega
        have hadm := q6 hpos1
        have hlen1 : (arcs (push s t st w (st.iter.getD w 0)).adj w).length =
            (arcs st.adj w).length := by
          rw [q1.pre.net.length_arcs, ← hI.pre.net.length_arcs]
        have hiterset : ∀ x, ((push s t st w (st.iter.getD w 0)).iter.set w
            ((push s t st w (st.iter.getD w 0)).iter.getD w 0 + 1)).getD x 0 =
            if x = w then st.iter.getD w 0 + 1 else st.iter.getD x 0 := by
          intro x
          rw [q2, getD_set_eq]
          by_cases hx : x = w
          · rw [if_pos ⟨hx, by rw [hI.len_iter]; exact hw⟩, if_pos hx]
          · rw [if_neg (fun c => hx c.1), if_neg hx]
        have hI2 : Inv A0 n s t w
            { push s t st w (st.iter.getD w 0) with
              iter := (push s t st w (st.iter.getD w 0)).iter.set w
                ((push s t st w (st.iter.getD w 0)).iter.getD w 0 + 1) } := by
          refine ⟨q1.pre, by rw [List.length_set]; exact q1.len_iter, ?_, q1.histInv, q1.act_mem, q1.nodup,
            q1.notin, q1.act_all⟩
          intro x j hj hjl
          simp only at hj hjl ⊢
          rw [hiterset] at hj
          by_cases hx : x = w
          · rw [if_pos hx] at hj
            by_cases hji : j = st.iter.getD w 0
            · rw [hx, hji, q3]
              exact hadm
            · apply q1.cur x j _ hjl
              rw [q2, hx]
              omega
          · rw [if_neg hx] at hj
            apply q1.cur x j _ hjl
            rw [q2]
            exact hj
        obtain ⟨b, st', r1, r2, r3, r4, r5, r6, r7, r8⟩ := ih _ hI2 (by
          show (arcs (push s t st w (st.iter.getD w 0)).adj w).length - _ < k
          rw [hiterset, if_pos rfl, hlen1]
          omega) hpos1
        refine ⟨b, st', ?_, r2, r3.trans q3, le_trans r4 hmle, ?_, ?_, r7,
          fun h => r8 (q7 h)⟩
        · rw [dischargeScan, if_pos hlt]
          simp only [hz, if_false]
          exact r1
        · obtain ⟨new1, e1⟩ := q4
          obtain ⟨new2, e2⟩ := r5
          refine ⟨new2 ++ new1, ?_⟩
          rw [e2]
          show new2 ++ (push s t st w (st.iter.getD w 0)).hist = _
          rw [e1, List.append_assoc]
        · intro hb
          obtain ⟨c1, c2⟩ := r6 hb
          exact ⟨c1, le_trans c2 hmle⟩
    · refine ⟨false, st, ?_, hI, rfl, le_refl _, ⟨[], rfl⟩, fun c => by simp at c,
        fun _ => ⟨hpos, by omega⟩, fun h => h⟩
      rw [dischargeScan, if_neg hlt]

/-- `discharge(w)` terminates and leaves `w` without excess. -/
theorem fifopp_discharge_spec {A0 : Adj} {n s t w F : Nat} (hw : w < n) (hws : w ≠ s)
    (hwt : w ≠ t) (hs : s < n) (hF : ∀ x, (arcs A0 x).length < F) :
    ∀ (k : Nat) (st : State), Inv A0 n s t w st → 2 * n - st.height.getD w 0 < k →
      ∃ st', discharge n s t F k st w = some st' ∧ Inv A0 n s t w st' ∧
        st'.excess.getD w 0 = 0 ∧ measure A0 n s st' ≤ measure A0 n s st ∧
        (0 < st.excess.getD w 0 → measure A0 n s st' + 1 ≤ measure A0 n s st) ∧
        (∃ new, st'.hist = new ++ st.hist) ∧
        (SrcValid st.adj st.height s → SrcValid st'.adj st'.height s) := by
  intro k
  induction k with
  | zero => intro st _ hk; omega
  | succ k ih =>
    intro st hI hk
    by_cases hpos : st.excess.getD w 0 > 0
    · obtain ⟨b, st1, r1, r2, r3, r4, r5, r6, r7, r8⟩ := fifopp_dischargeScan_spec hw hws F st hI
        (by
          have := hF w
          rw [← hI.pre.net.length_arcs] at this
          omega) hpos
      cases b with
      | true =>
        obtain ⟨c1, c2⟩ := r6 rfl
        refine ⟨st1, ?_, r2, c1, r4, fun _ => c2, r5, r8⟩
        rw [discharge, if_pos hpos, r1]
      | false =>
        obtain ⟨c1, c2⟩ := r7 rfl
        have hrel := fifopp_relabel_eq n st1 w r2.pre.paired0 r2.pre.net
          (by rw [r2.pre.len_h]; exact hw)
        have hHlt := r2.pre.active_height_lt hs w hw hws c1
        have hR1 : st1.height.getD w 0 + 1 ≤
            relabelValue (2 * n) st1.height (arcs st1.adj w) := by
          apply le_relabelValue
          · omega
          · intro e he hc
            obtain ⟨i, hi, hie⟩ := (mem_arcs_iff _ _ _).mp he
            rw [← hie] at hc ⊢
            rcases r2.cur w i (by omega) hi with h0 | h0
            · omega
            · omega
        have hR2 := relabelValue_le_top (2 * n) st1.height (arcs st1.adj w)
        have hpre2 : PreInv A0 n s t (2 * n) st1.adj
            (st1.height.set w (relabelValue (2 * n) st1.height (arcs st1.adj w)))
            st1.excess := by
          apply r2.pre.relabel_pre w hw hws hwt _ (by omega) hR2
          intro i hi hc
          exact relabelValue_le_arc _ _ _ _ ((mem_arcs_iff _ _ _).mpr ⟨i, hi, rfl⟩) hc
        have hI2 : Inv A0 n s t w
            { relabel n st1 w with iter := (relabel n st1 w).iter.set w 0 } := by
          rw [hrel]
          exact ⟨hpre2, by simp [r2.len_iter],
            r2.cur.relabel_cur w (by rw [r2.pre.len_h]; exact hw)
              (by rw [r2.len_iter]; exact hw) _ (by omega),
            r2.histInv, r2.act_mem, r2.nodup, r2.notin, r2.act_all⟩
        have hm2 : measure A0 n s
            { relabel n st1 w with iter := (relabel n st1 w).iter.set w 0 } + 1 ≤
            measure A0 n s st1 := by
          rw [hrel]
          exact preflowMeasure_relabel r2.pre hs w hw _ hpre2 (by omega) hR2
        obtain ⟨st', d1, d2, d3, d4, d5, d6, d7⟩ := ih
          { relabel n st1 w with iter := (relabel n st1 w).iter.set w 0 } hI2 (by
            rw [hrel]
            show 2 * n - (st1.height.set w _).getD w 0 < k
            rw [getD_set_height _ _ _ (by rw [r2.pre.len_h]; exact hw), if_pos rfl]
            have hh : st1.height.getD w 0 = st.height.getD w 0 := by rw [r3]
            omega)
        refine ⟨st', ?_, d2, d3, by omega, fun _ => by omega, ?_, ?_⟩
        · rw [discharge, if_pos hpos, r1]
          exact d1
        · obtain ⟨new1, e1⟩ := r5
          obtain ⟨new2, e2⟩ := d6
          refine ⟨new2 ++ new1, ?_⟩
          rw [e2, hrel]
          show new2 ++ st1.hist = _
          rw [e1, List.append_assoc]
        · intro hsv
          apply d7
          rw [hrel]
          exact (r8 hsv).relabel_src w (by rw [r2.pre.len_h]; exact hw) hws _ (by omega)
    · refine ⟨st, ?_, hI, ?_, le_refl _, fun c => absurd c hpos, ⟨[], rfl⟩, fun h => h⟩
      · rw [discharge, if_neg hpos]
      · have := hI.pre.exc_nonneg w
        omega

end FIFOPP

namespace FIFOPP

/-- The main loop terminates with an empty queue. -/
theorem fifopp_flowLoop_spec {A0 : Adj} {n s t F : Nat} (hs : s < n)
    (hF : ∀ x, (arcs A0 x).length < F) (hF2 : 2 * n < F) :
    ∀ (k : Nat) (st : State), Inv A0 n s t n st → measure A0 n s st < k →
      ∃ st', flowLoop n s t F k st = some st' ∧ Inv A0 n s t n st' ∧ st'.active = [] ∧
        (∃ new, st'.hist = new ++ st.hist) ∧
        (SrcValid st.adj st.height s → SrcValid st'.adj st'.height s) := by
  intro k
  induction k with
  | zero => intro st _ hk; omega
  | succ k ih =>
    intro st hI hk
    rcases hact : st.active with _ | ⟨v, rest⟩
    · refine ⟨st, ?_, hI, hact, ⟨[], rfl⟩, fun h => h⟩
      rw [flowLoop, hact]
    · have hvm : v ∈ st.active := by rw [hact]; exact List.mem_cons_self _ _
      obtain ⟨a1, a2, a3, a4⟩ := hI.act_mem v hvm
      have hnd := hI.nodup
      rw [hact, List.nodup_cons] at hnd
      have hI1 : Inv A0 n s t v { st with active := rest } := by
        refine ⟨hI.pre, hI.len_iter, hI.cur, hI.histInv, ?_, hnd.2, hnd.1, ?_⟩
        · intro x hx
          exact hI.act_mem x (by rw [hact]; exact List.mem_cons_of_mem _ hx)
        · intro x h1 h2 h3 h4
          rcases hI.act_all x h1 h2 h3 h4 with h | h
          · rw [hact] at h
            rcases List.mem_cons.mp h with h' | h'
            · exact Or.inr h'
            · exact Or.inl h'
          · omega
      obtain ⟨st1, d1, d2, d3, d4, d5, d6, d7⟩ := fifopp_discharge_spec a1 a2 a3 hs hF F
        { st with active := rest } hI1 (by
          show 2 * n - st.height.getD v 0 < F
          omega)
      have hI2 : Inv A0 n s t n st1 := by
        refine ⟨d2.pre, d2.len_iter, d2.cur, d2.histInv, d2.act_mem, d2.nodup, ?_, ?_⟩
        · intro c
          have := (d2.act_mem n c).1
          omega
        · intro x h1 h2 h3 h4
          rcases d2.act_all x h1 h2 h3 h4 with h | h
          · exact Or.inl h
          · rw [h, d3] at h4
            omega
      have hm : measure A0 n s st1 + 1 ≤ measure A0 n s st := d5 a4
      obtain ⟨st', e1, e2, e3, ⟨new2, e4⟩, e5⟩ := ih st1 hI2 (by omega)
      refine ⟨st', ?_, e2, e3, ?_, fun h => e5 (d7 h)⟩
      · rw [flowLoop, hact]
        simp only
        rw [d1]
        exact e1
      · obtain ⟨new1, f1⟩ := d6
        refine ⟨new2 ++ new1, ?_⟩
        rw [e4, f1, List.append_assoc]

end FIFOPP

namespace Residual

theorem arc_cap_le_capSum (l : List Edge) (h : ∀ e ∈ l, 0 ≤ e.cap) (e : Edge) (he : e ∈ l) :
    e.cap ≤ capSum l := by
  induction l with
  | nil => simp at he
  | cons a l ih =>
    have hl : ∀ e ∈ l, 0 ≤ e.cap := fun x hx => h x (List.mem_cons_of_mem _ hx)
    have hs : capSum (a :: l) = a.cap + capSum l := by simp [capSum]
    rw [hs]
    rcases List.mem_cons.mp he with h1 | h1
    · rw [h1]
      have := capSum_nonneg l hl
      omega
    · have := ih hl h1
      have := h a (List.mem_cons_self _ _)
      omega

/-- While the source has been given at least the capacity of its arcs, its excess covers
every arc that leaves it. -/
theorem PreInv.source_covers {A0 : Adj} {n s t top : Nat} {adj : Adj} {height : List Nat}
    {excess : List Int} (h : PreInv A0 n s t top adj height excess)
    (hcap : capSum (arcs A0 s) ≤ SOURCE_EXCESS) (i : Nat) (hi : i < (arcs adj s).length) :
    (arc adj s i).cap ≤ excess.getD s 0 := by
  have e1 := h.exc_eq s
  rw [if_pos rfl] at e1
  unfold excessOf at e1
  have := arc_cap_le_capSum (arcs adj s) (by
    intro e he
    obtain ⟨j, hj, hje⟩ := (mem_arcs_iff _ _ _).mp he
    rw [← hje]
    exact h.net.nonneg s j hj) (arc adj s i) ((mem_arcs_iff _ _ _).mpr ⟨i, hi, rfl⟩)
  omega

end Residual

namespace FIFOPP

theorem preprocessFor_eq (n v : Nat) (es : List Edge) (st : State) (q : List Nat) :
    preprocessFor n v es st q =
      ({ st with height := (revBfsFor n st.adj v es st.height q).1 },
        (revBfsFor n st.adj v es st.height q).2) := by
  induction es generalizing st q with
  | nil => rfl
  | cons e es ih =>
    rw [preprocessFor, revBfsFor]
    split
    · rw [ih]
    · rw [ih]

theorem preprocessWhile_eq (n : Nat) (k : Nat) (st : State) (q : List Nat) :
    preprocessWhile n k st q =
      (revBfsWhile n st.adj k st.height q).map (fun H => { st with height := H }) := by
  induction k generalizing st q with
  | zero => rfl
  | succ k ih =>
    cases q with
    | nil => rfl
    | cons v q1 =>
      rw [preprocessWhile, revBfsWhile]
      simp only
      rw [preprocessFor_eq, ih]

/-- The loop that pushes along the arcs of the source. -/
theorem fifopp_pushAll_spec {A0 : Adj} {n s t : Nat} (hs : s < n) :
    ∀ (is : List Nat) (st : State), Inv A0 n s t n st → is.Nodup →
      (∀ i ∈ is, i < (arcs st.adj s).length) →
      Inv A0 n s t n (is.foldl (fun st1 i => push s t st1 s i) st) ∧
      (is.foldl (fun st1 i => push s t st1 s i) st).height = st.height ∧
      (∃ new, (is.foldl (fun st1 i => push s t st1 s i) st).hist = new ++ st.hist) ∧
      (∀ j, j ∉ is → arc (is.foldl (fun st1 i => push s t st1 s i) st).adj s j = arc st.adj s j) ∧
      (capSum (arcs A0 s) ≤ SOURCE_EXCESS → ∀ i ∈ is,
        0 < (arc (is.foldl (fun st1 i => push s t st1 s i) st).adj s i).cap →
        st.height.getD s 0 ≤ st.height.getD (arc st.adj s i).dst 0) := by
  intro is
  induction is with
  | nil =>
    intro st hI _ _
    exact ⟨hI, rfl, ⟨[], rfl⟩, fun _ _ => rfl, fun _ i hi => absurd hi (List.not_mem_nil _)⟩
  | cons i is ih =>
    intro st hI hnd his
    rw [List.nodup_cons] at hnd
    have hi := his i (List.mem_cons_self _ _)
    obtain ⟨q1, q2, q3, q4, q5, q6, q7, q8, q9⟩ := fifopp_push_spec hI s hs
      (Or.inr ⟨rfl, le_refl _⟩) i hi
    have hlen1 : (arcs (push s t st s i).adj s).length = (arcs st.adj s).length := by
      rw [q1.pre.net.length_arcs, ← hI.pre.net.length_arcs]
    obtain ⟨r1, r2, r3, r4, r5⟩ := ih (push s t st s i) q1 hnd.2 (by
      intro j hj
      rw [hlen1]
      exact his j (List.mem_cons_of_mem _ hj))
    rw [List.foldl_cons]
    have hdst : ∀ j, (arc (push s t st s i).adj s j).dst = (arc st.adj s j).dst := by
      intro j
      rw [q1.pre.net.dst_eq, ← hI.pre.net.dst_eq]
    refine ⟨r1, r2.trans q3, ?_, ?_, ?_⟩
    · obtain ⟨new1, e1⟩ := q4
      obtain ⟨new2, e2⟩ := r3
      exact ⟨new2 ++ new1, by rw [e2, e1, List.append_assoc]⟩
    · intro j hj
      rw [r4 j (fun c => hj (List.mem_cons_of_mem _ c))]
      exact q8 j (fun c => hj (c ▸ List.mem_cons_self _ _))
    · intro hcap j hj hpos
      rcases List.mem_cons.mp hj with h | h
      · rw [h] at hpos ⊢
        rw [r4 i hnd.1] at hpos
        by_contra hcon
        have := q9 (hI.pre.source_covers hcap i hi) (by omega)
        omega
      · have := r5 hcap j h hpos
        rw [q3, hdst] at this
        exact this

end FIFOPP

namespace Residual

theorem heightRoom_le (n top : Nat) (height : List Nat) : heightRoom n top height ≤ n * top := by
  unfold heightRoom
  calc (∑ v in Finset.range n, (top - height.getD v 0))
      ≤ ∑ _v in Finset.range n, top := Finset.sum_le_sum (fun v _ => Nat.sub_le _ _)
    _ = n * top := by simp

/-- The termination measure is below `preflowFuel`. -/
theorem preflowMeasure_lt_fuel {A0 : Adj} {n s t : Nat} {adj : Adj} {height : List Nat}
    {excess : List Int} (h : PreInv A0 n s t (2 * n) adj height excess) (hs : s < n) :
    preflowMeasure A0 n s (2 * n) height excess < preflowFuel A0 n s := by
  have h1 := heightRoom_le n (2 * n) height
  have h2 := excessPot_le_potBound h hs
  have h3 := excessPot_nonneg h
  unfold preflowMeasure preflowFuel
  have h4 : (excessPot n s height excess).toNat ≤ potBound A0 s (2 * n) := by omega
  have h5 : heightRoom n (2 * n) height * (potBound A0 s (2 * n) + 1) ≤
      2 * n * n * (potBound A0 s (2 * n) + 1) := by
    apply Nat.mul_le_mul_right
    calc heightRoom n (2 * n) height ≤ n * (2 * n) := h1
      _ = 2 * n * n := by ring
  have h6 : (2 * n * n + 1) * (potBound A0 s (2 * n) + 1) =
      2 * n * n * (potBound A0 s (2 * n) + 1) + (potBound A0 s (2 * n) + 1) := by ring
  omega

end Residual

namespace FIFOPP

/-- The state after `preprocess` on a freshly built network satisfies the invariant of the
main loop. -/
theorem fifopp_preprocess_spec (n s t : Nat) (edges : List InEdge) (hr : InRange n edges)
    (hs : s < n) (ht : t < n) (hst : s ≠ t) (fuel : Nat) (hfuel : 2 * n < fuel) :
    ∃ st1, preprocess n s t fuel (init n s t edges) = some st1 ∧
      Inv (buildPreflow n s t edges) n s t n st1 ∧
      (capSum (arcs (buildPreflow n s t edges) s) ≤ SOURCE_EXCESS →
        SrcValid st1.adj st1.height s) := by
  have hinv := buildWith_inv (keptPreflow s t) (keptPreflow_ne s t) n edges hr 0
  rw [← buildPreflow_eq_buildWith] at hinv
  have hnet : NetInv (buildPreflow n s t edges) (buildPreflow n s t edges) := by
    rw [buildPreflow_eq_buildWith]
    exact netInv_buildWith _ (keptPreflow_ne s t) (keptPreflow_cap s t) n edges hr
  obtain ⟨H, b1, b2, b3, b4, b5, b6, _⟩ := revBfs_heights hinv.2.1 hinv.1 ht fuel hfuel
  have hwhile : preprocessWhile n fuel
      { init n s t edges with
        height := (List.replicate (init n s t edges).height.length n).set t 0 } [t] =
      some { init n s t edges with height := H } := by
    rw [preprocessWhile_eq]
    show (revBfsWhile n (buildPreflow n s t edges) fuel
      ((List.replicate (List.replicate n 0).length n).set t 0) [t]).map _ = _
    rw [List.length_replicate, b1]
    rfl
  have hgH := getD_set_height H s n (by rw [b2]; exact hs)
  have hex : ∀ x, ((List.replicate n (0 : Int)).set s SOURCE_EXCESS).getD x 0 =
      if x = s then SOURCE_EXCESS else 0 := by
    intro x
    rw [getD_set_eq, getD_replicate_eq]
    by_cases hx : x = s
    · rw [if_pos ⟨hx, by simp; exact hs⟩, if_pos hx]
    · rw [if_neg (fun c => hx c.1), if_neg hx]
      split <;> rfl
  have hI0 : Inv (buildPreflow n s t edges) n s t n
      (State.mk (buildPreflow n s t edges) (H.set s n) (List.replicate n 0)
        ((List.replicate n 0).set s SOURCE_EXCESS) [] [buildPreflow n s t edges]) := by
    refine ⟨⟨hinv.2.1, hinv.1, hnet, hnet, by simp [b2], by simp, ?_, ?_, ?_, ?_, ?_, ?_, ?_⟩,
      by simp, ?_, ?_, ?_, List.nodup_nil, List.not_mem_nil _, ?_⟩
    · intro v
      show ((List.replicate n (0 : Int)).set s SOURCE_EXCESS).getD v 0 = _
      rw [hex, excessOf_self]
      simp
    · intro v
      show 0 ≤ ((List.replicate n (0 : Int)).set s SOURCE_EXCESS).getD v 0
      rw [hex]
      split
      · decide
      · exact le_refl _
    · show (H.set s n).getD s 0 = n
      rw [hgH, if_pos rfl]
    · show (H.set s n).getD t 0 = 0
      rw [hgH, if_neg (fun c => hst c.symm)]
      exact b3
    · intro v hv hvt
      show 1 ≤ (H.set s n).getD v 0
      rw [hgH]
      split
      · omega
      · exact b5 v hv hvt
    · intro v
      show (H.set s n).getD v 0 ≤ 2 * n
      rw [hgH]
      have := b4 v
      split <;> omega
    · intro v i hvs hi hcap
      have hi' : i < (arcs (buildPreflow n s t edges) v).length := hi
      have hcap' : 0 < (arc (buildPreflow n s t edges) v i).cap := hcap
      show (H.set s n).getD v 0 ≤
        (H.set s n).getD (arc (buildPreflow n s t edges) v i).dst 0 + 1
      rw [hgH, hgH, if_neg hvs]
      have := b6 v i hi' hcap'
      have := b4 v
      split <;> omega
    · intro v i hi _
      simp only [getD_replicate_eq] at hi
      split at hi <;> omega
    · intro a ha
      rw [List.mem_singleton] at ha
      rw [ha]
      exact hnet
    · intro v hv
      exact absurd hv (List.not_mem_nil _)
    · intro v hv hvs hvt hpos
      simp only at hpos
      rw [hex, if_neg hvs] at hpos
      omega
  obtain ⟨r1, r2, r3, r4, r5⟩ := fifopp_pushAll_spec (t := t) hs
    (List.range (arcs (buildPreflow n s t edges) s).length) _ hI0 (List.nodup_range _)
    (fun i hi => List.mem_range.mp hi)
  refine ⟨_, ?_, r1, ?_⟩
  · unfold preprocess
    rw [hwhile]
    rfl
  · intro hcap i hi hpos
    rw [r2]
    have hlen1 := r1.pre.net.length_arcs s
    rw [hlen1, ← hnet.length_arcs] at hi
    have := r5 hcap i (List.mem_range.mpr hi) hpos
    have hd : (arc (List.foldl (fun st1 i => push s t st1 s i)
        (State.mk (buildPreflow n s t edges) (H.set s n) (List.replicate n 0)
          ((List.replicate n 0).set s SOURCE_EXCESS) [] [buildPreflow n s t edges])
        (List.range (arcs (buildPreflow n s t edges) s).length)).adj s i).dst =
        (arc (buildPreflow n s t edges) s i).dst := r1.pre.net.dst_eq s i
    rw [hd]
    have h5 : (H.set s n).getD s 0 ≤
        (H.set s n).getD (arc (buildPreflow n s t edges) s i).dst 0 := this
    show (H.set s n).getD s 0 ≤
      (H.set s n).getD (arc (buildPreflow n s t edges) s i).dst 0 + 1
    omega

/-- The run of fifopp.cpp on a freshly built network: it terminates with an empty queue, in
a state that satisfies the invariant of the main loop. -/
theorem fifopp_flow_spec (n s t : Nat) (edges : List InEdge) (hr : InRange n edges)
    (hs : s < n) (ht : t < n) (hst : s ≠ t) (fuel : Nat)
    (hfuel : preflowFuel (buildPreflow n s t edges) n s < fuel) :
    ∃ st', flow n s t fuel (init n s t edges) = some (st'.excess.getD t 0, st') ∧
      Inv (buildPreflow n s t edges) n s t n st' ∧ st'.active = [] ∧
      (capSum (arcs (buildPreflow n s t edges) s) ≤ SOURCE_EXCESS →
        SrcValid st'.adj st'.height s) := by
  unfold preflowFuel at hfuel
  obtain ⟨st1, p1, p2, p3⟩ := fifopp_preprocess_spec n s t edges hr hs ht hst fuel (by omega)
  have hm := preflowMeasure_lt_fuel p2.pre hs
  unfold preflowFuel at hm
  obtain ⟨st', f1, f2, f3, _, f5⟩ := fifopp_flowLoop_spec (F := fuel) hs
    (fun x => lt_of_le_of_lt (length_arcs_le_totalArcs _ n p2.pre.len0 x) (by omega))
    (by omega) fuel st1 p2 (by
      show preflowMeasure _ n s (2 * n) st1.height st1.excess < fuel
      omega)
  refine ⟨st', ?_, f2, f3, fun h => f5 (p3 h)⟩
  unfold flow
  rw [p1]
  simp only
  rw [f1]

end FIFOPP

namespace HLPP

theorem hlpp_push_eq (s t : Nat) (st : State) (v i : Nat) :
    push s t st v i =
      if min (st.excess.getD v 0) (arc st.adj v i).cap ≤ 0 ∨
          st.height.getD v 0 ≤ st.height.getD (arc st.adj v i).dst 0 then st
      else
        State.mk (pushFlow st.adj v i (min (st.excess.getD v 0) (arc st.adj v i).cap))
          st.height st.iter
          (moveExcess st.excess v (arc st.adj v i).dst
            (min (st.excess.getD v 0) (arc st.adj v i).cap))
          (if st.excess.getD (arc st.adj v i).dst 0 = 0 ∧ (arc st.adj v i).dst ≠ s ∧
              (arc st.adj v i).dst ≠ t then
            st.buckets.set (st.height.getD (arc st.adj v i).dst 0)
              (st.buckets.getD (st.height.getD (arc st.adj v i).dst 0) [] ++
                [(arc st.adj v i).dst])
          else st.buckets)
          (if st.excess.getD (arc st.adj v i).dst 0 = 0 ∧ (arc st.adj v i).dst ≠ s ∧
              (arc st.adj v i).dst ≠ t then
            max st.max_height (st.height.getD (arc st.adj v i).dst 0)
          else st.max_height)
          (pushFlow st.adj v i (min (st.excess.getD v 0) (arc st.adj v i).cap) :: st.hist) := by
  unfold push
  simp only
  split
  · rfl
  · split <;> rfl

/-- One call of `push` from the node `v`, which is the node under discharge or the
source. -/
theorem hlpp_push_spec {A0 : Adj} {n s t w : Nat} {st : State} (hI : Inv A0 n s t w st)
    (v : Nat) (hv : v < n) (hvw : v = w ∨ (v = s ∧ n ≤ w)) (i : Nat)
    (hi : i < (arcs st.adj v).length) :
    Inv A0 n s t w (push s t st v i) ∧
    (push s t st v i).iter = st.iter ∧ (push s t st v i).height = st.height ∧
    (∃ new, (push s t st v i).hist = new ++ st.hist) ∧
    (push s t st v i = st ∨
      (v ≠ s → measure A0 n s (push s t st v i) + 1 ≤ measure A0 n s st)) ∧
    (0 < (push s t st v i).excess.getD v 0 →
      (arc (push s t st v i).adj v i).cap = 0 ∨
      st.height.getD v 0 ≤ st.height.getD (arc (push s t st v i).adj v i).dst 0) ∧
    (SrcValid st.adj st.height s → SrcValid (push s t st v i).adj (push s t st v i).height s) ∧
    (∀ j, j ≠ i → arc (push s t st v i).adj v j = arc st.adj v j) ∧
    ((arc st.adj v i).cap ≤ st.excess.getD v 0 →
      st.height.getD (arc st.adj v i).dst 0 < st.height.getD v 0 →
      (arc (push s t st v i).adj v i).cap = 0) := by
  have hnotin : ∀ h, v ∉ st.buckets.getD h [] := by
    intro h
    rcases hvw with h' | h'
    · rw [h']; exact hI.notin h
    · intro c
      exact (hI.bk_mem h v c).2.1 h'.1
  rw [hlpp_push_eq]
  by_cases hg : min (st.excess.getD v 0) (arc st.adj v i).cap ≤ 0 ∨
      st.height.getD v 0 ≤ st.height.getD (arc st.adj v i).dst 0
  · rw [if_pos hg]
    have hcn := hI.pre.net.nonneg v i hi
    refine ⟨hI, rfl, rfl, ⟨[], rfl⟩, Or.inl rfl, ?_, fun h => h, fun _ _ => rfl, ?_⟩
    · intro hex
      rcases hg with h1 | h1
      · left
        rcases min_le_iff.mp h1 with h2 | h2
        · omega
        · omega
      · exact Or.inr h1
    · intro h1 h2
      rcases hg with h3 | h3
      · rw [min_eq_right h1] at h3
        omega
      · omega
  · rw [if_neg hg]
    have hd0 : 0 < min (st.excess.getD v 0) (arc st.adj v i).cap := by
      by_contra c
      exact hg (Or.inl (by omega))
    have hh : st.height.getD (arc st.adj v i).dst 0 < st.height.getD v 0 := by
      by_contra c
      exact hg (Or.inr (by omega))
    have hd1 := min_le_left (st.excess.getD v 0) (arc st.adj v i).cap
    have hd2 := min_le_right (st.excess.getD v 0) (arc st.adj v i).cap
    have hpa := hI.pre.net.paired hI.pre.paired0
    obtain ⟨p1, p2, p3, p4, p5⟩ := hpa v i hi
    rw [hI.pre.net.length_eq, hI.pre.len0] at p1
    have hpre := hI.pre.push_pre v i _ hv hi hd0 hd1 hd2 hh
    have hex : ∀ x, (moveExcess st.excess v (arc st.adj v i).dst
        (min (st.excess.getD v 0) (arc st.adj v i).cap)).getD x 0 =
        st.excess.getD x 0 - (if x = v then min (st.excess.getD v 0) (arc st.adj v i).cap else 0)
          + (if x = (arc st.adj v i).dst then
              min (st.excess.getD v 0) (arc st.adj v i).cap else 0) :=
      getD_moveExcess st.excess v _ _ (fun c => p2 c.symm) (by rw [hI.pre.len_ex]; exact hv)
        (by rw [hI.pre.len_ex]; exact p1)
    have hHd : st.height.getD (arc st.adj v i).dst 0 < st.buckets.length := by
      rw [hI.len_b]
      have := hI.pre.h_le v
      omega
    -- membership in the buckets after the push
    have hbk : ∀ h x, x ∈ (if st.excess.getD (arc st.adj v i).dst 0 = 0 ∧
          (arc st.adj v i).dst ≠ s ∧ (arc st.adj v i).dst ≠ t then
        st.buckets.set (st.height.getD (arc st.adj v i).dst 0)
          (st.buckets.getD (st.height.getD (arc st.adj v i).dst 0) [] ++
            [(arc st.adj v i).dst])
        else st.buckets).getD h [] ↔
        (x ∈ st.buckets.getD h [] ∨ (x = (arc st.adj v i).dst ∧
          h = st.height.getD (arc st.adj v i).dst 0 ∧
          st.excess.getD (arc st.adj v i).dst 0 = 0 ∧
          (arc st.adj v i).dst ≠ s ∧ (arc st.adj v i).dst ≠ t)) := by
      intro h x
      by_cases hc : st.excess.getD (arc st.adj v i).dst 0 = 0 ∧
          (arc st.adj v i).dst ≠ s ∧ (arc st.adj v i).dst ≠ t
      · rw [if_pos hc, getD_set_eq]
        by_cases hh' : h = st.height.getD (arc st.adj v i).dst 0
        · rw [if_pos ⟨hh', hHd⟩, List.mem_append, List.mem_singleton, hh']
          constructor
          · rintro (h1 | h1)
            · exact Or.inl h1
            · exact Or.inr ⟨h1, rfl, hc⟩
          · rintro (h1 | h1)
            · exact Or.inl h1
            · exact Or.inr h1.1
        · rw [if_neg (fun c => hh' c.1)]
          constructor
          · intro h1
            exact Or.inl h1
          · rintro (h1 | h1)
            · exact h1
            · exact absurd h1.2.1 hh'
      · rw [if_neg hc]
        constructor
        · intro h1
          exact Or.inl h1
        · rintro (h1 | h1)
          · exact h1
          · exact absurd h1.2.2 hc
    refine ⟨⟨hpre, hI.len_iter, hI.cur.push_cur hI.pre v i _ hi hd0 hd2 hh, ?_, ?_, ?_, ?_, ?_,
      ?_, ?_, ?_⟩, rfl, rfl, ⟨[_], rfl⟩, Or.inr ?_, ?_, ?_, ?_, ?_⟩
    · intro a ha
      rcases List.mem_cons.mp ha with h | h
      · rw [h]; exact hpre.net
      · exact hI.histInv a h
    · -- len_b
      show (if _ then _ else _ : List (List Nat)).length = 2 * n
      split
      · rw [List.length_set]; exact hI.len_b
      · exact hI.len_b
    · -- bk_mem
      intro h x hx
      rw [hbk] at hx
      show x < n ∧ x ≠ s ∧ x ≠ t ∧ 0 < (moveExcess _ _ _ _).getD x 0 ∧ st.height.getD x 0 = h
      rw [hex]
      rcases hx with h1 | h1
      · obtain ⟨a1, a2, a3, a4, a5⟩ := hI.bk_mem h x h1
        have hxw : x ≠ v := fun c => hnotin h (c ▸ h1)
        rw [if_neg hxw]
        refine ⟨a1, a2, a3, ?_, a5⟩
        split <;> omega
      · have hxw : x ≠ v := by rw [h1.1]; exact p2
        rw [if_neg hxw, if_pos h1.1]
        refine ⟨by rw [h1.1]; exact p1, by rw [h1.1]; exact h1.2.2.2.1,
          by rw [h1.1]; exact h1.2.2.2.2, ?_, by rw [h1.1, h1.2.1]⟩
        have := hI.pre.exc_nonneg x
        omega
    · -- bk_nodup
      intro h
      show ((if _ then _ else _ : List (List Nat)).getD h []).Nodup
      by_cases hc : st.excess.getD (arc st.adj v i).dst 0 = 0 ∧
          (arc st.adj v i).dst ≠ s ∧ (arc st.adj v i).dst ≠ t
      · rw [if_pos hc, getD_set_eq]
        split
        · apply List.Nodup.append (hI.bk_nodup _) (List.nodup_singleton _)
          intro a ha hb
          rw [List.mem_singleton] at hb
          rw [hb] at ha
          have := (hI.bk_mem _ _ ha).2.2.2.1
          omega
        · exact hI.bk_nodup h
      · rw [if_neg hc]
        exact hI.bk_nodup h
    · -- notin
      intro h c
      rw [hbk] at c
      rcases c with h1 | h1
      · exact hI.notin h h1
      · rcases hvw with h' | h'
        · rw [← h'] at h1
          exact p2 h1.1.symm
        · omega
    · -- act_all
      intro x hx hxs hxt hpos
      show x ∈ (if _ then _ else _ : List (List Nat)).getD (st.height.getD x 0) [] ∨ x = w
      have hpos' : 0 < (moveExcess st.excess v (arc st.adj v i).dst
          (min (st.excess.getD v 0) (arc st.adj v i).cap)).getD x 0 := hpos
      rw [hex] at hpos'
      by_cases hxw : x = w
      · exact Or.inr hxw
      · left
        rw [hbk]
        have hxv : x ≠ v := by
          rcases hvw with h' | h'
          · rw [h']; exact hxw
          · rw [h'.1]; exact hxs
        rw [if_neg hxv] at hpos'
        by_cases hxd : x = (arc st.adj v i).dst
        · by_cases hz : st.excess.getD (arc st.adj v i).dst 0 = 0
          · exact Or.inr ⟨hxd, by rw [hxd], hz, by rw [← hxd]; exact hxs,
              by rw [← hxd]; exact hxt⟩
          · have hp2 : 0 < st.excess.getD x 0 := by
              have := hI.pre.exc_nonneg x
              rw [hxd] at this ⊢
              omega
            rcases hI.act_all x hx hxs hxt hp2 with h | h
            · exact Or.inl h
            · exact absurd h hxw
        · rw [if_neg hxd] at hpos'
          rcases hI.act_all x hx hxs hxt (by omega) with h | h
          · exact Or.inl h
          · exact absurd h hxw
    · -- mh_empty
      intro h hlt
      show (if _ then _ else _ : List (List Nat)).getD h [] = []
      have hlt' : (if st.excess.getD (arc st.adj v i).dst 0 = 0 ∧ (arc st.adj v i).dst ≠ s ∧
          (arc st.adj v i).dst ≠ t then
            max st.max_height (st.height.getD (arc st.adj v i).dst 0)
          else st.max_height) < h := hlt
      by_cases hc : st.excess.getD (arc st.adj v i).dst 0 = 0 ∧
          (arc st.adj v i).dst ≠ s ∧ (arc st.adj v i).dst ≠ t
      · rw [if_pos hc] at hlt' ⊢
        rw [getD_set_eq, if_neg (fun c => by
          have := c.1
          have := le_max_right st.max_height (st.height.getD (arc st.adj v i).dst 0)
          omega)]
        apply hI.mh_empty
        have := le_max_left st.max_height (st.height.getD (arc st.adj v i).dst 0)
        omega
      · rw [if_neg hc] at hlt' ⊢
        exact hI.mh_empty h hlt'
    · -- mh_le
      show (if _ then _ else _ : Nat) ≤ 2 * n
      split
      · apply max_le hI.mh_le
        have := hI.pre.h_le v
        omega
      · exact hI.mh_le
    · intro hvs
      exact preflowMeasure_push hI.pre v i _ hv hvs hi hd0 hd1 hd2 hh
    · intro hpos
      have hpos' : 0 < (moveExcess st.excess v (arc st.adj v i).dst
          (min (st.excess.getD v 0) (arc st.adj v i).cap)).getD v 0 := hpos
      rw [hex, if_pos rfl, if_neg (fun c => p2 c.symm)] at hpos'
      left
      show (arc (pushFlow st.adj v i _) v i).cap = 0
      rw [cap_pushFlow hpa v i _ hi v i, if_pos ⟨rfl, rfl⟩,
        if_neg (fun c => p2 c.1.symm)]
      have : min (st.excess.getD v 0) (arc st.adj v i).cap = (arc st.adj v i).cap := by
        rcases min_choice (st.excess.getD v 0) (arc st.adj v i).cap with h | h
        · omega
        · exact h
      omega
    · intro hsv
      exact hsv.push_src hI.pre v i _ hi hd0 hh
    · intro j hji
      show arc (pushFlow st.adj v i _) v j = _
      unfold pushFlow
      rw [arc_addCap, if_neg (fun c => p2 (by
        have := c.1
        rw [arc_addCap_dst] at this
        exact this.symm)), arc_addCap, if_neg (fun c => hji c.2.1)]
    · intro h1 _
      show (arc (pushFlow st.adj v i _) v i).cap = 0
      rw [cap_pushFlow hpa v i _ hi v i, if_pos ⟨rfl, rfl⟩,
        if_neg (fun c => p2 c.1.symm), min_eq_right h1]
      omega

end HLPP

namespace HLPP

end HLPP

namespace Residual

theorem dropLast_append_getLastD (l : List Nat) (h : l ≠ []) :
    l.dropLast ++ [l.getLastD 0] = l := by
  induction l with
  | nil => exact absurd rfl h
  | cons a l ih =>
    cases l with
    | nil => rfl
    | cons b l =>
      have := ih (by simp)
      simp only [List.dropLast_cons₂, List.cons_append, List.getLastD_cons] at this ⊢
      rw [this]

theorem dropLast_getLastD_facts (l : List Nat) (h : l ≠ []) (hnd : l.Nodup) :
    (∀ x, x ∈ l ↔ x ∈ l.dropLast ∨ x = l.getLastD 0) ∧ l.dropLast.Nodup ∧
      l.getLastD 0 ∉ l.dropLast := by
  have hb := dropLast_append_getLastD l h
  generalize l.dropLast = dl at hb ⊢
  generalize l.getLastD 0 = v at hb ⊢
  subst hb
  have hnd' := List.nodup_append.mp hnd
  refine ⟨?_, hnd'.1, fun c => hnd'.2.2 c (List.mem_singleton.mpr rfl)⟩
  intro x
  rw [List.mem_append, List.mem_singleton]

end Residual

namespace HLPP

end HLPP

namespace HLPP

theorem hlpp_preprocessFor_eq (n v : Nat) (es : List Edge) (st : State) (q : List Nat) :
    preprocessFor n v es st q =
      ({ st with height := (revBfsFor n st.adj v es st.height q).1 },
        (revBfsFor n st.adj v es st.height q).2) := by
  induction es generalizing st q with
  | nil => rfl
  | cons e es ih =>
    rw [preprocessFor, revBfsFor]
    split
    · rw [ih]
    · rw [ih]

theorem hlpp_preprocessWhile_eq (n : Nat) (k : Nat) (st : State) (q : List Nat) :
    preprocessWhile n k st q =
      (revBfsWhile n st.adj k st.height q).map (fun H => { st with height := H }) := by
  induction k generalizing st q with
  | zero => rfl
  | succ k ih =>
    cases q with
    | nil => rfl
    | cons v q1 =>
      rw [preprocessWhile, revBfsWhile]
      simp only
      rw [hlpp_preprocessFor_eq, ih]

/-- The loop that pushes along the arcs of the source. -/
theorem hlpp_pushAll_spec {A0 : Adj} {n s t : Nat} (hs : s < n) :
    ∀ (is : List Nat) (st : State), Inv A0 n s t n st → is.Nodup →
      (∀ i ∈ is, i < (arcs st.adj s).length) →
      Inv A0 n s t n (is.foldl (fun st1 i => push s t st1 s i) st) ∧
      (is.foldl (fun st1 i => push s t st1 s i) st).height = st.height ∧
      (∃ new, (is.foldl (fun st1 i => push s t st1 s i) st).hist = new ++ st.hist) ∧
      (∀ j, j ∉ is → arc (is.foldl (fun st1 i => push s t st1 s i) st).adj s j = arc st.adj s j) ∧
      (capSum (arcs A0 s) ≤ SOURCE_EXCESS → ∀ i ∈ is,
        0 < (arc (is.foldl (fun st1 i => push s t st1 s i) st).adj s i).cap →
        st.height.getD s 0 ≤ st.height.getD (arc st.adj s i).dst 0) := by
  intro is
  induction is with
  | nil =>
    intro st hI _ _
    exact ⟨hI, rfl, ⟨[], rfl⟩, fun _ _ => rfl, fun _ i hi => absurd hi (List.not_mem_nil _)⟩
  | cons i is ih =>
    intro st hI hnd his
    rw [List.nodup_cons] at hnd
    have hi := his i (List.mem_cons_self _ _)
    obtain ⟨q1, q2, q3, q4, q5, q6, q7, q8, q9⟩ := hlpp_push_spec hI s hs
      (Or.inr ⟨rfl, le_refl _⟩) i hi
    have hlen1 : (arcs (push s t st s i).adj s).length = (arcs st.adj s).length := by
      rw [q1.pre.net.length_arcs, ← hI.pre.net.length_arcs]
    obtain ⟨r1, r2, r3, r4, r5⟩ := ih (push s t st s i) q1 hnd.2 (by
      intro j hj
      rw [hlen1]
      exact his j (List.mem_cons_of_mem _ hj))
    rw [List.foldl_cons]
    have hdst : ∀ j, (arc (push s t st s i).adj s j).dst = (arc st.adj s j).dst := by
      intro j
      rw [q1.pre.net.dst_eq, ← hI.pre.net.dst_eq]
    refine ⟨r1, r2.trans q3, ?_, ?_, ?_⟩
    · obtain ⟨new1, e1⟩ := q4
      obtain ⟨new2, e2⟩ := r3
      exact ⟨new2 ++ new1, by rw [e2, e1, List.append_assoc]⟩
    · intro j hj
      rw [r4 j (fun c => hj (List.mem_cons_of_mem _ c))]
      exact q8 j (fun c => hj (c ▸ List.mem_cons_self _ _))
    · intro hcap j hj hpos
      rcases List.mem_cons.mp hj with h | h
      · rw [h] at hpos ⊢
        rw [r4 i hnd.1] at hpos
        by_contra hcon
        have := q9 (hI.pre.source_covers hcap i hi) (by omega)
        omega
      · have := r5 hcap j h hpos
        rw [q3, hdst] at this
        exact this

end HLPP

namespace HLPP

end HLPP

namespace Residual

theorem addEdgePreflow_eq_self_iff (s t : Nat) (adj : Adj) (u v : Nat) (cap : Int)
    (hu : u < adj.length) (hv : v < adj.length) :
    addEdgePreflow s t adj u v cap = adj ↔ (u = v ∨ u = t ∨ v = s ∨ cap < 1) := by
  constructor
  · intro h
    by_contra hn
    have hg : u ≠ v ∧ u ≠ t ∧ v ≠ s ∧ cap ≥ 1 := by
      refine ⟨fun a => hn (Or.inl a), fun a => hn (Or.inr (Or.inl a)),
        fun a => hn (Or.inr (Or.inr (Or.inl a))), ?_⟩
      by_contra hc
      exact hn (Or.inr (Or.inr (Or.inr (by omega))))
    rw [addEdgePreflow_eq_addPair s t adj u v cap hg] at h
    have h1 := arcs_addPair adj u v cap hu hv hg.1 u
    rw [h, if_pos rfl] at h1
    have h2 := congrArg List.length h1
    simp at h2
  · intro h
    apply addEdgePreflow_eq_self
    rintro ⟨a, b, c, d⟩
    rcases h with h | h | h | h
    · exact a h
    · exact b h
    · exact c h
    · omega

theorem arcsInOrder_source (s t : Nat) (edges : List InEdge) :
    arcsInOrder (keptPreflow s t) edges s =
      (edges.filter (fun e => keptPreflow s t e && decide (e.1 = s))).map
        (fun e => (e.2.1, e.2.2)) := by
  induction edges with
  | nil => rfl
  | cons e es ih =>
    unfold arcsInOrder at ih ⊢
    rw [List.filterMap_cons, List.filter_cons]
    by_cases hk : keptPreflow s t e = true
    · by_cases h1 : e.1 = s
      · simp only [hk, h1, if_true, Bool.true_and, decide_True, List.map_cons]
        rw [← ih]
      · have h2 : e.2.1 ≠ s := by
          simp only [keptPreflow, decide_eq_true_eq] at hk
          exact hk.2.2.1
        simp only [hk, h1, h2, if_true, if_false, Bool.true_and, decide_False]
        simpa using ih
    · have hk2 : keptPreflow s t e = false := by simpa using hk
      simp only [hk2, Bool.false_and]
      simpa using ih

theorem arcsInOrder_sink (s t : Nat) (edges : List InEdge) :
    arcsInOrder (keptPreflow s t) edges t =
      (edges.filter (fun e => keptPreflow s t e && decide (e.2.1 = t))).map
        (fun e => (e.1, 0)) := by
  induction edges with
  | nil => rfl
  | cons e es ih =>
    unfold arcsInOrder at ih ⊢
    rw [List.filterMap_cons, List.filter_cons]
    by_cases hk : keptPreflow s t e = true
    · have h1 : e.1 ≠ t := by
        simp only [keptPreflow, decide_eq_true_eq] at hk
        exact hk.2.1
      by_cases h2 : e.2.1 = t
      · simp only [hk, h1, h2, if_true, if_false, Bool.true_and, decide_True, List.map_cons]
        rw [← ih]
      · simp only [hk, h1, h2, if_true, if_false, Bool.true_and, decide_False]
        simpa using ih
    · have hk2 : keptPreflow s t e = false := by simpa using hk
      simp only [hk2, Bool.false_and]
      simpa using ih

end Residual

/-- C11: in the three preflow-push solvers, `add_edge(from, to, cap)` on two nodes of the
network returns the network unchanged if and only if `from == to`, or `from` is the sink, or
`to` is the source, or `cap < 1`; hence in the network built by the `add_edge` loop the arc
list of the source holds exactly the forward arcs `(to, cap)` of the kept input edges leaving
the source, each of capacity at least 1, and the arc list of the sink holds exactly the
backward arcs `(from, 0)` of the kept input edges entering the sink, each of capacity 0. -/
theorem preflow_add_edge_unchanged_iff :
    (∀ (s t : Nat) (adj : Adj) (u v : Nat) (cap : Int), u < adj.length → v < adj.length →
      (FIFOPP.add_edge s t adj u v cap = adj ↔ (u = v ∨ u = t ∨ v = s ∨ cap < 1)) ∧
      (HLPP.add_edge s t adj u v cap = adj ↔ (u = v ∨ u = t ∨ v = s ∨ cap < 1)) ∧
      (HLPPHeuristic.addEdge s t adj u v cap = adj ↔ (u = v ∨ u = t ∨ v = s ∨ cap < 1))) ∧
    (∀ (n s t : Nat) (edges : List InEdge), InRange n edges →
      (arcs (buildPreflow n s t edges) s).map (fun e => (e.dst, e.cap)) =
        (edges.filter (fun e => keptPreflow s t e && decide (e.1 = s))).map
          (fun e => (e.2.1, e.2.2)) ∧
      (∀ e ∈ arcs (buildPreflow n s t edges) s, 1 ≤ e.cap) ∧
      (arcs (buildPreflow n s t edges) t).map (fun e => (e.dst, e.cap)) =
        (edges.filter (fun e => keptPreflow s t e && decide (e.2.1 = t))).map
          (fun e => (e.1, 0)) ∧
      (∀ e ∈ arcs (buildPreflow n s t edges) t, e.cap = 0)) := by
  refine ⟨?_, ?_⟩
  · intro s t adj u v cap hu hv
    have h := addEdgePreflow_eq_self_iff s t adj u v cap hu hv
    exact ⟨h, h, h⟩
  · intro n s t edges hr
    have hb : ∀ w, (arcs (buildPreflow n s t edges) w).map (fun e => (e.dst, e.cap)) =
        arcsInOrder (keptPreflow s t) edges w := by
      intro w
      rw [buildPreflow_eq_buildWith]
      exact (buildWith_inv _ (keptPreflow_ne s t) n edges hr w).2.2
    have h1 := (hb s).trans (arcsInOrder_source s t edges)
    have h2 := (hb t).trans (arcsInOrder_sink s t edges)
    refine ⟨h1, ?_, h2, ?_⟩
    · intro e he
      have hm : (e.dst, e.cap) ∈ (arcs (buildPreflow n s t edges) s).map
          (fun e => (e.dst, e.cap)) := List.mem_map_of_mem _ he
      rw [h1] at hm
      obtain ⟨x, hx, hxe⟩ := List.mem_map.1 hm
      have hk := (List.mem_filter.1 hx).2
      simp only [keptPreflow, Bool.and_eq_true, decide_eq_true_eq] at hk
      have : x.2.2 = e.cap := congrArg Prod.snd hxe
      omega
    · intro e he
      have hm : (e.dst, e.cap) ∈ (arcs (buildPreflow n s t edges) t).map
          (fun e => (e.dst, e.cap)) := List.mem_map_of_mem _ he
      rw [h2] at hm
      obtain ⟨x, _, hxe⟩ := List.mem_map.1 hm
      exact (congrArg Prod.snd hxe).symm

/-- The diamond network of the specification, built by the preflow-push `add_edge` with
source 0 and sink 3, and one call on an edge entering the source. -/
theorem preflow_add_edge_unchanged_iff_witness :
    (FIFOPP.add_edge 0 3 (List.replicate 4 []) 1 0 5 = List.replicate 4 [] ↔
      ((1 : Nat) = 0 ∨ (1 : Nat) = 3 ∨ (0 : Nat) = 0 ∨ (5 : Int) < 1)) ∧
    (arcs (buildPreflow 4 0 3 [(0, 1, 3), (0, 2, 2), (1, 3, 2), (2, 3, 3)]) 0).map
        (fun e => (e.dst, e.cap)) = [(1, 3), (2, 2)] ∧
    (arcs (buildPreflow 4 0 3 [(0, 1, 3), (0, 2, 2), (1, 3, 2), (2, 3, 3)]) 3).map
        (fun e => (e.dst, e.cap)) = [(1, 0), (2, 0)] :=
  ⟨(preflow_add_edge_unchanged_iff.1 0 3 (List.replicate 4 []) 1 0 5 (by decide)
      (by decide)).1,
    (preflow_add_edge_unchanged_iff.2 4 0 3 [(0, 1, 3), (0, 2, 2), (1, 3, 2), (2, 3, 3)]
      (by intro e he; simp at he; rcases he with h | h | h | h <;> subst h <;> decide)).1,
    (preflow_add_edge_unchanged_iff.2 4 0 3 [(0, 1, 3), (0, 2, 2), (1, 3, 2), (2, 3, 3)]
      (by intro e he; simp at he; rcases he with h | h | h | h <;> subst h <;> decide)).2.2.1⟩

/-- C12: on the diamond network (n = 4, edges 0->1 cap 3, 0->2 cap 2, 1->3 cap 2, 2->3 cap 3 in
that order, source 0, sink 3) each of FordFulkersonDFS, EdmondsKarp, Dinic,
MostImprovingAugmentingPaths, FIFOPP, plain HLPP and heuristic HLPP returns 4 from `flow()`. -/
theorem diamond_returns_four :
    FordFulkersonDFS.run 40 4 [(0, 1, 3), (0, 2, 2), (1, 3, 2), (2, 3, 3)] = some 4 ∧
    EdmondsKarp.run 40 4 [(0, 1, 3), (0, 2, 2), (1, 3, 2), (2, 3, 3)] = some 4 ∧
    Dinic.run 40 4 [(0, 1, 3), (0, 2, 2), (1, 3, 2), (2, 3, 3)] = some 4 ∧
    MostImprovingAugmentingPaths.run 40 4 [(0, 1, 3), (0, 2, 2), (1, 3, 2), (2, 3, 3)] =
      some 4 ∧
    FIFOPP.run 40 4 [(0, 1, 3), (0, 2, 2), (1, 3, 2), (2, 3, 3)] = some 4 ∧
    HLPP.run 40 4 [(0, 1, 3), (0, 2, 2), (1, 3, 2), (2, 3, 3)] = some 4 ∧
    HLPPHeuristic.run 40 4 [(0, 1, 3), (0, 2, 2), (1, 3, 2), (2, 3, 3)] = some 4 :=
  ⟨rfl, rfl, rfl, rfl, rfl, rfl, rfl⟩

/-- C13: on the network n = 3 with the single edge 0->1 cap 10 (source 0, sink 2, no edge
reaching the sink) each of FordFulkersonDFS, EdmondsKarp, Dinic, MostImprovingAugmentingPaths,
FIFOPP, plain HLPP and heuristic HLPP returns 0 from `flow()`. -/
theorem disconnected_sink_returns_zero :
    FordFulkersonDFS.run 40 3 [(0, 1, 10)] = some 0 ∧
    EdmondsKarp.run 40 3 [(0, 1, 10)] = some 0 ∧
    Dinic.run 40 3 [(0, 1, 10)] = some 0 ∧
    MostImprovingAugmentingPaths.run 40 3 [(0, 1, 10)] = some 0 ∧
    FIFOPP.run 40 3 [(0, 1, 10)] = some 0 ∧
    HLPP.run 40 3 [(0, 1, 10)] = some 0 ∧
    HLPPHeuristic.run 40 3 [(0, 1, 10)] = some 0 :=
  ⟨rfl, rfl, rfl, rfl, rfl, rfl, rfl⟩

namespace Residual

theorem NetInv.rebase {A0 A B : Adj} (h1 : NetInv A0 A) (h2 : NetInv A0 B) : NetInv A B := by
  refine ⟨⟨?_, ?_⟩, h2.nonneg, ?_⟩
  · rw [h2.shape.1, h1.shape.1]
  · intro u
    refine ⟨?_, ?_⟩
    · rw [(h2.shape.2 u).1, (h1.shape.2 u).1]
    · intro i
      rw [((h2.shape.2 u).2 i).1, ((h2.shape.2 u).2 i).2, ((h1.shape.2 u).2 i).1,
        ((h1.shape.2 u).2 i).2]
      exact ⟨rfl, rfl⟩
  · intro u i hi
    rw [h2.pairSum u i hi]
    have hi' : i < (arcs A u).length := by
      rw [(h1.shape.2 u).1, ← (h2.shape.2 u).1]
      exact hi
    have := h1.pairSum u i hi'
    unfold origCap
    exact this.symm

theorem totalArcs_eq_of_sameShape (n : Nat) {A0 A : Adj} (h : SameShape A0 A) :
    totalArcs n A = totalArcs n A0 := by
  unfold totalArcs
  apply Finset.sum_congr rfl
  intro x _
  exact (h.2 x).1

theorem cutCapAdj_zero_of_closed (n : Nat) (A : Adj) (S : Nat → Bool)
    (hcl : ∀ x, S x = true → ∀ i, i < (arcs A x).length → (arc A x i).cap ≠ 0 →
      S (arc A x i).dst = true) :
    cutCapAdj n A S = 0 := by
  unfold cutCapAdj
  apply Finset.sum_eq_zero
  intro v _
  by_cases hv : S v = true
  · rw [if_pos hv]
    apply List.sum_eq_zero
    intro x hx
    obtain ⟨e, he, rfl⟩ := List.mem_map.1 hx
    obtain ⟨i, hi, rfl⟩ := (mem_arcs_iff _ _ _).mp he
    by_cases hd : S (arc A v i).dst = true
    · rw [if_pos hd]
    · rw [if_neg hd]
      by_contra hc
      exact hd (hcl v hv i hi hc)
  · rw [if_neg hv]

/-- On a network without augmenting path no further flow leaves the source. -/
theorem value_le_zero_of_separated {A B : Adj} {n s t : Nat} (hI : NetInv A B)
    (hp : Paired A) (hlen : A.length = n) (hs : s < n) (hsep : Separated A s t)
    (hcons : Conserved A B s t) : -excessOf A B s ≤ 0 := by
  classical
  obtain ⟨V, hVs, hVt, hVcl⟩ := hsep
  have hle := cut_excess_le hI hp hlen (fun x => decide (V x))
  rw [cutCapAdj_zero_of_closed n A (fun x => decide (V x)) (by
    intro x hx i hi hc
    simp only [decide_eq_true_eq] at hx ⊢
    exact hVcl x hx i hi hc)] at hle
  rw [Finset.sum_eq_single s] at hle
  · simpa [hVs] using hle
  · intro v _ hvs
    by_cases hSv : V v
    · have hvt : v ≠ t := fun c => hVt (c ▸ hSv)
      simp [hSv, hcons v hvs hvt]
    · simp [hSv]
  · intro h
    exact absurd (Finset.mem_range.mpr hs) h

end Residual

namespace EdmondsKarp

theorem ek_second_flow (n s t : Nat) (edges : List InEdge) (hr : InRange n edges)
    (hs : s < n) (ht : t < n) (hst : s ≠ t) (fuel fuel2 : Nat)
    (hfuel : n + (capSum (arcs (build n edges) s)).toNat < fuel)
    (hfuel2 : n + (capSum (arcs (build n edges) s)).toNat < fuel2) :
    ∃ F st1, flow s t fuel (init n edges) = some (F, st1) ∧
      ∃ st2, flow s t fuel2 st1 = some (0, st2) ∧ st2.adj = st1.adj := by
  have hinv := buildWith_inv kept kept_ne n edges hr 0
  rw [← build_eq_buildWith] at hinv
  have hI := ek_flowInv_init n edges hr
  obtain ⟨F, st1, h1, h2, h3, h4, h5, h6, h7, _⟩ :=
    ek_flowLoop_spec hinv.2.1 hinv.1 hs ht hst fuel
    (by omega) fuel (init n edges) 0 hI (fun v _ _ => excessOf_self _ v)
    (excessOf_self _ t) (by
      show excessOf (build n edges) (build n edges) s = -0
      rw [excessOf_self]; rfl) (by
      show capSum (arcs (build n edges) s) < (fuel : Int)
      omega)
  have hF0 : 0 ≤ F := by rcases h7 with ⟨h, _⟩ | h <;> omega
  have hp1 : Paired st1.adj := h2.net.paired hinv.2.1
  have hl1 : st1.adj.length = n := by rw [h2.net.shape.1, hinv.1]
  have hI1 : FlowInv st1.adj n st1 :=
    ⟨h2.net.rebase h2.net, h2.len_que, h2.len_parent, h2.len_pc,
      fun a ha => h2.net.rebase (h2.histInv a ha)⟩
  obtain ⟨r, st2, c1, c2, c3, c4, c5, c6, c7, _⟩ :=
    ek_flowLoop_spec hp1 hl1 hs ht hst fuel2
    (by omega) fuel2 st1 0 hI1 (fun v _ _ => excessOf_self _ v)
    (excessOf_self _ t) (by rw [excessOf_self]; rfl) (by
      have : excessOf (build n edges) st1.adj s = -F := h5
      unfold excessOf at this
      have h0 := hI.net.capSum_arcs_nonneg s
      omega)
  have hle := value_le_zero_of_separated c2.net hp1 hl1 hs h6 c3
  rw [c5] at hle
  refine ⟨F, st1, h1, st2, ?_, ?_⟩
  · rcases c7 with ⟨h, _⟩ | h
    · unfold flow; rw [c1, h]
    · omega
  · rcases c7 with ⟨_, h⟩ | h
    · exact h
    · omega

end EdmondsKarp

namespace FordFulkersonDFS

theorem dfs_second_flow (n s t : Nat) (edges : List InEdge) (hr : InRange n edges)
    (hs : s < n) (hst : s ≠ t) (fuel fuel2 : Nat)
    (hfuel : n + (capSum (arcs (build n edges) s)).toNat < fuel)
    (hfuel2 : n + (capSum (arcs (build n edges) s)).toNat < fuel2) :
    ∃ F st1, flow s t fuel (init n edges) = some (F, st1) ∧
      ∃ st2, flow s t fuel2 st1 = some (0, st2) ∧ st2.adj = st1.adj := by
  have hinv := buildWith_inv kept kept_ne n edges hr 0
  rw [← build_eq_buildWith] at hinv
  have hI := dfs_flowInv_init n edges hr
  obtain ⟨F, st1, h1, h2, h3, h4, h5, h6, h7, _⟩ :=
    dfs_flowLoop_spec hinv.2.1 hinv.1 hs hst fuel
    (by omega) fuel (init n edges) 0 hI (fun v _ _ => excessOf_self _ v)
    (excessOf_self _ t) (by
      show excessOf (build n edges) (build n edges) s = -0
      rw [excessOf_self]; rfl) (by
      show capSum (arcs (build n edges) s) < (fuel : Int)
      omega)
  have hF0 : 0 ≤ F := by rcases h7 with ⟨h, _⟩ | h <;> omega
  have hp1 : Paired st1.adj := h2.net.paired hinv.2.1
  have hl1 : st1.adj.length = n := by rw [h2.net.shape.1, hinv.1]
  have hI1 : FlowInv st1.adj n st1 :=
    ⟨h2.net.rebase h2.net, h2.len, fun a ha => h2.net.rebase (h2.histInv a ha)⟩
  obtain ⟨r, st2, c1, c2, c3, c4, c5, c6, c7, _⟩ :=
    dfs_flowLoop_spec hp1 hl1 hs hst fuel2
    (by omega) fuel2 st1 0 hI1 (fun v _ _ => excessOf_self _ v)
    (excessOf_self _ t) (by rw [excessOf_self]; rfl) (by
      have : excessOf (build n edges) st1.adj s = -F := h5
      unfold excessOf at this
      have h0 := hI.net.capSum_arcs_nonneg s
      omega)
  have hle := value_le_zero_of_separated c2.net hp1 hl1 hs h6 c3
  rw [c5] at hle
  refine ⟨F, st1, h1, st2, ?_, ?_⟩
  · rcases c7 with ⟨h, _⟩ | h
    · unfold flow; rw [c1, h]
    · omega
  · rcases c7 with ⟨_, h⟩ | h
    · exact h
    · omega

end FordFulkersonDFS

namespace MostImprovingAugmentingPaths

theorem mi_second_flow (n s t : Nat) (edges : List InEdge) (hr : InRange n edges)
    (hs : s < n) (hst : s ≠ t) (fuel fuel2 : Nat)
    (hfuel : totalArcs n (build n edges) + 1 + (capSum (arcs (build n edges) s)).toNat < fuel)
    (hfuel2 : totalArcs n (build n edges) + 1 + (capSum (arcs (build n edges) s)).toNat
      < fuel2) :
    ∃ F st1, flow s t fuel (init n edges) = some (F, st1) ∧
      ∃ st2, flow s t fuel2 st1 = some (0, st2) ∧ st2.adj = st1.adj := by
  have hinv := buildWith_inv kept kept_ne n edges hr 0
  rw [← build_eq_buildWith] at hinv
  have hI := mi_flowInv_init n edges hr
  obtain ⟨F, st1, h1, h2, h3, h4, h5, h6, h7, _⟩ :=
    mi_flowLoop_spec hinv.2.1 hinv.1 hs hst fuel
    (by omega) fuel (init n edges) 0 hI (fun v _ _ => excessOf_self _ v)
    (excessOf_self _ t) (by
      show excessOf (build n edges) (build n edges) s = -0
      rw [excessOf_self]; rfl) (by
      show capSum (arcs (build n edges) s) < (fuel : Int)
      omega)
  have hF0 : 0 ≤ F := by rcases h7 with ⟨h, _⟩ | h <;> omega
  have hp1 : Paired st1.adj := h2.net.paired hinv.2.1
  have hl1 : st1.adj.length = n := by rw [h2.net.shape.1, hinv.1]
  have hta := totalArcs_eq_of_sameShape n h2.net.shape
  have hI1 : FlowInv st1.adj n st1 :=
    ⟨h2.net.rebase h2.net, h2.len_parent, h2.len_pc,
      fun a ha => h2.net.rebase (h2.histInv a ha)⟩
  obtain ⟨r, st2, c1, c2, c3, c4, c5, c6, c7, _⟩ :=
    mi_flowLoop_spec hp1 hl1 hs hst fuel2
    (by omega) fuel2 st1 0 hI1 (fun v _ _ => excessOf_self _ v)
    (excessOf_self _ t) (by rw [excessOf_self]; rfl) (by
      have : excessOf (build n edges) st1.adj s = -F := h5
      unfold excessOf at this
      have h0 := hI.net.capSum_arcs_nonneg s
      omega)
  have hle := value_le_zero_of_separated c2.net hp1 hl1 hs h6 c3
  rw [c5] at hle
  refine ⟨F, st1, h1, st2, ?_, ?_⟩
  · rcases c7 with ⟨h, _⟩ | h
    · unfold flow; rw [c1, h]
    · omega
  · rcases c7 with ⟨_, h⟩ | h
    · exact h
    · omega

end MostImprovingAugmentingPaths

namespace Dinic

theorem dinic_second_flow (n s t : Nat) (edges : List InEdge) (hr : InRange n edges)
    (hs : s < n) (ht : t < n) (hst : s ≠ t) (fuel fuel2 : Nat)
    (hfuel : n + totalArcs n (build n edges) + (capSum (arcs (build n edges) s)).toNat
      < fuel)
    (hfuel2 : n + totalArcs n (build n edges) + (capSum (arcs (build n edges) s)).toNat
      < fuel2) :
    ∃ F st1, flow n s t fuel (init n edges) = some (F, st1) ∧
      ∃ st2, flow n s t fuel2 st1 = some (0, st2) ∧ st2.adj = st1.adj := by
  have hinv := buildWith_inv kept kept_ne n edges hr 0
  rw [← build_eq_buildWith] at hinv
  have hI := dinic_flowInv_init n edges hr
  obtain ⟨F, st1, h1, h2, h3, h4, h5, h6, h7, _⟩ :=
    dinic_flowLoop_spec hinv.2.1 hinv.1 hs ht hst fuel
    (by omega) fuel (init n edges) 0 hI (fun v _ _ => excessOf_self _ v)
    (excessOf_self _ t) (by
      show excessOf (build n edges) (build n edges) s = -0
      rw [excessOf_self]; rfl) (by
      show capSum (arcs (build n edges) s) < (fuel : Int)
      omega)
  have hF0 : 0 ≤ F := by rcases h7 with ⟨h, _⟩ | h <;> omega
  have hp1 : Paired st1.adj := h2.net.paired hinv.2.1
  have hl1 : st1.adj.length = n := by rw [h2.net.shape.1, hinv.1]
  have hta := totalArcs_eq_of_sameShape n h2.net.shape
  have hI1 : FlowInv st1.adj n st1 :=
    ⟨h2.net.rebase h2.net, h2.len_label, h2.len_que, h2.len_iter,
      fun a ha => h2.net.rebase (h2.histInv a ha)⟩
  obtain ⟨r, st2, c1, c2, c3, c4, c5, c6, c7, _⟩ :=
    dinic_flowLoop_spec hp1 hl1 hs ht hst fuel2
    (by omega) fuel2 st1 0 hI1 (fun v _ _ => excessOf_self _ v)
    (excessOf_self _ t) (by rw [excessOf_self]; rfl) (by
      have : excessOf (build n edges) st1.adj s = -F := h5
      unfold excessOf at this
      have h0 := hI.net.capSum_arcs_nonneg s
      omega)
  have hle := value_le_zero_of_separated c2.net hp1 hl1 hs h6 c3
  rw [c5] at hle
  refine ⟨F, st1, h1, st2, ?_, ?_⟩
  · rcases c7 with ⟨h, _⟩ | h
    · unfold flow; rw [c1, h]
    · omega
  · rcases c7 with ⟨_, h⟩ | h
    · exact h
    · omega

end Dinic

/-- C15: for each augmenting-path solver (FordFulkersonDFS, EdmondsKarp, Dinic,
MostImprovingAugmentingPaths) and every network with `n >= 2` whose edge endpoints are
nodes: the first call of `flow()` returns, and a second call of `flow()` on the state left by
the first returns 0 and leaves the residual network, hence every residual capacity,
unchanged. -/
theorem augmenting_second_flow_returns_zero (n : Nat) (edges : List InEdge) (hn : 2 ≤ n)
    (hr : InRange n edges) (fuel fuel2 : Nat) (hfuel : augFuel n edges < fuel)
    (hfuel2 : augFuel n edges < fuel2) :
    (∃ F st1, FordFulkersonDFS.flow 0 (n - 1) fuel (FordFulkersonDFS.init n edges) =
        some (F, st1) ∧
      ∃ st2, FordFulkersonDFS.flow 0 (n - 1) fuel2 st1 = some (0, st2) ∧
        st2.adj = st1.adj) ∧
    (∃ F st1, EdmondsKarp.flow 0 (n - 1) fuel (EdmondsKarp.init n edges) = some (F, st1) ∧
      ∃ st2, EdmondsKarp.flow 0 (n - 1) fuel2 st1 = some (0, st2) ∧ st2.adj = st1.adj) ∧
    (∃ F st1, Dinic.flow n 0 (n - 1) fuel (Dinic.init n edges) = some (F, st1) ∧
      ∃ st2, Dinic.flow n 0 (n - 1) fuel2 st1 = some (0, st2) ∧ st2.adj = st1.adj) ∧
    (∃ F st1, MostImprovingAugmentingPaths.flow 0 (n - 1) fuel
        (MostImprovingAugmentingPaths.init n edges) = some (F, st1) ∧
      ∃ st2, MostImprovingAugmentingPaths.flow 0 (n - 1) fuel2 st1 = some (0, st2) ∧
        st2.adj = st1.adj) := by
  unfold augFuel at hfuel hfuel2
  refine ⟨?_, ?_, ?_, ?_⟩
  · exact FordFulkersonDFS.dfs_second_flow n 0 (n - 1) edges hr (by omega) (by omega) fuel
      fuel2 (by omega) (by omega)
  · exact EdmondsKarp.ek_second_flow n 0 (n - 1) edges hr (by omega) (by omega) (by omega)
      fuel fuel2 (by omega) (by omega)
  · exact Dinic.dinic_second_flow n 0 (n - 1) edges hr (by omega) (by omega) (by omega) fuel
      fuel2 (by omega) (by omega)
  · exact MostImprovingAugmentingPaths.mi_second_flow n 0 (n - 1) edges hr (by omega)
      (by omega) fuel fuel2 (by omega) (by omega)

/-- The diamond network of the specification, with fuel 19 for both calls. -/
theorem augmenting_second_flow_returns_zero_witness :
    (∃ F st1, FordFulkersonDFS.flow 0 (4 - 1) 19
        (FordFulkersonDFS.init 4 [(0, 1, 3), (0, 2, 2), (1, 3, 2), (2, 3, 3)]) =
        some (F, st1) ∧
      ∃ st2, FordFulkersonDFS.flow 0 (4 - 1) 19 st1 = some (0, st2) ∧
        st2.adj = st1.adj) ∧
    (∃ F st1, EdmondsKarp.flow 0 (4 - 1) 19
        (EdmondsKarp.init 4 [(0, 1, 3), (0, 2, 2), (1, 3, 2), (2, 3, 3)]) = some (F, st1) ∧
      ∃ st2, EdmondsKarp.flow 0 (4 - 1) 19 st1 = some (0, st2) ∧ st2.adj = st1.adj) ∧
    (∃ F st1, Dinic.flow 4 0 (4 - 1) 19
        (Dinic.init 4 [(0, 1, 3), (0, 2, 2), (1, 3, 2), (2, 3, 3)]) = some (F, st1) ∧
      ∃ st2, Dinic.flow 4 0 (4 - 1) 19 st1 = some (0, st2) ∧ st2.adj = st1.adj) ∧
    (∃ F st1, MostImprovingAugmentingPaths.flow 0 (4 - 1) 19
        (MostImprovingAugmentingPaths.init 4 [(0, 1, 3), (0, 2, 2), (1, 3, 2), (2, 3, 3)]) =
          some (F, st1) ∧
      ∃ st2, MostImprovingAugmentingPaths.flow 0 (4 - 1) 19 st1 = some (0, st2) ∧
        st2.adj = st1.adj) :=
  augmenting_second_flow_returns_zero 4 [(0, 1, 3), (0, 2, 2), (1, 3, 2), (2, 3, 3)]
    (by decide)
    (by intro e he; simp at he; rcases he with h | h | h | h <;> subst h <;> decide) 19 19
    (by decide) (by decide)

namespace FordFulkersonDFS

theorem length_le_sum_of_pos (ds : List Int) (h : ∀ d ∈ ds, 1 ≤ d) :
    (ds.length : Int) ≤ ds.sum := by
  induction ds with
  | nil => simp
  | cons d ds ih =>
    have h1 := h d (List.mem_cons_self _ _)
    have h2 := ih (fun x hx => h x (List.mem_cons_of_mem _ hx))
    simp only [List.length_cons, List.sum_cons]
    push_cast
    omega

/-- The instrumented loop returns the increments of the plain loop: each is at least 1, and
their sum is at most the residual capacity of the arcs leaving the source. -/
theorem dfs_flowLoopTrace_spec {A0 : Adj} {n s t : Nat} (hp : Paired A0) (hlen : A0.length = n)
    (hs : s < n) (hst : s ≠ t) (F : Nat) (hF : n < F) :
    ∀ (k : Nat) (st : State) (acc : Int), FlowInv A0 n st →
      capSum (arcs st.adj s) < k →
      ∃ ds st', flowLoopTrace s t F k st = some (ds, st') ∧
        flowLoop s t F k st acc = some (acc + ds.sum, st') ∧
        (∀ d ∈ ds, 1 ≤ d) ∧ ds.sum ≤ capSum (arcs st.adj s) := by
  intro k
  induction k with
  | zero =>
    intro st acc hI hk
    have := hI.net.capSum_arcs_nonneg s
    omega
  | succ k ih =>
    intro st acc hI hk
    have hnv := not_vis_reset st
    obtain ⟨r1, hr1, hpost⟩ := dfs_spec hp hlen F s INT_MAX
      { st with visited := List.replicate st.visited.length false } hI.net
      (by simp [hI.len]) hs (hnv s) (hnv t) (by decide)
      (lt_of_le_of_lt (unvisited_le n _) hF)
    obtain ⟨d, st1⟩ := r1
    by_cases hd : d = 0
    · refine ⟨[], st1, ?_, ?_, ?_, ?_⟩
      · rw [flowLoopTrace, hr1]
        simp only [hd, if_true]
      · rw [flowLoop, hr1]
        simp only [hd, if_true, List.sum_nil, add_zero]
      · intro x hx
        cases hx
      · simpa using hI.net.capSum_arcs_nonneg s
    · have hd1 : 1 ≤ d := by
        have := hpost.range.1
        simp only at this
        omega
      obtain ⟨f1, f2, f3, new, f4, f5⟩ := hpost.found hd1
      simp only at f1 f2 f3 f4 f5
      have hI1 : FlowInv A0 n st1 := by
        refine ⟨f1, hpost.len, ?_⟩
        intro a ha
        rw [f4] at ha
        rcases List.mem_append.mp ha with h | h
        · exact f5 a h
        · exact hI.histInv a h
      have hex : ∀ x, excessOf A0 st1.adj x =
          excessOf A0 st.adj x - (if x = s then d else 0) + (if x = t then d else 0) := f2
      have e1 : excessOf A0 st1.adj s = excessOf A0 st.adj s - d := by
        rw [hex s, if_pos rfl, if_neg hst]
        ring
      unfold excessOf at e1
      have hk' : capSum (arcs st.adj s) < ((k + 1 : Nat) : Int) := hk
      push_cast at hk'
      obtain ⟨ds, st', c1, c2, c3, c4⟩ := ih st1 (acc + d) hI1 (by omega)
      refine ⟨d :: ds, st', ?_, ?_, ?_, ?_⟩
      · rw [flowLoopTrace, hr1]
        simp only [hd, if_false]
        rw [c1]
      · rw [flowLoop, hr1]
        simp only [hd, if_false]
        rw [c2, List.sum_cons, add_assoc]
      · intro x hx
        rcases List.mem_cons.1 hx with h | h
        · rw [h]; exact hd1
        · exact c3 x h
      · rw [List.sum_cons]
        omega

end FordFulkersonDFS

/-- C18: for every network with `n >= 2` (edge endpoints are nodes, capacities are integers)
`FordFulkersonDFS::flow()` terminates: its loop runs `ds.length + 1` iterations, where `ds` is
the list of the values added to the result; every iteration except the last adds an integer
`d >= 1`, the returned value is their sum, and the number of iterations is at most one plus
the sum of the capacities of the arcs leaving the source. -/
theorem dfs_flow_terminates_within_capacity (n : Nat) (edges : List InEdge) (hn : 2 ≤ n)
    (hr : InRange n edges) (fuel : Nat)
    (hfuel : n + (capSum (arcs (build n edges) 0)).toNat < fuel) :
    ∃ ds st', FordFulkersonDFS.flowLoopTrace 0 (n - 1) fuel fuel
        (FordFulkersonDFS.init n edges) = some (ds, st') ∧
      FordFulkersonDFS.flow 0 (n - 1) fuel (FordFulkersonDFS.init n edges) =
        some (ds.sum, st') ∧
      (∀ d ∈ ds, 1 ≤ d) ∧
      ((ds.length + 1 : Nat) : Int) ≤ 1 + capSum (arcs (build n edges) 0) := by
  have hinv := buildWith_inv kept kept_ne n edges hr 0
  rw [← build_eq_buildWith] at hinv
  have hI := FordFulkersonDFS.dfs_flowInv_init n edges hr
  obtain ⟨ds, st', h1, h2, h3, h4⟩ := FordFulkersonDFS.dfs_flowLoopTrace_spec
    (s := 0) (t := n - 1) hinv.2.1 hinv.1 (by omega) (by omega) fuel (by omega) fuel
    (FordFulkersonDFS.init n edges) 0 hI (by
      show capSum (arcs (build n edges) 0) < (fuel : Int)
      omega)
  refine ⟨ds, st', h1, ?_, h3, ?_⟩
  · unfold FordFulkersonDFS.flow
    rw [h2, zero_add]
  · have h5 := FordFulkersonDFS.length_le_sum_of_pos ds h3
    have h6 : ds.sum ≤ capSum (arcs (build n edges) 0) := h4
    push_cast
    omega

/-- The diamond network of the specification: two iterations add 2 each, the third finds
no path. -/
theorem dfs_flow_terminates_within_capacity_witness :
    ∃ ds st', FordFulkersonDFS.flowLoopTrace 0 (4 - 1) 10 10
        (FordFulkersonDFS.init 4 [(0, 1, 3), (0, 2, 2), (1, 3, 2), (2, 3, 3)]) =
          some (ds, st') ∧
      FordFulkersonDFS.flow 0 (4 - 1) 10
        (FordFulkersonDFS.init 4 [(0, 1, 3), (0, 2, 2), (1, 3, 2), (2, 3, 3)]) =
          some (ds.sum, st') ∧
      (∀ d ∈ ds, 1 ≤ d) ∧
      ((ds.length + 1 : Nat) : Int) ≤
        1 + capSum (arcs (build 4 [(0, 1, 3), (0, 2, 2), (1, 3, 2), (2, 3, 3)]) 0) :=
  dfs_flow_terminates_within_capacity 4 [(0, 1, 3), (0, 2, 2), (1, 3, 2), (2, 3, 3)]
    (by decide)
    (by intro e he; simp at he; rcases he with h | h | h | h <;> subst h <;> decide) 10
    (by decide)

namespace FIFOPP

end FIFOPP

namespace Residual

end Residual

namespace FIFOPP

end FIFOPP

namespace HLPP

end HLPP

namespace Residual

/-- The excess of a node is the decrease over its entering forward arcs minus the decrease
over its leaving forward arcs. -/
theorem inDecrease_sub_outDecrease {A0 A : Adj} (hI : NetInv A0 A) (v : Nat) :
    inDecrease A0 A v - outDecrease A0 A v = excessOf A0 A v := by
  have h := neg_excessOf_eq hI v
  unfold inDecrease outDecrease
  rw [← Finset.sum_sub_distrib]
  have h2 : ∀ i ∈ Finset.range (arcs A0 v).length,
      ((if (arc A0 v i).cap ≠ 0 then (0 : Int) else pairCap A0 v i - pairCap A v i) -
        (if (arc A0 v i).cap ≠ 0 then (arc A0 v i).cap - (arc A v i).cap else 0)) =
      -((arc A0 v i).cap - (arc A v i).cap) := by
    intro i hi
    have hp := hI.change_pair v i (Finset.mem_range.mp hi)
    have e1 : pairCap A0 v i = (arc A0 (arc A0 v i).dst (arc A0 v i).rev).cap := rfl
    have e2 : pairCap A v i = (arc A (arc A0 v i).dst (arc A0 v i).rev).cap := by
      unfold pairCap
      rw [hI.dst_eq, hI.rev_eq]
    rw [e1, e2]
    split_ifs <;> omega
  rw [Finset.sum_congr rfl h2, Finset.sum_neg_distrib, ← h]
  ring

end Residual

namespace FIFOPP

end FIFOPP

namespace HLPP

end HLPP

namespace Residual

end Residual

namespace FordFulkersonRandomDFS

end FordFulkersonRandomDFS

namespace FordFulkersonRandomDFS

theorem getD_addCapAt (edges : List REdge) (i : Nat) (d : Int) (x : Nat) :
    (addCapAt edges i d).getD x default =
      if x = i ∧ i < edges.length then
        { edges.getD i default with cap := (edges.getD i default).cap + d }
      else edges.getD x default := by
  unfold addCapAt
  exact getD_set_eq _ _ _ _ _

theorem length_addCapAt (edges : List REdge) (i : Nat) (d : Int) :
    (addCapAt edges i d).length = edges.length := by
  simp [addCapAt]

theorem dst_addCapAt (edges : List REdge) (i : Nat) (d : Int) (x : Nat) :
    ((addCapAt edges i d).getD x default).dst = (edges.getD x default).dst := by
  rw [getD_addCapAt]
  split
  · next h => rw [h.1]
  · rfl

theorem WF.addCapAt {adj : List (List Nat)} {edges : List REdge} (h : WF adj edges) (i : Nat)
    (d : Int) : WF adj (addCapAt edges i d) := by
  refine ⟨?_, h.nodup, h.disj, ?_, ?_⟩
  · intro u eid he
    rw [length_addCapAt, dst_addCapAt]
    exact h.mem u eid he
  · intro eid he
    rw [length_addCapAt] at he
    exact h.listed eid he
  · rw [length_addCapAt]
    exact h.even

end FordFulkersonRandomDFS

namespace FordFulkersonRandomDFS

theorem Frame.frame_trans {adj : List (List Nat)} {a b c : State} (h1 : Frame adj a b)
    (h2 : Frame adj b c) : Frame adj a c :=
  ⟨fun x hx => h2.1 x (h1.1 x hx),
    fun u hu eid he => (h2.2 u (h1.1 u hu) eid he).trans (h1.2 u hu eid he)⟩

theorem drop_eq_cons (l : List Nat) (k : Nat) (h : k < l.length) :
    l.drop k = l.getD k 0 :: l.drop (k + 1) := by
  rw [List.getD_eq_getElem _ _ h]
  exact List.drop_eq_getElem_cons h

end FordFulkersonRandomDFS

namespace FordFulkersonRandomDFS

end FordFulkersonRandomDFS

namespace FordFulkersonRandomDFS

end FordFulkersonRandomDFS

namespace FordFulkersonRandomDFS

end FordFulkersonRandomDFS

namespace Residual

end Residual

namespace Residual

/-- The value of a conserved flow is at most the capacity of every cut. -/
theorem value_le_cutCapAdj {A0 A : Adj} {n s t : Nat} (hI : NetInv A0 A) (hp : Paired A0)
    (hlen : A0.length = n) (hs : s < n) (hcons : Conserved A0 A s t) (S : Nat → Bool)
    (hSs : S s = true) (hSt : S t = false) : -excessOf A0 A s ≤ cutCapAdj n A0 S := by
  have hle := cut_excess_le hI hp hlen S
  rw [Finset.sum_eq_single s] at hle
  · rw [if_pos hSs] at hle
    exact hle
  · intro v _ hvs
    by_cases hSv : S v = true
    · rw [if_pos hSv, hcons v hvs (by
        intro hvt
        rw [hvt, hSt] at hSv
        exact Bool.noConfusion hSv)]
      rfl
    · rw [if_neg hSv]
  · intro h
    exact absurd (Finset.mem_range.mpr hs) h

/-- The value of a conserved flow without augmenting path is the capacity of a cut. -/
theorem value_eq_cutCapAdj {A0 A : Adj} {n s t : Nat} (hI : NetInv A0 A) (hp : Paired A0)
    (hlen : A0.length = n) (hs : s < n) (hcons : Conserved A0 A s t)
    (hsep : Separated A s t) :
    ∃ S : Nat → Bool, S s = true ∧ S t = false ∧ -excessOf A0 A s = cutCapAdj n A0 S := by
  classical
  obtain ⟨V, hVs, hVt, hVcl⟩ := hsep
  refine ⟨fun x => decide (V x), by simpa using hVs, by simpa using hVt, ?_⟩
  rw [← cut_excess hI hp hlen (fun x => decide (V x)) (by
    intro x hx i hi hc
    simp only [decide_eq_true_eq] at hx ⊢
    exact hVcl x hx i hi hc)]
  rw [Finset.sum_eq_single s]
  · simp [hVs]
  · intro v _ hvs
    by_cases hSv : V v
    · have hvt : v ≠ t := fun c => hVt (c ▸ hSv)
      simp [hSv, hcons v hvs hvt]
    · simp [hSv]
  · intro h
    exact absurd (Finset.mem_range.mpr hs) h

/-- A conserved flow without augmenting path on a network whose cuts have the capacities of
the cuts of `net` has the minimum cut value of `net`. -/
theorem isMinCutValue_of_separated {A0 A : Adj} {n s t : Nat} {net : List InEdge}
    (hI : NetInv A0 A) (hp : Paired A0) (hlen : A0.length = n) (hs : s < n)
    (hcons : Conserved A0 A s t) (hsep : Separated A s t)
    (hcut : ∀ S : Nat → Bool, S s = true → S t = false → cutCapAdj n A0 S = cutCap net S)
    {F : Int} (hes : excessOf A0 A s = -F) : IsMinCutValue s t net F := by
  have hF : F = -excessOf A0 A s := by omega
  constructor
  · obtain ⟨S, h1, h2, h3⟩ := value_eq_cutCapAdj hI hp hlen hs hcons hsep
    exact ⟨S, h1, h2, by rw [hF, h3, hcut S h1 h2]⟩
  · intro S h1 h2
    rw [hF, ← hcut S h1 h2]
    exact value_le_cutCapAdj hI hp hlen hs hcons S h1 h2

end Residual

namespace FordFulkersonRandomDFS

end FordFulkersonRandomDFS

namespace Residual

/-- For a cut with `s` on the source side and `t` on the other side the edges that enter `s`
or leave `t` do not count. -/
theorem cutCap_networkPreflow (s t : Nat) (es : List InEdge) (S : Nat → Bool)
    (hSs : S s = true) (hSt : S t = false) :
    cutCap (networkPreflow s t es) S = cutCap (network es) S := by
  unfold networkPreflow network cutCap
  induction es with
  | nil => rfl
  | cons e es ih =>
    rw [List.filter_cons, List.filter_cons]
    by_cases hp : keptPreflow s t e = true
    · have hk : kept e = true := by
        simp only [keptPreflow, kept, decide_eq_true_eq] at hp ⊢
        exact ⟨hp.1, hp.2.2.2⟩
      rw [if_pos hp, if_pos hk, List.map_cons, List.map_cons, List.sum_cons, List.sum_cons, ih]
    · rw [if_neg hp]
      by_cases hk : kept e = true
      · rw [if_pos hk, List.map_cons, List.sum_cons, ih]
        have : ¬ (S e.1 = true ∧ S e.2.1 = false) := by
          rintro ⟨a, b⟩
          simp only [keptPreflow, kept, decide_eq_true_eq] at hp hk
          by_cases c1 : e.1 = t
          · rw [c1, hSt] at a
            exact Bool.noConfusion a
          · by_cases c2 : e.2.1 = s
            · rw [c2, hSs] at b
              exact Bool.noConfusion b
            · exact hp ⟨hk.1, c1, c2, hk.2⟩
        rw [if_neg this, zero_add]
      · rw [if_neg hk, ih]

end Residual

namespace EdmondsKarp

theorem ek_flow_minCut (n s t : Nat) (edges : List InEdge) (hr : InRange n edges)
    (hs : s < n) (ht : t < n) (hst : s ≠ t) (fuel : Nat)
    (hfuel : n + (capSum (arcs (build n edges) s)).toNat < fuel) :
    ∃ F st', flow s t fuel (init n edges) = some (F, st') ∧
      IsMinCutValue s t (network edges) F := by
  have hinv := buildWith_inv kept kept_ne n edges hr 0
  rw [← build_eq_buildWith] at hinv
  obtain ⟨F, st', h1, h2, h3, _, h5, h6⟩ := ek_flow_spec n s t edges hr hs ht hst fuel hfuel
  refine ⟨F, st', h1, isMinCutValue_of_separated h2.net hinv.2.1 hinv.1 hs h3 h6 ?_ h5⟩
  intro S _ _
  rw [build_eq_buildWith, cutCapAdj_buildWith kept kept_ne n S edges hr]
  rfl

end EdmondsKarp

namespace Dinic

end Dinic

namespace MostImprovingAugmentingPaths

end MostImprovingAugmentingPaths

namespace Residual

end Residual

namespace FIFOPP

end FIFOPP

namespace HLPP

end HLPP

namespace FordFulkersonDFS

end FordFulkersonDFS

namespace HLPPHeuristic

theorem heur_push_eq (st : State) (v i : Nat) :
    push st v i =
      State.mk (pushFlow st.adj v i (min (st.excess.getD v 0) (arc st.adj v i).cap))
        st.height st.que st.count st.iter
        (moveExcess st.excess v (arc st.adj v i).dst
          (min (st.excess.getD v 0) (arc st.adj v i).cap))
        (if st.excess.getD (arc st.adj v i).dst 0 = 0 then
          st.buckets.set (st.height.getD (arc st.adj v i).dst 0)
            (st.buckets.getD (st.height.getD (arc st.adj v i).dst 0) [] ++
              [(arc st.adj v i).dst])
        else st.buckets)
        st.max_height st.work
        (pushFlow st.adj v i (min (st.excess.getD v 0) (arc st.adj v i).cap) :: st.hist) := by
  unfold push
  simp only
  split <;> rfl

/-- One call of `push` along an admissible arc of the node `v`, which is the node under
discharge or the source; `max_height` is then raised to the height of the head, as the loop
over the arcs of the source does (a push from a node under discharge leads below
`max_height`). -/
theorem heur_push_spec {A0 : Adj} {n s t w : Nat} {st : State} (hI : Inv A0 n s t w st)
    (v : Nat) (hv : v < n) (hvw : v = w ∨ (v = s ∧ n ≤ w)) (i : Nat)
    (hi : i < (arcs st.adj v).length) (hcap : 0 < (arc st.adj v i).cap)
    (hexv : 0 < st.excess.getD v 0)
    (hh : st.height.getD (arc st.adj v i).dst 0 < st.height.getD v 0) :
    Inv A0 n s t w { push st v i with
      max_height := max st.max_height (st.height.getD (arc st.adj v i).dst 0 : Int) } ∧
    (push st v i).iter = st.iter ∧ (push st v i).height = st.height ∧
    (push st v i).count = st.count ∧ (push st v i).que = st.que ∧
    (push st v i).work = st.work ∧ (push st v i).max_height = st.max_height ∧
    (push st v i).hist = (push st v i).adj :: st.hist ∧
    (v ≠ s → measure A0 n s (push st v i) + 1 ≤ measure A0 n s st) ∧
    (SrcValid st.adj st.height s → SrcValid (push st v i).adj (push st v i).height s) ∧
    (∀ j, j ≠ i → arc (push st v i).adj v j = arc st.adj v j) ∧
    ((push st v i).excess.getD v 0 = 0 ∨ (arc (push st v i).adj v i).cap = 0) ∧
    ((arc st.adj v i).cap ≤ st.excess.getD v 0 → (arc (push st v i).adj v i).cap = 0) := by
  have hnotin : ∀ h, 1 ≤ h → v ∉ st.buckets.getD h [] := by
    intro h h1
    rcases hvw with h' | h'
    · rw [h']; exact hI.notin h h1
    · intro c
      exact (hI.bk_mem h v h1 c).2.1 h'.1
  rw [heur_push_eq]
  have hd0 : 0 < min (st.excess.getD v 0) (arc st.adj v i).cap := lt_min hexv hcap
  have hd1 := min_le_left (st.excess.getD v 0) (arc st.adj v i).cap
  have hd2 := min_le_right (st.excess.getD v 0) (arc st.adj v i).cap
  have hpa := hI.pre.net.paired hI.pre.paired0
  obtain ⟨p1, p2, p3, p4, p5⟩ := hpa v i hi
  rw [hI.pre.net.length_eq, hI.pre.len0] at p1
  have hpre := hI.pre.push_pre v i _ hv hi hd0 hd1 hd2 hh
  have hex : ∀ x, (moveExcess st.excess v (arc st.adj v i).dst
      (min (st.excess.getD v 0) (arc st.adj v i).cap)).getD x 0 =
      st.excess.getD x 0 - (if x = v then min (st.excess.getD v 0) (arc st.adj v i).cap else 0)
        + (if x = (arc st.adj v i).dst then
            min (st.excess.getD v 0) (arc st.adj v i).cap else 0) :=
    getD_moveExcess st.excess v _ _ (fun c => p2 c.symm) (by rw [hI.pre.len_ex]; exact hv)
      (by rw [hI.pre.len_ex]; exact p1)
  have hvle := hI.pre.h_le v
  have hHd : st.height.getD (arc st.adj v i).dst 0 < st.buckets.length := by
    rw [hI.len_b]
    omega
  have hds : (arc st.adj v i).dst ≠ s := by
    intro c
    rw [c, hI.pre.hs] at hh
    omega
  -- membership in the buckets after the push
  have hbk : ∀ h x, x ∈ (if st.excess.getD (arc st.adj v i).dst 0 = 0 then
        st.buckets.set (st.height.getD (arc st.adj v i).dst 0)
          (st.buckets.getD (st.height.getD (arc st.adj v i).dst 0) [] ++
            [(arc st.adj v i).dst])
        else st.buckets).getD h [] ↔
        (x ∈ st.buckets.getD h [] ∨ (x = (arc st.adj v i).dst ∧
          h = st.height.getD (arc st.adj v i).dst 0 ∧
          st.excess.getD (arc st.adj v i).dst 0 = 0)) := by
    intro h x
    by_cases hc : st.excess.getD (arc st.adj v i).dst 0 = 0
    · rw [if_pos hc, getD_set_eq]
      by_cases hh' : h = st.height.getD (arc st.adj v i).dst 0
      · rw [if_pos ⟨hh', hHd⟩, List.mem_append, List.mem_singleton, hh']
        constructor
        · rintro (h1 | h1)
          · exact Or.inl h1
          · exact Or.inr ⟨h1, rfl, hc⟩
        · rintro (h1 | h1)
          · exact Or.inl h1
          · exact Or.inr h1.1
      · rw [if_neg (fun c => hh' c.1)]
        constructor
        · intro h1
          exact Or.inl h1
        · rintro (h1 | h1)
          · exact h1
          · exact absurd h1.2.1 hh'
    · rw [if_neg hc]
      constructor
      · intro h1
        exact Or.inl h1
      · rintro (h1 | h1)
        · exact h1
        · exact absurd h1.2.2 hc
  refine ⟨⟨hpre, hI.len_iter, hI.len_count, ?_, hI.len_que,
    hI.cur.push_cur hI.pre v i _ hi hd0 hd2 hh, ?_, hI.cnt, ?_, ?_, ?_, ?_, ?_, ?_, ?_⟩,
    rfl, rfl, rfl, rfl, rfl, rfl, rfl, ?_, ?_, ?_, ?_, ?_⟩
  · -- len_b
    show (if _ then _ else _ : List (List Nat)).length = n
    split
    · rw [List.length_set]; exact hI.len_b
    · exact hI.len_b
  · intro a ha
    rcases List.mem_cons.mp ha with h | h
    · rw [h]; exact hpre.net
    · exact hI.histInv a h
  · -- bk_mem
    intro h x h1 hx
    rw [hbk] at hx
    show x < n ∧ x ≠ s ∧ x ≠ t ∧ 0 < (moveExcess _ _ _ _).getD x 0 ∧ st.height.getD x 0 = h
    rw [hex]
    rcases hx with h1' | h1'
    · obtain ⟨a1, a2, a3, a4, a5⟩ := hI.bk_mem h x h1 h1'
      have hxw : x ≠ v := fun c => hnotin h h1 (c ▸ h1')
      rw [if_neg hxw]
      refine ⟨a1, a2, a3, ?_, a5⟩
      split <;> omega
    · have hxw : x ≠ v := by rw [h1'.1]; exact p2
      rw [if_neg hxw, if_pos h1'.1]
      refine ⟨by rw [h1'.1]; exact p1, by rw [h1'.1]; exact hds, ?_, ?_,
        by rw [h1'.1, h1'.2.1]⟩
      · intro c
        rw [h1'.1] at c
        rw [h1'.2.1, c, hI.pre.ht] at h1
        omega
      · have := hI.pre.exc_nonneg x
        omega
  · -- bk_nodup
    intro h h1
    show ((if _ then _ else _ : List (List Nat)).getD h []).Nodup
    by_cases hc : st.excess.getD (arc st.adj v i).dst 0 = 0
    · rw [if_pos hc, getD_set_eq]
      split
      · next hcc =>
        apply List.Nodup.append (hI.bk_nodup _ (by rw [← hcc.1]; exact h1))
          (List.nodup_singleton _)
        intro a ha hb
        rw [List.mem_singleton] at hb
        rw [hb] at ha
        have := (hI.bk_mem _ _ (by rw [← hcc.1]; exact h1) ha).2.2.2.1
        omega
      · exact hI.bk_nodup h h1
    · rw [if_neg hc]
      exact hI.bk_nodup h h1
  · -- notin
    intro h h1 c
    rw [hbk] at c
    rcases c with h1' | h1'
    · exact hI.notin h h1 h1'
    · rcases hvw with h' | h'
      · rw [← h'] at h1'
        exact p2 h1'.1.symm
      · omega
  · -- act_all
    intro x hx hxs hxt hpos hxn
    show x ∈ (if _ then _ else _ : List (List Nat)).getD (st.height.getD x 0) [] ∨ x = w
    have hpos' : 0 < (moveExcess st.excess v (arc st.adj v i).dst
        (min (st.excess.getD v 0) (arc st.adj v i).cap)).getD x 0 := hpos
    rw [hex] at hpos'
    by_cases hxw : x = w
    · exact Or.inr hxw
    · left
      rw [hbk]
      have hxv : x ≠ v := by
        rcases hvw with h' | h'
        · rw [h']; exact hxw
        · rw [h'.1]; exact hxs
      rw [if_neg hxv] at hpos'
      by_cases hxd : x = (arc st.adj v i).dst
      · by_cases hz : st.excess.getD (arc st.adj v i).dst 0 = 0
        · exact Or.inr ⟨hxd, by rw [hxd], hz⟩
        · have hp2 : 0 < st.excess.getD x 0 := by
            have := hI.pre.exc_nonneg x
            rw [hxd] at this ⊢
            omega
          rcases hI.act_all x hx hxs hxt hp2 hxn with h | h
          · exact Or.inl h
          · exact absurd h hxw
      · rw [if_neg hxd] at hpos'
        rcases hI.act_all x hx hxs hxt (by omega) hxn with h | h
        · exact Or.inl h
        · exact absurd h hxw
  · -- mh_empty
    intro h hlt
    show (if _ then _ else _ : List (List Nat)).getD h [] = []
    have hlt' : max st.max_height (st.height.getD (arc st.adj v i).dst 0 : Int) < (h : Int) :=
      hlt
    have hl1 := le_max_left st.max_height (st.height.getD (arc st.adj v i).dst 0 : Int)
    have hl2 := le_max_right st.max_height (st.height.getD (arc st.adj v i).dst 0 : Int)
    by_cases hc : st.excess.getD (arc st.adj v i).dst 0 = 0
    · rw [if_pos hc, getD_set_eq, if_neg (fun c => by
        have := c.1
        omega)]
      exact hI.mh_empty h (by omega)
    · rw [if_neg hc]
      exact hI.mh_empty h (by omega)
  · -- mh_nonneg
    show 0 ≤ max st.max_height (st.height.getD (arc st.adj v i).dst 0 : Int)
    exact le_trans hI.mh_nonneg (le_max_left _ _)
  · -- mh_lt
    show max st.max_height (st.height.getD (arc st.adj v i).dst 0 : Int) < (n : Int)
    apply max_lt hI.mh_lt
    omega
  · intro hvs
    exact preflowMeasure_push hI.pre v i _ hv hvs hi hd0 hd1 hd2 hh
  · intro hsv
    exact hsv.push_src hI.pre v i _ hi hd0 hh
  · intro j hji
    show arc (pushFlow st.adj v i _) v j = _
    unfold pushFlow
    rw [arc_addCap, if_neg (fun c => p2 (by
      have := c.1
      rw [arc_addCap_dst] at this
      exact this.symm)), arc_addCap, if_neg (fun c => hji c.2.1)]
  · show (moveExcess _ _ _ _).getD v 0 = 0 ∨ (arc (pushFlow st.adj v i _) v i).cap = 0
    rw [hex, if_pos rfl, if_neg (fun c => p2 c.symm), cap_pushFlow hpa v i _ hi v i,
      if_pos ⟨rfl, rfl⟩, if_neg (fun c => p2 c.1.symm)]
    rcases min_choice (st.excess.getD v 0) (arc st.adj v i).cap with h | h
    · left; omega
    · right; omega
  · intro h1
    show (arc (pushFlow st.adj v i _) v i).cap = 0
    rw [cap_pushFlow hpa v i _ hi v i, if_pos ⟨rfl, rfl⟩,
      if_neg (fun c => p2 c.1.symm), min_eq_right h1]
    omega

end HLPPHeuristic

namespace HLPPHeuristic

/-- Advancing the cursor of `w` past an arc that is not admissible keeps the invariant. -/
theorem Inv.advance {A0 : Adj} {n s t w : Nat} {st : State} (hI : Inv A0 n s t w st)
    (hw : w < n)
    (hadm : (arc st.adj w (st.iter.getD w 0)).cap = 0 ∨
      st.height.getD w 0 ≤ st.height.getD (arc st.adj w (st.iter.getD w 0)).dst 0) :
    Inv A0 n s t w { st with iter := st.iter.set w (st.iter.getD w 0 + 1) } := by
  have hiterset : ∀ x, (st.iter.set w (st.iter.getD w 0 + 1)).getD x 0 =
      if x = w then st.iter.getD w 0 + 1 else st.iter.getD x 0 := by
    intro x
    rw [getD_set_eq]
    by_cases hx : x = w
    · rw [if_pos ⟨hx, by rw [hI.len_iter]; exact hw⟩, if_pos hx]
    · rw [if_neg (fun c => hx c.1), if_neg hx]
  refine ⟨hI.pre, by rw [List.length_set]; exact hI.len_iter, hI.len_count, hI.len_b,
    hI.len_que, ?_, hI.histInv, hI.cnt, hI.bk_mem, hI.bk_nodup, hI.notin, hI.act_all,
    hI.mh_empty, hI.mh_nonneg, hI.mh_lt⟩
  intro x j hj hjl
  simp only at hj hjl ⊢
  rw [hiterset] at hj
  by_cases hx : x = w
  · rw [if_pos hx] at hj
    by_cases hji : j = st.iter.getD w 0
    · rw [hx, hji]
      exact hadm
    · apply hI.cur x j _ hjl
      rw [hx]
      omega
  · rw [if_neg hx] at hj
    exact hI.cur x j hj hjl

/-- The loop of `discharge` over the arcs of `w`. -/
theorem heur_dischargeScan_spec {A0 : Adj} {n s t w : Nat} (hw : w < n) (hws : w ≠ s) :
    ∀ (k : Nat) (st : State), Inv A0 n s t w st →
      (st.height.getD w 0 : Int) ≤ st.max_height →
      (arcs st.adj w).length - st.iter.getD w 0 < k → 0 < st.excess.getD w 0 →
      ∃ b st', dischargeScan k st w = some (b, st') ∧ Inv A0 n s t w st' ∧
        st'.height = st.height ∧ st'.count = st.count ∧ st'.max_height = st.max_height ∧
        st'.work = st.work ∧ st'.que = st.que ∧
        measure A0 n s st' ≤ measure A0 n s st ∧
        (b = true → st'.excess.getD w 0 = 0 ∧ measure A0 n s st' + 1 ≤ measure A0 n s st) ∧
        (b = false → 0 < st'.excess.getD w 0 ∧
          (arcs st'.adj w).length ≤ st'.iter.getD w 0) ∧
        (SrcValid st.adj st.height s → SrcValid st'.adj st'.height s) ∧
        ∃ new, st'.hist = new ++ st.hist ∧ ∀ a ∈ new, ∃ ex, PreInv A0 n s t n a st.height ex ∧
          (SrcValid st.adj st.height s → SrcValid a st.height s) := by
  intro k
  induction k with
  | zero => intro st _ _ hk _; omega
  | succ k ih =>
    intro st hI hmh hk hpos
    by_cases hlt : st.iter.getD w 0 < (arcs st.adj w).length
    · by_cases hc : (arc st.adj w (st.iter.getD w 0)).cap > 0 ∧
          st.height.getD w 0 > st.height.getD (arc st.adj w (st.iter.getD w 0)).dst 0
      · obtain ⟨q1, q2, q3, q4, q5, q6, q7, q8, q9, q10, q11, q12, _⟩ :=
          heur_push_spec hI w hw (Or.inl rfl) (st.iter.getD w 0) hlt hc.1 hpos hc.2
        have hmax : max st.max_height
            (st.height.getD (arc st.adj w (st.iter.getD w 0)).dst 0 : Int) =
            (push st w (st.iter.getD w 0)).max_height := by
          rw [q7]
          apply max_eq_left
          omega
        rw [hmax] at q1
        have q1' : Inv A0 n s t w (push st w (st.iter.getD w 0)) := q1
        have hmle : measure A0 n s (push st w (st.iter.getD w 0)) ≤ measure A0 n s st := by
          have := q9 hws
          omega
        by_cases hz : (push st w (st.iter.getD w 0)).excess.getD w 0 = 0
        · refine ⟨true, _, ?_, q1', q3, q4, q7, q6, q5, hmle, fun _ => ⟨hz, q9 hws⟩,
            fun c => by simp at c, q10, [(push st w (st.iter.getD w 0)).adj], q8, ?_⟩
          · rw [dischargeScan, if_pos hlt]
            simp only [hc, and_self, if_true, hz]
          · intro a ha
            rw [List.mem_singleton] at ha
            rw [ha]
            refine ⟨_, by have := q1'.pre; rw [q3] at this; exact this, ?_⟩
            intro h
            have := q10 h
            rw [q3] at this
            exact this
        · have hpos1 : 0 < (push st w (st.iter.getD w 0)).excess.getD w 0 := by
            have := q1'.pre.exc_nonneg w
            omega
          have hcap0 : (arc (push st w (st.iter.getD w 0)).adj w (st.iter.getD w 0)).cap = 0 := by
            rcases q12 with h | h
            · exact absurd h hz
            · exact h
          have hI2 := q1'.advance hw (by rw [q2]; exact Or.inl hcap0)
          have hlen1 : (arcs (push st w (st.iter.getD w 0)).adj w).length =
              (arcs st.adj w).length := by
            rw [q1'.pre.net.length_arcs, ← hI.pre.net.length_arcs]
          obtain ⟨b, st', r1, r2, r3, r4, r5, r6, r7, r8, r9, r10, r11, new, r12, r13⟩ := ih _ hI2
            (by
              show ((push st w (st.iter.getD w 0)).height.getD w 0 : Int) ≤
                (push st w (st.iter.getD w 0)).max_height
              rw [q3, q7]
              exact hmh)
            (by
              show (arcs (push st w (st.iter.getD w 0)).adj w).length -
                ((push st w (st.iter.getD w 0)).iter.set w
                  ((push st w (st.iter.getD w 0)).iter.getD w 0 + 1)).getD w 0 < k
              rw [getD_set_eq, if_pos ⟨rfl, by rw [q1'.len_iter]; exact hw⟩, hlen1, q2]
              omega) hpos1
          refine ⟨b, st', ?_, r2, r3.trans q3, r4.trans q4, r5.trans q7, r6.trans q6,
            r7.trans q5, le_trans r8 hmle, ?_, r10, fun h => r11 (q10 h),
            new ++ [(push st w (st.iter.getD w 0)).adj], ?_, ?_⟩
          · rw [dischargeScan, if_pos hlt]
            simp only [hc, and_self, if_true, hz, if_false]
            exact r1
          · intro hb
            obtain ⟨c1, c2⟩ := r9 hb
            exact ⟨c1, le_trans c2 hmle⟩
          · rw [r12]
            show new ++ (push st w (st.iter.getD w 0)).hist = _
            rw [q8, List.append_assoc]
            rfl
          · intro a ha
            rcases List.mem_append.mp ha with h | h
            · obtain ⟨ex, e1, e2⟩ := r13 a h
              have e1' : PreInv A0 n s t n a (push st w (st.iter.getD w 0)).height ex := e1
              rw [q3] at e1'
              refine ⟨ex, e1', ?_⟩
              intro hsv
              have e2' : SrcValid (push st w (st.iter.getD w 0)).adj
                  (push st w (st.iter.getD w 0)).height s →
                  SrcValid a (push st w (st.iter.getD w 0)).height s := e2
              have := e2' (q10 hsv)
              rw [q3] at this
              exact this
            · rw [List.mem_singleton] at h
              rw [h]
              refine ⟨_, by have := q1'.pre; rw [q3] at this; exact this, ?_⟩
              intro hsv
              have := q10 hsv
              rw [q3] at this
              exact this
      · have hadm : (arc st.adj w (st.iter.getD w 0)).cap = 0 ∨
            st.height.getD w 0 ≤ st.height.getD (arc st.adj w (st.iter.getD w 0)).dst 0 := by
          have := hI.pre.net.nonneg w _ hlt
          by_cases h1 : (arc st.adj w (st.iter.getD w 0)).cap > 0
          · right
            by_contra h2
            exact hc ⟨h1, by omega⟩
          · left; omega
        have hI2 := hI.advance hw hadm
        obtain ⟨b, st', r1, r2, r3, r4, r5, r6, r7, r8, r9, r10, r11, r12⟩ := ih _ hI2 hmh
          (by
            show (arcs st.adj w).length -
              (st.iter.set w (st.iter.getD w 0 + 1)).getD w 0 < k
            rw [getD_set_eq, if_pos ⟨rfl, by rw [hI.len_iter]; exact hw⟩]
            omega) hpos
        refine ⟨b, st', ?_, r2, r3, r4, r5, r6, r7, r8, r9, r10, r11, r12⟩
        rw [dischargeScan, if_pos hlt]
        simp only [hc, if_false]
        exact r1
    · refine ⟨false, st, ?_, hI, rfl, rfl, rfl, rfl, rfl, le_refl _, fun c => by simp at c,
        fun _ => ⟨hpos, by omega⟩, fun h => h, [], rfl, fun a ha => by simp at ha⟩
      rw [dischargeScan, if_neg hlt]

end HLPPHeuristic

namespace HLPPHeuristic

theorem levelCount_eq_sum (n s t : Nat) (H : List Nat) (h : Nat) :
    (levelCount n s t H h : Int) =
      ∑ x in Finset.range n, if x ≠ s ∧ x ≠ t ∧ H.getD x 0 = h then (1 : Int) else 0 := by
  unfold levelCount
  rw [Finset.card_filter]
  push_cast
  rfl

/-- Changing the height of one node moves it from its level to the new one. -/
theorem levelCount_set (n s t : Nat) (H : List Nat) (v R h : Nat) (hv : v < n) (hvs : v ≠ s)
    (hvt : v ≠ t) (hl : H.length = n) :
    (levelCount n s t (H.set v R) h : Int) =
      levelCount n s t H h - (if H.getD v 0 = h then 1 else 0) + (if R = h then 1 else 0) := by
  have hg := getD_set_height H v R (by rw [hl]; exact hv)
  rw [levelCount_eq_sum, levelCount_eq_sum]
  have hmem : v ∈ Finset.range n := Finset.mem_range.mpr hv
  rw [← Finset.add_sum_erase _ _ hmem, ← Finset.add_sum_erase _ _ hmem]
  have hrest : (∑ x in (Finset.range n).erase v,
      if x ≠ s ∧ x ≠ t ∧ (H.set v R).getD x 0 = h then (1 : Int) else 0) =
      ∑ x in (Finset.range n).erase v,
        if x ≠ s ∧ x ≠ t ∧ H.getD x 0 = h then (1 : Int) else 0 := by
    apply Finset.sum_congr rfl
    intro x hx
    rw [hg, if_neg (Finset.ne_of_mem_erase hx)]
  rw [hrest, hg, if_pos rfl]
  simp only [hvs, hvt, ne_eq, not_false_eq_true, true_and]
  ring

theorem heur_relabel_fold (v : Nat) (es : List Edge) (st : State) :
    es.foldl
      (fun st3 e =>
        if e.cap > 0 then
          { st3 with
            height := st3.height.set v (min (st3.height.getD v 0) (st3.height.getD e.dst 0 + 1)) }
        else st3) st =
    { st with height := es.foldl (fun (h : List Nat) e =>
        if e.cap > 0 then h.set v (min (h.getD v 0) (h.getD e.dst 0 + 1)) else h) st.height } := by
  induction es generalizing st with
  | nil => rfl
  | cons e es ih =>
    rw [List.foldl_cons, List.foldl_cons, ih]
    split <;> rfl

/-- The effect of `relabel(v)`. -/
theorem heur_relabel_eq {A0 : Adj} (n : Nat) (st : State) (v : Nat) (hp : Paired A0)
    (hI : NetInv A0 st.adj) (hv : v < st.height.length) :
    relabel n st v =
      if relabelValue n st.height (arcs st.adj v) < n then
        if st.excess.getD v 0 > 0 then
          State.mk st.adj (st.height.set v (relabelValue n st.height (arcs st.adj v))) st.que
            ((st.count.set (st.height.getD v 0) (st.count.getD (st.height.getD v 0) 0 - 1)).set
              (relabelValue n st.height (arcs st.adj v))
              ((st.count.set (st.height.getD v 0)
                (st.count.getD (st.height.getD v 0) 0 - 1)).getD
                  (relabelValue n st.height (arcs st.adj v)) 0 + 1))
            st.iter st.excess
            (st.buckets.set (relabelValue n st.height (arcs st.adj v))
              (st.buckets.getD (relabelValue n st.height (arcs st.adj v)) [] ++ [v]))
            (relabelValue n st.height (arcs st.adj v) : Int) (st.work + 1) st.hist
        else
          State.mk st.adj (st.height.set v (relabelValue n st.height (arcs st.adj v))) st.que
            ((st.count.set (st.height.getD v 0) (st.count.getD (st.height.getD v 0) 0 - 1)).set
              (relabelValue n st.height (arcs st.adj v))
              ((st.count.set (st.height.getD v 0)
                (st.count.getD (st.height.getD v 0) 0 - 1)).getD
                  (relabelValue n st.height (arcs st.adj v)) 0 + 1))
            st.iter st.excess st.buckets st.max_height (st.work + 1) st.hist
      else
        State.mk st.adj (st.height.set v (relabelValue n st.height (arcs st.adj v))) st.que
          (st.count.set (st.height.getD v 0) (st.count.getD (st.height.getD v 0) 0 - 1))
          st.iter st.excess st.buckets st.max_height (st.work + 1) st.hist := by
  have hne : ∀ e ∈ arcs st.adj v, e.dst ≠ v := by
    intro e he
    obtain ⟨i, hi, hie⟩ := (mem_arcs_iff _ _ _).mp he
    rw [← hie]
    exact (hI.paired hp v i hi).2.1
  have hfold := foldl_relabel_height st.height v hv (arcs st.adj v) hne n
  have hR : (st.height.set v (relabelValue n st.height (arcs st.adj v))).getD v 0 =
      relabelValue n st.height (arcs st.adj v) := by
    rw [getD_set_height _ _ _ hv, if_pos rfl]
  unfold relabel
  simp only
  rw [heur_relabel_fold]
  simp only
  rw [show (List.foldl (fun (h : List Nat) e =>
      if e.cap > 0 then h.set v (min (h.getD v 0) (h.getD e.dst 0 + 1)) else h)
      (st.height.set v n) (arcs st.adj v)) =
      st.height.set v (relabelValue n st.height (arcs st.adj v)) from hfold]
  rw [hR]

end HLPPHeuristic

namespace HLPPHeuristic

/-- The relabel branch of `discharge(w)`: all arcs of `w` have been scanned and `w` still
holds excess. Afterwards `w` is higher, filed in the bucket of its new height if that is
below `n`, and no node is under discharge. -/
theorem heur_relabel_spec {A0 : Adj} {n s t w : Nat} {st : State} (hI : Inv A0 n s t w st)
    (hw : w < n) (hws : w ≠ s) (hwt : w ≠ t) (hs : s < n) (hpos : 0 < st.excess.getD w 0)
    (hdone : (arcs st.adj w).length ≤ st.iter.getD w 0)
    (hmh : (st.height.getD w 0 : Int) = st.max_height) :
    Inv A0 n s t n { relabel n st w with iter := (relabel n st w).iter.set w 0 } ∧
    measure A0 n s { relabel n st w with iter := (relabel n st w).iter.set w 0 } + 1 ≤
      measure A0 n s st ∧
    (SrcValid st.adj st.height s → SrcValid (relabel n st w).adj (relabel n st w).height s) ∧
    (relabel n st w).hist = st.hist ∧ (relabel n st w).adj = st.adj ∧
    (relabel n st w).excess = st.excess := by
  have hHl : w < st.height.length := by rw [hI.pre.len_h]; exact hw
  have hwn : st.height.getD w 0 < n := by
    have := hI.mh_lt
    omega
  have hRle := relabelValue_le_top n st.height (arcs st.adj w)
  have hRgt : st.height.getD w 0 + 1 ≤ relabelValue n st.height (arcs st.adj w) := by
    apply le_relabelValue n st.height (arcs st.adj w) _ (by omega)
    intro e he hc
    obtain ⟨i, hi, hie⟩ := (mem_arcs_iff _ _ _).mp he
    rw [← hie] at hc ⊢
    rcases hI.cur w i (by omega) hi with h | h
    · omega
    · omega
  have hRarc : ∀ i, i < (arcs st.adj w).length → 0 < (arc st.adj w i).cap →
      relabelValue n st.height (arcs st.adj w) ≤ st.height.getD (arc st.adj w i).dst 0 + 1 := by
    intro i hi hc
    exact relabelValue_le_arc n st.height (arcs st.adj w) _
      ((mem_arcs_iff _ _ _).mpr ⟨i, hi, rfl⟩) hc
  have hpre := hI.pre.relabel_pre w hw hws hwt _ (by omega) hRle hRarc
  have hcur := hI.cur.relabel_cur w hHl (by rw [hI.len_iter]; exact hw)
    (relabelValue n st.height (arcs st.adj w)) (by omega)
  have hg := getD_set_height st.height w (relabelValue n st.height (arcs st.adj w)) hHl
  have hmeas := preflowMeasure_relabel hI.pre hs w hw _ hpre (by omega) hRle
  have hlc := fun h => levelCount_set n s t st.height w
    (relabelValue n st.height (arcs st.adj w)) h hw hws hwt hI.pre.len_h
  have hHc : st.height.getD w 0 < st.count.length := by rw [hI.len_count]; exact hwn
  rw [heur_relabel_eq n st w hI.pre.paired0 hI.pre.net hHl]
  by_cases hRn : relabelValue n st.height (arcs st.adj w) < n
  · rw [if_pos hRn, if_pos hpos]
    refine ⟨⟨hpre, by simp [hI.len_iter], by simp [hI.len_count], by simp [hI.len_b],
      hI.len_que, hcur, hI.histInv, ?_, ?_, ?_, ?_, ?_, ?_, ?_, ?_⟩, hmeas,
      fun h => h.relabel_src w hHl hws _ (by omega), rfl, rfl, rfl⟩
    · -- cnt
      intro h hh
      show ((st.count.set (st.height.getD w 0) (st.count.getD (st.height.getD w 0) 0 - 1)).set
        (relabelValue n st.height (arcs st.adj w)) _).getD h 0 = _
      by_cases h1 : h = relabelValue n st.height (arcs st.adj w)
      · subst h1
        rw [getD_set_eq, if_pos ⟨rfl, by rw [List.length_set, hI.len_count]; exact hRn⟩,
          getD_set_eq, if_neg (fun c => by have := c.1; omega)]
        have e := hlc (relabelValue n st.height (arcs st.adj w))
        rw [if_neg (by omega), if_pos rfl] at e
        rw [e, ← hI.cnt _ hRn]
        ring
      · by_cases h2 : h = st.height.getD w 0
        · subst h2
          rw [getD_set_eq, if_neg (fun c => h1 c.1), getD_set_eq, if_pos ⟨rfl, hHc⟩]
          have e := hlc (st.height.getD w 0)
          rw [if_pos rfl, if_neg (fun c => h1 c.symm)] at e
          rw [e, ← hI.cnt _ hh]
          ring
        · rw [getD_set_eq, if_neg (fun c => h1 c.1), getD_set_eq, if_neg (fun c => h2 c.1)]
          have e := hlc h
          rw [if_neg (fun c => h2 c.symm), if_neg (fun c => h1 c.symm)] at e
          rw [e, ← hI.cnt h hh]
          ring
    · -- bk_mem
      intro h v h1 hv
      simp only at hv ⊢
      rw [getD_set_eq] at hv
      rw [hg]
      by_cases hh : h = relabelValue n st.height (arcs st.adj w) ∧
          relabelValue n st.height (arcs st.adj w) < st.buckets.length
      · rw [if_pos hh, List.mem_append, List.mem_singleton] at hv
        rcases hv with hv | hv
        · obtain ⟨a1, a2, a3, a4, a5⟩ := hI.bk_mem _ v (by omega) hv
          have hvw : v ≠ w := fun c => hI.notin _ (by omega) (c ▸ hv)
          rw [if_neg hvw, hh.1]
          exact ⟨a1, a2, a3, a4, a5⟩
        · rw [hv, if_pos rfl]
          exact ⟨hw, hws, hwt, hpos, hh.1.symm⟩
      · rw [if_neg hh] at hv
        obtain ⟨a1, a2, a3, a4, a5⟩ := hI.bk_mem h v h1 hv
        have hvw : v ≠ w := fun c => hI.notin h h1 (c ▸ hv)
        rw [if_neg hvw]
        exact ⟨a1, a2, a3, a4, a5⟩
    · -- bk_nodup
      intro h h1
      simp only
      rw [getD_set_eq]
      split
      · apply List.Nodup.append (hI.bk_nodup _ (by omega)) (List.nodup_singleton _)
        intro a ha hb
        rw [List.mem_singleton] at hb
        exact hI.notin _ (by omega) (hb ▸ ha)
      · exact hI.bk_nodup h h1
    · -- notin
      intro h h1 c
      simp only at c
      rw [getD_set_eq] at c
      split at c
      · rcases List.mem_append.mp c with c | c
        · have := (hI.bk_mem _ n (by omega) c).1
          omega
        · rw [List.mem_singleton] at c
          omega
      · have := (hI.bk_mem h n h1 c).1
        omega
    · -- act_all
      intro x hx hxs hxt hxp hxn
      simp only at hxp hxn ⊢
      left
      rw [getD_set_eq]
      rw [hg] at hxn ⊢
      by_cases hxw : x = w
      · rw [if_pos hxw, if_pos ⟨rfl, by rw [hI.len_b]; exact hRn⟩, hxw]
        exact List.mem_append_right _ (List.mem_singleton.mpr rfl)
      · rw [if_neg hxw] at hxn ⊢
        have hold : x ∈ st.buckets.getD (st.height.getD x 0) [] := by
          rcases hI.act_all x hx hxs hxt hxp hxn with h | h
          · exact h
          · exact absurd h hxw
        split
        · next hc =>
          rw [hc.1] at hold
          exact List.mem_append_left _ hold
        · exact hold
    · -- mh_empty
      intro h hlt
      simp only at hlt ⊢
      rw [getD_set_eq, if_neg (fun c => by have := c.1; omega)]
      apply hI.mh_empty
      omega
    · show (0 : Int) ≤ (relabelValue n st.height (arcs st.adj w) : Int)
      omega
    · show ((relabelValue n st.height (arcs st.adj w) : Nat) : Int) < (n : Int)
      omega
  · rw [if_neg hRn]
    have hRn' : relabelValue n st.height (arcs st.adj w) = n := by omega
    refine ⟨⟨hpre, by simp [hI.len_iter], by simp [hI.len_count], hI.len_b,
      hI.len_que, hcur, hI.histInv, ?_, ?_, hI.bk_nodup, ?_, ?_, hI.mh_empty, hI.mh_nonneg,
      hI.mh_lt⟩, hmeas, fun h => h.relabel_src w hHl hws _ (by omega), rfl, rfl, rfl⟩
    · -- cnt
      intro h hh
      show (st.count.set (st.height.getD w 0) (st.count.getD (st.height.getD w 0) 0 - 1)).getD
        h 0 = _
      by_cases h2 : h = st.height.getD w 0
      · subst h2
        rw [getD_set_eq, if_pos ⟨rfl, hHc⟩]
        have e := hlc (st.height.getD w 0)
        rw [if_pos rfl, if_neg (by omega)] at e
        rw [e, ← hI.cnt _ hh]
        ring
      · rw [getD_set_eq, if_neg (fun c => h2 c.1)]
        have e := hlc h
        rw [if_neg (fun c => h2 c.symm), if_neg (by omega)] at e
        rw [e, ← hI.cnt h hh]
        ring
    · -- bk_mem
      intro h v h1 hv
      obtain ⟨a1, a2, a3, a4, a5⟩ := hI.bk_mem h v h1 hv
      have hvw : v ≠ w := fun c => hI.notin h h1 (c ▸ hv)
      show v < n ∧ v ≠ s ∧ v ≠ t ∧ 0 < st.excess.getD v 0 ∧
        (st.height.set w (relabelValue n st.height (arcs st.adj w))).getD v 0 = h
      rw [hg, if_neg hvw]
      exact ⟨a1, a2, a3, a4, a5⟩
    · -- notin
      intro h h1 c
      have := (hI.bk_mem h n h1 c).1
      omega
    · -- act_all
      intro x hx hxs hxt hxp hxn
      simp only at hxp hxn ⊢
      rw [hg] at hxn ⊢
      by_cases hxw : x = w
      · rw [if_pos hxw] at hxn
        omega
      · rw [if_neg hxw] at hxn ⊢
        rcases hI.act_all x hx hxs hxt hxp hxn with h | h
        · exact Or.inl h
        · exact absurd h hxw

end HLPPHeuristic

namespace HLPPHeuristic

/-- The gap loop after the nodes below `k`: the nodes below `k` whose height was in
`[gap, n)` are at height `n`, the counters of their former heights are 0, and nothing else
has changed. -/
theorem heur_gapLoop_prefix (n gap : Nat) (st : State) (hl : st.height.length = n) :
    ∀ k, k ≤ n →
      ((List.range k).foldl
        (fun (st1 : State) i =>
          if gap ≤ st1.height.getD i 0 ∧ st1.height.getD i 0 < n then
            { st1 with
              count := st1.count.set (st1.height.getD i 0) 0,
              height := st1.height.set i n }
          else st1) st).adj = st.adj ∧
      ((List.range k).foldl
        (fun (st1 : State) i =>
          if gap ≤ st1.height.getD i 0 ∧ st1.height.getD i 0 < n then
            { st1 with
              count := st1.count.set (st1.height.getD i 0) 0,
              height := st1.height.set i n }
          else st1) st).que = st.que ∧
      ((List.range k).foldl
        (fun (st1 : State) i =>
          if gap ≤ st1.height.getD i 0 ∧ st1.height.getD i 0 < n then
            { st1 with
              count := st1.count.set (st1.height.getD i 0) 0,
              height := st1.height.set i n }
          else st1) st).iter = st.iter ∧
      ((List.range k).foldl
        (fun (st1 : State) i =>
          if gap ≤ st1.height.getD i 0 ∧ st1.height.getD i 0 < n then
            { st1 with
              count := st1.count.set (st1.height.getD i 0) 0,
              height := st1.height.set i n }
          else st1) st).excess = st.excess ∧
      ((List.range k).foldl
        (fun (st1 : State) i =>
          if gap ≤ st1.height.getD i 0 ∧ st1.height.getD i 0 < n then
            { st1 with
              count := st1.count.set (st1.height.getD i 0) 0,
              height := st1.height.set i n }
          else st1) st).buckets = st.buckets ∧
      ((List.range k).foldl
        (fun (st1 : State) i =>
          if gap ≤ st1.height.getD i 0 ∧ st1.height.getD i 0 < n then
            { st1 with
              count := st1.count.set (st1.height.getD i 0) 0,
              height := st1.height.set i n }
          else st1) st).max_height = st.max_height ∧
      ((List.range k).foldl
        (fun (st1 : State) i =>
          if gap ≤ st1.height.getD i 0 ∧ st1.height.getD i 0 < n then
            { st1 with
              count := st1.count.set (st1.height.getD i 0) 0,
              height := st1.height.set i n }
          else st1) st).work = st.work ∧
      ((List.range k).foldl
        (fun (st1 : State) i =>
          if gap ≤ st1.height.getD i 0 ∧ st1.height.getD i 0 < n then
            { st1 with
              count := st1.count.set (st1.height.getD i 0) 0,
              height := st1.height.set i n }
          else st1) st).hist = st.hist ∧
      ((List.range k).foldl
        (fun (st1 : State) i =>
          if gap ≤ st1.height.getD i 0 ∧ st1.height.getD i 0 < n then
            { st1 with
              count := st1.count.set (st1.height.getD i 0) 0,
              height := st1.height.set i n }
          else st1) st).height.length = n ∧
      ((List.range k).foldl
        (fun (st1 : State) i =>
          if gap ≤ st1.height.getD i 0 ∧ st1.height.getD i 0 < n then
            { st1 with
              count := st1.count.set (st1.height.getD i 0) 0,
              height := st1.height.set i n }
          else st1) st).count.length = st.count.length ∧
      (∀ x, ((List.range k).foldl
        (fun (st1 : State) i =>
          if gap ≤ st1.height.getD i 0 ∧ st1.height.getD i 0 < n then
            { st1 with
              count := st1.count.set (st1.height.getD i 0) 0,
              height := st1.height.set i n }
          else st1) st).height.getD x 0 =
        if x < k ∧ gap ≤ st.height.getD x 0 ∧ st.height.getD x 0 < n then n
        else st.height.getD x 0) ∧
      (∀ h, (∃ i, i < k ∧ gap ≤ st.height.getD i 0 ∧ st.height.getD i 0 < n ∧
          st.height.getD i 0 = h) →
        ((List.range k).foldl
        (fun (st1 : State) i =>
          if gap ≤ st1.height.getD i 0 ∧ st1.height.getD i 0 < n then
            { st1 with
              count := st1.count.set (st1.height.getD i 0) 0,
              height := st1.height.set i n }
          else st1) st).count.getD h 0 = 0) ∧
      (∀ h, (¬ ∃ i, i < k ∧ gap ≤ st.height.getD i 0 ∧ st.height.getD i 0 < n ∧
          st.height.getD i 0 = h) →
        ((List.range k).foldl
        (fun (st1 : State) i =>
          if gap ≤ st1.height.getD i 0 ∧ st1.height.getD i 0 < n then
            { st1 with
              count := st1.count.set (st1.height.getD i 0) 0,
              height := st1.height.set i n }
          else st1) st).count.getD h 0 = st.count.getD h 0) := by
  intro k
  induction k with
  | zero =>
    intro _
    refine ⟨rfl, rfl, rfl, rfl, rfl, rfl, rfl, rfl, hl, rfl, ?_, ?_, ?_⟩
    · intro x
      rw [if_neg (by omega)]
      rfl
    · rintro h ⟨i, hi, _⟩
      omega
    · intro h _
      rfl
  | succ k ih =>
    intro hk
    obtain ⟨a1, a2, a3, a4, a5, a6, a7, a8, a9, a10, a11, a12, a13⟩ := ih (by omega)
    rw [List.range_succ, List.foldl_append, List.foldl_cons, List.foldl_nil]
    generalize (List.range k).foldl
        (fun (st1 : State) i =>
          if gap ≤ st1.height.getD i 0 ∧ st1.height.getD i 0 < n then
            { st1 with
              count := st1.count.set (st1.height.getD i 0) 0,
              height := st1.height.set i n }
          else st1) st = sk at a1 a2 a3 a4 a5 a6 a7 a8 a9 a10 a11 a12 a13 ⊢
    have hkk : sk.height.getD k 0 = st.height.getD k 0 := by
      rw [a11, if_neg (by omega)]
    by_cases hc : gap ≤ sk.height.getD k 0 ∧ sk.height.getD k 0 < n
    · rw [if_pos hc]
      have hc' := hc
      rw [hkk] at hc'
      have hg := getD_set_height sk.height k n (by rw [a9]; omega)
      refine ⟨a1, a2, a3, a4, a5, a6, a7, a8, by simp [a9], by simp [a10], ?_, ?_, ?_⟩
      · intro x
        show (sk.height.set k n).getD x 0 = _
        rw [hg, a11]
        by_cases hx : x = k
        · rw [if_pos hx, if_pos ⟨by omega, by rw [hx]; exact hc'⟩]
        · rw [if_neg hx]
          by_cases hx2 : x < k ∧ gap ≤ st.height.getD x 0 ∧ st.height.getD x 0 < n
          · rw [if_pos hx2, if_pos ⟨by omega, hx2.2⟩]
          · rw [if_neg hx2, if_neg (fun c => hx2 ⟨by omega, c.2⟩)]
      · rintro h ⟨i, hi, h1, h2, h3⟩
        show (sk.count.set (sk.height.getD k 0) 0).getD h 0 = 0
        rw [getD_set_eq]
        split
        · rfl
        · rename_i hne
          by_cases hik : i = k
          · rw [hkk, ← hik, h3] at hne
            have hlen : ¬ h < sk.count.length := fun c => hne ⟨rfl, c⟩
            rw [List.getD_eq_default _ _ (by omega)]
          · exact a12 h ⟨i, by omega, h1, h2, h3⟩
      · intro h hno
        show (sk.count.set (sk.height.getD k 0) 0).getD h 0 = _
        rw [getD_set_eq, if_neg]
        · apply a13 h
          rintro ⟨i, hi, h1⟩
          exact hno ⟨i, by omega, h1⟩
        · rintro ⟨c, _⟩
          apply hno
          refine ⟨k, by omega, hc'.1, hc'.2, ?_⟩
          rw [← hkk, ← c]
    · rw [if_neg hc]
      have hc' := hc
      rw [hkk] at hc'
      refine ⟨a1, a2, a3, a4, a5, a6, a7, a8, a9, a10, ?_, ?_, ?_⟩
      · intro x
        rw [a11]
        by_cases hx2 : x < k ∧ gap ≤ st.height.getD x 0 ∧ st.height.getD x 0 < n
        · rw [if_pos hx2, if_pos ⟨by omega, hx2.2⟩]
        · rw [if_neg hx2, if_neg]
          rintro ⟨c1, c2⟩
          by_cases hx : x = k
          · rw [hx] at c2
            exact hc' c2
          · exact hx2 ⟨by omega, c2⟩
      · rintro h ⟨i, hi, h1, h2, h3⟩
        apply a12 h
        by_cases hik : i = k
        · rw [hik] at h1 h2
          exact absurd ⟨h1, h2⟩ hc'
        · exact ⟨i, by omega, h1, h2, h3⟩
      · intro h hno
        apply a13 h
        rintro ⟨i, hi, h1⟩
        exact hno ⟨i, by omega, h1⟩

end HLPPHeuristic

namespace Residual

/-- Raising heights does not raise the termination measure, and lowers it when some height
really goes up. -/
theorem preflowMeasure_raise {A0 : Adj} {n s t top : Nat} {adj : Adj} {H H' : List Nat}
    {excess : List Int} (h : PreInv A0 n s t top adj H excess)
    (h' : PreInv A0 n s t top adj H' excess) (hs : s < n)
    (hle : ∀ x, x < n → H.getD x 0 ≤ H'.getD x 0) :
    preflowMeasure A0 n s top H' excess ≤ preflowMeasure A0 n s top H excess ∧
    (∀ w, w < n → H.getD w 0 < H'.getD w 0 →
      preflowMeasure A0 n s top H' excess + 1 ≤ preflowMeasure A0 n s top H excess) := by
  have hstrict : ∀ w, w < n → H.getD w 0 < H'.getD w 0 →
      preflowMeasure A0 n s top H' excess + 1 ≤ preflowMeasure A0 n s top H excess := by
    intro w hw hlt
    have hb := excessPot_le_potBound h' hs
    have n1 := excessPot_nonneg h
    have n2 := excessPot_nonneg h'
    have hr : heightRoom n top H' + 1 ≤ heightRoom n top H := by
      unfold heightRoom
      have : ∑ v in Finset.range n, (top - H'.getD v 0) <
          ∑ v in Finset.range n, (top - H.getD v 0) := by
        apply Finset.sum_lt_sum
        · intro x hx
          have := hle x (Finset.mem_range.mp hx)
          omega
        · refine ⟨w, Finset.mem_range.mpr hw, ?_⟩
          have := h'.h_le w
          omega
      omega
    unfold preflowMeasure
    have hb' : (excessPot n s H' excess).toNat ≤ potBound A0 s top := by omega
    calc heightRoom n top H' * (potBound A0 s top + 1) + (excessPot n s H' excess).toNat + 1
        ≤ heightRoom n top H' * (potBound A0 s top + 1) + (potBound A0 s top + 1) := by omega
      _ = (heightRoom n top H' + 1) * (potBound A0 s top + 1) := by ring
      _ ≤ heightRoom n top H * (potBound A0 s top + 1) := Nat.mul_le_mul_right _ hr
      _ ≤ _ := Nat.le_add_right _ _
  refine ⟨?_, hstrict⟩
  by_cases hex : ∃ w, w < n ∧ H.getD w 0 < H'.getD w 0
  · obtain ⟨w, hw, hlt⟩ := hex
    have := hstrict w hw hlt
    omega
  · have heq : ∀ x, x < n → H'.getD x 0 = H.getD x 0 := by
      intro x hx
      have := hle x hx
      by_contra c
      exact hex ⟨x, hx, by omega⟩
    have e1 : heightRoom n top H' = heightRoom n top H := by
      unfold heightRoom
      apply Finset.sum_congr rfl
      intro x hx
      rw [heq x (Finset.mem_range.mp hx)]
    have e2 : excessPot n s H' excess = excessPot n s H excess := by
      unfold excessPot
      apply Finset.sum_congr rfl
      intro x hx
      rw [heq x (Finset.mem_range.mp hx)]
    unfold preflowMeasure
    rw [e1, e2]

end Residual

namespace HLPPHeuristic

/-- The effect of the gap loop of `discharge`. -/
theorem heur_gapLoop_spec (n gap : Nat) (st : State) (hl : st.height.length = n) :
    (gapLoop n gap st).adj = st.adj ∧ (gapLoop n gap st).que = st.que ∧
    (gapLoop n gap st).iter = st.iter ∧ (gapLoop n gap st).excess = st.excess ∧
    (gapLoop n gap st).buckets = st.buckets ∧
    (gapLoop n gap st).max_height = st.max_height ∧ (gapLoop n gap st).work = st.work ∧
    (gapLoop n gap st).hist = st.hist ∧ (gapLoop n gap st).height.length = n ∧
    (gapLoop n gap st).count.length = st.count.length ∧
    (∀ x, (gapLoop n gap st).height.getD x 0 =
      if x < n ∧ gap ≤ st.height.getD x 0 ∧ st.height.getD x 0 < n then n
      else st.height.getD x 0) ∧
    (∀ h, (∃ i, i < n ∧ gap ≤ st.height.getD i 0 ∧ st.height.getD i 0 < n ∧
        st.height.getD i 0 = h) → (gapLoop n gap st).count.getD h 0 = 0) ∧
    (∀ h, (¬ ∃ i, i < n ∧ gap ≤ st.height.getD i 0 ∧ st.height.getD i 0 < n ∧
        st.height.getD i 0 = h) → (gapLoop n gap st).count.getD h 0 = st.count.getD h 0) :=
  heur_gapLoop_prefix n gap st hl n (le_refl n)

/-- A level with at most one node holds only the node that is known to be there. -/
theorem levelCount_le_one (n s t : Nat) (H : List Nat) (w : Nat) (hw : w < n) (hws : w ≠ s)
    (hwt : w ≠ t) (hc : levelCount n s t H (H.getD w 0) ≤ 1) (x : Nat) (hx : x < n)
    (hxs : x ≠ s) (hxt : x ≠ t) (hxh : H.getD x 0 = H.getD w 0) : x = w := by
  by_contra hne
  have hsub : ({x, w} : Finset Nat) ⊆
      (Finset.range n).filter (fun y => y ≠ s ∧ y ≠ t ∧ H.getD y 0 = H.getD w 0) := by
    intro y hy
    rw [Finset.mem_insert, Finset.mem_singleton] at hy
    rw [Finset.mem_filter, Finset.mem_range]
    rcases hy with h | h
    · rw [h]; exact ⟨hx, hxs, hxt, hxh⟩
    · rw [h]; exact ⟨hw, hws, hwt, rfl⟩
  have hcard := Finset.card_le_card hsub
  rw [Finset.card_pair hne] at hcard
  unfold levelCount at hc
  omega

/-- A level without nodes has count 0. -/
theorem levelCount_eq_zero (n s t : Nat) (H : List Nat) (h : Nat)
    (hno : ∀ x, x < n → x ≠ s → x ≠ t → H.getD x 0 ≠ h) : levelCount n s t H h = 0 := by
  unfold levelCount
  rw [Finset.card_eq_zero, Finset.filter_eq_empty_iff]
  intro x hx c
  exact hno x (Finset.mem_range.mp hx) c.1 c.2.1 c.2.2

/-- The counts of two height vectors agree at a level at which the vectors agree. -/
theorem levelCount_congr (n s t : Nat) (H H' : List Nat) (h : Nat)
    (he : ∀ x, x < n → (H'.getD x 0 = h ↔ H.getD x 0 = h)) :
    levelCount n s t H' h = levelCount n s t H h := by
  unfold levelCount
  congr 1
  apply Finset.filter_congr
  intro x hx
  rw [he x (Finset.mem_range.mp hx)]

/-- The gap branch of `discharge(w)`: all arcs of `w` have been scanned, `w` still holds
excess, and no other node has the height of `w`. Every node at that height or above is
lifted to `n`. -/
theorem heur_gap_spec {A0 : Adj} {n s t w : Nat} {st : State} (hI : Inv A0 n s t w st)
    (hw : w < n) (hws : w ≠ s) (hwt : w ≠ t) (hs : s < n) (hpos : 0 < st.excess.getD w 0)
    (hdone : (arcs st.adj w).length ≤ st.iter.getD w 0)
    (hmh : (st.height.getD w 0 : Int) = st.max_height)
    (hcnt : ¬ st.count.getD (st.height.getD w 0) 0 > 1) :
    Inv A0 n s t n (gapLoop n (st.height.getD w 0) st) ∧
    measure A0 n s (gapLoop n (st.height.getD w 0) st) + 1 ≤ measure A0 n s st ∧
    (SrcValid st.adj st.height s →
      SrcValid (gapLoop n (st.height.getD w 0) st).adj
        (gapLoop n (st.height.getD w 0) st).height s) ∧
    (∀ x, st.height.getD x 0 ≤ (gapLoop n (st.height.getD w 0) st).height.getD x 0) := by
  obtain ⟨g1, g2, g3, g4, g5, g6, g7, g8, g9, g10, g11, g12, g13⟩ :=
    heur_gapLoop_spec n (st.height.getD w 0) st hI.pre.len_h
  have hwn : st.height.getD w 0 < n := by
    have := hI.mh_lt
    omega
  have hw1 : 1 ≤ st.height.getD w 0 := hI.pre.h_pos w hw hwt
  have hcw : levelCount n s t st.height (st.height.getD w 0) ≤ 1 := by
    have := hI.cnt _ hwn
    omega
  have honly : ∀ x, x < n → x ≠ s → x ≠ t → st.height.getD x 0 = st.height.getD w 0 → x = w :=
    levelCount_le_one n s t st.height w hw hws hwt hcw
  have hmono : ∀ x, st.height.getD x 0 ≤ (gapLoop n (st.height.getD w 0) st).height.getD x 0 := by
    intro x
    rw [g11]
    split
    · rename_i c; omega
    · exact le_refl _
  have hwnew : (gapLoop n (st.height.getD w 0) st).height.getD w 0 = n := by
    rw [g11, if_pos ⟨hw, le_refl _, hwn⟩]
  have hpre : PreInv A0 n s t n (gapLoop n (st.height.getD w 0) st).adj
      (gapLoop n (st.height.getD w 0) st).height (gapLoop n (st.height.getD w 0) st).excess := by
    rw [g1, g4]
    refine ⟨hI.pre.paired0, hI.pre.len0, hI.pre.net0, hI.pre.net, g9, hI.pre.len_ex,
      hI.pre.exc_eq, hI.pre.exc_nonneg, ?_, ?_, ?_, ?_, ?_⟩
    · rw [g11, if_neg (fun c => by have := hI.pre.hs; omega)]
      exact hI.pre.hs
    · rw [g11, if_neg (fun c => by have := hI.pre.ht; omega)]
      exact hI.pre.ht
    · intro v hv hvt
      have := hmono v
      have := hI.pre.h_pos v hv hvt
      omega
    · intro v
      rw [g11]
      split
      · exact le_refl _
      · exact hI.pre.h_le v
    · intro v i hvs hi hc
      have hval := hI.pre.valid v i hvs hi hc
      have hd := hmono (arc st.adj v i).dst
      obtain ⟨p1, _⟩ := hI.pre.net.paired hI.pre.paired0 v i hi
      rw [hI.pre.net.length_eq, hI.pre.len0] at p1
      rw [g11 v]
      split
      · rename_i c
        rw [g11 (arc st.adj v i).dst]
        split
        · omega
        · rename_i c2
          by_cases hdn : st.height.getD (arc st.adj v i).dst 0 < st.height.getD w 0
          · -- then `v` is at the height of `w`, hence is `w`, whose arcs are all scanned
            have hvw : v = w := by
              apply honly v c.1 hvs
              · intro c3
                rw [c3, hI.pre.ht] at c
                omega
              · omega
            rw [hvw] at hi hc hdn
            rcases hI.cur w i (by omega) hi with h | h
            · omega
            · omega
          · have : ¬ st.height.getD (arc st.adj v i).dst 0 < n := fun c3 =>
              c2 ⟨p1, by omega, c3⟩
            omega
      · omega
  have hIn : Inv A0 n s t n (gapLoop n (st.height.getD w 0) st) := by
    refine ⟨hpre, by rw [g3]; exact hI.len_iter, by rw [g10]; exact hI.len_count,
      by rw [g5]; exact hI.len_b, by rw [g2]; exact hI.len_que, ?_, by rw [g8]; exact hI.histInv,
      ?_, ?_, by rw [g5]; exact hI.bk_nodup, ?_, ?_, by rw [g5, g6]; exact hI.mh_empty,
      by rw [g6]; exact hI.mh_nonneg, by rw [g6]; exact hI.mh_lt⟩
    · -- cur
      rw [g1, g3]
      intro v i hi hil
      obtain ⟨p1, _⟩ := hI.pre.net.paired hI.pre.paired0 v i hil
      rw [hI.pre.net.length_eq, hI.pre.len0] at p1
      rcases hI.cur v i hi hil with h | h
      · exact Or.inl h
      · right
        rw [g11 v, g11 (arc st.adj v i).dst]
        have := hI.pre.h_le (arc st.adj v i).dst
        split
        · rename_i c
          split
          · exact le_refl _
          · rename_i c2
            have : ¬ st.height.getD (arc st.adj v i).dst 0 < n := fun c3 =>
              c2 ⟨p1, by omega, c3⟩
            omega
        · split
          · omega
          · exact h
    · -- cnt
      intro h hh
      by_cases hge : st.height.getD w 0 ≤ h
      · have hz : levelCount n s t (gapLoop n (st.height.getD w 0) st).height h = 0 := by
          apply levelCount_eq_zero
          intro x hx _ _
          rw [g11]
          split
          · omega
          · rename_i c
            intro c2
            exact c ⟨hx, by omega, by omega⟩
        rw [hz]
        by_cases hex : ∃ i, i < n ∧ st.height.getD w 0 ≤ st.height.getD i 0 ∧
            st.height.getD i 0 < n ∧ st.height.getD i 0 = h
        · rw [g12 h hex]
          rfl
        · rw [g13 h hex, hI.cnt h hh]
          have hz2 : levelCount n s t st.height h = 0 := by
            apply levelCount_eq_zero
            intro x hx _ _ c
            exact hex ⟨x, hx, by omega, by omega, c⟩
          rw [hz2]
      · have hex : ¬ ∃ i, i < n ∧ st.height.getD w 0 ≤ st.height.getD i 0 ∧
            st.height.getD i 0 < n ∧ st.height.getD i 0 = h := by
          rintro ⟨i, _, h1, _, h3⟩
          omega
        rw [g13 h hex, hI.cnt h hh]
        congr 1
        symm
        apply levelCount_congr
        intro x hx
        rw [g11]
        split
        · rename_i c
          constructor
          · intro c2; omega
          · intro c2; omega
        · exact Iff.rfl
    · -- bk_mem
      rw [g5, g4]
      intro h v h1 hv
      obtain ⟨b1, b2, b3, b4, b5⟩ := hI.bk_mem h v h1 hv
      refine ⟨b1, b2, b3, b4, ?_⟩
      rw [g11, if_neg]
      · exact b5
      · rintro ⟨_, c1, c2⟩
        have hhle : h ≤ st.height.getD w 0 := by
          by_contra c3
          have := hI.mh_empty h (by omega)
          rw [this] at hv
          simp at hv
        have hvw : v = w := honly v b1 b2 b3 (by omega)
        rw [hvw] at hv
        exact hI.notin h h1 hv
    · -- notin
      rw [g5]
      intro h h1 c
      have := (hI.bk_mem h n h1 c).1
      omega
    · -- act_all
      rw [g4, g5]
      intro v hv hvs hvt hex hlt
      left
      rw [g11] at hlt ⊢
      by_cases c : v < n ∧ st.height.getD w 0 ≤ st.height.getD v 0 ∧ st.height.getD v 0 < n
      · rw [if_pos c] at hlt
        omega
      · rw [if_neg c] at hlt ⊢
        rcases hI.act_all v hv hvs hvt hex hlt with h | h
        · exact h
        · exfalso
          apply c
          rw [h]
          exact ⟨hw, le_refl _, hwn⟩
  refine ⟨hIn, ?_, ?_, hmono⟩
  · have hpre2 := hpre
    rw [g1, g4] at hpre2
    have hr := (preflowMeasure_raise hI.pre hpre2 hs (fun x _ => hmono x)).2 w hw (by
      rw [hwnew]; exact hwn)
    unfold measure
    rw [g4]
    exact hr
  · intro hsv i hi hc
    rw [g1] at hi hc ⊢
    have := hsv i hi hc
    have h2 := hmono (arc st.adj s i).dst
    have h3 : (gapLoop n (st.height.getD w 0) st).height.getD s 0 = st.height.getD s 0 := by
      rw [g11, if_neg (fun c => by have := hI.pre.hs; omega)]
    rw [h3]
    omega

end HLPPHeuristic

namespace HLPPHeuristic

/-- When the node under discharge has no excess left, the invariant holds with no node under
discharge. -/
theorem Inv.release {A0 : Adj} {n s t w : Nat} {st : State} (hI : Inv A0 n s t w st)
    (hz : st.excess.getD w 0 = 0) : Inv A0 n s t n st := by
  refine ⟨hI.pre, hI.len_iter, hI.len_count, hI.len_b, hI.len_que, hI.cur, hI.histInv, hI.cnt,
    hI.bk_mem, hI.bk_nodup, ?_, ?_, hI.mh_empty, hI.mh_nonneg, hI.mh_lt⟩
  · intro h h1 c
    have := (hI.bk_mem h n h1 c).1
    omega
  · intro v hv hvs hvt hex hlt
    rcases hI.act_all v hv hvs hvt hex hlt with h | h
    · exact Or.inl h
    · rw [h] at hex
      omega

/-- The fields that `relabel(v)` leaves alone, and the new height of `v`. -/
theorem heur_relabel_frame {A0 : Adj} (n : Nat) (st : State) (v : Nat) (hp : Paired A0)
    (hI : NetInv A0 st.adj) (hv : v < st.height.length) :
    (relabel n st v).height = st.height.set v (relabelValue n st.height (arcs st.adj v)) ∧
    (relabel n st v).work = st.work + 1 ∧ (relabel n st v).que = st.que ∧
    (relabel n st v).iter = st.iter := by
  rw [heur_relabel_eq n st v hp hI hv]
  split_ifs <;> exact ⟨rfl, rfl, rfl, rfl⟩

/-- One call of `discharge(w)` for a node `w` at height `max_height` that holds excess. -/
theorem heur_discharge_spec {A0 : Adj} {n s t w : Nat} (hw : w < n) (hws : w ≠ s)
    (hwt : w ≠ t) (hs : s < n) (F : Nat) (st : State) (hI : Inv A0 n s t w st)
    (hmh : (st.height.getD w 0 : Int) = st.max_height) (hpos : 0 < st.excess.getD w 0)
    (hF : (arcs st.adj w).length < F) :
    ∃ st', discharge n F st w = some st' ∧ Inv A0 n s t n st' ∧
      measure A0 n s st' + 1 ≤ measure A0 n s st ∧
      (SrcValid st.adj st.height s → SrcValid st'.adj st'.height s) ∧
      (∀ x, st.height.getD x 0 ≤ st'.height.getD x 0) ∧
      (st'.work = st.work ∨ st'.work = st.work + 1) ∧
      st.max_height ≤ st'.max_height ∧
      ∃ new, st'.hist = new ++ st.hist ∧ ∀ a ∈ new, ∃ ex, PreInv A0 n s t n a st.height ex ∧
        (SrcValid st.adj st.height s → SrcValid a st.height s) := by
  obtain ⟨b, st1, r1, r2, r3, r4, r5, r6, r7, r8, r9, r10, r11, new, r12, r13⟩ :=
    heur_dischargeScan_spec hw hws F st hI (le_of_eq hmh) (by omega) hpos
  cases b with
  | true =>
    obtain ⟨c1, c2⟩ := r9 rfl
    refine ⟨st1, ?_, r2.release c1, c2, r11, fun x => by rw [r3], Or.inl r6, le_of_eq r5.symm,
      new, r12, r13⟩
    unfold discharge
    rw [r1]
  | false =>
    obtain ⟨c1, c2⟩ := r10 rfl
    have hmh1 : (st1.height.getD w 0 : Int) = st1.max_height := by rw [r3, r5]; exact hmh
    have hHl : w < st1.height.length := by rw [r2.pre.len_h]; exact hw
    by_cases hcnt : st1.count.getD (st1.height.getD w 0) 0 > 1
    · obtain ⟨d1, d2, d3, d4, d5, d6⟩ := heur_relabel_spec r2 hw hws hwt hs c1 c2 hmh1
      obtain ⟨f1, f2, f3, f4⟩ := heur_relabel_frame n st1 w r2.pre.paired0 r2.pre.net hHl
      -- the new height of `w` is above the old one
      have hRgt : st1.height.getD w 0 + 1 ≤ relabelValue n st1.height (arcs st1.adj w) := by
        apply le_relabelValue n st1.height (arcs st1.adj w) _ (by
          have := r2.mh_lt
          omega)
        intro e he hc
        obtain ⟨i, hi, hie⟩ := (mem_arcs_iff _ _ _).mp he
        rw [← hie] at hc ⊢
        rcases r2.cur w i (by omega) hi with h | h
        · omega
        · omega
      have hwork : (relabel n st1 w).work = st.work + 1 := by rw [f2, r6]
      have hhist : (relabel n st1 w).hist = new ++ st.hist := by rw [d4, r12]
      have hmax : st.max_height ≤ (relabel n st1 w).max_height := by
        rw [heur_relabel_eq n st1 w r2.pre.paired0 r2.pre.net hHl, ← r5]
        split_ifs
        · show st1.max_height ≤ (relabelValue n st1.height (arcs st1.adj w) : Int)
          omega
        · exact le_refl _
      refine ⟨{ relabel n st1 w with iter := (relabel n st1 w).iter.set w 0 }, ?_, d1,
        by omega, fun h => d3 (r11 h), ?_, Or.inr hwork, hmax, new, hhist, r13⟩
      · unfold discharge
        rw [r1]
        simp only [hcnt, if_true]
      · intro x
        show st.height.getD x 0 ≤ (relabel n st1 w).height.getD x 0
        rw [f1, getD_set_height _ _ _ hHl, ← r3]
        split
        · rename_i c
          rw [c]
          omega
        · exact le_refl _
    · obtain ⟨d1, d2, d3, d4⟩ := heur_gap_spec r2 hw hws hwt hs c1 c2 hmh1 hcnt
      obtain ⟨g1, g2, g3, g4, g5, g6, g7, g8, _⟩ :=
        heur_gapLoop_spec n (st1.height.getD w 0) st1 r2.pre.len_h
      refine ⟨gapLoop n (st1.height.getD w 0) st1, ?_, d1, by omega, fun h => d3 (r11 h), ?_,
        Or.inl (by rw [g7, r6]), by rw [g6, r5], new, by rw [g8, r12], r13⟩
      · unfold discharge
        rw [r1]
        simp only [hcnt, if_false]
      · intro x
        rw [← r3]
        exact d4 x

end HLPPHeuristic

namespace HLPPHeuristic

/-- The scan of the arcs of `v` in `globalRelabel`; `v` is entry `qb` of the queue. -/
theorem heur_grFor_spec {adj : Adj} {n t : Nat} (hp : Paired adj) (hlen : adj.length = n)
    (hnn : ∀ u i, i < (arcs adj u).length → 0 ≤ (arc adj u i).cap) (v qb : Nat) :
    ∀ (es pre : List Edge) (st : State) (seen : List Nat),
      st.adj = adj → arcs adj v = pre ++ es → qb < seen.length →
      RevCore adj n t st.height seen →
      RevInner adj v pre st.height (seen.drop (qb + 1)) seen →
      QueueIs st.que seen → st.que.length = n →
      seen.Pairwise (fun a b => st.height.getD a 0 ≤ st.height.getD b 0) →
      ∃ seen' ext, seen' = seen ++ ext ∧
        (globalRelabelFor n v es st seen.length).2 = seen'.length ∧
        RevCore adj n t (globalRelabelFor n v es st seen.length).1.height seen' ∧
        RevInner adj v (arcs adj v) (globalRelabelFor n v es st seen.length).1.height
          (seen'.drop (qb + 1)) seen' ∧
        QueueIs (globalRelabelFor n v es st seen.length).1.que seen' ∧
        (globalRelabelFor n v es st seen.length).1.que.length = n ∧
        seen'.Pairwise (fun a b =>
          (globalRelabelFor n v es st seen.length).1.height.getD a 0 ≤
            (globalRelabelFor n v es st seen.length).1.height.getD b 0) ∧
        (∀ x ∈ seen, (globalRelabelFor n v es st seen.length).1.height.getD x 0 =
          st.height.getD x 0) ∧
        (globalRelabelFor n v es st seen.length).1.adj = st.adj ∧
        (globalRelabelFor n v es st seen.length).1.count = st.count ∧
        (globalRelabelFor n v es st seen.length).1.iter = st.iter ∧
        (globalRelabelFor n v es st seen.length).1.excess = st.excess ∧
        (globalRelabelFor n v es st seen.length).1.buckets = st.buckets ∧
        (globalRelabelFor n v es st seen.length).1.max_height = st.max_height ∧
        (globalRelabelFor n v es st seen.length).1.work = st.work ∧
        (globalRelabelFor n v es st seen.length).1.hist = st.hist := by
  intro es
  induction es with
  | nil =>
    intro pre st seen hadj hs hqb hc hin hq hql hso
    refine ⟨seen, [], by simp, rfl, hc, ?_, hq, hql, hso, fun x _ => rfl, rfl, rfl, rfl, rfl,
      rfl, rfl, rfl, rfl⟩
    rw [hs, List.append_nil]
    exact hin
  | cons e es ih =>
    intro pre st seen hadj hs hqb hc hin hq hql hso
    have hi : pre.length < (arcs adj v).length := by
      rw [hs]; simp
    have he : arc adj v pre.length = e := by
      unfold arc
      rw [hs, List.getD_append_right _ _ _ _ (le_refl _)]
      simp
    have hs' : arcs adj v = (pre ++ [e]) ++ es := by
      rw [hs]; simp
    obtain ⟨p1, p2, p3, p4, p5⟩ := hp v pre.length hi
    rw [he] at p1 p2 p3 p4 p5
    by_cases hcode : (arc st.adj e.dst e.rev).cap = 0 ∨ st.height.getD e.dst 0 < n
    · have hb : globalRelabelFor n v (e :: es) st seen.length =
          globalRelabelFor n v es st seen.length := by
        rw [globalRelabelFor, if_pos hcode]
      rw [hb]
      have hcond : ¬ (st.height.getD e.dst 0 = n ∧ (arc adj e.dst e.rev).cap > 0) := by
        rw [hadj] at hcode
        rintro ⟨c1, c2⟩
        rcases hcode with h | h
        · omega
        · omega
      exact ih (pre ++ [e]) st seen hadj hs' hqb hc
        (revBfs_skip hp hlen v pre e st.height _ seen hi he hc hin hcond) hq hql hso
    · have hb : globalRelabelFor n v (e :: es) st seen.length =
          globalRelabelFor n v es
            { st with
              height := st.height.set e.dst (st.height.getD v 0 + 1),
              que := st.que.set seen.length e.dst }
            (seen.length + 1) := by
        rw [globalRelabelFor, if_neg hcode]
      rw [hb]
      have hcond : st.height.getD e.dst 0 = n ∧ (arc adj e.dst e.rev).cap > 0 := by
        rw [hadj] at hcode
        have h1 := hc.h_le e.dst
        have h2 := hnn e.dst e.rev p3
        constructor
        · by_contra c
          exact hcode (Or.inr (by omega))
        · by_contra c
          exact hcode (Or.inl (by omega))
      obtain ⟨hc2, hin2, hcard, hun, hdn, _, _⟩ :=
        revBfs_label hp hlen v pre e st.height _ seen hi he hc hin hcond
      have hold : ∀ x, x ∈ seen →
          (st.height.set e.dst (st.height.getD v 0 + 1)).getD x 0 = st.height.getD x 0 := by
        intro x hx
        rw [getD_set_height _ _ _ (by rw [hc.len]; exact hdn),
          if_neg (fun c => hun (by rw [← c]; exact hx))]
      have hnew : (st.height.set e.dst (st.height.getD v 0 + 1)).getD e.dst 0 =
          st.height.getD v 0 + 1 := by
        rw [getD_set_height _ _ _ (by rw [hc.len]; exact hdn), if_pos rfl]
      have hdrop : (seen ++ [e.dst]).drop (qb + 1) = seen.drop (qb + 1) ++ [e.dst] :=
        List.drop_append_of_le_length (by omega)
      have hlen2 : (seen ++ [e.dst]).length = seen.length + 1 := by simp
      have hq2 : QueueIs (st.que.set seen.length e.dst) (seen ++ [e.dst]) := by
        refine ⟨by rw [List.length_set, hlen2, hql]; omega, ?_⟩
        rw [hlen2, take_set_succ _ _ _ (by rw [hql]; exact hcard), hq.2]
      have hso2 : (seen ++ [e.dst]).Pairwise (fun a b =>
          (st.height.set e.dst (st.height.getD v 0 + 1)).getD a 0 ≤
            (st.height.set e.dst (st.height.getD v 0 + 1)).getD b 0) := by
        rw [List.pairwise_append]
        refine ⟨?_, List.pairwise_singleton _ _, ?_⟩
        · apply hso.imp_of_mem
          intro a b ha hb' hab
          rw [hold a ha, hold b hb']
          exact hab
        · intro a ha b hb'
          rw [List.mem_singleton] at hb'
          rw [hb', hnew, hold a ha]
          exact hin.near a ha
      rw [← hdrop] at hin2
      obtain ⟨seen', ext, r1, r2, r3, r4, r5, r6, r7, r8, r9⟩ :=
        ih (pre ++ [e])
          { st with
            height := st.height.set e.dst (st.height.getD v 0 + 1),
            que := st.que.set seen.length e.dst }
          (seen ++ [e.dst]) hadj hs' (by rw [hlen2]; omega) hc2 hin2 hq2
          (by show (st.que.set seen.length e.dst).length = n; rw [List.length_set]; exact hql)
          hso2
      rw [hlen2] at r2 r3 r4 r5 r6 r7 r8 r9
      refine ⟨seen', [e.dst] ++ ext, by rw [r1, List.append_assoc], r2, r3, r4, r5, r6, r7, ?_,
        r9⟩
      intro x hx
      rw [r8 x (List.mem_append_left _ hx)]
      exact hold x hx

end HLPPHeuristic

namespace HLPPHeuristic

/-- One iteration of the `while` loop of `globalRelabel`. -/
theorem heur_grWhile_step (n s t k : Nat) (st : State) (qb qe : Nat) (h : qb < qe) :
    globalRelabelWhile n s t (k + 1) st qb qe =
      globalRelabelWhile n s t k
        (globalRelabelFor n (st.que.getD qb 0)
          (arcs (bookNode n s t st (st.que.getD qb 0)).adj (st.que.getD qb 0))
          (bookNode n s t st (st.que.getD qb 0)) qe).1 (qb + 1)
        (globalRelabelFor n (st.que.getD qb 0)
          (arcs (bookNode n s t st (st.que.getD qb 0)).adj (st.que.getD qb 0))
          (bookNode n s t st (st.que.getD qb 0)) qe).2 := by
  rw [globalRelabelWhile, if_pos h]
  rfl

theorem heur_bookNode_frame (n s t : Nat) (st : State) (v : Nat) :
    (bookNode n s t st v).adj = st.adj ∧ (bookNode n s t st v).height = st.height ∧
    (bookNode n s t st v).que = st.que ∧ (bookNode n s t st v).iter = st.iter ∧
    (bookNode n s t st v).excess = st.excess ∧ (bookNode n s t st v).work = st.work ∧
    (bookNode n s t st v).hist = st.hist := by
  unfold bookNode
  simp only
  split_ifs <;> exact ⟨rfl, rfl, rfl, rfl, rfl, rfl, rfl⟩

theorem filter_append_singleton {α : Type} (p : α → Bool) (l : List α) (v : α) :
    (l ++ [v]).filter p = if p v = true then l.filter p ++ [v] else l.filter p := by
  rw [List.filter_append]
  by_cases h : p v = true
  · rw [if_pos h]
    simp [h]
  · rw [if_neg h]
    simp [h]

/-- Booking the node `v`, which is at least as high as the nodes booked before. -/
theorem heur_bookNode_spec {n s t : Nat} {st : State} {dq : List Nat} (v : Nat)
    (hB : Booked n s t st dq) (hso : ∀ x ∈ dq, st.height.getD x 0 ≤ st.height.getD v 0) :
    Booked n s t (bookNode n s t st v) (dq ++ [v]) := by
  unfold bookNode
  simp only
  by_cases c1 : st.height.getD v 0 < n ∧ v ≠ s ∧ v ≠ t
  · rw [if_pos c1]
    have hcnt : ∀ h, h < n →
        (st.count.set (st.height.getD v 0) (st.count.getD (st.height.getD v 0) 0 + 1)).getD h 0 =
        (((dq ++ [v]).filter
          (fun x => decide (x ≠ s ∧ x ≠ t ∧ st.height.getD x 0 = h))).length : Int) := by
      intro h hh
      rw [getD_set_eq, filter_append_singleton]
      by_cases hv : h = st.height.getD v 0
      · rw [if_pos ⟨hv, by rw [hB.len_count]; exact c1.1⟩, hB.cnt _ c1.1, hv,
          if_pos (decide_eq_true ⟨c1.2.1, c1.2.2, rfl⟩), List.length_append]
        simp
      · rw [if_neg (fun c => hv c.1), hB.cnt h hh, if_neg]
        intro c
        simp only [decide_eq_true_eq] at c
        exact hv c.2.2.symm
    by_cases c2 : st.excess.getD v 0 > 0
    · rw [if_pos c2]
      refine ⟨by simp [hB.len_count], by simp [hB.len_b], hcnt, ?_, ?_, ?_, ?_⟩
      · intro h hh
        show (st.buckets.set (st.height.getD v 0) (st.buckets.getD (st.height.getD v 0) [] ++
          [v])).getD h [] = (dq ++ [v]).filter (fun x => decide (x ≠ s ∧ x ≠ t ∧
            0 < st.excess.getD x 0 ∧ st.height.getD x 0 = h))
        rw [getD_set_eq, filter_append_singleton]
        by_cases hv : h = st.height.getD v 0
        · rw [if_pos ⟨hv, by rw [hB.len_b]; exact c1.1⟩, hB.bk _ c1.1, hv,
            if_pos (decide_eq_true ⟨c1.2.1, c1.2.2, c2, rfl⟩)]
        · rw [if_neg (fun c => hv c.1), hB.bk h hh, if_neg]
          intro c
          simp only [decide_eq_true_eq] at c
          exact hv c.2.2.2.symm
      · intro h hh
        show (st.buckets.set (st.height.getD v 0) (st.buckets.getD (st.height.getD v 0) [] ++
          [v])).getD h [] = _
        have hh' : st.height.getD v 0 < h := by
          have : ((st.height.getD v 0 : Nat) : Int) < (h : Int) := hh
          omega
        rw [getD_set_eq, if_neg (fun c => by have := c.1; omega)]
        by_cases hn : h < n
        · rw [hB.bk h hn, List.filter_eq_nil_iff]
          intro x hx
          have := hso x hx
          simp only [decide_eq_true_eq, not_and]
          intro _ _ _
          omega
        · rw [List.getD_eq_default _ _ (by rw [hB.len_b]; omega)]
      · show (0 : Int) ≤ (st.height.getD v 0 : Int)
        omega
      · show ((st.height.getD v 0 : Nat) : Int) < (n : Int)
        have := c1.1
        omega
    · rw [if_neg c2]
      refine ⟨by simp [hB.len_count], hB.len_b, hcnt, ?_, hB.mh_empty, hB.mh_nonneg, hB.mh_lt⟩
      intro h hh
      show st.buckets.getD h [] = (dq ++ [v]).filter (fun x => decide (x ≠ s ∧ x ≠ t ∧
            0 < st.excess.getD x 0 ∧ st.height.getD x 0 = h))
      rw [hB.bk h hh, filter_append_singleton, if_neg]
      intro c
      simp only [decide_eq_true_eq] at c
      exact c2 c.2.2.1
  · rw [if_neg c1]
    refine ⟨hB.len_count, hB.len_b, ?_, ?_, hB.mh_empty, hB.mh_nonneg, hB.mh_lt⟩
    · intro h hh
      rw [hB.cnt h hh, filter_append_singleton, if_neg]
      intro c
      simp only [decide_eq_true_eq] at c
      exact c1 ⟨by omega, c.1, c.2.1⟩
    · intro h hh
      rw [hB.bk h hh, filter_append_singleton, if_neg]
      intro c
      simp only [decide_eq_true_eq] at c
      exact c1 ⟨by omega, c.1, c.2.1⟩

/-- The bookkeeping depends only on the heights of the booked nodes. -/
theorem Booked.booked_congr {n s t : Nat} {st st' : State} {dq : List Nat} (hB : Booked n s t st dq)
    (hc : st'.count = st.count) (hb : st'.buckets = st.buckets)
    (hm : st'.max_height = st.max_height) (he : st'.excess = st.excess)
    (hh : ∀ x ∈ dq, st'.height.getD x 0 = st.height.getD x 0) : Booked n s t st' dq := by
  refine ⟨by rw [hc]; exact hB.len_count, by rw [hb]; exact hB.len_b, ?_, ?_,
    by rw [hb, hm]; exact hB.mh_empty, by rw [hm]; exact hB.mh_nonneg,
    by rw [hm]; exact hB.mh_lt⟩
  · intro h hlt
    rw [hc, hB.cnt h hlt]
    congr 2
    apply List.filter_congr
    intro x hx
    rw [hh x hx]
  · intro h hlt
    rw [hb, hB.bk h hlt, he]
    apply List.filter_congr
    intro x hx
    rw [hh x hx]

end HLPPHeuristic

namespace HLPPHeuristic

theorem take_succ_getD (l : List Nat) (k : Nat) (hk : k < l.length) :
    l.take (k + 1) = l.take k ++ [l.getD k 0] := by
  rw [List.take_succ, List.getD_eq_getElem _ _ hk, List.getElem?_eq_getElem hk]
  rfl

theorem getD_of_take (l seen : List Nat) (k : Nat) (h : l.take seen.length = seen)
    (hk : k < seen.length) : l.getD k 0 = seen.getD k 0 := by
  conv_rhs => rw [← h]
  rw [List.getD_eq_getElem?_getD, List.getD_eq_getElem?_getD, List.getElem?_take, if_pos hk]

theorem RevCore_length_le {adj : Adj} {n t : Nat} {H seen : List Nat}
    (hc : RevCore adj n t H seen) : seen.length ≤ n := by
  have h2 : seen ⊆ List.range n := by
    intro y hy
    rw [List.mem_range]
    exact ((hc.seen_iff y).mp hy).1
  have := (List.subperm_of_subset hc.nodup h2).length_le
  rw [List.length_range] at this
  exact this

/-- The `while` loop of `globalRelabel` terminates with every labelled node taken from the
queue and booked. -/
theorem heur_grWhile_spec {adj : Adj} {n s t : Nat} (hp : Paired adj) (hlen : adj.length = n)
    (hnn : ∀ u i, i < (arcs adj u).length → 0 ≤ (arc adj u i).cap) :
    ∀ (fuel : Nat) (st : State) (qb : Nat) (seen : List Nat),
      GRLoop adj n s t st qb seen → 2 * (n - seen.length) + (seen.length - qb) < fuel →
      ∃ st' seen', globalRelabelWhile n s t fuel st qb seen.length = some st' ∧
        GRLoop adj n s t st' seen'.length seen' ∧
        st'.iter = st.iter ∧ st'.excess = st.excess ∧ st'.work = st.work ∧
        st'.hist = st.hist := by
  intro fuel
  induction fuel with
  | zero => intro st qb seen _ hf; omega
  | succ k ih =>
    intro st qb seen hG hf
    by_cases hlt : qb < seen.length
    · rw [heur_grWhile_step n s t k st qb seen.length hlt]
      obtain ⟨f1, f2, f3, f4, f5, f6, f7⟩ := heur_bookNode_frame n s t st (st.que.getD qb 0)
      have hv : st.que.getD qb 0 = seen.getD qb 0 := getD_of_take _ _ _ hG.qis.2 hlt
      have hdrop : seen.drop qb = st.que.getD qb 0 :: seen.drop (qb + 1) := by
        rw [hv]
        exact FordFulkersonRandomDFS.drop_eq_cons seen qb hlt
      have hq := hG.queue
      rw [hdrop] at hq
      have hnd := hq.q_nodup
      rw [List.nodup_cons] at hnd
      have hso := hq.sorted
      rw [List.pairwise_cons] at hso
      have hvs : st.que.getD qb 0 ∈ seen := hq.q_sub _ (List.mem_cons_self _ _)
      have hin : RevInner adj (st.que.getD qb 0) [] st.height (seen.drop (qb + 1)) seen := by
        refine ⟨hvs, hnd.1, fun y hy => hq.q_sub y (List.mem_cons_of_mem _ hy), hnd.2, hso.2,
          hso.1, fun x hx => hq.near x hx _ (List.mem_cons_self _ _), ?_, ?_⟩
        · intro x hx hxq hxv
          apply hq.done x hx
          intro c
          rcases List.mem_cons.mp c with h | h
          · exact hxv h
          · exact hxq h
        · intro e he
          simp at he
      have hsplit : seen = seen.take qb ++ seen.drop qb := (List.take_append_drop qb seen).symm
      have hbelow : ∀ x ∈ seen.take qb,
          st.height.getD x 0 ≤ st.height.getD (st.que.getD qb 0) 0 := by
        intro x hx
        have hs : (seen.take qb ++ seen.drop qb).Pairwise
            (fun a b => st.height.getD a 0 ≤ st.height.getD b 0) := by
          rw [List.take_append_drop]
          exact hG.sorted
        rw [List.pairwise_append] at hs
        exact hs.2.2 x hx _ (by rw [hdrop]; exact List.mem_cons_self _ _)
      have hB := heur_bookNode_spec (st.que.getD qb 0) hG.booked hbelow
      have htake : seen.take qb ++ [st.que.getD qb 0] = seen.take (qb + 1) := by
        rw [hv]
        exact (take_succ_getD seen qb hlt).symm
      rw [htake] at hB
      have hadj1 : (bookNode n s t st (st.que.getD qb 0)).adj = adj := by
        rw [f1]; exact hG.adj_eq
      rw [hadj1]
      obtain ⟨seen', ext, r1, r2, r3, r4, r5, r6, r7, r8, r9, r10, r11, r12, r13, r14, r15,
        r16⟩ := heur_grFor_spec (t := t) hp hlen hnn (st.que.getD qb 0) qb
          (arcs adj (st.que.getD qb 0)) []
          (bookNode n s t st (st.que.getD qb 0)) seen hadj1 rfl hlt
          (by rw [f2]; exact hG.core) (by rw [f2]; exact hin) (by rw [f3]; exact hG.qis)
          (by rw [f3]; exact hG.len_que) (by rw [f2]; exact hG.sorted)
      rw [r2]
      have hlen' : seen'.length = seen.length + ext.length := by
        rw [r1, List.length_append]
      have hle' := RevCore_length_le r3
      have hG2 : GRLoop adj n s t
          (globalRelabelFor n (st.que.getD qb 0) (arcs adj (st.que.getD qb 0))
            (bookNode n s t st (st.que.getD qb 0)) seen.length).1 (qb + 1) seen' := by
        refine ⟨by rw [r9]; exact hadj1, r3, ?_, r5, r6, r7, ?_, by omega⟩
        · refine ⟨r4.q_sub, r4.q_nodup, r4.sorted, ?_, ?_⟩
          · intro x hx y hy
            have a := r4.near x hx
            have b := r4.above y hy
            omega
          · intro x hx hxq
            by_cases hxv : x = st.que.getD qb 0
            · rw [hxv]
              intro i hi hpc
              exact r4.scanned (arc adj _ i) ((mem_arcs_iff _ _ _).mpr ⟨i, hi, rfl⟩) hpc
            · exact r4.done x hx hxq hxv
        · have ht2 : seen'.take (qb + 1) = seen.take (qb + 1) := by
            rw [r1]
            exact List.take_append_of_le_length (by omega)
          rw [ht2]
          apply hB.booked_congr r10 r13 r14 r12
          intro x hx
          exact r8 x (List.mem_of_mem_take hx)
      obtain ⟨st', seen'', e1, e2, e3, e4, e5, e6⟩ := ih _ (qb + 1) seen' hG2 (by omega)
      exact ⟨st', seen'', e1, e2, by rw [e3, r11, f4], by rw [e4, r12, f5],
        by rw [e5, r15, f6], by rw [e6, r16, f7]⟩
    · have hqe : qb = seen.length := by
        have := hG.qb_le
        omega
      refine ⟨st, seen, ?_, by rw [← hqe]; exact hG, rfl, rfl, rfl, rfl⟩
      rw [globalRelabelWhile, if_neg hlt]

end HLPPHeuristic

namespace Residual

/-- A labelling that is valid on every arc is a lower bound on the number of arcs of any
path. -/
theorem ValidAll.le_of_reachIn {adj : Adj} {H : List Nat} (hv : ValidAll adj H) {x y k : Nat}
    (h : ReachIn adj x y k) : H.getD x 0 ≤ H.getD y 0 + k := by
  induction h with
  | refl => omega
  | step v i j _ hi hc ih =>
    have := hv v i hi hc
    omega

theorem PreInv.toBase {A0 : Adj} {n s t top : Nat} {adj : Adj} {height : List Nat}
    {excess : List Int} (h : PreInv A0 n s t top adj height excess) :
    PreBase A0 n s adj excess :=
  ⟨h.paired0, h.len0, h.net0, h.net, h.len_ex, h.exc_eq, h.exc_nonneg⟩

/-- The labelling of a preflow is valid on every arc when it is valid on the arcs of the
source. -/
theorem PreInv.validAll {A0 : Adj} {n s t top : Nat} {adj : Adj} {height : List Nat}
    {excess : List Int} (h : PreInv A0 n s t top adj height excess)
    (hsrc : SrcValid adj height s) : ValidAll adj height := by
  intro v i hi hc
  by_cases hvs : v = s
  · rw [hvs] at hi hc ⊢
    exact hsrc i hi hc
  · exact h.valid v i hvs hi hc

end Residual

namespace HLPPHeuristic

/-- The loop `for (int i = 0; i < n; ++i) buckets[i].clear()`. -/
theorem heur_clear_buckets (b : List (List Nat)) :
    ∀ k, (((List.range k).foldl (fun (b : List (List Nat)) i => b.set i []) b).length =
        b.length) ∧
      ∀ h, ((List.range k).foldl (fun (b : List (List Nat)) i => b.set i []) b).getD h [] =
        if h < k then [] else b.getD h [] := by
  intro k
  induction k with
  | zero =>
    refine ⟨rfl, fun h => ?_⟩
    rw [if_neg (by omega)]
    rfl
  | succ k ih =>
    rw [List.range_succ, List.foldl_append, List.foldl_cons, List.foldl_nil]
    refine ⟨by rw [List.length_set]; exact ih.1, fun h => ?_⟩
    rw [getD_set_eq]
    by_cases hk : h = k
    · by_cases hl : k < b.length
      · rw [if_pos ⟨hk, by rw [ih.1]; exact hl⟩, if_pos (by omega)]
      · rw [if_neg (fun c => hl (by rw [← ih.1]; exact c.2)), ih.2, if_neg (by omega),
          if_pos (by omega)]
        exact List.getD_eq_default _ _ (by omega)
    · rw [if_neg (fun c => hk c.1), ih.2]
      by_cases hk2 : h < k
      · rw [if_pos hk2, if_pos (by omega)]
      · rw [if_neg hk2, if_neg (by omega)]

/-- The state in which `globalRelabel` enters its `while` loop satisfies the invariant of the
loop. -/
theorem heur_gr_init {adj : Adj} {n s t : Nat} (st : State) (hadj : st.adj = adj) (ht : t < n)
    (hlh : st.height.length = n) (hlc : st.count.length = n) (hlb : st.buckets.length = n)
    (hlq : st.que.length = n) :
    GRLoop adj n s t
      { st with
        height := (List.replicate st.height.length n).set t 0,
        count := List.replicate st.count.length 0,
        iter := List.replicate st.iter.length 0,
        buckets := (List.range n).foldl (fun b i => b.set i []) st.buckets,
        max_height := 0,
        work := 0,
        que := st.que.set 0 t } 0 [t] := by
  have hg : ∀ x, ((List.replicate st.height.length n).set t 0).getD x 0 =
      if x = t then 0 else if x < n then n else 0 := by
    intro x
    rw [getD_set_height _ _ _ (by simp; omega), getD_replicate_eq, hlh]
  have hcb := heur_clear_buckets st.buckets n
  have hbk : ∀ h, ((List.range n).foldl (fun (b : List (List Nat)) i => b.set i [])
      st.buckets).getD h [] = [] := by
    intro h
    rw [hcb.2]
    split
    · rfl
    · exact List.getD_eq_default _ _ (by omega)
  refine ⟨hadj, ?_, ?_, ?_, ?_, List.pairwise_singleton _ _, ?_, Nat.zero_le _⟩
  · refine ⟨by simp [hlh], ?_, ?_, List.nodup_singleton _, ?_, ?_, ?_, ?_, ?_⟩
    · show ((List.replicate st.height.length n).set t 0).getD t 0 = 0
      rw [hg, if_pos rfl]
    · intro x
      show x ∈ [t] ↔ x < n ∧ ((List.replicate st.height.length n).set t 0).getD x 0 < n
      rw [List.mem_singleton, hg]
      constructor
      · intro h
        rw [h, if_pos rfl]
        exact ⟨ht, by omega⟩
      · rintro ⟨h1, h2⟩
        by_contra hx
        rw [if_neg hx, if_pos h1] at h2
        omega
    · intro x hx
      show ((List.replicate st.height.length n).set t 0).getD x 0 < _
      rw [List.mem_singleton] at hx
      rw [hx, hg, if_pos rfl]
      simp
    · intro x
      show ((List.replicate st.height.length n).set t 0).getD x 0 ≤ n
      rw [hg]
      split_ifs <;> omega
    · intro x hxn hxt
      show 1 ≤ ((List.replicate st.height.length n).set t 0).getD x 0
      rw [hg, if_neg hxt, if_pos hxn]
      omega
    · intro x hx
      rw [List.mem_singleton] at hx
      rw [hx]
      exact Reach.refl
    · intro x hx
      show ReachIn adj x t (((List.replicate st.height.length n).set t 0).getD x 0)
      rw [List.mem_singleton] at hx
      rw [hx, hg, if_pos rfl]
      exact ReachIn.refl
  · refine ⟨fun y hy => hy, List.nodup_singleton _, List.pairwise_singleton _ _, ?_, ?_⟩
    · intro x hx y hy
      have hx' : x = t := List.mem_singleton.mp hx
      have hy' : y = t := List.mem_singleton.mp hy
      rw [hx', hy']
      omega
    · intro x hx hxq
      exact absurd hx hxq
  · refine ⟨?_, ?_⟩
    · show 1 ≤ (st.que.set 0 t).length
      rw [List.length_set, hlq]
      omega
    · show (st.que.set 0 t).take (0 + 1) = [t]
      rw [take_set_succ _ _ _ (by rw [hlq]; omega)]
      rfl
  · show (st.que.set 0 t).length = n
    rw [List.length_set]
    exact hlq
  · refine ⟨?_, ?_, ?_, ?_, ?_, le_refl _, ?_⟩
    · show (List.replicate st.count.length (0 : Int)).length = n
      simp [hlc]
    · show ((List.range n).foldl (fun (b : List (List Nat)) i => b.set i [])
        st.buckets).length = n
      rw [hcb.1]
      exact hlb
    · intro h _
      show (List.replicate st.count.length (0 : Int)).getD h 0 = _
      rw [getD_replicate_eq]
      simp
    · intro h _
      show ((List.range n).foldl (fun (b : List (List Nat)) i => b.set i [])
        st.buckets).getD h [] = _
      rw [hbk]
      rfl
    · intro h _
      exact hbk h
    · show (0 : Int) < (n : Int)
      omega

end HLPPHeuristic

namespace HLPPHeuristic

/-- `globalRelabel` terminates; afterwards the heights are the distances to the sink in the
residual network (`n` for the nodes without a path to the sink, and for the source), the
counters and buckets fit these heights, and the invariant of the main loop holds. -/
theorem heur_globalRelabel_spec {A0 : Adj} {n s t : Nat} (st : State)
    (hb : PreBase A0 n s st.adj st.excess) (hs : s < n) (ht : t < n) (hst : s ≠ t)
    (hlh : st.height.length = n) (hlc : st.count.length = n) (hli : st.iter.length = n)
    (hlb : st.buckets.length = n) (hlq : st.que.length = n)
    (hh : ∀ a ∈ st.hist, NetInv A0 a) (fuel : Nat) (hf : 2 * n < fuel) :
    ∃ st', globalRelabel n s t fuel st = some st' ∧ Inv A0 n s t n st' ∧
      st'.adj = st.adj ∧ st'.excess = st.excess ∧ st'.hist = st.hist ∧ st'.work = 0 ∧
      st'.iter = List.replicate n 0 ∧ st'.buckets.getD 0 [] = [] ∧
      (∀ x, x ≠ s → (Reach st.adj x t ↔ x < n ∧ st'.height.getD x 0 < n)) ∧
      (∀ x, x ≠ s → x < n → st'.height.getD x 0 < n →
        IsDist st.adj x t (st'.height.getD x 0)) ∧
      (ValidAll st.adj st.height → st.height.getD t 0 = 0 → (∀ x, st.height.getD x 0 ≤ n) →
        ∀ x, st.height.getD x 0 ≤ st'.height.getD x 0) ∧
      (∀ i, i < (arcs st.adj s).length → 0 < (arc st.adj s i).cap →
        Reach st.adj (arc st.adj s i).dst t → Reach st.adj s t) := by
  have hp : Paired st.adj := hb.net.paired hb.paired0
  have hlen : st.adj.length = n := by rw [hb.net.length_eq, hb.len0]
  have hnn := hb.net.nonneg
  obtain ⟨st1, seen, e1, hG, e3, e4, e5, e6⟩ := heur_grWhile_spec (s := s) hp hlen hnn fuel _ 0
    [t] (heur_gr_init st rfl ht hlh hlc hlb hlq) (by simp only [List.length_singleton]; omega)
  have hadj1 : st1.adj = st.adj := hG.adj_eq
  have hexc1 : st1.excess = st.excess := e4
  have e3' : st1.iter = List.replicate st.iter.length 0 := e3
  have e5' : st1.work = 0 := e5
  have e6' : st1.hist = st.hist := e6
  have hhist1 : ∀ a ∈ st1.hist, NetInv A0 a := by rw [e6']; exact hh
  have hli1 : st1.iter.length = n := by rw [e3']; simp [hli]
  have hc := hG.core
  have hq := hG.queue
  rw [List.drop_length] at hq
  have hB := hG.booked
  rw [List.take_length] at hB
  have hl1 : st1.height.length = n := hc.len
  -- the heights before `height[s] = n`
  have hval : ValidAll st.adj st1.height := by
    intro x j hj hcap
    obtain ⟨p1, p2, p3, p4, p5⟩ := hp x j hj
    rw [hlen] at p1
    by_cases hv : (arc st.adj x j).dst ∈ seen
    · have hd := hq.done _ hv (List.not_mem_nil _) (arc st.adj x j).rev p3 (by
        unfold pairCap
        rw [p4, p5]
        exact hcap)
      rw [p4] at hd
      exact hd.2
    · have h1 : ¬ st1.height.getD (arc st.adj x j).dst 0 < n := fun c =>
        hv ((hc.seen_iff _).mpr ⟨p1, c⟩)
      have := hc.h_le x
      omega
  have hclosed : ∀ x j, j < (arcs st.adj x).length → 0 < (arc st.adj x j).cap →
      (arc st.adj x j).dst ∈ seen → x ∈ seen := by
    intro x j hj hcap hv
    obtain ⟨p1, p2, p3, p4, p5⟩ := hp x j hj
    have hd := hq.done _ hv (List.not_mem_nil _) (arc st.adj x j).rev p3 (by
      unfold pairCap
      rw [p4, p5]
      exact hcap)
    rw [p4] at hd
    exact hd.1
  have hts : t ∈ seen := (hc.seen_iff t).mpr ⟨ht, by rw [hc.ht]; omega⟩
  have hreach : ∀ x, Reach st.adj x t → x ∈ seen := by
    intro x hr
    have key : ∀ y, Reach st.adj x y → y ∈ seen → x ∈ seen := by
      intro y hy
      induction hy with
      | refl => exact fun h => h
      | step v i _ hi hcap ih => exact fun h => ih (hclosed v i hi hcap h)
    exact key t hr hts
  have hg := getD_set_height st1.height s n (by rw [hl1]; exact hs)
  have hne : ∀ x, x ≠ s → (st1.height.set s n).getD x 0 = st1.height.getD x 0 := by
    intro x hx
    rw [hg, if_neg hx]
  have hge : ∀ x, st1.height.getD x 0 ≤ (st1.height.set s n).getD x 0 := by
    intro x
    rw [hg]
    split
    · exact hc.h_le x
    · exact le_refl _
  have hpre : PreInv A0 n s t n st.adj (st1.height.set s n) st.excess := by
    refine ⟨hb.paired0, hb.len0, hb.net0, hb.net, by rw [List.length_set]; exact hl1, hb.len_ex,
      hb.exc_eq, hb.exc_nonneg, by rw [hg, if_pos rfl], ?_, ?_, ?_, ?_⟩
    · rw [hne t (fun c => hst c.symm)]
      exact hc.ht
    · intro v hv hvt
      have := hc.pos v hv hvt
      have := hge v
      omega
    · intro v
      rw [hg]
      split
      · exact le_refl _
      · exact hc.h_le v
    · intro v i hvs hi hcap
      rw [hne v hvs]
      have := hval v i hi hcap
      have := hge (arc st.adj v i).dst
      omega
  have hfilter : ∀ h, h < n → ∀ x, x ∈ seen →
      (decide (x ≠ s ∧ x ≠ t ∧ 0 < st1.excess.getD x 0 ∧ st1.height.getD x 0 = h) = true ↔
        (x ≠ s ∧ x ≠ t ∧ 0 < st.excess.getD x 0 ∧ (st1.height.set s n).getD x 0 = h)) := by
    intro h _ x _
    rw [decide_eq_true_eq, hexc1]
    constructor
    · rintro ⟨a, b, c, d⟩
      exact ⟨a, b, c, by rw [hne x a]; exact d⟩
    · rintro ⟨a, b, c, d⟩
      exact ⟨a, b, c, by rw [← hne x a]; exact d⟩
  have hbk0 : st1.buckets.getD 0 [] = [] := by
    by_cases hn0 : 0 < n
    · rw [hB.bk 0 hn0, List.filter_eq_nil_iff]
      intro x hx c
      rw [decide_eq_true_eq] at c
      have := hc.pos x ((hc.seen_iff x).mp hx).1 c.2.1
      omega
    · omega
  have hInv : Inv A0 n s t n { st1 with height := st1.height.set s n } := by
    refine ⟨?_, hli1, hB.len_count,
      hB.len_b, hG.len_que, ?_, hhist1, ?_, ?_,
      ?_, ?_, ?_, hB.mh_empty, hB.mh_nonneg, hB.mh_lt⟩
    · show PreInv A0 n s t n st1.adj (st1.height.set s n) st1.excess
      rw [hadj1, hexc1]
      exact hpre
    · -- cur
      intro v i hi _
      exfalso
      have hi' : i < st1.iter.getD v 0 := hi
      rw [e3'] at hi'
      have : (List.replicate st.iter.length 0).getD v 0 = 0 := by
        rw [getD_replicate_eq]
        split <;> rfl
      omega
    · -- cnt
      intro h hlt
      show st1.count.getD h 0 = (levelCount n s t (st1.height.set s n) h : Int)
      rw [hB.cnt h hlt]
      congr 1
      unfold levelCount
      rw [← List.toFinset_card_of_nodup (hc.nodup.filter _)]
      congr 1
      ext x
      rw [List.mem_toFinset, List.mem_filter, Finset.mem_filter, Finset.mem_range,
        decide_eq_true_eq, hc.seen_iff]
      constructor
      · rintro ⟨⟨a, _⟩, b, c, d⟩
        exact ⟨a, b, c, by rw [hne x b]; exact d⟩
      · rintro ⟨a, b, c, d⟩
        rw [hne x b] at d
        exact ⟨⟨a, by omega⟩, b, c, d⟩
    · -- bk_mem
      intro h v h1 hv
      have hv' : v ∈ st1.buckets.getD h [] := hv
      by_cases hn : h < n
      · rw [hB.bk h hn, List.mem_filter] at hv'
        obtain ⟨a, b, c, d⟩ := (hfilter h hn v hv'.1).mp hv'.2
        have c' : 0 < st1.excess.getD v 0 := by rw [hexc1]; exact c
        exact ⟨((hc.seen_iff v).mp hv'.1).1, a, b, c', d⟩
      · rw [List.getD_eq_default _ _ (by rw [hB.len_b]; omega)] at hv'
        simp at hv'
    · -- bk_nodup
      intro h _
      show (st1.buckets.getD h []).Nodup
      by_cases hn : h < n
      · rw [hB.bk h hn]
        exact hc.nodup.filter _
      · rw [List.getD_eq_default _ _ (by rw [hB.len_b]; omega)]
        exact List.nodup_nil
    · -- notin
      intro h h1 c
      have hv' : n ∈ st1.buckets.getD h [] := c
      by_cases hn : h < n
      · rw [hB.bk h hn, List.mem_filter] at hv'
        have := ((hc.seen_iff n).mp hv'.1).1
        omega
      · rw [List.getD_eq_default _ _ (by rw [hB.len_b]; omega)] at hv'
        simp at hv'
    · -- act_all
      intro v hv hvs hvt hex hlt
      left
      have hlt' : (st1.height.set s n).getD v 0 < n := hlt
      have hex' : 0 < st1.excess.getD v 0 := hex
      show v ∈ st1.buckets.getD ((st1.height.set s n).getD v 0) []
      have hvseen : v ∈ seen := (hc.seen_iff v).mpr ⟨hv, by rw [← hne v hvs]; exact hlt'⟩
      rw [hB.bk _ hlt', List.mem_filter]
      refine ⟨hvseen, (hfilter _ hlt' v hvseen).mpr ⟨hvs, hvt, ?_, rfl⟩⟩
      rw [← hexc1]
      exact hex'
  refine ⟨{ st1 with height := st1.height.set s n }, ?_, hInv, hadj1, hexc1, e6', e5', ?_, hbk0,
    ?_, ?_, ?_, ?_⟩
  · unfold globalRelabel
    have e1' := e1
    simp only [List.length_singleton] at e1'
    rw [e1']
  · show st1.iter = _
    rw [e3', hli]
  · intro x hxs
    show _ ↔ x < n ∧ (st1.height.set s n).getD x 0 < n
    rw [hne x hxs, ← hc.seen_iff]
    constructor
    · exact hreach x
    · exact hc.sound x
  · intro x hxs hx hlt
    have hlt' : (st1.height.set s n).getD x 0 < n := hlt
    show IsDist st.adj x t ((st1.height.set s n).getD x 0)
    rw [hne x hxs] at hlt' ⊢
    refine ⟨hc.dist x ((hc.seen_iff x).mpr ⟨hx, hlt'⟩), ?_⟩
    intro k hk
    have := hval.le_of_reachIn hk
    rw [hc.ht] at this
    omega
  · intro hv0 ht0 hle x
    show st.height.getD x 0 ≤ (st1.height.set s n).getD x 0
    rw [hg]
    split
    · exact hle x
    · by_cases hx : x ∈ seen
      · have := hv0.le_of_reachIn (hc.dist x hx)
        rw [ht0] at this
        omega
      · by_cases hxn : x < n
        · have : ¬ st1.height.getD x 0 < n := fun c => hx ((hc.seen_iff x).mpr ⟨hxn, c⟩)
          have := hle x
          omega
        · rw [List.getD_eq_default _ _ (by omega)]
          omega
  · intro i hi hcap hr
    have h1 : Reach st.adj s (arc st.adj s i).dst := Reach.step s i Reach.refl hi hcap
    exact h1.chain hr

end HLPPHeuristic

namespace HLPPHeuristic

theorem pushSource_eq (n s : Nat) (st : State) :
    pushSource n s st = (List.range (arcs st.adj s).length).foldl (pushSourceStep n s) st :=
  rfl

/-- With enough excess at the source, the source holds at least the residual capacity of each
of its arcs. -/
theorem source_excess_ge {A0 : Adj} {n s t top : Nat} {adj : Adj} {height : List Nat}
    {excess : List Int} (h : PreInv A0 n s t top adj height excess)
    (hcapS : capSum (arcs A0 s) ≤ SOURCE_EXCESS) (i : Nat) (hi : i < (arcs adj s).length) :
    (arc adj s i).cap ≤ excess.getD s 0 := by
  have h1 := h.exc_eq s
  rw [if_pos rfl] at h1
  unfold excessOf at h1
  have h2 := Residual.arc_cap_le_capSum (arcs adj s)
    (by
      intro e he
      obtain ⟨j, hj, hje⟩ := (mem_arcs_iff _ _ _).mp he
      rw [← hje]
      exact h.net.nonneg s j hj)
    (arc adj s i) ((mem_arcs_iff _ _ _).mpr ⟨i, hi, rfl⟩)
  omega

/-- One iteration of the loop over the arcs of the source. -/
theorem heur_pushSourceStep_spec {A0 : Adj} {n s t : Nat} {st : State}
    (hI : Inv A0 n s t n st) (hs : s < n) (hcapS : capSum (arcs A0 s) ≤ SOURCE_EXCESS)
    (i : Nat) (hi : i < (arcs st.adj s).length) (hc : 0 < (arc st.adj s i).cap) :
    Inv A0 n s t n (pushSourceStep n s st i) ∧
    (pushSourceStep n s st i).height = st.height ∧
    (pushSourceStep n s st i).iter = st.iter ∧
    (pushSourceStep n s st i).count = st.count ∧
    (pushSourceStep n s st i).work = st.work ∧
    (pushSourceStep n s st i).que = st.que ∧
    (∃ new, (pushSourceStep n s st i).hist = new ++ st.hist ∧
      ∀ a ∈ new, ∃ ex, PreInv A0 n s t n a st.height ex) ∧
    (∀ j, j ≠ i → arc (pushSourceStep n s st i).adj s j = arc st.adj s j) ∧
    (st.height.getD (arc st.adj s i).dst 0 < n → (arc (pushSourceStep n s st i).adj s i).cap = 0) ∧
    (¬ st.height.getD (arc st.adj s i).dst 0 < n → pushSourceStep n s st i = st) ∧
    (∀ x, x ≠ s → (pushSourceStep n s st i).excess.getD x 0 = st.excess.getD x 0 +
      if (arc st.adj s i).dst = x ∧ st.height.getD x 0 < n then (arc st.adj s i).cap else 0) := by
  unfold pushSourceStep
  by_cases hh : st.height.getD (arc st.adj s i).dst 0 < n
  · rw [if_pos hh]
    have hle := source_excess_ge hI.pre hcapS i hi
    obtain ⟨q1, q2, q3, q4, q5, q6, q7, q8, q9, q10, q11, q12, q13⟩ :=
      heur_push_spec hI s hs (Or.inr ⟨rfl, le_refl n⟩) i hi hc (by omega)
        (by rw [hI.pre.hs]; exact hh)
    have hdst : (arc (push st s i).adj s i).dst = (arc st.adj s i).dst := by
      rw [q1.pre.net.dst_eq, ← hI.pre.net.dst_eq]
    have hst : ({ push st s i with
        max_height := max (push st s i).max_height
          ((push st s i).height.getD (arc (push st s i).adj s i).dst 0 : Int) } : State) =
        { push st s i with
          max_height := max st.max_height (st.height.getD (arc st.adj s i).dst 0 : Int) } := by
      rw [hdst, q7, q3]
    simp only
    rw [hst]
    obtain ⟨p1, p2, p3, p4, p5⟩ := hI.pre.net.paired hI.pre.paired0 s i hi
    rw [hI.pre.net.length_eq, hI.pre.len0] at p1
    refine ⟨q1, q3, q2, q4, q6, q5, ⟨[(push st s i).adj], q8, ?_⟩, q11, fun _ => q13 hle,
      fun c => absurd hh c, ?_⟩
    · intro a ha
      rw [List.mem_singleton] at ha
      rw [ha]
      have := q1.pre
      exact ⟨_, by rw [← q3]; exact this⟩
    · intro x hx
      show (push st s i).excess.getD x 0 = _
      rw [heur_push_eq]
      show (moveExcess st.excess s (arc st.adj s i).dst
        (min (st.excess.getD s 0) (arc st.adj s i).cap)).getD x 0 = _
      rw [getD_moveExcess st.excess s _ _ (fun c => p2 c.symm) (by rw [hI.pre.len_ex]; exact hs)
        (by rw [hI.pre.len_ex]; exact p1), if_neg hx, min_eq_right hle]
      by_cases hxd : x = (arc st.adj s i).dst
      · rw [if_pos hxd, if_pos ⟨hxd.symm, by rw [hxd]; exact hh⟩]
        ring
      · rw [if_neg hxd, if_neg (fun c => hxd c.1.symm)]
        ring
  · rw [if_neg hh]
    refine ⟨hI, rfl, rfl, rfl, rfl, rfl, ⟨[], rfl, fun a ha => by simp at ha⟩, fun _ _ => rfl,
      fun c => absurd c hh, fun _ => rfl, ?_⟩
    intro x hx
    rw [if_neg]
    · ring
    · rintro ⟨c1, c2⟩
      rw [← c1] at c2
      exact hh c2

/-- The loop over the arcs of the source, for the arcs with the indices `is`. -/
theorem heur_pushSource_fold {A0 : Adj} {n s t : Nat} (hs : s < n)
    (hcapS : capSum (arcs A0 s) ≤ SOURCE_EXCESS) :
    ∀ (is : List Nat) (st : State), Inv A0 n s t n st → is.Nodup →
      (∀ i ∈ is, i < (arcs st.adj s).length) → (∀ i ∈ is, 0 < (arc st.adj s i).cap) →
      Inv A0 n s t n (is.foldl (pushSourceStep n s) st) ∧
      (is.foldl (pushSourceStep n s) st).height = st.height ∧
      (is.foldl (pushSourceStep n s) st).iter = st.iter ∧
      (is.foldl (pushSourceStep n s) st).count = st.count ∧
      (is.foldl (pushSourceStep n s) st).work = st.work ∧
      (is.foldl (pushSourceStep n s) st).que = st.que ∧
      (∃ new, (is.foldl (pushSourceStep n s) st).hist = new ++ st.hist ∧
        ∀ a ∈ new, ∃ ex, PreInv A0 n s t n a st.height ex) ∧
      (∀ j, j ∉ is → arc (is.foldl (pushSourceStep n s) st).adj s j = arc st.adj s j) ∧
      (∀ i ∈ is, st.height.getD (arc st.adj s i).dst 0 < n →
        (arc (is.foldl (pushSourceStep n s) st).adj s i).cap = 0) ∧
      ((∀ i ∈ is, ¬ st.height.getD (arc st.adj s i).dst 0 < n) →
        is.foldl (pushSourceStep n s) st = st) ∧
      (∀ x, x ≠ s → (is.foldl (pushSourceStep n s) st).excess.getD x 0 = st.excess.getD x 0 +
        (is.map (fun i => if (arc st.adj s i).dst = x ∧ st.height.getD x 0 < n then
          (arc st.adj s i).cap else 0)).sum) := by
  intro is
  induction is with
  | nil =>
    intro st hI _ _ _
    refine ⟨hI, rfl, rfl, rfl, rfl, rfl, ⟨[], rfl, fun a ha => by simp at ha⟩, fun _ _ => rfl,
      fun i hi => absurd hi (List.not_mem_nil _), fun _ => rfl, ?_⟩
    intro x _
    simp
  | cons i is ih =>
    intro st hI hnd his hcs
    rw [List.nodup_cons] at hnd
    have hi := his i (List.mem_cons_self _ _)
    obtain ⟨q1, q2, q3, q4, q5, q6, ⟨new1, q7, q7'⟩, q8, q9, q10, q11⟩ :=
      heur_pushSourceStep_spec hI hs hcapS i hi (hcs i (List.mem_cons_self _ _))
    have hlen1 : (arcs (pushSourceStep n s st i).adj s).length = (arcs st.adj s).length := by
      rw [q1.pre.net.length_arcs, ← hI.pre.net.length_arcs]
    have hrest : ∀ j ∈ is, arc (pushSourceStep n s st i).adj s j = arc st.adj s j := by
      intro j hj
      exact q8 j (fun c => hnd.1 (c ▸ hj))
    obtain ⟨r1, r2, r3, r4, r5, r6, ⟨new2, r7, r7'⟩, r8, r9, r10, r11⟩ :=
      ih (pushSourceStep n s st i) q1 hnd.2
        (by
          intro j hj
          rw [hlen1]
          exact his j (List.mem_cons_of_mem _ hj))
        (by
          intro j hj
          rw [hrest j hj]
          exact hcs j (List.mem_cons_of_mem _ hj))
    rw [List.foldl_cons]
    refine ⟨r1, r2.trans q2, r3.trans q3, r4.trans q4, r5.trans q5, r6.trans q6,
      ⟨new2 ++ new1, by rw [r7, q7, List.append_assoc], ?_⟩, ?_, ?_, ?_, ?_⟩
    · intro a ha
      rcases List.mem_append.mp ha with h | h
      · obtain ⟨ex, hex⟩ := r7' a h
        exact ⟨ex, by rw [← q2]; exact hex⟩
      · exact q7' a h
    · intro j hj
      rw [r8 j (fun c => hj (List.mem_cons_of_mem _ c))]
      exact q8 j (fun c => hj (c ▸ List.mem_cons_self _ _))
    · intro j hj hlt
      rcases List.mem_cons.mp hj with h | h
      · rw [h, r8 i hnd.1]
        rw [h] at hlt
        exact q9 hlt
      · apply r9 j h
        rw [q2, hrest j h]
        exact hlt
    · intro hall
      rw [q10 (hall i (List.mem_cons_self _ _))]
      have e := q10 (hall i (List.mem_cons_self _ _))
      rw [e] at r10
      exact r10 (fun j hj => hall j (List.mem_cons_of_mem _ hj))
    · intro x hx
      rw [r11 x hx, q11 x hx, List.map_cons, List.sum_cons, q2]
      have hm : is.map (fun j => if (arc (pushSourceStep n s st i).adj s j).dst = x ∧
            st.height.getD x 0 < n then (arc (pushSourceStep n s st i).adj s j).cap else 0) =
          is.map (fun j => if (arc st.adj s j).dst = x ∧ st.height.getD x 0 < n then
            (arc st.adj s j).cap else 0) := by
        apply List.map_congr_left
        intro j hj
        rw [hrest j hj]
      rw [hm]
      ring

end HLPPHeuristic

namespace HLPPHeuristic

/-- The invariant after a node has been taken from the bucket `max_height`. -/
theorem Inv.pop {A0 : Adj} {n s t : Nat} {st : State} (hI : Inv A0 n s t n st)
    (hm1 : 1 ≤ st.max_height) (hemp : st.buckets.getD st.max_height.toNat [] ≠ []) :
    Inv A0 n s t ((st.buckets.getD st.max_height.toNat []).getLastD 0)
      { st with
        buckets := st.buckets.set st.max_height.toNat
          (st.buckets.getD st.max_height.toNat []).dropLast } ∧
    (st.buckets.getD st.max_height.toNat []).getLastD 0 < n ∧
    (st.buckets.getD st.max_height.toNat []).getLastD 0 ≠ s ∧
    (st.buckets.getD st.max_height.toNat []).getLastD 0 ≠ t ∧
    0 < st.excess.getD ((st.buckets.getD st.max_height.toNat []).getLastD 0) 0 ∧
    (st.height.getD ((st.buckets.getD st.max_height.toNat []).getLastD 0) 0 : Int) =
      st.max_height := by
  have hh1 : 1 ≤ st.max_height.toNat := by omega
  obtain ⟨hmem, hnd1, hnd2⟩ := Residual.dropLast_getLastD_facts _ hemp
    (hI.bk_nodup st.max_height.toNat hh1)
  have hvb : (st.buckets.getD st.max_height.toNat []).getLastD 0 ∈
      st.buckets.getD st.max_height.toNat [] := (hmem _).mpr (Or.inr rfl)
  obtain ⟨a1, a2, a3, a4, a5⟩ := hI.bk_mem _ _ hh1 hvb
  have hmlt : st.max_height.toNat < st.buckets.length := by
    by_contra c
    apply hemp
    rw [List.getD_eq_getElem?_getD, List.getElem?_eq_none (by omega)]
    rfl
  have hbk : ∀ h, (st.buckets.set st.max_height.toNat
      (st.buckets.getD st.max_height.toNat []).dropLast).getD h [] =
      if h = st.max_height.toNat then (st.buckets.getD st.max_height.toNat []).dropLast
      else st.buckets.getD h [] := by
    intro h
    rw [getD_set_eq]
    by_cases hh : h = st.max_height.toNat
    · rw [if_pos ⟨hh, hmlt⟩, if_pos hh]
    · rw [if_neg (fun c => hh c.1), if_neg hh]
  have hsub : ∀ x, x ∈ (st.buckets.getD st.max_height.toNat []).dropLast →
      x ∈ st.buckets.getD st.max_height.toNat [] := fun x hx => (hmem x).mpr (Or.inl hx)
  refine ⟨⟨hI.pre, hI.len_iter, hI.len_count, ?_, hI.len_que, hI.cur, hI.histInv, hI.cnt, ?_, ?_,
    ?_, ?_, ?_, hI.mh_nonneg, hI.mh_lt⟩, a1, a2, a3, a4, by rw [a5]; omega⟩
  · show (st.buckets.set _ _).length = n
    rw [List.length_set]
    exact hI.len_b
  · intro h x h1 hx
    have hx' : x ∈ (st.buckets.set st.max_height.toNat
      (st.buckets.getD st.max_height.toNat []).dropLast).getD h [] := hx
    rw [hbk] at hx'
    split at hx'
    · next hh =>
      rw [hh]
      exact hI.bk_mem _ x hh1 (hsub x hx')
    · exact hI.bk_mem h x h1 hx'
  · intro h h1
    show ((st.buckets.set st.max_height.toNat
      (st.buckets.getD st.max_height.toNat []).dropLast).getD h []).Nodup
    rw [hbk]
    split
    · exact hnd1
    · exact hI.bk_nodup h h1
  · intro h h1 c
    have c' : (st.buckets.getD st.max_height.toNat []).getLastD 0 ∈
      (st.buckets.set st.max_height.toNat
        (st.buckets.getD st.max_height.toNat []).dropLast).getD h [] := c
    rw [hbk] at c'
    split at c'
    · exact hnd2 c'
    · next hh =>
      have := (hI.bk_mem h _ h1 c').2.2.2.2
      omega
  · intro x hx hxs hxt hpos hlt
    show x ∈ (st.buckets.set st.max_height.toNat
      (st.buckets.getD st.max_height.toNat []).dropLast).getD (st.height.getD x 0) [] ∨ _
    rw [hbk]
    by_cases hxv : x = (st.buckets.getD st.max_height.toNat []).getLastD 0
    · exact Or.inr hxv
    · left
      rcases hI.act_all x hx hxs hxt hpos hlt with h | h
      · split
        · next hh =>
          rw [hh] at h
          rcases (hmem x).mp h with h' | h'
          · exact h'
          · exact absurd h' hxv
        · exact h
      · omega
  · intro h hlt
    show (st.buckets.set st.max_height.toNat
      (st.buckets.getD st.max_height.toNat []).dropLast).getD h [] = []
    have hlt' : st.max_height < (h : Int) := hlt
    rw [hbk, if_neg (by omega)]
    exact hI.mh_empty h hlt'

/-- `globalRelabel` in the main loop: the invariant is kept, the heights do not go down and
the measure does not go up. -/
theorem heur_globalRelabel_loop {A0 : Adj} {n s t : Nat} (hs : s < n) (ht : t < n)
    (hst : s ≠ t) (st : State) (hI : Inv A0 n s t n st) (hsv : SrcValid st.adj st.height s)
    (F : Nat) (hF2 : 2 * n < F) :
    ∃ st', globalRelabel n s t F st = some st' ∧ Inv A0 n s t n st' ∧
      st'.adj = st.adj ∧ st'.excess = st.excess ∧ st'.hist = st.hist ∧ st'.work = 0 ∧
      st'.buckets.getD 0 [] = [] ∧ SrcValid st'.adj st'.height s ∧
      (∀ x, st.height.getD x 0 ≤ st'.height.getD x 0) ∧
      measure A0 n s st' ≤ measure A0 n s st := by
  obtain ⟨st', g1, g2, g3, g4, g5, g6, g7, g8, g9, g10, g11, g12⟩ :=
    heur_globalRelabel_spec st hI.pre.toBase hs ht hst hI.pre.len_h hI.len_count hI.len_iter
      hI.len_b hI.len_que hI.histInv F hF2
  have hmono := g11 (hI.pre.validAll hsv) hI.pre.ht hI.pre.h_le
  refine ⟨st', g1, g2, g3, g4, g5, g6, g8, ?_, hmono, ?_⟩
  · intro i hi hc
    rw [g3] at hi hc ⊢
    have h1 := hsv i hi hc
    have h2 := hmono (arc st.adj s i).dst
    rw [g2.pre.hs]
    rw [hI.pre.hs] at h1
    omega
  · have hpre := g2.pre
    rw [g3, g4] at hpre
    have := (preflowMeasure_raise hI.pre hpre hs (fun x _ => hmono x)).1
    unfold measure
    rw [g4]
    exact this

/-- The main loop of `flow` terminates; at the end the buckets above height 0 are empty. -/
theorem heur_flowWhile_spec {A0 : Adj} {n s t F : Nat} (hs : s < n) (ht : t < n)
    (hst : s ≠ t) (hF : ∀ x, (arcs A0 x).length < F) (hF2 : 2 * n < F) :
    ∀ (k : Nat) (st : State), Inv A0 n s t n st →
      (1 ≤ st.max_height ∨ st.buckets.getD 0 [] = []) → SrcValid st.adj st.height s →
      measure A0 n s st * (n + 1) + st.max_height.toNat < k →
      ∃ st' st2, flowWhile n s t F k st = some st' ∧ Inv A0 n s t n st2 ∧
        st' = { st2 with max_height := st2.max_height - 1 } ∧ st2.max_height ≤ 1 ∧
        st2.buckets.getD st2.max_height.toNat [] = [] ∧
        SrcValid st2.adj st2.height s ∧ (∀ x, st.height.getD x 0 ≤ st2.height.getD x 0) ∧
        ∃ new, st2.hist = new ++ st.hist ∧ ∀ a ∈ new, ∃ H ex, PreInv A0 n s t n a H ex ∧
          SrcValid a H s ∧ ∀ x, st.height.getD x 0 ≤ H.getD x 0 := by
  intro k
  induction k with
  | zero => intro st _ _ _ hk; omega
  | succ k ih =>
    intro st hI hL hsv hk
    by_cases hemp : st.buckets.getD st.max_height.toNat [] ≠ []
    · have hm1 : 1 ≤ st.max_height := by
        by_contra c
        have h0 : st.max_height = 0 := by
          have := hI.mh_nonneg
          omega
        rcases hL with h | h
        · omega
        · rw [h0] at hemp
          exact hemp h
      obtain ⟨hI1, a1, a2, a3, a4, a5⟩ := hI.pop hm1 hemp
      obtain ⟨st1, d1, d2, d3, d4, d5, d6, d7, new1, d8, d9⟩ :=
        heur_discharge_spec a1 a2 a3 hs F _ hI1 a5 a4 (by
          show (arcs st.adj _).length < F
          rw [hI.pre.net.length_arcs]
          exact hF _)
      have hsv1 : SrcValid st1.adj st1.height s := d4 hsv
      have hm : measure A0 n s st1 + 1 ≤ measure A0 n s st := d3
      have hnew1 : ∀ a ∈ new1, ∃ H ex, PreInv A0 n s t n a H ex ∧ SrcValid a H s ∧
          ∀ x, st.height.getD x 0 ≤ H.getD x 0 := by
        intro a ha
        obtain ⟨ex, e1, e2⟩ := d9 a ha
        exact ⟨st.height, ex, e1, e2 hsv, fun x => le_refl _⟩
      have hhist1 : st1.hist = new1 ++ st.hist := d8
      have hmono1 : ∀ x, st.height.getD x 0 ≤ st1.height.getD x 0 := d5
      have hmh1 : 1 ≤ st1.max_height := le_trans hm1 d7
      by_cases hw : st1.work > 5 * (n : Int)
      · obtain ⟨st2, g1, g2, g3, g4, g5, g6, g7, g8, g9, g10⟩ :=
          heur_globalRelabel_loop hs ht hst st1 d2 hsv1 F hF2
        have hlt2 := g2.mh_lt
        have hnn2 := g2.mh_nonneg
        obtain ⟨st', st3, e1, e2, e3, e4, e5, e6, e7, new2, e8, e9⟩ := ih st2 g2 (Or.inr g7) g8
          (by
            have h1 : (measure A0 n s st2 + 1) * (n + 1) ≤ measure A0 n s st * (n + 1) :=
              Nat.mul_le_mul_right _ (by omega)
            have h2 : (measure A0 n s st2 + 1) * (n + 1) =
                measure A0 n s st2 * (n + 1) + (n + 1) := by ring
            omega)
        refine ⟨st', st3, ?_, e2, e3, e4, e5, e6, fun x => le_trans (hmono1 x)
          (le_trans (g9 x) (e7 x)), new2 ++ new1, by rw [e8, g5, hhist1, List.append_assoc], ?_⟩
        · rw [flowWhile, if_pos hemp, d1]
          dsimp only
          rw [if_pos hw, g1]
          exact e1
        · intro a ha
          rcases List.mem_append.mp ha with h | h
          · obtain ⟨H, ex, f1, f2, f3⟩ := e9 a h
            exact ⟨H, ex, f1, f2, fun x => le_trans (hmono1 x) (le_trans (g9 x) (f3 x))⟩
          · exact hnew1 a h
      · have hlt1 := d2.mh_lt
        obtain ⟨st', st3, e1, e2, e3, e4, e5, e6, e7, new2, e8, e9⟩ := ih st1 d2 (Or.inl hmh1)
          hsv1
          (by
            have h1 : (measure A0 n s st1 + 1) * (n + 1) ≤ measure A0 n s st * (n + 1) :=
              Nat.mul_le_mul_right _ hm
            have h2 : (measure A0 n s st1 + 1) * (n + 1) =
                measure A0 n s st1 * (n + 1) + (n + 1) := by ring
            omega)
        refine ⟨st', st3, ?_, e2, e3, e4, e5, e6, fun x => le_trans (hmono1 x) (e7 x),
          new2 ++ new1, by rw [e8, hhist1, List.append_assoc], ?_⟩
        · rw [flowWhile, if_pos hemp, d1]
          dsimp only
          rw [if_neg hw]
          exact e1
        · intro a ha
          rcases List.mem_append.mp ha with h | h
          · obtain ⟨H, ex, f1, f2, f3⟩ := e9 a h
            exact ⟨H, ex, f1, f2, fun x => le_trans (hmono1 x) (f3 x)⟩
          · exact hnew1 a h
    · have hemp' : st.buckets.getD st.max_height.toNat [] = [] := by
        by_contra c
        exact hemp c
      by_cases hgt : st.max_height - 1 > 0
      · have hI1 : Inv A0 n s t n { st with max_height := st.max_height - 1 } := by
          refine ⟨hI.pre, hI.len_iter, hI.len_count, hI.len_b, hI.len_que, hI.cur, hI.histInv,
            hI.cnt, hI.bk_mem, hI.bk_nodup, hI.notin, hI.act_all, ?_, ?_, ?_⟩
          · intro h hlt
            have hlt' : st.max_height - 1 < (h : Int) := hlt
            by_cases hh : (h : Int) = st.max_height
            · have : h = st.max_height.toNat := by omega
              rw [this]
              exact hemp'
            · exact hI.mh_empty h (by omega)
          · show 0 ≤ st.max_height - 1
            omega
          · show st.max_height - 1 < (n : Int)
            have := hI.mh_lt
            omega
        obtain ⟨st', st3, e1, e2, e3, e4, e5, e6, e7, e8⟩ := ih _ hI1
          (Or.inl (by show 1 ≤ st.max_height - 1; omega)) hsv
          (by
            show measure A0 n s st * (n + 1) + (st.max_height - 1).toNat < k
            omega)
        refine ⟨st', st3, ?_, e2, e3, e4, e5, e6, e7, e8⟩
        rw [flowWhile, if_neg hemp, if_pos hgt]
        exact e1
      · refine ⟨{ st with max_height := st.max_height - 1 }, st, ?_, hI, rfl, by omega, hemp',
          hsv, fun x => le_refl _, [], rfl, fun a ha => by simp at ha⟩
        rw [flowWhile, if_neg hemp, if_neg hgt]

end HLPPHeuristic

namespace Residual

/-- In the network that the preflow-push solvers build, every arc that leaves the source has
a positive capacity (no line enters the source, so the source has no backward arcs). -/
theorem source_arcs_pos (n s t : Nat) (edges : List InEdge) (hr : InRange n edges) (i : Nat)
    (hi : i < (arcs (buildPreflow n s t edges) s).length) :
    0 < (arc (buildPreflow n s t edges) s i).cap := by
  have hinv := buildWith_inv (keptPreflow s t) (keptPreflow_ne s t) n edges hr s
  rw [← buildPreflow_eq_buildWith, arcsInOrder_source] at hinv
  have hmem : arc (buildPreflow n s t edges) s i ∈ arcs (buildPreflow n s t edges) s :=
    (mem_arcs_iff _ _ _).mpr ⟨i, hi, rfl⟩
  have h2 : ((arc (buildPreflow n s t edges) s i).dst, (arc (buildPreflow n s t edges) s i).cap) ∈
      (arcs (buildPreflow n s t edges) s).map (fun e => (e.dst, e.cap)) :=
    List.mem_map.mpr ⟨_, hmem, rfl⟩
  rw [hinv.2.2, List.mem_map] at h2
  obtain ⟨e, he, hee⟩ := h2
  rw [List.mem_filter] at he
  have hk : keptPreflow s t e = true := by
    have := he.2
    simp only [Bool.and_eq_true] at this
    exact this.1
  have hc : (arc (buildPreflow n s t edges) s i).cap = e.2.2 := by
    have := congrArg Prod.snd hee
    exact this.symm
  rw [hc]
  simp [keptPreflow] at hk
  omega

end Residual

namespace HLPPHeuristic

/-- The termination measure is bounded. -/
theorem heur_measure_lt {A0 : Adj} {n s t : Nat} {adj : Adj} {height : List Nat}
    {excess : List Int} (h : PreInv A0 n s t n adj height excess) (hs : s < n) :
    preflowMeasure A0 n s n height excess < (n * n + 1) * (potBound A0 s n + 1) := by
  have h1 := heightRoom_le n n height
  have h2 := excessPot_le_potBound h hs
  have h3 := excessPot_nonneg h
  unfold preflowMeasure
  have h4 : (excessPot n s height excess).toNat ≤ potBound A0 s n := by omega
  have h5 : heightRoom n n height * (potBound A0 s n + 1) ≤ n * n * (potBound A0 s n + 1) :=
    Nat.mul_le_mul_right _ h1
  have h6 : (n * n + 1) * (potBound A0 s n + 1) =
      n * n * (potBound A0 s n + 1) + (potBound A0 s n + 1) := by ring
  omega

/-- The initialisation of `flow`: `globalRelabel` on the fresh network, then the loop over
the arcs of the source. -/
theorem heur_init_spec (n s t : Nat) (edges : List InEdge) (hr : InRange n edges)
    (hs : s < n) (ht : t < n) (hst : s ≠ t)
    (hcapS : capSum (arcs (buildPreflow n s t edges) s) ≤ SOURCE_EXCESS)
    (fuel : Nat) (hfuel : 2 * n < fuel) :
    ∃ st1, globalRelabel n s t fuel
        { init n s t edges with
          excess := (List.replicate (init n s t edges).excess.length 0).set s SOURCE_EXCESS } =
        some st1 ∧
      Inv (buildPreflow n s t edges) n s t n st1 ∧ st1.adj = buildPreflow n s t edges ∧
      st1.hist = [buildPreflow n s t edges] ∧
      (∀ x, st1.excess.getD x 0 = if x = s then SOURCE_EXCESS else 0) ∧
      (∀ x, x ≠ s → (Reach (buildPreflow n s t edges) x t ↔ x < n ∧ st1.height.getD x 0 < n)) ∧
      (∀ x, x ≠ s → x < n → st1.height.getD x 0 < n →
        IsDist (buildPreflow n s t edges) x t (st1.height.getD x 0)) ∧
      Inv (buildPreflow n s t edges) n s t n (pushSource n s st1) ∧
      (pushSource n s st1).height = st1.height ∧
      SrcValid (pushSource n s st1).adj (pushSource n s st1).height s ∧
      (∃ new, (pushSource n s st1).hist = new ++ [buildPreflow n s t edges] ∧
        ∀ a ∈ new, ∃ ex, PreInv (buildPreflow n s t edges) n s t n a st1.height ex) ∧
      (∀ i, i < (arcs (buildPreflow n s t edges) s).length →
        st1.height.getD (arc (buildPreflow n s t edges) s i).dst 0 < n →
        (arc (pushSource n s st1).adj s i).cap = 0) ∧
      (∀ x, x ≠ s → (pushSource n s st1).excess.getD x 0 =
        ((List.range (arcs (buildPreflow n s t edges) s).length).map
          (fun i => if (arc (buildPreflow n s t edges) s i).dst = x ∧ st1.height.getD x 0 < n
            then (arc (buildPreflow n s t edges) s i).cap else 0)).sum) := by
  have hinv := buildWith_inv (keptPreflow s t) (keptPreflow_ne s t) n edges hr 0
  rw [← buildPreflow_eq_buildWith] at hinv
  have hnet : NetInv (buildPreflow n s t edges) (buildPreflow n s t edges) := by
    rw [buildPreflow_eq_buildWith]
    exact netInv_buildWith _ (keptPreflow_ne s t) (keptPreflow_cap s t) n edges hr
  have hex : ∀ x, ((List.replicate n (0 : Int)).set s SOURCE_EXCESS).getD x 0 =
      if x = s then SOURCE_EXCESS else 0 := by
    intro x
    rw [getD_set_eq, getD_replicate_eq]
    by_cases hx : x = s
    · rw [if_pos ⟨hx, by simp; exact hs⟩, if_pos hx]
    · rw [if_neg (fun c => hx c.1), if_neg hx]
      split <;> rfl
  have hb : PreBase (buildPreflow n s t edges) n s (buildPreflow n s t edges)
      ((List.replicate n (0 : Int)).set s SOURCE_EXCESS) := by
    refine ⟨hinv.2.1, hinv.1, hnet, hnet, by simp, ?_, ?_⟩
    · intro v
      rw [hex, excessOf_self]
      simp
    · intro v
      rw [hex]
      split
      · decide
      · exact le_refl _
  have hinit : ({ init n s t edges with
      excess := (List.replicate (init n s t edges).excess.length 0).set s SOURCE_EXCESS } :
        State) =
      State.mk (buildPreflow n s t edges) (List.replicate n 0) (List.replicate n 0)
        (List.replicate n 0) (List.replicate n 0)
        ((List.replicate n (0 : Int)).set s SOURCE_EXCESS) (List.replicate n []) 0 0
        [buildPreflow n s t edges] := by
    unfold init
    simp
  rw [hinit]
  obtain ⟨st1, g1, g2, g3, g4, g5, g6, g7, g8, g9, g10, g11, g12⟩ :=
    @heur_globalRelabel_spec (buildPreflow n s t edges) n s t (State.mk (buildPreflow n s t edges)
      (List.replicate n 0) (List.replicate n 0)
      (List.replicate n 0) (List.replicate n 0)
      ((List.replicate n (0 : Int)).set s SOURCE_EXCESS) (List.replicate n []) 0 0
      [buildPreflow n s t edges]) hb hs ht hst (by simp) (by simp) (by simp) (by simp) (by simp)
      (by
        intro a ha
        have ha' : a ∈ [buildPreflow n s t edges] := ha
        rw [List.mem_singleton] at ha'
        rw [ha']
        exact hnet) fuel hfuel
  have g3' : st1.adj = buildPreflow n s t edges := g3
  have g4' : st1.excess = (List.replicate n (0 : Int)).set s SOURCE_EXCESS := g4
  have g5' : st1.hist = [buildPreflow n s t edges] := g5
  have hdeg : (arcs st1.adj s).length = (arcs (buildPreflow n s t edges) s).length := by
    rw [g3']
  obtain ⟨r1, r2, r3, r4, r5, r6, ⟨new, r7, r7'⟩, r8, r9, r10, r11⟩ :=
    heur_pushSource_fold hs hcapS (List.range (arcs st1.adj s).length) st1 g2
      (List.nodup_range _) (fun i hi => List.mem_range.mp hi)
      (by
        intro i hi
        rw [g3']
        exact source_arcs_pos n s t edges hr i (by rw [← hdeg]; exact List.mem_range.mp hi))
  rw [← pushSource_eq] at r1 r2 r7 r9 r11 r8
  refine ⟨st1, g1, g2, g3', g5', ?_, g9, g10, r1, r2, ?_, ⟨new, by rw [r7, g5'], r7'⟩, ?_, ?_⟩
  · intro x
    rw [g4', hex]
  · intro i hi hc
    have hlen2 : (arcs (pushSource n s st1).adj s).length = (arcs st1.adj s).length := by
      rw [r1.pre.net.length_arcs, ← g2.pre.net.length_arcs]
    have hdst : (arc (pushSource n s st1).adj s i).dst = (arc st1.adj s i).dst := by
      rw [r1.pre.net.dst_eq, ← g2.pre.net.dst_eq]
    rw [hlen2] at hi
    rw [hdst, r2, g2.pre.hs]
    by_contra hlt
    have := r9 i (List.mem_range.mpr hi) (by omega)
    omega
  · intro i hi hlt
    apply r9 i (List.mem_range.mpr (by rw [hdeg]; exact hi))
    rw [g3']
    exact hlt
  · intro x hx
    rw [r11 x hx, g4', hex, if_neg hx, zero_add, g3']

end HLPPHeuristic

namespace HLPPHeuristic

/-- When the buckets above height 0 are empty, every node other than the source and the sink
that still holds excess is at height `n`. -/
theorem Inv.stranded {A0 : Adj} {n s t : Nat} {st : State} (hI : Inv A0 n s t n st)
    (hmh : st.max_height ≤ 1) (hemp : st.buckets.getD st.max_height.toNat [] = [])
    (v : Nat) (hv : v < n) (hvs : v ≠ s) (hvt : v ≠ t) (hex : 0 < st.excess.getD v 0) :
    st.height.getD v 0 = n := by
  by_contra hne
  have hle := hI.pre.h_le v
  have hpos := hI.pre.h_pos v hv hvt
  rcases hI.act_all v hv hvs hvt hex (by omega) with h | h
  · have hnn := hI.mh_nonneg
    by_cases hh : (st.height.getD v 0 : Int) = st.max_height
    · have : st.height.getD v 0 = st.max_height.toNat := by omega
      rw [this, hemp] at h
      simp at h
    · rw [hI.mh_empty _ (by omega)] at h
      simp at h
  · omega

/-- `flow` of hlpp_heuristic.cpp terminates on a freshly built network whose source arcs have
a total capacity of at most `SOURCE_EXCESS`; at the end the preflow invariant holds, the
labelling is valid on the arcs of the source too, and excess is left only at nodes of
height `n`. -/
theorem heur_flow_spec (n s t : Nat) (edges : List InEdge) (hr : InRange n edges)
    (hs : s < n) (ht : t < n) (hst : s ≠ t)
    (hcapS : capSum (arcs (buildPreflow n s t edges) s) ≤ SOURCE_EXCESS)
    (fuel : Nat) (hfuel : heurFuel (buildPreflow n s t edges) n s < fuel) :
    ∃ st', flow n s t fuel (init n s t edges) = some (st'.excess.getD t 0, st') ∧
      PreInv (buildPreflow n s t edges) n s t n st'.adj st'.height st'.excess ∧
      SrcValid st'.adj st'.height s ∧
      (∀ v, v < n → v ≠ s → v ≠ t → 0 < st'.excess.getD v 0 → st'.height.getD v 0 = n) ∧
      (∀ a ∈ st'.hist, NetInv (buildPreflow n s t edges) a) ∧
      (∀ h, h < n → st'.count.getD h 0 = (levelCount n s t st'.height h : Int)) ∧
      (∃ new old, st'.hist = new ++ old ∧
        (∀ a ∈ new, ∃ H ex, PreInv (buildPreflow n s t edges) n s t n a H ex ∧
          SrcValid a H s) ∧
        (∀ a ∈ old, ∃ H ex, PreInv (buildPreflow n s t edges) n s t n a H ex)) := by
  unfold heurFuel at hfuel
  obtain ⟨st1, i1, i2, i3, i4, i5, i6, i7, i8, i9, i10, ⟨mid, i11, i11'⟩, i12, i13⟩ :=
    heur_init_spec n s t edges hr hs ht hst hcapS fuel (by omega)
  have hold : ∀ a ∈ (pushSource n s st1).hist,
      ∃ H ex, PreInv (buildPreflow n s t edges) n s t n a H ex := by
    intro a ha
    rw [i11] at ha
    rcases List.mem_append.mp ha with h | h
    · obtain ⟨ex, hex⟩ := i11' a h
      exact ⟨_, ex, hex⟩
    · rw [List.mem_singleton] at h
      rw [h]
      have := i2.pre
      rw [i3] at this
      exact ⟨_, _, this⟩
  by_cases hmh : (pushSource n s st1).max_height > 0
  · have hm := heur_measure_lt i8.pre hs
    have hlt := i8.mh_lt
    obtain ⟨st', st2, e1, e2, e3, e4, e5, e6, e7, new, e8, e9⟩ :=
      heur_flowWhile_spec (F := fuel) hs ht hst
        (fun x => lt_of_le_of_lt (length_arcs_le_totalArcs _ n i8.pre.len0 x) (by omega))
        (by omega) fuel (pushSource n s st1) i8 (Or.inl (by omega)) i10 (by
          show preflowMeasure _ n s n (pushSource n s st1).height (pushSource n s st1).excess *
            (n + 1) + (pushSource n s st1).max_height.toNat < fuel
          have h1 : (preflowMeasure (buildPreflow n s t edges) n s n (pushSource n s st1).height
              (pushSource n s st1).excess + 1) * (n + 1) ≤
              ((n * n + 1) * (potBound (buildPreflow n s t edges) s n + 1)) * (n + 1) :=
            Nat.mul_le_mul_right _ hm
          have h2 : (preflowMeasure (buildPreflow n s t edges) n s n (pushSource n s st1).height
              (pushSource n s st1).excess + 1) * (n + 1) =
              preflowMeasure (buildPreflow n s t edges) n s n (pushSource n s st1).height
                (pushSource n s st1).excess * (n + 1) + (n + 1) := by ring
          have h3 : ((n * n + 1) * (potBound (buildPreflow n s t edges) s n + 1) + 1) * (n + 2) =
              ((n * n + 1) * (potBound (buildPreflow n s t edges) s n + 1)) * (n + 1) +
              (n * n + 1) * (potBound (buildPreflow n s t edges) s n + 1) + (n + 2) := by ring
          omega)
    refine ⟨st', ?_, ?_, ?_, ?_, ?_, ?_, new, (pushSource n s st1).hist, ?_, ?_, hold⟩
    · unfold flow
      rw [i1]
      simp only
      unfold flowLoop
      rw [if_pos hmh, e1]
    · rw [e3]
      exact e2.pre
    · rw [e3]
      exact e6
    · rw [e3]
      exact e2.stranded e4 e5
    · rw [e3]
      exact e2.histInv
    · rw [e3]
      exact e2.cnt
    · rw [e3]
      exact e8
    · intro a ha
      obtain ⟨H, ex, f1, f2, _⟩ := e9 a ha
      exact ⟨H, ex, f1, f2⟩
  · have hm0 : (pushSource n s st1).max_height = 0 := by
      have := i8.mh_nonneg
      omega
    refine ⟨pushSource n s st1, ?_, i8.pre, i10, ?_, i8.histInv, i8.cnt, [],
      (pushSource n s st1).hist, rfl, fun a ha => by simp at ha, hold⟩
    · unfold flow
      rw [i1]
      simp only
      unfold flowLoop
      rw [if_neg hmh]
    · intro v hv hvs hvt hex
      by_contra hne
      have hle := i8.pre.h_le v
      have hpos := i8.pre.h_pos v hv hvt
      rcases i8.act_all v hv hvs hvt hex (by omega) with h | h
      · rw [i8.mh_empty _ (by rw [hm0]; omega)] at h
        simp at h
      · omega

end HLPPHeuristic

namespace Residual

/-- The net flow out of a set of nodes is the net flow into its complement. -/
theorem sum_out_eq_sum_in {A0 A : Adj} {n : Nat} (hI : NetInv A0 A) (hp : Paired A0)
    (hlen : A0.length = n) (S : Nat → Bool) :
    (∑ v in Finset.range n, if S v = true then -excessOf A0 A v else 0) =
      ∑ v in Finset.range n, if S v = true then 0 else excessOf A0 A v := by
  have h0 := sum_excessOf_zero hI hp hlen
  have h1 : ∀ v, (if S v = true then -excessOf A0 A v else 0) =
      (if S v = true then 0 else excessOf A0 A v) - excessOf A0 A v := by
    intro v
    split <;> ring
  rw [Finset.sum_congr rfl (fun v _ => h1 v), Finset.sum_sub_distrib, h0, sub_zero]

end Residual

namespace HLPPHeuristic

end HLPPHeuristic

namespace Residual

/-- In a preflow whose labelling is valid on all arcs and bounded by `n`, a node of height
`n` has no path to the sink along arcs of positive residual capacity. -/
theorem PreInv.no_path_of_top {A0 : Adj} {n s t : Nat} {adj : Adj} {height : List Nat}
    {excess : List Int} (h : PreInv A0 n s t n adj height excess) (hs : s < n) (ht : t < n)
    (hsrc : SrcValid adj height s) (v : Nat) (hv : height.getD v 0 = n) :
    ¬ Reach adj v t := by
  obtain ⟨k, k1, k2, k3⟩ := exists_gap n 0 (fun x => height.getD x 0) t s ht hs
    (le_of_eq h.ht) (by simp only; rw [h.hs]; omega)
  have hcl := closed_above_gap h k k3 (Or.inr hsrc)
  intro hr
  have := Reach.mem_closed (fun x => k < height.getD x 0) (by show k < height.getD v 0; omega)
    hcl hr
  have h2 : k < height.getD t 0 := this
  rw [h.ht] at h2
  omega

end Residual

namespace Residual

/-- In a preflow, the excess of the sink is the capacity of every cut that is closed under
residual arcs and has all other excess on the side of the source. -/
theorem PreInv.value_eq_cut {n s t top : Nat} {edges : List InEdge} {adj : Adj}
    {height : List Nat} {excess : List Int}
    (h : PreInv (buildPreflow n s t edges) n s t top adj height excess)
    (hr : InRange n edges) (ht : t < n) (hst : s ≠ t) (S : Nat → Bool)
    (hSs : S s = true) (hSt : S t = false)
    (hcl : ∀ x, S x = true → ∀ i, i < (arcs adj x).length → (arc adj x i).cap ≠ 0 →
      S (arc adj x i).dst = true)
    (hact : ∀ v, v < n → v ≠ s → v ≠ t → 0 < excess.getD v 0 → S v = true) :
    excess.getD t 0 = cutCap (network edges) S := by
  have het := h.exc_eq t
  rw [if_neg (fun c => hst c.symm), add_zero] at het
  have hcut : cutCapAdj n (buildPreflow n s t edges) S = cutCap (network edges) S := by
    rw [buildPreflow_eq_buildWith,
      cutCapAdj_buildWith (keptPreflow s t) (keptPreflow_ne s t) n S edges hr]
    exact cutCap_networkPreflow s t edges S hSs hSt
  rw [← hcut, ← cut_excess h.net h.paired0 h.len0 S hcl,
    sum_out_eq_sum_in h.net h.paired0 h.len0, Finset.sum_eq_single t]
  · rw [if_neg (by rw [hSt]; simp), het]
  · intro v hv hvt
    rw [Finset.mem_range] at hv
    by_cases hS : S v = true
    · rw [if_pos hS]
    · rw [if_neg hS]
      have hvs : v ≠ s := by
        intro c
        rw [c] at hS
        exact hS hSs
      have he := h.exc_eq v
      rw [if_neg hvs, add_zero] at he
      rw [← he]
      by_contra hne
      have hnn := h.exc_nonneg v
      exact hS (hact v hv hvs hvt (by omega))
  · intro c
    exact absurd (Finset.mem_range.mpr ht) c

end Residual

namespace Residual

/-- On the two-node network with `k` parallel edges 0->1 of capacity `c >= 1` the minimum cut
value is `k * c`. -/
theorem isMinCutValue_parallel (k : Nat) (c : Int) (hc : 1 ≤ c) (F : Int)
    (h : IsMinCutValue 0 1 (network (List.replicate k ((0 : Nat), (1 : Nat), c))) F) :
    F = k * c := by
  obtain ⟨⟨S, h1, h2, h3⟩, _⟩ := h
  rw [h3]
  unfold cutCap network
  have hf : (List.replicate k ((0 : Nat), (1 : Nat), c)).filter kept =
      List.replicate k ((0 : Nat), (1 : Nat), c) := by
    rw [List.filter_eq_self]
    intro e he
    rw [List.eq_of_mem_replicate he]
    simp [kept]
    exact hc
  rw [hf, List.map_replicate, List.sum_replicate]
  simp [h1, h2]

/-- The excess of the sink of a preflow is at most the initial excess of the source. -/
theorem PreInv.sink_le_source_excess {A0 : Adj} {n s t top : Nat} {adj : Adj}
    {height : List Nat} {excess : List Int} (h : PreInv A0 n s t top adj height excess)
    (hs : s < n) (ht : t < n) (hst : s ≠ t) : excess.getD t 0 ≤ SOURCE_EXCESS := by
  have h0 := sum_out_eq_sum_in h.net h.paired0 h.len0 (fun x => decide (x = s))
  rw [Finset.sum_eq_single s] at h0
  · rw [if_pos (by simp)] at h0
    have hnn : ∀ v ∈ Finset.range n, 0 ≤
        (if decide (v = s) = true then 0 else excessOf A0 adj v) := by
      intro v _
      by_cases hv : v = s
      · rw [if_pos (by simp [hv])]
      · rw [if_neg (by simp [hv])]
        have := h.exc_eq v
        rw [if_neg hv, add_zero] at this
        rw [← this]
        exact h.exc_nonneg v
    have h1 : (if decide (t = s) = true then 0 else excessOf A0 adj t) ≤
        ∑ v in Finset.range n, if decide (v = s) = true then 0 else excessOf A0 adj v :=
      Finset.single_le_sum hnn (Finset.mem_range.mpr ht)
    rw [if_neg (by simp; exact fun c => hst c.symm), ← h0] at h1
    have h2 := h.exc_eq s
    rw [if_pos rfl] at h2
    have h3 := h.exc_eq t
    rw [if_neg (fun c => hst c.symm), add_zero] at h3
    have h4 := h.exc_nonneg s
    omega
  · intro v _ hv
    rw [if_neg (by simp [hv])]
  · intro c
    exact absurd (Finset.mem_range.mpr hs) c

end Residual

/-- On the two-node network with `k` parallel edges 0->1 of capacity `c >= 1`, with enough
fuel, EdmondsKarp returns `k * c` and FIFOPP returns a number that is at most `2^60 + 5`. -/
theorem parallel_ek_fifopp (k : Nat) (c : Int) (hc : 1 ≤ c) (fuel : Nat)
    (hfuel : augFuel 2 (List.replicate k ((0 : Nat), (1 : Nat), c)) < fuel)
    (hfuel2 : preflowFuel (buildPreflow 2 0 1
      (List.replicate k ((0 : Nat), (1 : Nat), c))) 2 0 < fuel) :
    ∃ F G, EdmondsKarp.run fuel 2 (List.replicate k ((0 : Nat), (1 : Nat), c)) = some F ∧
      FIFOPP.run fuel 2 (List.replicate k ((0 : Nat), (1 : Nat), c)) = some G ∧
      F = k * c ∧ G ≤ SOURCE_EXCESS := by
  have hr : InRange 2 (List.replicate k ((0 : Nat), (1 : Nat), c)) := by
    intro e he
    rw [List.eq_of_mem_replicate he]
    show (0 : Nat) < 2 ∧ (1 : Nat) < 2
    exact ⟨by decide, by decide⟩
  unfold augFuel at hfuel
  obtain ⟨F, st1, e1, e2⟩ := EdmondsKarp.ek_flow_minCut 2 0 1 _ hr (by decide) (by decide)
    (by decide) fuel (by omega)
  obtain ⟨st2, g1, g2, _⟩ := FIFOPP.fifopp_flow_spec 2 0 1 _ hr (by decide) (by decide)
    (by decide) fuel hfuel2
  refine ⟨F, st2.excess.getD 1 0, ?_, ?_, ?_, ?_⟩
  · unfold EdmondsKarp.run
    show (EdmondsKarp.flow 0 1 fuel _).map Prod.fst = _
    rw [e1]
    rfl
  · unfold FIFOPP.run
    show (FIFOPP.flow 2 0 1 fuel _).map Prod.fst = _
    rw [g1]
    rfl
  · exact isMinCutValue_parallel _ _ hc F e2
  · exact g2.pre.sink_le_source_excess (by decide) (by decide) (by decide)


namespace Residual

/-- On the network n = 3 with the edges 0->1 cap 5 and 1->2 cap 3, saturated out of the
source, the cut around the nodes reachable from the source has capacity 5, not 3. -/
theorem not_cutDuality_stranded :
    ¬ CutDuality (network [(0, 1, 5), (1, 2, 3)])
      [[⟨1, 0, 0⟩], [⟨0, 0, 5⟩, ⟨2, 0, 0⟩], [⟨1, 1, 3⟩]] 0 2 3 := by
  rintro ⟨_, h⟩
  have hS : ∀ x, (fun x => decide (x = 0)) x = true ↔
      Reach [[⟨1, 0, 0⟩], [⟨0, 0, 5⟩, ⟨2, 0, 0⟩], [⟨1, 1, 3⟩]] 0 x := by
    intro x
    constructor
    · intro hx
      have hx0 : x = 0 := by simpa using hx
      rw [hx0]
      exact Reach.refl
    · intro hx
      have : x = 0 := by
        apply Reach.mem_closed (fun y => y = 0) rfl _ hx
        intro y hy i hi hcap
        subst hy
        have hi0 : i = 0 := by
          simp [arcs] at hi
          exact hi
        subst hi0
        exact absurd rfl hcap
      simpa using this
  have := h (fun x => decide (x = 0)) hS
  revert this
  decide

end Residual

/-- C4, counterexample: on the network n = 3 with the edges 0->1 cap 5 and 1->2 cap 3 the
heuristic HLPP returns 3, but in the residual network it leaves only the source is reachable
from the source and the kept edges that leave this set have a total capacity of 5. -/
theorem heuristic_source_cut_counterexample :
    ∃ st', HLPPHeuristic.flow 3 0 2 40 (HLPPHeuristic.init 3 0 2 [(0, 1, 5), (1, 2, 3)]) =
        some (3, st') ∧
      ¬ CutDuality (network [(0, 1, 5), (1, 2, 3)]) st'.adj 0 2 3 :=
  ⟨_, rfl, not_cutDuality_stranded⟩

/-- C4, amended: for the heuristic HLPP and every network with `n >= 2` whose edge endpoints
are nodes and whose arcs out of the source have a total capacity of at most `2^60 + 5`:
`flow()` returns some `F`; in the residual network it leaves, the source has no path to the
sink along arcs of positive residual capacity, and `F` is the sum of the capacities of the
kept edges that go from a node without such a path to the sink to a node with one. -/
theorem heuristic_flow_eq_sink_cut (n : Nat) (edges : List InEdge) (hn : 2 ≤ n)
    (hr : InRange n edges) (fuel : Nat)
    (hfuel : HLPPHeuristic.heurFuel (buildPreflow n 0 (n - 1) edges) n 0 < fuel)
    (hcapS : capSum (arcs (buildPreflow n 0 (n - 1) edges) 0) ≤ SOURCE_EXCESS) :
    ∃ F st', HLPPHeuristic.flow n 0 (n - 1) fuel (HLPPHeuristic.init n 0 (n - 1) edges) =
        some (F, st') ∧
      SinkCutDuality (network edges) st'.adj 0 (n - 1) F := by
  obtain ⟨st', f1, f2, f3, f4, _⟩ := HLPPHeuristic.heur_flow_spec n 0 (n - 1) edges hr
    (by omega) (by omega) (by omega) hcapS fuel hfuel
  have hns : ¬ Reach st'.adj 0 (n - 1) :=
    f2.no_path_of_top (by omega) (by omega) f3 0 f2.hs
  refine ⟨_, st', f1, hns, ?_⟩
  intro S hS
  have hSs : S 0 = true := by
    cases h : S 0
    · exact absurd ((hS 0).mp h) hns
    · rfl
  have hSt : S (n - 1) = false := (hS (n - 1)).mpr Reach.refl
  apply f2.value_eq_cut hr (by omega) (by omega) S hSs hSt
  · intro x hx i hi hc
    cases h : S (arc st'.adj x i).dst
    · exfalso
      have h1 : Reach st'.adj x (arc st'.adj x i).dst :=
        Reach.step x i Reach.refl hi (by
          have := f2.net.nonneg x i hi
          omega)
      have h2 := h1.chain ((hS _).mp h)
      rw [(hS x).mpr h2] at hx
      exact Bool.noConfusion hx
    · rfl
  · intro v hv hvs hvt hex
    cases h : S v
    · exact absurd ((hS v).mp h)
        (f2.no_path_of_top (by omega) (by omega) f3 v (f4 v hv hvs hvt hex))
    · rfl

/-- The network n = 3 with the edges 0->1 cap 5 and 1->2 cap 3, with fuel 1000. -/
theorem heuristic_flow_eq_sink_cut_witness :
    ∃ F st', HLPPHeuristic.flow 3 0 (3 - 1) 1000
        (HLPPHeuristic.init 3 0 (3 - 1) [(0, 1, 5), (1, 2, 3)]) = some (F, st') ∧
      SinkCutDuality (network [(0, 1, 5), (1, 2, 3)]) st'.adj 0 (3 - 1) F :=
  heuristic_flow_eq_sink_cut 3 [(0, 1, 5), (1, 2, 3)] (by decide)
    (by intro e he; simp at he; rcases he with h | h <;> subst h <;> decide) 1000
    (by decide) (by decide)

/-- C6, counterexample: on the network n = 3 with the edges 0->1 cap 5 and 1->2 cap 3 the
heuristic HLPP returns 3 and leaves a residual network in which the capacity of the forward
arc entering node 1 has decreased by 5 and that of the forward arc leaving it by 3. -/
theorem heuristic_conservation_counterexample :
    ∃ st', HLPPHeuristic.flow 3 0 2 40 (HLPPHeuristic.init 3 0 2 [(0, 1, 5), (1, 2, 3)]) =
        some (3, st') ∧
      inDecrease (buildPreflow 3 0 2 [(0, 1, 5), (1, 2, 3)]) st'.adj 1 = 5 ∧
      outDecrease (buildPreflow 3 0 2 [(0, 1, 5), (1, 2, 3)]) st'.adj 1 = 3 :=
  ⟨_, rfl, by decide, by decide⟩

/-- C6, amended: for the heuristic HLPP, on every network with `n >= 2` whose edge endpoints
are nodes and whose arcs out of the source have a total capacity of at most `2^60 + 5`:
`flow()` returns, and for every node `v` other than source and sink the total
residual-capacity decrease over the forward arcs entering `v` is the decrease over the
forward arcs leaving `v` plus `excess[v]`, which is not negative, and is 0 when `v` has a path
to the sink along arcs of positive residual capacity. -/
theorem heuristic_flow_conserved_where_sink_reachable (n : Nat) (edges : List InEdge)
    (hn : 2 ≤ n) (hr : InRange n edges) (fuel : Nat)
    (hfuel : HLPPHeuristic.heurFuel (buildPreflow n 0 (n - 1) edges) n 0 < fuel)
    (hcapS : capSum (arcs (buildPreflow n 0 (n - 1) edges) 0) ≤ SOURCE_EXCESS) :
    ∃ F st', HLPPHeuristic.flow n 0 (n - 1) fuel (HLPPHeuristic.init n 0 (n - 1) edges) =
        some (F, st') ∧
      ∀ v, v ≠ 0 → v ≠ n - 1 →
        inDecrease (buildPreflow n 0 (n - 1) edges) st'.adj v =
          outDecrease (buildPreflow n 0 (n - 1) edges) st'.adj v + st'.excess.getD v 0 ∧
        0 ≤ st'.excess.getD v 0 ∧
        (Reach st'.adj v (n - 1) → st'.excess.getD v 0 = 0) := by
  obtain ⟨st', f1, f2, f3, f4, _⟩ := HLPPHeuristic.heur_flow_spec n 0 (n - 1) edges hr
    (by omega) (by omega) (by omega) hcapS fuel hfuel
  refine ⟨_, st', f1, ?_⟩
  intro v hv1 hv2
  have he := f2.exc_eq v
  rw [if_neg hv1, add_zero] at he
  have hd := inDecrease_sub_outDecrease f2.net v
  have hnn := f2.exc_nonneg v
  refine ⟨by omega, hnn, ?_⟩
  intro hreach
  by_contra hne
  have hvn : v < n := by
    by_contra c
    rw [List.getD_eq_default _ _ (by rw [f2.len_ex]; omega)] at hne
    exact hne rfl
  exact f2.no_path_of_top (by omega) (by omega) f3 v (f4 v hvn hv1 hv2 (by omega)) hreach

/-- The network n = 3 with the edges 0->1 cap 5 and 1->2 cap 3, with fuel 1000. -/
theorem heuristic_flow_conserved_where_sink_reachable_witness :
    ∃ F st', HLPPHeuristic.flow 3 0 (3 - 1) 1000
        (HLPPHeuristic.init 3 0 (3 - 1) [(0, 1, 5), (1, 2, 3)]) = some (F, st') ∧
      ∀ v, v ≠ 0 → v ≠ 3 - 1 →
        inDecrease (buildPreflow 3 0 (3 - 1) [(0, 1, 5), (1, 2, 3)]) st'.adj v =
          outDecrease (buildPreflow 3 0 (3 - 1) [(0, 1, 5), (1, 2, 3)]) st'.adj v +
            st'.excess.getD v 0 ∧
        0 ≤ st'.excess.getD v 0 ∧
        (Reach st'.adj v (3 - 1) → st'.excess.getD v 0 = 0) :=
  heuristic_flow_conserved_where_sink_reachable 3 [(0, 1, 5), (1, 2, 3)] (by decide)
    (by intro e he; simp at he; rcases he with h | h <;> subst h <;> decide) 1000
    (by decide) (by decide)


/-- The solvers on an input whose source capacity exceeds `2^60 + 5`: on the two-node network
with `2^29 + 1` parallel edges 0->1 of capacity `2^31 - 1`, with enough fuel, EdmondsKarp
returns `(2^29 + 1) * (2^31 - 1)`, while FIFOPP returns at most `2^60 + 5`, which is less. -/
theorem solvers_disagree_on_large_input :
    ∃ fuel0, ∀ fuel, fuel0 < fuel → ∃ F G, EdmondsKarp.run fuel 2
        (List.replicate (2 ^ 29 + 1) ((0 : Nat), (1 : Nat), (2147483647 : Int))) = some F ∧
      FIFOPP.run fuel 2
        (List.replicate (2 ^ 29 + 1) ((0 : Nat), (1 : Nat), (2147483647 : Int))) = some G ∧
      F = 1152921506217459711 ∧ G ≤ 1152921504606846981 ∧ G < F := by
  refine ⟨augFuel 2 (List.replicate (2 ^ 29 + 1) ((0 : Nat), (1 : Nat), (2147483647 : Int))) +
    preflowFuel (buildPreflow 2 0 1
      (List.replicate (2 ^ 29 + 1) ((0 : Nat), (1 : Nat), (2147483647 : Int)))) 2 0, ?_⟩
  intro fuel hfuel
  obtain ⟨F, G, h1, h2, h3, h4⟩ := parallel_ek_fifopp (2 ^ 29 + 1) 2147483647 (by norm_num)
    fuel (by omega) (by omega)
  have h5 : ((2 ^ 29 + 1 : Nat) : Int) * 2147483647 = 1152921506217459711 := by norm_num
  rw [h5] at h3
  unfold SOURCE_EXCESS at h4
  exact ⟨F, G, h1, h2, h3, h4, by omega⟩

namespace Residual

end Residual

namespace GenAntiShortestPaths

theorem ok_iff (max_n max_m max_cap k l : Int) :
    ok max_n max_m max_cap k l = true ↔
      num_vertices k l ≤ max_n ∧ num_edges k l ≤ max_m ∧ max_capacity k l ≤ max_cap := by
  unfold ok
  split_ifs <;> simp <;> omega

theorem growL_spec (max_n max_m max_cap k : Int) (hk : 1 ≤ k) :
    ∀ (f : Nat) (l : Int), 0 ≤ l → (max_n - l).toNat < f →
      ∃ l1, growL max_n max_m max_cap k f l = some l1 ∧ l ≤ l1 ∧ (l1 ≤ l ∨ l1 ≤ max_n) := by
  intro f
  induction f with
  | zero => intro l _ h; omega
  | succ f ih =>
    intro l hl hf
    rw [growL]
    by_cases hok : ok max_n max_m max_cap k (l + 1) = true
    · rw [if_pos hok]
      have h1 := ((ok_iff _ _ _ _ _).mp hok).1
      unfold num_vertices at h1
      obtain ⟨l1, e1, e2, e3⟩ := ih (l + 1) (by omega) (by omega)
      refine ⟨l1, e1, by omega, Or.inr ?_⟩
      rcases e3 with h | h <;> omega
    · rw [if_neg hok]
      exact ⟨l, rfl, le_refl _, Or.inl (le_refl _)⟩

theorem shrinkL_spec (max_n max_m max_cap k : Int) :
    ∀ (f : Nat) (l : Int), 0 ≤ l → l.toNat < f →
      ∃ l2, shrinkL max_n max_m max_cap k f l = some l2 ∧ 0 ≤ l2 ∧ l2 ≤ l ∧
        (1 ≤ l2 → ok max_n max_m max_cap k l2 = true) := by
  intro f
  induction f with
  | zero => intro l _ h; omega
  | succ f ih =>
    intro l hl hf
    rw [shrinkL]
    by_cases hc : l ≥ 1 ∧ ok max_n max_m max_cap k l = false
    · rw [if_pos hc]
      obtain ⟨l2, e1, e2, e3, e4⟩ := ih (l - 1) (by omega) (by omega)
      exact ⟨l2, e1, e2, by omega, e4⟩
    · rw [if_neg hc]
      refine ⟨l, rfl, hl, le_refl _, ?_⟩
      intro h1
      by_contra hn
      exact hc ⟨h1, by simpa using hn⟩

theorem forLoop_spec (max_n max_m max_cap : Int) (F : Nat) (hn : 1 ≤ max_n)
    (hF : max_n.toNat + 1 < F) :
    ∀ (f : Nat) (k l bk bl : Int), 1 ≤ k → 1 ≤ l → l ≤ max_n → 1 ≤ bk → 1 ≤ bl →
      (max_n + 1 - k).toNat < f →
      (ok max_n max_m max_cap 1 1 = true → ok max_n max_m max_cap bk bl = true) →
      (ok max_n max_m max_cap 1 1 = false → bk = 1 ∧ bl = 1 ∧ k = 1) →
      ∃ rk rl, forLoop max_n max_m max_cap F f k l bk bl = some (rk, rl) ∧ 1 ≤ rk ∧ 1 ≤ rl ∧
        (ok max_n max_m max_cap 1 1 = true → ok max_n max_m max_cap rk rl = true) ∧
        (ok max_n max_m max_cap 1 1 = false → rk = 1 ∧ rl = 1) := by
  intro f
  induction f with
  | zero => intro k l bk bl _ _ _ _ _ h; omega
  | succ f ih =>
    intro k l bk bl hk hl hln hbk hbl hf h1 h2
    rw [forLoop]
    by_cases hkn : k ≤ max_n
    · rw [if_pos hkn]
      obtain ⟨l1, g1, g2, g3⟩ := growL_spec max_n max_m max_cap k hk F l (by omega) (by omega)
      rw [g1]
      simp only
      obtain ⟨l2, s1, s2, s3, s4⟩ := shrinkL_spec max_n max_m max_cap k F l1 (by omega)
        (by omega)
      rw [s1]
      simp only
      by_cases hl2 : l2 ≤ 0
      · rw [if_pos hl2]
        exact ⟨bk, bl, rfl, hbk, hbl, h1, fun h => ⟨(h2 h).1, (h2 h).2.1⟩⟩
      · rw [if_neg hl2]
        have hok2 := s4 (by omega)
        have hne : ¬ ok max_n max_m max_cap 1 1 = false := by
          intro hc
          have hk1 := (h2 hc).2.2
          rw [hk1] at hok2
          have a := (ok_iff _ _ _ _ _).mp hok2
          have b : ok max_n max_m max_cap 1 1 = true := by
            rw [ok_iff]
            unfold num_vertices num_edges max_capacity at a ⊢
            refine ⟨by omega, by omega, by omega⟩
          rw [hc] at b
          exact Bool.noConfusion b
        split_ifs
        · exact ih (k + 1) l2 k l2 (by omega) (by omega) (by omega) hk (by omega) (by omega)
            (fun _ => hok2) (fun h => absurd h hne)
        · exact ih (k + 1) l2 bk bl (by omega) (by omega) (by omega) hbk hbl (by omega)
            h1 (fun h => absurd h hne)
    · rw [if_neg hkn]
      exact ⟨bk, bl, rfl, hbk, hbl, h1, fun h => ⟨(h2 h).1, (h2 h).2.1⟩⟩

/-- The function `best_parameters` returns a pair `(k, l)` with `k, l >= 1`; when `ok(1, 1)`
holds the pair satisfies `ok`, and otherwise it is `(1, 1)`. -/
theorem best_parameters_spec (max_n max_m max_cap : Int) (hn : 1 ≤ max_n) (fuel : Nat)
    (hF : max_n.toNat + 1 < fuel) :
    ∃ k l, best_parameters fuel max_n max_m max_cap = some (k, l) ∧ 1 ≤ k ∧ 1 ≤ l ∧
      (ok max_n max_m max_cap 1 1 = true → ok max_n max_m max_cap k l = true) ∧
      (ok max_n max_m max_cap 1 1 = false → k = 1 ∧ l = 1) :=
  forLoop_spec max_n max_m max_cap fuel hn hF fuel 1 1 1 1 (le_refl _) (le_refl _) hn
    (le_refl _) (le_refl _) (by omega) (fun h => h) (fun _ => ⟨rfl, rfl, rfl⟩)

end GenAntiShortestPaths

/-- C37 fails at the smallest accepted input: `max_n = 7`, `max_m = 5` passes the assertions
at the entry of `main`, `best_parameters` returns `(1, 1)`, and the graph of these parameters
has `num_vertices(1, 1) = 8 > 7` vertices and `num_edges(1, 1) = 7 > 5` edges. -/
theorem best_parameters_exceeds_limits_counterexample :
    GenAntiShortestPaths.accepted 7 5 ∧
    GenAntiShortestPaths.best_parameters 9 7 5 GenAntiShortestPaths.MAX_CAP = some (1, 1) ∧
    GenAntiShortestPaths.num_vertices 1 1 = 8 ∧ ¬ GenAntiShortestPaths.num_vertices 1 1 ≤ 7 ∧
    GenAntiShortestPaths.num_edges 1 1 = 7 ∧ ¬ GenAntiShortestPaths.num_edges 1 1 ≤ 5 := by
  refine ⟨⟨by decide, by decide, by decide, by decide⟩, by decide, by decide, by decide,
    by decide, by decide⟩

/-- C37, where the limits can be met: for every input `(max_n, max_m)` accepted by the
assertions at the entry of `main`, `best_parameters` (with enough fuel for its loops) returns a pair `(k, l)` with
`k, l >= 1`, and this pair fits the limits, `num_vertices(k, l) <= max_n` and
`num_edges(k, l) <= max_m`, exactly when `max_n >= 8` and `max_m >= 7`; in that case
`max_capacity(k, l) <= max_cap` as well. -/
theorem best_parameters_fits_iff (max_n max_m : Int)
    (h : GenAntiShortestPaths.accepted max_n max_m) (fuel : Nat)
    (hF : max_n.toNat + 1 < fuel) :
    ∃ k l, GenAntiShortestPaths.best_parameters fuel max_n max_m
        GenAntiShortestPaths.MAX_CAP = some (k, l) ∧ 1 ≤ k ∧ 1 ≤ l ∧
      ((GenAntiShortestPaths.num_vertices k l ≤ max_n ∧
          GenAntiShortestPaths.num_edges k l ≤ max_m) ↔ (8 ≤ max_n ∧ 7 ≤ max_m)) ∧
      (8 ≤ max_n → 7 ≤ max_m →
        GenAntiShortestPaths.max_capacity k l ≤ GenAntiShortestPaths.MAX_CAP) := by
  obtain ⟨h1, h2, h3, h4⟩ := h
  obtain ⟨k, l, e1, e2, e3, e4, e5⟩ := GenAntiShortestPaths.best_parameters_spec max_n max_m
    GenAntiShortestPaths.MAX_CAP (by omega) fuel hF
  have hok1 : GenAntiShortestPaths.ok max_n max_m GenAntiShortestPaths.MAX_CAP 1 1 = true ↔
      (8 ≤ max_n ∧ 7 ≤ max_m) := by
    rw [GenAntiShortestPaths.ok_iff]
    unfold GenAntiShortestPaths.num_vertices GenAntiShortestPaths.num_edges
      GenAntiShortestPaths.max_capacity GenAntiShortestPaths.MAX_CAP
    constructor
    · rintro ⟨a, b, _⟩
      exact ⟨by omega, by omega⟩
    · rintro ⟨a, b⟩
      exact ⟨by omega, by omega, by omega⟩
  refine ⟨k, l, e1, e2, e3, ?_, ?_⟩
  · constructor
    · rintro ⟨a, b⟩
      by_contra hc
      have hf : GenAntiShortestPaths.ok max_n max_m GenAntiShortestPaths.MAX_CAP 1 1 = false := by
        by_contra hc2
        exact hc (hok1.mp (by simpa using hc2))
      obtain ⟨k1, l1⟩ := e5 hf
      rw [k1, l1] at a b
      unfold GenAntiShortestPaths.num_vertices at a
      unfold GenAntiShortestPaths.num_edges at b
      omega
    · intro hc
      have := (GenAntiShortestPaths.ok_iff _ _ _ _ _).mp (e4 (hok1.mpr hc))
      exact ⟨this.1, this.2.1⟩
  · intro a b
    exact ((GenAntiShortestPaths.ok_iff _ _ _ _ _).mp (e4 (hok1.mpr ⟨a, b⟩))).2.2

/-- The input `max_n = 8`, `max_m = 7` with fuel 10. -/
theorem best_parameters_fits_iff_witness :
    ∃ k l, GenAntiShortestPaths.best_parameters 10 8 7
        GenAntiShortestPaths.MAX_CAP = some (k, l) ∧ 1 ≤ k ∧ 1 ≤ l ∧
      ((GenAntiShortestPaths.num_vertices k l ≤ 8 ∧
          GenAntiShortestPaths.num_edges k l ≤ 7) ↔ ((8 : Int) ≤ 8 ∧ (7 : Int) ≤ 7)) ∧
      ((8 : Int) ≤ 8 → (7 : Int) ≤ 7 →
        GenAntiShortestPaths.max_capacity k l ≤ GenAntiShortestPaths.MAX_CAP) :=
  best_parameters_fits_iff 8 7 ⟨by decide, by decide, by decide, by decide⟩ 10 (by decide)

namespace HLPPHeuristic

/-- Lowering `max_height` below an empty bucket keeps the invariant. -/
theorem Inv.lower {A0 : Adj} {n s t : Nat} {st : State} (hI : Inv A0 n s t n st)
    (hemp : st.buckets.getD st.max_height.toNat [] = []) (hgt : st.max_height - 1 > 0) :
    Inv A0 n s t n { st with max_height := st.max_height - 1 } := by
  refine ⟨hI.pre, hI.len_iter, hI.len_count, hI.len_b, hI.len_que, hI.cur, hI.histInv,
    hI.cnt, hI.bk_mem, hI.bk_nodup, hI.notin, hI.act_all, ?_, ?_, ?_⟩
  · intro h hlt
    have hlt' : st.max_height - 1 < (h : Int) := hlt
    by_cases hh : (h : Int) = st.max_height
    · have : h = st.max_height.toNat := by omega
      rw [this]
      exact hemp
    · exact hI.mh_empty h (by omega)
  · show 0 ≤ st.max_height - 1
    omega
  · show st.max_height - 1 < (n : Int)
    have := hI.mh_lt
    omega

/-- Every state at the head of the main loop satisfies the invariant of the loop, the
labelling is valid on the arcs of the source, and `max_height >= 1`. -/
theorem heur_atLoopHead_inv (n s t : Nat) (edges : List InEdge) (hr : InRange n edges)
    (hs : s < n) (ht : t < n) (hst : s ≠ t)
    (hcapS : capSum (arcs (buildPreflow n s t edges) s) ≤ SOURCE_EXCESS)
    (F : Nat) (hF : ∀ x, (arcs (buildPreflow n s t edges) x).length < F) (hF2 : 2 * n < F)
    (st : State) (h : AtLoopHead n s t F edges st) :
    Inv (buildPreflow n s t edges) n s t n st ∧ SrcValid st.adj st.height s ∧
      (1 ≤ st.max_height ∨ st.buckets.getD 0 [] = []) := by
  induction h with
  | first st1 h1 h2 =>
    obtain ⟨st1', p1, p2, p3, p4, p5, p6, p7, p8, p9, p10, p11, p12, p13⟩ :=
      heur_init_spec n s t edges hr hs ht hst hcapS F hF2
    have e : st1' = st1 := by
      have : some st1' = some st1 := p1.symm.trans h1
      exact Option.some.inj this
    rw [e] at p8 p10
    exact ⟨p8, p10, Or.inl (by omega)⟩
  | discharged st st1 _ hemp hd hw ih =>
    obtain ⟨hI, hsv, hL⟩ := ih
    have hm1 : 1 ≤ st.max_height := by
      by_contra c
      have h0 : st.max_height = 0 := by
        have := hI.mh_nonneg
        omega
      rcases hL with h | h
      · omega
      · rw [h0] at hemp
        exact hemp h
    obtain ⟨hI1, a1, a2, a3, a4, a5⟩ := hI.pop hm1 hemp
    obtain ⟨st1', d1, d2, d3, d4, d5, d6, d7, _⟩ :=
      heur_discharge_spec a1 a2 a3 hs F _ hI1 a5 a4 (by
        show (arcs st.adj _).length < F
        rw [hI.pre.net.length_arcs]
        exact hF _)
    have e : st1' = st1 := Option.some.inj (d1.symm.trans hd)
    rw [e] at d2 d4 d7
    exact ⟨d2, d4 hsv, Or.inl (le_trans hm1 d7)⟩
  | relabeled st st1 st2 _ hemp hd hw hg ih =>
    obtain ⟨hI, hsv, hL⟩ := ih
    have hm1 : 1 ≤ st.max_height := by
      by_contra c
      have h0 : st.max_height = 0 := by
        have := hI.mh_nonneg
        omega
      rcases hL with h | h
      · omega
      · rw [h0] at hemp
        exact hemp h
    obtain ⟨hI1, a1, a2, a3, a4, a5⟩ := hI.pop hm1 hemp
    obtain ⟨st1', d1, d2, d3, d4, d5, d6, d7, _⟩ :=
      heur_discharge_spec a1 a2 a3 hs F _ hI1 a5 a4 (by
        show (arcs st.adj _).length < F
        rw [hI.pre.net.length_arcs]
        exact hF _)
    have e : st1' = st1 := Option.some.inj (d1.symm.trans hd)
    rw [e] at d2 d4 d7
    obtain ⟨st2', g1, g2, g3, g4, g5, g6, g7, g8, g9, g10⟩ :=
      heur_globalRelabel_loop hs ht hst st1 d2 (d4 hsv) F hF2
    have e2 : st2' = st2 := Option.some.inj (g1.symm.trans hg)
    rw [e2] at g2 g7 g8
    exact ⟨g2, g8, Or.inr g7⟩
  | lowered st _ hemp hgt ih =>
    obtain ⟨hI, hsv, hL⟩ := ih
    exact ⟨hI.lower hemp hgt, hsv, Or.inl (by show 1 ≤ st.max_height - 1; omega)⟩

end HLPPHeuristic

namespace HLPPHeuristic

/-- Every state in which the loop of `discharge(v)` evaluates its condition satisfies the
invariant for the node `v` under discharge; `v` is a node other than `s` and `t` that holds
excess, and its height is `max_height`. -/
theorem heur_inScan_inv (n s t : Nat) (edges : List InEdge) (hr : InRange n edges)
    (hs : s < n) (ht : t < n) (hst : s ≠ t)
    (hcapS : capSum (arcs (buildPreflow n s t edges) s) ≤ SOURCE_EXCESS)
    (F : Nat) (hF : ∀ x, (arcs (buildPreflow n s t edges) x).length < F) (hF2 : 2 * n < F)
    (st : State) (v : Nat) (h : InScan n s t F edges st v) :
    Inv (buildPreflow n s t edges) n s t v st ∧ SrcValid st.adj st.height s ∧
      v < n ∧ v ≠ s ∧ v ≠ t ∧ 0 < st.excess.getD v 0 ∧
      (st.height.getD v 0 : Int) = st.max_height ∧ 1 ≤ st.max_height := by
  induction h with
  | enter st0 h0 hemp =>
    obtain ⟨hI, hsv, hL⟩ := heur_atLoopHead_inv n s t edges hr hs ht hst hcapS F hF hF2 st0 h0
    have hm1 : 1 ≤ st0.max_height := by
      by_contra c
      have h0 : st0.max_height = 0 := by
        have := hI.mh_nonneg
        omega
      rcases hL with h | h
      · omega
      · rw [h0] at hemp
        exact hemp h
    obtain ⟨hI1, a1, a2, a3, a4, a5⟩ := hI.pop hm1 hemp
    exact ⟨hI1, hsv, a1, a2, a3, a4, a5, hm1⟩
  | pushed st v _ hlt hc hz ih =>
    obtain ⟨hI, hsv, a1, a2, a3, a4, a5, a6⟩ := ih
    obtain ⟨q1, q2, q3, q4, q5, q6, q7, q8, q9, q10, q11, q12, _⟩ :=
      heur_push_spec hI v a1 (Or.inl rfl) (st.iter.getD v 0) hlt hc.1 a4 hc.2
    have hmax : max st.max_height
        (st.height.getD (arc st.adj v (st.iter.getD v 0)).dst 0 : Int) =
        (push st v (st.iter.getD v 0)).max_height := by
      rw [q7]
      apply max_eq_left
      have := hc.2
      omega
    rw [hmax] at q1
    have q1' : Inv (buildPreflow n s t edges) n s t v (push st v (st.iter.getD v 0)) := q1
    have hpos1 : 0 < (push st v (st.iter.getD v 0)).excess.getD v 0 := by
      have := q1'.pre.exc_nonneg v
      omega
    have hcap0 : (arc (push st v (st.iter.getD v 0)).adj v (st.iter.getD v 0)).cap = 0 := by
      rcases q12 with h | h
      · exact absurd h hz
      · exact h
    have hI2 := q1'.advance a1 (by rw [q2]; exact Or.inl hcap0)
    refine ⟨hI2, q10 hsv, a1, a2, a3, hpos1, ?_, ?_⟩
    · show ((push st v (st.iter.getD v 0)).height.getD v 0 : Int) =
        (push st v (st.iter.getD v 0)).max_height
      rw [q3, q7]
      exact a5
    · show 1 ≤ (push st v (st.iter.getD v 0)).max_height
      rw [q7]
      exact a6
  | skipped st v _ hlt hc ih =>
    obtain ⟨hI, hsv, a1, a2, a3, a4, a5, a6⟩ := ih
    have hadm : (arc st.adj v (st.iter.getD v 0)).cap = 0 ∨
        st.height.getD v 0 ≤ st.height.getD (arc st.adj v (st.iter.getD v 0)).dst 0 := by
      have := hI.pre.net.nonneg v _ hlt
      by_cases h1 : (arc st.adj v (st.iter.getD v 0)).cap > 0
      · right
        by_contra h2
        exact hc ⟨h1, by omega⟩
      · left; omega
    exact ⟨hI.advance a1 hadm, hsv, a1, a2, a3, a4, a5, a6⟩

end HLPPHeuristic

namespace HLPPHeuristic

/-- The fuel `heurFuel` covers the inner loops. -/
theorem heurFuel_covers (n s t : Nat) (edges : List InEdge) (hr : InRange n edges) (F : Nat)
    (hF : heurFuel (buildPreflow n s t edges) n s < F) :
    (∀ x, (arcs (buildPreflow n s t edges) x).length < F) ∧ 2 * n < F := by
  have hinv := buildWith_inv (keptPreflow s t) (keptPreflow_ne s t) n edges hr 0
  rw [← buildPreflow_eq_buildWith] at hinv
  unfold heurFuel at hF
  refine ⟨fun x => ?_, by omega⟩
  have := length_arcs_le_totalArcs (buildPreflow n s t edges) n hinv.1 x
  omega

end HLPPHeuristic

namespace HLPPHeuristic

end HLPPHeuristic

namespace HLPPHeuristic

/-- The first `globalRelabel` of `flow`, on the fresh network. -/
theorem heur_first_globalRelabel (n s t : Nat) (edges : List InEdge) (hr : InRange n edges)
    (hs : s < n) (ht : t < n) (hst : s ≠ t) (fuel : Nat) (hfuel : 2 * n < fuel) :
    ∃ st1, globalRelabel n s t fuel (start n s t edges) = some st1 ∧
      Inv (buildPreflow n s t edges) n s t n st1 ∧
      st1.adj = buildPreflow n s t edges ∧ st1.excess = (start n s t edges).excess ∧
      st1.work = 0 ∧ st1.iter = List.replicate n 0 ∧ st1.buckets.getD 0 [] = [] ∧
      (∀ x, x ≠ s → (Reach (buildPreflow n s t edges) x t ↔ x < n ∧ st1.height.getD x 0 < n)) ∧
      (∀ x, x ≠ s → x < n → st1.height.getD x 0 < n →
        IsDist (buildPreflow n s t edges) x t (st1.height.getD x 0)) := by
  have hinv := buildWith_inv (keptPreflow s t) (keptPreflow_ne s t) n edges hr 0
  rw [← buildPreflow_eq_buildWith] at hinv
  have hnet : NetInv (buildPreflow n s t edges) (buildPreflow n s t edges) := by
    rw [buildPreflow_eq_buildWith]
    exact netInv_buildWith _ (keptPreflow_ne s t) (keptPreflow_cap s t) n edges hr
  have hex : ∀ x, ((List.replicate n (0 : Int)).set s SOURCE_EXCESS).getD x 0 =
      if x = s then SOURCE_EXCESS else 0 := by
    intro x
    rw [getD_set_eq, getD_replicate_eq]
    by_cases hx : x = s
    · rw [if_pos ⟨hx, by simp; exact hs⟩, if_pos hx]
    · rw [if_neg (fun c => hx c.1), if_neg hx]
      split <;> rfl
  have hb : PreBase (buildPreflow n s t edges) n s (buildPreflow n s t edges)
      ((List.replicate n (0 : Int)).set s SOURCE_EXCESS) := by
    refine ⟨hinv.2.1, hinv.1, hnet, hnet, by simp, ?_, ?_⟩
    · intro v
      rw [hex, excessOf_self]
      simp
    · intro v
      rw [hex]
      split
      · decide
      · exact le_refl _
  have hinit : start n s t edges =
      State.mk (buildPreflow n s t edges) (List.replicate n 0) (List.replicate n 0)
        (List.replicate n 0) (List.replicate n 0)
        ((List.replicate n (0 : Int)).set s SOURCE_EXCESS) (List.replicate n []) 0 0
        [buildPreflow n s t edges] := by
    unfold start init
    simp
  rw [hinit]
  obtain ⟨st1, g1, g2, g3, g4, g5, g6, g7, g8, g9, g10, g11, g12⟩ :=
    @heur_globalRelabel_spec (buildPreflow n s t edges) n s t (State.mk (buildPreflow n s t edges)
      (List.replicate n 0) (List.replicate n 0)
      (List.replicate n 0) (List.replicate n 0)
      ((List.replicate n (0 : Int)).set s SOURCE_EXCESS) (List.replicate n []) 0 0
      [buildPreflow n s t edges]) hb hs ht hst (by simp) (by simp) (by simp) (by simp) (by simp)
      (by
        intro a ha
        have ha' : a ∈ [buildPreflow n s t edges] := ha
        rw [List.mem_singleton] at ha'
        rw [ha']
        exact hnet) fuel hfuel
  exact ⟨st1, g1, g2, g3, g4, g6, g7, g8, g9, g10⟩

end HLPPHeuristic

namespace HLPPHeuristic

/-- One turn of the body of the inner loop of `flow` from a state at its head: `discharge`
succeeds and keeps the invariant, and no height goes down; so does `globalRelabel` after
it. -/
theorem heur_body_spec (n s t : Nat) (edges : List InEdge) (hr : InRange n edges)
    (hs : s < n) (ht : t < n) (hst : s ≠ t)
    (hcapS : capSum (arcs (buildPreflow n s t edges) s) ≤ SOURCE_EXCESS)
    (F : Nat) (hF : ∀ x, (arcs (buildPreflow n s t edges) x).length < F) (hF2 : 2 * n < F)
    (st : State) (h : AtLoopHead n s t F edges st)
    (hemp : st.buckets.getD st.max_height.toNat [] ≠ []) :
    ∃ st1, discharge n F (popped st) (topNode st) = some st1 ∧
      Inv (buildPreflow n s t edges) n s t n st1 ∧ SrcValid st1.adj st1.height s ∧
      (∀ x, st.height.getD x 0 ≤ st1.height.getD x 0) ∧
      ∃ st2, globalRelabel n s t F st1 = some st2 ∧
        Inv (buildPreflow n s t edges) n s t n st2 ∧ SrcValid st2.adj st2.height s ∧
        st2.adj = st1.adj ∧ st2.excess = st1.excess ∧
        (∀ x, st1.height.getD x 0 ≤ st2.height.getD x 0) := by
  obtain ⟨hI, hsv, hL⟩ := heur_atLoopHead_inv n s t edges hr hs ht hst hcapS F hF hF2 st h
  have hm1 : 1 ≤ st.max_height := by
    by_contra c
    have h0 : st.max_height = 0 := by
      have := hI.mh_nonneg
      omega
    rcases hL with h | h
    · omega
    · rw [h0] at hemp
      exact hemp h
  obtain ⟨hI1, a1, a2, a3, a4, a5⟩ := hI.pop hm1 hemp
  obtain ⟨st1, d1, d2, d3, d4, d5, d6, d7, _⟩ :=
    heur_discharge_spec a1 a2 a3 hs F _ hI1 a5 a4 (by
      show (arcs st.adj _).length < F
      rw [hI.pre.net.length_arcs]
      exact hF _)
  obtain ⟨st2, g1, g2, g3, g4, g5, g6, g7, g8, g9, g10⟩ :=
    heur_globalRelabel_loop hs ht hst st1 d2 (d4 hsv) F hF2
  exact ⟨st1, d1, d2, d4 hsv, d5, st2, g1, g2, g8, g3, g4, g9⟩

/-- From a state at the head of the main loop on, the loop stays in states at its head, and
no height goes down. -/
theorem heur_laterHead_spec (n s t : Nat) (edges : List InEdge) (hr : InRange n edges)
    (hs : s < n) (ht : t < n) (hst : s ≠ t)
    (hcapS : capSum (arcs (buildPreflow n s t edges) s) ≤ SOURCE_EXCESS)
    (F : Nat) (hF : ∀ x, (arcs (buildPreflow n s t edges) x).length < F) (hF2 : 2 * n < F)
    (st : State) (h : AtLoopHead n s t F edges st) (st' : State)
    (hl : LaterHead n s t F st st') :
    AtLoopHead n s t F edges st' ∧ ∀ x, st.height.getD x 0 ≤ st'.height.getD x 0 := by
  induction hl with
  | refl => exact ⟨h, fun x => le_refl _⟩
  | discharged st1 st2 _ hemp hd hw ih =>
    obtain ⟨i1, i2⟩ := ih
    obtain ⟨st2', d1, _, _, d5, _⟩ :=
      heur_body_spec n s t edges hr hs ht hst hcapS F hF hF2 st1 i1 hemp
    have e : st2' = st2 := Option.some.inj (d1.symm.trans hd)
    rw [e] at d5
    exact ⟨AtLoopHead.discharged st1 st2 i1 hemp hd hw, fun x => le_trans (i2 x) (d5 x)⟩
  | relabeled st1 st2 st3 _ hemp hd hw hg ih =>
    obtain ⟨i1, i2⟩ := ih
    obtain ⟨st2', d1, _, _, d5, st3', g1, _, _, _, _, g9⟩ :=
      heur_body_spec n s t edges hr hs ht hst hcapS F hF hF2 st1 i1 hemp
    have e : st2' = st2 := Option.some.inj (d1.symm.trans hd)
    rw [e] at d5 g1 g9
    have e3 : st3' = st3 := Option.some.inj (g1.symm.trans hg)
    rw [e3] at g9
    exact ⟨AtLoopHead.relabeled st1 st2 st3 i1 hemp hd hw hg,
      fun x => le_trans (i2 x) (le_trans (d5 x) (g9 x))⟩
  | lowered st1 _ hemp hgt ih =>
    obtain ⟨i1, i2⟩ := ih
    exact ⟨AtLoopHead.lowered st1 i1 hemp hgt, i2⟩

end HLPPHeuristic

/-- C32: in the heuristic HLPP, on every network with `n >= 2` whose source capacity is at
most `2^60 + 5`, `flow()` terminates (with enough fuel) and, during the run: `max_height` is
in `[0, n)` and `buckets`, `count`, `que` and `height` have length `n` whenever the inner loop
of `flow` tests a bucket; every node in a bucket of index `h >= 1` holds excess and has height
`h` (so no node of height `n` is in such a bucket); the node `v` taken from
`buckets[max_height]` is a node other than source and sink with `excess[v] > 0` and
`height[v] = max_height`, `1 <= max_height < n`; no arc of the source leads to the source; and
every push made by `discharge(v)` goes along an arc `e` with `e.to` other than the source and
`height[e.to] + 1 = height[v] < n`, so that the bucket index `height[e.to]` is below `n`. -/
theorem heuristic_indices_in_range (n : Nat) (edges : List InEdge) (hn : 2 ≤ n)
    (hr : InRange n edges)
    (hcapS : capSum (arcs (buildPreflow n 0 (n - 1) edges) 0) ≤ SOURCE_EXCESS)
    (fuel : Nat) (hfuel : HLPPHeuristic.heurFuel (buildPreflow n 0 (n - 1) edges) n 0 < fuel) :
    (∃ st', HLPPHeuristic.flow n 0 (n - 1) fuel (HLPPHeuristic.init n 0 (n - 1) edges) =
        some (st'.excess.getD (n - 1) 0, st')) ∧
    (∀ st, HLPPHeuristic.AtLoopHead n 0 (n - 1) fuel edges st →
      (0 ≤ st.max_height ∧ st.max_height < (n : Int) ∧ st.buckets.length = n ∧
        st.count.length = n ∧ st.que.length = n ∧ st.height.length = n) ∧
      (∀ h v, 1 ≤ h → v ∈ st.buckets.getD h [] →
        v < n ∧ v ≠ 0 ∧ v ≠ n - 1 ∧ 0 < st.excess.getD v 0 ∧ st.height.getD v 0 = h ∧ h < n) ∧
      (∀ i, i < (arcs st.adj 0).length → (arc st.adj 0 i).dst ≠ 0) ∧
      (st.buckets.getD st.max_height.toNat [] ≠ [] →
        HLPPHeuristic.topNode st < n ∧ HLPPHeuristic.topNode st ≠ 0 ∧
        HLPPHeuristic.topNode st ≠ n - 1 ∧
        0 < st.excess.getD (HLPPHeuristic.topNode st) 0 ∧
        (st.height.getD (HLPPHeuristic.topNode st) 0 : Int) = st.max_height ∧
        1 ≤ st.max_height)) ∧
    (∀ st v, HLPPHeuristic.InScan n 0 (n - 1) fuel edges st v →
      st.iter.getD v 0 < (arcs st.adj v).length → HLPPHeuristic.admissible st v →
      (arc st.adj v (st.iter.getD v 0)).dst ≠ 0 ∧
      (arc st.adj v (st.iter.getD v 0)).dst < n ∧
      st.height.getD (arc st.adj v (st.iter.getD v 0)).dst 0 + 1 = st.height.getD v 0 ∧
      st.height.getD v 0 < n ∧ st.buckets.length = n) := by
  obtain ⟨st', f1, _⟩ := HLPPHeuristic.heur_flow_spec n 0 (n - 1) edges hr (by omega) (by omega)
    (by omega) hcapS fuel hfuel
  obtain ⟨hF, hF2⟩ := HLPPHeuristic.heurFuel_covers n 0 (n - 1) edges hr fuel hfuel
  refine ⟨⟨st', f1⟩, ?_, ?_⟩
  · intro st hst
    obtain ⟨hI, _, hL⟩ := HLPPHeuristic.heur_atLoopHead_inv n 0 (n - 1) edges hr (by omega)
      (by omega) (by omega) hcapS fuel hF hF2 st hst
    refine ⟨⟨hI.mh_nonneg, hI.mh_lt, hI.len_b, hI.len_count, hI.len_que, hI.pre.len_h⟩, ?_, ?_,
      ?_⟩
    · intro h v h1 hv
      obtain ⟨a1, a2, a3, a4, a5⟩ := hI.bk_mem h v h1 hv
      refine ⟨a1, a2, a3, a4, a5, ?_⟩
      by_contra c
      have hge : (st.max_height : Int) < (h : Int) := by
        have := hI.mh_lt
        omega
      rw [hI.mh_empty h hge] at hv
      exact absurd hv (List.not_mem_nil _)
    · intro i hi
      exact (hI.pre.net.paired hI.pre.paired0 0 i hi).2.1
    · intro hemp
      have hm1 : 1 ≤ st.max_height := by
        by_contra c
        have h0 : st.max_height = 0 := by
          have := hI.mh_nonneg
          omega
        rcases hL with h | h
        · omega
        · rw [h0] at hemp
          exact hemp h
      obtain ⟨_, a1, a2, a3, a4, a5⟩ := hI.pop hm1 hemp
      exact ⟨a1, a2, a3, a4, a5, hm1⟩
  · intro st v hsc hlt hadm
    obtain ⟨hI, _, a1, a2, a3, a4, a5, a6⟩ := HLPPHeuristic.heur_inScan_inv n 0 (n - 1) edges hr
      (by omega) (by omega) (by omega) hcapS fuel hF hF2 st v hsc
    obtain ⟨c1, c2⟩ := hadm
    have hval := hI.pre.valid v (st.iter.getD v 0) a2 hlt c1
    have hvn : st.height.getD v 0 < n := by
      have := hI.mh_lt
      omega
    have p := hI.pre.net.paired hI.pre.paired0 v (st.iter.getD v 0) hlt
    refine ⟨?_, ?_, by omega, hvn, hI.len_b⟩
    · intro c
      rw [c, hI.pre.hs] at c2
      omega
    · have := p.1
      rw [hI.pre.net.length_eq, hI.pre.len0] at this
      exact this

/-- The diamond network of the specification with fuel 2200. -/
theorem heuristic_indices_in_range_witness :
    ∃ st', HLPPHeuristic.flow 4 0 (4 - 1) 2200
        (HLPPHeuristic.init 4 0 (4 - 1) [(0, 1, 3), (0, 2, 2), (1, 3, 2), (2, 3, 3)]) =
        some (st'.excess.getD (4 - 1) 0, st') :=
  (heuristic_indices_in_range 4 [(0, 1, 3), (0, 2, 2), (1, 3, 2), (2, 3, 3)]
    (by decide)
    (by intro e he; simp at he; rcases he with h | h | h | h <;> subst h <;> decide)
    (by decide) 2200 (by decide)).1

/-- C28: in the heuristic HLPP (source capacity at most `2^60 + 5`, enough fuel), when the
loop of `discharge(v)` over the arcs of `v` ends with excess left, in the state `st0` with
heights `H0`: if `count[H0[v]] <= 1`, `discharge` ends in a state where `height[i] = n` for
exactly the nodes `i` that had `H0[v] <= H0[i] < n` (`v` is one of them), the other heights
are unchanged, `count[h] = 0` for every height `h` those nodes had, and excesses, residual
capacities and buckets are unchanged (`v` is in no bucket of index `>= 1`); if
`count[H0[v]] > 1`, `discharge` ends in a state where `height[v]` is `n` lowered to
`height[e.to] + 1` over the arcs of `v` with residual capacity, every other height is
unchanged, and excesses and residual capacities are unchanged. -/
theorem heuristic_gap_step_frame (n : Nat) (edges : List InEdge) (hn : 2 ≤ n)
    (hr : InRange n edges)
    (hcapS : capSum (arcs (buildPreflow n 0 (n - 1) edges) 0) ≤ SOURCE_EXCESS)
    (fuel : Nat) (hfuel : HLPPHeuristic.heurFuel (buildPreflow n 0 (n - 1) edges) n 0 < fuel) :
    (∃ st', HLPPHeuristic.flow n 0 (n - 1) fuel (HLPPHeuristic.init n 0 (n - 1) edges) =
        some (st'.excess.getD (n - 1) 0, st')) ∧
    ∀ st, HLPPHeuristic.AtLoopHead n 0 (n - 1) fuel edges st →
      st.buckets.getD st.max_height.toNat [] ≠ [] →
      ∀ st0, HLPPHeuristic.dischargeScan fuel (HLPPHeuristic.popped st)
          (HLPPHeuristic.topNode st) = some (false, st0) →
        0 < st0.excess.getD (HLPPHeuristic.topNode st) 0 ∧
        st0.height.getD (HLPPHeuristic.topNode st) 0 < n ∧
        (¬ st0.count.getD (st0.height.getD (HLPPHeuristic.topNode st) 0) 0 > 1 →
          ∃ st1, HLPPHeuristic.discharge n fuel (HLPPHeuristic.popped st)
              (HLPPHeuristic.topNode st) = some st1 ∧
            (∀ i, st1.height.getD i 0 =
              if i < n ∧ st0.height.getD (HLPPHeuristic.topNode st) 0 ≤ st0.height.getD i 0 ∧
                  st0.height.getD i 0 < n then n
              else st0.height.getD i 0) ∧
            st1.height.getD (HLPPHeuristic.topNode st) 0 = n ∧
            (∀ i, i < n → st0.height.getD (HLPPHeuristic.topNode st) 0 ≤ st0.height.getD i 0 →
              st0.height.getD i 0 < n → st1.count.getD (st0.height.getD i 0) 0 = 0) ∧
            st1.excess = st0.excess ∧ st1.adj = st0.adj ∧ st1.buckets = st0.buckets ∧
            ∀ h, 1 ≤ h → HLPPHeuristic.topNode st ∉ st1.buckets.getD h []) ∧
        (st0.count.getD (st0.height.getD (HLPPHeuristic.topNode st) 0) 0 > 1 →
          ∃ st1, HLPPHeuristic.discharge n fuel (HLPPHeuristic.popped st)
              (HLPPHeuristic.topNode st) = some st1 ∧
            (∀ x, x ≠ HLPPHeuristic.topNode st → st1.height.getD x 0 = st0.height.getD x 0) ∧
            st1.height.getD (HLPPHeuristic.topNode st) 0 =
              relabelValue n st0.height (arcs st0.adj (HLPPHeuristic.topNode st)) ∧
            st1.excess = st0.excess ∧ st1.adj = st0.adj) := by
  obtain ⟨st', f1, _⟩ := HLPPHeuristic.heur_flow_spec n 0 (n - 1) edges hr (by omega) (by omega)
    (by omega) hcapS fuel hfuel
  obtain ⟨hF, hF2⟩ := HLPPHeuristic.heurFuel_covers n 0 (n - 1) edges hr fuel hfuel
  refine ⟨⟨st', f1⟩, ?_⟩
  intro st hst hemp st0 hsc
  obtain ⟨hI, hsv, hL⟩ := HLPPHeuristic.heur_atLoopHead_inv n 0 (n - 1) edges hr (by omega)
    (by omega) (by omega) hcapS fuel hF hF2 st hst
  have hm1 : 1 ≤ st.max_height := by
    by_contra c
    have h0 : st.max_height = 0 := by
      have := hI.mh_nonneg
      omega
    rcases hL with h | h
    · omega
    · rw [h0] at hemp
      exact hemp h
  obtain ⟨hI1, a1, a2, a3, a4, a5⟩ := hI.pop hm1 hemp
  have hI1' : HLPPHeuristic.Inv (buildPreflow n 0 (n - 1) edges) n 0 (n - 1)
      (HLPPHeuristic.topNode st) (HLPPHeuristic.popped st) := hI1
  have a1' : HLPPHeuristic.topNode st < n := a1
  have a2' : HLPPHeuristic.topNode st ≠ 0 := a2
  have hlenF : (arcs (HLPPHeuristic.popped st).adj (HLPPHeuristic.topNode st)).length <
      fuel := by
    rw [hI1'.pre.net.length_arcs]
    exact hF _
  obtain ⟨b, st0', r1, r2, r3, r4, r5, r6, r7, r8, r9, r10, _⟩ :=
    @HLPPHeuristic.heur_dischargeScan_spec (buildPreflow n 0 (n - 1) edges) n 0 (n - 1)
      (HLPPHeuristic.topNode st) a1' a2' fuel (HLPPHeuristic.popped st) hI1'
      (le_of_eq a5) (by omega) a4
  have he : (b, st0') = (false, st0) := Option.some.inj (r1.symm.trans hsc)
  have hb : b = false := (Prod.mk.inj he).1
  have hs0 : st0' = st0 := (Prod.mk.inj he).2
  rw [hs0] at r2 r3 r5 r10
  obtain ⟨c1, c2⟩ := r10 hb
  have hvn : st0.height.getD (HLPPHeuristic.topNode st) 0 < n := by
    rw [r3]
    have h1 : ((HLPPHeuristic.popped st).height.getD (HLPPHeuristic.topNode st) 0 : Int) =
        st.max_height := a5
    have := hI.mh_lt
    omega
  refine ⟨c1, hvn, ?_, ?_⟩
  · intro hc
    obtain ⟨g1, g2, g3, g4, g5, g6, g7, g8, g9, g10, g11, g12, g13⟩ :=
      HLPPHeuristic.heur_gapLoop_spec n (st0.height.getD (HLPPHeuristic.topNode st) 0) st0
        r2.pre.len_h
    refine ⟨HLPPHeuristic.gapLoop n (st0.height.getD (HLPPHeuristic.topNode st) 0) st0, ?_, g11,
      ?_, ?_, g4, g1, g5, ?_⟩
    · unfold HLPPHeuristic.discharge
      rw [hsc]
      simp only
      rw [if_neg hc]
    · rw [g11, if_pos ⟨a1, le_refl _, hvn⟩]
    · intro i hi h1 h2
      exact g12 _ ⟨i, hi, h1, h2, rfl⟩
    · intro h h1
      rw [g5]
      exact r2.notin h h1
  · intro hc
    obtain ⟨k1, k2, k3, k4⟩ := HLPPHeuristic.heur_relabel_frame n st0
      (HLPPHeuristic.topNode st) r2.pre.paired0 r2.pre.net
      (by rw [r2.pre.len_h]; exact a1)
    have hadj : (HLPPHeuristic.relabel n st0 (HLPPHeuristic.topNode st)).adj = st0.adj ∧
        (HLPPHeuristic.relabel n st0 (HLPPHeuristic.topNode st)).excess = st0.excess := by
      rw [HLPPHeuristic.heur_relabel_eq n st0 (HLPPHeuristic.topNode st) r2.pre.paired0
        r2.pre.net (by rw [r2.pre.len_h]; exact a1)]
      split_ifs <;> exact ⟨rfl, rfl⟩
    refine ⟨{ HLPPHeuristic.relabel n st0 (HLPPHeuristic.topNode st) with
        iter := (HLPPHeuristic.relabel n st0 (HLPPHeuristic.topNode st)).iter.set
          (HLPPHeuristic.topNode st) 0 }, ?_, ?_, ?_, hadj.2, hadj.1⟩
    · unfold HLPPHeuristic.discharge
      rw [hsc]
      simp only
      rw [if_pos hc]
    · intro x hx
      show (HLPPHeuristic.relabel n st0 (HLPPHeuristic.topNode st)).height.getD x 0 = _
      rw [k1, getD_set_height _ _ _ (by rw [r2.pre.len_h]; exact a1), if_neg hx]
    · show (HLPPHeuristic.relabel n st0 (HLPPHeuristic.topNode st)).height.getD _ 0 = _
      rw [k1, getD_set_height _ _ _ (by rw [r2.pre.len_h]; exact a1), if_pos rfl]

/-- The diamond network of the specification with fuel 2200. -/
theorem heuristic_gap_step_frame_witness :
    ∃ st', HLPPHeuristic.flow 4 0 (4 - 1) 2200
        (HLPPHeuristic.init 4 0 (4 - 1) [(0, 1, 3), (0, 2, 2), (1, 3, 2), (2, 3, 3)]) =
        some (st'.excess.getD (4 - 1) 0, st') :=
  (heuristic_gap_step_frame 4 [(0, 1, 3), (0, 2, 2), (1, 3, 2), (2, 3, 3)]
    (by decide)
    (by intro e he; simp at he; rcases he with h | h | h | h <;> subst h <;> decide)
    (by decide) 2200 (by decide)).1

/-- C29: in the heuristic HLPP, on every network with `n >= 2` whose source capacity is at
most `2^60 + 5`, with enough fuel, during `flow()`: in every state at the head of the inner
loop, in every state inside `discharge`, in the state in which any `discharge` ends (where
the gap branch or `relabel` may just have raised nodes to height `n`) and in the state in
which `flow()` ends, no node of height `n` has a path to the sink along arcs of positive
residual capacity; and no height ever goes down from one state at the head of the loop to a
later one, through `discharge` or through `globalRelabel`, so that a node that is at height
`n` stays at height `n` (heights are at most `n`) and stays without a path to the sink. -/
theorem heuristic_height_n_is_disconnected (n : Nat) (edges : List InEdge) (hn : 2 ≤ n)
    (hr : InRange n edges)
    (hcapS : capSum (arcs (buildPreflow n 0 (n - 1) edges) 0) ≤ SOURCE_EXCESS)
    (fuel : Nat) (hfuel : HLPPHeuristic.heurFuel (buildPreflow n 0 (n - 1) edges) n 0 < fuel) :
    (∃ st', HLPPHeuristic.flow n 0 (n - 1) fuel (HLPPHeuristic.init n 0 (n - 1) edges) =
        some (st'.excess.getD (n - 1) 0, st') ∧
      ∀ x, st'.height.getD x 0 = n → ¬ Reach st'.adj x (n - 1)) ∧
    (∀ st, HLPPHeuristic.AtLoopHead n 0 (n - 1) fuel edges st →
      (∀ x, st.height.getD x 0 ≤ n) ∧
      (∀ x, st.height.getD x 0 = n → ¬ Reach st.adj x (n - 1)) ∧
      (∀ st', HLPPHeuristic.LaterHead n 0 (n - 1) fuel st st' →
        HLPPHeuristic.AtLoopHead n 0 (n - 1) fuel edges st' ∧
        (∀ x, st.height.getD x 0 ≤ st'.height.getD x 0) ∧
        ∀ x, st.height.getD x 0 = n →
          st'.height.getD x 0 = n ∧ ¬ Reach st'.adj x (n - 1)) ∧
      (st.buckets.getD st.max_height.toNat [] ≠ [] →
        ∃ st1, HLPPHeuristic.discharge n fuel (HLPPHeuristic.popped st)
            (HLPPHeuristic.topNode st) = some st1 ∧
          (∀ x, st.height.getD x 0 ≤ st1.height.getD x 0) ∧
          (∀ x, st1.height.getD x 0 = n → ¬ Reach st1.adj x (n - 1)) ∧
          ∃ st2, HLPPHeuristic.globalRelabel n 0 (n - 1) fuel st1 = some st2 ∧
            st2.adj = st1.adj ∧ (∀ x, st1.height.getD x 0 ≤ st2.height.getD x 0) ∧
            ∀ x, st2.height.getD x 0 = n → ¬ Reach st2.adj x (n - 1))) ∧
    (∀ st v, HLPPHeuristic.InScan n 0 (n - 1) fuel edges st v →
      ∀ x, st.height.getD x 0 = n → ¬ Reach st.adj x (n - 1)) := by
  obtain ⟨st', f1, f2, f3, _⟩ := HLPPHeuristic.heur_flow_spec n 0 (n - 1) edges hr (by omega)
    (by omega) (by omega) hcapS fuel hfuel
  obtain ⟨hF, hF2⟩ := HLPPHeuristic.heurFuel_covers n 0 (n - 1) edges hr fuel hfuel
  have hs : 0 < n := by omega
  have ht : n - 1 < n := by omega
  refine ⟨⟨st', f1, fun x hx => f2.no_path_of_top hs ht f3 x hx⟩, ?_, ?_⟩
  · intro st hst
    obtain ⟨hI, hsv, hL⟩ := HLPPHeuristic.heur_atLoopHead_inv n 0 (n - 1) edges hr hs ht
      (by omega) hcapS fuel hF hF2 st hst
    refine ⟨hI.pre.h_le, fun x hx => hI.pre.no_path_of_top hs ht hsv x hx, ?_, ?_⟩
    · intro st2 hl
      obtain ⟨l1, l2⟩ := HLPPHeuristic.heur_laterHead_spec n 0 (n - 1) edges hr hs ht
        (by omega) hcapS fuel hF hF2 st hst st2 hl
      obtain ⟨hI2, hsv2, _⟩ := HLPPHeuristic.heur_atLoopHead_inv n 0 (n - 1) edges hr hs ht
        (by omega) hcapS fuel hF hF2 st2 l1
      refine ⟨l1, l2, ?_⟩
      intro x hx
      have hxn : st2.height.getD x 0 = n := by
        have := l2 x
        have := hI2.pre.h_le x
        omega
      exact ⟨hxn, hI2.pre.no_path_of_top hs ht hsv2 x hxn⟩
    · intro hemp
      obtain ⟨st1, d1, d2, d3, d4, st2, g1, g2, g3, g4, _, g6⟩ :=
        HLPPHeuristic.heur_body_spec n 0 (n - 1) edges hr hs ht (by omega) hcapS fuel hF hF2
          st hst hemp
      exact ⟨st1, d1, d4, fun x hx => d2.pre.no_path_of_top hs ht d3 x hx, st2, g1, g4, g6,
        fun x hx => g2.pre.no_path_of_top hs ht g3 x hx⟩
  · intro st v hsc x hx
    obtain ⟨hI, hsv, _⟩ := HLPPHeuristic.heur_inScan_inv n 0 (n - 1) edges hr hs ht
      (by omega) hcapS fuel hF hF2 st v hsc
    exact hI.pre.no_path_of_top hs ht hsv x hx

/-- The diamond network of the specification with fuel 2200. -/
theorem heuristic_height_n_is_disconnected_witness :
    ∃ st', HLPPHeuristic.flow 4 0 (4 - 1) 2200
        (HLPPHeuristic.init 4 0 (4 - 1) [(0, 1, 3), (0, 2, 2), (1, 3, 2), (2, 3, 3)]) =
        some (st'.excess.getD (4 - 1) 0, st') ∧
      ∀ x, st'.height.getD x 0 = 4 → ¬ Reach st'.adj x (4 - 1) :=
  (heuristic_height_n_is_disconnected 4 [(0, 1, 3), (0, 2, 2), (1, 3, 2), (2, 3, 3)]
    (by decide)
    (by intro e he; simp at he; rcases he with h | h | h | h <;> subst h <;> decide)
    (by decide) 2200 (by decide)).1

namespace FIFOPP

end FIFOPP

namespace FIFOPP

end FIFOPP

namespace Residual

end Residual

namespace HLPP

end HLPP

namespace Residual

end Residual

namespace Residual

end Residual

namespace Residual

end Residual

namespace Residual

/-- The heights computed by the backward search from the sink are exact: a node has a
height below `n` exactly when it has a path to the sink along arcs of positive residual
capacity, and the height is then the number of arcs of a shortest such path. -/
theorem revBfs_exact {adj : Adj} {n t : Nat} (hp : Paired adj) (hlen : adj.length = n)
    (ht : t < n) (fuel : Nat) (hfuel : 2 * n < fuel) :
    ∃ H, revBfsWhile n adj fuel ((List.replicate n n).set t 0) [t] = some H ∧
      H.length = n ∧ H.getD t 0 = 0 ∧ (∀ x, H.getD x 0 ≤ n) ∧ ValidAll adj H ∧
      (∀ x, Reach adj x t ↔ x < n ∧ H.getD x 0 < n) ∧
      (∀ x, x < n → H.getD x 0 < n → IsDist adj x t (H.getD x 0)) := by
  have hg : ∀ x, ((List.replicate n n).set t 0).getD x 0 =
      if x = t then 0 else if x < n then n else 0 := by
    intro x
    rw [getD_set_height _ _ _ (by simp; exact ht), getD_replicate_eq]
  have hc0 : RevCore adj n t ((List.replicate n n).set t 0) [t] := by
    refine ⟨by simp, by rw [hg, if_pos rfl], ?_, List.nodup_singleton _, ?_, ?_, ?_, ?_, ?_⟩
    · intro x
      rw [List.mem_singleton, hg]
      constructor
      · intro h
        rw [h, if_pos rfl]
        exact ⟨ht, by omega⟩
      · rintro ⟨h1, h2⟩
        by_contra hx
        rw [if_neg hx, if_pos h1] at h2
        omega
    · intro x hx
      rw [List.mem_singleton] at hx
      rw [hx, hg, if_pos rfl]
      simp
    · intro x
      rw [hg]
      split_ifs <;> omega
    · intro x hxn hxt
      rw [hg, if_neg hxt, if_pos hxn]
      omega
    · intro x hx
      rw [List.mem_singleton] at hx
      rw [hx]
      exact Reach.refl
    · intro x hx
      rw [List.mem_singleton] at hx
      rw [hx, hg, if_pos rfl]
      exact ReachIn.refl
  have hq0 : RevQueue adj ((List.replicate n n).set t 0) [t] [t] := by
    refine ⟨fun y hy => hy, List.nodup_singleton _, List.pairwise_singleton _ _, ?_, ?_⟩
    · intro x hx y hy
      rw [List.mem_singleton] at hx hy
      rw [hx, hy]
      omega
    · intro x hx hxq
      exact absurd hx hxq
  obtain ⟨H, seen, e1, e2, e3⟩ := revBfsWhile_spec hp hlen fuel _ [t] [t] hc0 hq0 (by
    simp only [List.length_singleton]
    omega)
  have hval : ValidAll adj H := by
    intro x j hj hcap
    obtain ⟨p1, p2, p3, p4, p5⟩ := hp x j hj
    rw [hlen] at p1
    by_cases hv : (arc adj x j).dst ∈ seen
    · have hd := e3.done _ hv (List.not_mem_nil _) (arc adj x j).rev p3 (by
        unfold pairCap
        rw [p4, p5]
        exact hcap)
      rw [p4] at hd
      exact hd.2
    · have h1 : ¬ H.getD (arc adj x j).dst 0 < n := fun c => hv ((e2.seen_iff _).mpr ⟨p1, c⟩)
      have := e2.h_le x
      omega
  have hclosed : ∀ x j, j < (arcs adj x).length → 0 < (arc adj x j).cap →
      (arc adj x j).dst ∈ seen → x ∈ seen := by
    intro x j hj hcap hv
    obtain ⟨p1, p2, p3, p4, p5⟩ := hp x j hj
    have hd := e3.done _ hv (List.not_mem_nil _) (arc adj x j).rev p3 (by
      unfold pairCap
      rw [p4, p5]
      exact hcap)
    rw [p4] at hd
    exact hd.1
  have hts : t ∈ seen := (e2.seen_iff t).mpr ⟨ht, by rw [e2.ht]; omega⟩
  have hreach : ∀ x, Reach adj x t → x ∈ seen := by
    intro x hr
    have key : ∀ y, Reach adj x y → y ∈ seen → x ∈ seen := by
      intro y hy
      induction hy with
      | refl => exact fun h => h
      | step v i _ hi hcap ih => exact fun h => ih (hclosed v i hi hcap h)
    exact key t hr hts
  refine ⟨H, e1, e2.len, e2.ht, e2.h_le, hval, ?_, ?_⟩
  · intro x
    constructor
    · intro hr
      exact (e2.seen_iff x).mp (hreach x hr)
    · intro hx
      exact e2.sound x ((e2.seen_iff x).mpr hx)
  · intro x hx hxl
    refine ⟨e2.dist x ((e2.seen_iff x).mpr ⟨hx, hxl⟩), ?_⟩
    intro k hk
    have := hval.le_of_reachIn hk
    rw [e2.ht] at this
    omega

end Residual


namespace FIFOPP

/-- The loop over the arcs of the source, seen from the other nodes: no capacity of an arc
that leaves another node decreases, an arc of the source towards a node that is not below
the source is left alone, and, while the source excess covers the capacities, the excess
of a node grows by the capacities of the arcs pushed into it. -/
theorem fifopp_pushAll_frame {A0 : Adj} {n s t : Nat} (hs : s < n) :
    ∀ (is : List Nat) (st : State), Inv A0 n s t n st → is.Nodup →
      (∀ i ∈ is, i < (arcs st.adj s).length) →
      (∀ x j, x ≠ s → (arc st.adj x j).cap ≤
        (arc (is.foldl (fun st1 i => push s t st1 s i) st).adj x j).cap) ∧
      (∀ i ∈ is, st.height.getD s 0 ≤ st.height.getD (arc st.adj s i).dst 0 →
        arc (is.foldl (fun st1 i => push s t st1 s i) st).adj s i = arc st.adj s i) ∧
      (capSum (arcs A0 s) ≤ SOURCE_EXCESS → ∀ x, x ≠ s →
        (is.foldl (fun st1 i => push s t st1 s i) st).excess.getD x 0 =
          st.excess.getD x 0 + (is.map (fun i =>
            if (arc st.adj s i).dst = x ∧ st.height.getD x 0 < st.height.getD s 0 then
              (arc st.adj s i).cap else 0)).sum) := by
  intro is
  induction is with
  | nil =>
    intro st hI _ _
    refine ⟨fun _ _ _ => le_refl _, fun i hi => absurd hi (List.not_mem_nil _), ?_⟩
    intro _ x _
    simp
  | cons i is ih =>
    intro st hI hnd his
    rw [List.nodup_cons] at hnd
    have hi := his i (List.mem_cons_self _ _)
    obtain ⟨q1, q2, q3, q4, q5, q6, q7, q8, q9⟩ := fifopp_push_spec hI s hs
      (Or.inr ⟨rfl, le_refl _⟩) i hi
    have hlen1 : (arcs (push s t st s i).adj s).length = (arcs st.adj s).length := by
      rw [q1.pre.net.length_arcs, ← hI.pre.net.length_arcs]
    have his1 : ∀ j ∈ is, j < (arcs (push s t st s i).adj s).length := by
      intro j hj
      rw [hlen1]
      exact his j (List.mem_cons_of_mem _ hj)
    obtain ⟨r1, r2, r3⟩ := ih (push s t st s i) q1 hnd.2 his1
    obtain ⟨_, _, _, u4, _⟩ := fifopp_pushAll_spec (t := t) hs is (push s t st s i) q1 hnd.2 his1
    rw [List.foldl_cons]
    have hdst : ∀ j, (arc (push s t st s i).adj s j).dst = (arc st.adj s j).dst := by
      intro j
      rw [q1.pre.net.dst_eq, ← hI.pre.net.dst_eq]
    have hpa := hI.pre.net.paired hI.pre.paired0
    obtain ⟨p1, p2, p3, p4, p5⟩ := hpa s i hi
    rw [hI.pre.net.length_eq, hI.pre.len0] at p1
    have hcn := hI.pre.net.nonneg s i hi
    refine ⟨?_, ?_, ?_⟩
    · intro x j hx
      refine le_trans ?_ (r1 x j hx)
      rw [push_eq]
      split
      · exact le_refl _
      · next hg =>
        show (arc st.adj x j).cap ≤ (arc (pushFlow st.adj s i _) x j).cap
        rw [cap_pushFlow hpa s i _ hi, if_neg (fun c => hx c.1)]
        have hd0 : 0 < min (st.excess.getD s 0) (arc st.adj s i).cap := by
          by_contra c
          exact hg (Or.inl (by omega))
        split <;> omega
    · intro j hj hh
      rcases List.mem_cons.mp hj with h | h
      · rw [h] at hh ⊢
        rw [u4 i hnd.1, push_eq, if_pos (Or.inr hh)]
      · have hji : j ≠ i := fun c => hnd.1 (c ▸ h)
        rw [r2 j h (by rw [q3, hdst]; exact hh)]
        exact q8 j hji
    · intro hcap x hx
      rw [r3 hcap x hx, List.map_cons, List.sum_cons, q3]
      have hsum : (is.map (fun j =>
          if (arc (push s t st s i).adj s j).dst = x ∧
              st.height.getD x 0 < st.height.getD s 0 then
            (arc (push s t st s i).adj s j).cap else 0)) =
          (is.map (fun j =>
          if (arc st.adj s j).dst = x ∧ st.height.getD x 0 < st.height.getD s 0 then
            (arc st.adj s j).cap else 0)) := by
        apply List.map_congr_left
        intro j hj
        have hji : j ≠ i := fun c => hnd.1 (c ▸ hj)
        show (if (arc (push s t st s i).adj s j).dst = x ∧
            st.height.getD x 0 < st.height.getD s 0 then
          (arc (push s t st s i).adj s j).cap else 0) = _
        rw [q8 j hji]
      rw [hsum]
      have hcov := hI.pre.source_covers hcap i hi
      have hstep : (push s t st s i).excess.getD x 0 = st.excess.getD x 0 +
          (if (arc st.adj s i).dst = x ∧ st.height.getD x 0 < st.height.getD s 0 then
            (arc st.adj s i).cap else 0) := by
        rw [push_eq]
        by_cases hg : min (st.excess.getD s 0) (arc st.adj s i).cap ≤ 0 ∨
            st.height.getD s 0 ≤ st.height.getD (arc st.adj s i).dst 0
        · rw [if_pos hg]
          by_cases hc : (arc st.adj s i).dst = x ∧ st.height.getD x 0 < st.height.getD s 0
          · rw [if_pos hc]
            rcases hg with h1 | h1
            · rw [min_eq_right hcov] at h1
              omega
            · rw [hc.1] at h1
              omega
          · rw [if_neg hc]
            omega
        · rw [if_neg hg]
          have hh : st.height.getD (arc st.adj s i).dst 0 < st.height.getD s 0 := by
            by_contra c
            exact hg (Or.inr (by omega))
          show (moveExcess st.excess s (arc st.adj s i).dst
            (min (st.excess.getD s 0) (arc st.adj s i).cap)).getD x 0 = _
          rw [getD_moveExcess st.excess s _ _ (fun c => p2 c.symm)
            (by rw [hI.pre.len_ex]; exact hs) (by rw [hI.pre.len_ex]; exact p1),
            if_neg hx, min_eq_right hcov]
          by_cases hc : (arc st.adj s i).dst = x
          · rw [if_pos hc.symm, if_pos ⟨hc, by rw [← hc]; exact hh⟩]
            omega
          · rw [if_neg (fun c => hc c.symm), if_neg (fun c => hc c.1)]
            omega
      rw [hstep]
      omega

end FIFOPP

namespace HLPP

/-- The loop over the arcs of the source, seen from the other nodes: no capacity of an arc
that leaves another node decreases, an arc of the source towards a node that is not below
the source is left alone, and, while the source excess covers the capacities, the excess
of a node grows by the capacities of the arcs pushed into it. -/
theorem hlpp_pushAll_frame {A0 : Adj} {n s t : Nat} (hs : s < n) :
    ∀ (is : List Nat) (st : State), Inv A0 n s t n st → is.Nodup →
      (∀ i ∈ is, i < (arcs st.adj s).length) →
      (∀ x j, x ≠ s → (arc st.adj x j).cap ≤
        (arc (is.foldl (fun st1 i => push s t st1 s i) st).adj x j).cap) ∧
      (∀ i ∈ is, st.height.getD s 0 ≤ st.height.getD (arc st.adj s i).dst 0 →
        arc (is.foldl (fun st1 i => push s t st1 s i) st).adj s i = arc st.adj s i) ∧
      (capSum (arcs A0 s) ≤ SOURCE_EXCESS → ∀ x, x ≠ s →
        (is.foldl (fun st1 i => push s t st1 s i) st).excess.getD x 0 =
          st.excess.getD x 0 + (is.map (fun i =>
            if (arc st.adj s i).dst = x ∧ st.height.getD x 0 < st.height.getD s 0 then
              (arc st.adj s i).cap else 0)).sum) := by
  intro is
  induction is with
  | nil =>
    intro st hI _ _
    refine ⟨fun _ _ _ => le_refl _, fun i hi => absurd hi (List.not_mem_nil _), ?_⟩
    intro _ x _
    simp
  | cons i is ih =>
    intro st hI hnd his
    rw [List.nodup_cons] at hnd
    have hi := his i (List.mem_cons_self _ _)
    obtain ⟨q1, q2, q3, q4, q5, q6, q7, q8, q9⟩ := hlpp_push_spec hI s hs
      (Or.inr ⟨rfl, le_refl _⟩) i hi
    have hlen1 : (arcs (push s t st s i).adj s).length = (arcs st.adj s).length := by
      rw [q1.pre.net.length_arcs, ← hI.pre.net.length_arcs]
    have his1 : ∀ j ∈ is, j < (arcs (push s t st s i).adj s).length := by
      intro j hj
      rw [hlen1]
      exact his j (List.mem_cons_of_mem _ hj)
    obtain ⟨r1, r2, r3⟩ := ih (push s t st s i) q1 hnd.2 his1
    obtain ⟨_, _, _, u4, _⟩ := hlpp_pushAll_spec (t := t) hs is (push s t st s i) q1 hnd.2 his1
    rw [List.foldl_cons]
    have hdst : ∀ j, (arc (push s t st s i).adj s j).dst = (arc st.adj s j).dst := by
      intro j
      rw [q1.pre.net.dst_eq, ← hI.pre.net.dst_eq]
    have hpa := hI.pre.net.paired hI.pre.paired0
    obtain ⟨p1, p2, p3, p4, p5⟩ := hpa s i hi
    rw [hI.pre.net.length_eq, hI.pre.len0] at p1
    have hcn := hI.pre.net.nonneg s i hi
    refine ⟨?_, ?_, ?_⟩
    · intro x j hx
      refine le_trans ?_ (r1 x j hx)
      rw [hlpp_push_eq]
      split
      · exact le_refl _
      · next hg =>
        show (arc st.adj x j).cap ≤ (arc (pushFlow st.adj s i _) x j).cap
        rw [cap_pushFlow hpa s i _ hi, if_neg (fun c => hx c.1)]
        have hd0 : 0 < min (st.excess.getD s 0) (arc st.adj s i).cap := by
          by_contra c
          exact hg (Or.inl (by omega))
        split <;> omega
    · intro j hj hh
      rcases List.mem_cons.mp hj with h | h
      · rw [h] at hh ⊢
        rw [u4 i hnd.1, hlpp_push_eq, if_pos (Or.inr hh)]
      · have hji : j ≠ i := fun c => hnd.1 (c ▸ h)
        rw [r2 j h (by rw [q3, hdst]; exact hh)]
        exact q8 j hji
    · intro hcap x hx
      rw [r3 hcap x hx, List.map_cons, List.sum_cons, q3]
      have hsum : (is.map (fun j =>
          if (arc (push s t st s i).adj s j).dst = x ∧
              st.height.getD x 0 < st.height.getD s 0 then
            (arc (push s t st s i).adj s j).cap else 0)) =
          (is.map (fun j =>
          if (arc st.adj s j).dst = x ∧ st.height.getD x 0 < st.height.getD s 0 then
            (arc st.adj s j).cap else 0)) := by
        apply List.map_congr_left
        intro j hj
        have hji : j ≠ i := fun c => hnd.1 (c ▸ hj)
        show (if (arc (push s t st s i).adj s j).dst = x ∧
            st.height.getD x 0 < st.height.getD s 0 then
          (arc (push s t st s i).adj s j).cap else 0) = _
        rw [q8 j hji]
      rw [hsum]
      have hcov := hI.pre.source_covers hcap i hi
      have hstep : (push s t st s i).excess.getD x 0 = st.excess.getD x 0 +
          (if (arc st.adj s i).dst = x ∧ st.height.getD x 0 < st.height.getD s 0 then
            (arc st.adj s i).cap else 0) := by
        rw [hlpp_push_eq]
        by_cases hg : min (st.excess.getD s 0) (arc st.adj s i).cap ≤ 0 ∨
            st.height.getD s 0 ≤ st.height.getD (arc st.adj s i).dst 0
        · rw [if_pos hg]
          by_cases hc : (arc st.adj s i).dst = x ∧ st.height.getD x 0 < st.height.getD s 0
          · rw [if_pos hc]
            rcases hg with h1 | h1
            · rw [min_eq_right hcov] at h1
              omega
            · rw [hc.1] at h1
              omega
          · rw [if_neg hc]
            omega
        · rw [if_neg hg]
          have hh : st.height.getD (arc st.adj s i).dst 0 < st.height.getD s 0 := by
            by_contra c
            exact hg (Or.inr (by omega))
          show (moveExcess st.excess s (arc st.adj s i).dst
            (min (st.excess.getD s 0) (arc st.adj s i).cap)).getD x 0 = _
          rw [getD_moveExcess st.excess s _ _ (fun c => p2 c.symm)
            (by rw [hI.pre.len_ex]; exact hs) (by rw [hI.pre.len_ex]; exact p1),
            if_neg hx, min_eq_right hcov]
          by_cases hc : (arc st.adj s i).dst = x
          · rw [if_pos hc.symm, if_pos ⟨hc, by rw [← hc]; exact hh⟩]
            omega
          · rw [if_neg (fun c => hc c.symm), if_neg (fun c => hc c.1)]
            omega
      rw [hstep]
      omega

end HLPP

namespace FIFOPP

/-- The state left by `preprocess` on a freshly built network: the heights other than that
of the source are the distances to the sink in the fresh network, the loop over the arcs of
the source lowers no capacity of an arc that leaves another node and leaves the arcs towards
nodes of height `n` alone; while the source excess covers the capacities of the arcs of the
source, it saturates the other arcs of the source and the excess of a node is the capacity
of the arcs pushed into it. -/
theorem fifopp_preprocess_exact (n s t : Nat) (edges : List InEdge) (hr : InRange n edges)
    (hs : s < n) (ht : t < n) (hst : s ≠ t) (fuel : Nat) (hfuel : 2 * n < fuel) :
    ∃ st1, preprocess n s t fuel (init n s t edges) = some st1 ∧
      Inv (buildPreflow n s t edges) n s t n st1 ∧
      (∀ x, st1.height.getD x 0 ≤ n) ∧
      (∀ x, x ≠ s → (Reach (buildPreflow n s t edges) x t ↔ x < n ∧ st1.height.getD x 0 < n)) ∧
      (∀ x, x ≠ s → x < n → st1.height.getD x 0 < n →
        IsDist (buildPreflow n s t edges) x t (st1.height.getD x 0)) ∧
      (∀ x j, x ≠ s → (arc (buildPreflow n s t edges) x j).cap ≤ (arc st1.adj x j).cap) ∧
      (∀ i, i < (arcs (buildPreflow n s t edges) s).length →
        n ≤ st1.height.getD (arc (buildPreflow n s t edges) s i).dst 0 →
        arc st1.adj s i = arc (buildPreflow n s t edges) s i) ∧
      (capSum (arcs (buildPreflow n s t edges) s) ≤ SOURCE_EXCESS →
        SrcValid st1.adj st1.height s ∧
        (∀ i, i < (arcs (buildPreflow n s t edges) s).length →
          st1.height.getD (arc (buildPreflow n s t edges) s i).dst 0 < n →
          (arc st1.adj s i).cap = 0) ∧
        (∀ x, x ≠ s → st1.excess.getD x 0 =
          ((List.range (arcs (buildPreflow n s t edges) s).length).map (fun i =>
            if (arc (buildPreflow n s t edges) s i).dst = x ∧ st1.height.getD x 0 < n then
              (arc (buildPreflow n s t edges) s i).cap else 0)).sum)) := by
  have hinv := buildWith_inv (keptPreflow s t) (keptPreflow_ne s t) n edges hr 0
  rw [← buildPreflow_eq_buildWith] at hinv
  have hnet : NetInv (buildPreflow n s t edges) (buildPreflow n s t edges) := by
    rw [buildPreflow_eq_buildWith]
    exact netInv_buildWith _ (keptPreflow_ne s t) (keptPreflow_cap s t) n edges hr
  obtain ⟨H, b1, b2, b3, b4, b5, b6, _⟩ := revBfs_heights hinv.2.1 hinv.1 ht fuel hfuel
  have hwhile : preprocessWhile n fuel
      { init n s t edges with
        height := (List.replicate (init n s t edges).height.length n).set t 0 } [t] =
      some { init n s t edges with height := H } := by
    rw [preprocessWhile_eq]
    show (revBfsWhile n (buildPreflow n s t edges) fuel
      ((List.replicate (List.replicate n 0).length n).set t 0) [t]).map _ = _
    rw [List.length_replicate, b1]
    rfl
  have hgH := getD_set_height H s n (by rw [b2]; exact hs)
  have hex : ∀ x, ((List.replicate n (0 : Int)).set s SOURCE_EXCESS).getD x 0 =
      if x = s then SOURCE_EXCESS else 0 := by
    intro x
    rw [getD_set_eq, getD_replicate_eq]
    by_cases hx : x = s
    · rw [if_pos ⟨hx, by simp; exact hs⟩, if_pos hx]
    · rw [if_neg (fun c => hx c.1), if_neg hx]
      split <;> rfl
  have hI0 : Inv (buildPreflow n s t edges) n s t n
      (State.mk (buildPreflow n s t edges) (H.set s n) (List.replicate n 0)
        ((List.replicate n 0).set s SOURCE_EXCESS) [] [buildPreflow n s t edges]) := by
    refine ⟨⟨hinv.2.1, hinv.1, hnet, hnet, by simp [b2], by simp, ?_, ?_, ?_, ?_, ?_, ?_, ?_⟩,
      by simp, ?_, ?_, ?_, List.nodup_nil, List.not_mem_nil _, ?_⟩
    · intro v
      show ((List.replicate n (0 : Int)).set s SOURCE_EXCESS).getD v 0 = _
      rw [hex, excessOf_self]
      simp
    · intro v
      show 0 ≤ ((List.replicate n (0 : Int)).set s SOURCE_EXCESS).getD v 0
      rw [hex]
      split
      · decide
      · exact le_refl _
    · show (H.set s n).getD s 0 = n
      rw [hgH, if_pos rfl]
    · show (H.set s n).getD t 0 = 0
      rw [hgH, if_neg (fun c => hst c.symm)]
      exact b3
    · intro v hv hvt
      show 1 ≤ (H.set s n).getD v 0
      rw [hgH]
      split
      · omega
      · exact b5 v hv hvt
    · intro v
      show (H.set s n).getD v 0 ≤ 2 * n
      rw [hgH]
      have := b4 v
      split <;> omega
    · intro v i hvs hi hcap
      have hi' : i < (arcs (buildPreflow n s t edges) v).length := hi
      have hcap' : 0 < (arc (buildPreflow n s t edges) v i).cap := hcap
      show (H.set s n).getD v 0 ≤
        (H.set s n).getD (arc (buildPreflow n s t edges) v i).dst 0 + 1
      rw [hgH, hgH, if_neg hvs]
      have := b6 v i hi' hcap'
      have := b4 v
      split <;> omega
    · intro v i hi _
      simp only [getD_replicate_eq] at hi
      split at hi <;> omega
    · intro a ha
      rw [List.mem_singleton] at ha
      rw [ha]
      exact hnet
    · intro v hv
      exact absurd hv (List.not_mem_nil _)
    · intro v hv hvs hvt hpos
      simp only at hpos
      rw [hex, if_neg hvs] at hpos
      omega
  obtain ⟨r1, r2, r3, r4, r5⟩ := fifopp_pushAll_spec (t := t) hs
    (List.range (arcs (buildPreflow n s t edges) s).length) _ hI0 (List.nodup_range _)
    (fun i hi => List.mem_range.mp hi)
  obtain ⟨f1, f2, f3⟩ := fifopp_pushAll_frame (t := t) hs
    (List.range (arcs (buildPreflow n s t edges) s).length) _ hI0 (List.nodup_range _)
    (fun i hi => List.mem_range.mp hi)
  obtain ⟨H2, c1, c2, c3, c4, c5, c6, c7⟩ := revBfs_exact hinv.2.1 hinv.1 ht fuel hfuel
  have hHH : H2 = H := Option.some.inj (c1.symm.trans b1)
  rw [hHH] at c6 c7
  have hsn : (H.set s n).getD s 0 = n := by rw [hgH, if_pos rfl]
  have hpre : preprocess n s t fuel (init n s t edges) = some
      (List.foldl (fun st1 i => push s t st1 s i)
        (State.mk (buildPreflow n s t edges) (H.set s n) (List.replicate n 0)
          ((List.replicate n 0).set s SOURCE_EXCESS) [] [buildPreflow n s t edges])
        (List.range (arcs (buildPreflow n s t edges) s).length)) := by
    unfold preprocess
    rw [hwhile]
    rfl
  refine ⟨_, hpre, r1, ?_, ?_, ?_, ?_, ?_, ?_⟩
  · intro x
    rw [r2]
    show (H.set s n).getD x 0 ≤ n
    rw [hgH]
    have := b4 x
    split <;> omega
  · intro x hx
    rw [r2]
    show _ ↔ x < n ∧ (H.set s n).getD x 0 < n
    rw [hgH, if_neg hx]
    exact c6 x
  · intro x hx hxn
    rw [r2]
    show (H.set s n).getD x 0 < n → IsDist _ x t ((H.set s n).getD x 0)
    rw [hgH, if_neg hx]
    exact c7 x hxn
  · intro x j hx
    exact f1 x j hx
  · intro i hi hh
    rw [r2] at hh
    have hh2 : n ≤ (H.set s n).getD (arc (buildPreflow n s t edges) s i).dst 0 := hh
    exact f2 i (List.mem_range.mpr hi) (by
      show (H.set s n).getD s 0 ≤ (H.set s n).getD (arc (buildPreflow n s t edges) s i).dst 0
      rw [hsn]
      exact hh2)
  · intro hcap
    refine ⟨?_, ?_, ?_⟩
    · intro i hi hpos
      rw [r2]
      have hlen1 := r1.pre.net.length_arcs s
      rw [hlen1, ← hnet.length_arcs] at hi
      have := r5 hcap i (List.mem_range.mpr hi) hpos
      rw [r1.pre.net.dst_eq s i]
      have h5 : (H.set s n).getD s 0 ≤
          (H.set s n).getD (arc (buildPreflow n s t edges) s i).dst 0 := this
      show (H.set s n).getD s 0 ≤
        (H.set s n).getD (arc (buildPreflow n s t edges) s i).dst 0 + 1
      omega
    · intro i hi hh
      rw [r2] at hh
      have hh2 : (H.set s n).getD (arc (buildPreflow n s t edges) s i).dst 0 < n := hh
      by_contra hne
      have hi1 : i < (arcs (List.foldl (fun st1 i => push s t st1 s i)
          (State.mk (buildPreflow n s t edges) (H.set s n) (List.replicate n 0)
          ((List.replicate n 0).set s SOURCE_EXCESS) [] [buildPreflow n s t edges])
          (List.range (arcs (buildPreflow n s t edges) s).length)).adj s).length := by
        rw [r1.pre.net.length_arcs, ← hnet.length_arcs]
        exact hi
      have hnn := r1.pre.net.nonneg s i hi1
      have := r5 hcap i (List.mem_range.mpr hi) (by omega)
      have h5 : (H.set s n).getD s 0 ≤
          (H.set s n).getD (arc (buildPreflow n s t edges) s i).dst 0 := this
      omega
    · intro x hx
      rw [f3 hcap x hx, r2]
      show ((List.replicate n (0 : Int)).set s SOURCE_EXCESS).getD x 0 + _ = _
      rw [hex, if_neg hx, zero_add]
      apply congrArg
      apply List.map_congr_left
      intro i _
      show (if (arc (buildPreflow n s t edges) s i).dst = x ∧
          (H.set s n).getD x 0 < (H.set s n).getD s 0 then
        (arc (buildPreflow n s t edges) s i).cap else 0) = _
      rw [hsn]

end FIFOPP

namespace HLPP

/-- The state left by `preprocess` on a freshly built network: the heights other than that
of the source are the distances to the sink in the fresh network, the loop over the arcs of
the source lowers no capacity of an arc that leaves another node and leaves the arcs towards
nodes of height `n` alone; while the source excess covers the capacities of the arcs of the
source, it saturates the other arcs of the source and the excess of a node is the capacity
of the arcs pushed into it. -/
theorem hlpp_preprocess_exact (n s t : Nat) (edges : List InEdge) (hr : InRange n edges)
    (hs : s < n) (ht : t < n) (hst : s ≠ t) (fuel : Nat) (hfuel : 2 * n < fuel) :
    ∃ st1, preprocess n s t fuel (init n s t edges) = some st1 ∧
      Inv (buildPreflow n s t edges) n s t n st1 ∧
      (∀ x, st1.height.getD x 0 ≤ n) ∧
      (∀ x, x ≠ s → (Reach (buildPreflow n s t edges) x t ↔ x < n ∧ st1.height.getD x 0 < n)) ∧
      (∀ x, x ≠ s → x < n → st1.height.getD x 0 < n →
        IsDist (buildPreflow n s t edges) x t (st1.height.getD x 0)) ∧
      (∀ x j, x ≠ s → (arc (buildPreflow n s t edges) x j).cap ≤ (arc st1.adj x j).cap) ∧
      (∀ i, i < (arcs (buildPreflow n s t edges) s).length →
        n ≤ st1.height.getD (arc (buildPreflow n s t edges) s i).dst 0 →
        arc st1.adj s i = arc (buildPreflow n s t edges) s i) ∧
      (capSum (arcs (buildPreflow n s t edges) s) ≤ SOURCE_EXCESS →
        SrcValid st1.adj st1.height s ∧
        (∀ i, i < (arcs (buildPreflow n s t edges) s).length →
          st1.height.getD (arc (buildPreflow n s t edges) s i).dst 0 < n →
          (arc st1.adj s i).cap = 0) ∧
        (∀ x, x ≠ s → st1.excess.getD x 0 =
          ((List.range (arcs (buildPreflow n s t edges) s).length).map (fun i =>
            if (arc (buildPreflow n s t edges) s i).dst = x ∧ st1.height.getD x 0 < n then
              (arc (buildPreflow n s t edges) s i).cap else 0)).sum)) := by
  have hinv := buildWith_inv (keptPreflow s t) (keptPreflow_ne s t) n edges hr 0
  rw [← buildPreflow_eq_buildWith] at hinv
  have hnet : NetInv (buildPreflow n s t edges) (buildPreflow n s t edges) := by
    rw [buildPreflow_eq_buildWith]
    exact netInv_buildWith _ (keptPreflow_ne s t) (keptPreflow_cap s t) n edges hr
  obtain ⟨H, b1, b2, b3, b4, b5, b6, _⟩ := revBfs_heights hinv.2.1 hinv.1 ht fuel hfuel
  have hwhile : preprocessWhile n fuel
      { init n s t edges with
        height := (List.replicate (init n s t edges).height.length n).set t 0 } [t] =
      some { init n s t edges with height := H } := by
    rw [hlpp_preprocessWhile_eq]
    show (revBfsWhile n (buildPreflow n s t edges) fuel
      ((List.replicate (List.replicate n 0).length n).set t 0) [t]).map _ = _
    rw [List.length_replicate, b1]
    rfl
  have hgH := getD_set_height H s n (by rw [b2]; exact hs)
  have hex : ∀ x, ((List.replicate n (0 : Int)).set s SOURCE_EXCESS).getD x 0 =
      if x = s then SOURCE_EXCESS else 0 := by
    intro x
    rw [getD_set_eq, getD_replicate_eq]
    by_cases hx : x = s
    · rw [if_pos ⟨hx, by simp; exact hs⟩, if_pos hx]
    · rw [if_neg (fun c => hx c.1), if_neg hx]
      split <;> rfl
  have hI0 : Inv (buildPreflow n s t edges) n s t n
      (State.mk (buildPreflow n s t edges) (H.set s n) (List.replicate n 0)
        ((List.replicate n 0).set s SOURCE_EXCESS) (List.replicate (2 * n) []) 0
        [buildPreflow n s t edges]) := by
    have hbe : ∀ h, (List.replicate (2 * n) ([] : List Nat)).getD h [] = [] := by
      intro h
      rw [getD_replicate_eq]
      split <;> rfl
    refine ⟨⟨hinv.2.1, hinv.1, hnet, hnet, by simp [b2], by simp, ?_, ?_, ?_, ?_, ?_, ?_, ?_⟩,
      by simp, ?_, ?_, by simp, ?_, ?_, ?_, ?_, fun h _ => hbe h, Nat.zero_le _⟩
    · intro v
      show ((List.replicate n (0 : Int)).set s SOURCE_EXCESS).getD v 0 = _
      rw [hex, excessOf_self]
      simp
    · intro v
      show 0 ≤ ((List.replicate n (0 : Int)).set s SOURCE_EXCESS).getD v 0
      rw [hex]
      split
      · decide
      · exact le_refl _
    · show (H.set s n).getD s 0 = n
      rw [hgH, if_pos rfl]
    · show (H.set s n).getD t 0 = 0
      rw [hgH, if_neg (fun c => hst c.symm)]
      exact b3
    · intro v hv hvt
      show 1 ≤ (H.set s n).getD v 0
      rw [hgH]
      split
      · omega
      · exact b5 v hv hvt
    · intro v
      show (H.set s n).getD v 0 ≤ 2 * n
      rw [hgH]
      have := b4 v
      split <;> omega
    · intro v i hvs hi hcap
      have hi' : i < (arcs (buildPreflow n s t edges) v).length := hi
      have hcap' : 0 < (arc (buildPreflow n s t edges) v i).cap := hcap
      show (H.set s n).getD v 0 ≤
        (H.set s n).getD (arc (buildPreflow n s t edges) v i).dst 0 + 1
      rw [hgH, hgH, if_neg hvs]
      have := b6 v i hi' hcap'
      have := b4 v
      split <;> omega
    · intro v i hi _
      simp only [getD_replicate_eq] at hi
      split at hi <;> omega
    · intro a ha
      rw [List.mem_singleton] at ha
      rw [ha]
      exact hnet
    · intro h v hv
      have hv' : v ∈ (List.replicate (2 * n) ([] : List Nat)).getD h [] := hv
      rw [hbe] at hv'
      exact absurd hv' (List.not_mem_nil _)
    · intro h
      show ((List.replicate (2 * n) ([] : List Nat)).getD h []).Nodup
      rw [hbe]
      exact List.nodup_nil
    · intro h c
      have c' : n ∈ (List.replicate (2 * n) ([] : List Nat)).getD h [] := c
      rw [hbe] at c'
      exact absurd c' (List.not_mem_nil _)
    · intro v hv hvs hvt hpos
      simp only at hpos
      rw [hex, if_neg hvs] at hpos
      omega
  obtain ⟨r1, r2, r3, r4, r5⟩ := hlpp_pushAll_spec (t := t) hs
    (List.range (arcs (buildPreflow n s t edges) s).length) _ hI0 (List.nodup_range _)
    (fun i hi => List.mem_range.mp hi)
  obtain ⟨f1, f2, f3⟩ := hlpp_pushAll_frame (t := t) hs
    (List.range (arcs (buildPreflow n s t edges) s).length) _ hI0 (List.nodup_range _)
    (fun i hi => List.mem_range.mp hi)
  obtain ⟨H2, c1, c2, c3, c4, c5, c6, c7⟩ := revBfs_exact hinv.2.1 hinv.1 ht fuel hfuel
  have hHH : H2 = H := Option.some.inj (c1.symm.trans b1)
  rw [hHH] at c6 c7
  have hsn : (H.set s n).getD s 0 = n := by rw [hgH, if_pos rfl]
  have hpre : preprocess n s t fuel (init n s t edges) = some
      (List.foldl (fun st1 i => push s t st1 s i)
        (State.mk (buildPreflow n s t edges) (H.set s n) (List.replicate n 0)
          ((List.replicate n 0).set s SOURCE_EXCESS) (List.replicate (2 * n) []) 0
          [buildPreflow n s t edges])
        (List.range (arcs (buildPreflow n s t edges) s).length)) := by
    unfold preprocess
    rw [hwhile]
    rfl
  refine ⟨_, hpre, r1, ?_, ?_, ?_, ?_, ?_, ?_⟩
  · intro x
    rw [r2]
    show (H.set s n).getD x 0 ≤ n
    rw [hgH]
    have := b4 x
    split <;> omega
  · intro x hx
    rw [r2]
    show _ ↔ x < n ∧ (H.set s n).getD x 0 < n
    rw [hgH, if_neg hx]
    exact c6 x
  · intro x hx hxn
    rw [r2]
    show (H.set s n).getD x 0 < n → IsDist _ x t ((H.set s n).getD x 0)
    rw [hgH, if_neg hx]
    exact c7 x hxn
  · intro x j hx
    exact f1 x j hx
  · intro i hi hh
    rw [r2] at hh
    have hh2 : n ≤ (H.set s n).getD (arc (buildPreflow n s t edges) s i).dst 0 := hh
    exact f2 i (List.mem_range.mpr hi) (by
      show (H.set s n).getD s 0 ≤ (H.set s n).getD (arc (buildPreflow n s t edges) s i).dst 0
      rw [hsn]
      exact hh2)
  · intro hcap
    refine ⟨?_, ?_, ?_⟩
    · intro i hi hpos
      rw [r2]
      have hlen1 := r1.pre.net.length_arcs s
      rw [hlen1, ← hnet.length_arcs] at hi
      have := r5 hcap i (List.mem_range.mpr hi) hpos
      rw [r1.pre.net.dst_eq s i]
      have h5 : (H.set s n).getD s 0 ≤
          (H.set s n).getD (arc (buildPreflow n s t edges) s i).dst 0 := this
      show (H.set s n).getD s 0 ≤
        (H.set s n).getD (arc (buildPreflow n s t edges) s i).dst 0 + 1
      omega
    · intro i hi hh
      rw [r2] at hh
      have hh2 : (H.set s n).getD (arc (buildPreflow n s t edges) s i).dst 0 < n := hh
      by_contra hne
      have hi1 : i < (arcs (List.foldl (fun st1 i => push s t st1 s i)
          (State.mk (buildPreflow n s t edges) (H.set s n) (List.replicate n 0)
          ((List.replicate n 0).set s SOURCE_EXCESS) (List.replicate (2 * n) []) 0
          [buildPreflow n s t edges])
          (List.range (arcs (buildPreflow n s t edges) s).length)).adj s).length := by
        rw [r1.pre.net.length_arcs, ← hnet.length_arcs]
        exact hi
      have hnn := r1.pre.net.nonneg s i hi1
      have := r5 hcap i (List.mem_range.mpr hi) (by omega)
      have h5 : (H.set s n).getD s 0 ≤
          (H.set s n).getD (arc (buildPreflow n s t edges) s i).dst 0 := this
      omega
    · intro x hx
      rw [f3 hcap x hx, r2]
      show ((List.replicate n (0 : Int)).set s SOURCE_EXCESS).getD x 0 + _ = _
      rw [hex, if_neg hx, zero_add]
      apply congrArg
      apply List.map_congr_left
      intro i _
      show (if (arc (buildPreflow n s t edges) s i).dst = x ∧
          (H.set s n).getD x 0 < (H.set s n).getD s 0 then
        (arc (buildPreflow n s t edges) s i).cap else 0) = _
      rw [hsn]

end HLPP

namespace Residual

end Residual

namespace Residual

end Residual

namespace HLPPHeuristic

end HLPPHeuristic

/-- C23, counterexample: on the network with `n = 3` and the single edge `0 -> 1` of
capacity 5, whose head has no path to the sink, initialization leaves the arc of the source
with residual capacity 5, its head without excess and no node scheduled, in `fifopp.cpp`,
in `hlpp.cpp` and in `hlpp_heuristic.cpp`. -/
theorem source_arc_to_dead_end_counterexample :
    (∃ st1, FIFOPP.preprocess 3 0 2 10 (FIFOPP.init 3 0 2 [(0, 1, 5)]) = some st1 ∧
      (arc st1.adj 0 0).dst = 1 ∧ (arc st1.adj 0 0).cap = 5 ∧ st1.excess.getD 1 0 = 0 ∧
      st1.active = []) ∧
    (∃ st1, HLPP.preprocess 3 0 2 10 (HLPP.init 3 0 2 [(0, 1, 5)]) = some st1 ∧
      (arc st1.adj 0 0).dst = 1 ∧ (arc st1.adj 0 0).cap = 5 ∧ st1.excess.getD 1 0 = 0 ∧
      st1.buckets = List.replicate 6 []) ∧
    (∃ st1, HLPPHeuristic.globalRelabel 3 0 2 10 (HLPPHeuristic.start 3 0 2 [(0, 1, 5)]) =
        some st1 ∧
      (arc (HLPPHeuristic.pushSource 3 0 st1).adj 0 0).dst = 1 ∧
      (arc (HLPPHeuristic.pushSource 3 0 st1).adj 0 0).cap = 5 ∧
      (HLPPHeuristic.pushSource 3 0 st1).excess.getD 1 0 = 0 ∧
      (HLPPHeuristic.pushSource 3 0 st1).buckets = List.replicate 3 []) :=
  ⟨⟨_, rfl, rfl, rfl, rfl, rfl⟩, ⟨_, rfl, rfl, rfl, rfl, rfl⟩, ⟨_, rfl, rfl, rfl, rfl, rfl⟩⟩

/-- C23, amended: on every freshly built network with `n >= 2` whose edge endpoints are
nodes and whose source arcs have a total capacity of at most `2^60 + 5`, initialization
returns in each of the three preflow-push solvers; afterwards the nodes other than the
source with a height below `n` are those with a path to the sink in the fresh network, every
arc of the source towards such a node has residual capacity 0, the excess of every node other
than the source is the total capacity of the arcs of the source into it if its height is
below `n` and 0 otherwise, and every node other than source and sink that holds excess is
scheduled (in the queue of `fifopp.cpp`, in the bucket of its height otherwise); in
`fifopp.cpp` and `hlpp.cpp` the arcs of the source towards nodes of height `n` are left as
they were. -/
theorem source_arcs_saturated_towards_sink (n : Nat) (edges : List InEdge) (hn : 2 ≤ n)
    (hr : InRange n edges)
    (hcapS : capSum (arcs (buildPreflow n 0 (n - 1) edges) 0) ≤ SOURCE_EXCESS)
    (fuel : Nat) (hfuel : 2 * n < fuel) :
    (∃ st1, FIFOPP.preprocess n 0 (n - 1) fuel (FIFOPP.init n 0 (n - 1) edges) = some st1 ∧
      (∀ x, x ≠ 0 → (Reach (buildPreflow n 0 (n - 1) edges) x (n - 1) ↔
        x < n ∧ st1.height.getD x 0 < n)) ∧
      SourcePushed (buildPreflow n 0 (n - 1) edges) n 0 st1.adj st1.height st1.excess ∧
      (∀ x, x < n → x ≠ 0 → x ≠ n - 1 → 0 < st1.excess.getD x 0 → x ∈ st1.active) ∧
      (∀ i, i < (arcs (buildPreflow n 0 (n - 1) edges) 0).length →
        n ≤ st1.height.getD (arc (buildPreflow n 0 (n - 1) edges) 0 i).dst 0 →
        arc st1.adj 0 i = arc (buildPreflow n 0 (n - 1) edges) 0 i)) ∧
    (∃ st1, HLPP.preprocess n 0 (n - 1) fuel (HLPP.init n 0 (n - 1) edges) = some st1 ∧
      (∀ x, x ≠ 0 → (Reach (buildPreflow n 0 (n - 1) edges) x (n - 1) ↔
        x < n ∧ st1.height.getD x 0 < n)) ∧
      SourcePushed (buildPreflow n 0 (n - 1) edges) n 0 st1.adj st1.height st1.excess ∧
      (∀ x, x < n → x ≠ 0 → x ≠ n - 1 → 0 < st1.excess.getD x 0 →
        x ∈ st1.buckets.getD (st1.height.getD x 0) []) ∧
      (∀ i, i < (arcs (buildPreflow n 0 (n - 1) edges) 0).length →
        n ≤ st1.height.getD (arc (buildPreflow n 0 (n - 1) edges) 0 i).dst 0 →
        arc st1.adj 0 i = arc (buildPreflow n 0 (n - 1) edges) 0 i)) ∧
    (∃ st1, HLPPHeuristic.globalRelabel n 0 (n - 1) fuel
        (HLPPHeuristic.start n 0 (n - 1) edges) = some st1 ∧
      (∀ x, x ≠ 0 → (Reach (buildPreflow n 0 (n - 1) edges) x (n - 1) ↔
        x < n ∧ (HLPPHeuristic.pushSource n 0 st1).height.getD x 0 < n)) ∧
      SourcePushed (buildPreflow n 0 (n - 1) edges) n 0 (HLPPHeuristic.pushSource n 0 st1).adj
        (HLPPHeuristic.pushSource n 0 st1).height (HLPPHeuristic.pushSource n 0 st1).excess ∧
      (∀ x, x < n → x ≠ 0 → x ≠ n - 1 →
        0 < (HLPPHeuristic.pushSource n 0 st1).excess.getD x 0 →
        x ∈ (HLPPHeuristic.pushSource n 0 st1).buckets.getD
          ((HLPPHeuristic.pushSource n 0 st1).height.getD x 0) [])) := by
  have hs : 0 < n := by omega
  have ht : n - 1 < n := by omega
  have hst : 0 ≠ n - 1 := by omega
  refine ⟨?_, ?_, ?_⟩
  · obtain ⟨st1, p1, p2, p3, p4, p5, p6, p7, p8⟩ :=
      FIFOPP.fifopp_preprocess_exact n 0 (n - 1) edges hr hs ht hst fuel hfuel
    refine ⟨st1, p1, p4, ⟨(p8 hcapS).2.1, (p8 hcapS).2.2⟩, ?_, p7⟩
    intro x hx hxs hxt hex
    rcases p2.act_all x hx hxs hxt hex with h | h
    · exact h
    · omega
  · obtain ⟨st1, p1, p2, p3, p4, p5, p6, p7, p8⟩ :=
      HLPP.hlpp_preprocess_exact n 0 (n - 1) edges hr hs ht hst fuel hfuel
    refine ⟨st1, p1, p4, ⟨(p8 hcapS).2.1, (p8 hcapS).2.2⟩, ?_, p7⟩
    intro x hx hxs hxt hex
    rcases p2.act_all x hx hxs hxt hex with h | h
    · exact h
    · omega
  · obtain ⟨st1, g1, g2, g3, g4, g5, g6, g7, g8, g9, g10, g11, g12, g13⟩ :=
      HLPPHeuristic.heur_init_spec n 0 (n - 1) edges hr hs ht hst hcapS fuel hfuel
    refine ⟨st1, g1, ?_, ⟨?_, ?_⟩, ?_⟩
    · intro x hx
      rw [g9]
      exact g6 x hx
    · intro i hi hh
      rw [g9] at hh
      exact g12 i hi hh
    · intro x hx
      rw [g9]
      exact g13 x hx
    · intro x hx hxs hxt hex
      have hlt : (HLPPHeuristic.pushSource n 0 st1).height.getD x 0 < n := by
        by_contra hc
        rw [g9] at hc
        rw [g13 x hxs] at hex
        have hz : ((List.range (arcs (buildPreflow n 0 (n - 1) edges) 0).length).map
            (fun i => if (arc (buildPreflow n 0 (n - 1) edges) 0 i).dst = x ∧
              st1.height.getD x 0 < n
              then (arc (buildPreflow n 0 (n - 1) edges) 0 i).cap else 0)).sum = 0 := by
          apply List.sum_eq_zero
          intro y hy
          obtain ⟨i, _, hi⟩ := List.mem_map.mp hy
          rw [← hi, if_neg (fun c => hc c.2)]
        omega
      rcases g8.act_all x hx hxs hxt hex hlt with h | h
      · exact h
      · omega

/-- The diamond network of the specification, with fuel 9: `FIFOPP::preprocess` returns with
the two arcs of the source saturated. -/
theorem source_arcs_saturated_towards_sink_witness :
    ∃ st1, FIFOPP.preprocess 4 0 (4 - 1) 9
        (FIFOPP.init 4 0 (4 - 1) [(0, 1, 3), (0, 2, 2), (1, 3, 2), (2, 3, 3)]) = some st1 ∧
      (∀ x, x ≠ 0 →
        (Reach (buildPreflow 4 0 (4 - 1) [(0, 1, 3), (0, 2, 2), (1, 3, 2), (2, 3, 3)]) x
          (4 - 1) ↔ x < 4 ∧ st1.height.getD x 0 < 4)) ∧
      SourcePushed (buildPreflow 4 0 (4 - 1) [(0, 1, 3), (0, 2, 2), (1, 3, 2), (2, 3, 3)]) 4 0
        st1.adj st1.height st1.excess ∧
      (∀ x, x < 4 → x ≠ 0 → x ≠ 4 - 1 → 0 < st1.excess.getD x 0 → x ∈ st1.active) ∧
      (∀ i, i < (arcs (buildPreflow 4 0 (4 - 1)
          [(0, 1, 3), (0, 2, 2), (1, 3, 2), (2, 3, 3)]) 0).length →
        4 ≤ st1.height.getD (arc (buildPreflow 4 0 (4 - 1)
          [(0, 1, 3), (0, 2, 2), (1, 3, 2), (2, 3, 3)]) 0 i).dst 0 →
        arc st1.adj 0 i =
          arc (buildPreflow 4 0 (4 - 1) [(0, 1, 3), (0, 2, 2), (1, 3, 2), (2, 3, 3)]) 0 i) :=
  (source_arcs_saturated_towards_sink 4 [(0, 1, 3), (0, 2, 2), (1, 3, 2), (2, 3, 3)]
    (by decide)
    (by intro e he; simp at he; rcases he with h | h | h | h <;> subst h <;> decide)
    (by decide) 9 (by decide)).1

namespace Residual

theorem Steps.append {a b c : Adj} {ha hb hc : List Adj} (h1 : Steps a ha b hb)
    (h2 : Steps b hb c hc) : Steps a ha c hc := by
  induction h2 with
  | refl => exact h1
  | step adj1 hist1 u i d _ hi ih => exact Steps.step adj1 hist1 u i d ih hi

theorem Steps.sameShape {a b : Adj} {ha hb : List Adj} (h : Steps a ha b hb) :
    SameShape a b := by
  induction h with
  | refl => exact ⟨rfl, fun u => ⟨rfl, fun i => ⟨rfl, rfl⟩⟩⟩
  | step adj1 hist1 u i d _ _ ih => exact ih.trans (SameShape.pushFlow adj1 u i d)

theorem Steps.same_dst {a b : Adj} {ha hb : List Adj} (h : Steps a ha b hb) (u i : Nat) :
    (arc b u i).dst = (arc a u i).dst := ((h.sameShape.2 u).2 i).1

/-- The log only grows, at its head. -/
theorem Steps.hist_suffix {a b : Adj} {ha hb : List Adj} (h : Steps a ha b hb) :
    ∃ new, hb = new ++ ha := by
  induction h with
  | refl => exact ⟨[], rfl⟩
  | step adj1 hist1 u i d _ _ ih =>
    obtain ⟨new, e⟩ := ih
    exact ⟨pushFlow adj1 u i d :: new, by rw [e]; rfl⟩

/-- When the log starts with the network at its head, it keeps the current network at its
head. -/
theorem Steps.head_eq {a b : Adj} {ha hb : List Adj} (h : Steps a ha b hb)
    (h0 : ha.head? = some a) : hb.head? = some b := by
  induction h with
  | refl => exact h0
  | step adj1 hist1 u i d _ _ _ => rfl

end Residual

namespace FordFulkersonDFS

end FordFulkersonDFS

namespace Residual

end Residual

namespace EdmondsKarp

end EdmondsKarp

namespace MostImprovingAugmentingPaths

end MostImprovingAugmentingPaths

namespace Dinic

end Dinic

namespace FIFOPP

end FIFOPP

namespace HLPP

end HLPP

namespace HLPPHeuristic

end HLPPHeuristic

namespace FordFulkersonRandomDFS

end FordFulkersonRandomDFS

namespace Residual

end Residual

namespace FordFulkersonRandomDFS

end FordFulkersonRandomDFS

namespace EdmondsKarp

end EdmondsKarp

namespace FordFulkersonDFS

end FordFulkersonDFS

namespace MostImprovingAugmentingPaths

end MostImprovingAugmentingPaths

namespace Dinic

end Dinic

namespace FIFOPP

end FIFOPP

namespace HLPP

end HLPP

namespace HLPPHeuristic

end HLPPHeuristic

namespace Residual

theorem bottleneck_le (adj : Adj) : ∀ (p : List (Nat × Nat)) (b : Int),
    bottleneck adj b p ≤ b ∧ ∀ a ∈ p, bottleneck adj b p ≤ (arc adj a.1 a.2).cap := by
  intro p
  induction p with
  | nil => intro b; exact ⟨le_refl _, by simp⟩
  | cons a p ih =>
    intro b
    obtain ⟨h1, h2⟩ := ih (min b (arc adj a.1 a.2).cap)
    refine ⟨le_trans h1 (min_le_left _ _), ?_⟩
    intro x hx
    rcases List.mem_cons.mp hx with h | h
    · rw [h]; exact le_trans h1 (min_le_right _ _)
    · exact h2 x h

theorem bottleneck_attained (adj : Adj) : ∀ (p : List (Nat × Nat)) (b : Int),
    bottleneck adj b p = b ∨ ∃ a ∈ p, bottleneck adj b p = (arc adj a.1 a.2).cap := by
  intro p
  induction p with
  | nil => intro b; exact Or.inl rfl
  | cons a p ih =>
    intro b
    rcases ih (min b (arc adj a.1 a.2).cap) with h | ⟨x, hx, h⟩
    · rcases min_choice b (arc adj a.1 a.2).cap with c | c
      · left
        show bottleneck adj (min b (arc adj a.1 a.2).cap) p = b
        rw [h, c]
      · right
        refine ⟨a, List.mem_cons_self _ _, ?_⟩
        show bottleneck adj (min b (arc adj a.1 a.2).cap) p = _
        rw [h, c]
    · exact Or.inr ⟨x, List.mem_cons_of_mem _ hx, h⟩

theorem sameShape_applyPath (adj : Adj) (d : Int) : ∀ p : List (Nat × Nat),
    SameShape adj (applyPath adj p d) := by
  intro p
  induction p with
  | nil => exact SameShape.refl adj
  | cons a p ih => exact SameShape.trans ih (SameShape.pushFlow _ _ _ _)

theorem IsPath.tail_mem {adj : Adj} {v : Nat} : ∀ (p : List (Nat × Nat)) (u : Nat),
    IsPath adj u p v → ∀ a ∈ p, a.1 ∈ pathNodes adj u p := by
  intro p
  induction p with
  | nil => intro u _ a ha; simp at ha
  | cons b p ih =>
    intro u h a ha
    obtain ⟨h1, _, h3⟩ := h
    rcases List.mem_cons.mp ha with c | c
    · rw [c, h1]
      exact List.mem_cons_self _ _
    · have := ih _ h3 a c
      exact List.mem_cons_of_mem _ this

theorem IsPath.arc_lt {adj : Adj} {v : Nat} : ∀ (p : List (Nat × Nat)) (u : Nat),
    IsPath adj u p v → ∀ a ∈ p, a.2 < (arcs adj a.1).length := by
  intro p
  induction p with
  | nil => intro u _ a ha; simp at ha
  | cons b p ih =>
    intro u h a ha
    obtain ⟨_, h2, h3⟩ := h
    rcases List.mem_cons.mp ha with c | c
    · rw [c]; exact h2
    · exact ih _ h3 a c

theorem head_mem_pathNodes (adj : Adj) (u : Nat) (p : List (Nat × Nat)) (a : Nat × Nat)
    (ha : a ∈ p) : (arc adj a.1 a.2).dst ∈ pathNodes adj u p :=
  List.mem_cons_of_mem _ (List.mem_map.mpr ⟨a, ha, rfl⟩)

/-- On a simple path no arc runs back along another arc of the path. -/
theorem IsPath.no_return {adj : Adj} {v : Nat} : ∀ (p : List (Nat × Nat)) (u : Nat),
    IsPath adj u p v → (pathNodes adj u p).Nodup →
      ∀ a ∈ p, ∀ b ∈ p, ¬ (a.1 = (arc adj b.1 b.2).dst ∧ (arc adj a.1 a.2).dst = b.1) := by
  intro p
  induction p with
  | nil => intro u _ _ a ha; simp at ha
  | cons c p ih =>
    intro u h hnd a ha b hb
    obtain ⟨h1, _, h3⟩ := h
    have hnd' : u ∉ pathNodes adj (arc adj c.1 c.2).dst p ∧
        (pathNodes adj (arc adj c.1 c.2).dst p).Nodup := List.nodup_cons.mp hnd
    rintro ⟨e1, e2⟩
    rcases List.mem_cons.mp ha with ca | ca
    · rcases List.mem_cons.mp hb with cb | cb
      · rw [ca, cb] at e1
        have e : u = (arc adj c.1 c.2).dst := by rw [← h1]; exact e1
        have hm : (arc adj c.1 c.2).dst ∈ pathNodes adj (arc adj c.1 c.2).dst p :=
          List.mem_cons_self _ _
        exact hnd'.1 (by rw [e]; exact hm)
      · rw [ca] at e1
        have e : u = (arc adj b.1 b.2).dst := by rw [← h1]; exact e1
        have hm := head_mem_pathNodes adj (arc adj c.1 c.2).dst p b cb
        exact hnd'.1 (by rw [e]; exact hm)
    · rcases List.mem_cons.mp hb with cb | cb
      · rw [cb] at e2
        have e : u = (arc adj a.1 a.2).dst := by rw [← h1]; exact e2.symm
        have hm := head_mem_pathNodes adj (arc adj c.1 c.2).dst p a ca
        exact hnd'.1 (by rw [e]; exact hm)
      · exact ih _ h3 hnd'.2 a ca b cb ⟨e1, e2⟩

/-- On a simple path of a paired network no arc is paired with an arc of the path. -/
theorem IsPath.not_paired {adj : Adj} (hp : Paired adj) {v : Nat} (p : List (Nat × Nat))
    (u : Nat) (h : IsPath adj u p v) (hnd : (pathNodes adj u p).Nodup) :
    ∀ a ∈ p, a ∉ pairedArcs adj p := by
  intro a ha hm
  obtain ⟨b, hb, hbe⟩ := List.mem_map.mp hm
  have e1 : (arc adj b.1 b.2).dst = a.1 := congrArg Prod.fst hbe
  have e2 : (arc adj b.1 b.2).rev = a.2 := congrArg Prod.snd hbe
  have hbi := IsPath.arc_lt p u h b hb
  obtain ⟨_, _, _, p4, _⟩ := hp b.1 b.2 hbi
  rw [e1, e2] at p4
  exact IsPath.no_return p u h hnd a ha b hb ⟨e1.symm, p4⟩

/-- A path along arcs of positive capacity witnesses reachability. -/
theorem IsPath.reach {adj : Adj} {v : Nat} : ∀ (p : List (Nat × Nat)) (u : Nat),
    IsPath adj u p v → (∀ a ∈ p, 0 < (arc adj a.1 a.2).cap) → Reach adj u v := by
  intro p
  induction p with
  | nil =>
    intro u h _
    have h' : u = v := h
    rw [h']
    exact Reach.refl
  | cons b p ih =>
    intro u h hc
    obtain ⟨h1, h2, h3⟩ := h
    have r1 : Reach adj u (arc adj b.1 b.2).dst := by
      have := Reach.step b.1 b.2 (Reach.refl : Reach adj b.1 b.1) h2
        (hc b (List.mem_cons_self _ _))
      rw [h1] at this
      rw [h1]
      exact this
    exact Reach.chain r1 (ih _ h3 (fun a ha => hc a (List.mem_cons_of_mem _ ha)))

/-- The capacities after the updates along a simple path: every arc of the path has lost
`d`, every arc paired with one has gained `d`, every other arc is unchanged. -/
theorem cap_applyPath {adj : Adj} (hp : Paired adj) (d : Int) {v : Nat} :
    ∀ (p : List (Nat × Nat)) (u : Nat), IsPath adj u p v → (pathNodes adj u p).Nodup →
      ∀ w j, (arc (applyPath adj p d) w j).cap =
        (arc adj w j).cap - (if (w, j) ∈ p then d else 0)
          + (if (w, j) ∈ pairedArcs adj p then d else 0) := by
  intro p
  induction p with
  | nil =>
    intro u _ _ w j
    simp [applyPath, pairedArcs]
  | cons a p ih =>
    intro u h hnd w j
    obtain ⟨h1, h2, h3⟩ := h
    have hnd' : u ∉ pathNodes adj (arc adj a.1 a.2).dst p ∧
        (pathNodes adj (arc adj a.1 a.2).dst p).Nodup := List.nodup_cons.mp hnd
    have hss := sameShape_applyPath adj d p
    have hpp : Paired (applyPath adj p d) := Paired.of_sameShape hp hss
    have hi : a.2 < (arcs (applyPath adj p d) a.1).length := by
      rw [(hss.2 a.1).1]; exact h2
    have e1 : applyPath adj (a :: p) d = pushFlow (applyPath adj p d) a.1 a.2 d := rfl
    rw [e1, cap_pushFlow hpp a.1 a.2 d hi w j, ih _ h3 hnd'.2 w j,
      ((hss.2 a.1).2 a.2).1, ((hss.2 a.1).2 a.2).2]
    have d1 : (w, j) ∈ p → ¬ (w = a.1 ∧ j = a.2) := by
      intro hm c
      have hm' : w ∈ pathNodes adj (arc adj a.1 a.2).dst p := IsPath.tail_mem p _ h3 (w, j) hm
      have e : u = w := by rw [← h1]; exact c.1.symm
      apply hnd'.1
      rw [e]
      exact hm'
    have d2 : (w, j) ∈ pairedArcs adj p →
        ¬ (w = (arc adj a.1 a.2).dst ∧ j = (arc adj a.1 a.2).rev) := by
      intro hm c
      have hn2 : (arc adj a.1 a.2).dst ∉ p.map (fun a => (arc adj a.1 a.2).dst) ∧ _ :=
        List.nodup_cons.mp hnd'.2
      apply hn2.1
      obtain ⟨b, hb, hbe⟩ := List.mem_map.mp hm
      have : (arc adj b.1 b.2).dst = w := congrArg Prod.fst hbe
      rw [← c.1, ← this]
      exact List.mem_map.mpr ⟨b, hb, rfl⟩
    have m1 : (w, j) ∈ a :: p ↔ ((w = a.1 ∧ j = a.2) ∨ (w, j) ∈ p) := by
      rw [List.mem_cons]
      constructor
      · rintro (c | c)
        · left; rw [← c]; exact ⟨rfl, rfl⟩
        · exact Or.inr c
      · rintro (c | c)
        · left; exact Prod.ext c.1 c.2
        · exact Or.inr c
    have m2 : (w, j) ∈ pairedArcs adj (a :: p) ↔
        ((w = (arc adj a.1 a.2).dst ∧ j = (arc adj a.1 a.2).rev) ∨
          (w, j) ∈ pairedArcs adj p) := by
      show (w, j) ∈ ((arc adj a.1 a.2).dst, (arc adj a.1 a.2).rev) :: pairedArcs adj p ↔ _
      rw [List.mem_cons]
      constructor
      · rintro (c | c)
        · left; exact ⟨congrArg Prod.fst c, congrArg Prod.snd c⟩
        · exact Or.inr c
      · rintro (c | c)
        · left; exact Prod.ext c.1 c.2
        · exact Or.inr c
    have i1 : (if (w, j) ∈ a :: p then d else 0) =
        (if w = a.1 ∧ j = a.2 then d else 0) + (if (w, j) ∈ p then d else 0) := by
      by_cases c1 : w = a.1 ∧ j = a.2
      · rw [if_pos (m1.mpr (Or.inl c1)), if_pos c1, if_neg (fun c2 => d1 c2 c1)]
        ring
      · by_cases c2 : (w, j) ∈ p
        · rw [if_pos (m1.mpr (Or.inr c2)), if_neg c1, if_pos c2]
          ring
        · rw [if_neg (fun c => (m1.mp c).elim c1 c2), if_neg c1, if_neg c2]
          ring
    have i2 : (if (w, j) ∈ pairedArcs adj (a :: p) then d else 0) =
        (if w = (arc adj a.1 a.2).dst ∧ j = (arc adj a.1 a.2).rev then d else 0) +
          (if (w, j) ∈ pairedArcs adj p then d else 0) := by
      by_cases c1 : w = (arc adj a.1 a.2).dst ∧ j = (arc adj a.1 a.2).rev
      · rw [if_pos (m2.mpr (Or.inl c1)), if_pos c1, if_neg (fun c2 => d2 c2 c1)]
        ring
      · by_cases c2 : (w, j) ∈ pairedArcs adj p
        · rw [if_pos (m2.mpr (Or.inr c2)), if_neg c1, if_pos c2]
          ring
        · rw [if_neg (fun c => (m2.mp c).elim c1 c2), if_neg c1, if_neg c2]
          ring
    rw [i1, i2]
    ring

end Residual

namespace FordFulkersonDFS

theorem vis_of_mark (st : State) (v x : Nat) (h : Vis st x) :
    Vis { st with visited := st.visited.set v true } x := by
  unfold Vis at h ⊢
  simp only [getD_set_eq]
  split_ifs
  · rfl
  · exact h

/-- The loop over the arcs of `v` in `dfs`: what it returns describes the path that was
augmented, if any. -/
theorem dfsFor_path {adj0 : Adj} {n t : Nat} (hp : Paired adj0) (hlen : adj0.length = n)
    (rec : Nat → Int → State → Option (Int × State))
    (hrec : ∀ x fl st r, st.adj = adj0 → st.visited.length = n → x < n → ¬ Vis st x →
      rec x fl st = some r → PathPost adj0 t x fl st r)
    (v : Nat) (flow : Int) :
    ∀ (is : List Nat) (st : State) (r : Int × State), st.adj = adj0 →
      st.visited.length = n → (∀ i ∈ is, i < (arcs adj0 v).length) →
      dfsFor rec v flow is st = some r →
      r.2.visited.length = n ∧ (∀ x, Vis st x → Vis r.2 x) ∧ (r.1 < 1 → r.2.adj = adj0) ∧
      (1 ≤ r.1 → ∃ i p, i < (arcs adj0 v).length ∧ (arc adj0 v i).cap ≠ 0 ∧
        IsPath adj0 (arc adj0 v i).dst p t ∧
        (pathNodes adj0 (arc adj0 v i).dst p).Nodup ∧
        (∀ x ∈ pathNodes adj0 (arc adj0 v i).dst p, ¬ Vis st x) ∧
        (∀ a ∈ p, (arc adj0 a.1 a.2).cap ≠ 0) ∧
        r.1 = bottleneck adj0 (min flow (arc adj0 v i).cap) p ∧
        r.2.adj = pushFlow (applyPath adj0 p r.1) v i r.1) := by
  intro is
  induction is with
  | nil =>
    intro st r ha hl _ h
    simp only [dfsFor, Option.some.injEq] at h
    subst h
    refine ⟨hl, fun _ h => h, fun _ => ha, ?_⟩
    intro c
    simp only at c
    omega
  | cons i is ih =>
    intro st r ha hl his h
    have hi : i < (arcs adj0 v).length := his i (List.mem_cons_self _ _)
    have his' : ∀ k ∈ is, k < (arcs adj0 v).length :=
      fun k hk => his k (List.mem_cons_of_mem _ hk)
    rw [dfsFor] at h
    by_cases hg : (st.visited.getD (arc st.adj v i).dst false = false) ∧
        (arc st.adj v i).cap ≠ 0
    · rw [if_pos hg] at h
      cases hrc : rec (arc st.adj v i).dst (min flow (arc st.adj v i).cap) st with
      | none => rw [hrc] at h; simp at h
      | some r1 =>
        obtain ⟨d, st1⟩ := r1
        rw [hrc] at h
        simp only at h
        have hdst : (arc st.adj v i).dst < n := by
          rw [ha, ← hlen]; exact (hp v i hi).1
        have hnv : ¬ Vis st (arc st.adj v i).dst := by
          unfold Vis; rw [hg.1]; simp
        have post := hrec _ _ st (d, st1) ha hl hdst hnv hrc
        by_cases hd : d ≥ 1
        · rw [if_pos hd] at h
          simp only [Option.some.injEq] at h
          subst h
          obtain ⟨p, q1, q2, q3, q4, q5, q6⟩ := post.found hd
          rw [ha] at q1 q2 q3 q5
          refine ⟨?_, ?_, ?_, ?_⟩
          · show st1.visited.length = n
            rw [post.len]; exact hl
          · exact post.mono
          · intro c
            have c' : d < 1 := c
            omega
          · intro _
            refine ⟨i, p, hi, ?_, q1, q2, q3, q4, q5, ?_⟩
            · have := hg.2
              rw [ha] at this
              exact this
            · show pushFlow st1.adj v i d = _
              have q6' : st1.adj = applyPath adj0 p d := q6
              rw [q6']
        · rw [if_neg hd] at h
          have hsa : st1.adj = adj0 := post.fail (by show d < 1; omega)
          have hsl : st1.visited.length = n := by
            have := post.len
            simp only at this
            rw [this]; exact hl
          obtain ⟨b1, b2, b3, b4⟩ := ih st1 r hsa hsl his' h
          refine ⟨b1, fun x hx => b2 x (post.mono x hx), b3, ?_⟩
          intro h1
          obtain ⟨k, p, c1, c2, c3, c4, c5, c6⟩ := b4 h1
          exact ⟨k, p, c1, c2, c3, c4, fun x hx hv => c5 x hx (post.mono x hv), c6⟩
    · rw [if_neg hg] at h
      exact ih st r ha hl his' h

/-- The path contract of `dfs`: a result `d ≥ 1` comes with the simple path that was
augmented by `d`, a result below 1 leaves the network as it was. -/
theorem dfs_path {adj0 : Adj} {n t : Nat} (hp : Paired adj0) (hlen : adj0.length = n) :
    ∀ (fuel : Nat) (x : Nat) (fl : Int) (st : State) (r : Int × State), st.adj = adj0 →
      st.visited.length = n → x < n → ¬ Vis st x → dfs t fuel x fl st = some r →
      PathPost adj0 t x fl st r := by
  intro fuel
  induction fuel with
  | zero => intro x fl st r _ _ _ _ h; simp [dfs] at h
  | succ k ih =>
    intro x fl st r ha hl hx hnx h
    rw [dfs] at h
    by_cases hxt : x = t
    · rw [if_pos hxt] at h
      simp only [Option.some.injEq] at h
      subst h
      refine ⟨rfl, fun _ h => h, fun _ => ha, ?_⟩
      intro _
      refine ⟨[], hxt, ?_, ?_, by simp, rfl, ha⟩
      · simp [pathNodes]
      · intro y hy
        simp only [pathNodes, List.map_nil, List.mem_singleton] at hy
        rw [hy]; exact hnx
    · rw [if_neg hxt] at h
      have hxl : x < st.visited.length := by rw [hl]; exact hx
      have hvm := vis_mark st x
      obtain ⟨b1, b2, b3, b4⟩ := dfsFor_path hp hlen (dfs t k) ih x fl
        (List.range (arcs st.adj x).length) { st with visited := st.visited.set x true }
        r ha (by simp [hl])
        (fun i hi => by rw [← ha]; exact List.mem_range.mp hi) h
      refine ⟨by rw [b1, hl], fun y hy => b2 y ((hvm y hxl).mpr (Or.inl hy)), b3, ?_⟩
      intro h1
      obtain ⟨i, p, c1, c2, c3, c4, c5, c6, c7, c8⟩ := b4 h1
      refine ⟨(x, i) :: p, ⟨rfl, c1, c3⟩, ?_, ?_, ?_, c7, c8⟩
      · show (x :: pathNodes adj0 (arc adj0 x i).dst p).Nodup
        refine List.nodup_cons.mpr ⟨?_, c4⟩
        intro c
        exact c5 x c ((hvm x hxl).mpr (Or.inr rfl))
      · intro y hy
        have hy' : y ∈ x :: pathNodes adj0 (arc adj0 x i).dst p := hy
        rcases List.mem_cons.mp hy' with e | e
        · rw [e]; exact hnx
        · intro hv
          exact c5 y e ((hvm y hxl).mpr (Or.inl hv))
      · intro a ha'
        rcases List.mem_cons.mp ha' with e | e
        · rw [e]; exact c2
        · exact c6 a e

end FordFulkersonDFS

namespace Residual

/-- The network that `build` makes is paired, has `n` adjacency lists, and has no negative
capacity. -/
theorem build_wellformed (n : Nat) (edges : List InEdge) (hr : InRange n edges) :
    (build n edges).length = n ∧ Paired (build n edges) ∧
      ∀ u i, i < (arcs (build n edges) u).length → 0 ≤ (arc (build n edges) u i).cap := by
  rw [build_eq_buildWith]
  exact ⟨(buildWith_inv kept kept_ne n edges hr 0).1, (buildWith_inv kept kept_ne n edges hr 0).2.1,
    buildWith_cap_nonneg kept kept_ne kept_cap n edges hr⟩

end Residual

/-- C36: in a paired residual network `adj` with `n` nodes and no negative capacity, with
`visited[]` all false and `s ≠ t`, the call `dfs(s, INT_MAX)` of `FordFulkersonDFS` returns
(fuel above `n` is enough) a value `d ≥ 0`, and `d ≥ 1` exactly when a path of positive
residual capacity leads from `s` to `t`. If `d = 0`, the network and its log are unchanged.
If `d ≥ 1`, there is a simple path `p` from `s` to `t` along arcs of positive capacity such
that `d` is the minimum of `INT_MAX` and the capacities on `p` before the call (so `d` is at
most every capacity on `p`, and is one of them when they are at most `INT_MAX`), the network
after the call is the one after the paired updates along `p`, no arc of `p` is paired with an
arc of `p`, and every capacity after the call is the one before, minus `d` on the arcs of
`p`, plus `d` on the arcs paired with them. -/
theorem dfs_augments_one_simple_path (adj : Adj) (n s t : Nat) (hist : List Adj)
    (hp : Paired adj) (hlen : adj.length = n)
    (hcap : ∀ u i, i < (arcs adj u).length → 0 ≤ (arc adj u i).cap)
    (hs : s < n) (hst : s ≠ t) (fuel : Nat) (hfuel : n < fuel) :
    ∃ d st1, FordFulkersonDFS.dfs t fuel s INT_MAX
        (FordFulkersonDFS.State.mk adj (List.replicate n false) hist) = some (d, st1) ∧
      0 ≤ d ∧ (1 ≤ d ↔ Reach adj s t) ∧
      (d = 0 → st1.adj = adj ∧ st1.hist = hist) ∧
      (1 ≤ d → ∃ p, IsPath adj s p t ∧ (pathNodes adj s p).Nodup ∧
        (∀ a ∈ p, 0 < (arc adj a.1 a.2).cap) ∧
        d = bottleneck adj INT_MAX p ∧
        (∀ a ∈ p, d ≤ (arc adj a.1 a.2).cap) ∧
        ((∀ a ∈ p, (arc adj a.1 a.2).cap ≤ INT_MAX) → ∃ a ∈ p, (arc adj a.1 a.2).cap = d) ∧
        st1.adj = applyPath adj p d ∧
        (∀ a ∈ p, a ∉ pairedArcs adj p) ∧
        ∀ w j, (arc st1.adj w j).cap =
          (arc adj w j).cap - (if (w, j) ∈ p then d else 0)
            + (if (w, j) ∈ pairedArcs adj p then d else 0)) := by
  have hnet : NetInv adj adj := NetInv.of_nonneg adj hcap
  have hnv : ∀ x, ¬ FordFulkersonDFS.Vis
      (FordFulkersonDFS.State.mk adj (List.replicate n false) hist) x := by
    intro x
    unfold FordFulkersonDFS.Vis
    simp only [getD_replicate_eq]
    split_ifs <;> simp
  obtain ⟨r, hr1, hpost⟩ := FordFulkersonDFS.dfs_spec hp hlen fuel s INT_MAX
    (FordFulkersonDFS.State.mk adj (List.replicate n false) hist) hnet (by simp) hs (hnv s)
    (hnv t) (by decide) (lt_of_le_of_lt (FordFulkersonDFS.unvisited_le n _) hfuel)
  obtain ⟨d, st1⟩ := r
  have hpath := FordFulkersonDFS.dfs_path hp hlen fuel s INT_MAX
    (FordFulkersonDFS.State.mk adj (List.replicate n false) hist) (d, st1) rfl (by simp) hs
    (hnv s) hr1
  have hd0 : 0 ≤ d := hpost.range.1
  have hfound : 1 ≤ d → ∃ p, IsPath adj s p t ∧ (pathNodes adj s p).Nodup ∧
      (∀ a ∈ p, 0 < (arc adj a.1 a.2).cap) ∧ d = bottleneck adj INT_MAX p ∧
      st1.adj = applyPath adj p d := by
    intro h1
    obtain ⟨p, q1, q2, _, q4, q5, q6⟩ := hpath.found h1
    refine ⟨p, q1, q2, ?_, q5, q6⟩
    intro a ha
    have hi : a.2 < (arcs adj a.1).length := IsPath.arc_lt p s q1 a ha
    have := hcap a.1 a.2 hi
    have := q4 a ha
    omega
  refine ⟨d, st1, hr1, hd0, ?_, ?_, ?_⟩
  · constructor
    · intro h1
      obtain ⟨p, q1, _, q3, _, _⟩ := hfound h1
      exact IsPath.reach p s q1 q3
    · intro hreach
      by_contra hc
      have hd : d = 0 := by omega
      obtain ⟨_, _, g3, g4⟩ := hpost.fail hd
      have := Reach.mem_closed (FordFulkersonDFS.Vis st1) (g3 hst)
        (fun x hx i hi hcx => g4 x hx (hnv x) i hi hcx) hreach
      exact hpost.sink this
  · intro hd
    obtain ⟨g1, g2, _, _⟩ := hpost.fail hd
    exact ⟨g1, g2⟩
  · intro h1
    obtain ⟨p, q1, q2, q3, q5, q6⟩ := hfound h1
    have hle := bottleneck_le adj p INT_MAX
    rw [← q5] at hle
    refine ⟨p, q1, q2, q3, q5, hle.2, ?_, q6, ?_, ?_⟩
    · intro hmax
      rcases bottleneck_attained adj p INT_MAX with c | ⟨a, ha, c⟩
      · rw [← q5] at c
        cases p with
        | nil => exact absurd q1 hst
        | cons b p =>
          refine ⟨b, List.mem_cons_self _ _, ?_⟩
          have e1 := hle.2 b (List.mem_cons_self _ _)
          have e2 := hmax b (List.mem_cons_self _ _)
          omega
      · rw [← q5] at c
        exact ⟨a, ha, c.symm⟩
    · exact IsPath.not_paired hp p s q1 q2
    · intro w j
      rw [q6]
      exact cap_applyPath hp d p s q1 q2 w j

/-- The diamond network of the specification, as `build` makes it, with `s = 0`, `t = 3` and
fuel 5: `dfs(s, INT_MAX)` returns a value that is at least 1 exactly when the sink can be
reached. -/
theorem dfs_augments_one_simple_path_witness :
    ∃ d st1, FordFulkersonDFS.dfs 3 5 0 INT_MAX
        (FordFulkersonDFS.State.mk (build 4 [(0, 1, 3), (0, 2, 2), (1, 3, 2), (2, 3, 3)])
          (List.replicate 4 false) []) = some (d, st1) ∧
      0 ≤ d ∧ (1 ≤ d ↔ Reach (build 4 [(0, 1, 3), (0, 2, 2), (1, 3, 2), (2, 3, 3)]) 0 3) :=
  have hw := build_wellformed 4 [(0, 1, 3), (0, 2, 2), (1, 3, 2), (2, 3, 3)]
    (by intro e he; simp at he; rcases he with h | h | h | h <;> subst h <;> decide)
  match dfs_augments_one_simple_path (build 4 [(0, 1, 3), (0, 2, 2), (1, 3, 2), (2, 3, 3)])
    4 0 3 [] hw.2.1 hw.1 hw.2.2 (by decide) (by decide) 5 (by decide) with
  | ⟨d, st1, h1, h2, h3, _⟩ => ⟨d, st1, h1, h2, h3⟩

namespace GenAntiHipr

theorem hipr_ok_iff (max_m max_cap K W L : Int) :
    ok max_m max_cap K W L = true ↔
      num_edges K W L ≤ max_m ∧ max_capacity K W L ≤ max_cap := by
  unfold ok
  split_ifs <;> simp <;> omega

/-- A triple that fits the limit on the edges has all its entries at most `max_m`. -/
theorem hipr_le_of_num_edges (max_m K W L : Int) (hK : 0 ≤ K) (hW : 0 ≤ W) (hL : 0 ≤ L)
    (h : num_edges K W L ≤ max_m) : L ≤ max_m ∧ W ≤ max_m ∧ (1 ≤ W → K ≤ max_m) := by
  unfold num_edges at h
  have h1 : 0 ≤ W * K := mul_nonneg hW hK
  have h2 : 0 ≤ W * W := mul_nonneg hW hW
  refine ⟨by nlinarith, by nlinarith, ?_⟩
  intro hW1
  have h3 : K ≤ W * K := by nlinarith
  nlinarith

theorem hipr_growL_spec (max_m max_cap K W : Int) (hK : 1 ≤ K) (hW : 1 ≤ W) :
    ∀ (f : Nat) (L : Int), 0 ≤ L → (max_m + 1 - L).toNat < f →
      ∃ L1, growL max_m max_cap K W f L = some L1 ∧ L ≤ L1 ∧ (L1 ≤ L ∨ L1 ≤ max_m + 1) := by
  intro f
  induction f with
  | zero => intro L _ h; omega
  | succ f ih =>
    intro L hL hf
    rw [growL]
    by_cases hok : ok max_m max_cap K W L = true
    · rw [if_pos hok]
      have h1 := ((hipr_ok_iff _ _ _ _ _).mp hok).1
      have h2 := (hipr_le_of_num_edges max_m K W L (by omega) (by omega) hL h1).1
      obtain ⟨L1, e1, e2, e3⟩ := ih (L + 1) (by omega) (by omega)
      refine ⟨L1, e1, by omega, Or.inr ?_⟩
      rcases e3 with h | h <;> omega
    · rw [if_neg hok]
      exact ⟨L, rfl, le_refl _, Or.inl (le_refl _)⟩

theorem hipr_shrinkL_spec (max_m max_cap K W : Int) :
    ∀ (f : Nat) (L : Int), 0 ≤ L → L.toNat < f →
      ∃ L2, shrinkL max_m max_cap K W f L = some L2 ∧ 0 ≤ L2 ∧ L2 ≤ L ∧
        (1 ≤ L2 → ok max_m max_cap K W L2 = true) := by
  intro f
  induction f with
  | zero => intro L _ h; omega
  | succ f ih =>
    intro L hL hf
    rw [shrinkL]
    by_cases hc : L ≥ 1 ∧ ok max_m max_cap K W L = false
    · rw [if_pos hc]
      obtain ⟨L2, e1, e2, e3, e4⟩ := ih (L - 1) (by omega) (by omega)
      exact ⟨L2, e1, e2, by omega, e4⟩
    · rw [if_neg hc]
      refine ⟨L, rfl, hL, le_refl _, ?_⟩
      intro h1
      by_contra hn
      exact hc ⟨h1, by simpa using hn⟩

theorem hipr_forW_spec (max_m max_cap : Int) (F : Nat) (hF : max_m.toNat + 2 < F) (K : Int)
    (hK : 1 ≤ K) :
    ∀ (f : Nat) (W L : Int) (best : Int × Int × Int), 1 ≤ W → 1 ≤ L → L ≤ max_m + 1 →
      GoodBest max_m max_cap best → (max_m + 1 - W).toNat < f →
      ∃ r, forW max_m max_cap F K f W L best = some r ∧ GoodBest max_m max_cap r := by
  intro f
  induction f with
  | zero => intro W L best _ _ _ _ h; omega
  | succ f ih =>
    intro W L best hW hL hLm hb hf
    rw [forW]
    by_cases hc : num_edges K W 1 ≤ max_m
    · rw [if_pos hc]
      have hWm := (hipr_le_of_num_edges max_m K W 1 (by omega) (by omega) (by omega) hc).2.1
      obtain ⟨L1, g1, g2, g3⟩ := hipr_growL_spec max_m max_cap K W hK hW F L (by omega)
        (by omega)
      rw [g1]
      simp only
      obtain ⟨L2, s1, s2, s3, s4⟩ := hipr_shrinkL_spec max_m max_cap K W F L1 (by omega)
        (by omega)
      rw [s1]
      simp only
      by_cases hl2 : L2 = 0
      · rw [if_pos hl2]
        exact ⟨best, rfl, hb⟩
      · rw [if_neg hl2]
        have hok2 := s4 (by omega)
        split_ifs
        · exact ih (W + 1) L2 (K, W, L2) (by omega) (by omega) (by omega)
            ⟨hK, hW, by show 1 ≤ L2; omega, hok2⟩ (by omega)
        · exact ih (W + 1) L2 best (by omega) (by omega) (by omega) hb (by omega)
    · rw [if_neg hc]
      exact ⟨best, rfl, hb⟩

theorem hipr_forK_spec (max_m max_cap : Int) (F : Nat) (hF : max_m.toNat + 2 < F) :
    ∀ (f : Nat) (K : Int) (best : Int × Int × Int), 1 ≤ K →
      GoodBest max_m max_cap best → (max_m + 1 - K).toNat < f →
      ∃ r, forK max_m max_cap F f K best = some r ∧ GoodBest max_m max_cap r := by
  intro f
  induction f with
  | zero => intro K best _ _ h; omega
  | succ f ih =>
    intro K best hK hb hf
    rw [forK]
    by_cases hc : num_edges K 1 1 ≤ max_m
    · rw [if_pos hc, if_neg (by omega)]
      have hKm := (hipr_le_of_num_edges max_m K 1 1 (by omega) (by omega) (by omega) hc).2.2
        (le_refl _)
      by_cases hc2 : max_capacity K 1 1 > max_cap
      · rw [if_pos hc2]
        exact ⟨best, rfl, hb⟩
      · rw [if_neg hc2]
        have h0 : 0 ≤ max_m := by
          unfold num_edges at hc
          nlinarith
        obtain ⟨b1, w1, w2⟩ := hipr_forW_spec max_m max_cap F hF K hK F 1 1 best (le_refl _)
          (le_refl _) (by omega) hb (by omega)
        rw [w1]
        simp only
        exact ih (K + 1) b1 (by omega) w2 (by omega)
    · rw [if_neg hc]
      exact ⟨best, rfl, hb⟩

/-- With `max_m >= 76` and `max_cap >= 7`, `best_parameters` returns a triple of positive
numbers that passes `ok`. -/
theorem hipr_best_parameters_spec (max_m max_cap : Int) (hm : 76 ≤ max_m) (hc : 7 ≤ max_cap)
    (fuel : Nat) (hF : max_m.toNat + 2 < fuel) :
    ∃ r, best_parameters fuel max_m max_cap = some r ∧ GoodBest max_m max_cap r := by
  apply hipr_forK_spec max_m max_cap fuel hF fuel 1 (1, 1, 1) (le_refl _)
  · refine ⟨le_refl _, le_refl _, le_refl _, ?_⟩
    rw [hipr_ok_iff]
    show num_edges 1 1 1 ≤ max_m ∧ max_capacity 1 1 1 ≤ max_cap
    unfold num_edges max_capacity
    constructor <;> omega
  · omega

/-- With `max_m < 76` the outer loop of `best_parameters` is not entered, and the initial
triple `(1, 1, 1)` is returned. -/
theorem hipr_best_parameters_small (max_m max_cap : Int) (hm : max_m < 76) (fuel : Nat) :
    best_parameters (fuel + 1) max_m max_cap = some (1, 1, 1) := by
  unfold best_parameters
  rw [forK, if_neg]
  unfold num_edges
  omega

end GenAntiHipr

namespace GenAntiHipr

theorem length_flatMap_const {α β : Type} (l : List α) (f : α → List β) (k : Nat)
    (h : ∀ x ∈ l, (f x).length = k) : (l.flatMap f).length = l.length * k := by
  induction l with
  | nil => simp
  | cons a l ih =>
    rw [List.flatMap_cons, List.length_append, h a (List.mem_cons_self _ _),
      ih (fun x hx => h x (List.mem_cons_of_mem _ hx)), List.length_cons]
    ring

/-- The number of edges that `main` constructs: half of `num_edges(K, W, L)`. -/
theorem edges_length (K W L : Nat) (inf : Int) (hK : 1 ≤ K) :
    (edges K W L inf).length = 18 * L + 2 * W * (2 * K + 5) + W * W + 5 := by
  unfold edges
  simp only [List.length_append, List.length_map, List.length_reverse, List.length_range,
    List.length_cons, List.length_nil, List.length_flatMap, Function.comp_def,
    List.map_const', List.sum_replicate, smul_eq_mul]
  obtain ⟨k, rfl⟩ : ∃ k, K = k + 1 := ⟨K - 1, by omega⟩
  simp only [Nat.add_sub_cancel]
  ring

end GenAntiHipr

namespace GenAntiHipr

theorem cell_le (R W i j : Nat) (hi : i < R) (hj : j < W) : i * W + j + 1 ≤ R * W := by
  have h : (i + 1) * W ≤ R * W := Nat.mul_le_mul_right W hi
  have e : (i + 1) * W = i * W + W := by ring
  omega

theorem forall_mem_flatMap_iff {α β : Type} (l : List α) (f : α → List β) (P : β → Prop) :
    (∀ e ∈ l.flatMap f, P e) ↔ ∀ x ∈ l, ∀ e ∈ f x, P e := by
  constructor
  · intro h x hx e he
    exact h e (List.mem_flatMap.mpr ⟨x, hx, he⟩)
  · intro h e he
    obtain ⟨x, hx, hxe⟩ := List.mem_flatMap.mp he
    exact h x hx e hxe

theorem NodeOK.of {n a b : Nat} (cp : Int) (h1 : 1 ≤ a ∧ a ≤ n) (h2 : 1 ≤ b ∧ b ≤ n) :
    NodeOK n ⟨a, b, cp⟩ :=
  ⟨h1.1, h1.2, h2.1, h2.2⟩

theorem nd_low (K W L : Nat) :
    (1 ≤ s2 ∧ s2 ≤ t K W L) ∧ (1 ≤ s ∧ s ≤ t K W L) ∧ (1 ≤ a1 ∧ a1 ≤ t K W L) := by
  simp only [s2, s, a1, b1, a2, b2, p1, q1, p2, q2, t]
  omega

theorem nd_mid (K W L : Nat) :
    (1 ≤ b1 K W ∧ b1 K W ≤ t K W L) ∧ (1 ≤ a2 K W ∧ a2 K W ≤ t K W L) ∧
    (1 ≤ b2 K W ∧ b2 K W ≤ t K W L) ∧ (1 ≤ p1 K W ∧ p1 K W ≤ t K W L) ∧
    (1 ≤ q1 K W ∧ q1 K W ≤ t K W L) ∧ (1 ≤ p2 K W ∧ p2 K W ≤ t K W L) ∧
    (1 ≤ q2 K W ∧ q2 K W ≤ t K W L) ∧ (1 ≤ t K W L ∧ t K W L ≤ t K W L) := by
  simp only [a1, b1, a2, b2, p1, q1, p2, q2, t]
  omega

theorem nd_v1 (K W L i j : Nat) (hi : i < K + 3) (hj : j < W) :
    1 ≤ v1 W i j ∧ v1 W i j ≤ t K W L := by
  have := cell_le (K + 3) W i j hi hj
  simp only [a1, v1, b1, a2, b2, p1, q1, p2, q2, t]
  omega

theorem nd_v2 (K W L i j : Nat) (hi : i < K + 3) (hj : j < W) :
    1 ≤ v2 K W i j ∧ v2 K W i j ≤ t K W L := by
  have := cell_le (K + 3) W i j hi hj
  simp only [a1, v2, b1, a2, b2, p1, q1, p2, q2, t]
  omega

theorem nd_v3 (K W L i j : Nat) (hi : i < K) (hj : j < W) :
    1 ≤ v3 K W i j ∧ v3 K W i j ≤ t K W L := by
  have := cell_le K W i j hi hj
  simp only [a1, v3, b1, a2, b2, p1, q1, p2, q2, t]
  omega

theorem nd_v4 (K W L i j : Nat) (hi : i < K) (hj : j < W) :
    1 ≤ v4 K W i j ∧ v4 K W i j ≤ t K W L := by
  have := cell_le K W i j hi hj
  simp only [a1, v4, b1, a2, b2, p1, q1, p2, q2, t]
  omega

theorem nd_c (K W L i : Nat) (hi : i < 2 * L) : 1 ≤ c K W i ∧ c K W i ≤ t K W L := by
  simp only [a1, c, b1, a2, b2, p1, q1, p2, q2, t]
  omega

theorem nd_line (K W L i : Nat) : 1 ≤ line K W L i ∧ line K W L i ≤ t K W L := by
  simp only [a1, line, b1, a2, b2, p1, q1, p2, q2, t]
  omega

/-- Every edge that `main` constructs joins two of the nodes `1`, ..., `n`. -/
theorem edges_range (K W L : Nat) (inf : Int) (hK : 1 ≤ K) :
    ∀ e ∈ edges K W L inf, NodeOK (t K W L) e := by
  unfold edges
  simp only [List.forall_mem_append, forall_mem_flatMap_iff, List.forall_mem_cons,
    List.forall_mem_map, List.mem_range, List.mem_reverse, List.not_mem_nil,
    false_imp_iff, implies_true, and_true]
  obtain ⟨l1, l2, l3⟩ := nd_low K W L
  obtain ⟨m1, m2, m3, m4, m5, m6, m7, m8⟩ := nd_mid K W L
  refine ⟨⟨⟨⟨⟨⟨⟨⟨⟨⟨⟨⟨⟨?_, ?_, ?_⟩, ?_⟩, ?_⟩, ?_⟩, ?_⟩, ?_⟩, ⟨?_, ?_⟩⟩, ?_⟩, ?_⟩, ?_⟩, ?_⟩, ?_⟩,
    ?_⟩
  · exact NodeOK.of _ l1 l2
  · exact NodeOK.of _ l2 m8
  · exact NodeOK.of _ (nd_line K W L 0) m8
  · intro i hi
    refine ⟨NodeOK.of _ l2 (nd_c K W L i hi), NodeOK.of _ (nd_c K W L i hi) (nd_line K W L 0),
      NodeOK.of _ (nd_c K W L i hi) ?_, NodeOK.of _ (nd_c K W L i hi) ?_⟩
    · split_ifs
      · exact m2
      · exact l3
    · split_ifs
      · exact m3
      · exact m1
  · intro j hj
    exact ⟨NodeOK.of _ l3 (nd_v1 K W L 0 j (by omega) hj),
      NodeOK.of _ m2 (nd_v2 K W L 0 j (by omega) hj)⟩
  · intro i hi j hj
    exact ⟨NodeOK.of _ (nd_v1 K W L i j (by omega) hj) (nd_v1 K W L (i + 1) j (by omega) hj),
      NodeOK.of _ (nd_v2 K W L i j (by omega) hj) (nd_v2 K W L (i + 1) j (by omega) hj)⟩
  · intro j hj
    exact ⟨NodeOK.of _ (nd_v1 K W L (K + 2) j (by omega) hj) m1,
      NodeOK.of _ (nd_v2 K W L (K + 2) j (by omega) hj) m3⟩
  · intro i _
    exact ⟨NodeOK.of _ m1 (nd_line K W L _), NodeOK.of _ m3 (nd_line K W L _)⟩
  · exact NodeOK.of _ l3 m4
  · exact NodeOK.of _ m2 m6
  · intro j hj
    exact ⟨NodeOK.of _ m4 (nd_v3 K W L 0 j (by omega) hj),
      NodeOK.of _ m6 (nd_v4 K W L 0 j (by omega) hj)⟩
  · intro i hi j hj
    exact ⟨NodeOK.of _ (nd_v3 K W L i j (by omega) hj) (nd_v3 K W L (i + 1) j (by omega) hj),
      NodeOK.of _ (nd_v4 K W L i j (by omega) hj) (nd_v4 K W L (i + 1) j (by omega) hj)⟩
  · intro j hj
    exact ⟨NodeOK.of _ (nd_v3 K W L (K - 1) j (by omega) hj) m5,
      NodeOK.of _ (nd_v4 K W L (K - 1) j (by omega) hj) m7⟩
  · intro i hi j hj
    exact NodeOK.of _ (nd_v3 K W L 0 i (by omega) hi) (nd_v4 K W L 0 j (by omega) hj)
  · intro i _
    exact ⟨NodeOK.of _ m5 (nd_line K W L _), NodeOK.of _ m7 (nd_line K W L _)⟩
  · intro i _
    exact NodeOK.of _ (nd_line K W L _) (nd_line K W L _)

end GenAntiHipr

namespace GenAntiHipr

theorem length_pushVe (ve : List (List Nat)) (u x : Nat) :
    (pushVe ve u x).length = ve.length := by
  simp [pushVe]

theorem getD_pushVe (ve : List (List Nat)) (u x k : Nat) (hu : u < ve.length) :
    (pushVe ve u x).getD k [] = if k = u then ve.getD u [] ++ [x] else ve.getD k [] := by
  unfold pushVe
  rw [getD_set_eq]
  by_cases h : k = u <;> simp [h, hu]

theorem order_succ (n : Nat) (ve : List (List Nat)) :
    order (n + 1) ve = order n ve ++ ve.getD (n + 1) [] := by
  unfold order
  rw [List.range_succ, List.flatMap_append]
  simp

/-- The vector `order` after `ve[u].push_back(x)`: one more entry `x` if `u` is one of the
nodes `1`, ..., `m` that `order` collects, and the same entries otherwise. -/
theorem order_pushVe (ve : List (List Nat)) (u x : Nat) (hu : u < ve.length) :
    ∀ m, (1 ≤ u ∧ u ≤ m → (order m (pushVe ve u x)).Perm (x :: order m ve)) ∧
      (¬ (1 ≤ u ∧ u ≤ m) → order m (pushVe ve u x) = order m ve) := by
  intro m
  induction m with
  | zero =>
    refine ⟨fun h => by omega, fun _ => rfl⟩
  | succ m ih =>
    rw [order_succ, order_succ, getD_pushVe ve u x (m + 1) hu]
    constructor
    · intro h
      by_cases hm : m + 1 = u
      · rw [if_pos hm, ih.2 (by omega), ← hm, ← List.append_assoc]
        exact List.perm_append_singleton x _
      · rw [if_neg hm]
        exact List.Perm.append_right _ (ih.1 (by omega))
    · intro h
      rw [if_neg (by omega), ih.2 (by omega)]

theorem fillVe_spec (n : Nat) : ∀ (es : List GEdge) (i : Nat) (ve : List (List Nat)),
    ve.length = n + 1 → (∀ e ∈ es, NodeOK n e) →
      (fillVe ve i es).length = n + 1 ∧
      (order n (fillVe ve i es)).length = (order n ve).length + 2 * es.length ∧
      ∀ x, x ∈ order n (fillVe ve i es) ↔ (x ∈ order n ve ∨ (i ≤ x ∧ x < i + es.length)) := by
  intro es
  induction es with
  | nil =>
    intro i ve hl _
    refine ⟨hl, rfl, ?_⟩
    intro x
    simp [fillVe]
  | cons e es ih =>
    intro i ve hl hes
    have he := hes e (List.mem_cons_self _ _)
    have h1 : e.src < ve.length := by have := he.src_le; omega
    have hl1 : (pushVe ve e.src i).length = n + 1 := by rw [length_pushVe]; exact hl
    have h2 : e.dst < (pushVe ve e.src i).length := by have := he.dst_le; omega
    have hl2 : (pushVe (pushVe ve e.src i) e.dst i).length = n + 1 := by
      rw [length_pushVe]; exact hl1
    have q1 := (order_pushVe ve e.src i h1 n).1 ⟨he.src_pos, he.src_le⟩
    have q2 := (order_pushVe (pushVe ve e.src i) e.dst i h2 n).1 ⟨he.dst_pos, he.dst_le⟩
    obtain ⟨a1, a2, a3⟩ := ih (i + 1) (pushVe (pushVe ve e.src i) e.dst i) hl2
      (fun e' he' => hes e' (List.mem_cons_of_mem _ he'))
    refine ⟨a1, ?_, ?_⟩
    · show (order n (fillVe (pushVe (pushVe ve e.src i) e.dst i) (i + 1) es)).length = _
      rw [a2, q2.length_eq, List.length_cons, q1.length_eq, List.length_cons, List.length_cons]
      ring
    · intro x
      show x ∈ order n (fillVe (pushVe (pushVe ve e.src i) e.dst i) (i + 1) es) ↔ _
      rw [a3 x, q2.mem_iff, List.mem_cons, q1.mem_iff, List.mem_cons, List.length_cons]
      constructor
      · rintro ((h | h | h) | h)
        · right; omega
        · right; omega
        · exact Or.inl h
        · right; omega
      · rintro (h | h)
        · exact Or.inl (Or.inr (Or.inr h))
        · by_cases hx : x = i
          · exact Or.inl (Or.inl hx)
          · right; omega

theorem order_replicate (n m : Nat) : order m (List.replicate (n + 1) []) = [] := by
  induction m with
  | zero => rfl
  | succ m ih =>
    rw [order_succ, ih, getD_replicate_eq]
    split_ifs <;> rfl

/-- The vector `order` of `main` holds every edge index twice. -/
theorem order_spec (n : Nat) (es : List GEdge) (hes : ∀ e ∈ es, NodeOK n e) :
    (fillVe (List.replicate (n + 1) []) 0 es).length = n + 1 ∧
    (order n (fillVe (List.replicate (n + 1) []) 0 es)).length = 2 * es.length ∧
    ∀ x, x ∈ order n (fillVe (List.replicate (n + 1) []) 0 es) ↔ x < es.length := by
  obtain ⟨a1, a2, a3⟩ := fillVe_spec n es 0 (List.replicate (n + 1) []) (by simp) hes
  rw [order_replicate] at a2 a3
  refine ⟨a1, by simpa using a2, ?_⟩
  intro x
  rw [a3 x]
  simp

end GenAntiHipr

namespace GenAntiHipr

theorem placed_set : ∀ (hv : List Int) (x : Nat) (u : Int), x < hv.length →
    hv.getD x (-1) = -1 → u ≠ -1 → placed (hv.set x u) = placed hv + 1 := by
  intro hv
  induction hv with
  | nil => intro x u h; simp at h
  | cons a r ih =>
    intro x u hx hg hu
    cases x with
    | zero =>
      have ha : a = -1 := hg
      simp [placed, List.countP_cons, ha, hu]
    | succ k =>
      have hk : k < r.length := by simpa using hx
      have := ih k u hk hg hu
      unfold placed at this ⊢
      rw [List.set_cons_succ, List.countP_cons, List.countP_cons, this]
      ring

theorem placed_eq_length (hv : List Int) (h : ∀ x, x < hv.length → hv.getD x (-1) ≠ -1) :
    placed hv = hv.length := by
  unfold placed
  rw [List.countP_eq_length]
  intro a ha
  obtain ⟨i, hi, rfl⟩ := List.getElem_of_mem ha
  have := h i hi
  rw [List.getD_eq_getElem _ _ hi] at this
  simpa using this

theorem flatten_set_length (x : Nat) : ∀ (ve : List (List Nat)) (u : Nat), u < ve.length →
    ((ve.set u (ve.getD u [] ++ [x])).flatten).length = ve.flatten.length + 1 := by
  intro ve
  induction ve with
  | nil => intro u h; simp at h
  | cons a r ih =>
    intro u hu
    cases u with
    | zero => simp; omega
    | succ k =>
      have hk : k < r.length := by simpa using hu
      have := ih k hk
      simp only [List.set_cons_succ, List.flatten_cons, List.length_append,
        List.getD_cons_succ] at this ⊢
      omega

theorem flatten_drop_pushVe (x : Nat) : ∀ (N0 : Nat) (ve : List (List Nat)) (u : Nat),
    N0 ≤ u → u < ve.length →
    (((pushVe ve u x).drop N0).flatten).length = ((ve.drop N0).flatten).length + 1 := by
  intro N0
  induction N0 with
  | zero =>
    intro ve u _ hu
    exact flatten_set_length x ve u hu
  | succ k ih =>
    intro ve u hN hu
    cases ve with
    | nil => simp at hu
    | cons a r =>
      cases u with
      | zero => omega
      | succ j =>
        have hj : j < r.length := by simpa using hu
        have := ih r j (by omega) hj
        unfold pushVe at this ⊢
        simp only [List.set_cons_succ, List.drop_succ_cons, List.getD_cons_succ] at this ⊢
        exact this

theorem flatten_drop_append_nil (N0 : Nat) (ve : List (List Nat)) (h : N0 ≤ ve.length) :
    (((ve ++ [[]]).drop N0).flatten).length = ((ve.drop N0).flatten).length := by
  rw [List.drop_append_of_le_length h]
  simp

theorem getLastD_mem (l : List Nat) (h : l ≠ []) : l.getLastD 0 ∈ l := by
  have := dropLast_append_getLastD l h
  rw [← this]
  simp

theorem mem_of_mem_dropLast (l : List Nat) (x : Nat) (h : x ∈ l.dropLast) : x ∈ l :=
  List.mem_of_mem_dropLast h

/-- One half of the body of the pairing loop keeps the invariant; afterwards the entry is
placed, and no entry has lost its place. -/
theorem place_spec (N0 E : Nat) (st : PairState) (x : Nat) (hI : PairInv N0 E st)
    (hx : x < E) :
    PairInv N0 E (place st x).2 ∧ (place st x).2.final_edges = st.final_edges ∧
      (place st x).2.have_.getD x (-1) ≠ -1 ∧
      ∀ y, st.have_.getD y (-1) ≠ -1 → (place st x).2.have_.getD y (-1) ≠ -1 := by
  by_cases hh : st.have_.getD x (-1) = -1
  · -- the edge is placed at the last open node, which is added if there is none
    obtain ⟨st1, hst1, hop, hve1, hok1, hcnt1, hcr1, hhv1, hfe1⟩ :
        ∃ st1 : PairState, st1 = (if st.open_ = [] then
            { st with open_ := st.open_ ++ [st.ve.length], ve := st.ve ++ [[]] } else st) ∧
          st1.open_ ≠ [] ∧ N0 ≤ st1.ve.length ∧
          (∀ u ∈ st1.open_, N0 ≤ u ∧ u < st1.ve.length) ∧
          ((st1.ve.drop N0).flatten).length = placed st.have_ ∧
          st1.ve.length ≤ N0 + placed st.have_ + 1 ∧ st1.have_ = st.have_ ∧
          st1.final_edges = st.final_edges ∧ st.ve.length ≤ st1.ve.length := by
      by_cases ho : st.open_ = []
      · refine ⟨_, rfl, ?_⟩
        rw [if_pos ho]
        refine ⟨?_, ?_, ?_, ?_, ?_, rfl, rfl, ?_⟩
        · simp
        · show N0 ≤ (st.ve ++ [[]]).length
          have := hI.ve_ge
          simp; omega
        · intro u hu
          have hu' : u ∈ st.open_ ++ [st.ve.length] := hu
          rw [ho] at hu'
          simp only [List.nil_append, List.mem_singleton] at hu'
          show N0 ≤ u ∧ u < (st.ve ++ [[]]).length
          have := hI.ve_ge
          simp; omega
        · show (((st.ve ++ [[]]).drop N0).flatten).length = _
          rw [flatten_drop_append_nil N0 st.ve hI.ve_ge]
          exact hI.count
        · show (st.ve ++ [[]]).length ≤ _
          have := hI.created
          simp; omega
        · show st.ve.length ≤ (st.ve ++ [[]]).length
          simp
      · refine ⟨_, rfl, ?_⟩
        rw [if_neg ho]
        exact ⟨ho, hI.ve_ge, hI.open_ok, hI.count, by have := hI.created; omega, rfl, rfl,
          le_refl _⟩
    have hpl : place st x = (st1.open_.getLastD 0, { st1 with
        open_ := st1.open_.dropLast
        have_ := st1.have_.set x ((st1.open_.getLastD 0 : Nat) : Int)
        ve := pushVe st1.ve (st1.open_.getLastD 0) x }) := by
      unfold place
      rw [if_pos hh, hst1]
    obtain ⟨hu1, hu2⟩ := hok1 _ (getLastD_mem st1.open_ hop)
    generalize st1.open_.getLastD 0 = u at hpl hu1 hu2
    have hxl : x < st.have_.length := by rw [hI.len_have]; exact hx
    have hune : (u : Int) ≠ -1 := by omega
    rw [hpl]
    refine ⟨⟨?_, ?_, ?_, ?_, ?_, ?_⟩, hfe1.1, ?_, ?_⟩
    · show (st1.have_.set x (u : Int)).length = E
      rw [List.length_set, hhv1, hI.len_have]
    · show N0 ≤ (pushVe st1.ve u x).length
      rw [length_pushVe]; exact hve1
    · intro y hy
      show (st1.have_.set x (u : Int)).getD y (-1) = -1 ∨
        ((N0 : Int) ≤ (st1.have_.set x (u : Int)).getD y (-1) ∧
          (st1.have_.set x (u : Int)).getD y (-1) < ((pushVe st1.ve u x).length : Int))
      rw [getD_set_eq, length_pushVe, hhv1]
      by_cases hyx : y = x ∧ x < st.have_.length
      · rw [if_pos hyx]
        right
        omega
      · rw [if_neg hyx]
        rcases hI.have_ok y hy with h | h
        · exact Or.inl h
        · right
          have := hfe1.2
          omega
    · intro w hw
      have hw' : w ∈ st1.open_.dropLast := hw
      have := hok1 w (mem_of_mem_dropLast _ _ hw')
      show N0 ≤ w ∧ w < (pushVe st1.ve u x).length
      rw [length_pushVe]
      exact this
    · show (((pushVe st1.ve u x).drop N0).flatten).length = placed (st1.have_.set x (u : Int))
      rw [flatten_drop_pushVe x N0 st1.ve u hu1 hu2, hhv1, placed_set st.have_ x u hxl hh hune,
        hcnt1]
    · show (pushVe st1.ve u x).length ≤ N0 + placed (st1.have_.set x (u : Int))
      rw [length_pushVe, hhv1, placed_set st.have_ x u hxl hh hune]
      omega
    · show (st1.have_.set x (u : Int)).getD x (-1) ≠ -1
      rw [getD_set_eq, hhv1, if_pos ⟨rfl, hxl⟩]
      exact hune
    · intro y hy
      show (st1.have_.set x (u : Int)).getD y (-1) ≠ -1
      rw [getD_set_eq, hhv1]
      split_ifs
      · exact hune
      · exact hy
  · -- the edge has its place: that node is open again
    have hpl : place st x = ((st.have_.getD x (-1)).toNat,
        { st with open_ := st.open_ ++ [(st.have_.getD x (-1)).toNat] }) := by
      unfold place
      rw [if_neg hh]
    rw [hpl]
    refine ⟨⟨hI.len_have, hI.ve_ge, hI.have_ok, ?_, hI.count, hI.created⟩, rfl, hh,
      fun _ h => h⟩
    intro w hw
    have hw' : w ∈ st.open_ ++ [(st.have_.getD x (-1)).toNat] := hw
    rcases List.mem_append.mp hw' with h | h
    · exact hI.open_ok w h
    · rw [List.mem_singleton] at h
      rcases hI.have_ok x hx with c | c
      · exact absurd c hh
      · show N0 ≤ w ∧ w < st.ve.length
        omega

end GenAntiHipr

namespace GenAntiHipr

/-- The pairing loop over an even number `2 * k` of entries keeps the invariant, appends `k`
edges to `final_edges`, and places every entry. -/
theorem pairLoop_spec (N0 E : Nat) : ∀ (k : Nat) (ord : List Nat) (st : PairState),
    ord.length = 2 * k → (∀ x ∈ ord, x < E) → PairInv N0 E st →
      PairInv N0 E (pairLoop ord st) ∧
      (pairLoop ord st).final_edges.length = st.final_edges.length + k ∧
      (∀ y, st.have_.getD y (-1) ≠ -1 → (pairLoop ord st).have_.getD y (-1) ≠ -1) ∧
      ∀ x ∈ ord, (pairLoop ord st).have_.getD x (-1) ≠ -1 := by
  intro k
  induction k with
  | zero =>
    intro ord st hl _ hI
    have : ord = [] := List.length_eq_zero.mp (by omega)
    subst this
    exact ⟨hI, rfl, fun _ h => h, by simp⟩
  | succ k ih =>
    intro ord st hl hord hI
    match ord, hl, hord with
    | [], hl, _ => simp at hl
    | [_], hl, _ => simp at hl; omega
    | x :: y :: rest, hl, hord =>
      obtain ⟨a1, a2, a3, a4⟩ := place_spec N0 E st x hI (hord x (by simp))
      obtain ⟨b1, b2, b3, b4⟩ := place_spec N0 E (place st x).2 y a1 (hord y (by simp))
      have hI2 : PairInv N0 E { (place (place st x).2 y).2 with
          final_edges := (place (place st x).2 y).2.final_edges ++
            [⟨(place st x).1, (place (place st x).2 y).1, 1⟩] } :=
        ⟨b1.len_have, b1.ve_ge, b1.have_ok, b1.open_ok, b1.count, b1.created⟩
      obtain ⟨c1, c2, c3, c4⟩ := ih rest _ (by simp at hl; omega)
        (fun z hz => hord z (by simp [hz])) hI2
      rw [pairLoop]
      refine ⟨c1, ?_, ?_, ?_⟩
      · rw [c2]
        show ((place (place st x).2 y).2.final_edges ++ [_]).length + k = _
        rw [List.length_append, b2, a2]
        simp
        omega
      · intro z hz
        exact c3 z (b4 z (a4 z hz))
      · intro z hz
        rcases List.mem_cons.mp hz with h | h
        · rw [h]
          exact c3 x (b4 x a3)
        · rcases List.mem_cons.mp h with h | h
          · rw [h]
            exact c3 y b3
          · exact c4 z h

/-- From the sorted edges to the closing assertions: `main` gets there, `final_edges` holds
twice as many edges as were constructed, and `ve` has grown by at most one node for every
edge. -/
theorem finish_spec (n : Nat) (es : List GEdge) (hes : ∀ e ∈ es, NodeOK n e) :
    ∃ cl, finish n es = some cl ∧ cl.final_edges.length = 2 * es.length ∧
      n + 1 ≤ cl.ve.length ∧ cl.ve.length ≤ n + 1 + es.length ∧ cl.t = n := by
  obtain ⟨o1, o2, o3⟩ := order_spec n es hes
  have hI0 : PairInv (n + 1) es.length
      { ve := fillVe (List.replicate (n + 1) []) 0 es
        have_ := List.replicate es.length (-1)
        open_ := []
        final_edges := [] } := by
    have hp : placed (List.replicate es.length (-1)) = 0 := by
      unfold placed
      rw [List.countP_eq_zero]
      intro a ha
      rw [List.eq_of_mem_replicate ha]
      simp
    refine ⟨by simp, by show n + 1 ≤ (fillVe _ 0 es).length; rw [o1], ?_, by simp, ?_, ?_⟩
    · intro x hx
      left
      show (List.replicate es.length (-1 : Int)).getD x (-1) = -1
      rw [getD_replicate_eq]
      split_ifs <;> rfl
    · show (((fillVe (List.replicate (n + 1) []) 0 es).drop (n + 1)).flatten).length = _
      rw [hp, List.drop_of_length_le (by rw [o1])]
      rfl
    · show (fillVe (List.replicate (n + 1) []) 0 es).length ≤ _
      rw [o1]
      omega
  obtain ⟨p1, p2, _, p4⟩ := pairLoop_spec (n + 1) es.length es.length _ _ o2
    (fun x hx => (o3 x).mp hx) hI0
  have hall : placed (pairLoop (order n (fillVe (List.replicate (n + 1) []) 0 es))
      { ve := fillVe (List.replicate (n + 1) []) 0 es
        have_ := List.replicate es.length (-1)
        open_ := []
        final_edges := [] }).have_ = es.length := by
    rw [placed_eq_length, p1.len_have]
    intro x hx
    rw [p1.len_have] at hx
    exact p4 x ((o3 x).mpr hx)
  obtain ⟨st', hst'⟩ : ∃ st', st' = pairLoop (order n (fillVe (List.replicate (n + 1) []) 0 es))
      { ve := fillVe (List.replicate (n + 1) []) 0 es
        have_ := List.replicate es.length (-1)
        open_ := []
        final_edges := [] } := ⟨_, rfl⟩
  rw [← hst'] at p1 p2 hall
  refine ⟨⟨st'.ve, st'.final_edges ++ tailEdges n st'.ve es, n⟩, ?_, ?_, ?_, ?_, rfl⟩
  · unfold finish
    rw [if_pos (by rw [o2]; omega), hst']
  · show (st'.final_edges ++ tailEdges n st'.ve es).length = _
    rw [List.length_append, p2]
    unfold tailEdges
    rw [List.length_map, p1.count, hall]
    simp
    omega
  · exact p1.ve_ge
  · have := p1.created
    rw [hall] at this
    exact this

theorem sortEdges_length (es : List GEdge) : (sortEdges es).length = es.length :=
  List.length_insertionSort _ es

theorem sortEdges_mem (es : List GEdge) (e : GEdge) : e ∈ sortEdges es ↔ e ∈ es :=
  (List.perm_insertionSort _ es).mem_iff

end GenAntiHipr

namespace GenAntiHipr

/-- The construction has more edges than nodes. -/
theorem nodes_lt_edges (K W L : Nat) (hW : 1 ≤ W) (hL : 1 ≤ L) :
    t K W L + 1 ≤ 18 * L + 2 * W * (2 * K + 5) + W * W + 5 := by
  simp only [a1, b1, a2, b2, p1, q1, p2, q2, t]
  have e1 : (K + 3) * W = K * W + 3 * W := by ring
  have e2 : 2 * W * (2 * K + 5) = 4 * (K * W) + 10 * W := by ring
  have e3 : 1 ≤ W * W := Nat.mul_pos hW hW
  omega

/-- The run of `main` for a triple of positive parameters that `best_parameters` returns:
it reaches the closing assertions with `num_edges(K, W, L)` edges in `final_edges`, twice
the number of constructed edges, and with at most as many entries in `ve`. -/
theorem atClosing_spec (fuel : Nat) (max_m K W L : Int) (hm : 74 ≤ max_m)
    (hb : best_parameters fuel max_m MAX_CAP = some (K, W, L)) (hK : 1 ≤ K) (hW : 1 ≤ W)
    (hL : 1 ≤ L) :
    ∃ cl, atClosing fuel max_m = some cl ∧
      cl.final_edges.length =
        2 * (edges K.toNat W.toNat L.toNat (max_capacity K W L)).length ∧
      (cl.final_edges.length : Int) = num_edges K W L ∧
      cl.t + 1 ≤ cl.ve.length ∧ cl.ve.length ≤ cl.final_edges.length ∧
      cl.t = t K.toNat W.toNat L.toNat := by
  have hKn : 1 ≤ K.toNat := by omega
  have hWn : 1 ≤ W.toNat := by omega
  have hLn : 1 ≤ L.toNat := by omega
  have hes : ∀ e ∈ sortEdges (edges K.toNat W.toNat L.toNat (max_capacity K W L)),
      NodeOK (t K.toNat W.toNat L.toNat) e := by
    intro e he
    exact edges_range _ _ _ _ hKn e ((sortEdges_mem _ e).mp he)
  obtain ⟨cl, c1, c2, c3, c4, c5⟩ := finish_spec _ _ hes
  rw [sortEdges_length] at c2 c4
  have hlen := edges_length K.toNat W.toNat L.toNat (max_capacity K W L) hKn
  have hnl := nodes_lt_edges K.toNat W.toNat L.toNat hWn hLn
  refine ⟨cl, ?_, c2, ?_, ?_, ?_, c5⟩
  · unfold atClosing
    rw [if_pos ⟨hm, by decide⟩, hb]
    exact c1
  · rw [c2, hlen]
    unfold num_edges
    have k1 : ((K.toNat : Nat) : Int) = K := Int.toNat_of_nonneg (by omega)
    have k2 : ((W.toNat : Nat) : Int) = W := Int.toNat_of_nonneg (by omega)
    have k3 : ((L.toNat : Nat) : Int) = L := Int.toNat_of_nonneg (by omega)
    push_cast
    rw [k1, k2, k3]
    ring
  · rw [c5]; exact c3
  · rw [c2, hlen]
    omega

end GenAntiHipr

namespace GenAntiHipr

section
set_option maxRecDepth 100000

/-- The run of `main` on the input 74, evaluated: at the closing assertions `ve` has 43
entries and `final_edges` has 76. -/
theorem atClosing_smallest :
    (atClosing 1 74).map (fun cl => (cl.ve.length, cl.final_edges.length)) =
      some (43, 76) := by
  decide

end

end GenAntiHipr

/-- C38 fails at the smallest accepted input: for `max_m = 74` the loop of `best_parameters`
is not entered, since `num_edges(1, 1, 1) = 76`, the graph of the initial triple `(1, 1, 1)`
is built, and `main` reaches the closing assertions with `ve.size() = 43` and
`final_edges.size() = 76 > 74`: the second assertion fails. For the accepted inputs 74 and
75 no header is printed, whatever the fuel. -/
theorem hipr_closing_assertion_fails_counterexample :
    GenAntiHipr.best_parameters 1 74 GenAntiHipr.MAX_CAP = some (1, 1, 1) ∧
    GenAntiHipr.num_edges 1 1 1 = 76 ∧
    (GenAntiHipr.atClosing 1 74).map (fun cl => (cl.ve.length, cl.final_edges.length)) =
      some (43, 76) ∧
    ∀ (max_m : Int) (fuel : Nat), 74 ≤ max_m → max_m < 76 →
      GenAntiHipr.header fuel max_m = none := by
  have h1 := GenAntiHipr.atClosing_smallest
  refine ⟨by decide, by decide, h1, ?_⟩
  intro max_m fuel hlo hhi
  cases fuel with
  | zero =>
    unfold GenAntiHipr.header GenAntiHipr.atClosing
    rw [if_pos ⟨hlo, by decide⟩]
    rfl
  | succ f =>
    have e : GenAntiHipr.atClosing (f + 1) max_m = GenAntiHipr.atClosing 1 74 := by
      unfold GenAntiHipr.atClosing
      rw [if_pos ⟨hlo, by decide⟩, if_pos ⟨by decide, by decide⟩,
        GenAntiHipr.hipr_best_parameters_small max_m _ hhi f,
        GenAntiHipr.hipr_best_parameters_small 74 _ (by decide) 0]
    unfold GenAntiHipr.header
    rw [e]
    cases hc : GenAntiHipr.atClosing 1 74 with
    | none => rfl
    | some cl =>
      rw [hc] at h1
      simp only [Option.map_some', Option.some.injEq, Prod.mk.injEq] at h1
      simp only
      rw [if_neg]
      rw [h1.2]
      omega

/-- C38, where the limit can be met: for every input `max_m >= 76` (and enough fuel for the
loops of `best_parameters`), `best_parameters` returns a triple `(K, W, L)` of positive numbers,
`main` reaches its closing assertions, `final_edges.size()` is twice the number of edges
constructed and equals `num_edges(K, W, L) <= max_m`, `ve.size()` is at least `n + 1` and
at most `final_edges.size()`, so both closing assertions hold, and the header
`p max [ve.size() - 1] [final_edges.size()]` is printed with an arc count of at most
`max_m`. -/
theorem hipr_closing_assertions_hold (max_m : Int) (hm : 76 ≤ max_m) (fuel : Nat)
    (hF : max_m.toNat + 2 < fuel) :
    ∃ K W L cl, GenAntiHipr.best_parameters fuel max_m GenAntiHipr.MAX_CAP = some (K, W, L) ∧
      1 ≤ K ∧ 1 ≤ W ∧ 1 ≤ L ∧
      GenAntiHipr.atClosing fuel max_m = some cl ∧
      cl.final_edges.length = 2 * (GenAntiHipr.edges K.toNat W.toNat L.toNat
        (GenAntiHipr.max_capacity K W L)).length ∧
      (cl.final_edges.length : Int) = GenAntiHipr.num_edges K W L ∧
      cl.t + 1 ≤ cl.ve.length ∧
      (cl.ve.length : Int) ≤ max_m ∧ (cl.final_edges.length : Int) ≤ max_m ∧
      GenAntiHipr.header fuel max_m = some (cl.ve.length - 1, cl.final_edges.length) := by
  obtain ⟨⟨K, W, L⟩, hb, g1, g2, g3, g4⟩ := GenAntiHipr.hipr_best_parameters_spec max_m
    GenAntiHipr.MAX_CAP hm (by decide) fuel hF
  have g1' : 1 ≤ K := g1
  have g2' : 1 ≤ W := g2
  have g3' : 1 ≤ L := g3
  have g4' : GenAntiHipr.ok max_m GenAntiHipr.MAX_CAP K W L = true := g4
  have hok := (GenAntiHipr.hipr_ok_iff _ _ _ _ _).mp g4'
  obtain ⟨cl, c1, c2, c3, c4, c5, _⟩ := GenAntiHipr.atClosing_spec fuel max_m K W L
    (by omega) hb g1' g2' g3'
  have hfe : (cl.final_edges.length : Int) ≤ max_m := by rw [c3]; exact hok.1
  have hve : (cl.ve.length : Int) ≤ max_m := by omega
  refine ⟨K, W, L, cl, hb, g1', g2', g3', c1, c2, c3, c4, hve, hfe, ?_⟩
  unfold GenAntiHipr.header
  rw [c1]
  simp only
  rw [if_pos ⟨hve, hfe⟩]

/-- The input `max_m = 76`, the smallest one for which the closing assertions hold, with
fuel 79. -/
theorem hipr_closing_assertions_hold_witness :
    ∃ K W L cl, GenAntiHipr.best_parameters 79 76 GenAntiHipr.MAX_CAP = some (K, W, L) ∧
      1 ≤ K ∧ 1 ≤ W ∧ 1 ≤ L ∧
      GenAntiHipr.atClosing 79 76 = some cl ∧
      cl.final_edges.length = 2 * (GenAntiHipr.edges K.toNat W.toNat L.toNat
        (GenAntiHipr.max_capacity K W L)).length ∧
      (cl.final_edges.length : Int) = GenAntiHipr.num_edges K W L ∧
      cl.t + 1 ≤ cl.ve.length ∧
      (cl.ve.length : Int) ≤ 76 ∧ (cl.final_edges.length : Int) ≤ 76 ∧
      GenAntiHipr.header 79 76 = some (cl.ve.length - 1, cl.final_edges.length) :=
  hipr_closing_assertions_hold 76 (by decide) 79 (by decide)

namespace Residual

theorem IsPath.concat {adj : Adj} : ∀ (p : List (Nat × Nat)) (u v w : Nat)
    (q : List (Nat × Nat)), IsPath adj u p v → IsPath adj v q w → IsPath adj u (p ++ q) w := by
  intro p
  induction p with
  | nil =>
    intro u v w q h1 h2
    have h : u = v := h1
    rw [h]
    exact h2
  | cons a p ih =>
    intro u v w q h1 h2
    obtain ⟨g1, g2, g3⟩ := h1
    exact ⟨g1, g2, ih _ _ _ _ g3 h2⟩

theorem bottleneck_append (adj : Adj) : ∀ (p : List (Nat × Nat)) (b : Int)
    (q : List (Nat × Nat)),
    bottleneck adj b (p ++ q) = bottleneck adj (bottleneck adj b p) q := by
  intro p
  induction p with
  | nil => intro b q; rfl
  | cons a p ih =>
    intro b q
    exact ih _ q

/-- A path of `k` arcs of positive capacity witnesses reachability in `k` steps. -/
theorem IsPath.reachIn {adj : Adj} {v : Nat} : ∀ (p : List (Nat × Nat)) (u : Nat),
    IsPath adj u p v → (∀ a ∈ p, 0 < (arc adj a.1 a.2).cap) → ReachIn adj u v p.length := by
  intro p
  induction p with
  | nil =>
    intro u h _
    have h' : u = v := h
    rw [h']
    exact ReachIn.refl
  | cons b p ih =>
    intro u h hc
    obtain ⟨h1, h2, h3⟩ := h
    have r1 : ReachIn adj b.1 (arc adj b.1 b.2).dst (0 + 1) :=
      ReachIn.step b.1 b.2 0 ReachIn.refl h2 (hc b (List.mem_cons_self _ _))
    have r2 := ih _ h3 (fun a ha => hc a (List.mem_cons_of_mem _ ha))
    have r3 := ReachIn.chainIn r1 r2
    rw [h1] at r3
    have e : (b :: p).length = 0 + 1 + p.length := by simp; omega
    rw [e]
    exact r3

end Residual

namespace EdmondsKarp

theorem seen_mark (n : Nat) (st st1 : State) (x : Nat) (r : Int) (hx : x < n)
    (hl : st.parent.length = n) (hr : r ≠ -1) (h1 : st1.parent = st.parent.set x r) :
    ∀ y, Seen n st1 y ↔ (Seen n st y ∨ y = x) := by
  intro y
  unfold Seen
  rw [h1, getD_set_eq, hl]
  by_cases hy : y = x
  · rw [if_pos ⟨hy, hx⟩, hy]
    simp [hx, hr]
  · rw [if_neg (fun c => hy c.1)]
    simp [hy]

/-- The search tree after a node has been reached for the first time, by the arc
`adj[v][i]`: it is one level below `v`. -/
theorem Tree.mark {A : Adj} {n s : Nat} {st : State} {dist : Nat → Nat}
    (hT : Tree A n s st dist) (hp : Paired A) (hlen : A.length = n) (v i : Nat)
    (hv : Seen n st v) (hi : i < (arcs A v).length)
    (hun : st.parent.getD (arc A v i).dst 0 = -1) (hcap : (arc A v i).cap ≠ 0)
    (hd : dist v + 1 < n) (st1 : State) (h1 : st1.adj = st.adj)
    (h2 : st1.parent = st.parent.set (arc A v i).dst ((arc A v i).rev : Int))
    (h3 : st1.path_cap = st.path_cap.set (arc A v i).dst
      (min (st.path_cap.getD v 0) (arc A v i).cap)) :
    Tree A n s st1 (fun y => if y = (arc A v i).dst then dist v + 1 else dist y) ∧
    ∀ y, Seen n st1 y ↔ (Seen n st y ∨ y = (arc A v i).dst) := by
  obtain ⟨p1, p2, p3, p4, p5⟩ := hp v i hi
  rw [hlen] at p1
  have hseen := seen_mark n st st1 (arc A v i).dst ((arc A v i).rev : Int) p1 hT.len_parent
    (by omega) h2
  have hxs : s ≠ (arc A v i).dst := by
    intro c
    have := hT.src_seen.2
    rw [c] at this
    exact this hun
  have hvx : v ≠ (arc A v i).dst := fun c => p2 c.symm
  have hne : ∀ z, Seen n st z → z ≠ (arc A v i).dst := by
    intro z hz c
    rw [c] at hz
    exact hz.2 hun
  refine ⟨⟨h1.trans hT.adj_eq, by rw [h2]; simp [hT.len_parent],
    by rw [h3]; simp [hT.len_pc], (hseen s).mpr (Or.inl hT.src_seen), ?_, ?_, ?_, ?_⟩, hseen⟩
  · show (if s = (arc A v i).dst then dist v + 1 else dist s) = 0
    rw [if_neg hxs]
    exact hT.dist_src
  · rw [h3, getD_set_eq, if_neg (fun c => hxs c.1)]
    exact hT.pc_src
  · intro y hy
    show (if y = (arc A v i).dst then dist v + 1 else dist y) < n
    split_ifs with c
    · exact hd
    · rcases (hseen y).mp hy with h | h
      · exact hT.dist_lt y h
      · exact absurd h c
  · intro y hy hys
    show 0 ≤ st1.parent.getD y 0 ∧ (st1.parent.getD y 0).toNat < (arcs A y).length ∧
      Seen n st1 (pred A st1.parent y) ∧
      (if y = (arc A v i).dst then dist v + 1 else dist y) =
        (if pred A st1.parent y = (arc A v i).dst then dist v + 1
          else dist (pred A st1.parent y)) + 1 ∧
      st1.path_cap.getD y 0 = min (st1.path_cap.getD (pred A st1.parent y) 0)
        (pairCap A y (st1.parent.getD y 0).toNat) ∧
      pairCap A y (st1.parent.getD y 0).toNat ≠ 0
    by_cases hyx : y = (arc A v i).dst
    · have e1 : st1.parent.getD y 0 = ((arc A v i).rev : Int) := by
        rw [h2, getD_set_eq, if_pos ⟨hyx, by rw [hT.len_parent]; exact p1⟩]
      have e2 : pred A st1.parent y = v := by
        unfold pred
        rw [e1, hyx, Int.toNat_ofNat, p4]
      have e3 : pairCap A y (st1.parent.getD y 0).toNat = (arc A v i).cap := by
        unfold pairCap
        rw [e1, hyx, Int.toNat_ofNat, p4, p5]
      rw [e2, e3, e1, Int.toNat_ofNat, if_pos hyx, if_neg hvx]
      refine ⟨Int.natCast_nonneg _, by rw [hyx]; exact p3, (hseen v).mpr (Or.inl hv), rfl,
        ?_, hcap⟩
      rw [h3, getD_set_eq, if_pos ⟨hyx, by rw [hT.len_pc]; exact p1⟩, getD_set_eq,
        if_neg (fun c => hvx c.1)]
    · have hy' : Seen n st y := by
        rcases (hseen y).mp hy with h | h
        · exact h
        · exact absurd h hyx
      obtain ⟨q1, q2, q3, q4, q5, q6⟩ := hT.node y hy' hys
      have e1 : st1.parent.getD y 0 = st.parent.getD y 0 := by
        rw [h2, getD_set_eq, if_neg (fun c => hyx c.1)]
      have e2 : pred A st1.parent y = pred A st.parent y := by
        unfold pred
        rw [e1]
      have hz := hne _ q3
      rw [e2, e1, if_neg hyx, if_neg hz]
      refine ⟨q1, q2, (hseen _).mpr (Or.inl q3), q4, ?_, q6⟩
      rw [h3, getD_set_eq, if_neg (fun c => hyx c.1), getD_set_eq, if_neg (fun c => hz c.1)]
      exact q5

/-- The queue after a newly reached node has been appended. -/
theorem Queue.enqueued {n t : Nat} {st : State} {qe : Nat} (hq : Queue n t st qe) (x : Nat)
    (r : Int) (hx : x < n) (hun : st.parent.getD x 0 = -1) (hxt : x ≠ t)
    (hseen : ∀ st2 : State, st2.parent = st.parent.set x r →
      ∀ y, Seen n st2 y ↔ (Seen n st y ∨ y = x))
    (st2 : State) (h2 : st2.parent = st.parent.set x r) (h4 : st2.que = st.que.set qe x) :
    qe < n ∧ Queue n t st2 (qe + 1) ∧ (∀ k, k < qe → st2.que.getD k 0 = st.que.getD k 0) ∧
      st2.que.getD qe 0 = x := by
  have hxQ : x ∉ st.que.take qe := by
    intro h
    exact ((hq.mem_iff _).mp h).2 hun
  have hqlen : (st.que.take qe).length = qe := by
    rw [List.length_take, hq.len_que]
    exact min_eq_left hq.qe_le
  have hqe : qe < n := by
    have := nodup_length_lt (st.que.take qe) n x hq.nodup
      (fun y hy => ((hq.mem_iff y).mp hy).1) hx hxQ
    omega
  have htake : (st.que.set qe x).take (qe + 1) = st.que.take qe ++ [x] :=
    take_set_succ _ _ _ (by rw [hq.len_que]; exact hqe)
  refine ⟨hqe, ⟨by rw [h4]; simp [hq.len_que], hqe, ?_, ?_, ?_⟩, ?_, ?_⟩
  · rw [h4, htake]
    apply List.Nodup.append hq.nodup (List.nodup_singleton _)
    intro a ha hb
    rw [List.mem_singleton] at hb
    rw [hb] at ha
    exact hxQ ha
  · intro y
    rw [h4, htake, hseen st2 h2, List.mem_append, List.mem_singleton, hq.mem_iff]
  · rw [h2, getD_set_eq, if_neg (fun c => hxt c.1.symm)]
    exact hq.t_unseen
  · intro k hk
    rw [h4, getD_set_eq, if_neg (fun c => by omega)]
  · rw [h4, getD_set_eq, if_pos ⟨rfl, by rw [hq.len_que]; exact hqe⟩]

end EdmondsKarp

namespace EdmondsKarp

/-- The level invariant after a node other than the sink has been reached for the first
time from `v = que[queBegin]` and appended to the queue. -/
theorem Level.visit {A : Adj} {n s t : Nat} {st : State} {qb qe : Nat} {dist : Nat → Nat}
    (hL : Level A n s t st qb qe dist) (hp : Paired A) (hlen : A.length = n) (hqb : qb < qe)
    (i : Nat) (hi : i < (arcs A (st.que.getD qb 0)).length)
    (hun : st.parent.getD (arc A (st.que.getD qb 0) i).dst 0 = -1)
    (hcap : (arc A (st.que.getD qb 0) i).cap ≠ 0)
    (hxt : (arc A (st.que.getD qb 0) i).dst ≠ t) (st2 : State) (h1 : st2.adj = st.adj)
    (h2 : st2.parent = st.parent.set (arc A (st.que.getD qb 0) i).dst
      ((arc A (st.que.getD qb 0) i).rev : Int))
    (h3 : st2.path_cap = st.path_cap.set (arc A (st.que.getD qb 0) i).dst
      (min (st.path_cap.getD (st.que.getD qb 0) 0) (arc A (st.que.getD qb 0) i).cap))
    (h4 : st2.que = st.que.set qe (arc A (st.que.getD qb 0) i).dst) :
    Level A n s t st2 qb (qe + 1)
      (fun y => if y = (arc A (st.que.getD qb 0) i).dst then dist (st.que.getD qb 0) + 1
        else dist y) ∧
    (∀ y, Seen n st2 y ↔ (Seen n st y ∨ y = (arc A (st.que.getD qb 0) i).dst)) ∧
    st2.que.getD qb 0 = st.que.getD qb 0 := by
  have hmem : ∀ j, j < qe → Seen n st (st.que.getD j 0) := fun j hj =>
    (hL.queue.mem_iff _).mp (getD_mem_take _ _ _ hj (by
      rw [hL.queue.len_que]; exact hL.queue.qe_le))
  have hv := hmem qb hqb
  obtain ⟨p1, _, _, _, _⟩ := hp _ i hi
  rw [hlen] at p1
  have hsn : ∀ st' : State, st'.parent = st.parent.set (arc A (st.que.getD qb 0) i).dst
      ((arc A (st.que.getD qb 0) i).rev : Int) →
      ∀ y, Seen n st' y ↔ (Seen n st y ∨ y = (arc A (st.que.getD qb 0) i).dst) :=
    fun st' h => seen_mark n st st' _ _ p1 hL.tree.len_parent (by omega) h
  obtain ⟨hqe, hq2, hpre, hlast⟩ := hL.queue.enqueued (arc A (st.que.getD qb 0) i).dst
    ((arc A (st.que.getD qb 0) i).rev : Int) p1 hun hxt hsn st2 h2 h4
  have hdv := hL.dist_le qb hqb
  obtain ⟨hT2, hseen⟩ := hL.tree.mark hp hlen (st.que.getD qb 0) i hv hi hun hcap
    (by omega) st2 h1 h2 h3
  have hne : ∀ z, Seen n st z → z ≠ (arc A (st.que.getD qb 0) i).dst := by
    intro z hz c
    rw [c] at hz
    exact hz.2 hun
  -- the levels of the queue entries
  have hold : ∀ j, j < qe →
      (if st2.que.getD j 0 = (arc A (st.que.getD qb 0) i).dst
        then dist (st.que.getD qb 0) + 1 else dist (st2.que.getD j 0)) =
        dist (st.que.getD j 0) := by
    intro j hj
    rw [hpre j hj, if_neg (hne _ (hmem j hj))]
  have hnew : (if st2.que.getD qe 0 = (arc A (st.que.getD qb 0) i).dst
      then dist (st.que.getD qb 0) + 1 else dist (st2.que.getD qe 0)) =
      dist (st.que.getD qb 0) + 1 := by
    rw [hlast, if_pos rfl]
  refine ⟨⟨hT2, hq2, ?_, ?_, ?_, ?_⟩, hseen, hpre qb hqb⟩
  · intro j hj
    by_cases hjq : j < qe
    · rw [hold j hjq]
      exact hL.dist_le j hjq
    · have : j = qe := by omega
      rw [this, hnew]
      omega
  · intro a b hab hb
    by_cases hbq : b < qe
    · rw [hold a (by omega), hold b hbq]
      exact hL.mono a b hab hbq
    · have hb' : b = qe := by omega
      rw [hb', hnew]
      by_cases haq : a < qe
      · rw [hold a haq]
        exact hL.near a hqb haq
      · have : a = qe := by omega
        rw [this, hnew]
  · intro j _ hj
    rw [hold qb hqb]
    by_cases hjq : j < qe
    · rw [hold j hjq]
      exact hL.near j hqb hjq
    · have : j = qe := by omega
      rw [this, hnew]
  · intro j hj k hk hc
    rw [hpre j (by omega)] at hk hc ⊢
    obtain ⟨c1, c2⟩ := hL.closed j hj k hk hc
    refine ⟨(hseen _).mpr (Or.inl c1), ?_⟩
    show (if (arc A (st.que.getD j 0) k).dst = _ then _ else dist _) ≤
      (if st.que.getD j 0 = _ then _ else dist (st.que.getD j 0)) + 1
    rw [if_neg (hne _ c1), if_neg (hne _ (hmem j (by omega)))]
    exact c2

/-- Every node that can be reached from `s` in `k` steps has been reached by the search at a
level of at most `k`, unless the queue still holds a node of a level below `k`. -/
theorem Level.lower_bound {A : Adj} {n s t : Nat} {st : State} {qb qe : Nat} {dist : Nat → Nat}
    (hL : Level A n s t st qb qe dist) {y k : Nat} (h : ReachIn A s y k) :
    (Seen n st y ∧ dist y ≤ k) ∨
      ∃ j, qb ≤ j ∧ j < qe ∧ dist (st.que.getD j 0) + 1 ≤ k := by
  induction h with
  | refl =>
    left
    exact ⟨hL.tree.src_seen, by rw [hL.tree.dist_src]⟩
  | step v i k _ hi hc ih =>
    rcases ih with ⟨h1, h2⟩ | ⟨j, j1, j2, j3⟩
    · obtain ⟨j, hj, hjv⟩ := exists_of_mem_take _ _ _ ((hL.queue.mem_iff v).mpr h1)
      by_cases hjq : j < qb
      · left
        have := hL.closed j hjq i (by rw [hjv]; exact hi) (by rw [hjv]; omega)
        rw [hjv] at this
        exact ⟨this.1, by omega⟩
      · right
        exact ⟨j, by omega, hj, by rw [hjv]; omega⟩
    · right
      exact ⟨j, j1, j2, by omega⟩

/-- The scan of the arcs of `v = que[queBegin]` keeps the level invariant; if it reaches
the sink, no path from `s` to the sink has fewer arcs than the level of the sink. -/
theorem bfsFor_level {A : Adj} {n s t : Nat} (hp : Paired A) (hlen : A.length = n)
    (qb : Nat) (v : Nat) :
    ∀ (es done : List Edge) (st : State) (qe : Nat) (dist : Nat → Nat),
      Level A n s t st qb qe dist → qb < qe → st.que.getD qb 0 = v →
      arcs A v = done ++ es → (∀ e ∈ done, e.cap ≠ 0 → Seen n st e.dst) →
      ((bfsFor t v es st qe).1 = false →
        ∃ dist', Level A n s t (bfsFor t v es st qe).2.1 qb (bfsFor t v es st qe).2.2 dist' ∧
          qe ≤ (bfsFor t v es st qe).2.2 ∧ (bfsFor t v es st qe).2.1.que.getD qb 0 = v ∧
          ∀ e ∈ arcs A v, e.cap ≠ 0 → Seen n (bfsFor t v es st qe).2.1 e.dst) ∧
      ((bfsFor t v es st qe).1 = true →
        ∃ dist', Tree A n s (bfsFor t v es st qe).2.1 dist' ∧
          Seen n (bfsFor t v es st qe).2.1 t ∧ ∀ k, ReachIn A s t k → dist' t ≤ k) := by
  intro es
  induction es with
  | nil =>
    intro done st qe dist hL _ hv hs hdone
    refine ⟨fun _ => ⟨dist, hL, le_refl _, hv, ?_⟩, fun h => by simp [bfsFor] at h⟩
    rw [hs, List.append_nil]
    exact hdone
  | cons e es ih =>
    intro done st qe dist hL hqb hv hs hdone
    have hi : done.length < (arcs A v).length := by
      rw [hs]; simp
    have he : arc A v done.length = e := by
      unfold arc
      rw [hs, List.getD_append_right _ _ _ _ (le_refl _)]
      simp
    have hs' : arcs A v = (done ++ [e]) ++ es := by
      rw [hs]; simp
    obtain ⟨p1, _, _, _, _⟩ := hp v done.length hi
    rw [he, hlen] at p1
    by_cases hskip : e.cap = 0 ∨ st.parent.getD e.dst 0 ≠ -1
    · have hb : bfsFor t v (e :: es) st qe = bfsFor t v es st qe := by
        rw [bfsFor, if_pos hskip]
      rw [hb]
      refine ih (done ++ [e]) st qe dist hL hqb hv hs' ?_
      intro e' he' hcap
      rcases List.mem_append.mp he' with h | h
      · exact hdone e' h hcap
      · rw [List.mem_singleton] at h
        rw [h] at hcap ⊢
        rcases hskip with h0 | h0
        · exact absurd h0 hcap
        · exact ⟨p1, h0⟩
    · have hcap : e.cap ≠ 0 := fun h => hskip (Or.inl h)
      have hun : st.parent.getD e.dst 0 = -1 := by
        by_contra h
        exact hskip (Or.inr h)
      have hmem : ∀ j, j < qe → Seen n st (st.que.getD j 0) := fun j hj =>
        (hL.queue.mem_iff _).mp (getD_mem_take _ _ _ hj (by
          rw [hL.queue.len_que]; exact hL.queue.qe_le))
      have hvs : Seen n st v := by rw [← hv]; exact hmem qb hqb
      by_cases het : e.dst = t
      · have hb : bfsFor t v (e :: es) st qe = (true,
            { st with
              parent := st.parent.set e.dst (e.rev : Int),
              path_cap := st.path_cap.set e.dst (min (st.path_cap.getD v 0) e.cap) }, qe) := by
          rw [bfsFor, if_neg hskip]
          simp only [het, if_true]
        rw [hb]
        refine ⟨fun h => by simp at h, fun _ => ?_⟩
        -- the queue is not full, since the sink is not in it
        have hxQ : e.dst ∉ st.que.take qe := by
          intro h
          exact ((hL.queue.mem_iff _).mp h).2 hun
        have hqlen : (st.que.take qe).length = qe := by
          rw [List.length_take, hL.queue.len_que]
          exact min_eq_left hL.queue.qe_le
        have hqe : qe < n := by
          have := nodup_length_lt (st.que.take qe) n e.dst hL.queue.nodup
            (fun y hy => ((hL.queue.mem_iff y).mp hy).1) p1 hxQ
          omega
        have hdv := hL.dist_le qb hqb
        rw [hv] at hdv
        obtain ⟨hT2, hseen⟩ := hL.tree.mark hp hlen v done.length hvs hi
          (by rw [he]; exact hun) (by rw [he]; exact hcap) (by omega)
          { st with
            parent := st.parent.set e.dst (e.rev : Int),
            path_cap := st.path_cap.set e.dst (min (st.path_cap.getD v 0) e.cap) } rfl
          (by rw [he]) (by rw [he])
        rw [he] at hT2 hseen
        refine ⟨_, hT2, (hseen t).mpr (Or.inr het.symm), ?_⟩
        intro k hk
        show (if t = e.dst then dist v + 1 else dist t) ≤ k
        rw [if_pos het.symm]
        rcases hL.lower_bound hk with ⟨c1, _⟩ | ⟨j, j1, j2, j3⟩
        · rw [← het] at c1
          exact absurd hun c1.2
        · have := hL.mono qb j j1 j2
          rw [hv] at this
          omega
      · have hb : bfsFor t v (e :: es) st qe = bfsFor t v es
            { st with
              parent := st.parent.set e.dst (e.rev : Int),
              path_cap := st.path_cap.set e.dst (min (st.path_cap.getD v 0) e.cap),
              que := st.que.set qe e.dst } (qe + 1) := by
          rw [bfsFor, if_neg hskip]
          simp only [het, if_false]
        rw [hb]
        have hvis := hL.visit hp hlen hqb done.length (by rw [hv]; exact hi)
          (by rw [hv, he]; exact hun) (by rw [hv, he]; exact hcap) (by rw [hv, he]; exact het)
          { st with
            parent := st.parent.set e.dst (e.rev : Int),
            path_cap := st.path_cap.set e.dst (min (st.path_cap.getD v 0) e.cap),
            que := st.que.set qe e.dst } rfl (by rw [hv, he]) (by rw [hv, he])
          (by rw [hv, he])
        rw [hv, he] at hvis
        obtain ⟨hL2, hseen2, hq2⟩ := hvis
        obtain ⟨r1, r2⟩ := ih (done ++ [e]) _ (qe + 1) _ hL2 (by omega) hq2 hs' (by
          intro e' he' hcap'
          rcases List.mem_append.mp he' with h | h
          · exact (hseen2 _).mpr (Or.inl (hdone e' h hcap'))
          · rw [List.mem_singleton] at h
            rw [h]
            exact (hseen2 _).mpr (Or.inr rfl))
        refine ⟨?_, r2⟩
        intro hf
        obtain ⟨d', a1, a2, a3, a4⟩ := r1 hf
        exact ⟨d', a1, by omega, a3, a4⟩

end EdmondsKarp

namespace EdmondsKarp

/-- The search loop keeps the level invariant; when it returns `true`, the parent pointers
form a tree with levels in which no path from `s` to the sink has fewer arcs than the level
of the sink. -/
theorem bfsWhile_level {A : Adj} {n s t : Nat} (hp : Paired A) (hlen : A.length = n) :
    ∀ (fuel : Nat) (st : State) (qb qe : Nat) (dist : Nat → Nat) (st' : State),
      Level A n s t st qb qe dist → bfsWhile t fuel st qb qe = some (true, st') →
      ∃ dist', Tree A n s st' dist' ∧ Seen n st' t ∧ ∀ k, ReachIn A s t k → dist' t ≤ k := by
  intro fuel
  induction fuel with
  | zero => intro st qb qe dist st' _ h; simp [bfsWhile] at h
  | succ f ih =>
    intro st qb qe dist st' hL h
    rw [bfsWhile] at h
    by_cases hlt : qb < qe
    · rw [if_pos hlt, hL.tree.adj_eq] at h
      obtain ⟨r1, r2⟩ := bfsFor_level (s := s) (t := t) hp hlen qb (st.que.getD qb 0)
        (arcs A (st.que.getD qb 0)) [] st qe dist hL hlt rfl (by simp) (by simp)
      rcases hres : bfsFor t (st.que.getD qb 0) (arcs A (st.que.getD qb 0)) st qe with
        ⟨found, st1, qe1⟩
      rw [hres] at r1 r2 h
      simp only at r1 r2 h
      cases found with
      | true =>
        simp only [Option.some.injEq, Prod.mk.injEq, true_and] at h
        rw [← h]
        exact r2 rfl
      | false =>
        simp only at h
        obtain ⟨d1, a1, a2, a3, a4⟩ := r1 rfl
        have hmem : ∀ j, j < qe1 → Seen n st1 (st1.que.getD j 0) := fun j hj =>
          (a1.queue.mem_iff _).mp (getD_mem_take _ _ _ hj (by
            rw [a1.queue.len_que]; exact a1.queue.qe_le))
        have hL1 : Level A n s t st1 (qb + 1) qe1 d1 := by
          refine ⟨a1.tree, a1.queue, a1.dist_le, a1.mono, ?_, ?_⟩
          · intro j hq hj
            have h1 := a1.near j (by omega) hj
            have h2 := a1.mono qb (qb + 1) (by omega) hq
            omega
          · intro j hj i hi hc
            by_cases hjq : j < qb
            · exact a1.closed j hjq i hi hc
            · have hjq' : j = qb := by omega
              rw [hjq'] at hi hc ⊢
              rw [a3] at hi hc ⊢
              have hs := a4 (arc A (st.que.getD qb 0) i)
                ((mem_arcs_iff _ _ _).mpr ⟨i, hi, rfl⟩) hc
              refine ⟨hs, ?_⟩
              obtain ⟨j', hj', hjx⟩ := exists_of_mem_take _ _ _ ((a1.queue.mem_iff _).mpr hs)
              have := a1.near j' (by omega) hj'
              rw [hjx, a3] at this
              exact this
        exact ih st1 (qb + 1) qe1 d1 st' hL1 h
    · rw [if_neg hlt] at h
      simp at h

/-- The level invariant holds when the search loop is entered. -/
theorem level_init {A0 : Adj} {n s t : Nat} (hs : s < n) (ht : t < n)
    (hst : s ≠ t) (st : State) (hI : FlowInv A0 n st) :
    Level st.adj n s t
      { st with
        parent := (List.replicate st.parent.length (-1)).set s (-2),
        path_cap := st.path_cap.set s INT_MAX,
        que := st.que.set 0 s } 0 1 (fun _ => 0) := by
  have hpar : ∀ x, ((List.replicate st.parent.length (-1 : Int)).set s (-2)).getD x 0 =
      if x = s then -2 else if x < n then -1 else 0 := by
    intro x
    rw [getD_set_eq, getD_replicate_eq, hI.len_parent]
    simp only [List.length_replicate, hI.len_parent, hs, and_true]
  have hseen : ∀ x, Seen n
      { st with
        parent := (List.replicate st.parent.length (-1)).set s (-2),
        path_cap := st.path_cap.set s INT_MAX,
        que := st.que.set 0 s } x ↔ x = s := by
    intro x
    unfold Seen
    simp only [hpar]
    constructor
    · rintro ⟨h1, h2⟩
      by_contra hx
      rw [if_neg hx, if_pos h1] at h2
      exact h2 rfl
    · intro h
      rw [h, if_pos rfl]
      exact ⟨hs, by decide⟩
  have hn1 : 1 ≤ n := by omega
  have htake : (st.que.set 0 s).take 1 = [s] := by
    have := take_set_succ st.que 0 s (by rw [hI.len_que]; omega)
    simpa using this
  refine ⟨⟨rfl, by simp [hI.len_parent], by simp [hI.len_pc], (hseen s).mpr rfl, rfl, ?_,
    fun _ _ => by omega, ?_⟩, ⟨by simp [hI.len_que], hn1, ?_, ?_, ?_⟩, fun _ _ => Nat.zero_le _,
    fun _ _ _ _ => le_refl _, fun _ _ _ => Nat.zero_le _, fun j hj => by omega⟩
  · show (st.path_cap.set s INT_MAX).getD s 0 = INT_MAX
    rw [getD_set_eq, if_pos ⟨rfl, by rw [hI.len_pc]; exact hs⟩]
  · intro x hx hxs
    exact absurd ((hseen x).mp hx) hxs
  · show ((st.que.set 0 s).take 1).Nodup
    rw [htake]; simp
  · intro x
    show x ∈ (st.que.set 0 s).take 1 ↔ _
    rw [htake, hseen]; simp
  · show ((List.replicate st.parent.length (-1 : Int)).set s (-2)).getD t 0 = -1
    rw [hpar, if_neg (fun c => hst c.symm), if_pos ht]

/-- In a search tree with levels, following `parent[]` from a reached node `x` leads back to
`s` along a path of non-zero capacities whose number of arcs is the level of `x` and whose
least capacity (capped by `INT_MAX`) is `path_cap[x]`. -/
theorem Tree.path {A : Adj} {n s : Nat} {st : State} {dist : Nat → Nat}
    (hT : Tree A n s st dist) (hp : Paired A) :
    ∀ (k x : Nat), Seen n st x → dist x ≤ k →
      IsPath A s (parentPath A st.parent s k x) x ∧
      (parentPath A st.parent s k x).length = dist x ∧
      (∀ a ∈ parentPath A st.parent s k x, (arc A a.1 a.2).cap ≠ 0) ∧
      bottleneck A INT_MAX (parentPath A st.parent s k x) = st.path_cap.getD x 0 := by
  have hroot : ∀ x, Seen n st x → dist x = 0 → x = s := by
    intro x hx h0
    by_contra hxs
    have := (hT.node x hx hxs).2.2.2.1
    omega
  intro k
  induction k with
  | zero =>
    intro x hx hd
    have hxs := hroot x hx (by omega)
    subst hxs
    refine ⟨rfl, by rw [hT.dist_src]; rfl, by simp [parentPath], ?_⟩
    rw [hT.pc_src]
    rfl
  | succ k ih =>
    intro x hx hd
    by_cases hxs : x = s
    · subst hxs
      have e : parentPath A st.parent x (k + 1) x = [] := by
        rw [parentPath, if_pos rfl]
      rw [e]
      refine ⟨rfl, by rw [hT.dist_src]; rfl, by simp, ?_⟩
      rw [hT.pc_src]
      rfl
    · obtain ⟨q1, q2, q3, q4, q5, q6⟩ := hT.node x hx hxs
      obtain ⟨_, _, p3, p4, _⟩ := hp x _ q2
      obtain ⟨i1, i2, i3, i4⟩ := ih (pred A st.parent x) q3 (by omega)
      have e : parentPath A st.parent s (k + 1) x =
          parentPath A st.parent s k (pred A st.parent x) ++ [parentArc A st.parent x] := by
        rw [parentPath, if_neg hxs]
      have hone : IsPath A (pred A st.parent x) [parentArc A st.parent x] x :=
        ⟨rfl, p3, p4⟩
      rw [e]
      refine ⟨IsPath.concat _ _ _ _ _ i1 hone, by rw [List.length_append, i2, q4]; rfl, ?_, ?_⟩
      · intro a ha
        rcases List.mem_append.mp ha with h | h
        · exact i3 a h
        · rw [List.mem_singleton] at h
          rw [h]
          exact q6
      · rw [bottleneck_append, i4, q5]
        rfl

end EdmondsKarp

/-- C33: for every state of `EdmondsKarp` whose network is a residual network on `n` nodes
(paired arcs, no negative capacity, work arrays of length `n`), and all `s ≠ t` below `n`,
`bfs()` returns (fuel above `n` is enough) without changing the network, and it returns
`true` exactly when `t` can be reached from `s` along arcs of positive residual capacity.
When it returns `true`, following `parent[]` from `t` leads back to `s` along a path `p` of
arcs of positive capacity; no path of positive capacity from `s` to `t` has fewer arcs than
`p`; and `path_cap[t]` is the minimum of `INT_MAX` and the capacities on `p`: it is at most
every capacity on `p`, and it is one of them when they are at most `INT_MAX`. -/
theorem ek_bfs_finds_shortest_path (A0 : Adj) (n s t : Nat) (st : EdmondsKarp.State)
    (hp : Paired A0) (hlen : A0.length = n) (hI : EdmondsKarp.FlowInv A0 n st)
    (hs : s < n) (ht : t < n) (hst : s ≠ t) (fuel : Nat) (hfuel : n < fuel) :
    ∃ found st', EdmondsKarp.bfs s t fuel st = some (found, st') ∧ st'.adj = st.adj ∧
      (found = true ↔ Reach st.adj s t) ∧
      (found = true →
        IsPath st.adj s (parentPath st.adj st'.parent s n t) t ∧
        (∀ a ∈ parentPath st.adj st'.parent s n t, 0 < (arc st.adj a.1 a.2).cap) ∧
        (∀ k, ReachIn st.adj s t k → (parentPath st.adj st'.parent s n t).length ≤ k) ∧
        (∀ q, IsPath st.adj s q t → (∀ a ∈ q, 0 < (arc st.adj a.1 a.2).cap) →
          (parentPath st.adj st'.parent s n t).length ≤ q.length) ∧
        st'.path_cap.getD t 0 = bottleneck st.adj INT_MAX (parentPath st.adj st'.parent s n t) ∧
        (∀ a ∈ parentPath st.adj st'.parent s n t,
          st'.path_cap.getD t 0 ≤ (arc st.adj a.1 a.2).cap) ∧
        ((∀ a ∈ parentPath st.adj st'.parent s n t, (arc st.adj a.1 a.2).cap ≤ INT_MAX) →
          ∃ a ∈ parentPath st.adj st'.parent s n t,
            (arc st.adj a.1 a.2).cap = st'.path_cap.getD t 0)) := by
  have hpa := hI.net.paired hp
  have hla : st.adj.length = n := hI.net.length_eq.trans hlen
  obtain ⟨found, st', rk, b1, b2, _, _, _, b5, b6⟩ := EdmondsKarp.bfs_spec hp hlen hs ht hst st
    hI fuel hfuel
  have hadj : st'.adj = st.adj := b2.adj_eq
  have hL := @EdmondsKarp.level_init A0 n s t hs ht hst st hI
  -- the facts about the path, when the search returns `true`
  have hpath : found = true →
      IsPath st.adj s (parentPath st.adj st'.parent s n t) t ∧
      (∀ a ∈ parentPath st.adj st'.parent s n t, 0 < (arc st.adj a.1 a.2).cap) ∧
      (∀ k, ReachIn st.adj s t k → (parentPath st.adj st'.parent s n t).length ≤ k) ∧
      st'.path_cap.getD t 0 =
        bottleneck st.adj INT_MAX (parentPath st.adj st'.parent s n t) := by
    intro hf
    rw [hf] at b1
    obtain ⟨dist, hT, hseen, hmin⟩ := EdmondsKarp.bfsWhile_level (s := s) (t := t) hpa hla fuel
      _ 0 1 _ st' hL b1
    obtain ⟨c1, c2, c3, c4⟩ := hT.path hpa n t hseen (le_of_lt (hT.dist_lt t hseen))
    refine ⟨c1, ?_, ?_, c4.symm⟩
    · intro a ha
      have h1 := c3 a ha
      have h2 := hI.net.nonneg a.1 a.2 (IsPath.arc_lt _ _ c1 a ha)
      omega
    · intro k hk
      rw [c2]
      exact hmin k hk
  refine ⟨found, st', b1, hadj, ?_, ?_⟩
  · constructor
    · intro hf
      obtain ⟨c1, c2, _, _⟩ := hpath hf
      exact IsPath.reach _ s c1 c2
    · intro hreach
      by_contra hc
      have hf : found = false := by simpa using hc
      obtain ⟨V, v1, v2, v3⟩ := b6 hf
      exact v2 (Reach.mem_closed V v1 v3 hreach)
  · intro hf
    obtain ⟨c1, c2, c3, c4⟩ := hpath hf
    have hle := bottleneck_le st.adj (parentPath st.adj st'.parent s n t) INT_MAX
    rw [← c4] at hle
    refine ⟨c1, c2, c3, ?_, c4, hle.2, ?_⟩
    · intro q hq hqc
      exact c3 q.length (IsPath.reachIn q s hq hqc)
    · intro hmax
      rcases bottleneck_attained st.adj (parentPath st.adj st'.parent s n t) INT_MAX with
        c | ⟨a, ha, c⟩
      · rw [← c4] at c
        cases hpp : parentPath st.adj st'.parent s n t with
        | nil =>
          rw [hpp] at c1
          exact absurd c1 hst
        | cons b p =>
          rw [hpp] at hle hmax
          refine ⟨b, List.mem_cons_self _ _, ?_⟩
          have e1 := hle.2 b (List.mem_cons_self _ _)
          have e2 := hmax b (List.mem_cons_self _ _)
          omega
      · rw [← c4] at c
        exact ⟨a, ha, c.symm⟩

/-- The diamond network of the specification, with `s = 0`, `t = 3` and fuel 5: `bfs()`
returns, and it returns `true` exactly when the sink can be reached. -/
theorem ek_bfs_finds_shortest_path_witness :
    ∃ found st', EdmondsKarp.bfs 0 3 5
        (EdmondsKarp.init 4 [(0, 1, 3), (0, 2, 2), (1, 3, 2), (2, 3, 3)]) = some (found, st') ∧
      st'.adj = (EdmondsKarp.init 4 [(0, 1, 3), (0, 2, 2), (1, 3, 2), (2, 3, 3)]).adj ∧
      (found = true ↔
        Reach (EdmondsKarp.init 4 [(0, 1, 3), (0, 2, 2), (1, 3, 2), (2, 3, 3)]).adj 0 3) :=
  have hr : InRange 4 [(0, 1, 3), (0, 2, 2), (1, 3, 2), (2, 3, 3)] := by
    intro e he; simp at he; rcases he with h | h | h | h <;> subst h <;> decide
  have hw := build_wellformed 4 [(0, 1, 3), (0, 2, 2), (1, 3, 2), (2, 3, 3)] hr
  match ek_bfs_finds_shortest_path (build 4 [(0, 1, 3), (0, 2, 2), (1, 3, 2), (2, 3, 3)])
    4 0 3 (EdmondsKarp.init 4 [(0, 1, 3), (0, 2, 2), (1, 3, 2), (2, 3, 3)]) hw.2.1 hw.1
    (EdmondsKarp.ek_flowInv_init 4 _ hr) (by decide) (by decide) (by decide) 5 (by decide) with
  | ⟨found, st', h1, h2, h3, _⟩ => ⟨found, st', h1, h2, h3⟩

namespace Dinic

theorem dinic_label_set (st : State) (n x c : Nat) (hx : x < n) (hl : st.label.length = n) :
    ∀ y, (st.label.set x c).getD y 0 = if y = x then c else st.label.getD y 0 := by
  intro y
  rw [getD_set_eq]
  by_cases hy : y = x
  · rw [if_pos ⟨hy, by rw [hl]; exact hx⟩, if_pos hy]
  · rw [if_neg (fun h => hy h.1), if_neg hy]

theorem dinic_seen_mark (n : Nat) (st st1 : State) (x c : Nat) (hx : x < n)
    (hl : st.label.length = n) (hc : c < n) (h1 : st1.label = st.label.set x c) :
    ∀ y, Seen n st1 y ↔ (Seen n st y ∨ y = x) := by
  intro y
  unfold Seen
  rw [h1, dinic_label_set st n x c hx hl]
  by_cases hy : y = x
  · rw [if_pos hy, hy]
    simp [hx, hc]
  · rw [if_neg hy]
    simp [hy]

/-- The queue after a newly labelled node has been appended. -/
theorem Queue.dinic_enqueued {n t : Nat} {st : State} {qe : Nat} (hq : Queue n t st qe)
    (x c : Nat) (hx : x < n) (hun : ¬ st.label.getD x 0 < n) (hxt : x ≠ t)
    (hl : st.label.length = n) (hc : c < n)
    (st2 : State) (h2 : st2.label = st.label.set x c) (h4 : st2.que = st.que.set qe x) :
    Queue n t st2 (qe + 1) ∧ (∀ k, k < qe → st2.que.getD k 0 = st.que.getD k 0) ∧
      st2.que.getD qe 0 = x := by
  have hseen := dinic_seen_mark n st st2 x c hx hl hc h2
  have hxQ : x ∉ st.que.take qe := by
    intro h
    exact hun ((hq.mem_iff _).mp h).2
  have hqlen : (st.que.take qe).length = qe := by
    rw [List.length_take, hq.len_que]
    exact min_eq_left hq.qe_le
  have hqe : qe < n := by
    have := nodup_length_lt (st.que.take qe) n x hq.nodup
      (fun y hy => ((hq.mem_iff y).mp hy).1) hx hxQ
    omega
  have htake : (st.que.set qe x).take (qe + 1) = st.que.take qe ++ [x] :=
    take_set_succ _ _ _ (by rw [hq.len_que]; exact hqe)
  refine ⟨⟨by rw [h4]; simp [hq.len_que], hqe, ?_, ?_, ?_⟩, ?_, ?_⟩
  · rw [h4, htake]
    apply List.Nodup.append hq.nodup (List.nodup_singleton _)
    intro a ha hb
    rw [List.mem_singleton] at hb
    rw [hb] at ha
    exact hxQ ha
  · intro y
    rw [h4, htake, hseen, List.mem_append, List.mem_singleton, hq.mem_iff]
  · rw [h2, dinic_label_set st n x c hx hl, if_neg (fun h => hxt h.symm)]
    exact hq.t_unseen
  · intro k hk
    rw [h4, getD_set_eq, if_neg (fun h => by omega)]
  · rw [h4, getD_set_eq, if_pos ⟨rfl, by rw [hq.len_que]; exact hqe⟩]

/-- The queue is not full while some node is not labelled. -/
theorem Queue.dinic_room {n t : Nat} {st : State} {qe : Nat} (hq : Queue n t st qe)
    (x : Nat) (hx : x < n) (hun : ¬ st.label.getD x 0 < n) : qe < n := by
  have hxQ : x ∉ st.que.take qe := by
    intro h
    exact hun ((hq.mem_iff _).mp h).2
  have hqlen : (st.que.take qe).length = qe := by
    rw [List.length_take, hq.len_que]
    exact min_eq_left hq.qe_le
  have := nodup_length_lt (st.que.take qe) n x hq.nodup
    (fun y hy => ((hq.mem_iff y).mp hy).1) hx hxQ
  omega

theorem Level.dinic_mem {A : Adj} {n s t : Nat} {st : State} {qb qe : Nat}
    (hL : Level A n s t st qb qe) : ∀ j, j < qe → Seen n st (st.que.getD j 0) :=
  fun j hj => (hL.queue.mem_iff _).mp (getD_mem_take _ _ _ hj (by
    rw [hL.queue.len_que]; exact hL.queue.qe_le))

/-- Every node that can be reached from `s` in `k` steps is labelled with at most `k`,
unless the queue still holds a node with a label below `k`. -/
theorem Level.dinic_lower_bound {A : Adj} {n s t : Nat} {st : State} {qb qe : Nat}
    (hL : Level A n s t st qb qe) {y k : Nat} (h : ReachIn A s y k) :
    (Seen n st y ∧ st.label.getD y 0 ≤ k) ∨
      ∃ j, qb ≤ j ∧ j < qe ∧ st.label.getD (st.que.getD j 0) 0 + 1 ≤ k := by
  induction h with
  | refl =>
    left
    exact ⟨hL.src_seen, by rw [hL.lab_src]⟩
  | step v i k _ hi hc ih =>
    rcases ih with ⟨h1, h2⟩ | ⟨j, j1, j2, j3⟩
    · obtain ⟨j, hj, hjv⟩ := exists_of_mem_take _ _ _ ((hL.queue.mem_iff v).mpr h1)
      by_cases hjq : j < qb
      · left
        have := hL.closed j hjq i (by rw [hjv]; exact hi) (by rw [hjv]; omega)
        rw [hjv] at this
        exact ⟨this.1, by omega⟩
      · right
        exact ⟨j, by omega, hj, by rw [hjv]; omega⟩
    · right
      exact ⟨j, j1, j2, by omega⟩

/-- The labels given so far are shortest distances. -/
theorem Level.dinic_exact {A : Adj} {n s t : Nat} {st : State} {qb qe : Nat}
    (hL : Level A n s t st qb qe) : Exact A n s st := by
  intro x hx
  refine ⟨hL.reach x hx, ?_⟩
  intro k hk
  rcases hL.dinic_lower_bound hk with ⟨_, h2⟩ | ⟨j, j1, j2, j3⟩
  · exact h2
  · obtain ⟨j', hj', hjx⟩ := exists_of_mem_take _ _ _ ((hL.queue.mem_iff x).mpr hx)
    have h1 := hL.near j' (by omega) hj'
    have h2 := hL.mono qb j j1 j2
    rw [hjx] at h1
    omega

/-- The level invariant after a node other than the sink has been labelled from
`v = que[queBegin]` and appended to the queue. -/
theorem Level.dinic_visit {A : Adj} {n s t : Nat} {st : State} {qb qe : Nat}
    (hL : Level A n s t st qb qe) (hp : Paired A) (hlen : A.length = n)
    (hnn : ∀ u i, i < (arcs A u).length → 0 ≤ (arc A u i).cap) (hqb : qb < qe)
    (i : Nat) (hi : i < (arcs A (st.que.getD qb 0)).length)
    (hun : ¬ st.label.getD (arc A (st.que.getD qb 0) i).dst 0 < n)
    (hcap : (arc A (st.que.getD qb 0) i).cap ≠ 0)
    (hxt : (arc A (st.que.getD qb 0) i).dst ≠ t) (st2 : State) (h1 : st2.adj = st.adj)
    (h2 : st2.label = st.label.set (arc A (st.que.getD qb 0) i).dst
      (st.label.getD (st.que.getD qb 0) 0 + 1))
    (h4 : st2.que = st.que.set qe (arc A (st.que.getD qb 0) i).dst) :
    Level A n s t st2 qb (qe + 1) ∧
    (∀ y, Seen n st2 y ↔ (Seen n st y ∨ y = (arc A (st.que.getD qb 0) i).dst)) ∧
    st2.que.getD qb 0 = st.que.getD qb 0 := by
  have hmem := hL.dinic_mem
  have hv := hmem qb hqb
  obtain ⟨p1, _, _, _, _⟩ := hp _ i hi
  rw [hlen] at p1
  have hqe := hL.queue.dinic_room _ p1 hun
  have hdv := hL.dist_le qb hqb
  have hc : st.label.getD (st.que.getD qb 0) 0 + 1 < n := by omega
  have hseen := dinic_seen_mark n st st2 _ _ p1 hL.len_label hc h2
  obtain ⟨hq2, hpre, hlast⟩ := hL.queue.dinic_enqueued _ _ p1 hun hxt hL.len_label hc st2 h2 h4
  have hlab := dinic_label_set st n _ (st.label.getD (st.que.getD qb 0) 0 + 1) p1 hL.len_label
  have hne : ∀ z, Seen n st z → z ≠ (arc A (st.que.getD qb 0) i).dst := by
    intro z hz c
    rw [c] at hz
    exact hun hz.2
  have hold : ∀ z, Seen n st z → st2.label.getD z 0 = st.label.getD z 0 := by
    intro z hz
    rw [h2, hlab, if_neg (hne z hz)]
  have hnewl : st2.label.getD (arc A (st.que.getD qb 0) i).dst 0 =
      st.label.getD (st.que.getD qb 0) 0 + 1 := by
    rw [h2, hlab, if_pos rfl]
  have holdq : ∀ j, j < qe →
      st2.label.getD (st2.que.getD j 0) 0 = st.label.getD (st.que.getD j 0) 0 := by
    intro j hj
    rw [hpre j hj, hold _ (hmem j hj)]
  have hnewq : st2.label.getD (st2.que.getD qe 0) 0 =
      st.label.getD (st.que.getD qb 0) 0 + 1 := by
    rw [hlast, hnewl]
  refine ⟨⟨h1.trans hL.adj_eq, by rw [h2]; simp [hL.len_label], hq2,
    (hseen s).mpr (Or.inl hL.src_seen), ?_, ?_, ?_, ?_, ?_, ?_⟩, hseen, hpre qb hqb⟩
  · rw [hold s hL.src_seen]
    exact hL.lab_src
  · intro y hy
    rcases (hseen y).mp hy with h | h
    · rw [hold y h]
      exact hL.reach y h
    · rw [h, hnewl]
      have hpos : 0 < (arc A (st.que.getD qb 0) i).cap := by
        have := hnn _ i hi
        omega
      exact ReachIn.step _ i _ (hL.reach _ hv) hi hpos
  · intro j hj
    by_cases hjq : j < qe
    · rw [holdq j hjq]
      exact hL.dist_le j hjq
    · have : j = qe := by omega
      rw [this, hnewq]
      omega
  · intro a b hab hb
    by_cases hbq : b < qe
    · rw [holdq a (by omega), holdq b hbq]
      exact hL.mono a b hab hbq
    · have hb' : b = qe := by omega
      rw [hb', hnewq]
      by_cases haq : a < qe
      · rw [holdq a haq]
        exact hL.near a hqb haq
      · have : a = qe := by omega
        rw [this, hnewq]
  · intro j _ hj
    rw [holdq qb hqb]
    by_cases hjq : j < qe
    · rw [holdq j hjq]
      exact hL.near j hqb hjq
    · have : j = qe := by omega
      rw [this, hnewq]
  · intro j hj k hk hc'
    rw [hpre j (by omega)] at hk hc' ⊢
    obtain ⟨c1, c2⟩ := hL.closed j hj k hk hc'
    refine ⟨(hseen _).mpr (Or.inl c1), ?_⟩
    rw [hold _ c1, hold _ (hmem j (by omega))]
    exact c2

end Dinic

namespace Dinic

/-- The scan of the arcs of `v = que[queBegin]` keeps the level invariant; if it labels the
sink, all labels are shortest distances. -/
theorem dinic_bfsFor_level {A : Adj} {n s t : Nat} (hp : Paired A) (hlen : A.length = n)
    (hnn : ∀ u i, i < (arcs A u).length → 0 ≤ (arc A u i).cap) (qb : Nat) (v : Nat) :
    ∀ (es done : List Edge) (st : State) (qe : Nat),
      Level A n s t st qb qe → qb < qe → st.que.getD qb 0 = v →
      arcs A v = done ++ es → (∀ e ∈ done, e.cap ≠ 0 → Seen n st e.dst) →
      ((bfsFor n t v es st qe).1 = false →
        Level A n s t (bfsFor n t v es st qe).2.1 qb (bfsFor n t v es st qe).2.2 ∧
          qe ≤ (bfsFor n t v es st qe).2.2 ∧ (bfsFor n t v es st qe).2.1.que.getD qb 0 = v ∧
          ∀ e ∈ arcs A v, e.cap ≠ 0 → Seen n (bfsFor n t v es st qe).2.1 e.dst) ∧
      ((bfsFor n t v es st qe).1 = true →
        Exact A n s (bfsFor n t v es st qe).2.1 ∧ Seen n (bfsFor n t v es st qe).2.1 t) := by
  intro es
  induction es with
  | nil =>
    intro done st qe hL _ hv hs hdone
    refine ⟨fun _ => ⟨hL, le_refl _, hv, ?_⟩, fun h => by simp [bfsFor] at h⟩
    rw [hs, List.append_nil]
    exact hdone
  | cons e es ih =>
    intro done st qe hL hqb hv hs hdone
    have hi : done.length < (arcs A v).length := by
      rw [hs]; simp
    have he : arc A v done.length = e := by
      unfold arc
      rw [hs, List.getD_append_right _ _ _ _ (le_refl _)]
      simp
    have hs' : arcs A v = (done ++ [e]) ++ es := by
      rw [hs]; simp
    obtain ⟨p1, _, _, _, _⟩ := hp v done.length hi
    rw [he, hlen] at p1
    by_cases hskip : e.cap = 0 ∨ st.label.getD e.dst 0 < n
    · have hb : bfsFor n t v (e :: es) st qe = bfsFor n t v es st qe := by
        rw [bfsFor, if_pos hskip]
      rw [hb]
      refine ih (done ++ [e]) st qe hL hqb hv hs' ?_
      intro e' he' hcap
      rcases List.mem_append.mp he' with h | h
      · exact hdone e' h hcap
      · rw [List.mem_singleton] at h
        rw [h] at hcap ⊢
        rcases hskip with h0 | h0
        · exact absurd h0 hcap
        · exact ⟨p1, h0⟩
    · have hcap : e.cap ≠ 0 := fun h => hskip (Or.inl h)
      have hun : ¬ st.label.getD e.dst 0 < n := fun h => hskip (Or.inr h)
      have hvs : Seen n st v := by rw [← hv]; exact hL.dinic_mem qb hqb
      by_cases het : e.dst = t
      · have hb : bfsFor n t v (e :: es) st qe = (true,
            { st with label := st.label.set e.dst (st.label.getD v 0 + 1) }, qe) := by
          rw [bfsFor, if_neg hskip]
          simp only [het, if_true]
        rw [hb]
        refine ⟨fun h => by simp at h, fun _ => ?_⟩
        have hqe := hL.queue.dinic_room _ p1 hun
        have hdv := hL.dist_le qb hqb
        rw [hv] at hdv
        have hc : st.label.getD v 0 + 1 < n := by omega
        have hseen := dinic_seen_mark n st
          { st with label := st.label.set e.dst (st.label.getD v 0 + 1) } e.dst
          (st.label.getD v 0 + 1) p1 hL.len_label hc rfl
        have hlab := dinic_label_set st n e.dst (st.label.getD v 0 + 1) p1 hL.len_label
        have hex := hL.dinic_exact
        refine ⟨?_, (hseen t).mpr (Or.inr het.symm)⟩
        intro y hy
        show IsDist A s y ((st.label.set e.dst (st.label.getD v 0 + 1)).getD y 0)
        rw [hlab]
        by_cases hye : y = e.dst
        · rw [if_pos hye, hye]
          constructor
          · have hpos : 0 < (arc A v done.length).cap := by
              have := hnn v _ hi
              rw [he] at this ⊢
              omega
            have := ReachIn.step v done.length _ (hL.reach v hvs) hi hpos
            rw [he] at this
            exact this
          · intro k hk
            rcases hL.dinic_lower_bound hk with ⟨c1, _⟩ | ⟨j, j1, j2, j3⟩
            · exact absurd c1.2 hun
            · have := hL.mono qb j j1 j2
              rw [hv] at this
              omega
        · rw [if_neg hye]
          rcases (hseen y).mp hy with h | h
          · exact hex y h
          · exact absurd h hye
      · have hb : bfsFor n t v (e :: es) st qe = bfsFor n t v es
            { st with
              label := st.label.set e.dst (st.label.getD v 0 + 1),
              que := st.que.set qe e.dst } (qe + 1) := by
          rw [bfsFor, if_neg hskip]
          simp only [het, if_false]
        rw [hb]
        have hvis := hL.dinic_visit hp hlen hnn hqb done.length (by rw [hv]; exact hi)
          (by rw [hv, he]; exact hun) (by rw [hv, he]; exact hcap)
          (by rw [hv, he]; exact het)
          { st with
            label := st.label.set e.dst (st.label.getD v 0 + 1),
            que := st.que.set qe e.dst } rfl (by rw [hv, he]) (by rw [hv, he])
        rw [hv, he] at hvis
        obtain ⟨hL2, hseen2, hq2⟩ := hvis
        obtain ⟨r1, r2⟩ := ih (done ++ [e]) _ (qe + 1) hL2 (by omega) hq2 hs' (by
          intro e' he' hcap'
          rcases List.mem_append.mp he' with h | h
          · exact (hseen2 _).mpr (Or.inl (hdone e' h hcap'))
          · rw [List.mem_singleton] at h
            rw [h]
            exact (hseen2 _).mpr (Or.inr rfl))
        refine ⟨?_, r2⟩
        intro hf
        obtain ⟨a1, a2, a3, a4⟩ := r1 hf
        exact ⟨a1, by omega, a3, a4⟩

/-- The search loop keeps the level invariant; when it returns `true`, every label below
`n` is a shortest distance from `s`. -/
theorem dinic_bfsWhile_level {A : Adj} {n s t : Nat} (hp : Paired A) (hlen : A.length = n)
    (hnn : ∀ u i, i < (arcs A u).length → 0 ≤ (arc A u i).cap) :
    ∀ (fuel : Nat) (st : State) (qb qe : Nat) (st' : State),
      Level A n s t st qb qe → bfsWhile n t fuel st qb qe = some (true, st') →
      Exact A n s st' ∧ Seen n st' t := by
  intro fuel
  induction fuel with
  | zero => intro st qb qe st' _ h; simp [bfsWhile] at h
  | succ f ih =>
    intro st qb qe st' hL h
    rw [bfsWhile] at h
    by_cases hlt : qb < qe
    · rw [if_pos hlt, hL.adj_eq] at h
      obtain ⟨r1, r2⟩ := dinic_bfsFor_level (s := s) (t := t) hp hlen hnn qb
        (st.que.getD qb 0) (arcs A (st.que.getD qb 0)) [] st qe hL hlt rfl (by simp) (by simp)
      rcases hres : bfsFor n t (st.que.getD qb 0) (arcs A (st.que.getD qb 0)) st qe with
        ⟨found, st1, qe1⟩
      rw [hres] at r1 r2 h
      simp only at r1 r2 h
      cases found with
      | true =>
        simp only [Option.some.injEq, Prod.mk.injEq, true_and] at h
        rw [← h]
        exact r2 rfl
      | false =>
        simp only at h
        obtain ⟨a1, a2, a3, a4⟩ := r1 rfl
        have hL1 : Level A n s t st1 (qb + 1) qe1 := by
          refine ⟨a1.adj_eq, a1.len_label, a1.queue, a1.src_seen, a1.lab_src, a1.reach,
            a1.dist_le, a1.mono, ?_, ?_⟩
          · intro j hq hj
            have h1 := a1.near j (by omega) hj
            have h2 := a1.mono qb (qb + 1) (by omega) hq
            omega
          · intro j hj i hi hc
            by_cases hjq : j < qb
            · exact a1.closed j hjq i hi hc
            · have hjq' : j = qb := by omega
              rw [hjq'] at hi hc ⊢
              rw [a3] at hi hc ⊢
              have hs := a4 (arc A (st.que.getD qb 0) i)
                ((mem_arcs_iff _ _ _).mpr ⟨i, hi, rfl⟩) hc
              refine ⟨hs, ?_⟩
              obtain ⟨j', hj', hjx⟩ := exists_of_mem_take _ _ _ ((a1.queue.mem_iff _).mpr hs)
              have := a1.near j' (by omega) hj'
              rw [hjx, a3] at this
              exact this
        exact ih st1 (qb + 1) qe1 st' hL1 h
    · rw [if_neg hlt] at h
      simp at h

end Dinic

namespace Dinic

/-- The level invariant holds when the search loop is entered. -/
theorem dinic_level_init {A0 : Adj} {n s t : Nat} (hs : s < n) (ht : t < n)
    (hst : s ≠ t) (st : State) (hI : FlowInv A0 n st) :
    Level st.adj n s t
      { st with
        label := (List.replicate st.label.length n).set s 0,
        que := st.que.set 0 s } 0 1 := by
  have hlab : ∀ x, ((List.replicate st.label.length n).set s 0).getD x 0 =
      if x = s then 0 else if x < n then n else 0 := by
    intro x
    rw [getD_set_eq, getD_replicate_eq, hI.len_label]
    simp only [List.length_replicate, hI.len_label, hs, and_true]
  have hseen : ∀ x, Seen n
      { st with
        label := (List.replicate st.label.length n).set s 0,
        que := st.que.set 0 s } x ↔ x = s := by
    intro x
    unfold Seen
    simp only [hlab]
    constructor
    · rintro ⟨h1, h2⟩
      by_contra hx
      rw [if_neg hx, if_pos h1] at h2
      omega
    · intro h
      rw [h, if_pos rfl]
      exact ⟨hs, by omega⟩
  have hn1 : 1 ≤ n := by omega
  have htake : (st.que.set 0 s).take 1 = [s] := by
    have := take_set_succ st.que 0 s (by rw [hI.len_que]; omega)
    simpa using this
  have hq0s : (st.que.set 0 s).getD 0 0 = s := by
    rw [getD_set_eq, if_pos ⟨rfl, by rw [hI.len_que]; omega⟩]
  have hl0 : ((List.replicate st.label.length n).set s 0).getD s 0 = 0 := by
    rw [hlab, if_pos rfl]
  refine ⟨rfl, by simp [hI.len_label], ⟨by simp [hI.len_que], hn1, ?_, ?_, ?_⟩,
    (hseen s).mpr rfl, hl0, ?_, ?_, ?_, ?_, fun j hj => by omega⟩
  · show ((st.que.set 0 s).take 1).Nodup
    rw [htake]; simp
  · intro x
    show x ∈ (st.que.set 0 s).take 1 ↔ _
    rw [htake, hseen]; simp
  · show ¬ ((List.replicate st.label.length n).set s 0).getD t 0 < n
    rw [hlab, if_neg (fun c => hst c.symm), if_pos ht]
    omega
  · intro x hx
    have hxs := (hseen x).mp hx
    show ReachIn st.adj s x (((List.replicate st.label.length n).set s 0).getD x 0)
    rw [hxs, hl0]
    exact ReachIn.refl
  · intro j hj
    have hj0 : j = 0 := by omega
    show ((List.replicate st.label.length n).set s 0).getD ((st.que.set 0 s).getD j 0) 0 ≤ j
    rw [hj0, hq0s, hl0]
  · intro i j hij hj
    have hj0 : j = 0 := by omega
    have hi0 : i = 0 := by omega
    rw [hi0, hj0]
  · intro j _ hj
    have hj0 : j = 0 := by omega
    rw [hj0]
    exact Nat.le_succ _

/-- The log after level-respecting updates has the shape of the network at the start, and
every capacity that is smaller than at the start belongs to an arc that rises by exactly one
level. -/
theorem LevelSteps.decreased {lab : Nat → Nat} {adj : Adj} {hist : List Adj} (hp : Paired adj)
    {adj' : Adj} {hist' : List Adj} (h : LevelSteps lab adj hist adj' hist') :
    SameShape adj adj' ∧ (∃ new, hist' = new ++ hist) ∧
      ∀ u i, i < (arcs adj u).length → (arc adj' u i).cap < (arc adj u i).cap →
        lab (arc adj u i).dst = lab u + 1 := by
  induction h with
  | refl => exact ⟨SameShape.refl _, ⟨[], rfl⟩, fun u i _ hc => absurd hc (lt_irrefl _)⟩
  | step adj1 hist1 v i d _ hi hd hl ih =>
    obtain ⟨hs1, ⟨new, hn⟩, ih3⟩ := ih
    have hp1 : Paired adj1 := Paired.of_sameShape hp hs1
    obtain ⟨_, _, _, p4, _⟩ := hp1 v i hi
    refine ⟨SameShape.trans hs1 (SameShape.pushFlow _ _ _ _), ⟨_ :: new, by rw [hn]; rfl⟩, ?_⟩
    intro u j hj hc
    rw [cap_pushFlow hp1 v i (-d) hi u j] at hc
    by_cases c2 : u = (arc adj1 v i).dst ∧ j = (arc adj1 v i).rev
    · -- the arc paired with `adj[v][i]`: it leads to `v`
      have e1 : (arc adj u j).dst = v := by
        rw [← ((hs1.2 u).2 j).1, c2.1, c2.2]
        exact p4
      rw [e1, c2.1]
      exact hl
    · rw [if_neg c2] at hc
      apply ih3 u j hj
      by_cases c1 : u = v ∧ j = i
      · rw [if_pos c1] at hc
        omega
      · rw [if_neg c1] at hc
        omega

end Dinic

namespace Dinic

theorem LevelSteps.followed_by {lab : Nat → Nat} {a : Adj} {h : List Adj} {a1 : Adj}
    {h1 : List Adj} {a2 : Adj} {h2 : List Adj} (s1 : LevelSteps lab a h a1 h1)
    (s2 : LevelSteps lab a1 h1 a2 h2) : LevelSteps lab a h a2 h2 := by
  induction s2 with
  | refl => exact s1
  | step adj1 hist1 v i d _ hi hd hl ih => exact LevelSteps.step adj1 hist1 v i d ih hi hd hl

/-- The invariant of a phase after an update along an arc that rises by one level. -/
theorem Phase.dinic_pushed {A0 : Adj} {n : Nat} {lab : Nat → Nat} {st1 : State}
    (hP : Phase A0 n lab st1) (hp : Paired A0) (v i : Nat) (d : Int)
    (hi : i < (arcs st1.adj v).length)
    (hnew : NetInv A0 (pushFlow st1.adj v i (-d)))
    (hl : lab v = lab (arc st1.adj v i).dst + 1) (st2 : State)
    (h1 : st2.adj = pushFlow st1.adj v i (-d)) (h2 : st2.label = st1.label)
    (h3 : st2.iter.length = n) : Phase A0 n lab st2 := by
  have hp1 := hP.net.paired hp
  obtain ⟨_, _, _, p4, _⟩ := hp1 v i hi
  have hss := SameShape.pushFlow st1.adj v i (-d)
  refine ⟨by rw [h1]; exact hnew, by rw [h2]; exact hP.len_label, h3,
    by rw [h2]; exact hP.lab_eq, ?_⟩
  intro x j hj hc hx hd
  rw [h1] at hj hc hd ⊢
  rw [((hss.2 x).2 j).1] at hd ⊢
  rw [(hss.2 x).1] at hj
  by_cases c1 : x = v ∧ j = i
  · rw [c1.1, c1.2]
    omega
  · by_cases c2 : x = (arc st1.adj v i).dst ∧ j = (arc st1.adj v i).rev
    · rw [c2.1, c2.2, p4]
      omega
    · rw [cap_pushFlow hp1 v i (-d) hi x j, if_neg c1, if_neg c2] at hc
      exact hP.lvl x j hj (by simpa using hc) hx hd

/-- The loop over the arcs of `v` in `dfs` only updates along arcs that rise by one level
with respect to the labels of `bfs`, given that the recursive calls do so. -/
theorem dinic_dfsFor_levels {A0 : Adj} {n s : Nat} (hp : Paired A0) (hlen : A0.length = n)
    (lab : Nat → Nat) (rec : Nat → Int → State → Option (Int × State)) (v : Nat) (up : Int)
    (hv : v < n) (hlv : lab v < n)
    (hrec : ∀ u up' st r, Phase A0 n lab st → u < n → 0 ≤ up' →
      st.label.getD u 0 = lab u → lab u < lab v → rec u up' st = some r →
      DfsPost A0 n s u up' st r ∧ LevelSteps lab st.adj st.hist r.2.adj r.2.hist ∧
        Phase A0 n lab r.2) :
    ∀ (k : Nat) (res : Int) (st : State) (r : Int × State), Phase A0 n lab st →
      st.label.getD v 0 = lab v → 0 ≤ res → res ≤ up →
      dfsFor n rec v up k res st = some r →
      LevelSteps lab st.adj st.hist r.2.adj r.2.hist ∧ Phase A0 n lab r.2 := by
  intro k
  induction k with
  | zero => intro res st r _ _ _ _ h; simp [dfsFor] at h
  | succ k ih =>
    intro res st r hP hL hres0 hresup h
    have hI := hP.net
    by_cases hlt : st.iter.getD v 0 < (arcs st.adj v).length
    · have hpa := hI.paired hp
      obtain ⟨p1, p2, p3, p4, p5⟩ := hpa v (st.iter.getD v 0) hlt
      rw [hI.length_eq, hlen] at p1
      by_cases hskip : (arc st.adj (arc st.adj v (st.iter.getD v 0)).dst
          (arc st.adj v (st.iter.getD v 0)).rev).cap = 0 ∨
          st.label.getD v 0 ≤ st.label.getD (arc st.adj v (st.iter.getD v 0)).dst 0
      · -- the arc is skipped
        have hstep : dfsFor n rec v up (k + 1) res st = dfsFor n rec v up k res
            { st with iter := st.iter.set v (st.iter.getD v 0 + 1) } := by
          rw [dfsFor, if_pos hlt]
          dsimp only
          rw [if_pos hskip]
        rw [hstep] at h
        exact ih res { st with iter := st.iter.set v (st.iter.getD v 0 + 1) } r
          ⟨hP.net, hP.len_label, by simp [hP.len_iter], hP.lab_eq, hP.lvl⟩ hL hres0 hresup h
      · -- the recursive call
        have hpc : (arc st.adj (arc st.adj v (st.iter.getD v 0)).dst
            (arc st.adj v (st.iter.getD v 0)).rev).cap ≠ 0 := fun h => hskip (Or.inl h)
        have hlu : st.label.getD (arc st.adj v (st.iter.getD v 0)).dst 0 < lab v := by
          have : ¬ st.label.getD v 0 ≤ st.label.getD (arc st.adj v (st.iter.getD v 0)).dst 0 :=
            fun h => hskip (Or.inr h)
          omega
        have hlabu : st.label.getD (arc st.adj v (st.iter.getD v 0)).dst 0 =
            lab (arc st.adj v (st.iter.getD v 0)).dst := by
          rcases hP.lab_eq (arc st.adj v (st.iter.getD v 0)).dst with c | c
          · exact c
          · omega
        have hlevel : lab v = lab (arc st.adj v (st.iter.getD v 0)).dst + 1 := by
          have := hP.lvl (arc st.adj v (st.iter.getD v 0)).dst
            (arc st.adj v (st.iter.getD v 0)).rev p3 hpc (by omega) (by rw [p4]; exact hlv)
          rw [p4] at this
          omega
        have hpc0 := hI.pairCap_nonneg hp v (st.iter.getD v 0) hlt
        unfold pairCap at hpc0
        have hup' : 0 ≤ min (arc st.adj (arc st.adj v (st.iter.getD v 0)).dst
            (arc st.adj v (st.iter.getD v 0)).rev).cap (up - res) := le_min hpc0 (by omega)
        cases hr1 : rec (arc st.adj v (st.iter.getD v 0)).dst
            (min (arc st.adj (arc st.adj v (st.iter.getD v 0)).dst
              (arc st.adj v (st.iter.getD v 0)).rev).cap (up - res)) st with
        | none =>
          rw [dfsFor, if_pos hlt] at h
          dsimp only at h
          rw [if_neg hskip, hr1] at h
          simp at h
        | some r1 =>
          obtain ⟨hpost, hsteps1, hP1⟩ := hrec _ _ st r1 hP p1 hup' hlabu (by omega) hr1
          obtain ⟨d, st1⟩ := r1
          obtain ⟨hd0, hdup⟩ := hpost.range
          obtain ⟨hl1, hl2, hl3⟩ := hpost.len
          simp only at hd0 hdup hl1 hl2 hl3 hsteps1 hP1
          have hdpc := le_trans hdup (min_le_left _ _)
          have hdur := le_trans hdup (min_le_right _ _)
          obtain ⟨f1, f2, f3⟩ := hpost.frame v (by rw [hL, hlabu]; omega)
          simp only at f1 f2 f3
          have hI1 : NetInv A0 st1.adj := hpost.net
          have hi1 : st.iter.getD v 0 < (arcs st1.adj v).length := by
            rw [hI1.length_arcs, ← hI.length_arcs]; exact hlt
          have hpc1 : pairCap st1.adj v (st.iter.getD v 0) =
              (arc st.adj (arc st.adj v (st.iter.getD v 0)).dst
                (arc st.adj v (st.iter.getD v 0)).rev).cap := by
            have e1 := hI1.pairSum v _ hi1
            have e2 := hI.pairSum v _ hlt
            rw [f1] at e1
            unfold pairCap at e2
            omega
          have hnew : NetInv A0 (pushFlow st1.adj v (st.iter.getD v 0) (-d)) := by
            apply hI1.push hp v _ (-d) hi1
            · have := hI1.nonneg v _ hi1
              omega
            · rw [hpc1]; omega
          have hadj2 : addCap (addCap st1.adj v (st.iter.getD v 0) d)
              (arc (addCap st1.adj v (st.iter.getD v 0) d) v (st.iter.getD v 0)).dst
              (arc (addCap st1.adj v (st.iter.getD v 0) d) v (st.iter.getD v 0)).rev (-d) =
              pushFlow st1.adj v (st.iter.getD v 0) (-d) := walk_step_eq _ _ _ _
          have hlevel1 : lab v = lab (arc st1.adj v (st.iter.getD v 0)).dst + 1 := by
            rw [f1]; exact hlevel
          have hsteps2 : LevelSteps lab st.adj st.hist
              (pushFlow st1.adj v (st.iter.getD v 0) (-d))
              (pushFlow st1.adj v (st.iter.getD v 0) (-d) :: st1.hist) :=
            LevelSteps.step _ _ v _ d hsteps1 hi1 hd0 hlevel1
          by_cases hfull : res + d = up
          · have hstep : dfsFor n rec v up (k + 1) res st = some (res + d,
                State.mk (pushFlow st1.adj v (st.iter.getD v 0) (-d)) st1.label st1.que
                  st1.iter (pushFlow st1.adj v (st.iter.getD v 0) (-d) :: st1.hist)) := by
              rw [dfsFor, if_pos hlt]
              dsimp only
              rw [if_neg hskip, hr1]
              dsimp only
              rw [if_pos hfull, hadj2]
            rw [hstep] at h
            simp only [Option.some.injEq] at h
            rw [← h]
            exact ⟨hsteps2, hP1.dinic_pushed hp v _ d hi1 hnew hlevel1 _ rfl rfl hl2⟩
          · have hstep : dfsFor n rec v up (k + 1) res st = dfsFor n rec v up k (res + d)
                (State.mk (pushFlow st1.adj v (st.iter.getD v 0) (-d)) st1.label st1.que
                  (st1.iter.set v (st.iter.getD v 0 + 1))
                  (pushFlow st1.adj v (st.iter.getD v 0) (-d) :: st1.hist)) := by
              rw [dfsFor, if_pos hlt]
              dsimp only
              rw [if_neg hskip, hr1]
              dsimp only
              rw [if_neg hfull, hadj2, f3]
            rw [hstep] at h
            obtain ⟨q1, q2⟩ := ih (res + d) _ r
              (hP1.dinic_pushed hp v _ d hi1 hnew hlevel1
                (State.mk (pushFlow st1.adj v (st.iter.getD v 0) (-d)) st1.label st1.que
                  (st1.iter.set v (st.iter.getD v 0 + 1))
                  (pushFlow st1.adj v (st.iter.getD v 0) (-d) :: st1.hist)) rfl rfl
                (by simp [hl2]))
              (f2.trans hL) (by omega) (by omega) h
            exact ⟨hsteps2.followed_by q1, q2⟩
    · -- the loop is over
      have hstep : dfsFor n rec v up (k + 1) res st =
          some (res, { st with label := st.label.set v n }) := by
        rw [dfsFor, if_neg hlt]
      rw [hstep] at h
      simp only [Option.some.injEq] at h
      rw [← h]
      refine ⟨LevelSteps.refl, hP.net, by simp [hP.len_label], hP.len_iter, ?_, hP.lvl⟩
      intro x
      show (st.label.set v n).getD x 0 = lab x ∨ (st.label.set v n).getD x 0 = n
      rw [dinic_label_set st n v n hv hP.len_label]
      by_cases hx : x = v
      · rw [if_pos hx]; exact Or.inr rfl
      · rw [if_neg hx]; exact hP.lab_eq x

/-- A call of `dfs` within a phase only updates along arcs that rise by one level with
respect to the labels of `bfs`. -/
theorem dinic_dfs_levels {A0 : Adj} {n s F : Nat} (hp : Paired A0) (hlen : A0.length = n)
    (hF : ∀ x, (arcs A0 x).length < F) (lab : Nat → Nat) :
    ∀ (fuel : Nat) (v : Nat) (up : Int) (st : State) (r : Int × State),
      Phase A0 n lab st → v < n → 0 ≤ up → st.label.getD v 0 = lab v → lab v < fuel →
      lab v < n → dfs n s F fuel v up st = some r →
      LevelSteps lab st.adj st.hist r.2.adj r.2.hist ∧ Phase A0 n lab r.2 := by
  intro fuel
  induction fuel with
  | zero => intro v up st r _ _ _ _ h; omega
  | succ k ih =>
    intro v up st r hP hv hup hL hfuel hlv h
    rw [dfs] at h
    by_cases hvs : v = s
    · rw [if_pos hvs] at h
      simp only [Option.some.injEq] at h
      rw [← h]
      exact ⟨LevelSteps.refl, hP⟩
    · rw [if_neg hvs] at h
      refine dinic_dfsFor_levels (s := s) hp hlen lab (dfs n s F k) v up hv hlv ?_ F 0 st r hP hL
        (le_refl _) hup h
      intro u up' st' r' hP' hu hup' hLu hluv hr'
      obtain ⟨r'', e1, e2⟩ := dinic_dfs_spec hp hlen hF k u up' st' hP'.net hP'.len_label
        hP'.len_iter hu hup' (by rw [hLu]; omega)
      rw [hr'] at e1
      simp only [Option.some.injEq] at e1
      rw [e1]
      rw [e1] at hr'
      exact ⟨e2, ih u up' st' r'' hP' hu hup' hLu (by omega) (by omega) hr'⟩

end Dinic

/-- C35: for every state of `Dinic` whose network is a residual network on `n` nodes (paired
arcs, no negative capacity, work arrays of length `n`) and all `s ≠ t` below `n`, `bfs()`
returns without changing the network. When it returns `true`, every node with `label < n` has
as its label the number of arcs of a shortest path from `s` along arcs of positive residual
capacity; the following call `dfs(t, LLONG_MAX)` (after `iter` is reset) returns, and each of
its updates `e.cap += d; adj[e.to][e.rev].cap -= d`, with `e = adj[v][iter[v]]` and
`u = e.to`, has `d ≥ 0` and `label[v] = label[u] + 1` for the labels that `bfs` has left, so
that every arc whose residual capacity is smaller after `dfs` than before runs from a node
`u` to a node `v` with `label[v] = label[u] + 1`. -/
theorem dinic_dfs_uses_level_arcs (A0 : Adj) (n s t : Nat) (st : Dinic.State)
    (hp : Paired A0) (hlen : A0.length = n) (hI : Dinic.FlowInv A0 n st)
    (hs : s < n) (ht : t < n) (hst : s ≠ t) (fuel : Nat)
    (hfuel : n + totalArcs n A0 < fuel) :
    ∃ found st1, Dinic.bfs n s t fuel st = some (found, st1) ∧ st1.adj = st.adj ∧
      st1.hist = st.hist ∧
      (found = true →
        (∀ x, x < n → st1.label.getD x 0 < n → IsDist st.adj s x (st1.label.getD x 0)) ∧
        ∃ d st2, Dinic.dfs n s fuel fuel t LLONG_MAX
            { st1 with iter := List.replicate st1.iter.length 0 } = some (d, st2) ∧
          Dinic.LevelSteps (fun x => st1.label.getD x 0) st1.adj st1.hist st2.adj st2.hist ∧
          ∀ u i, i < (arcs st1.adj u).length →
            (arc st2.adj u i).cap < (arc st1.adj u i).cap →
            st1.label.getD (arc st1.adj u i).dst 0 = st1.label.getD u 0 + 1) := by
  have hpa := hI.net.paired hp
  have hla : st.adj.length = n := hI.net.length_eq.trans hlen
  obtain ⟨found, st1, b1, b2, b3, b3', _, _, _⟩ := Dinic.dinic_bfs_spec hp hlen hs ht hst st hI
    fuel (by omega)
  have hadj : st1.adj = st.adj := b2.adj_eq
  refine ⟨found, st1, b1, hadj, b3, ?_⟩
  intro hf
  rw [hf] at b1
  obtain ⟨hex, hseen⟩ := Dinic.dinic_bfsWhile_level (s := s) (t := t) hpa hla hI.net.nonneg fuel
    _ 0 1 st1 (@Dinic.dinic_level_init A0 n s t hs ht hst st hI) b1
  have hF : ∀ x, (arcs A0 x).length < fuel := by
    intro x
    have := length_arcs_le_totalArcs A0 n hlen x
    omega
  have hP : Dinic.Phase A0 n (fun x => st1.label.getD x 0)
      { st1 with iter := List.replicate st1.iter.length 0 } := by
    refine ⟨by show NetInv A0 st1.adj; rw [hadj]; exact hI.net, b2.len_label,
      by simp [b3', hI.len_iter], fun x => Or.inl rfl, ?_⟩
    intro x i hi hc hx hd
    have hi' : i < (arcs st.adj x).length := by
      have : i < (arcs st1.adj x).length := hi
      rw [hadj] at this
      exact this
    have hc' : (arc st.adj x i).cap ≠ 0 := by
      have : (arc st1.adj x i).cap ≠ 0 := hc
      rw [hadj] at this
      exact this
    have hd' : st1.label.getD (arc st.adj x i).dst 0 < n := by
      have : st1.label.getD (arc st1.adj x i).dst 0 < n := hd
      rw [hadj] at this
      exact this
    show st1.label.getD (arc st1.adj x i).dst 0 ≤ st1.label.getD x 0 + 1
    rw [hadj]
    have hxn : x < n := by
      by_contra hc2
      rw [arcs_of_le (by omega)] at hi'
      simp at hi'
    obtain ⟨p1, _, _, _, _⟩ := hpa x i hi'
    rw [hla] at p1
    have h1 := (hex x ⟨hxn, hx⟩).1
    have hpos : 0 < (arc st.adj x i).cap := by
      have := hI.net.nonneg x i hi'
      omega
    exact (hex _ ⟨p1, hd'⟩).2 _ (ReachIn.step x i _ h1 hi' hpos)
  obtain ⟨r, e1, _⟩ := Dinic.dinic_dfs_spec (s := s) hp hlen hF fuel t LLONG_MAX
    { st1 with iter := List.replicate st1.iter.length 0 } hP.net hP.len_label hP.len_iter ht
    (by decide) (by
      have : st1.label.getD t 0 < n := hseen.2
      show st1.label.getD t 0 < fuel
      omega)
  obtain ⟨d, st2⟩ := r
  obtain ⟨l1, _⟩ := Dinic.dinic_dfs_levels (s := s) hp hlen hF (fun x => st1.label.getD x 0) fuel
    t LLONG_MAX { st1 with iter := List.replicate st1.iter.length 0 } (d, st2) hP ht (by decide)
    rfl (by
      have : st1.label.getD t 0 < n := hseen.2
      show st1.label.getD t 0 < fuel
      omega) hseen.2 e1
  have l1' : Dinic.LevelSteps (fun x => st1.label.getD x 0) st1.adj st1.hist st2.adj
      st2.hist := l1
  refine ⟨fun x hx hl => hex x ⟨hx, hl⟩, d, st2, e1, l1', ?_⟩
  exact (Dinic.LevelSteps.decreased (by rw [hadj]; exact hpa) l1').2.2

/-- The diamond network of the specification, with `s = 0`, `t = 3` and fuel 13: `bfs()`
returns and leaves the network and its log as they are. -/
theorem dinic_dfs_uses_level_arcs_witness :
    ∃ found st1, Dinic.bfs 4 0 3 13
        (Dinic.init 4 [(0, 1, 3), (0, 2, 2), (1, 3, 2), (2, 3, 3)]) = some (found, st1) ∧
      st1.adj = (Dinic.init 4 [(0, 1, 3), (0, 2, 2), (1, 3, 2), (2, 3, 3)]).adj ∧
      st1.hist = (Dinic.init 4 [(0, 1, 3), (0, 2, 2), (1, 3, 2), (2, 3, 3)]).hist :=
  have hr : InRange 4 [(0, 1, 3), (0, 2, 2), (1, 3, 2), (2, 3, 3)] := by
    intro e he; simp at he; rcases he with h | h | h | h <;> subst h <;> decide
  have hw := build_wellformed 4 [(0, 1, 3), (0, 2, 2), (1, 3, 2), (2, 3, 3)] hr
  match dinic_dfs_uses_level_arcs (build 4 [(0, 1, 3), (0, 2, 2), (1, 3, 2), (2, 3, 3)])
    4 0 3 (Dinic.init 4 [(0, 1, 3), (0, 2, 2), (1, 3, 2), (2, 3, 3)]) hw.2.1 hw.1
    (Dinic.dinic_flowInv_init 4 _ hr) (by decide) (by decide) (by decide) 13 (by decide) with
  | ⟨found, st1, h1, h2, h3, _⟩ => ⟨found, st1, h1, h2, h3⟩

namespace MostImprovingAugmentingPaths

/-- Relaxing the arc `adj[v][i]` of the node `v` being settled keeps the labels tight. -/
theorem tight_relax {A : Adj} {n s t : Nat} {st : State} {pq : List (Int × Nat)} {M : Int}
    {rk : Nat → Nat} {idx : Nat} (hc : DijCore A n s t st pq M rk idx) (hp : Paired A)
    (hlen : A.length = n) (v i : Nat) (_hv : Done n st pq v) (hM : st.path_cap.getD v 0 ≤ M)
    (hi : i < (arcs A v).length)
    (himp : min (st.path_cap.getD v 0) (arc A v i).cap > st.path_cap.getD (arc A v i).dst 0)
    (hT : Tight A n s st) :
    Tight A n s
      { st with
        path_cap := st.path_cap.set (arc A v i).dst (min (st.path_cap.getD v 0) (arc A v i).cap),
        parent := st.parent.set (arc A v i).dst ((arc A v i).rev : Int) } := by
  obtain ⟨p1, p2, p3, p4, p5⟩ := hp v i hi
  rw [hlen] at p1
  have hpc : ∀ x, (st.path_cap.set (arc A v i).dst
      (min (st.path_cap.getD v 0) (arc A v i).cap)).getD x 0 =
      if x = (arc A v i).dst then min (st.path_cap.getD v 0) (arc A v i).cap
      else st.path_cap.getD x 0 := by
    intro x
    rw [getD_set_eq, hc.len_pc]
    by_cases h : x = (arc A v i).dst
    · rw [if_pos ⟨h, p1⟩, if_pos h]
    · rw [if_neg (fun q => h q.1), if_neg h]
  have hpar : ∀ x, (st.parent.set (arc A v i).dst ((arc A v i).rev : Int)).getD x 0 =
      if x = (arc A v i).dst then ((arc A v i).rev : Int) else st.parent.getD x 0 := by
    intro x
    rw [getD_set_eq, hc.len_parent]
    by_cases h : x = (arc A v i).dst
    · rw [if_pos ⟨h, p1⟩, if_pos h]
    · rw [if_neg (fun q => h q.1), if_neg h]
  have hynd : ¬ Done n st pq (arc A v i).dst := by
    intro h
    have := hc.done_ge _ h
    have := min_le_left (st.path_cap.getD v 0) (arc A v i).cap
    omega
  have hvy : v ≠ (arc A v i).dst := fun h => p2 h.symm
  intro x hx hxs
  show (st.path_cap.set (arc A v i).dst (min (st.path_cap.getD v 0) (arc A v i).cap)).getD x 0 =
    min ((st.path_cap.set (arc A v i).dst
        (min (st.path_cap.getD v 0) (arc A v i).cap)).getD
      (arc A x ((st.parent.set (arc A v i).dst ((arc A v i).rev : Int)).getD x 0).toNat).dst 0)
      (pairCap A x ((st.parent.set (arc A v i).dst ((arc A v i).rev : Int)).getD x 0).toNat)
  rw [hpar x, hpc x]
  by_cases hxy : x = (arc A v i).dst
  · rw [if_pos hxy, if_pos hxy, Int.toNat_ofNat, hxy, p4, hpc v, if_neg hvy]
    unfold pairCap
    rw [p4, p5]
  · rw [if_neg hxy, if_neg hxy]
    have hx' : InTree n st x := by
      refine ⟨hx.1, ?_⟩
      have h2 : 0 < (st.path_cap.set (arc A v i).dst
          (min (st.path_cap.getD v 0) (arc A v i).cap)).getD x 0 := hx.2
      rw [hpc x, if_neg hxy] at h2
      exact h2
    obtain ⟨_, _, q3, _, _⟩ := hc.tree x hx' hxs
    have hz : (arc A x (st.parent.getD x 0).toNat).dst ≠ (arc A v i).dst := by
      intro h
      apply hynd
      rw [← h]
      exact q3
    rw [hpc, if_neg hz]
    exact hT x hx' hxs

/-- The relaxation loop over the arcs of the node `v` being settled keeps the labels
tight. -/
theorem dijkstraFor_tight {A : Adj} {n s t : Nat} (hp : Paired A) (hlen : A.length = n)
    (v : Nat) (flow : Int) :
    ∀ (es done : List Edge) (st : State) (pq : List (Int × Nat)) (M : Int) (rk : Nat → Nat)
      (idx : Nat),
      DijCore A n s t st pq M rk idx → Done n st pq v → st.path_cap.getD v 0 = flow →
      flow ≤ M → arcs A v = done ++ es → Tight A n s st →
      Tight A n s (dijkstraFor flow es st pq).1 := by
  intro es
  induction es with
  | nil => intro done st pq M rk idx _ _ _ _ _ hT; exact hT
  | cons e es ih =>
    intro done st pq M rk idx hc hv hflow hM hs hT
    have hi : done.length < (arcs A v).length := by
      rw [hs]; simp
    have he : arc A v done.length = e := by
      unfold arc
      rw [hs, List.getD_append_right _ _ _ _ (le_refl _)]
      simp
    have hs' : arcs A v = (done ++ [e]) ++ es := by
      rw [hs]; simp
    by_cases himp : min flow e.cap > st.path_cap.getD e.dst 0
    · have hb : dijkstraFor flow (e :: es) st pq = dijkstraFor flow es
          { st with
            path_cap := st.path_cap.set e.dst (min flow e.cap),
            parent := st.parent.set e.dst (e.rev : Int) }
          (pq ++ [(min flow e.cap, e.dst)]) := by
        rw [dijkstraFor, if_pos himp]
      rw [hb]
      have hcr := core_relax hc hp hlen v done.length hv (by rw [hflow]; exact hM) hi
        (by rw [he, hflow]; exact himp)
      have htr := tight_relax hc hp hlen v done.length hv (by rw [hflow]; exact hM) hi
        (by rw [he, hflow]; exact himp) hT
      rw [he, hflow] at hcr htr
      obtain ⟨hc1, hd1⟩ := hcr
      obtain ⟨p1, p2, _, _, _⟩ := hp v done.length hi
      rw [he, hlen] at p1
      rw [he] at p2
      refine ih (done ++ [e]) _ _ M rk idx hc1 ((hd1 v).mpr hv) ?_ hM hs' htr
      show (st.path_cap.set e.dst (min flow e.cap)).getD v 0 = flow
      rw [getD_set_eq, if_neg (fun h => p2 h.1.symm)]
      exact hflow
    · have hb : dijkstraFor flow (e :: es) st pq = dijkstraFor flow es st pq := by
        rw [dijkstraFor, if_neg himp]
      rw [hb]
      exact ih (done ++ [e]) st pq M rk idx hc hv hflow hM hs' hT

end MostImprovingAugmentingPaths

namespace MostImprovingAugmentingPaths

/-- When the `while (!pq.empty())` loop returns `true`, the state is the one in which the
sink was on top of the queue, and it satisfies the invariants of the loop with tight
labels. -/
theorem dijkstraWhile_widest {A : Adj} {n s t : Nat} (hp : Paired A) (hlen : A.length = n)
    (F : Nat) :
    ∀ (k : Nat) (st : State) (pq : List (Int × Nat)) (M : Int) (rk : Nat → Nat) (idx : Nat)
      (st' : State),
      DijCore A n s t st pq M rk idx → Relaxed A n st pq n 0 → Tight A n s st →
      idx + k ≤ F → dijkstraWhile t k st pq = some (true, st') →
      ∃ pq' M' rk' idx', DijCore A n s t st' pq' M' rk' idx' ∧ Relaxed A n st' pq' n 0 ∧
        Tight A n s st' ∧ pq' ≠ [] ∧ (pqTop pq').2 = t ∧ idx' < F := by
  intro k
  induction k with
  | zero => intro st pq M rk idx st' _ _ _ _ h; simp [dijkstraWhile] at h
  | succ k ih =>
    intro st pq M rk idx st' hc hrel hT hidx h
    rw [dijkstraWhile] at h
    by_cases hne : pq ≠ []
    · rw [if_pos hne] at h
      have htm := pqTop_mem pq hne
      obtain ⟨e1, e2, e3, e4⟩ := hc.entries _ htm
      by_cases htt : (pqTop pq).2 = t
      · -- the sink is popped
        simp only [htt, if_true, Option.some.injEq, Prod.mk.injEq, true_and] at h
        rw [← h]
        exact ⟨pq, M, rk, idx, hc, hrel, hT, hne, htt, by omega⟩
      · by_cases hstale : (pqTop pq).1 < st.path_cap.getD (pqTop pq).2 0
        · -- a stale entry is dropped
          simp only [htt, if_false, hstale, if_true] at h
          have hdone : ∀ x, Done n st (pqPop pq) x ↔ Done n st pq x := by
            intro x
            rw [done_pop_iff hc.nodup]
            constructor
            · rintro (h | ⟨_, _, h⟩)
              · exact h
              · exfalso
                rw [← h] at hstale
                simp only at hstale
                omega
            · exact Or.inl
          have hc1 : DijCore A n s t st (pqPop pq) M rk (idx + 1) := by
            refine ⟨hc.adj_eq, hc.len_parent, hc.len_pc, hc.src, hc.M_le, hc.nonneg, ?_, ?_, ?_,
              ?_, ?_, ?_⟩
            · intro p hp'
              exact hc.entries p ((mem_pqPop pq hc.nodup p).mp hp').2
            · exact hc.nodup.erase _
            · intro h
              exact hc.sink ((hdone t).mp h)
            · intro x hx
              exact hc.done_ge x ((hdone x).mp hx)
            · intro x hx hxs
              obtain ⟨q1, q2, q3, q4, q5⟩ := hc.tree x hx hxs
              exact ⟨q1, q2, (hdone _).mpr q3, q4, q5⟩
            · intro x hx
              have := hc.rank x ((hdone x).mp hx)
              exact ⟨by omega, this.2⟩
          exact ih st (pqPop pq) M rk (idx + 1) st' hc1
            (fun x hx i hi hxv => hrel x ((hdone x).mp hx) i hi hxv) hT (by omega) h
        · -- the node is settled and its arcs are relaxed
          simp only [htt, if_false, hstale] at h
          have hflow : st.path_cap.getD (pqTop pq).2 0 = (pqTop pq).1 := by omega
          have htop : (st.path_cap.getD (pqTop pq).2 0, (pqTop pq).2) = pqTop pq := by
            rw [hflow]
          have hvnd : ¬ Done n st pq (pqTop pq).2 := by
            intro h
            apply h.2.2
            rw [htop]
            exact htm
          have hdone : ∀ x, Done n st (pqPop pq) x ↔ (Done n st pq x ∨ x = (pqTop pq).2) := by
            intro x
            rw [done_pop_iff hc.nodup]
            constructor
            · rintro (h | ⟨_, _, h⟩)
              · exact Or.inl h
              · right
                exact congrArg Prod.snd h
            · rintro (h | h)
              · exact Or.inl h
              · right
                rw [h]
                exact ⟨e1, by omega, htop⟩
          have hc1 : DijCore A n s t st (pqPop pq) (pqTop pq).1
              (fun x => if x = (pqTop pq).2 then idx else rk x) (idx + 1) := by
            refine ⟨hc.adj_eq, hc.len_parent, hc.len_pc, hc.src, le_trans e4 hc.M_le, hc.nonneg,
              ?_, ?_, ?_, ?_, ?_, ?_⟩
            · intro p hp'
              have hp'' := ((mem_pqPop pq hc.nodup p).mp hp').2
              obtain ⟨a, b, c, _⟩ := hc.entries p hp''
              exact ⟨a, b, c, pqTop_max pq p hp''⟩
            · exact hc.nodup.erase _
            · intro h
              rcases (hdone t).mp h with h | h
              · exact hc.sink h
              · exact htt h.symm
            · intro x hx
              rcases (hdone x).mp hx with h | h
              · exact le_trans e4 (hc.done_ge x h)
              · rw [h, hflow]
            · intro x hx hxs
              obtain ⟨q1, q2, q3, q4, q5⟩ := hc.tree x hx hxs
              exact ⟨q1, q2, (hdone _).mpr (Or.inl q3), q4, q5⟩
            · intro x hx
              beta_reduce
              rcases (hdone x).mp hx with h | h
              · have hxv : x ≠ (pqTop pq).2 := fun q => hvnd (by rw [← q]; exact h)
                rw [if_neg hxv]
                refine ⟨by have := (hc.rank x h).1; omega, fun hxs => ?_⟩
                have hpd := (hc.tree x (done_inTree h) hxs).2.2.1
                have hpv : pred A st x ≠ (pqTop pq).2 :=
                  fun q => hvnd (by rw [← q]; exact hpd)
                rw [if_neg hpv]
                exact (hc.rank x h).2 hxs
              · rw [if_pos h]
                refine ⟨by omega, fun hxs => ?_⟩
                have hit : InTree n st x := by
                  rw [h]
                  exact ⟨e1, by omega⟩
                have hpd := (hc.tree x hit hxs).2.2.1
                have hpv : pred A st x ≠ (pqTop pq).2 :=
                  fun q => hvnd (by rw [← q]; exact hpd)
                rw [if_neg hpv]
                exact (hc.rank _ hpd).1
          have hvd : Done n st (pqPop pq) (pqTop pq).2 := (hdone _).mpr (Or.inr rfl)
          obtain ⟨d1, d2, _, _, _⟩ := dijkstraFor_spec hp hlen (pqTop pq).2 (pqTop pq).1
            (arcs A (pqTop pq).2) [] st (pqPop pq) (pqTop pq).1 _ (idx + 1) hc1 hvd hflow
            (le_refl _) (by simp) (by
              intro x hx i hi hxv
              rcases (hdone x).mp hx with h | h
              · exact hrel x h i hi (fun q => absurd q (by have := h.1; omega))
              · have := hxv h
                simp at this)
          have dT := dijkstraFor_tight hp hlen (pqTop pq).2 (pqTop pq).1
            (arcs A (pqTop pq).2) [] st (pqPop pq) (pqTop pq).1 _ (idx + 1) hc1 hvd hflow
            (le_refl _) (by simp) hT
          rw [← hc.adj_eq] at d1 d2 dT
          rcases hres : dijkstraFor (pqTop pq).1 (arcs st.adj (pqTop pq).2) st (pqPop pq) with
            ⟨st2, pq2⟩
          rw [hres] at d1 d2 dT h
          simp only at d1 d2 dT h
          rw [hc.adj_eq] at d1 d2 dT
          exact ih st2 pq2 (pqTop pq).1 _ (idx + 1) st' d1
            (fun x hx i hi _ => d2 x hx i hi (fun q => by rw [q] at hi; exact hi)) dT
            (by omega) h
    · rw [if_neg hne] at h
      simp at h

end MostImprovingAugmentingPaths

namespace MostImprovingAugmentingPaths

/-- The invariants of the loop hold when `dijkstra` enters it. -/
theorem dijkstra_start {A0 : Adj} {n s t : Nat} (hs : s < n) (st : State)
    (hI : FlowInv A0 n st) :
    DijCore st.adj n s t
      { st with
        path_cap := (List.replicate st.path_cap.length 0).set s INT_MAX,
        parent := st.parent.set s (-2) } [(INT_MAX, s)] INT_MAX (fun _ => 0) 0 ∧
    Relaxed st.adj n
      { st with
        path_cap := (List.replicate st.path_cap.length 0).set s INT_MAX,
        parent := st.parent.set s (-2) } [(INT_MAX, s)] n 0 ∧
    Tight st.adj n s
      { st with
        path_cap := (List.replicate st.path_cap.length 0).set s INT_MAX,
        parent := st.parent.set s (-2) } := by
  have hpc : ∀ x, ((List.replicate st.path_cap.length (0 : Int)).set s INT_MAX).getD x 0 =
      if x = s then INT_MAX else 0 := by
    intro x
    rw [getD_set_eq, getD_replicate_eq, hI.len_pc]
    simp only [List.length_replicate, hI.len_pc, hs, and_true]
    by_cases h : x = s
    · rw [if_pos h, if_pos h]
    · rw [if_neg h, if_neg h]
      split <;> rfl
  have hnd : ∀ x, ¬ Done n
      { st with
        path_cap := (List.replicate st.path_cap.length 0).set s INT_MAX,
        parent := st.parent.set s (-2) } [(INT_MAX, s)] x := by
    intro x hx
    obtain ⟨_, b, c⟩ := hx
    have b' : 0 < ((List.replicate st.path_cap.length (0 : Int)).set s INT_MAX).getD x 0 := b
    have c' : (((List.replicate st.path_cap.length (0 : Int)).set s INT_MAX).getD x 0, x) ∉
        [(INT_MAX, s)] := c
    rw [hpc] at b' c'
    by_cases h : x = s
    · rw [if_pos h, h] at c'
      simp at c'
    · rw [if_neg h] at b'
      omega
  refine ⟨?_, fun x hx => absurd hx (hnd x), ?_⟩
  · refine ⟨rfl, by simp [hI.len_parent], by simp [hI.len_pc], ?_, le_refl _, ?_, ?_, by simp,
      hnd t, fun x hx => absurd hx (hnd x), ?_, fun x hx => absurd hx (hnd x)⟩
    · show ((List.replicate st.path_cap.length (0 : Int)).set s INT_MAX).getD s 0 = INT_MAX
      rw [hpc, if_pos rfl]
    · intro x
      show 0 ≤ ((List.replicate st.path_cap.length (0 : Int)).set s INT_MAX).getD x 0
      rw [hpc]
      split
      · decide
      · exact le_refl _
    · intro p hp'
      rw [List.mem_singleton] at hp'
      rw [hp']
      show s < n ∧ (1 : Int) ≤ INT_MAX ∧
        INT_MAX ≤ ((List.replicate st.path_cap.length (0 : Int)).set s INT_MAX).getD s 0 ∧
        INT_MAX ≤ INT_MAX
      rw [hpc, if_pos rfl]
      exact ⟨hs, by decide, le_refl _, le_refl _⟩
    · intro x hx hxs
      exfalso
      have b' : 0 < ((List.replicate st.path_cap.length (0 : Int)).set s INT_MAX).getD x 0 :=
        hx.2
      rw [hpc, if_neg hxs] at b'
      omega
  · intro x hx hxs
    exfalso
    have b' : 0 < ((List.replicate st.path_cap.length (0 : Int)).set s INT_MAX).getD x 0 :=
      hx.2
    rw [hpc, if_neg hxs] at b'
    omega

/-- Following `parent[]` from a labelled node whose predecessors are settled leads back to
`s` along arcs of positive capacity, and the least capacity on the way (capped by
`INT_MAX`) is the label of the node. -/
theorem tight_path {A : Adj} {n s t : Nat} {st : State} {pq : List (Int × Nat)} {M : Int}
    {rk : Nat → Nat} {idx : Nat} (hc : DijCore A n s t st pq M rk idx) (hp : Paired A)
    (hT : Tight A n s st) :
    ∀ (k x : Nat), InTree n st x → (if Done n st pq x then rk x else idx) < k →
      IsPath A s (parentPath A st.parent s k x) x ∧
      (∀ a ∈ parentPath A st.parent s k x, 0 < (arc A a.1 a.2).cap) ∧
      bottleneck A INT_MAX (parentPath A st.parent s k x) = st.path_cap.getD x 0 := by
  intro k
  induction k with
  | zero => intro x _ h; omega
  | succ k ih =>
    intro x hx hk
    by_cases hxs : x = s
    · subst hxs
      have e : parentPath A st.parent x (k + 1) x = [] := by
        rw [parentPath, if_pos rfl]
      rw [e]
      refine ⟨rfl, by simp, ?_⟩
      rw [hc.src]
      rfl
    · obtain ⟨q1, q2, q3, q4, q5⟩ := hc.tree x hx hxs
      obtain ⟨_, _, p3, p4, _⟩ := hp x _ q2
      have hrk : (if Done n st pq (pred A st x) then rk (pred A st x) else idx) < k := by
        rw [if_pos q3]
        by_cases hdx : Done n st pq x
        · rw [if_pos hdx] at hk
          have := (hc.rank x hdx).2 hxs
          omega
        · rw [if_neg hdx] at hk
          have := (hc.rank _ q3).1
          omega
      obtain ⟨i1, i2, i3⟩ := ih (pred A st x) (done_inTree q3) hrk
      have e : parentPath A st.parent s (k + 1) x =
          parentPath A st.parent s k (pred A st x) ++ [parentArc A st.parent x] := by
        rw [parentPath, if_neg hxs]
        rfl
      have hone : IsPath A (pred A st x) [parentArc A st.parent x] x :=
        ⟨rfl, p3, p4⟩
      have hcap : (arc A (parentArc A st.parent x).1 (parentArc A st.parent x).2).cap =
          pairCap A x (st.parent.getD x 0).toNat := rfl
      rw [e]
      refine ⟨IsPath.concat _ _ _ _ _ i1 hone, ?_, ?_⟩
      · intro a ha
        rcases List.mem_append.mp ha with h | h
        · exact i2 a h
        · rw [List.mem_singleton] at h
          rw [h, hcap]
          have := hx.2
          omega
      · rw [bottleneck_append, i3, hT x hx hxs]
        rfl

/-- When the sink is on top of the queue, no path from `s` to the sink has a larger least
capacity (capped by `INT_MAX`) than the label of the sink. -/
theorem widest_bound {A : Adj} {n s t : Nat} {st : State} {pq : List (Int × Nat)} {M : Int}
    {rk : Nat → Nat} {idx : Nat} (hc : DijCore A n s t st pq M rk idx) (hp : Paired A)
    (hlen : A.length = n) (hrel : Relaxed A n st pq n 0) (hne : pq ≠ [])
    (htt : (pqTop pq).2 = t) :
    ∀ (q : List (Nat × Nat)) (u : Nat) (b : Int), IsPath A u q t → u < n →
      b ≤ st.path_cap.getD u 0 → bottleneck A b q ≤ st.path_cap.getD t 0 := by
  have htm := pqTop_mem pq hne
  obtain ⟨_, e2, e3, _⟩ := hc.entries _ htm
  rw [htt] at e3
  have hopen : ∀ u, u < n → 0 < st.path_cap.getD u 0 → ¬ Done n st pq u →
      st.path_cap.getD u 0 ≤ st.path_cap.getD t 0 := by
    intro u hu hpos hnd
    have hmem : (st.path_cap.getD u 0, u) ∈ pq := by
      by_contra hcon
      exact hnd ⟨hu, hpos, hcon⟩
    have := pqTop_max pq _ hmem
    simp only at this
    omega
  intro q
  induction q with
  | nil =>
    intro u b h _ hb
    have h' : u = t := h
    rw [h'] at hb
    exact hb
  | cons a q ih =>
    intro u b h hu hb
    obtain ⟨h1, h2, h3⟩ := h
    show bottleneck A (min b (arc A a.1 a.2).cap) q ≤ _
    by_cases hd : Done n st pq u
    · obtain ⟨p1, _, _, _, _⟩ := hp a.1 a.2 h2
      rw [hlen] at p1
      apply ih _ _ h3 p1
      have := hrel u hd a.2 (by rw [← h1]; exact h2) (fun c => by omega)
      rw [← h1] at this hb
      have := min_le_min_right (arc A a.1 a.2).cap hb
      omega
    · have hle := (bottleneck_le A q (min b (arc A a.1 a.2).cap)).1
      have hmb := min_le_left b (arc A a.1 a.2).cap
      by_cases hpos : 0 < st.path_cap.getD u 0
      · have := hopen u hu hpos hd
        omega
      · omega

end MostImprovingAugmentingPaths

/-- C34: for every state of `MostImprovingAugmentingPaths` whose network is a residual
network on `n` nodes (paired arcs, no negative capacity, work arrays of length `n`), and all
`s ≠ t` with `s` below `n`, `dijkstra()` returns (fuel above the number of arcs plus one is
enough) without changing the network, and it returns `true` exactly when `t` can be reached
from `s` along arcs of positive residual capacity. When it returns `true`, following
`parent[]` from `t` leads back to `s` along a path `p` of arcs of positive capacity, and
`path_cap[t]` is the minimum of `INT_MAX` and the capacities on `p`: it is at most every
capacity on `p`, and it is one of them when they are at most `INT_MAX`. No path `q` from `s`
to `t` does better: the minimum of `INT_MAX` and the capacities on `q` is at most
`path_cap[t]`, so some capacity on `q` is at most `path_cap[t]` as soon as one of them is at
most `INT_MAX`. -/
theorem mi_dijkstra_finds_widest_path (A0 : Adj) (n s t : Nat)
    (st : MostImprovingAugmentingPaths.State)
    (hp : Paired A0) (hlen : A0.length = n) (hI : MostImprovingAugmentingPaths.FlowInv A0 n st)
    (hs : s < n) (hst : s ≠ t) (fuel : Nat) (hfuel : totalArcs n A0 + 1 < fuel) :
    ∃ found st', MostImprovingAugmentingPaths.dijkstra s t fuel st = some (found, st') ∧
      st'.adj = st.adj ∧
      (found = true ↔ Reach st.adj s t) ∧
      (found = true →
        IsPath st.adj s (parentPath st.adj st'.parent s fuel t) t ∧
        (∀ a ∈ parentPath st.adj st'.parent s fuel t, 0 < (arc st.adj a.1 a.2).cap) ∧
        st'.path_cap.getD t 0 =
          bottleneck st.adj INT_MAX (parentPath st.adj st'.parent s fuel t) ∧
        (∀ a ∈ parentPath st.adj st'.parent s fuel t,
          st'.path_cap.getD t 0 ≤ (arc st.adj a.1 a.2).cap) ∧
        ((∀ a ∈ parentPath st.adj st'.parent s fuel t, (arc st.adj a.1 a.2).cap ≤ INT_MAX) →
          ∃ a ∈ parentPath st.adj st'.parent s fuel t,
            (arc st.adj a.1 a.2).cap = st'.path_cap.getD t 0) ∧
        (∀ q, IsPath st.adj s q t → bottleneck st.adj INT_MAX q ≤ st'.path_cap.getD t 0) ∧
        (∀ q, IsPath st.adj s q t → (∃ a ∈ q, (arc st.adj a.1 a.2).cap ≤ INT_MAX) →
          ∃ a ∈ q, (arc st.adj a.1 a.2).cap ≤ st'.path_cap.getD t 0)) := by
  have hpa := hI.net.paired hp
  have hla : st.adj.length = n := hI.net.length_eq.trans hlen
  obtain ⟨found, st', b1, b2, _, _, _, _, b7⟩ :=
    MostImprovingAugmentingPaths.dijkstra_spec hp hlen hs st hI fuel hfuel
  -- the facts about the labels, when the search returns `true`
  have hpath : found = true →
      IsPath st.adj s (parentPath st.adj st'.parent s fuel t) t ∧
      (∀ a ∈ parentPath st.adj st'.parent s fuel t, 0 < (arc st.adj a.1 a.2).cap) ∧
      st'.path_cap.getD t 0 =
        bottleneck st.adj INT_MAX (parentPath st.adj st'.parent s fuel t) ∧
      (∀ q, IsPath st.adj s q t →
        bottleneck st.adj INT_MAX q ≤ st'.path_cap.getD t 0) := by
    intro hf
    rw [hf] at b1
    obtain ⟨h0, hr0, hT0⟩ := MostImprovingAugmentingPaths.dijkstra_start (t := t) hs st hI
    obtain ⟨pq, M, rk, idx, hc, hrel, hT, hne, htt, hidx⟩ :=
      MostImprovingAugmentingPaths.dijkstraWhile_widest hpa hla fuel fuel _ _ _ _ 0 st' h0 hr0
        hT0 (by omega) b1
    have htm := MostImprovingAugmentingPaths.pqTop_mem pq hne
    obtain ⟨e1, e2, e3, _⟩ := hc.entries _ htm
    rw [htt] at e1 e3
    have hin : MostImprovingAugmentingPaths.InTree n st' t := ⟨e1, by omega⟩
    obtain ⟨c1, c2, c3⟩ := MostImprovingAugmentingPaths.tight_path hc hpa hT fuel t hin
      (by rw [if_neg hc.sink]; exact hidx)
    refine ⟨c1, c2, c3.symm, ?_⟩
    intro q hq
    exact MostImprovingAugmentingPaths.widest_bound hc hpa hla hrel hne htt q s INT_MAX hq hs
      (by rw [hc.src])
  refine ⟨found, st', b1, b2, ?_, ?_⟩
  · constructor
    · intro hf
      obtain ⟨c1, c2, _, _⟩ := hpath hf
      exact IsPath.reach _ s c1 c2
    · intro hreach
      by_contra hc
      have hf : found = false := by simpa using hc
      obtain ⟨V, v1, v2, v3⟩ := b7 hf
      exact v2 (Reach.mem_closed V v1 v3 hreach)
  · intro hf
    obtain ⟨c1, c2, c3, c4⟩ := hpath hf
    have hle := bottleneck_le st.adj (parentPath st.adj st'.parent s fuel t) INT_MAX
    rw [← c3] at hle
    refine ⟨c1, c2, c3, hle.2, ?_, c4, ?_⟩
    · intro hmax
      rcases bottleneck_attained st.adj (parentPath st.adj st'.parent s fuel t) INT_MAX with
        c | ⟨a, ha, c⟩
      · rw [← c3] at c
        cases hpp : parentPath st.adj st'.parent s fuel t with
        | nil =>
          rw [hpp] at c1
          exact absurd c1 hst
        | cons b p =>
          rw [hpp] at hle hmax
          refine ⟨b, List.mem_cons_self _ _, ?_⟩
          have e1 := hle.2 b (List.mem_cons_self _ _)
          have e2 := hmax b (List.mem_cons_self _ _)
          omega
      · rw [← c3] at c
        exact ⟨a, ha, c.symm⟩
    · intro q hq hex
      have h1 := c4 q hq
      rcases bottleneck_attained st.adj q INT_MAX with c | ⟨a, ha, c⟩
      · obtain ⟨a, ha, hcap⟩ := hex
        refine ⟨a, ha, ?_⟩
        omega
      · refine ⟨a, ha, ?_⟩
        omega

/-- The diamond network of the specification, with `s = 0`, `t = 3` and fuel 10:
`dijkstra()` returns, and it returns `true` exactly when the sink can be reached. -/
theorem mi_dijkstra_finds_widest_path_witness :
    ∃ found st', MostImprovingAugmentingPaths.dijkstra 0 3 10
        (MostImprovingAugmentingPaths.init 4 [(0, 1, 3), (0, 2, 2), (1, 3, 2), (2, 3, 3)]) =
          some (found, st') ∧
      st'.adj =
        (MostImprovingAugmentingPaths.init 4 [(0, 1, 3), (0, 2, 2), (1, 3, 2), (2, 3, 3)]).adj ∧
      (found = true ↔ Reach
        (MostImprovingAugmentingPaths.init 4 [(0, 1, 3), (0, 2, 2), (1, 3, 2), (2, 3, 3)]).adj
        0 3) :=
  have hr : InRange 4 [(0, 1, 3), (0, 2, 2), (1, 3, 2), (2, 3, 3)] := by
    intro e he; simp at he; rcases he with h | h | h | h <;> subst h <;> decide
  have hw := build_wellformed 4 [(0, 1, 3), (0, 2, 2), (1, 3, 2), (2, 3, 3)] hr
  match mi_dijkstra_finds_widest_path (build 4 [(0, 1, 3), (0, 2, 2), (1, 3, 2), (2, 3, 3)])
    4 0 3 (MostImprovingAugmentingPaths.init 4 [(0, 1, 3), (0, 2, 2), (1, 3, 2), (2, 3, 3)])
    hw.2.1 hw.1 (MostImprovingAugmentingPaths.mi_flowInv_init 4 _ hr) (by decide) (by decide)
    10 (by decide) with
  | ⟨found, st', h1, h2, h3, _⟩ => ⟨found, st', h1, h2, h3⟩

namespace Residual

end Residual

namespace HLPPHeuristic

end HLPPHeuristic

namespace HLPPHeuristic

end HLPPHeuristic

namespace HLPPHeuristic

end HLPPHeuristic

namespace HLPPHeuristic

theorem arcs_five (a b c d e : List Edge) :
    arcs [a, b, c, d, e] 0 = a ∧ arcs [a, b, c, d, e] 1 = b ∧ arcs [a, b, c, d, e] 2 = c ∧
    arcs [a, b, c, d, e] 3 = d ∧ arcs [a, b, c, d, e] 4 = e :=
  ⟨rfl, rfl, rfl, rfl, rfl⟩

theorem set_five {α : Type} (a b c d e x : α) :
    [a, b, c, d, e].set 0 x = [x, b, c, d, e] ∧ [a, b, c, d, e].set 1 x = [a, x, c, d, e] ∧
    [a, b, c, d, e].set 2 x = [a, b, x, d, e] ∧ [a, b, c, d, e].set 3 x = [a, b, c, x, e] ∧
    [a, b, c, d, e].set 4 x = [a, b, c, d, x] :=
  ⟨rfl, rfl, rfl, rfl, rfl⟩

theorem getD_five {α : Type} (a b c d e x : α) :
    [a, b, c, d, e].getD 0 x = a ∧ [a, b, c, d, e].getD 1 x = b ∧
    [a, b, c, d, e].getD 2 x = c ∧ [a, b, c, d, e].getD 3 x = d ∧
    [a, b, c, d, e].getD 4 x = e :=
  ⟨rfl, rfl, rfl, rfl, rfl⟩

/-- One kept edge `u -> v` on a network of five nodes. -/
theorem addEdgePreflow_kept (adj : Adj) (u v : Nat) (c : Int)
    (h : u ≠ v ∧ u ≠ 4 ∧ v ≠ 0 ∧ c ≥ 1) :
    addEdgePreflow 0 4 adj u v c =
      pushBack (pushBack adj u ⟨v, (arcs adj v).length, c⟩) v
        ⟨u, (arcs (pushBack adj u ⟨v, (arcs adj v).length, c⟩) u).length - 1, 0⟩ := by
  unfold addEdgePreflow
  rw [if_pos h]

/-- The `addEdge` loop over `j` parallel edges `0 -> 1`. -/
theorem build_parallel (c : Int) (hc : c ≥ 1) (r2 r3 r4 : List Edge) :
    ∀ (j : Nat) (X0 X1 : List Edge),
      (List.replicate j ((0 : Nat), (1 : Nat), c)).foldl
        (fun adj e => addEdgePreflow 0 4 adj e.1 e.2.1 e.2.2) [X0, X1, r2, r3, r4] =
      [X0 ++ (List.range j).map (fun i => (⟨1, X1.length + i, c⟩ : Edge)),
        X1 ++ (List.range j).map (fun i => (⟨0, X0.length + i, 0⟩ : Edge)), r2, r3, r4] := by
  intro j
  induction j with
  | zero => intro X0 X1; simp
  | succ j ih =>
    intro X0 X1
    rw [List.replicate_succ, List.foldl_cons]
    have h1 : addEdgePreflow 0 4 [X0, X1, r2, r3, r4] 0 1 c =
        [X0 ++ [⟨1, X1.length, c⟩], X1 ++ [⟨0, X0.length, 0⟩], r2, r3, r4] := by
      rw [addEdgePreflow_kept _ _ _ _ ⟨by decide, by decide, by decide, hc⟩]
      simp only [pushBack, (arcs_five _ _ _ _ _).1, (arcs_five _ _ _ _ _).2.1,
        (set_five _ _ _ _ _ _).1, (set_five _ _ _ _ _ _).2.1, List.length_append,
        List.length_singleton, Nat.add_sub_cancel]
    show List.foldl _ (addEdgePreflow 0 4 [X0, X1, r2, r3, r4] 0 1 c) _ = _
    rw [h1, ih]
    rw [List.range_succ_eq_map]
    simp [List.map_map, Function.comp_def, Nat.add_assoc, Nat.add_comm 1]

/-- The network built from `drainInput k`. -/
theorem buildPreflow_drainInput (k : Nat) : buildPreflow 5 0 4 (drainInput k) = drainNet k := by
  unfold buildPreflow drainInput
  rw [List.foldl_cons, List.foldl_append]
  have h0 : addEdgePreflow 0 4 (List.replicate 5 []) 0 2 5 =
      [[⟨2, 0, 5⟩], [], [⟨0, 0, 0⟩], [], []] := by
    rw [addEdgePreflow_kept _ _ _ _ ⟨by decide, by decide, by decide, by decide⟩]
    rfl
  show List.foldl _ (List.foldl _ (addEdgePreflow 0 4 (List.replicate 5 []) 0 2 5) _) _ = _
  rw [h0, build_parallel 2147483647 (by decide)]
  simp only [List.foldl_cons, List.foldl_nil]
  rw [addEdgePreflow_kept _ 0 3 5 ⟨by decide, by decide, by decide, by decide⟩]
  simp only [pushBack, arcs_five, set_five, List.length_append, List.length_singleton,
    List.length_map, List.length_range, List.length_cons, List.length_nil, Nat.add_sub_cancel]
  rw [addEdgePreflow_kept _ 2 3 3 ⟨by decide, by decide, by decide, by decide⟩]
  simp only [pushBack, arcs_five, set_five, List.length_append, List.length_singleton,
    List.length_map, List.length_range, List.length_cons, List.length_nil, Nat.add_sub_cancel]
  rw [addEdgePreflow_kept _ 3 1 1 ⟨by decide, by decide, by decide, by decide⟩]
  simp only [pushBack, arcs_five, set_five, List.length_append, List.length_singleton,
    List.length_map, List.length_range, List.length_cons, List.length_nil, Nat.add_sub_cancel]
  rw [addEdgePreflow_kept _ 1 4 1 ⟨by decide, by decide, by decide, by decide⟩]
  simp only [pushBack, arcs_five, set_five, List.length_append, List.length_singleton,
    List.length_map, List.length_range, List.length_cons, List.length_nil, Nat.add_sub_cancel]
  simp [drainNet, drainArcs0, drainArcs1, Nat.add_comm]

end HLPPHeuristic

namespace HLPPHeuristic

theorem drainArcs0_length (k : Nat) : (drainArcs0 k).length = k + 2 := by
  simp [drainArcs0]

theorem drainArcs1_length (k : Nat) : (drainArcs1 k).length = k + 2 := by
  simp [drainArcs1]

/-- The entries of the arc list of node 0. -/
theorem drainArcs0_getD (k i : Nat) :
    (drainArcs0 k).getD i default =
      if i = 0 then ⟨2, 0, 5⟩
      else if i ≤ k then ⟨1, i - 1, 2147483647⟩
      else if i = k + 1 then ⟨3, 0, 5⟩ else default := by
  unfold drainArcs0
  rw [List.getD_eq_getElem?_getD]
  cases i with
  | zero => simp
  | succ j =>
    rw [if_neg (by omega)]
    rw [List.cons_append, List.getElem?_cons_succ, List.getElem?_append]
    simp only [List.length_map, List.length_range]
    by_cases h : j < k
    · rw [if_pos h, if_pos (by omega), List.getElem?_map, List.getElem?_range h]
      rfl
    · rw [if_neg h, if_neg (by omega)]
      by_cases h2 : j + 1 = k + 1
      · have : j - k = 0 := by omega
        rw [if_pos h2, this]
        rfl
      · rw [if_neg h2]
        have : j - k = (j - k - 1) + 1 := by omega
        rw [this]
        rfl

/-- The entries of the arc list of node 1. -/
theorem drainArcs1_getD (k i : Nat) :
    (drainArcs1 k).getD i default =
      if i < k then ⟨0, i + 1, 0⟩
      else if i = k then ⟨3, 2, 0⟩
      else if i = k + 1 then ⟨4, 0, 1⟩ else default := by
  unfold drainArcs1
  rw [List.getD_eq_getElem?_getD, List.getElem?_append]
  simp only [List.length_map, List.length_range]
  by_cases h : i < k
  · rw [if_pos h, if_pos h, List.getElem?_map, List.getElem?_range h]
    rfl
  · rw [if_neg h, if_neg h]
    by_cases h2 : i = k
    · have : i - k = 0 := by omega
      rw [if_pos h2, this]
      rfl
    · rw [if_neg h2]
      by_cases h3 : i = k + 1
      · have : i - k = 1 := by omega
        rw [if_pos h3, this]
        rfl
      · rw [if_neg h3]
        have : i - k = (i - k - 2) + 2 := by omega
        rw [this]
        rfl

theorem inRange_drainInput (k : Nat) : InRange 5 (drainInput k) := by
  intro e he
  unfold drainInput at he
  rw [List.mem_cons, List.mem_append] at he
  rcases he with h | h | h
  · rw [h]; exact ⟨by decide, by decide⟩
  · rw [List.eq_of_mem_replicate h]; exact ⟨by decide, by decide⟩
  · simp at h
    rcases h with h | h | h | h <;> rw [h] <;> exact ⟨by decide, by decide⟩

/-- A list of five entries is the list of its entries. -/
theorem list_five {α : Type} (l : List α) (d : α) (h : l.length = 5) :
    l = [l.getD 0 d, l.getD 1 d, l.getD 2 d, l.getD 3 d, l.getD 4 d] := by
  match l, h with
  | [a, b, c, e, f], _ => rfl

/-- The distances to the sink are a valid labelling of the network built from
`drainInput k`. -/
theorem drainNet_valid (k : Nat) : ValidAll (drainNet k) [2, 1, 3, 2, 0] := by
  intro v i hi hc
  match v with
  | 0 =>
    have e : arc (drainNet k) 0 i = (drainArcs0 k).getD i default := rfl
    rw [e, drainArcs0_getD] at hc ⊢
    have hl : (arcs (drainNet k) 0).length = k + 2 := drainArcs0_length k
    rw [hl] at hi
    split_ifs <;> first | (exfalso; omega) | simp
  | 1 =>
    have e : arc (drainNet k) 1 i = (drainArcs1 k).getD i default := rfl
    rw [e, drainArcs1_getD] at hc ⊢
    have hl : (arcs (drainNet k) 1).length = k + 2 := drainArcs1_length k
    rw [hl] at hi
    split_ifs at hc ⊢ <;> simp at hc ⊢
  | 2 =>
    have hl : (arcs (drainNet k) 2).length = 2 := rfl
    rw [hl] at hi
    match i, hi with
    | 0, _ =>
      have e : arc (drainNet k) 2 0 = ⟨0, 0, 0⟩ := rfl
      rw [e] at hc
      exact absurd hc (by decide)
    | 1, _ =>
      have e : arc (drainNet k) 2 1 = ⟨3, 1, 3⟩ := rfl
      rw [e]
      decide
  | 3 =>
    have hl : (arcs (drainNet k) 3).length = 3 := rfl
    rw [hl] at hi
    match i, hi with
    | 0, _ =>
      have e : (arc (drainNet k) 3 0).cap = 0 := rfl
      rw [e] at hc
      exact absurd hc (by decide)
    | 1, _ =>
      have e : arc (drainNet k) 3 1 = ⟨2, 1, 0⟩ := rfl
      rw [e] at hc
      exact absurd hc (by decide)
    | 2, _ =>
      have e : (arc (drainNet k) 3 2).dst = 1 := rfl
      rw [e]
      decide
  | 4 =>
    have hl : (arcs (drainNet k) 4).length = 1 := rfl
    rw [hl] at hi
    match i, hi with
    | 0, _ =>
      have e : (arc (drainNet k) 4 0).cap = 0 := rfl
      rw [e] at hc
      exact absurd hc (by decide)
  | v + 5 =>
    have hl : (arcs (drainNet k) (v + 5)).length = 0 := rfl
    rw [hl] at hi
    omega

end HLPPHeuristic

namespace HLPPHeuristic

/-- The state after the first `globalRelabel` of `flow` on the network built from
`drainInput k`: the heights are the distances to the sink, no node is filed in a bucket. -/
theorem drain_first_relabel (k F : Nat) (hF : 2 * 5 < F) :
    ∃ q mh hist, globalRelabel 5 0 4 F (start 5 0 4 (drainInput k)) =
      some ⟨drainNet k, [5, 1, 3, 2, 0], q, [0, 1, 1, 1, 0], [0, 0, 0, 0, 0],
        [SOURCE_EXCESS, 0, 0, 0, 0], [[], [], [], [], []], mh, 0, hist⟩ ∧
      0 ≤ mh ∧ mh < 5 := by
  obtain ⟨st1, g1, g2, g3, g4, g5, g6, g7, _, g9⟩ := heur_first_globalRelabel 5 0 4
    (drainInput k) (inRange_drainInput k) (by decide) (by decide) (by decide) F hF
  rw [buildPreflow_drainInput] at g2 g3 g9
  have hv := drainNet_valid k
  -- the heights
  have h0 : st1.height.getD 0 0 = 5 := g2.pre.hs
  have h4 : st1.height.getD 4 0 = 0 := g2.pre.ht
  have u1 : st1.height.getD 1 0 ≤ st1.height.getD 4 0 + 1 := by
    have := g2.pre.valid 1 (k + 1) (by decide) (by
      rw [g3]
      show k + 1 < (drainArcs1 k).length
      rw [drainArcs1_length]
      omega) (by
      rw [g3]
      show 0 < ((drainArcs1 k).getD (k + 1) default).cap
      rw [drainArcs1_getD, if_neg (by omega), if_neg (by omega), if_pos rfl]
      decide)
    rw [g3] at this
    have e : (arc (drainNet k) 1 (k + 1)).dst = 4 := by
      show ((drainArcs1 k).getD (k + 1) default).dst = 4
      rw [drainArcs1_getD, if_neg (by omega), if_neg (by omega), if_pos rfl]
    rw [e] at this
    exact this
  have u3 : st1.height.getD 3 0 ≤ st1.height.getD 1 0 + 1 := by
    have := g2.pre.valid 3 2 (by decide) (by rw [g3]; exact (by decide : 2 < 3))
      (by rw [g3]; exact (by decide : (0 : Int) < 1))
    rw [g3] at this
    exact this
  have u2 : st1.height.getD 2 0 ≤ st1.height.getD 3 0 + 1 := by
    have := g2.pre.valid 2 1 (by decide) (by rw [g3]; exact (by decide : 1 < 2))
      (by rw [g3]; exact (by decide : (0 : Int) < 3))
    rw [g3] at this
    exact this
  have p1 := g2.pre.h_pos 1 (by decide) (by decide)
  have l3 : 2 ≤ st1.height.getD 3 0 := by
    have := hv.le_of_reachIn (g9 3 (by decide) (by decide) (by omega)).1
    simpa using this
  have l2 : 3 ≤ st1.height.getD 2 0 := by
    have := hv.le_of_reachIn (g9 2 (by decide) (by decide) (by omega)).1
    simpa using this
  have hH : st1.height = [5, 1, 3, 2, 0] := by
    rw [list_five st1.height 0 g2.pre.len_h, h0, h4]
    have e1 : st1.height.getD 1 0 = 1 := by omega
    have e3 : st1.height.getD 3 0 = 2 := by omega
    have e2 : st1.height.getD 2 0 = 3 := by omega
    rw [e1, e2, e3]
  have hE : st1.excess = [SOURCE_EXCESS, 0, 0, 0, 0] := by
    rw [g4]
    rfl
  -- the buckets
  have hB : st1.buckets = [[], [], [], [], []] := by
    have hb : ∀ h, 1 ≤ h → st1.buckets.getD h [] = [] := by
      intro h h1
      rw [List.eq_nil_iff_forall_not_mem]
      intro v hv
      obtain ⟨a1, a2, _, a4, _⟩ := g2.bk_mem h v h1 hv
      rw [hE] at a4
      have hc : v = 1 ∨ v = 2 ∨ v = 3 ∨ v = 4 := by omega
      rcases hc with c | c | c | c <;> rw [c] at a4 <;> exact absurd a4 (by decide)
    rw [list_five st1.buckets [] g2.len_b, g7, hb 1 (by decide), hb 2 (by decide),
      hb 3 (by decide), hb 4 (by decide)]
  -- the counters
  have hC : st1.count = [0, 1, 1, 1, 0] := by
    have hc := g2.cnt
    rw [hH] at hc
    rw [list_five st1.count 0 g2.len_count, hc 0 (by decide), hc 1 (by decide),
      hc 2 (by decide), hc 3 (by decide), hc 4 (by decide)]
    decide
  have hI : st1.iter = [0, 0, 0, 0, 0] := g6
  refine ⟨st1.que, st1.max_height, st1.hist, ?_, g2.mh_nonneg, g2.mh_lt⟩
  rw [g1]
  congr 1
  rw [← g3, ← hH, ← hC, ← hI, ← hE, ← hB, ← g5]

end HLPPHeuristic

namespace HLPPHeuristic

theorem push_adj (st : State) (v i : Nat) :
    (push st v i).adj = pushFlow st.adj v i (min (st.excess.getD v 0) (arc st.adj v i).cap) := by
  rw [heur_push_eq]

theorem push_excess (st : State) (v i : Nat) :
    (push st v i).excess = moveExcess st.excess v (arc st.adj v i).dst
      (min (st.excess.getD v 0) (arc st.adj v i).cap) := by
  rw [heur_push_eq]

theorem push_buckets (st : State) (v i : Nat) :
    (push st v i).buckets =
      if st.excess.getD (arc st.adj v i).dst 0 = 0 then
        st.buckets.set (st.height.getD (arc st.adj v i).dst 0)
          (st.buckets.getD (st.height.getD (arc st.adj v i).dst 0) [] ++
            [(arc st.adj v i).dst])
      else st.buckets := by
  rw [heur_push_eq]

/-- A push along the arc `j` of node 0 in a network of five nodes. -/
theorem pushFlow_five (X Y N2 N3 N4 : List Edge) (j w r : Nat) (c d : Int)
    (hXj : X.getD j default = ⟨w, r, c⟩) (hj : j < X.length) :
    pushFlow [X, Y, N2, N3, N4] 0 j d = addCap [X.set j ⟨w, r, c - d⟩, Y, N2, N3, N4] w r d := by
  have e1 : addCap [X, Y, N2, N3, N4] 0 j (-d) = [X.set j ⟨w, r, c - d⟩, Y, N2, N3, N4] := by
    show [X.set j { X.getD j default with cap := (X.getD j default).cap + -d }, Y, N2, N3, N4] = _
    rw [hXj]
    rfl
  have e2 : arc [X.set j ⟨w, r, c - d⟩, Y, N2, N3, N4] 0 j = ⟨w, r, c - d⟩ := by
    show (X.set j ⟨w, r, c - d⟩).getD j default = _
    rw [getD_set_eq, if_pos ⟨rfl, hj⟩]
  unfold pushFlow
  rw [e1, e2]

theorem drainFill_step (k j : Nat) (st : State) (h : DrainFill k j st) (h1 : 1 ≤ j)
    (hk : j ≤ k) : DrainFill k (j + 1) (pushSourceStep 5 0 st j) := by
  obtain ⟨X, Y, e0, hA, hH, hC, hI, hE, hB, m1, m2, hW, lX, lY, hX, hY, he⟩ := h
  have hSE : SOURCE_EXCESS = 1152921504606846981 := rfl
  have hXj : X.getD j default = ⟨1, j - 1, 2147483647⟩ := by
    rw [hX j (le_refl _), drainArcs0_getD, if_neg (by omega), if_pos hk]
  have harc : arc st.adj 0 j = ⟨1, j - 1, 2147483647⟩ := by
    rw [hA]
    exact hXj
  have hstep : pushSourceStep 5 0 st j = { push st 0 j with
      max_height := max (push st 0 j).max_height
        ((push st 0 j).height.getD (arc (push st 0 j).adj 0 j).dst 0 : Int) } := by
    unfold pushSourceStep
    rw [harc, hH]
    exact if_pos (by decide : (1 : Nat) < 5)
  have hex0 : st.excess.getD 0 0 = e0 := by
    rw [hE]
    rfl
  have hadj : (push st 0 j).adj = [X.set j ⟨1, j - 1, 2147483647 - min e0 2147483647⟩,
      Y.set (j - 1) { Y.getD (j - 1) default with
        cap := (Y.getD (j - 1) default).cap + min e0 2147483647 },
      [⟨0, 0, 5⟩, ⟨3, 1, 3⟩], [⟨0, k + 1, 0⟩, ⟨2, 1, 0⟩, ⟨1, k, 1⟩], [⟨1, k + 1, 0⟩]] := by
    rw [push_adj, harc, hex0, hA, pushFlow_five _ _ _ _ _ j 1 (j - 1) _ _ hXj (by omega)]
    rfl
  rw [hstep]
  refine ⟨_, _, e0 - min e0 2147483647, hadj, hH, hC, hI, ?_, ?_, ?_, ?_, hW, ?_, ?_, ?_, ?_, ?_⟩
  · show (push st 0 j).excess = _
    rw [push_excess, harc, hex0, hE]
    show [e0 - min e0 2147483647, SOURCE_EXCESS - 5 - e0 + min e0 2147483647, 5, 0, 0] = _
    congr 2
    omega
  · show (push st 0 j).buckets = _
    rw [push_buckets, harc, hE, hB, hH, if_neg (by omega : ¬ j + 1 = 1)]
    show (if SOURCE_EXCESS - 5 - e0 = 0 then
      [[], (if j = 1 then [] else [1]) ++ [1], [], [2], []]
      else [[], if j = 1 then [] else [1], [], [2], []]) = _
    by_cases hj1 : j = 1
    · rw [if_pos hj1, if_pos]
      · rfl
      · rw [he, hj1, hSE]
        decide
    · rw [if_neg hj1, if_neg]
      rw [he, hSE]
      omega
  · show 3 ≤ max st.max_height _
    exact le_max_of_le_left m1
  · show max st.max_height ((push st 0 j).height.getD (arc (push st 0 j).adj 0 j).dst 0 : Int) < 5
    have e : arc (push st 0 j).adj 0 j = ⟨1, j - 1, 2147483647 - min e0 2147483647⟩ := by
      rw [hadj]
      show (X.set j _).getD j default = _
      rw [getD_set_eq, if_pos ⟨rfl, by omega⟩]
    have e2 : (push st 0 j).height = st.height := rfl
    rw [e, e2, hH]
    exact max_lt m2 (show ((1 : Nat) : Int) < 5 by decide)
  · rw [List.length_set, lX]
  · rw [List.length_set, lY]
  · intro i hi
    rw [getD_set_eq, if_neg (by omega), hX i (by omega)]
  · rw [getD_set_eq, if_neg (by omega), hY]
  · rw [he, hSE]
    push_cast
    omega

theorem drainFill_first (k : Nat) (st : State) (hA : st.adj = drainNet k)
    (hH : st.height = [5, 1, 3, 2, 0]) (hC : st.count = [0, 1, 1, 1, 0])
    (hI : st.iter = [0, 0, 0, 0, 0]) (hE : st.excess = [SOURCE_EXCESS, 0, 0, 0, 0])
    (hB : st.buckets = [[], [], [], [], []]) (m2 : st.max_height < 5)
    (hW : st.work = 0) : DrainFill k 1 (pushSourceStep 5 0 st 0) := by
  have hSE : SOURCE_EXCESS = 1152921504606846981 := rfl
  have hXj : (drainArcs0 k).getD 0 default = ⟨2, 0, 5⟩ := by
    rw [drainArcs0_getD, if_pos rfl]
  have harc : arc st.adj 0 0 = ⟨2, 0, 5⟩ := by
    rw [hA]
    exact hXj
  have hstep : pushSourceStep 5 0 st 0 = { push st 0 0 with
      max_height := max (push st 0 0).max_height
        ((push st 0 0).height.getD (arc (push st 0 0).adj 0 0).dst 0 : Int) } := by
    unfold pushSourceStep
    rw [harc, hH]
    exact if_pos (by decide : (3 : Nat) < 5)
  have hex0 : st.excess.getD 0 0 = SOURCE_EXCESS := by
    rw [hE]
    rfl
  have hmin : min SOURCE_EXCESS 5 = 5 := by decide
  have hadj : (push st 0 0).adj = [(drainArcs0 k).set 0 ⟨2, 0, 0⟩, drainArcs1 k,
      [⟨0, 0, 5⟩, ⟨3, 1, 3⟩], [⟨0, k + 1, 0⟩, ⟨2, 1, 0⟩, ⟨1, k, 1⟩], [⟨1, k + 1, 0⟩]] := by
    rw [push_adj, harc, hex0, hA]
    show pushFlow [drainArcs0 k, drainArcs1 k, _, _, _] 0 0 (min SOURCE_EXCESS 5) = _
    rw [pushFlow_five _ _ _ _ _ 0 2 0 _ _ hXj (by rw [drainArcs0_length]; omega), hmin]
    rfl
  rw [hstep]
  refine ⟨_, _, SOURCE_EXCESS - 5, hadj, hH, hC, hI, ?_, ?_, ?_, ?_, hW, ?_, ?_, ?_, ?_, ?_⟩
  · show (push st 0 0).excess = _
    rw [push_excess, harc, hex0, hE, hmin]
    decide
  · show (push st 0 0).buckets = _
    rw [push_buckets, harc, hE, hB, hH]
    decide
  · show 3 ≤ max st.max_height ((push st 0 0).height.getD (arc (push st 0 0).adj 0 0).dst 0 : Int)
    have e : arc (push st 0 0).adj 0 0 = ⟨2, 0, 0⟩ := by
      rw [hadj]
      show ((drainArcs0 k).set 0 _).getD 0 default = _
      rw [getD_set_eq, if_pos ⟨rfl, by rw [drainArcs0_length]; omega⟩]
    have e2 : (push st 0 0).height = st.height := rfl
    rw [e, e2, hH]
    exact le_max_of_le_right (by decide)
  · show max st.max_height ((push st 0 0).height.getD (arc (push st 0 0).adj 0 0).dst 0 : Int) < 5
    have e : arc (push st 0 0).adj 0 0 = ⟨2, 0, 0⟩ := by
      rw [hadj]
      show ((drainArcs0 k).set 0 _).getD 0 default = _
      rw [getD_set_eq, if_pos ⟨rfl, by rw [drainArcs0_length]; omega⟩]
    have e2 : (push st 0 0).height = st.height := rfl
    rw [e, e2, hH]
    exact max_lt m2 (by decide)
  · rw [List.length_set, drainArcs0_length]
  · exact drainArcs1_length k
  · intro i hi
    rw [getD_set_eq, if_neg (by omega)]
  · rw [drainArcs1_getD, if_neg (by omega), if_neg (by omega), if_pos rfl]
  · rw [hSE]
    decide

theorem drainFill_last (k : Nat) (st : State) (h : DrainFill k (k + 1) st)
    (hk : SOURCE_EXCESS - 5 ≤ (k : Int) * 2147483647) :
    DrainFilled k (pushSourceStep 5 0 st (k + 1)) := by
  obtain ⟨X, Y, e0, hA, hH, hC, hI, hE, hB, m1, m2, hW, lX, lY, hX, hY, he⟩ := h
  have hSE : SOURCE_EXCESS = 1152921504606846981 := rfl
  have hk1 : ¬ k + 1 = 1 := by
    rw [hSE] at hk
    omega
  have he0 : e0 = 0 := by
    rw [he]
    push_cast
    rw [hSE] at hk ⊢
    omega
  rw [he0] at hE
  rw [if_neg hk1] at hB
  have hXj : X.getD (k + 1) default = ⟨3, 0, 5⟩ := by
    rw [hX (k + 1) (le_refl _), drainArcs0_getD, if_neg (by omega), if_neg (by omega),
      if_pos rfl]
  have harc : arc st.adj 0 (k + 1) = ⟨3, 0, 5⟩ := by
    rw [hA]
    exact hXj
  have hstep : pushSourceStep 5 0 st (k + 1) = { push st 0 (k + 1) with
      max_height := max (push st 0 (k + 1)).max_height
        ((push st 0 (k + 1)).height.getD (arc (push st 0 (k + 1)).adj 0 (k + 1)).dst 0 : Int) } := by
    unfold pushSourceStep
    rw [harc, hH]
    exact if_pos (by decide : (2 : Nat) < 5)
  have hex0 : st.excess.getD 0 0 = 0 := by
    rw [hE]
    rfl
  have hmin : min (0 : Int) 5 = 0 := by decide
  have hadj : (push st 0 (k + 1)).adj = [X.set (k + 1) ⟨3, 0, 5⟩, Y,
      [⟨0, 0, 5⟩, ⟨3, 1, 3⟩], [⟨0, k + 1, 0⟩, ⟨2, 1, 0⟩, ⟨1, k, 1⟩], [⟨1, k + 1, 0⟩]] := by
    rw [push_adj, harc, hex0, hA, pushFlow_five _ _ _ _ _ (k + 1) 3 0 _ _ hXj (by omega), hmin]
    rfl
  rw [hstep]
  refine ⟨_, _, hadj, hH, hC, hI, ?_, ?_, ?_, ?_, hW, ?_, lY, ?_, hY⟩
  · show (push st 0 (k + 1)).excess = _
    rw [push_excess, harc, hex0, hE, hmin]
    decide
  · show (push st 0 (k + 1)).buckets = _
    rw [push_buckets, harc, hE, hB, hH]
    decide
  · show 3 ≤ max st.max_height _
    exact le_max_of_le_left m1
  · show max st.max_height
      ((push st 0 (k + 1)).height.getD (arc (push st 0 (k + 1)).adj 0 (k + 1)).dst 0 : Int) < 5
    have e : arc (push st 0 (k + 1)).adj 0 (k + 1) = ⟨3, 0, 5⟩ := by
      rw [hadj]
      show (X.set (k + 1) _).getD (k + 1) default = _
      rw [getD_set_eq, if_pos ⟨rfl, by omega⟩]
    have e2 : (push st 0 (k + 1)).height = st.height := rfl
    rw [e, e2, hH]
    exact max_lt m2 (by decide)
  · rw [List.length_set, lX]
  · rw [getD_set_eq, if_pos ⟨rfl, by omega⟩]

end HLPPHeuristic

namespace HLPPHeuristic

/-- The loop over the arcs of the source on the network built from `drainInput k`, up to the
arc of index `m`. -/
theorem drainFill_fold (k : Nat) (st : State) (hA : st.adj = drainNet k)
    (hH : st.height = [5, 1, 3, 2, 0]) (hC : st.count = [0, 1, 1, 1, 0])
    (hI : st.iter = [0, 0, 0, 0, 0]) (hE : st.excess = [SOURCE_EXCESS, 0, 0, 0, 0])
    (hB : st.buckets = [[], [], [], [], []]) (m2 : st.max_height < 5)
    (hW : st.work = 0) (m : Nat) (hm : m ≤ k) :
    DrainFill k (m + 1) ((List.range (m + 1)).foldl (pushSourceStep 5 0) st) := by
  induction m with
  | zero => exact drainFill_first k st hA hH hC hI hE hB m2 hW
  | succ m ih =>
    rw [List.range_succ, List.foldl_append]
    exact drainFill_step k (m + 1) _ (ih (by omega)) (by omega) hm

/-- The loop over the arcs of the source on the network built from `drainInput k`, when the
`k` parallel arcs can take all of `SOURCE_EXCESS - 5`. -/
theorem drain_pushSource (k : Nat) (st : State) (hA : st.adj = drainNet k)
    (hH : st.height = [5, 1, 3, 2, 0]) (hC : st.count = [0, 1, 1, 1, 0])
    (hI : st.iter = [0, 0, 0, 0, 0]) (hE : st.excess = [SOURCE_EXCESS, 0, 0, 0, 0])
    (hB : st.buckets = [[], [], [], [], []]) (m2 : st.max_height < 5)
    (hW : st.work = 0) (hk : SOURCE_EXCESS - 5 ≤ (k : Int) * 2147483647) :
    DrainFilled k (pushSource 5 0 st) := by
  have hl : (arcs st.adj 0).length = k + 1 + 1 := by
    rw [hA]
    exact drainArcs0_length k
  rw [pushSource_eq, hl, List.range_succ, List.foldl_append]
  exact drainFill_last k _ (drainFill_fold k st hA hH hC hI hE hB m2 hW k (le_refl _)) hk

/-- The `discharge` of node 2 on the network built from `drainInput k`: 3 units go to node 3,
which enters `buckets[2]` a second time, and the gap step raises node 2 to height 5. -/
theorem drain_discharge_two (k f : Nat) (st : State)
    (h : DrainAt k [⟨0, 0, 5⟩, ⟨3, 1, 3⟩] [⟨0, k + 1, 0⟩, ⟨2, 1, 0⟩, ⟨1, k, 1⟩]
      [5, 1, 3, 2, 0] [0, 1, 1, 1, 0] [0, 0, 0, 0, 0] [0, SOURCE_EXCESS - 5, 5, 0, 0]
      [[], [1], [3], [2], []] 3 st) :
    ∃ st', discharge 5 (f + 11) (popped st) (topNode st) = some st' ∧
      DrainAt k [⟨0, 0, 5⟩, ⟨3, 1, 0⟩] [⟨0, k + 1, 0⟩, ⟨2, 1, 3⟩, ⟨1, k, 1⟩]
        [5, 1, 5, 2, 0] [0, 1, 1, 0, 0] [0, 0, 2, 0, 0] [0, SOURCE_EXCESS - 5, 2, 3, 0]
        [[], [1], [3, 3], [], []] 3 st' := by
  obtain ⟨X, Y, hA, hH, hC, hI, hE, hB, hM, hW, lX, lY, hX, hY⟩ := h
  obtain ⟨adj, height, que, count, iter, excess, buckets, mh, work, hist⟩ := st
  simp only at hA hH hC hI hE hB hM hW
  subst hA hH hC hI hE hB hM hW
  exact ⟨_, rfl, X, Y, rfl, rfl, rfl, rfl, rfl, rfl, rfl, rfl, lX, lY, hX, hY⟩

set_option maxHeartbeats 4000000

/-- The `discharge` of node 3 on the network built from `drainInput k`: one unit goes to
node 1, and the gap step raises node 3 to height 5 while its second copy stays in
`buckets[2]`. -/
theorem drain_discharge_three (k f : Nat) (st : State)
    (h : DrainAt k [⟨0, 0, 5⟩, ⟨3, 1, 0⟩] [⟨0, k + 1, 0⟩, ⟨2, 1, 3⟩, ⟨1, k, 1⟩]
      [5, 1, 5, 2, 0] [0, 1, 1, 0, 0] [0, 0, 2, 0, 0] [0, SOURCE_EXCESS - 5, 2, 3, 0]
      [[], [1], [3, 3], [], []] 2 st) :
    ∃ st', discharge 5 (f + 11) (popped st) (topNode st) = some st' ∧
      DrainAt k [⟨0, 0, 5⟩, ⟨3, 1, 0⟩] [⟨0, k + 1, 0⟩, ⟨2, 1, 3⟩, ⟨1, k, 0⟩]
        [5, 1, 5, 5, 0] [0, 1, 0, 0, 0] [0, 0, 2, 3, 0] [0, SOURCE_EXCESS - 4, 2, 2, 0]
        [[], [1], [3], [], []] 2 st' := by
  obtain ⟨X, Y, hA, hH, hC, hI, hE, hB, hM, hW, lX, lY, hX, hY⟩ := h
  obtain ⟨adj, height, que, count, iter, excess, buckets, mh, work, hist⟩ := st
  simp only at hA hH hC hI hE hB hM hW
  subst hA hH hC hI hE hB hM hW
  refine ⟨_, rfl, X, Y.set k { Y.getD k default with cap := (Y.getD k default).cap + 1 },
    ?_, rfl, rfl, rfl, rfl, rfl, rfl, rfl, lX, ?_, hX, ?_⟩
  · rfl
  · rw [List.length_set, lY]
  · rw [getD_set_eq, if_neg (by omega), hY]

set_option maxHeartbeats 200000

/-- The state in which `flow` enters its main loop on the network built from
`drainInput k`. -/
theorem drain_head_filled (k f : Nat) (hk : SOURCE_EXCESS - 5 ≤ (k : Int) * 2147483647) :
    ∃ sp, AtLoopHead 5 0 4 (f + 11) (drainInput k) sp ∧ DrainFilled k sp := by
  obtain ⟨q, mh, hist, g1, _, g3⟩ := drain_first_relabel k (f + 11) (by omega)
  have hf := drain_pushSource k ⟨drainNet k, [5, 1, 3, 2, 0], q, [0, 1, 1, 1, 0],
    [0, 0, 0, 0, 0], [SOURCE_EXCESS, 0, 0, 0, 0], [[], [], [], [], []], mh, 0, hist⟩ rfl rfl rfl
    rfl rfl rfl g3 rfl hk
  have hm : (0 : Int) < (pushSource 5 0 ⟨drainNet k, [5, 1, 3, 2, 0], q, [0, 1, 1, 1, 0],
      [0, 0, 0, 0, 0], [SOURCE_EXCESS, 0, 0, 0, 0], [[], [], [], [], []], mh, 0,
      hist⟩).max_height := by
    obtain ⟨_, _, _, _, _, _, _, _, m1, _⟩ := hf
    omega
  exact ⟨_, AtLoopHead.first _ g1 hm, hf⟩

/-- The run of `flow` on the network built from `drainInput k`, when the `k` parallel arcs
can take all of `SOURCE_EXCESS - 5`: the states at the head of the inner loop after the
`discharge` of node 2 and after the first `discharge` of node 3. -/
theorem drain_heads (k f : Nat) (hk : SOURCE_EXCESS - 5 ≤ (k : Int) * 2147483647) :
    ∃ st2 st3, AtLoopHead 5 0 4 (f + 11) (drainInput k) st2 ∧
      st2.buckets.getD st2.max_height.toNat [] ≠ [] ∧
      DrainAt k [⟨0, 0, 5⟩, ⟨3, 1, 3⟩] [⟨0, k + 1, 0⟩, ⟨2, 1, 0⟩, ⟨1, k, 1⟩]
        [5, 1, 3, 2, 0] [0, 1, 1, 1, 0] [0, 0, 0, 0, 0] [0, SOURCE_EXCESS - 5, 5, 0, 0]
        [[], [1], [3], [2], []] 3 st2 ∧
      AtLoopHead 5 0 4 (f + 11) (drainInput k) st3 ∧
      DrainAt k [⟨0, 0, 5⟩, ⟨3, 1, 0⟩] [⟨0, k + 1, 0⟩, ⟨2, 1, 3⟩, ⟨1, k, 0⟩]
        [5, 1, 5, 5, 0] [0, 1, 0, 0, 0] [0, 0, 2, 3, 0] [0, SOURCE_EXCESS - 4, 2, 2, 0]
        [[], [1], [3], [], []] 2 st3 := by
  obtain ⟨sp, hfirst, X, Y, hA, hH, hC, hI, hE, hB, m1, m2, hW, lX, lY, hX, hY⟩ :=
    drain_head_filled k f hk
  -- the state in which `max_height` is 3
  have ha : ∃ st, AtLoopHead 5 0 4 (f + 11) (drainInput k) st ∧
      DrainAt k [⟨0, 0, 5⟩, ⟨3, 1, 3⟩] [⟨0, k + 1, 0⟩, ⟨2, 1, 0⟩, ⟨1, k, 1⟩]
        [5, 1, 3, 2, 0] [0, 1, 1, 1, 0] [0, 0, 0, 0, 0] [0, SOURCE_EXCESS - 5, 5, 0, 0]
        [[], [1], [3], [2], []] 3 st := by
    have hc : sp.max_height = 3 ∨ sp.max_height = 4 := by
      omega
    rcases hc with c | c
    · exact ⟨_, hfirst, X, Y, hA, hH, hC, hI, hE, hB, c, hW, lX, lY, hX, hY⟩
    · refine ⟨_, AtLoopHead.lowered _ hfirst ?_ ?_, X, Y, hA, hH, hC, hI, hE, hB, ?_, hW, lX,
        lY, hX, hY⟩
      · rw [hB, c]
        rfl
      · rw [c]
        decide
      · show sp.max_height - 1 = 3
        rw [c]
        rfl
  obtain ⟨sta, a1, a2⟩ := ha
  have hne : sta.buckets.getD sta.max_height.toNat [] ≠ [] := by
    obtain ⟨_, _, _, _, _, _, _, b, m, _⟩ := a2
    rw [b, m]
    decide
  obtain ⟨stc, c1, c2⟩ := drain_discharge_two k f sta a2
  have hwc : ¬ stc.work > 5 * ((5 : Nat) : Int) := by
    obtain ⟨_, _, _, _, _, _, _, _, _, w, _⟩ := c2
    rw [w]
    decide
  have hc := AtLoopHead.discharged sta stc a1 hne c1 hwc
  -- `--max_height`
  have hd : AtLoopHead 5 0 4 (f + 11) (drainInput k) { stc with max_height := stc.max_height - 1 } ∧
      DrainAt k [⟨0, 0, 5⟩, ⟨3, 1, 0⟩] [⟨0, k + 1, 0⟩, ⟨2, 1, 3⟩, ⟨1, k, 1⟩]
        [5, 1, 5, 2, 0] [0, 1, 1, 0, 0] [0, 0, 2, 0, 0] [0, SOURCE_EXCESS - 5, 2, 3, 0]
        [[], [1], [3, 3], [], []] 2 { stc with max_height := stc.max_height - 1 } := by
    obtain ⟨X, Y, hA, hH, hC, hI, hE, hB, hM, hW, lX, lY, hX, hY⟩ := c2
    refine ⟨AtLoopHead.lowered _ hc ?_ ?_, X, Y, hA, hH, hC, hI, hE, hB, ?_, hW, lX, lY, hX,
      hY⟩
    · rw [hB, hM]
      rfl
    · rw [hM]
      decide
    · show stc.max_height - 1 = 2
      rw [hM]
      rfl
  obtain ⟨d1, d2⟩ := hd
  have hne2 : ({ stc with max_height := stc.max_height - 1 } : State).buckets.getD
      ({ stc with max_height := stc.max_height - 1 } : State).max_height.toNat [] ≠ [] := by
    obtain ⟨_, _, _, _, _, _, _, b, m, _⟩ := d2
    rw [b, m]
    decide
  obtain ⟨ste, e1, e2⟩ := drain_discharge_three k f _ d2
  have hwe : ¬ ste.work > 5 * ((5 : Nat) : Int) := by
    obtain ⟨_, _, _, _, _, _, _, _, _, w, _⟩ := e2
    rw [w]
    decide
  exact ⟨sta, ste, a1, hne, a2, AtLoopHead.discharged _ ste d1 hne2 e1 hwe, e2⟩

end HLPPHeuristic

namespace HLPPHeuristic

/-- The capacity leaving the source in the network built from `drainInput k`. -/
theorem capSum_drainArcs0 (k : Nat) : capSum (drainArcs0 k) = 10 + (k : Int) * 2147483647 := by
  unfold capSum drainArcs0
  simp [List.map_map, Function.comp_def]
  ring

/-- On the network built from `drainInput k`, when the `k` parallel arcs can take all of
`SOURCE_EXCESS - 5`, the run of `flow` takes node 3 from `buckets[2]` at height 5: the loop
of `discharge` over its arcs ends at once, with excess left. -/
theorem drain_top_at_n (k f : Nat) (hk : SOURCE_EXCESS - 5 ≤ (k : Int) * 2147483647) :
    ∃ st st0, AtLoopHead 5 0 4 (f + 11) (drainInput k) st ∧
      st.buckets.getD st.max_height.toNat [] ≠ [] ∧
      dischargeScan (f + 11) (popped st) (topNode st) = some (false, st0) ∧
      0 < st0.excess.getD (topNode st) 0 ∧ st0.count.length = 5 ∧
      st0.height.getD (topNode st) 0 = 5 := by
  obtain ⟨_, st, _, _, _, h1, X, Y, hA, hH, hC, hI, hE, hB, hM, hW, lX, lY, hX, hY⟩ :=
    drain_heads k f hk
  obtain ⟨adj, height, que, count, iter, excess, buckets, mh, work, hist⟩ := st
  simp only at hA hH hC hI hE hB hM hW
  subst hA hH hC hI hE hB hM hW
  exact ⟨_, _, h1, (show ([3] : List Nat) ≠ [] by decide), rfl,
    (show (0 : Int) < 2 by decide), rfl, rfl⟩

end HLPPHeuristic

/-- C28 fails on inputs whose source capacity exceeds `2^60 + 5`: on the network of five
nodes built from the edge 0->2 of capacity 5, `2^29 + 1` parallel edges 0->1 of capacity
`2^31 - 1` and the edges 0->3 (5), 2->3 (3), 3->1 (1), 1->4 (1), with any fuel above 10, the
run of `flow` reaches the head of its inner loop in a state whose top bucket holds a node `v`
of height `5 = n`: the loop of `discharge(v)` over the arcs of `v` ends at once with excess
left at `v`, and the index `height[v]` of the test `count[height[v]] > 1` that follows is the
length of `count`. -/
theorem heuristic_gap_step_counterexample :
    InRange 5 (HLPPHeuristic.drainInput (2 ^ 29 + 1)) ∧
    ¬ capSum (arcs (buildPreflow 5 0 (5 - 1) (HLPPHeuristic.drainInput (2 ^ 29 + 1))) 0) ≤
      SOURCE_EXCESS ∧
    ∀ fuel, 10 < fuel → ∃ st st0,
      HLPPHeuristic.AtLoopHead 5 0 (5 - 1) fuel (HLPPHeuristic.drainInput (2 ^ 29 + 1)) st ∧
      st.buckets.getD st.max_height.toNat [] ≠ [] ∧
      HLPPHeuristic.dischargeScan fuel (HLPPHeuristic.popped st) (HLPPHeuristic.topNode st) =
        some (false, st0) ∧
      0 < st0.excess.getD (HLPPHeuristic.topNode st) 0 ∧
      st0.count.length = 5 ∧
      st0.height.getD (HLPPHeuristic.topNode st) 0 = 5 := by
  refine ⟨HLPPHeuristic.inRange_drainInput _, ?_, ?_⟩
  · show ¬ capSum (arcs (buildPreflow 5 0 4 (HLPPHeuristic.drainInput (2 ^ 29 + 1))) 0) ≤ _
    rw [HLPPHeuristic.buildPreflow_drainInput]
    show ¬ capSum (HLPPHeuristic.drainArcs0 (2 ^ 29 + 1)) ≤ _
    rw [HLPPHeuristic.capSum_drainArcs0]
    unfold SOURCE_EXCESS
    norm_num
  · intro fuel hfuel
    obtain ⟨f, rfl⟩ : ∃ f, fuel = f + 11 := ⟨fuel - 11, by omega⟩
    exact HLPPHeuristic.drain_top_at_n (2 ^ 29 + 1) f (by unfold SOURCE_EXCESS; norm_num)
